import Mathlib

/-!
# Sheet assembly, reachability search, cycle enumeration and handedness

A shallow embedding of the sheet layer of the program
(`include/sheet/adj_list_with_sub.h`, `include/sheet/find_cycle.h`,
`src/sheet_find_cycle.cpp`, `include/sheet/sheets.h`, `src/sheet_sheets.cpp`,
`src/sheet_directed_adjacency_list.cpp`, `src/sheet_adj_list_with_sub.cpp`,
`src/sheet_sub_strands_range.cpp`, `include/sheet/adjacent_substrand.h`,
`src/sheet_cb_side.cpp`, `src/sheet_pairs.cpp`, `src/pdb_sse.cpp`,
`src/pdb_sses.cpp`) and of the handedness filter (`include/bab/filter.h`,
`src/find_left_bab_filter.cpp`, `include/bab/side.h`,
`src/find_left_bab_side.cpp`, `src/sheet_filter.cpp`,
`src/handedness_out.cpp`), together with the properties proved about them.

Conventions of the embedding:

* `std::vector` is `List`; `std::unordered_set` is a `List` used as a set
  (insertion keeps one copy); `std::unordered_map` is an association list
  whose first binding of a key is the live one and whose `insert` keeps an
  existing binding.
* `IndexType` is `unsigned char`; values converted to it are reduced modulo 256.
* A `double` is held as a rational number; rounding and `NaN` are outside the
  embedding.
* Loops that are not structurally recursive carry a fuel argument. In the
  functions that return an `Option`, running out of fuel and a thrown exception
  both give `none`; the functions that return an `Except Failure` tell a thrown
  exception, a step without defined behaviour and the end of the fuel apart.
-/

namespace sheet

/-! ## Data model (`include/sheet/adj_list_with_sub.h`) -/

/-- A sub-strand: the serial number of a strand and the index of the piece. -/
structure SubStrand where
  str : Nat
  substr : Nat
deriving DecidableEq, Repr

/-- The `operator<` of `SubStrand`. -/
def SubStrand.lt (a b : SubStrand) : Bool :=
  decide (a.str < b.str) || (decide (a.str = b.str) && decide (a.substr < b.substr))

/-- The key of a directed edge between two sub-strands. -/
structure SubStrandsPairKey where
  str0 : Nat
  substr0 : Nat
  str1 : Nat
  substr1 : Nat
deriving DecidableEq, Repr

/-- The constructor of a key from two sub-strands. -/
def SubStrandsPairKey.ofSubs (s0 s1 : SubStrand) : SubStrandsPairKey :=
  ⟨s0.str, s0.substr, s1.str, s1.substr⟩

/-- The first sub-strand of a key. -/
def SubStrandsPairKey.sub0 (k : SubStrandsPairKey) : SubStrand := ⟨k.str0, k.substr0⟩

/-- The second sub-strand of a key. -/
def SubStrandsPairKey.sub1 (k : SubStrandsPairKey) : SubStrand := ⟨k.str1, k.substr1⟩

/-- The key with both sub-strands swapped. -/
def SubStrandsPairKey.reverse (k : SubStrandsPairKey) : SubStrandsPairKey :=
  ⟨k.str1, k.substr1, k.str0, k.substr0⟩

/-- The data stored for an edge; `direction` is true for parallel. -/
structure SubStrandsPairNode where
  direction : Bool := false
  delta_1 : Int := 0
  delta_2 : Int := 1
  residue_pairs : Nat := 1
deriving DecidableEq, Repr

/-- The edge map `AdjListWithSubData`. -/
abbrev AdjListWithSubData := List (SubStrandsPairKey × SubStrandsPairNode)

/-- The index `AdjSubVec` from a sub-strand to the keys of its outgoing edges. -/
abbrev AdjSubVec := List (SubStrand × List SubStrandsPairKey)

/-- The vector of edge keys `SubStrandsPairKeyVec`. -/
abbrev SubStrandsPairKeyVec := List SubStrandsPairKey

/-- The attribute of an ordered pair of sub-strands
(`include/sheet/substr_pair_attr.h`). -/
structure StrandsPairAttribute where
  ss0 : SubStrand
  ss1 : SubStrand
  reachable : Bool := false
  jump : Nat := 0
  direction : Bool := true
  jumped_substrs : List SubStrand := []
deriving DecidableEq, Repr

/-! ## Cycle enumeration (`include/sheet/find_cycle.h`, `src/sheet_find_cycle.cpp`) -/

/-- The scan of `std::min_element`: `best` is the smallest element so far and
`bi` its position, `i` is the position of the head of the remaining list. -/
def min_element_scan {α : Type} (lt : α → α → Bool) : α → Nat → Nat → List α → Nat
  | _, bi, _, [] => bi
  | best, bi, i, x :: xs =>
    if lt x best then min_element_scan lt x i (i + 1) xs
    else min_element_scan lt best bi (i + 1) xs

/-- The position `std::min_element` returns: the first smallest element, or the
end (position 0) of an empty range. -/
def min_element {α : Type} (lt : α → α → Bool) : List α → Nat
  | [] => 0
  | x :: xs => min_element_scan lt x 0 1 xs

/-- The function `rotate_to_smallest`: the range from the smallest element to
the end, followed by the range before the smallest element. -/
def rotate_to_smallest {α : Type} (lt : α → α → Bool) (l : List α) : List α :=
  l.drop (min_element lt l) ++ l.take (min_element lt l)

/-- The function `invert`: `rotate_to_smallest` over the reverse iterators. -/
def invert {α : Type} (lt : α → α → Bool) (path : List α) : List α :=
  rotate_to_smallest lt path.reverse

/-- The order of node indices. -/
def natLt (a b : Nat) : Bool := decide (a < b)

/-- The method `FindCycle::has_node`: the position of the node, `none` for -1. -/
def has_node : List SubStrand → SubStrand → Option Nat
  | [], _ => none
  | x :: xs, s => if x = s then some 0 else (has_node xs s).map (· + 1)

/-- One end of an edge in `FindCycle::init_edges`: the node is registered when
it is new, and its index is appended to the flat edge vector. -/
def init_edges_end (st : List SubStrand × List Nat) (s : SubStrand) :
    List SubStrand × List Nat :=
  match has_node st.1 s with
  | none => (st.1 ++ [s], st.2 ++ [st.1.length])
  | some i => (st.1, st.2 ++ [i])

/-- The method `FindCycle::init_edges`: the node table and the flat edge vector
(even positions hold the first node of an edge, odd positions the second). -/
def init_edges (orig_edges : SubStrandsPairKeyVec) : List SubStrand × List Nat :=
  orig_edges.foldl (fun st key => init_edges_end (init_edges_end st key.sub0) key.sub1) ([], [])

/-- The pairs `(edges[i], edges[i+1])` for `i = 0, 2, 4, ...`. -/
def edge_pairs : List Nat → List (Nat × Nat)
  | a :: b :: rest => (a, b) :: edge_pairs rest
  | _ => []

/-- The closing branch of `FindCycle::find_new_cycles`: the normalised path is
recorded, inverted, unless it or its inverse is already known. -/
def push_cycle (path : List Nat) (cycles : List (List Nat)) : List (List Nat) :=
  if rotate_to_smallest natLt path ∉ cycles ∧
      invert natLt (rotate_to_smallest natLt path) ∉ cycles then
    cycles ++ [invert natLt (rotate_to_smallest natLt path)]
  else cycles

/-- The method `FindCycle::find_new_cycles`; the recursion depth is bounded by
the fuel. -/
def find_new_cycles (edges : List (Nat × Nat)) :
    Nat → List Nat → List (List Nat) → Option (List (List Nat))
  | 0, _, _ => none
  | fuel + 1, path, cycles =>
    edges.foldlM (fun cyc e =>
      if path.head? = some e.1 then
        if e.2 ∉ path then find_new_cycles edges fuel (e.2 :: path) cyc
        else if 2 < path.length ∧ path.getLast? = some e.2 then some (push_cycle path cyc)
        else some cyc
      else some cyc) cycles

/-- The method `FindCycle::init_hidden_cycles`: a search from every entry of the
flat edge vector. A path holds distinct nodes, so the depth of the recursion is
at most the number of nodes. -/
def init_hidden_cycles (nodes : List SubStrand) (edges : List Nat) :
    Option (List (List Nat)) :=
  edges.foldlM (fun cyc edge => find_new_cycles (edge_pairs edges) (nodes.length + 1) [edge] cyc) []

/-- The method `FindCycle::init_cycles`: node indices are replaced by the
sub-strands and each cycle is rotated to its smallest sub-strand. An index
outside the node table is an error. -/
def init_cycles (nodes : List SubStrand) (hidden : List (List Nat)) :
    Option (List (List SubStrand)) :=
  hidden.mapM (fun one_cycle =>
    (one_cycle.mapM (fun a => nodes.get? a)).map (rotate_to_smallest SubStrand.lt))

/-- The member `cycles` of `FindCycle{key_vec}`. -/
def FindCycle (key_vec : SubStrandsPairKeyVec) : Option (List (List SubStrand)) :=
  (init_hidden_cycles (init_edges key_vec).1 (init_edges key_vec).2).bind
    (init_cycles (init_edges key_vec).1)

/-! ## One sheet (`include/sheet/sheets.h`, `src/sheet_sheets.cpp`) -/

/-- A value converted to `IndexType` (`unsigned char`). -/
def toIndexType (n : Nat) : Nat := n % 256

/-- Insertion into a `SubStrandSet`. -/
def set_insert (s : List SubStrand) (x : SubStrand) : List SubStrand :=
  if x ∈ s then s else s ++ [x]

/-- Insertion of a range into a `SubStrandSet`. -/
def set_insert_all (s : List SubStrand) (xs : List SubStrand) : List SubStrand :=
  xs.foldl set_insert s

/-- The class `Sheet` with the default member initialisers. -/
structure Sheet where
  member_substr : List SubStrand := []
  cycles_vec : List (List SubStrand) := []
  sheet_size : Nat := 0
  max_key : SubStrandsPairKey := ⟨0, 0, 0, 0⟩
  with_cycle : Bool := false
  is_undirected : Bool := false
  substr_pair_keys : SubStrandsPairKeyVec := []
deriving DecidableEq, Repr

/-- The accessor `Sheet::size`. -/
def Sheet.size (sh : Sheet) : Nat := sh.sheet_size

/-- The method `Sheet::add_jump`; `jump` is the `IndexType` argument, promoted
to `unsigned` in `jump + 2u`. -/
def Sheet.add_jump (sh : Sheet) (pair : SubStrandsPairKey) (jump : Nat) : Sheet :=
  if sh.sheet_size < jump + 2 then { sh with sheet_size := jump + 2, max_key := pair } else sh

/-- The method `Sheet::add`; `attr.jump` is converted to `IndexType` at the call
of `add_jump`. -/
def Sheet.add (sh : Sheet) (pair : SubStrandsPairKey) (attr : StrandsPairAttribute) : Sheet :=
  Sheet.add_jump
    { sh with
      member_substr :=
        set_insert_all (set_insert (set_insert sh.member_substr pair.sub0) pair.sub1)
          attr.jumped_substrs }
    pair (toIndexType attr.jump)

/-- The method `Sheet::merge`; `other.sheet_size - 2` is computed in `size_t`
(64 bits) and converted to `IndexType` at the call of `add_jump`. -/
def Sheet.merge (sh other : Sheet) : Sheet :=
  Sheet.add_jump
    { sh with member_substr := set_insert_all sh.member_substr other.member_substr }
    other.max_key (toIndexType ((other.sheet_size + (2 ^ 64 - 2)) % 2 ^ 64))

/-- Insertion of a key into the `std::unordered_set` of `check_undirected`. -/
def key_set_insert (s : List SubStrandsPairKey) (x : SubStrandsPairKey) :
    List SubStrandsPairKey :=
  if x ∈ s then s else s ++ [x]

/-- The `for` loop of `check_undirected` over the key set. The set is listed in
its iteration order: `passed` holds the keys before the iterator, the third
argument those from the iterator on. When the reverse of the current key is in
the set, it is erased, then the current key is erased and the iterator moves
to the next remaining key; otherwise the iterator advances. One unit of fuel
per iteration. -/
def check_undirected_loop :
    Nat → List SubStrandsPairKey → List SubStrandsPairKey → Bool → Option Bool
  | 0, _, _, _ => none
  | _ + 1, _, [], erase_occured => some erase_occured
  | fuel + 1, passed, cur :: rest, erase_occured =>
    if cur.reverse ∈ passed ++ cur :: rest then
      check_undirected_loop fuel (passed.erase cur.reverse) (rest.erase cur.reverse) true
    else check_undirected_loop fuel (passed ++ [cur]) rest erase_occured

/-- The function `check_undirected`. The iteration order of the set is taken
to be the order of first insertion (the order is not fixed by the container;
the result does not depend on it). The two assertions on the size of the set
are not part of the model. -/
def check_undirected (this_key_vec : SubStrandsPairKeyVec) : Option Bool :=
  check_undirected_loop ((this_key_vec.foldl key_set_insert []).length + 1) []
    (this_key_vec.foldl key_set_insert []) false

/-- The method `Sheet::keys`: the keys whose both sub-strands are members. -/
def Sheet.keys (sh : Sheet) (all_key_vec : SubStrandsPairKeyVec) : SubStrandsPairKeyVec :=
  all_key_vec.filter
    (fun k => decide (k.sub0 ∈ sh.member_substr) && decide (k.sub1 ∈ sh.member_substr))

/-- The scan of `std::max_element` with the comparison by size: `best` is the
first largest size so far. -/
def max_size_scan : Nat → List (List SubStrand) → Nat
  | best, [] => best
  | best, c :: cs => if best < c.length then max_size_scan c.length cs else max_size_scan best cs

/-- The size of the element `std::max_element` returns, `none` for the end
iterator of an empty vector. -/
def max_size : List (List SubStrand) → Option Nat
  | [] => none
  | c :: cs => some (max_size_scan c.length cs)

/-- The method `Sheet::cycle_check`. -/
def Sheet.cycle_check (sh : Sheet) (this_key_vec : SubStrandsPairKeyVec) : Option Sheet :=
  (FindCycle this_key_vec).map (fun tmp_cycles =>
    match max_size (sh.cycles_vec ++ tmp_cycles.map (rotate_to_smallest SubStrand.lt)) with
    | none =>
      { sh with cycles_vec := sh.cycles_vec ++ tmp_cycles.map (rotate_to_smallest SubStrand.lt) }
    | some n =>
      { sh with
        cycles_vec := sh.cycles_vec ++ tmp_cycles.map (rotate_to_smallest SubStrand.lt),
        sheet_size := n, with_cycle := true })

/-- The method `Sheet::finish` (the assertion is `finish_assertion`). -/
def Sheet.finish (sh : Sheet) (all_key_vec : SubStrandsPairKeyVec) : Option Sheet :=
  (check_undirected (sh.keys all_key_vec)).bind (fun undirected =>
    Sheet.cycle_check { sh with is_undirected := undirected } (sh.keys all_key_vec))

/-- The condition asserted at the end of `Sheet::finish`. -/
def finish_assertion (sh : Sheet) : Bool := !sh.is_undirected || sh.with_cycle

/-! ## The collection of sheets (`include/sheet/sheets.h`) -/

/-- The test `std::find_first_of(a, b) != a.end()`: some element of `a` is in `b`. -/
def common (a b : List SubStrand) : Bool := a.any (fun x => decide (x ∈ b))

/-- The method `Sheets::find_sheet` for a vector of sub-strands: the position of
the first sheet with a member among `substrs`, `none` for the end iterator. -/
def find_sheet : List Sheet → List SubStrand → Option Nat
  | [], _ => none
  | sh :: rest, substrs =>
    if common sh.member_substr substrs then some 0 else (find_sheet rest substrs).map (· + 1)

/-- The update of the sheet at a position. -/
def modify_at (f : Sheet → Sheet) : Nat → List Sheet → List Sheet
  | _, [] => []
  | 0, sh :: rest => f sh :: rest
  | n + 1, sh :: rest => sh :: modify_at f n rest

/-- The inner loop of `Sheets::reconstruct`: every later sheet with a member in
common with the current sheet is merged into it and erased. -/
def reconstruct_inner : Sheet → List Sheet → Sheet × List Sheet
  | cur, [] => (cur, [])
  | cur, sh :: rest =>
    if common cur.member_substr sh.member_substr then reconstruct_inner (cur.merge sh) rest
    else ((reconstruct_inner cur rest).1, sh :: (reconstruct_inner cur rest).2)

/-- The outer loop of `Sheets::reconstruct`; the fuel bounds the number of
sheets still to visit. -/
def reconstruct_outer : Nat → List Sheet → List Sheet
  | 0, data => data
  | _ + 1, [] => []
  | fuel + 1, sh :: rest =>
    (reconstruct_inner sh rest).1 :: reconstruct_outer fuel (reconstruct_inner sh rest).2

/-- The method `Sheets::reconstruct`. -/
def reconstruct (data : List Sheet) : List Sheet := reconstruct_outer data.length data

/-- The method `Sheets::add`. -/
def Sheets.add (data : List Sheet) (key : SubStrandsPairKey) (attr : StrandsPairAttribute) :
    List Sheet :=
  match find_sheet data attr.jumped_substrs with
  | none => reconstruct (modify_at (fun sh => sh.add key attr) data.length (data ++ [{}]))
  | some i => reconstruct (modify_at (fun sh => sh.add key attr) i data)

/-! ## Reachability search (`src/sheet_directed_adjacency_list.cpp`) -/

/-- The lookup `at` of an `unordered_map`; `none` when the key is absent. -/
def map_at {K V : Type} [DecidableEq K] : List (K × V) → K → Option V
  | [], _ => none
  | e :: rest, x => if e.1 = x then some e.2 else map_at rest x

/-- The method `insert` of an `unordered_map`: an existing binding is kept. -/
def map_insert {K V : Type} [DecidableEq K] (m : List (K × V)) (k : K) (v : V) : List (K × V) :=
  match map_at m k with
  | some _ => m
  | none => m ++ [(k, v)]

/-- The map `PathParents` from a sub-strand to the one it was reached from. -/
abbrev PathParents := List (SubStrand × SubStrand)

/-- The step `adj_sub_vec[ss0].push_back(key)` of `gen_adj_sub_vec`. -/
def adj_push : AdjSubVec → SubStrand → SubStrandsPairKey → AdjSubVec
  | [], ss0, key => [(ss0, [key])]
  | e :: rest, ss0, key =>
    if e.1 = ss0 then (e.1, e.2 ++ [key]) :: rest else e :: adj_push rest ss0 key

/-- The method `AdjListWithSub::gen_adj_sub_vec`. -/
def gen_adj_sub_vec (data : AdjListWithSubData) : AdjSubVec :=
  data.foldl (fun adj e => adj_push adj e.1.sub0 e.1) []

/-- The `for` loop over the adjacent keys in `search_bfs`: every neighbour that
is not examined is queued and gets `node` as parent unless it has one. -/
def bfs_scan (examined : List SubStrand) (node : SubStrand) :
    List SubStrandsPairKey → List SubStrand × PathParents → List SubStrand × PathParents
  | [], st => st
  | k :: ks, st =>
    if k.sub1 ∈ examined then bfs_scan examined node ks st
    else bfs_scan examined node ks (st.1 ++ [k.sub1], map_insert st.2 k.sub1 node)

/-- The `while` loop of `search_bfs` on the queue, the examined set and the
parents; one unit of fuel per iteration. -/
def search_bfs_loop (adj : AdjSubVec) (last : SubStrand) :
    Nat → List SubStrand → List SubStrand → PathParents → Option PathParents
  | 0, _, _, _ => none
  | _ + 1, [], _, _ => some []
  | fuel + 1, node :: rest, examined, parents =>
    if node = last then some parents
    else
      match map_at adj node with
      | none => search_bfs_loop adj last fuel rest (set_insert examined node) parents
      | some keys =>
        search_bfs_loop adj last fuel
          (bfs_scan (set_insert examined node) node keys (rest, parents)).1
          (set_insert examined node)
          (bfs_scan (set_insert examined node) node keys (rest, parents)).2

/-- The number of keys listed in an adjacency index. -/
def adj_size (adj : AdjSubVec) : Nat := (adj.map (fun e => e.2.length)).sum

/-- A number of iterations no run of `search_bfs` exceeds. -/
def bfs_fuel (adj : AdjSubVec) : Nat := (adj_size adj + 1) ^ (2 * adj_size adj + 2) + 1

/-- The method `DirectedAdjacencyList::search_bfs`. -/
def search_bfs (first last : SubStrand) (adj : AdjSubVec) : Option PathParents :=
  search_bfs_loop adj last (bfs_fuel adj) [first] [] []

/-- The `while` loop of `search_backtrace`; `parents.at` and the edge lookup
throw on a missing key. -/
def search_backtrace_loop (data : AdjListWithSubData) (parents : PathParents) (ss0 : SubStrand) :
    Nat → SubStrand → StrandsPairAttribute → Option StrandsPairAttribute
  | 0, _, _ => none
  | fuel + 1, last, attr =>
    if last = ss0 then some attr
    else
      match map_at parents last with
      | none => none
      | some next =>
        match map_at data (SubStrandsPairKey.ofSubs next last) with
        | none => none
        | some node =>
          search_backtrace_loop data parents ss0 fuel next
            { attr with
              jump := attr.jump + 1,
              direction := decide (attr.direction = node.direction),
              jumped_substrs := attr.jumped_substrs ++ [next] }

/-- The method `DirectedAdjacencyList::search_backtrace`; the final decrement of
the `unsigned` counter wraps at zero. The increments in the loop cannot wrap:
a backtrace visits distinct sub-strands, of which there are at most 65536. -/
def search_backtrace (data : AdjListWithSubData) (attr : StrandsPairAttribute)
    (parents : PathParents) : Option StrandsPairAttribute :=
  (search_backtrace_loop data parents attr.ss0 (parents.length + 1) attr.ss1 attr).map
    (fun a => { a with jump := if a.jump = 0 then 2 ^ 32 - 1 else a.jump - 1 })

/-- The method `DirectedAdjacencyList::search` with an explicit adjacency index. -/
def search (data : AdjListWithSubData) (ss0 ss1 : SubStrand) (adj_sub_vec : AdjSubVec) :
    Option StrandsPairAttribute :=
  match search_bfs ss0 ss1 adj_sub_vec with
  | none => none
  | some parents =>
    if parents.length = 0 then some { ss0 := ss0, ss1 := ss1 }
    else search_backtrace data { ss0 := ss0, ss1 := ss1, reachable := true } parents

/-- The loop of `init_sheets` over the ordered pairs of sub-strands, in the
order of the two nested `for` loops, from a given collection of sheets. -/
def init_sheets_loop (data : AdjListWithSubData) (adj : AdjSubVec) :
    List (SubStrand × SubStrand) → List Sheet → Option (List Sheet)
  | [], sheets => some sheets
  | pr :: rest, sheets =>
    match search data pr.1 pr.2 adj with
    | none => none
    | some attr =>
      if attr.reachable then
        init_sheets_loop data adj rest (Sheets.add sheets (SubStrandsPairKey.ofSubs pr.1 pr.2) attr)
      else init_sheets_loop data adj rest sheets

/-- The ordered pairs visited by the two nested loops over the index vector. -/
def index_pairs (vec : List SubStrand) : List (SubStrand × SubStrand) :=
  vec.flatMap (fun sub0 => vec.map (fun sub1 => (sub0, sub1)))

/-- The sheets `init_sheets` holds before the cycle check: every reachable
ordered pair of the index vector has been added. -/
def init_sheets_added (data : AdjListWithSubData) (vec : List SubStrand) : Option (List Sheet) :=
  init_sheets_loop data (gen_adj_sub_vec data) (index_pairs vec) []

/-! ## Notions used to state the properties -/

/-- A comparison that is a strict total order. -/
structure StrictTotal {α : Type} (lt : α → α → Bool) : Prop where
  irrefl : ∀ a, lt a a = false
  trans : ∀ a b c, lt a b = true → lt b c = true → lt a c = true
  total : ∀ a b, a ≠ b → lt a b = true ∨ lt b a = true

/-- A list whose head is strictly smaller than every other element. -/
def Normal {α : Type} (lt : α → α → Bool) (c : List α) : Prop :=
  ∀ h t, c = h :: t → ∀ x ∈ t, lt h x = true

/-- The closed walk `c[0], c[1], ..., c[last], c[0]` follows the relation: every
consecutive pair and the closing pair are related. -/
def ClosedChain {α : Type} (R : α → α → Prop) (c : List α) : Prop :=
  List.Chain' R (c ++ c.take 1)

/-- The sub-strands `c` form a closed walk along the edge keys `keys`. -/
def IsCycleIn (keys : SubStrandsPairKeyVec) (c : List SubStrand) : Prop :=
  ClosedChain (fun a b => SubStrandsPairKey.ofSubs a b ∈ keys) c

/-- A search path of `find_new_cycles`: distinct node indices below `n`, each
one the end of an edge that starts at its successor in the list. -/
def PathOK (E : List (Nat × Nat)) (n : Nat) (path : List Nat) : Prop :=
  path ≠ [] ∧ path.Nodup ∧ (∀ x ∈ path, x < n) ∧ List.Chain' (fun a b => (b, a) ∈ E) path

/-- A path that an edge from its head to its last node closes into a cycle of
at least three nodes. -/
def Closable (E : List (Nat × Nat)) (path : List Nat) : Prop :=
  2 < path.length ∧ ∃ h l, path.head? = some h ∧ path.getLast? = some l ∧ (h, l) ∈ E

/-- The cycle closed by a path is recorded in one of its two directions. -/
def Rep (path : List Nat) (out : List (List Nat)) : Prop :=
  rotate_to_smallest natLt path ∈ out ∨ invert natLt (rotate_to_smallest natLt path) ∈ out

/-- A recorded cycle of node indices: distinct indices below `n`, at least
three, a closed walk along the edges, starting at its smallest index. -/
def GoodIdx (E : List (Nat × Nat)) (n : Nat) (c : List Nat) : Prop :=
  c.Nodup ∧ 3 ≤ c.length ∧ (∀ x ∈ c, x < n) ∧ ClosedChain (fun a b => (a, b) ∈ E) c ∧
    Normal natLt c

/-- The invariant of the list of recorded cycles: every entry is a cycle, and
no entry equals a later one or the inverse of a later one. -/
def CycInv (E : List (Nat × Nat)) (n : Nat) (cyc : List (List Nat)) : Prop :=
  (∀ c ∈ cyc, GoodIdx E n c) ∧ cyc.Pairwise (fun a b => a ≠ b ∧ a ≠ invert natLt b)

/-- What the visit of the edge `e` guarantees for a search path. -/
def EdgeDone (E : List (Nat × Nat)) (n : Nat) (path : List Nat) (e : Nat × Nat)
    (out : List (List Nat)) : Prop :=
  path.head? = some e.1 →
    (e.2 ∉ path → ∀ ext, PathOK E n (ext ++ e.2 :: path) → Closable E (ext ++ e.2 :: path) →
      Rep (ext ++ e.2 :: path) out) ∧
    (e.2 ∈ path → 2 < path.length → path.getLast? = some e.2 → Rep path out)

/-- The sub-strand a node index stands for. -/
def node_at (nodes : List SubStrand) (i : Nat) : SubStrand := nodes.getD i ⟨0, 0⟩

/-- The translation of a recorded cycle of node indices by `init_cycles`. -/
def cycle_of (nodes : List SubStrand) (c : List Nat) : List SubStrand :=
  rotate_to_smallest SubStrand.lt (c.map (node_at nodes))

/-! ## Histories of one sheet -/

/-- A history of `Sheet::add` and `Sheet::merge` calls on a default-constructed
sheet; the sheet merged in has a history of its own. -/
inductive SheetBuild where
  | empty : SheetBuild
  | add : SheetBuild → SubStrandsPairKey → StrandsPairAttribute → SheetBuild
  | merge : SheetBuild → SheetBuild → SheetBuild

/-- The sheet a history produces. -/
def SheetBuild.run : SheetBuild → Sheet
  | .empty => {}
  | .add b pair attr => (SheetBuild.run b).add pair attr
  | .merge b other => (SheetBuild.run b).merge (SheetBuild.run other)

/-- The jumps of all the (pair, jump) values added in a history, those of the
merged sheets included. -/
def SheetBuild.jumps : SheetBuild → List Nat
  | .empty => []
  | .add b _ attr => SheetBuild.jumps b ++ [attr.jump]
  | .merge b other => SheetBuild.jumps b ++ SheetBuild.jumps other

/-- The largest jump + 2 of a list of jumps, 0 for no jump. -/
def jump_size (js : List Nat) : Nat := (js.map (· + 2)).foldr max 0

/-- The length of the largest cycle of a list of cycles, 0 for no cycle. -/
def largest_cycle (cycles : List (List SubStrand)) : Nat := (cycles.map List.length).foldr max 0

/-- The histories in the range of `IndexType`: every jump is at most 255, and
every sheet merged in has received at least one pair. -/
def SheetBuild.inRange : SheetBuild → Prop
  | .empty => True
  | .add b _ attr => SheetBuild.inRange b ∧ attr.jump ≤ 255
  | .merge b other =>
    SheetBuild.inRange b ∧ SheetBuild.inRange other ∧ SheetBuild.jumps other ≠ []

/-! ## Concrete inputs -/

/-- The edges 0 -> 1 -> 2 -> 0 (a cycle of three sub-strands) with the tail
2 -> 3 -> 4; the edges 1 -> 2 and 2 -> 3 are anti-parallel. -/
def tailed_triangle : AdjListWithSubData :=
  [(⟨0, 0, 1, 0⟩, { direction := true }), (⟨1, 0, 2, 0⟩, { direction := false }),
    (⟨2, 0, 0, 0⟩, { direction := true }), (⟨2, 0, 3, 0⟩, { direction := false }),
    (⟨3, 0, 4, 0⟩, { direction := true })]

/-- The keys of `tailed_triangle`. -/
def tailed_triangle_keys : SubStrandsPairKeyVec := tailed_triangle.map (fun e => e.1)

/-- The attribute `search` returns for the pair (0, 4) of `tailed_triangle`. -/
def tailed_triangle_attr : StrandsPairAttribute :=
  { ss0 := ⟨0, 0⟩, ss1 := ⟨4, 0⟩, reachable := true, jump := 3, direction := true,
    jumped_substrs := [⟨3, 0⟩, ⟨2, 0⟩, ⟨1, 0⟩, ⟨0, 0⟩] }

/-- The sheet that received the pair (0, 4) of `tailed_triangle`. -/
def tailed_triangle_build : SheetBuild :=
  .add .empty ⟨0, 0, 4, 0⟩ tailed_triangle_attr

/-! ## Paths in an adjacency index -/

/-- The sub-strands the keys listed under `node` lead to. -/
def targets (adj : AdjSubVec) (node : SubStrand) : List SubStrand :=
  ((map_at adj node).getD []).map (fun k => k.sub1)

/-- One directed edge of the index: a key listed under `a` leads to `b`. -/
def Step (adj : AdjSubVec) (a b : SubStrand) : Prop := b ∈ targets adj a

/-- A directed path from `s0` to `s1` along the keys of the index, as the list
of the sub-strands it visits; it has `p.length - 1` edges. -/
def IsPath (adj : AdjSubVec) (s0 s1 : SubStrand) (p : List SubStrand) : Prop :=
  p.head? = some s0 ∧ p.getLast? = some s1 ∧ List.Chain' (Step adj) p

/-- A walk of `n` edges from `s0`. -/
inductive Walk (adj : AdjSubVec) (s0 : SubStrand) : Nat → SubStrand → Prop
  | refl : Walk adj s0 0 s0
  | tail {n : Nat} {a b : SubStrand} : Walk adj s0 n a → Step adj a b → Walk adj s0 (n + 1) b

/-- The sub-strand `x` is at distance `n` from `s0`. -/
def Dist (adj : AdjSubVec) (s0 x : SubStrand) (n : Nat) : Prop :=
  Walk adj s0 n x ∧ ∀ m, m < n → ¬ Walk adj s0 m x

/-- The index agrees with the edge map: every key is listed under its own first
sub-strand and has an entry in the edge map (as `gen_adj_sub_vec` leaves it). -/
def AdjConsistent (data : AdjListWithSubData) (adj : AdjSubVec) : Prop :=
  ∀ e ∈ adj, ∀ k ∈ e.2, k.sub0 = e.1 ∧ (map_at data k).isSome = true

/-- The direction `search_backtrace` accumulates along a backward list of
sub-strands (from the end of the path to its start): the accumulator is kept by
a parallel edge and flipped by an anti-parallel edge. -/
def backtrace_direction (data : AdjListWithSubData) : Bool → List SubStrand → Bool
  | acc, last :: next :: rest =>
    backtrace_direction data
      (decide (acc = ((map_at data (SubStrandsPairKey.ofSubs next last)).map
        (fun n => n.direction)).getD true))
      (next :: rest)
  | acc, _ => acc

/-- The number of anti-parallel edges along a backward list of sub-strands. -/
def anti_parallel_edges (data : AdjListWithSubData) : List SubStrand → Nat
  | last :: next :: rest =>
    (if (map_at data (SubStrandsPairKey.ofSubs next last)).map (fun n => n.direction) = some false
      then 1 else 0) + anti_parallel_edges data (next :: rest)
  | _ => 0

/-- A backward list that follows the parents from its head to `s0`. -/
def BackChain (parents : PathParents) (s0 : SubStrand) : List SubStrand → Prop
  | [] => False
  | [x] => x = s0
  | x :: y :: rest => x ≠ s0 ∧ map_at parents x = some y ∧ BackChain parents s0 (y :: rest)

/-- The parents map is sound: a parent has an edge to its child, is the start
or has a parent itself, and is one step closer to the start. -/
def ParentsOK (adj : AdjSubVec) (s0 : SubStrand) (parents : PathParents) : Prop :=
  ∀ x p, map_at parents x = some p →
    Step adj p x ∧ (p = s0 ∨ (map_at parents p).isSome = true) ∧
      ∃ n, Dist adj s0 p n ∧ Dist adj s0 x (n + 1)

/-- The invariant of the loop of `search_bfs`: the queue is `Q1 ++ Q2`, the
entries of `Q1` were queued from sub-strands at distance below `g` and those of
`Q2` from the entries of `Q1`. -/
structure BfsInv (adj : AdjSubVec) (s0 s1 : SubStrand) (g : Nat)
    (Q1 Q2 E : List SubStrand) (P : PathParents) : Prop where
  q1 : ∀ x ∈ Q1, ∃ m, m ≤ g ∧ Walk adj s0 m x
  q2 : ∀ x ∈ Q2, ∃ m, m ≤ g + 1 ∧ Walk adj s0 m x
  near : ∀ y m, m ≤ g → Walk adj s0 m y → y ∈ E ∨ y ∈ Q1
  closed : ∀ p ∈ E, ∀ y, Step adj p y → y = s0 ∨ (map_at P y).isSome = true
  dom_sub : ∀ x, (map_at P x).isSome = true → x ∈ E ∨ x ∈ Q1 ∨ x ∈ Q2
  sub_dom : ∀ x, x ∈ E ∨ x ∈ Q1 ∨ x ∈ Q2 → x = s0 ∨ (map_at P x).isSome = true
  start : s0 ∈ E ∨ Q1.head? = some s0
  par : ParentsOK adj s0 P
  notlast : ∀ x ∈ E, x ≠ s1

/-- The outcome of the loop of `search_bfs`: an empty map when `s1` cannot be
reached, and otherwise a sound map that gives `s1` a parent. -/
def BfsPost (adj : AdjSubVec) (s0 s1 : SubStrand) (R : PathParents) : Prop :=
  (R = [] ∧ ∀ m, ¬ Walk adj s0 m s1) ∨ ((map_at R s1).isSome = true ∧ ParentsOK adj s0 R)

/-- The sub-strands a search from `s0` can ever queue. -/
def bfs_univ (adj : AdjSubVec) (s0 : SubStrand) : List SubStrand :=
  s0 :: adj.flatMap (fun e => e.2.map (fun k => k.sub1))

/-- The number of entries of `univ` that are not examined. -/
def unexamined (univ E : List SubStrand) : Nat := (univ.filter (fun x => decide (x ∉ E))).length

/-- The weight of a queue entry: an entry of an examined sub-strand outweighs
all the entries its visit can add. -/
def bfs_weight (B U : Nat) (E : List SubStrand) (x : SubStrand) : Nat :=
  if x ∈ E then B ^ (2 * U + 1) else B ^ (2 * U)

/-- The potential of a state of the loop of `search_bfs`; every iteration
lowers it. -/
def bfs_potential (adj : AdjSubVec) (s0 : SubStrand) (Q E : List SubStrand) : Nat :=
  (Q.map (bfs_weight (adj_size adj + 1) (unexamined (bfs_univ adj s0) E) E)).sum

/-- The chain 0 -> 1 -> 2 with a parallel and an anti-parallel edge. -/
def chain3 : AdjListWithSubData :=
  [(⟨0, 0, 1, 0⟩, { direction := true }), (⟨1, 0, 2, 0⟩, { direction := false })]

/-! ## Sheets as a partition -/

/-- Two sheets without a common member. -/
def Disj (a b : Sheet) : Prop := ∀ x, x ∈ a.member_substr → x ∉ b.member_substr

/-- No sub-strand is a member of two sheets of the collection. -/
def SheetsDisjoint (S : List Sheet) : Prop := S.Pairwise Disj

/-- Two sub-strands are members of one sheet of the collection. -/
def SameSheet (S : List Sheet) (a b : SubStrand) : Prop :=
  ∃ sh ∈ S, a ∈ sh.member_substr ∧ b ∈ sh.member_substr

/-- The number of sheets a sub-strand is a member of. -/
def sheets_of (S : List Sheet) (x : SubStrand) : Nat :=
  (S.filter (fun sh => decide (x ∈ sh.member_substr))).length

/-- An edge of the undirected graph under the index. -/
def UEdge (adj : AdjSubVec) (a b : SubStrand) : Prop := Step adj a b ∨ Step adj b a

/-- Two sub-strands joined by at least one edge after another of the undirected
graph under the index. -/
def Conn (adj : AdjSubVec) (a b : SubStrand) : Prop := Relation.TransGen (UEdge adj) a b

/-- A sheet whose members are joined to one another. -/
def SheetConn (adj : AdjSubVec) (sh : Sheet) : Prop :=
  ∀ a ∈ sh.member_substr, ∀ b ∈ sh.member_substr, Conn adj a b

/-- Every sheet of the first collection lies within a sheet of the second. -/
def Covers (L M : List Sheet) : Prop :=
  ∀ s ∈ L, ∃ t ∈ M, ∀ x ∈ s.member_substr, x ∈ t.member_substr

/-- The index vector of the five sub-strands 0 to 4. -/
def five_substrands : List SubStrand := [⟨0, 0⟩, ⟨1, 0⟩, ⟨2, 0⟩, ⟨3, 0⟩, ⟨4, 0⟩]

/-- The chain 0 -> 1 -> 2 and, apart from it, the edge 4 -> 3. -/
def two_chains : AdjListWithSubData :=
  [(⟨0, 0, 1, 0⟩, { direction := true }), (⟨1, 0, 2, 0⟩, { direction := false }),
    (⟨4, 0, 3, 0⟩, { direction := true })]

/-! ## Finishing the sheets (`include/sheet/sheets.h`) -/

/-- The method `Sheets::cycle_check`: every sheet is finished with the vector
of all keys of the edge map. -/
def Sheets.cycle_check (data : List Sheet) (adj_map : AdjListWithSubData) : Option (List Sheet) :=
  data.mapM (fun sh => sh.finish (adj_map.map (fun e => e.1)))

/-- Two sub-strands joined by an edge in both directions, as the fallback mode
stores them. -/
def reverse_pair : AdjListWithSubData :=
  [(⟨0, 0, 1, 0⟩, { direction := true }), (⟨1, 0, 0, 0⟩, { direction := true })]

/-- Three sub-strands with the edges 0 -> 2 and 1 -> 2: a branch. -/
def branch : AdjListWithSubData :=
  [(⟨0, 0, 2, 0⟩, { direction := true }), (⟨1, 0, 2, 0⟩, { direction := true })]

/-- Three sub-strands with the edges 0 -> 1, 1 -> 2 and 2 -> 0: a directed
cycle. -/
def directed_triangle : AdjListWithSubData :=
  [(⟨0, 0, 1, 0⟩, { direction := true }), (⟨1, 0, 2, 0⟩, { direction := true }),
    (⟨2, 0, 0, 0⟩, { direction := true })]

/-- The index vector of the three sub-strands 0 to 2. -/
def three_substrands : List SubStrand := [⟨0, 0⟩, ⟨1, 0⟩, ⟨2, 0⟩]

/-! ## The edge registry `AdjListWithSub` (`src/sheet_adj_list_with_sub.cpp`) -/

/-- The method `erase` of an `unordered_map`. -/
def map_erase {K V : Type} [DecidableEq K] (m : List (K × V)) (k : K) : List (K × V) :=
  m.filter (fun e => decide (e.1 ≠ k))

/-- The member variables of `AdjListWithSub`. -/
structure AdjListWithSub where
  data : AdjListWithSubData := []
  adj_sub_vec : AdjSubVec := []
  sheets_key_vec : List SubStrandsPairKeyVec := []
  sheets_directed : List Bool := []
  removed_keys : List SubStrandsPairKey := []
deriving DecidableEq, Repr

/-- The ways a run ends other than by a normal return: the exception
`substrand_cleanup_failure` with the key and the two counts it reports (the
sub-strand `str0`, `substr0` of the key with the count of the key first, then
`str1`, `substr1` with the count of the reverse key; the code reports the
elements `strand_indices[str0]` and `strand_indices[str1]` of the strands), an
exception of another class, a step without defined behaviour (a failed
assertion, an access outside a vector, a division by zero), or the end of the
fuel of the model. -/
inductive Failure where
  | substrand_cleanup_failure (key : SubStrandsPairKey) (count0 count1 : Nat)
  | exception
  | undefined
  | out_of_fuel
deriving DecidableEq, Repr

/-- The inner `for` loop of `AdjListWithSub::cleanup` over the key vector of
one sheet; `key_itr` is the position of the iterator. The counts are `unsigned`,
so `std::min(n_itr, n_rev) / std::max(n_itr, n_rev)` is an integer quotient,
which is then compared with `0.66`. One unit of fuel per iteration. -/
def cleanup_keys : Nat → AdjListWithSubData → SubStrandsPairKeyVec → Nat →
    Except Failure (AdjListWithSubData × SubStrandsPairKeyVec)
  | 0, _, _, _ => .error .out_of_fuel
  | fuel + 1, data, key_vec, key_itr =>
    match key_vec.get? key_itr with
    | none => .ok (data, key_vec)
    | some key =>
      match map_at data key.reverse with
      | none => cleanup_keys fuel data key_vec (key_itr + 1)
      | some rev_node =>
        match map_at data key with
        | none => .error .exception
        | some node =>
          if max node.residue_pairs rev_node.residue_pairs = 0 then .error .undefined
          else if 66 < 100 * (min node.residue_pairs rev_node.residue_pairs /
              max node.residue_pairs rev_node.residue_pairs) then
            .error (.substrand_cleanup_failure key node.residue_pairs rev_node.residue_pairs)
          else if node.residue_pairs < rev_node.residue_pairs then
            cleanup_keys fuel (map_erase data key) (key_vec.eraseIdx key_itr) key_itr
          else if key_vec.indexOf key.reverse < key_vec.length then
            if (key_vec.eraseIdx (key_vec.indexOf key.reverse)).indexOf key <
                (key_vec.eraseIdx (key_vec.indexOf key.reverse)).length then
              cleanup_keys fuel (map_erase data key.reverse)
                (key_vec.eraseIdx (key_vec.indexOf key.reverse))
                ((key_vec.eraseIdx (key_vec.indexOf key.reverse)).indexOf key + 1)
            else .error .undefined
          else .error .undefined

/-- The outer `for` loop of `AdjListWithSub::cleanup`; the counter `i` is an
`IndexType`, decremented and incremented again after a sheet is erased. One
unit of fuel per iteration. -/
def cleanup_loop : Nat → AdjListWithSub → Nat → Except Failure AdjListWithSub
  | 0, _, _ => .error .out_of_fuel
  | fuel + 1, st, i =>
    match st.sheets_key_vec.get? i with
    | none => .ok st
    | some key_vec =>
      match st.sheets_directed.get? i with
      | none => .error .undefined
      | some false => cleanup_loop fuel st (toIndexType (i + 1))
      | some true =>
        match cleanup_keys ((key_vec.length + 1) * (key_vec.length + 1) + 1) st.data key_vec 0 with
        | .error e => .error e
        | .ok (data, v) =>
          if v.length = 0 then
            cleanup_loop fuel
              { st with
                data := data,
                sheets_key_vec := st.sheets_key_vec.eraseIdx i,
                sheets_directed := st.sheets_directed.eraseIdx i }
              (toIndexType (toIndexType (i + 255) + 1))
          else
            cleanup_loop fuel
              { st with data := data, sheets_key_vec := st.sheets_key_vec.set i v }
              (toIndexType (i + 1))

/-- The method `AdjListWithSub::cleanup`. With fewer than 256 sheets every
iteration of the outer loop moves to the next sheet or erases one. -/
def AdjListWithSub.cleanup (st : AdjListWithSub) : Except Failure AdjListWithSub :=
  cleanup_loop (st.sheets_key_vec.length + 1) st 0

/-- The number of residue pairs stored for a key, zero for an absent key. -/
def pairs_of (data : AdjListWithSubData) (k : SubStrandsPairKey) : Nat :=
  match map_at data k with
  | some node => node.residue_pairs
  | none => 0

/-- The key is the weaker one of a pair of mutually reverse edges of one of the
listed sheets registered as directed: it is in the key vector of such a sheet,
its reverse is in the edge map, and it has fewer residue pairs than its
reverse. -/
def weaker_in (data : AdjListWithSubData) (sheets : List (SubStrandsPairKeyVec × Bool))
    (k : SubStrandsPairKey) : Bool :=
  sheets.any (fun s => s.2 && decide (k ∈ s.1)) &&
    (map_at data k.reverse).isSome &&
    decide (pairs_of data k < pairs_of data k.reverse)

/-- The key is the weaker one of a pair of mutually reverse edges of a sheet
of the registry registered as directed. -/
def weaker (st : AdjListWithSub) (k : SubStrandsPairKey) : Bool :=
  weaker_in st.data (st.sheets_key_vec.zip st.sheets_directed) k

/-- The sheets with their flags as the description of `cleanup` has them: the
weaker keys are dropped from the sheets registered as directed, and the
directed sheets left without a key are dropped. -/
def cleaned_sheets (st : AdjListWithSub) (sheets : List (SubStrandsPairKeyVec × Bool)) :
    List (SubStrandsPairKeyVec × Bool) :=
  (sheets.map (fun s => if s.2 then (s.1.filter (fun k => !weaker st k), true) else s)).filter
    (fun s => !(s.2 && s.1.isEmpty))

/-- The registry as the description of `cleanup` has it: the weaker keys are
dropped from the edge map and from the sheets. -/
def AdjListWithSub.cleaned (st : AdjListWithSub) : AdjListWithSub :=
  { st with
    data := st.data.filter (fun e => !weaker st e.1),
    sheets_key_vec :=
      (cleaned_sheets st (st.sheets_key_vec.zip st.sheets_directed)).map Prod.fst,
    sheets_directed :=
      (cleaned_sheets st (st.sheets_key_vec.zip st.sheets_directed)).map Prod.snd }

/-- The key is removed by the pass over the key vector `vec0`. -/
def RemovedIn (data0 : AdjListWithSubData) (vec0 : SubStrandsPairKeyVec)
    (k : SubStrandsPairKey) : Prop :=
  k ∈ vec0 ∧ (map_at data0 k.reverse).isSome = true ∧
    pairs_of data0 k < pairs_of data0 k.reverse

/-- The registry is well formed: a flag for every sheet, fewer than 256 sheets,
every key in one sheet only and once, every key of a sheet in the edge map, and
the reverse of a key of a sheet, when in the edge map, in the same sheet. -/
structure CleanupWF (st : AdjListWithSub) : Prop where
  flags : st.sheets_key_vec.length = st.sheets_directed.length
  small : st.sheets_key_vec.length < 256
  nodup : st.sheets_key_vec.flatten.Nodup
  in_data : ∀ v ∈ st.sheets_key_vec, ∀ k ∈ v, (map_at st.data k).isSome = true
  rev_same : ∀ v ∈ st.sheets_key_vec, ∀ k ∈ v,
    (map_at st.data k.reverse).isSome = true → k.reverse ∈ v

/-- The outcome as an option: the registry after a normal return. -/
def returned {α : Type} : Except Failure α → Option α
  | .ok a => some a
  | .error _ => none

/-- One sheet registered as directed with the edge 0 -> 1 of 3 residue pairs
and its reverse of 4 residue pairs. -/
def three_four : AdjListWithSub :=
  { data := [(⟨0, 0, 1, 0⟩, { direction := true, residue_pairs := 3 }),
      (⟨1, 0, 0, 0⟩, { direction := true, residue_pairs := 4 })],
    sheets_key_vec := [[⟨0, 0, 1, 0⟩, ⟨1, 0, 0, 0⟩]],
    sheets_directed := [true] }

/-- The same sheet with 4 residue pairs for both edges. -/
def four_four : AdjListWithSub :=
  { data := [(⟨0, 0, 1, 0⟩, { direction := true, residue_pairs := 4 }),
      (⟨1, 0, 0, 0⟩, { direction := true, residue_pairs := 4 })],
    sheets_key_vec := [[⟨0, 0, 1, 0⟩, ⟨1, 0, 0, 0⟩]],
    sheets_directed := [true] }

/-! ## The registry of sub-strands `SubStrandsRange`
(`include/sheet/sub_strands_range.h`, `src/sheet_sub_strands_range.cpp`) -/

/-- A residue of a strand (`include/sheet/zone_residue.h`): the number of the
secondary structure element, the residue number, the serial number of the
strand and the position of the residue in the strand. -/
structure ZoneResidue where
  sse_id : Nat := 0
  resnum : Int := 0
  serial_str_id : Nat := 0
  serial_res_id : Nat := 0
  has_value : Bool := false
deriving DecidableEq, Repr

/-- The `operator==` of `ZoneResidue`: the element and the residue number. -/
def ZoneResidue.same (a b : ZoneResidue) : Bool :=
  decide (a.sse_id = b.sse_id) && decide (a.resnum = b.resnum)

/-- The value `std::numeric_limits<int>::min()`. -/
def int_min : Int := -(2 ^ 31)

/-- The value is an `int`. -/
def is_int (x : Int) : Bool := decide (int_min ≤ x) && decide (x < 2 ^ 31)

/-- The constant `default_range`, the placeholder for a sub-strand without a
residue. -/
def default_range : Int × Int := (int_min, int_min)

/-- The constant `min_sub_str_len`. -/
def min_sub_str_len : Int := 2

/-- The range table `data`: for every strand the `[first, last]` residue
numbers of its sub-strands. -/
abbrev RangeData := List (List (Int × Int))

/-- The member variables of `SubStrandsRange`; an entry of
`sub_strands_iters_vec` holds the positions in `index_vec` of the two
iterators. -/
structure SubStrandsRange where
  data : RangeData := []
  index_vec : List SubStrand := []
  sub_strands_iters_vec : List (Nat × Nat) := []
deriving DecidableEq, Repr

/-- The constructor: one `default_range` for each strand. -/
def SubStrandsRange.init (n_strands : Nat) : SubStrandsRange :=
  { data := List.replicate n_strands [default_range] }

/-- The update of one range by a residue number in `extend_substrand`. -/
def extend_range (sub_strand : Int × Int) (resnum : Int) : Int × Int :=
  if sub_strand = default_range then (resnum, resnum)
  else if resnum < sub_strand.1 then (resnum, sub_strand.2)
  else if sub_strand.2 < resnum then (sub_strand.1, resnum)
  else sub_strand

/-- The method `extend_substrand` on the range table: the last range of the
strand of the residue is updated. A strand outside the table or without a
range has no defined behaviour. -/
def extend_substrand (data : RangeData) (res : ZoneResidue) : Option RangeData :=
  match data.get? res.serial_str_id with
  | none => none
  | some ranges =>
    match ranges.getLast? with
    | none => none
    | some sub_strand =>
      some (data.set res.serial_str_id
        (ranges.dropLast ++ [extend_range sub_strand res.resnum]))

/-- The loop of `cleanup_sheet` over the strands, with the `IndexType` counter
`serial_str_id` and the set collected so far. The length
`back[1] - back[0] + 1` is computed in `int`; a value outside `int` has no
defined behaviour. -/
def cleanup_sheet_loop : RangeData → Nat → List SubStrand → Option (RangeData × List SubStrand)
  | [], _, too_short_subs => some ([], too_short_subs)
  | ranges :: rest, serial_str_id, too_short_subs =>
    match ranges.getLast? with
    | none => none
    | some back =>
      if back ≠ default_range then
        if is_int (back.2 - back.1) && is_int (back.2 - back.1 + 1) then
          if back.2 - back.1 + 1 < min_sub_str_len then
            (cleanup_sheet_loop rest (toIndexType (serial_str_id + 1))
              (set_insert too_short_subs ⟨serial_str_id, toIndexType (ranges.length - 1)⟩)).map
              (fun r => ((ranges.dropLast ++ [default_range]) :: r.1, r.2))
          else
            (cleanup_sheet_loop rest (toIndexType (serial_str_id + 1)) too_short_subs).map
              (fun r => ((ranges ++ [default_range]) :: r.1, r.2))
        else none
      else
        (cleanup_sheet_loop rest (toIndexType (serial_str_id + 1)) too_short_subs).map
          (fun r => (ranges :: r.1, r.2))

/-- The method `cleanup_sheet`: the new range table and the returned set. -/
def cleanup_sheet (data : RangeData) : Option (RangeData × List SubStrand) :=
  cleanup_sheet_loop data 0 []

/-- The comparison of `sorted_indices`, as a non-strict order on the indices. -/
def n_term_le (substrs : List (Int × Int)) (a b : Nat) : Prop :=
  (substrs.getD a default_range).1 ≤ (substrs.getD b default_range).1

instance (substrs : List (Int × Int)) : DecidableRel (n_term_le substrs) :=
  fun a b => inferInstanceAs (Decidable ((substrs.getD a default_range).1 ≤
    (substrs.getD b default_range).1))

/-- The method `sorted_indices`: the indices `0, 1, ...` as `IndexType` values,
sorted by the first residue number. `std::sort` leaves the order of indices
with equal first residue numbers open; the model sorts by insertion. -/
def sorted_indices (substrs : List (Int × Int)) : List Nat :=
  ((List.range substrs.length).map toIndexType).insertionSort (n_term_le substrs)

/-- The two nested loops of `init_index_vec` from the strand `i` on. -/
def index_vec_from : Nat → RangeData → List SubStrand
  | _, [] => []
  | i, ranges :: rest =>
    (List.range ranges.length).map (fun j => (⟨i, j⟩ : SubStrand)) ++ index_vec_from (i + 1) rest

/-- The method `find_sub_strands`: the positions `std::equal_range` returns for
a strand in the index vector. -/
def find_sub_strands (index_vec : List SubStrand) (serial_str_id : Nat) : Nat × Nat :=
  ((index_vec.takeWhile (fun s => decide (s.str < serial_str_id))).length,
    (index_vec.takeWhile (fun s => !decide (serial_str_id < s.str))).length)

/-- The method `convert_to_substrand`: the map from the old to the new
sub-strand for every index that moved. -/
def convert_to_substrand (changed_index_map : List (List Nat)) : List (SubStrand × SubStrand) :=
  ((List.range changed_index_map.length).flatMap (fun str =>
    ((List.range (changed_index_map.getD str []).length).filter (fun substr =>
      decide (substr ≠ (changed_index_map.getD str []).getD substr 0))).map (fun substr =>
        ((⟨str, (changed_index_map.getD str []).getD substr 0⟩ : SubStrand),
          (⟨str, substr⟩ : SubStrand))))).foldl
    (fun ret e => map_insert ret e.1 e.2) []

/-- The method `finish`: the last range of every strand is popped, the ranges
of a strand are put in the order of `sorted_indices`, and the index vector and
the table of iterators are filled. Popping from a strand without a range has
no defined behaviour; the loops of the helper functions count with an
`IndexType` and do not end for 256 or more strands or sub-strands of a
strand. -/
def SubStrandsRange.finish (s : SubStrandsRange) :
    Option (SubStrandsRange × List (SubStrand × SubStrand)) :=
  if s.data.any (fun ranges => ranges.isEmpty) then none
  else if decide (256 ≤ s.data.length) ||
      s.data.any (fun ranges => decide (256 ≤ ranges.dropLast.length)) then none
  else
    some
      ({ data := s.data.map (fun ranges =>
            (sorted_indices ranges.dropLast).map (fun a => ranges.dropLast.getD a default_range)),
          index_vec := s.index_vec ++ index_vec_from 0
            (s.data.map (fun ranges =>
              (sorted_indices ranges.dropLast).map
                (fun a => ranges.dropLast.getD a default_range))),
          sub_strands_iters_vec := s.sub_strands_iters_vec ++
            (List.range s.data.length).map (find_sub_strands (s.index_vec ++ index_vec_from 0
              (s.data.map (fun ranges =>
                (sorted_indices ranges.dropLast).map
                  (fun a => ranges.dropLast.getD a default_range))))) },
        convert_to_substrand (s.data.map (fun ranges => sorted_indices ranges.dropLast)))

/-- The accessor `n_term_res`; a sub-strand outside the table is an error. -/
def SubStrandsRange.n_term_res (s : SubStrandsRange) (sub : SubStrand) : Option Int :=
  ((s.data.get? sub.str).bind (fun ranges => ranges.get? sub.substr)).map (fun r => r.1)

/-- The accessor `c_term_res`; a sub-strand outside the table is an error. -/
def SubStrandsRange.c_term_res (s : SubStrandsRange) (sub : SubStrand) : Option Int :=
  ((s.data.get? sub.str).bind (fun ranges => ranges.get? sub.substr)).map (fun r => r.2)

/-- The calls on the registry for one connected component: `extend_substrand`
for every residue of the list, then `cleanup_sheet`. -/
def run_component (data : RangeData) (calls : List ZoneResidue) :
    Option (RangeData × List SubStrand) :=
  (calls.foldlM extend_substrand data).bind cleanup_sheet

/-- The calls on the registry for a sequence of components; the result is the
range table after the last `cleanup_sheet`. -/
def run_components : RangeData → List (List ZoneResidue) → Option RangeData
  | data, [] => some data
  | data, calls :: rest => (run_component data calls).bind (fun r => run_components r.1 rest)

/-- The residue numbers of the calls of a component on one strand. -/
def resnums_on (calls : List ZoneResidue) (str : Nat) : List Int :=
  (calls.filter (fun res => decide (res.serial_str_id = str))).map (fun res => res.resnum)

/-- What `cleanup_sheet` does to the ranges of one strand: a last range that is
not the placeholder is dropped when it is too short, and a new placeholder is
appended. -/
def cleanup_ranges (ranges : List (Int × Int)) : List (Int × Int) :=
  match ranges.getLast? with
  | none => ranges
  | some back =>
    if back = default_range then ranges
    else if back.2 - back.1 + 1 < min_sub_str_len then ranges.dropLast ++ [default_range]
    else ranges ++ [default_range]

/-- The last range of the strand is not the placeholder and spans fewer than
`min_sub_str_len` residues. -/
def too_short (ranges : List (Int × Int)) : Bool :=
  match ranges.getLast? with
  | none => false
  | some back => decide (back ≠ default_range) && decide (back.2 - back.1 + 1 < min_sub_str_len)

/-- The state of the range table between two components, after `c` of them:
`n` strands, every strand ends with the placeholder, holds at most `c` ranges
before it, and each of these spans at least `min_sub_str_len` residues. -/
def RangeInv (n c : Nat) (d : RangeData) : Prop :=
  d.length = n ∧ ∀ ranges ∈ d, ranges.getLast? = some default_range ∧
    (∀ r ∈ ranges.dropLast, min_sub_str_len ≤ r.2 - r.1 + 1) ∧ ranges.length ≤ c + 1

/-- The residues of the calls lie on the `n` strands and their numbers are
far from the ends of `int`. -/
def CallsOK (n : Nat) (calls : List ZoneResidue) : Prop :=
  ∀ res ∈ calls, res.serial_str_id < n ∧ -(2 ^ 30) < res.resnum ∧ res.resnum < 2 ^ 30

/-- Two components on one strand: the first visits the residues 5 and 6, the
second the residue 9 only. -/
def two_components : List (List ZoneResidue) :=
  [[{ resnum := 5, has_value := true }, { resnum := 6, serial_res_id := 1, has_value := true }],
    [{ resnum := 9, serial_res_id := 4, has_value := true }]]

/-- A registry before `finish` with one strand whose ranges are not in the
order of the residue numbers. -/
def unsorted_registry : SubStrandsRange :=
  { data := [[(5, 6), (1, 2), default_range]] }

/-! ## Sides of adjacent sub-strands (`include/sheet/adjacent_substrand.h`) -/

/-- The type `SubStrandVectors`: the sub-strands adjacent on the side of index
0 and those on the side of index 1 (the right side). -/
abbrev SubStrandVectors := List SubStrand × List SubStrand

/-- The element `[side]` of a `SubStrandVectors`. -/
def side_vec (v : SubStrandVectors) (side : Bool) : List SubStrand := if side then v.2 else v.1

/-- The member `data` of `AdjacentSubStrands`. -/
abbrev AdjacentData := List (SubStrand × SubStrandVectors)

/-- The assignment through the reference `data.at(key)`: the live binding of the
key is replaced. -/
def map_set {K V : Type} [DecidableEq K] : List (K × V) → K → V → List (K × V)
  | [], _, _ => []
  | e :: rest, k, v => if e.1 = k then (k, v) :: rest else e :: map_set rest k v

/-- The method `add_helper`. -/
def add_helper (data : AdjacentData) (key ss : SubStrand) (side : Bool) : AdjacentData :=
  match map_at (map_insert data key ([], [])) key with
  | none => map_insert data key ([], [])
  | some vecs =>
    if ss ∈ side_vec vecs side then map_insert data key ([], [])
    else
      map_set (map_insert data key ([], [])) key
        (if side then (vecs.1, vecs.2 ++ [ss]) else (vecs.1 ++ [ss], vecs.2))

/-- The method `AdjacentSubStrands::add`. -/
def adjacent_add (data : AdjacentData) (key ss : SubStrand) (side rel_dir : Bool) :
    AdjacentData :=
  add_helper (add_helper data key ss side) ss key (if rel_dir then !side else side)

/-- The method `side_of`: the side of `base` on which `adj` is listed, the right
side being looked at first; a missing entry or sub-strand is an error. -/
def side_of (data : AdjacentData) (adj base : SubStrand) : Option Bool :=
  match map_at data base with
  | none => none
  | some vecs =>
    if adj ∈ vecs.2 then some true else if adj ∈ vecs.1 then some false else none

/-- The edge map of `st` is the edge map of `st0` without some keys, each of
which satisfies `B`. -/
def Shrunk (B : SubStrandsPairKey → Prop) (st0 st : AdjListWithSub) : Prop :=
  ∀ key, map_at st.data key = map_at st0.data key ∨ (map_at st.data key = none ∧ B key)

/-- The part of a secondary structure element the zone reads: its type (`'H'`
or `'E'`) and its first and last residue numbers. -/
structure SSE where
  type : Char := 'H'
  init : Int := 0
  end_ : Int := 1
deriving DecidableEq, Repr

/-- The vector `SSES::gen_index_vec('E')`: the indices of the strands, in the
order of the table (fewer than 256 elements, the counter is an `IndexType`). -/
def gen_index_vec (data : List SSE) : List Nat :=
  (List.range data.length).filter (fun i => decide ((data.getD i {}).type = 'E'))

/-- The entry `SSES::serial_strand_id[sse_id]`: the position of a strand among
the strands, 255 for another element. -/
def serial_strand_id (data : List SSE) (sse_id : Nat) : Nat :=
  if sse_id ∈ gen_index_vec data then toIndexType ((gen_index_vec data).indexOf sse_id) else 255

/-- The call `SSES::sse_ind_of(resnum, 'E', 0, true, 'A')`. The binary search
`std::equal_range` runs over the strands, which are kept in the order of the
residue numbers: its lower bound is the first strand that does not end before
`resnum`, and the range is empty (`non_sse_resnum` is thrown, here `none`) when
that strand starts after `resnum` or there is no such strand. -/
def sse_ind_of (data : List SSE) (resnum : Int) : Option Nat :=
  match (gen_index_vec data).find? (fun i => !decide ((data.getD i {}).end_ < resnum)) with
  | none => none
  | some i => if resnum < (data.getD i {}).init then none else some i

/-- The constructor `ZoneResidue(sse_id, resnum, sses)`; `none` when it throws
`non_sse_resnum` or `zone_info_failure`. -/
def ZoneResidue.make (data : List SSE) (sse_id : Nat) (resnum : Int) : Option ZoneResidue :=
  match sse_ind_of data resnum with
  | none => none
  | some i =>
    if sse_id = i then
      some
        { sse_id := sse_id,
          resnum := resnum,
          serial_str_id := serial_strand_id data sse_id,
          serial_res_id := (resnum - (data.getD sse_id {}).init).toNat,
          has_value := true }
    else none

/-- The enumeration `ZoneInfo::SideStatus`. -/
inductive SideStatus where
  | Undefined
  | Upper
  | Lower
deriving DecidableEq, Repr

/-- The `char` value of a `SideStatus`. -/
def SideStatus.toInt : SideStatus → Int
  | .Undefined => -1
  | .Upper => 1
  | .Lower => 0

/-- The enumeration `ZoneInfo::BridgeType`. -/
inductive BridgeType where
  | NoBridge
  | ParallelHbonds
  | ParallelNoHbonds
  | SmallRing
  | LargeRing
deriving DecidableEq, Repr

/-- The enumeration `StrictZone::RelDir`. -/
inductive RelDir where
  | NotSet
  | AntiParallel
  | Parallel
deriving DecidableEq, Repr

/-- The `char` value of a `RelDir`. -/
def RelDir.toInt : RelDir → Int
  | .NotSet => -1
  | .AntiParallel => 0
  | .Parallel => 1

/-- The integer value of a `bool`. -/
def boolInt (b : Bool) : Int := if b then 1 else 0

/-- The element of index 0 (`false`) or 1 (`true`) of a `std::array` of two. -/
def at2 {α : Type} (a : α × α) (i : Bool) : α := if i then a.2 else a.1

/-- The assignment to the element of index 0 or 1 of a `std::array` of two. -/
def set2 {α : Type} (a : α × α) (i : Bool) (x : α) : α × α := if i then (a.1, x) else (x, a.2)

/-- The structure `ZoneInfo` of one residue of a strand; the index 0 of the
arrays is the partner without hydrogen bonds, the index 1 the bonded one. -/
structure ZoneInfo where
  colored : Bool := false
  side : SideStatus := SideStatus.Undefined
  adj_residues : ZoneResidue × ZoneResidue := ({}, {})
  adj_set : Bool × Bool := (false, false)
  bridge_type : BridgeType × BridgeType := (BridgeType.NoBridge, BridgeType.NoBridge)
deriving DecidableEq, Repr

/-- The method `ZoneInfo::add_pair`: the returned flag and the new value. -/
def ZoneInfo.add_pair (info : ZoneInfo) (residue : ZoneResidue) (hbonded : Bool)
    (b_type : BridgeType) : Bool × ZoneInfo :=
  if (at2 info.adj_residues hbonded).same residue then (true, info)
  else if at2 info.adj_set hbonded then (false, info)
  else
    (true,
      { info with
        colored := true,
        adj_residues := set2 info.adj_residues hbonded residue,
        adj_set := set2 info.adj_set hbonded true,
        bridge_type := set2 info.bridge_type hbonded b_type })

/-- One entry of the undirected adjacency list (`AdjStrandData`). -/
structure AdjStrandData where
  id : Nat := 0
  direction : Bool := true
  count : Nat := 0
deriving DecidableEq, Repr

/-- The map `AdjList` from a pair of element numbers to the data of the second
element as a neighbour of the first. -/
abbrev AdjList := List ((Nat × Nat) × AdjStrandData)

/-- The member variables of `StrictZone`; the registry of sub-strands and the
table of sides are held by reference and changed by `decide_side`. -/
structure StrictZone where
  sses : List SSE := []
  strand_indices : List Nat := []
  strict : List (List ZoneInfo) := []
  sub_strands : SubStrandsRange := {}
  adj_substrands : AdjacentData := []
deriving DecidableEq, Repr

/-- The method `init_strict`: one default `ZoneInfo` for every residue of every
strand. -/
def init_strict (sses : List SSE) (strand_indices : List Nat) : List (List ZoneInfo) :=
  strand_indices.map (fun sse_id =>
    List.replicate ((sses.getD sse_id {}).end_ - (sses.getD sse_id {}).init + 1).toNat {})

/-- The constructor of `StrictZone`, with a new registry of sub-strands for the
strands and an empty table of sides. -/
def StrictZone.init (sses : List SSE) : StrictZone :=
  { sses := sses,
    strand_indices := gen_index_vec sses,
    strict := init_strict sses (gen_index_vec sses),
    sub_strands := SubStrandsRange.init (gen_index_vec sses).length,
    adj_substrands := [] }

/-- The accessor `strict_c_info`; an index outside the table has no defined
behaviour. -/
def strict_c_info (strict : List (List ZoneInfo)) (zone_res : ZoneResidue) :
    Except Failure ZoneInfo :=
  match (strict.get? zone_res.serial_str_id).bind (fun row => row.get? zone_res.serial_res_id) with
  | none => .error .undefined
  | some info => .ok info

/-- The assignment through the reference `strict_info(zone_res)`. -/
def strict_set (strict : List (List ZoneInfo)) (zone_res : ZoneResidue) (info : ZoneInfo) :
    List (List ZoneInfo) :=
  strict.set zone_res.serial_str_id
    ((strict.getD zone_res.serial_str_id []).set zone_res.serial_res_id info)

/-- The method `On_one`; `third_pair_found` is thrown when `add_pair` fails. -/
def On_one (z : StrictZone) (res0 res1 : ZoneResidue) (hbonded : Bool)
    (bridge_type : BridgeType) : Except Failure StrictZone :=
  (strict_c_info z.strict res0).bind (fun info =>
    if (info.add_pair res1 hbonded bridge_type).1 then
      .ok { z with strict := strict_set z.strict res0 (info.add_pair res1 hbonded bridge_type).2 }
    else .error .exception)

/-- The method `On`: the exceptions of the two constructors are caught and the
pair is skipped. -/
def On (z : StrictZone) (sse_id : Nat) (resnum : Int) (paired_sse_id : Nat)
    (paired_resnum : Int) (hbonded : Bool) (bridge_type : BridgeType) :
    Except Failure StrictZone :=
  match ZoneResidue.make z.sses sse_id resnum, ZoneResidue.make z.sses paired_sse_id paired_resnum with
  | some res0, some res1 => On_one z res0 res1 hbonded bridge_type
  | _, _ => .ok z

/-- The member `count` of a `ZoneResidueSet`, with the `operator==` of
`ZoneResidue`. -/
def res_count (s : List ZoneResidue) (x : ZoneResidue) : Bool := s.any (fun y => y.same x)

/-- The member `insert` of a `ZoneResidueSet`. -/
def res_insert (s : List ZoneResidue) (x : ZoneResidue) : List ZoneResidue :=
  if res_count s x then s else s ++ [x]

/-- The member `erase` of a `ZoneResidueSet`. -/
def res_erase (s : List ZoneResidue) (x : ZoneResidue) : List ZoneResidue :=
  s.filter (fun y => !y.same x)

/-- The inner loop of `collect_colored` over the residues of one strand. -/
def collect_colored_row (z : StrictZone) (sse_id : Nat) :
    List ZoneInfo → Nat → List ZoneResidue → Except Failure (List ZoneResidue)
  | [], _, set => .ok set
  | zone_info :: rest, serial_res_id, set =>
    if zone_info.colored then
      match z.sses.get? sse_id with
      | none => .error .undefined
      | some sse =>
        match ZoneResidue.make z.sses sse_id ((serial_res_id : Int) + sse.init) with
        | none => .error .exception
        | some res => collect_colored_row z sse_id rest (serial_res_id + 1) (res_insert set res)
    else collect_colored_row z sse_id rest (serial_res_id + 1) set

/-- The outer loop of `collect_colored` with the `IndexType` counter
`serial_str_id`. The number of the element is read for a coloured residue only;
an index outside `strand_indices` has no defined behaviour. -/
def collect_colored_loop (z : StrictZone) :
    List (List ZoneInfo) → Nat → List ZoneResidue → Except Failure (List ZoneResidue)
  | [], _, set => .ok set
  | one_sse :: rest, serial_str_id, set =>
    if one_sse.any (fun zone_info => zone_info.colored) then
      match z.strand_indices.get? serial_str_id with
      | none => .error .undefined
      | some sse_id =>
        (collect_colored_row z sse_id one_sse 0 set).bind (fun set1 =>
          collect_colored_loop z rest (toIndexType (serial_str_id + 1)) set1)
    else collect_colored_loop z rest (toIndexType (serial_str_id + 1)) set

/-- The method `collect_colored`, from the empty set. The set is unordered in
the program; here its elements are kept in the order of insertion. -/
def collect_colored (z : StrictZone) : Except Failure (List ZoneResidue) :=
  collect_colored_loop z z.strict 0 []

/-- The method `SubStrandsRange::last_substr_id`; `data.at` and the explicit
check throw `std::out_of_range`. -/
def last_substr_id (data : RangeData) (str_id : Nat) : Except Failure Nat :=
  match data.get? str_id with
  | none => .error .exception
  | some ranges => if ranges.length = 0 then .error .exception else .ok (toIndexType (ranges.length - 1))

/-- The key of the pair of the last sub-strands of two strands. -/
def last_key (data : RangeData) (str0 str1 : Nat) : Except Failure SubStrandsPairKey :=
  (last_substr_id data str0).bind (fun ss0 =>
    (last_substr_id data str1).bind (fun ss1 => .ok ⟨str0, ss0, str1, ss1⟩))

/-- The method `update_rel_dir`: the returned flag (true for the fallback) and
the new vector of relative directions. -/
def update_rel_dir (target adj : ZoneResidue) (direction_to_adj : Bool)
    (relative_directions : List RelDir) : Except Failure (Bool × List RelDir) :=
  match relative_directions.get? target.serial_str_id with
  | none => .error .undefined
  | some RelDir.NotSet => .error .exception
  | some rel_target =>
    match relative_directions.get? adj.serial_str_id with
    | none => .error .undefined
    | some rel_adj =>
      if rel_adj = RelDir.NotSet then
        .ok (false, relative_directions.set adj.serial_str_id
          (if rel_target = RelDir.Parallel then
            (if direction_to_adj then RelDir.Parallel else RelDir.AntiParallel)
          else (if direction_to_adj then RelDir.AntiParallel else RelDir.Parallel)))
      else if rel_adj ≠
          (if rel_target = RelDir.Parallel then
            (if direction_to_adj then RelDir.Parallel else RelDir.AntiParallel)
          else (if direction_to_adj then RelDir.AntiParallel else RelDir.Parallel)) then
        .ok (true, relative_directions)
      else .ok (false, relative_directions)

/-- The method `gen_list_key`. The test `rel_dir == (side == hbonded)` compares
the `char` values of the enumerations with the values of the `bool`s. -/
def gen_list_key (z : StrictZone) (res0 res1 : ZoneResidue) (hbonded : Bool)
    (rel_dir : List RelDir) : Except Failure SubStrandsPairKey :=
  match rel_dir.get? res0.serial_str_id with
  | none => .error .undefined
  | some RelDir.NotSet => .error .exception
  | some rel0 =>
    (strict_c_info z.strict res0).bind (fun info =>
      if rel0.toInt = boolInt (decide (info.side.toInt = boolInt hbonded)) then
        last_key z.sub_strands.data res0.serial_str_id res1.serial_str_id
      else last_key z.sub_strands.data res1.serial_str_id res0.serial_str_id)

/-- The method `register_key_vec`: the key is pushed to the last key vector;
without a sheet `back()` has no defined behaviour. -/
def register_key_vec (sheets : List SubStrandsPairKeyVec) (key : SubStrandsPairKey) :
    Except Failure (List SubStrandsPairKeyVec) :=
  match sheets.getLast? with
  | none => .error .undefined
  | some back => .ok (sheets.dropLast ++ [back ++ [key]])

/-- The method `add_adj_list_count`; the count of residue pairs is `unsigned`. -/
def add_adj_list_count (key : SubStrandsPairKey) (adj_list : AdjListWithSub)
    (direction_to_adj : Bool) : Except Failure AdjListWithSub :=
  match map_at adj_list.data key with
  | none =>
    (register_key_vec adj_list.sheets_key_vec key).bind (fun sheets =>
      .ok { adj_list with
            data := map_insert adj_list.data key { direction := direction_to_adj },
            sheets_key_vec := sheets })
  | some node =>
    if node.direction = direction_to_adj then
      .ok { adj_list with
            data := map_set adj_list.data key
              { node with residue_pairs := (node.residue_pairs + 1) % 2 ^ 32 } }
    else .error .exception

/-- The method `add_adj_substrands`. -/
def add_adj_substrands (z : StrictZone) (res0 res1 : ZoneResidue) (hbonded rel_dir : Bool) :
    Except Failure StrictZone :=
  (strict_c_info z.strict res0).bind (fun info =>
    (last_substr_id z.sub_strands.data res0.serial_str_id).bind (fun ss0 =>
      (last_substr_id z.sub_strands.data res1.serial_str_id).bind (fun ss1 =>
        .ok { z with
              adj_substrands := adjacent_add z.adj_substrands ⟨res0.serial_str_id, ss0⟩
                ⟨res1.serial_str_id, ss1⟩ (decide (info.side.toInt = boolInt hbonded)) rel_dir })))

/-- The bridges of the same type continue from the target to the next residue:
the double loop at the end of `ba_check`. -/
def same_bridges (info_t info_ba : ZoneInfo) : Bool :=
  [false, true].any (fun i_t_adj =>
    at2 info_t.adj_set i_t_adj &&
      [false, true].any (fun i_ba_adj =>
        at2 info_ba.adj_set i_ba_adj &&
          (decide ((at2 info_ba.adj_residues i_ba_adj).sse_id =
              (at2 info_t.adj_residues i_t_adj).sse_id) &&
            decide (at2 info_t.bridge_type i_t_adj = at2 info_ba.bridge_type i_ba_adj))))

/-- The method `ba_check`: the residue before (`diff = -1`) or after
(`diff = 1`) the target, or the empty residue. -/
def ba_check (z : StrictZone) (target : ZoneResidue) (diff : Int)
    (remainder : List ZoneResidue) : Except Failure ZoneResidue :=
  match z.strict.get? target.serial_str_id with
  | none => .error .undefined
  | some row =>
    if (target.serial_res_id : Int) + diff < 0 ∨
        (row.length : Int) ≤ (target.serial_res_id : Int) + diff then .ok {}
    else
      match ZoneResidue.make z.sses target.sse_id (target.resnum + diff) with
      | none => .error .exception
      | some ba =>
        if res_count remainder ba = false then .ok {}
        else
          (strict_c_info z.strict target).bind (fun info_t =>
            (strict_c_info z.strict ba).bind (fun info_ba =>
              if same_bridges info_t info_ba then .ok {} else .ok ba))

/-- The method `push_into_queue`: the new queue and its set of contents. -/
def push_into_queue (queue contents : List ZoneResidue) (new_res : ZoneResidue) :
    List ZoneResidue × List ZoneResidue :=
  if res_count contents new_res = false then (queue ++ [new_res], res_insert contents new_res)
  else (queue, contents)

/-- The local variables of `bfs` together with the objects it changes. -/
structure BfsState where
  zone : StrictZone := {}
  adj_list : AdjListWithSub := {}
  remainder : List ZoneResidue := []
  queue : List ZoneResidue := []
  queue_contents : List ZoneResidue := []
  relative_directions : List RelDir := []
  involved_serial_str_ids : List Nat := []
  fallback : Bool := false
deriving DecidableEq, Repr

/-- The call `sub_strands.extend_substrand(res)` on the zone. -/
def StrictZone.extend (z : StrictZone) (res : ZoneResidue) : Except Failure StrictZone :=
  match extend_substrand z.sub_strands.data res with
  | none => .error .undefined
  | some data => .ok { z with sub_strands := { z.sub_strands with data := data } }

/-- The assignment `strict_info(res).side = side`. -/
def StrictZone.set_side (z : StrictZone) (res : ZoneResidue) (side : SideStatus) :
    Except Failure StrictZone :=
  (strict_c_info z.strict res).bind (fun info =>
    .ok { z with strict := strict_set z.strict res { info with side := side } })

/-- The keys registered for a pair of residues in `bfs`: both directions in the
fallback mode, otherwise the key of `gen_list_key`. -/
def bfs_add_keys (z : StrictZone) (target adj : ZoneResidue) (i : Bool)
    (direction_to_adj fallback : Bool) (relative_directions : List RelDir)
    (adj_list : AdjListWithSub) : Except Failure AdjListWithSub :=
  if fallback then
    (last_key z.sub_strands.data target.serial_str_id adj.serial_str_id).bind (fun key0 =>
      (add_adj_list_count key0 adj_list direction_to_adj).bind (fun adj_list1 =>
        add_adj_list_count key0.reverse adj_list1 direction_to_adj))
  else
    (gen_list_key z target adj i relative_directions).bind (fun key =>
      add_adj_list_count key adj_list direction_to_adj)

/-- One round of the loop of `bfs` over the two paired residues of the target;
`i` is false for the partner without hydrogen bonds. -/
def bfs_adj (undirected_adj_list : AdjList) (target : ZoneResidue) (i : Bool) (s : BfsState) :
    Except Failure BfsState :=
  (strict_c_info s.zone.strict target).bind (fun info_t =>
    if (at2 info_t.adj_residues i).has_value = false ∨
        res_count s.remainder (at2 info_t.adj_residues i) = false then .ok s
    else
      (s.zone.set_side (at2 info_t.adj_residues i) info_t.side).bind (fun z1 =>
        (z1.extend (at2 info_t.adj_residues i)).bind (fun z2 =>
          match map_at undirected_adj_list (target.sse_id, (at2 info_t.adj_residues i).sse_id) with
          | none => .error .exception
          | some strand_data =>
            (if s.fallback then .ok (true, s.relative_directions)
              else update_rel_dir target (at2 info_t.adj_residues i) strand_data.direction
                s.relative_directions).bind (fun fr =>
              (bfs_add_keys z2 target (at2 info_t.adj_residues i) i strand_data.direction
                fr.1 fr.2 s.adj_list).bind (fun adj_list =>
                (add_adj_substrands z2 target (at2 info_t.adj_residues i) i
                  strand_data.direction).bind (fun z3 =>
                  .ok { s with
                        zone := z3,
                        adj_list := adj_list,
                        relative_directions := fr.2,
                        fallback := fr.1,
                        queue := (push_into_queue s.queue s.queue_contents
                          (at2 info_t.adj_residues i)).1,
                        queue_contents := (push_into_queue s.queue s.queue_contents
                          (at2 info_t.adj_residues i)).2 }))))))

/-- One round of the loop of `bfs` over the residues before and after the
target. -/
def bfs_ba (target ba : ZoneResidue) (s : BfsState) : Except Failure BfsState :=
  if ba.has_value = false then .ok s
  else
    (strict_c_info s.zone.strict ba).bind (fun info_ba =>
      if info_ba.colored = false then .ok s
      else
        (strict_c_info s.zone.strict target).bind (fun info_t =>
          match info_t.side with
          | .Undefined => .error .exception
          | side =>
            (s.zone.set_side ba
              (if side = SideStatus.Upper then SideStatus.Lower else SideStatus.Upper)).bind
              (fun z1 =>
                .ok { s with
                      zone := z1,
                      queue := (push_into_queue s.queue s.queue_contents ba).1,
                      queue_contents := (push_into_queue s.queue s.queue_contents ba).2 })))

/-- The body of the `while` loop of `bfs` for the first residue of the queue. -/
def bfs_body (undirected_adj_list : AdjList) (target : ZoneResidue) (s : BfsState) :
    Except Failure BfsState :=
  (s.zone.extend target).bind (fun z1 =>
    (bfs_adj undirected_adj_list target false
      { s with
        zone := z1,
        involved_serial_str_ids :=
          if target.serial_str_id ∈ s.involved_serial_str_ids then s.involved_serial_str_ids
          else s.involved_serial_str_ids ++ [target.serial_str_id] }).bind (fun s1 =>
      (bfs_adj undirected_adj_list target true s1).bind (fun s2 =>
        (ba_check s2.zone target (-1) s2.remainder).bind (fun before =>
          (ba_check s2.zone target 1 s2.remainder).bind (fun after =>
            (bfs_ba target before s2).bind (fun s3 =>
              (bfs_ba target after s3).bind (fun s4 =>
                .ok { s4 with
                      remainder := res_erase s4.remainder target,
                      queue_contents := res_erase s4.queue_contents target,
                      queue := s4.queue.tail })))))))

/-- The `while` loop of `bfs`. One unit of fuel per iteration. -/
def bfs_loop (undirected_adj_list : AdjList) : Nat → BfsState → Except Failure BfsState
  | 0, _ => .error .out_of_fuel
  | fuel + 1, s =>
    match s.queue with
    | [] => .ok s
    | target :: _ => (bfs_body undirected_adj_list target s).bind (bfs_loop undirected_adj_list fuel)

/-- The method `add_sheet`. -/
def AdjListWithSub.add_sheet (st : AdjListWithSub) : AdjListWithSub :=
  { st with sheets_key_vec := st.sheets_key_vec ++ [[]] }

/-- The statements of `bfs` before its loop. The first residue is
`*(remainder.begin())`, an element of an unordered set: here the first of the
list. An empty set and a strand outside the vector of directions have no
defined behaviour. -/
def bfs_start (z : StrictZone) (adj_list : AdjListWithSub) (remainder : List ZoneResidue) :
    Except Failure BfsState :=
  match remainder with
  | [] => .error .undefined
  | front :: _ =>
    (z.set_side front SideStatus.Upper).bind (fun z1 =>
      if front.serial_str_id < z.strand_indices.length then
        .ok { zone := z1,
              adj_list := adj_list.add_sheet,
              remainder := remainder,
              queue := [front],
              queue_contents := [front],
              relative_directions :=
                (List.replicate z.strand_indices.length RelDir.NotSet).set front.serial_str_id
                  RelDir.Parallel,
              involved_serial_str_ids := [],
              fallback := false }
      else .error .undefined)

/-- The state of `bfs` when its `while` loop has ended. Every iteration erases
its target from the remainder, so the loop runs at most once for each residue
of the remainder. -/
def bfs_search (z : StrictZone) (adj_list : AdjListWithSub) (remainder : List ZoneResidue)
    (undirected_adj_list : AdjList) : Except Failure BfsState :=
  (bfs_start z adj_list remainder).bind (bfs_loop undirected_adj_list (remainder.length + 1))

/-- The method `erase_too_short`, on the edge map and the last key vector. -/
def erase_too_short (st : AdjListWithSub) (short_subs : List SubStrand) :
    Except Failure AdjListWithSub :=
  match st.sheets_key_vec.getLast? with
  | none => .error .undefined
  | some key_vec =>
    .ok { st with
          data := (key_vec.filter (fun key =>
            decide (key.sub0 ∈ short_subs) || decide (key.sub1 ∈ short_subs))).foldl map_erase
              st.data,
          sheets_key_vec := st.sheets_key_vec.dropLast ++
            [key_vec.filter (fun key =>
              !(decide (key.sub0 ∈ short_subs) || decide (key.sub1 ∈ short_subs)))] }

/-- The second loop of `ensure_undirected`: `data[key]` creates a default node
for an absent key, `insert` keeps an existing binding. -/
def ensure_undirected_add (st : AdjListWithSub) (key : SubStrandsPairKey) : AdjListWithSub :=
  { st with
    data := map_insert (map_insert st.data key {}) key.reverse
      ((map_at (map_insert st.data key {}) key).getD {}),
    sheets_key_vec := st.sheets_key_vec.dropLast ++
      [(st.sheets_key_vec.getLast?.getD []) ++ [key.reverse]] }

/-- The method `ensure_undirected`. -/
def ensure_undirected (st : AdjListWithSub) : Except Failure AdjListWithSub :=
  match st.sheets_key_vec.getLast? with
  | none => .error .undefined
  | some key_vec =>
    .ok ((key_vec.filter (fun key => (map_at st.data key.reverse).isNone)).foldl
      ensure_undirected_add st)

/-- The statements of `bfs` after its loop: the result is the zone, the
registry of edges and the remainder. -/
def bfs_finish (s : BfsState) :
    Except Failure (StrictZone × AdjListWithSub × List ZoneResidue) :=
  match cleanup_sheet s.zone.sub_strands.data with
  | none => .error .undefined
  | some (data, too_short_subs) =>
    (erase_too_short s.adj_list too_short_subs).bind (fun adj_list1 =>
      (if s.fallback then ensure_undirected adj_list1 else .ok adj_list1).bind (fun adj_list2 =>
        .ok ({ s.zone with sub_strands := { s.zone.sub_strands with data := data } },
          { adj_list2 with sheets_directed := adj_list2.sheets_directed ++ [!s.fallback] },
          s.remainder)))

/-- The method `bfs`. -/
def bfs (z : StrictZone) (adj_list : AdjListWithSub) (remainder : List ZoneResidue)
    (undirected_adj_list : AdjList) :
    Except Failure (StrictZone × AdjListWithSub × List ZoneResidue) :=
  (bfs_search z adj_list remainder undirected_adj_list).bind bfs_finish

/-- The loop of `decide_side` over the components. One unit of fuel per
component. -/
def decide_side_loop (undirected_adj_list : AdjList) :
    Nat → StrictZone → AdjListWithSub → List ZoneResidue →
      Except Failure (StrictZone × AdjListWithSub)
  | 0, _, _, _ => .error .out_of_fuel
  | fuel + 1, z, adj_sub, remainder =>
    if remainder.length = 0 then .ok (z, adj_sub)
    else
      (bfs z adj_sub remainder undirected_adj_list).bind (fun r =>
        decide_side_loop undirected_adj_list fuel r.1 r.2.1 r.2.2)

/-- The method `replace_erased_itr`. -/
def replace_erased_itr : List SubStrandsPairKeyVec → SubStrandsPairKey → SubStrandsPairKey →
    List SubStrandsPairKeyVec
  | [], _, _ => []
  | vec :: rest, old_key, new_key =>
    if old_key ∈ vec then (vec.erase old_key ++ [new_key]) :: rest
    else vec :: replace_erased_itr rest old_key new_key

/-- The key of `update_key_substr` for a key of the edge map. -/
def converted_key (conv : List (SubStrand × SubStrand)) (key : SubStrandsPairKey) :
    SubStrandsPairKey :=
  SubStrandsPairKey.ofSubs ((map_at conv key.sub0).getD key.sub0)
    ((map_at conv key.sub1).getD key.sub1)

/-- The method `update_key_substr` for a given order `walk` of the loop over
the edge map, a `std::unordered_map` whose order of iteration the language
leaves open: the changed keys are replaced in the key vectors in the order of
the walk, erased from the edge map and inserted again under their new keys. -/
def update_key_substr_walk (walk : List (SubStrandsPairKey × SubStrandsPairNode))
    (st : AdjListWithSub) (conv : List (SubStrand × SubStrand)) : AdjListWithSub :=
  { st with
    data :=
      ((walk.filter (fun e => decide (converted_key conv e.1 ≠ e.1))).foldl
        (fun to_add e => map_insert to_add (converted_key conv e.1) e.2) []).foldl
          (fun data e => map_insert data e.1 e.2)
          ((walk.filter (fun e => decide (converted_key conv e.1 ≠ e.1))).foldl
            (fun data e => map_erase data e.1) st.data),
    sheets_key_vec :=
      (walk.filter (fun e => decide (converted_key conv e.1 ≠ e.1))).foldl
        (fun sheets e => replace_erased_itr sheets e.1 (converted_key conv e.1))
        st.sheets_key_vec }

/-- The method `update_key_substr` with the edge map walked in the order in
which its bindings were inserted, one of the orders the container may have. -/
def update_key_substr (st : AdjListWithSub) (conv : List (SubStrand × SubStrand)) :
    AdjListWithSub :=
  update_key_substr_walk st.data st conv

/-- The first residue paired with the sub-strand `ss_adj`, looked for in the
two partners of one residue in `count_delta_base`. The range of the sub-strand
is read only for a partner on its strand. -/
def paired_with (z : StrictZone) (info : ZoneInfo) (ss_adj : SubStrand) :
    Except Failure (Option ZoneResidue) :=
  let check := fun (adj_candidate_res : ZoneResidue) =>
    if adj_candidate_res.serial_str_id = ss_adj.str then
      match z.sub_strands.n_term_res ss_adj, z.sub_strands.c_term_res ss_adj with
      | some n, some c =>
        (.ok (decide (n ≤ adj_candidate_res.resnum) && decide (adj_candidate_res.resnum ≤ c)) :
          Except Failure Bool)
      | _, _ => .error .exception
    else .ok false
  (check info.adj_residues.1).bind (fun found0 =>
    if found0 then .ok (some info.adj_residues.1)
    else
      (check info.adj_residues.2).bind (fun found1 =>
        if found1 then .ok (some info.adj_residues.2) else .ok none))

/-- The method `count_delta_base`, with the methods `increment` and
`decrement` of `ZoneResidue`: `PairedResidueNotFound` is thrown at the end of
the strand, and `decrement` asserts that the position is not zero. One unit of
fuel per residue. -/
def count_delta_base (z : StrictZone) (toward_c_term : Bool) (ss_adj : SubStrand) :
    Nat → ZoneResidue → Int → Except Failure (Int × ZoneResidue)
  | 0, _, _ => .error .out_of_fuel
  | fuel + 1, zres, delta_base =>
    (strict_c_info z.strict zres).bind (fun info =>
      (paired_with z info ss_adj).bind (fun found =>
        match found with
        | some adj_candidate_res => .ok (delta_base, adj_candidate_res)
        | none =>
          match z.sses.get? zres.sse_id with
          | none => .error .undefined
          | some sse =>
            if (if toward_c_term then sse.end_ else sse.init) = zres.resnum then .error .exception
            else if toward_c_term = false ∧ zres.serial_res_id = 0 then .error .undefined
            else
              count_delta_base z toward_c_term ss_adj fuel
                { zres with
                  resnum := if toward_c_term then zres.resnum + 1 else zres.resnum - 1,
                  serial_res_id :=
                    if toward_c_term then zres.serial_res_id + 1 else zres.serial_res_id - 1 }
                (if info.colored then delta_base + 1 else delta_base)))

/-- The method `count_delta_adj`; `strict.at(...).at(...)` throws outside the
table, a negative position fails the assertion. -/
def count_delta_adj (z : StrictZone) (serial_strand_id_adj : Nat) (step : Int) (last : Nat) :
    Nat → Int → Int → Except Failure Int
  | 0, _, _ => .error .out_of_fuel
  | fuel + 1, ser_res_id, delta =>
    if ser_res_id = (last : Int) then .ok delta
    else if ser_res_id < 0 then .error .undefined
    else
      match (z.strict.get? serial_strand_id_adj).bind (fun row => row.get? ser_res_id.toNat) with
      | none => .error .exception
      | some info =>
        count_delta_adj z serial_strand_id_adj step last fuel (ser_res_id + step)
          (if info.colored then delta + 1 else delta)

/-- The common part of `count_delta_1` (`first = true`, towards the C-terminus,
from the first residue of the base sub-strand) and `count_delta_2`: the count
on the base sub-strand and the count on the adjacent one. -/
def count_delta (z : StrictZone) (first : Bool) (ss_base ss_adj : SubStrand) (dir : Bool) :
    Except Failure (Int × Int) :=
  match z.strand_indices.get? ss_base.str with
  | none => .error .undefined
  | some sse_base =>
    match (if first then z.sub_strands.n_term_res ss_base else z.sub_strands.c_term_res ss_base) with
    | none => .error .exception
    | some term_res_base =>
      match ZoneResidue.make z.sses sse_base term_res_base with
      | none => .error .exception
      | some zres_term_base =>
        (count_delta_base z first ss_adj
          (((z.sses.getD sse_base {}).end_ - (z.sses.getD sse_base {}).init).toNat + 1)
          zres_term_base 0).bind (fun base =>
          match (if first = dir then z.sub_strands.n_term_res ss_adj
            else z.sub_strands.c_term_res ss_adj) with
          | none => .error .exception
          | some term_res_adj =>
            match z.strand_indices.get? ss_adj.str with
            | none => .error .undefined
            | some sse_adj =>
              match ZoneResidue.make z.sses sse_adj term_res_adj with
              | none => .error .exception
              | some zres_term_adj =>
                if base.2.serial_str_id = zres_term_adj.serial_str_id then
                  (count_delta_adj z base.2.serial_str_id (if first = dir then -1 else 1)
                    zres_term_adj.serial_res_id
                    (((z.strict.getD base.2.serial_str_id []).length) + 1)
                    (base.2.serial_res_id : Int) 0).bind (fun delta_adj =>
                    .ok (base.1, delta_adj))
                else .error .undefined)

/-- The method `count_delta_1`. -/
def count_delta_1 (z : StrictZone) (ss_base ss_adj : SubStrand) (dir : Bool) :
    Except Failure Int :=
  (count_delta z true ss_base ss_adj dir).bind (fun d => .ok (d.1 - d.2))

/-- The method `count_delta_2`. -/
def count_delta_2 (z : StrictZone) (ss_base ss_adj : SubStrand) (dir : Bool) :
    Except Failure Int :=
  (count_delta z false ss_base ss_adj dir).bind (fun d => .ok (d.2 - d.1))

/-- The method `calc_deltas`: the two deltas of every edge are computed and
stored in its node. The edge map is walked in the order of its bindings. -/
def calc_deltas (z : StrictZone) (adj_list : AdjListWithSub) : Except Failure AdjListWithSub :=
  adj_list.data.foldlM
    (fun (st : AdjListWithSub) (pair : SubStrandsPairKey × SubStrandsPairNode) =>
      (count_delta_1 z pair.1.sub0 pair.1.sub1 pair.2.direction).bind (fun delta_1 =>
        (count_delta_2 z pair.1.sub0 pair.1.sub1 pair.2.direction).bind (fun delta_2 =>
          match map_at st.data pair.1 with
          | none => .error .exception
          | some node =>
            .ok { st with
                  data := map_set st.data pair.1
                    { node with delta_1 := delta_1, delta_2 := delta_2 } })))
    adj_list

/-- The method `decide_side`: the registry of edges it returns and the zone it
leaves. The loop over the components starts a search for every residue still
in the remainder, so it runs at most once for each coloured residue. -/
def decide_side (z : StrictZone) (undirected_adj_list : AdjList) :
    Except Failure (AdjListWithSub × StrictZone) :=
  (collect_colored z).bind (fun remainder =>
    (decide_side_loop undirected_adj_list (remainder.length + 1) z {} remainder).bind (fun r =>
      match r.1.sub_strands.finish with
      | none => .error .undefined
      | some (sub_strands, conv) =>
        ((update_key_substr r.2 conv).cleanup).bind (fun adj_sub1 =>
          (calc_deltas { r.1 with sub_strands := sub_strands } adj_sub1).bind (fun adj_sub2 =>
            .ok ({ adj_sub2 with
                   adj_sub_vec := adj_sub2.data.foldl (fun adj e => adj_push adj e.1.sub0 e.1)
                     adj_sub2.adj_sub_vec },
              { r.1 with sub_strands := sub_strands })))))


/-- Three strands: the residues 10 to 21, 30 to 31 and 40 to 41. -/
def nested_sses : List SSE := [⟨'E', 10, 21⟩, ⟨'E', 30, 31⟩, ⟨'E', 40, 41⟩]

/-- The calls of `On` for a zone on `nested_sses`: the residues 10 and 21 of the
strand 0 are paired with the residues 30 and 31 of the strand 1, and the
residues 14 and 15 of the strand 0 with the residues 40 and 41 of the
strand 2; along a ladder the bonded and the unbonded bridge alternate. -/
def nested_zone : Except Failure StrictZone :=
  (On (StrictZone.init nested_sses) 0 10 1 30 true BridgeType.ParallelHbonds).bind (fun z1 =>
  (On z1 1 30 0 10 false BridgeType.ParallelNoHbonds).bind (fun z2 =>
  (On z2 0 21 1 31 false BridgeType.ParallelNoHbonds).bind (fun z3 =>
  (On z3 1 31 0 21 true BridgeType.ParallelHbonds).bind (fun z4 =>
  (On z4 0 14 2 40 true BridgeType.ParallelHbonds).bind (fun z5 =>
  (On z5 2 40 0 14 false BridgeType.ParallelNoHbonds).bind (fun z6 =>
  (On z6 0 15 2 41 false BridgeType.ParallelNoHbonds).bind (fun z7 =>
  On z7 2 41 0 15 true BridgeType.ParallelHbonds)))))))

/-- The undirected adjacency list for `nested_zone`: the strand 0 is parallel
to the strands 1 and 2. -/
def nested_adj_list : AdjList :=
  [((0, 1), ⟨1, true, 2⟩), ((1, 0), ⟨0, true, 2⟩), ((0, 2), ⟨2, true, 2⟩), ((2, 0), ⟨0, true, 2⟩)]


/-- Three strands of two residues each: 1 to 2, 11 to 12 and 21 to 22. -/
def ladder_sses : List SSE := [⟨'E', 1, 2⟩, ⟨'E', 11, 12⟩, ⟨'E', 21, 22⟩]

/-- The calls of `On` for a zone on `ladder_sses`: an anti-parallel ladder
between the strands 0 and 1 (a small ring at the residues 1 and 12, a large
ring at 2 and 11) and a parallel ladder between the strands 1 and 2. -/
def ladder_zone : Except Failure StrictZone :=
  (On (StrictZone.init ladder_sses) 0 1 1 12 true BridgeType.SmallRing).bind (fun z1 =>
  (On z1 1 12 0 1 true BridgeType.SmallRing).bind (fun z2 =>
  (On z2 0 2 1 11 false BridgeType.LargeRing).bind (fun z3 =>
  (On z3 1 11 0 2 false BridgeType.LargeRing).bind (fun z4 =>
  (On z4 1 11 2 21 true BridgeType.ParallelHbonds).bind (fun z5 =>
  (On z5 2 21 1 11 false BridgeType.ParallelNoHbonds).bind (fun z6 =>
  (On z6 1 12 2 22 false BridgeType.ParallelNoHbonds).bind (fun z7 =>
  On z7 2 22 1 12 true BridgeType.ParallelHbonds)))))))

/-- The undirected adjacency list for `ladder_zone`. -/
def ladder_adj_list : AdjList :=
  [((0, 1), ⟨1, false, 2⟩), ((1, 0), ⟨0, false, 2⟩), ((1, 2), ⟨2, true, 2⟩), ((2, 1), ⟨1, true, 2⟩)]

/-! ## Notions used to state the properties of the zone -/

/-- The numbers `lo` and `hi` are the smallest and the largest of the list. -/
def hull_of (rs : List Int) (lo hi : Int) : Prop :=
  lo ∈ rs ∧ hi ∈ rs ∧ ∀ r ∈ rs, lo ≤ r ∧ r ≤ hi

/-- No residue of the first list equals a residue of the second. -/
def disjoint_calls (c1 c2 : List ZoneResidue) : Prop :=
  ∀ a ∈ c1, ∀ b ∈ c2, a.same b = false

/-- The relative direction of the strand has been set. -/
def rel_set (rel : List RelDir) (str : Nat) : Prop :=
  rel.get? str = some RelDir.Parallel ∨ rel.get? str = some RelDir.AntiParallel

/-- The direction accumulated along a list of sub-strands from its first to
its last element: kept by a parallel edge and flipped by an anti-parallel
edge. -/
def path_direction (data : AdjListWithSubData) : Bool → List SubStrand → Bool
  | acc, a :: b :: rest =>
    path_direction data
      (decide (acc = ((map_at data (SubStrandsPairKey.ofSubs a b)).map
        (fun n => n.direction)).getD true))
      (b :: rest)
  | acc, _ => acc

/-- The edges of the last sheet of the registry: the bindings of the edge map
whose key is in the last key vector. -/
def sheet_edges (st : AdjListWithSub) : AdjListWithSubData :=
  st.data.filter (fun e => decide (e.1 ∈ st.sheets_key_vec.getLast?.getD []))

/-- The zone built by the calls of `nested_zone`. -/
def nested_strict : StrictZone := (returned nested_zone).getD {}

/-- The coloured residues of `nested_strict`, in the order of `collect_colored`. -/
def nested_colored : List ZoneResidue := (returned (collect_colored nested_strict)).getD []

/-- The zone built by the calls of `ladder_zone`. -/
def ladder_strict : StrictZone := (returned ladder_zone).getD {}

/-- The coloured residues of `ladder_strict`, in the order of `collect_colored`. -/
def ladder_colored : List ZoneResidue := (returned (collect_colored ladder_strict)).getD []

/-- Two inclusive ranges of residue numbers have no residue in common. -/
def ranges_disjoint (a b : Int × Int) : Prop := a.2 < b.1 ∨ b.2 < a.1

/-! ## Notions used in the proofs about the zone -/

/-- The calls of `push_into_queue` for a list of residues, on the pair of the
queue and its set of contents. -/
def push_all (qc : List ZoneResidue × List ZoneResidue) (adds : List ZoneResidue) :
    List ZoneResidue × List ZoneResidue :=
  adds.foldl (fun qc a => push_into_queue qc.1 qc.2 a) qc

/-- The state `s1` comes from `s` by the calls of `extend_substrand` for `calls`
and the calls of `push_into_queue` for `adds`, all of them residues of the
remainder, which is left as it is. -/
def Pushed (s s1 : BfsState) (calls adds : List ZoneResidue) : Prop :=
  s1.remainder = s.remainder ∧
    calls.foldlM extend_substrand s.zone.sub_strands.data = some s1.zone.sub_strands.data ∧
    (s1.queue, s1.queue_contents) = push_all (s.queue, s.queue_contents) adds ∧
    (∀ c ∈ calls, c ∈ adds) ∧ ∀ a ∈ adds, res_count s.remainder a = true

/-- The queue and its set of contents hold the same residues, and no residue
is twice in the queue. -/
def QueueOK (qc : List ZoneResidue × List ZoneResidue) : Prop :=
  (∀ x, res_count qc.2 x = res_count qc.1 x) ∧ qc.1.Pairwise (fun a b => a.same b = false)

/-- The invariant of the loop of `bfs` for the registry of sub-strands: `calls`
are the residues `extend_substrand` was called for, from the range table `d0`
and the remainder `rem0` at the start. -/
structure VisitInv (d0 : RangeData) (rem0 : List ZoneResidue) (s : BfsState)
    (calls : List ZoneResidue) : Prop where
  fold : calls.foldlM extend_substrand d0 = some s.zone.sub_strands.data
  calls_rem0 : ∀ c ∈ calls, res_count rem0 c = true
  rem_sub : ∀ x, res_count s.remainder x = true → res_count rem0 x = true
  calls_done : ∀ c ∈ calls, res_count s.remainder c = true → res_count s.queue c = true
  queue_rem : ∀ q ∈ s.queue, res_count s.remainder q = true
  queue_ok : QueueOK (s.queue, s.queue_contents)

/-- The state of the range table between two components: every strand ends
with the placeholder, and every range before it spans at least two residues
and is the hull of the residue numbers of the calls of one of the components
`comps` on the strand. -/
def HullState (comps : List (List ZoneResidue)) (d : RangeData) : Prop :=
  ∀ str ranges, d.get? str = some ranges →
    ranges.getLast? = some default_range ∧
      ∀ r ∈ ranges.dropLast, 2 ≤ r.2 - r.1 + 1 ∧
        ∃ calls ∈ comps, hull_of (resnums_on calls str) r.1 r.2

/-- The invariant of the loop of `bfs` for the edges: as long as the fallback
mode is off, every key of the last sheet has a node in the edge map, the
relative directions of its two strands are set, and its direction is parallel
exactly when they are equal. -/
def DirInv (s : BfsState) : Prop :=
  s.fallback = false →
    ∀ key ∈ s.adj_list.sheets_key_vec.getLast?.getD [],
      ∃ node, map_at s.adj_list.data key = some node ∧
        rel_set s.relative_directions key.str0 ∧ rel_set s.relative_directions key.str1 ∧
        (node.direction = true ↔
          s.relative_directions.get? key.str0 = s.relative_directions.get? key.str1)

/-- The invariant of the loop of `bfs` for a registry that was empty at the
start: as long as the fallback mode is off, every key of the edge map is in
the last key vector. -/
def KeyInv (s : BfsState) : Prop :=
  s.fallback = false →
    ∀ e ∈ s.adj_list.data, e.1 ∈ s.adj_list.sheets_key_vec.getLast?.getD []

/-! ## Hydrogen bonds of a strand and the votes on the direction of a pair
(`src/sheet_pairs.cpp`, `src/pdb_sse.cpp`, `src/pdb_sses.cpp`,
`src/sheet_directed_adjacency_list.cpp`) -/

/-- The method `SSE::in_range(resnum, offset, HAtom)`. The values are `int`;
residue numbers are far from the limits of an `int`. -/
def SSE.in_range (e : SSE) (resnum offset : Int) (HAtom : Char) : Bool :=
  decide ((if HAtom ≠ 'N' then e.init - offset else e.init) ≤ resnum) &&
    decide (resnum ≤ (if HAtom ≠ 'C' then e.end_ + offset else e.end_))

/-- One element of a `PairsVec` (`std::array<int, 3>`): in the list read from
the STRIDE output the residue number of the donor `N` and of the acceptor `O`;
in the list of a strand the residue on the strand, its partner and the side
(`0`: the residue on the strand is the donor). -/
abbrev HbondPair := Int × Int × Int

/-- The comparison handed to `std::sort` in `Pairs::involve_with`. -/
def involve_lt (a b : HbondPair) : Bool :=
  if a.1 < b.1 then true
  else if a.1 = b.1 then
    (if a.2.2 < b.2.2 then true
     else if a.2.2 = b.2.2 then decide (a.2.1 < b.2.1)
     else false)
  else false

/-- An element is not after another one for `involve_lt`. -/
def involve_le (a b : HbondPair) : Prop := involve_lt b a = false

instance : DecidableRel involve_le :=
  fun a b => inferInstanceAs (Decidable (involve_lt b a = false))

/-- The loop of `Pairs::involve_with` before the sort. -/
def involve_collect (dnr_ : List HbondPair) (e : SSE) (offset : Int) : List HbondPair :=
  dnr_.filterMap (fun pair =>
    if e.in_range pair.1 offset 'N' then some (pair.1, pair.2.1, 0)
    else if e.in_range pair.2.1 offset 'C' then some (pair.2.1, pair.1, 1)
    else none)

/-- The method `Pairs::involve_with(dnr_, e, offset)`. Two elements that the
comparison does not order are equal, so the result of `std::sort` is the one
of the sort by insertion. -/
def involve_with (dnr_ : List HbondPair) (e : SSE) (offset : Int) : List HbondPair :=
  (involve_collect dnr_ e offset).insertionSort involve_le

/-- The value `n_offset` of `SSES::sse_ind_of`. -/
def n_offset (offset : Int) (hbond_atom : Char) : Int :=
  if offset = 0 then 0 else (if hbond_atom ≠ 'N' then offset else offset - 1)

/-- The value `c_offset` of `SSES::sse_ind_of`. -/
def c_offset (offset : Int) (hbond_atom : Char) : Int :=
  if offset = 0 then 0 else (if hbond_atom ≠ 'C' then offset else offset - 1)

/-- The call `SSES::sse_ind_of(resnum, 'E', offset, true, hbond_atom)`: the
lower bound of `std::equal_range` is the first strand whose end, moved by
`c_offset`, is not before `resnum`; the range is empty (`non_sse_resnum`, here
`none`) when there is no such strand or `resnum` is before its start moved by
`n_offset`. -/
def sse_ind_of_hbond (data : List SSE) (resnum offset : Int) (hbond_atom : Char) : Option Nat :=
  match (gen_index_vec data).find?
      (fun i => !decide ((data.getD i {}).end_ + c_offset offset hbond_atom < resnum)) with
  | none => none
  | some i =>
    if resnum < (data.getD i {}).init - n_offset offset hbond_atom then none else some i

/-- The search of the partner strand of one hydrogen bond, as written in
`adj_id_set` and in `add_undirected_adj_list`. -/
def partner_of (data : List SSE) (pair : HbondPair) : Option Nat :=
  sse_ind_of_hbond data pair.2.1 1 (if pair.2.2 = 0 then 'C' else 'N')

/-- The method `insert` of an `unordered_set<IndexType>`. -/
def id_set_insert (s : List Nat) (x : Nat) : List Nat := if x ∈ s then s else s ++ [x]

/-- The method `adj_id_set`. -/
def adj_id_set (data : List SSE) (involved_pairs : List HbondPair) : List Nat :=
  involved_pairs.foldl
    (fun ret pair =>
      match partner_of data pair with
      | some sse_id => id_set_insert ret sse_id
      | none => ret)
    []

/-- The structure `LastPair` (`include/sheet/directed_adjacency_list.h`). -/
structure LastPair where
  res0 : Int := 0
  res1 : Int := 0
  hbond_dir : Int := -1
  first : Bool := true
deriving DecidableEq, Repr

/-- The map `direction_counter`: for a partner strand the numbers of votes
for anti-parallel (key `false`) and for parallel (key `true`). -/
abbrev DirectionCounter := List (Nat × (Nat × Nat))

/-- The value `direction_counter[sse_id][dir]`; a missing entry is created
with the value 0. -/
def counter_at (direction_counter : DirectionCounter) (sse_id : Nat) (dir : Bool) : Nat :=
  at2 ((map_at direction_counter sse_id).getD (0, 0)) dir

/-- The statement `++direction_counter[sse_id][dir]`. -/
def counter_incr (direction_counter : DirectionCounter) (sse_id : Nat) (dir : Bool) :
    DirectionCounter :=
  map_set (map_insert direction_counter sse_id (0, 0)) sse_id
    (set2 ((map_at direction_counter sse_id).getD (0, 0)) dir
      (counter_at direction_counter sse_id dir + 1))

/-- The local variables of `add_undirected_adj_list` that the loop over the
hydrogen bonds updates. -/
structure VoteState where
  undirected_adj_list : AdjList := []
  last_pairs : List (Nat × LastPair) := []
  direction_counter : DirectionCounter := []
deriving DecidableEq, Repr

/-- The choice of `tmp_direction` from the last hydrogen bond to the same
partner and the present one; the `throw` is `exception`. -/
def tmp_direction (last : LastPair) (pair : HbondPair) : Except Failure Bool :=
  if last.res0 = pair.1 then
    (if last.res1 < pair.2.1 then .ok true
     else if last.res1 = pair.2.1 then .ok false
     else .ok false)
  else
    (if last.res1 < pair.2.1 then .ok true
     else if last.res1 = pair.2.1 then
       (if last.hbond_dir = 1 ∧ pair.2.2 = 0 then .ok true
        else if last.hbond_dir = 0 ∧ pair.2.2 = 1 then .ok false
        else .error .exception)
     else .ok false)

/-- The end of the loop body: `++undirected_adj_list[key].count` and the
assignment to `last_pairs[sse_id]`. -/
def count_pair (s : VoteState) (e_index sse_id : Nat) (pair : HbondPair) : VoteState :=
  { s with
    undirected_adj_list :=
      map_set (map_insert s.undirected_adj_list (e_index, sse_id) {}) (e_index, sse_id)
        { (map_at s.undirected_adj_list (e_index, sse_id)).getD {} with
          count := ((map_at s.undirected_adj_list (e_index, sse_id)).getD {}).count + 1 },
    last_pairs :=
      map_set (map_insert s.last_pairs sse_id {}) sse_id
        { res0 := pair.1, res1 := pair.2.1, hbond_dir := pair.2.2, first := false } }

/-- The body of the loop of `add_undirected_adj_list` over the hydrogen bonds
of the strand `e`. The accessor `last_pairs[sse_id]` creates a missing entry. -/
def vote_step (data : List SSE) (e_index : Nat) (s : VoteState) (pair : HbondPair) :
    Except Failure VoteState :=
  match partner_of data pair with
  | none => .ok s
  | some sse_id =>
    if (data.getD sse_id {}).type = 'H' then .ok s
    else if ((map_at s.last_pairs sse_id).getD {}).first = false then
      (if ((map_at s.last_pairs sse_id).getD {}).hbond_dir = pair.2.2 then
        .ok { s with last_pairs := map_insert s.last_pairs sse_id {} }
       else
        (tmp_direction ((map_at s.last_pairs sse_id).getD {}) pair).bind (fun dir =>
          .ok (count_pair
            { s with direction_counter := counter_incr s.direction_counter sse_id dir }
            e_index sse_id pair)))
    else .ok (count_pair s e_index sse_id pair)

/-- The value `frac` of `direction_by_majority`, the share of the minority
among the votes. The counts are converted to `double` without loss; with no
vote the quotient `0.0 / 0.0` is not a number (`none`) and the comparison `0.5 <= frac` is false. Otherwise the quotient is rounded to
the nearest `double`, which is at least `0.5` exactly when the quotient of the
counts is (the counts are below `2 ^ 32`), so the comparison is the one of the
rational numbers. -/
def minority_frac (direction_counter : DirectionCounter) (sse_id : Nat) : Option ℚ :=
  if max (counter_at direction_counter sse_id false) (counter_at direction_counter sse_id true) +
      min (counter_at direction_counter sse_id false) (counter_at direction_counter sse_id true)
      = 0 then none
  else
    some
      ((min (counter_at direction_counter sse_id false)
          (counter_at direction_counter sse_id true) : ℚ) /
        ((max (counter_at direction_counter sse_id false)
            (counter_at direction_counter sse_id true) : ℚ) +
          (min (counter_at direction_counter sse_id false)
            (counter_at direction_counter sse_id true) : ℚ)))

/-- The method `direction_by_majority`: `true` is parallel; the `throw` is
`exception`. -/
def direction_by_majority (sse_id : Nat) (direction_counter : DirectionCounter) :
    Except Failure Bool :=
  match minority_frac direction_counter sse_id with
  | none =>
    .ok (decide (counter_at direction_counter sse_id false <
      counter_at direction_counter sse_id true))
  | some frac =>
    if (1 / 2 : ℚ) ≤ frac then .error .exception
    else
      .ok (decide (counter_at direction_counter sse_id false <
        counter_at direction_counter sse_id true))

/-- The loop `decide directions` of `add_undirected_adj_list`. -/
def decide_directions (e_index : Nat) (direction_counter : DirectionCounter) :
    List Nat → AdjList → Except Failure AdjList
  | [], undirected_adj_list => .ok undirected_adj_list
  | sse_id :: ids, undirected_adj_list =>
    (direction_by_majority sse_id direction_counter).bind (fun dir =>
      decide_directions e_index direction_counter ids
        (map_set (map_insert undirected_adj_list (e_index, sse_id) {}) (e_index, sse_id)
          { (map_at undirected_adj_list (e_index, sse_id)).getD {} with direction := dir }))

/-- The last loop of `add_undirected_adj_list`: a partner with fewer than two
counted hydrogen bonds is erased from the list and from the set. -/
def remove_unpaired (e_index : Nat) : List Nat → AdjList → List Nat × AdjList
  | [], undirected_adj_list => ([], undirected_adj_list)
  | sse_id :: ids, undirected_adj_list =>
    if ((map_at undirected_adj_list (e_index, sse_id)).getD {}).count < 2 then
      remove_unpaired e_index ids (map_erase undirected_adj_list (e_index, sse_id))
    else
      match remove_unpaired e_index ids (map_insert undirected_adj_list (e_index, sse_id) {}) with
      | (kept, l) => (sse_id :: kept, l)

/-- The state before the loop over the hydrogen bonds: an entry for every
partner strand. -/
def vote_init (e_index : Nat) (undirected_adj_list : AdjList) (adj_ids : List Nat) : VoteState :=
  adj_ids.foldl
    (fun s i =>
      { undirected_adj_list :=
          map_insert s.undirected_adj_list (e_index, i) { id := i, direction := true },
        last_pairs := map_insert s.last_pairs i {},
        direction_counter := map_insert s.direction_counter i (0, 0) })
    { undirected_adj_list := undirected_adj_list }

/-- The loop of `add_undirected_adj_list` over the hydrogen bonds. -/
def vote_loop (data : List SSE) (e_index : Nat) (s : VoteState)
    (involved_pairs : List HbondPair) : Except Failure VoteState :=
  involved_pairs.foldlM (vote_step data e_index) s

/-- The method `add_undirected_adj_list(undirected_adj_list, involved_pairs, e)`:
the set of partner strands it returns and the list it leaves. -/
def add_undirected_adj_list (data : List SSE) (undirected_adj_list : AdjList)
    (involved_pairs : List HbondPair) (e_index : Nat) : Except Failure (List Nat × AdjList) :=
  (vote_loop data e_index
      (vote_init e_index undirected_adj_list (adj_id_set data involved_pairs))
      involved_pairs).bind (fun s =>
    (decide_directions e_index s.direction_counter (adj_id_set data involved_pairs)
        s.undirected_adj_list).bind (fun l =>
      .ok (remove_unpaired e_index (adj_id_set data involved_pairs) l)))

/-- The vote of the table of micro-signatures for two hydrogen bonds `p` then
`q` with different sides: parallel (`true`) when the partner residue
increases, or when it stays, the residue on the strand changes and the side of
`q` is 0. -/
def micro_signature (p q : HbondPair) : Bool :=
  decide (p.2.1 < q.2.1) || (decide (p.2.1 = q.2.1) && decide (p.1 ≠ q.1) && decide (q.2.2 = 0))

/-- The hydrogen bond that `last_pairs` holds for a partner strand. -/
def last_of (s : VoteState) (sse_id : Nat) : LastPair := (map_at s.last_pairs sse_id).getD {}

/-- The count of a pair of strands in the undirected adjacency list. -/
def count_of (s : VoteState) (e_index sse_id : Nat) : Nat :=
  ((map_at s.undirected_adj_list (e_index, sse_id)).getD {}).count

/-- Two strands of residues 10 to 20 and 30 to 40. -/
def two_strands : List SSE := [⟨'E', 10, 20⟩, ⟨'E', 30, 40⟩]

/-- Hydrogen bonds of the first of `two_strands` to the second one, as
`involve_with` lists them: the sides alternate except for the second and the
third one. -/
def ladder_bonds : List HbondPair := [(12, 32, 0), (14, 34, 1), (16, 36, 1), (18, 38, 0)]

/-- The state of the loop of `add_undirected_adj_list` for the first of
`two_strands` after the first two of `ladder_bonds`. -/
def ladder_votes : VoteState :=
  { undirected_adj_list := [((0, 1), { id := 1, direction := true, count := 2 })],
    last_pairs := [(1, { res0 := 14, res1 := 34, hbond_dir := 1, first := false })],
    direction_counter := [(1, (0, 1))] }

/-- A strand of the residues 0 to 3, the first element of the table, and a
strand of the residues 10 to 13. -/
def zero_sses : List SSE := [⟨'E', 0, 3⟩, ⟨'E', 10, 13⟩]

/-! ## The handedness filter `BabFilter`
(`include/bab/filter.h`, `src/find_left_bab_filter.cpp`, `src/sheet_filter.cpp`,
`src/handedness_out.cpp`)

The filter is modelled as compiled with `WITH_STAT`, which `get_handedness`
needs; `WITH_LOOP` is the flag `with_loop`. The geometry of a `Side` is not
part of this model: the type of a side, the type of the coordinates and the
function `on_left_side` (with `cut_off_side_min_dist` already passed) are
parameters. The score is a `double`; it is a sum of counts until the final
division, and the model holds it as a rational number, of which the `double`
is the nearest one. -/

/-- The function `sheet::direction_with_reverse`; `true` means that the
direction, seen with the reverses, is anti-parallel. -/
def direction_with_reverse (default_direction rev_first rev_last : Bool) : Bool :=
  default_direction != (rev_first == rev_last)

/-- The class `pdb::ATOM`: coordinates, and whether they were read from the
PDB file (otherwise the atom is padding). -/
structure ATOM (X : Type) where
  xyz : X
  pdb : Bool := false

/-- The members of `pdb::SSE` that the filter reads. -/
structure AtomSSE (X : Type) extends SSE where
  atoms : List (ATOM X) := []
  n_pdb : Nat := 0

/-- The members of `pdb::LOOP` that the filter reads. -/
structure LOOP (X : Type) where
  atoms : List (ATOM X) := []
  n_pdb : Nat := 0

/-- The structure `BabFilterResult`. -/
structure BabFilterResult where
  success : Bool := false
  connection_type : Nat := 0
  non_bab_reason : Nat := 0
  left_score : ℚ := 0
  mid_res_len : Nat := 0
  tri_atom_count : Nat := 0
  n_pdb_atoms : Nat := 0
  n_mid_str : Nat := 0
  jump : Nat := 0
  sub_first : SubStrand := ⟨0, 0⟩
  sub_last : SubStrand := ⟨0, 0⟩
deriving DecidableEq

/-- The constant `DEFAULT_MAX_RES_LEN`. -/
def DEFAULT_MAX_RES_LEN : Nat := 60

/-- The constant `DEFAULT_MAX_MID_STR`. -/
def DEFAULT_MAX_MID_STR : Nat := 1

/-- The member variables of `BabFilter` apart from `last_result`, with the
parts of the `DirectedAdjacencyList` and of the `SSES` that it reads. -/
structure BabFilter (σ X : Type) where
  sses : List (AtomSSE X) := []
  loops_data : List (LOOP X) := []
  substrs : SubStrandsRange := {}
  adj_attr : List (SubStrandsPairKey × StrandsPairAttribute) := []
  sides_map : List (SubStrandsPairKey × List σ) := []
  on_left_side : σ → X → Bool → Bool → Bool × Bool
  comp : ℚ → ℚ → Bool := fun a b => decide (b < a)
  cut_off_res_len : Nat := DEFAULT_MAX_RES_LEN
  cut_off_mid_str : Nat := DEFAULT_MAX_MID_STR
  cut_off_left_score : ℚ := 6 / 10
  with_loop : Bool := false

/-- The accessor `SubStrandsRange::vec(str)`: the sub-strands of a strand, the
part of `index_vec` between the two iterators; `at` throws outside the
table. -/
def SubStrandsRange.vec (s : SubStrandsRange) (str : Nat) : Option (List SubStrand) :=
  (s.sub_strands_iters_vec.get? str).map (fun it => (s.index_vec.drop it.1).take (it.2 - it.1))

/-- The method `DirectedAdjacencyList::attr`. -/
def BabFilter.attr {σ X : Type} (f : BabFilter σ X) (ss0 ss1 : SubStrand) :
    Except Failure StrandsPairAttribute :=
  match map_at f.adj_attr (SubStrandsPairKey.ofSubs ss0 ss1) with
  | none => .error .exception
  | some a =>
    if a.reachable then .ok a
    else
      match map_at f.adj_attr (SubStrandsPairKey.ofSubs ss0 ss1).reverse with
      | none => .error .exception
      | some r => .ok r

/-- The value `sses.serial_strand_id[sse_id]`. -/
def BabFilter.serial {σ X : Type} (f : BabFilter σ X) (sse_id : Nat) : Nat :=
  serial_strand_id (f.sses.map (fun e => e.toSSE)) sse_id

/-- The method `non_bab_condition` for a range of `dist` elements. -/
def non_bab_condition (with_loop : Bool) (dist : Nat) : Nat :=
  match dist with
  | 0 => 2
  | 1 => 2
  | 2 => if with_loop then 0 else 2
  | _ => 0

/-- The value `reverse & (1u << sse_id)` as a `bool`; a shift by 32 or more
has no defined behaviour. -/
def reverse_bit (reverse sse_id : Nat) : Except Failure Bool :=
  if sse_id < 32 then .ok (reverse.testBit sse_id) else .error .undefined

/-- The loop of `count_left_tri` over one vector of sides for one atom: the
counters `(left_counter, total_counter)`. -/
def count_sides {σ X : Type} (f : BabFilter σ X) (sides : List σ) (xyz : X)
    (reversed myside : Bool) (c : Nat × Nat) : Nat × Nat :=
  sides.foldl
    (fun c side =>
      if (f.on_left_side side xyz reversed myside).2 then
        (if (f.on_left_side side xyz reversed myside).1 then c.1 + 1 else c.1, c.2 + 1)
      else c)
    c

/-- The method `count_left_tri` for the atoms of a range: the tuple
`(left_counter, total_counter)`; `sides_map.at` throws for a missing key. -/
def count_left_tri {σ X : Type} (f : BabFilter σ X) (b0 b1 : SubStrand)
    (b0_reverse b1_reverse : Bool) (atoms : List (ATOM X)) : Except Failure (Nat × Nat) :=
  match map_at f.sides_map (SubStrandsPairKey.ofSubs b0 b1),
      map_at f.sides_map (SubStrandsPairKey.ofSubs b1 b0) with
  | some sides_0, some sides_1 =>
    .ok (atoms.foldl
      (fun c mid_a =>
        if mid_a.pdb then
          count_sides f sides_1 mid_a.xyz b1_reverse false
            (count_sides f sides_0 mid_a.xyz b0_reverse true c)
        else c)
      (0, 0))
  | _, _ => .error .exception

/-- The update of the result by the counts of one part of the connection; `bit`
is the bit of `connection_type` for the part and `flag` tells whether it is
switched on. -/
def add_counts (result : BabFilterResult) (counts : Nat × Nat) (n_pdb : Nat) (bit : Nat)
    (flag : Bool) : BabFilterResult :=
  { result with
    left_score := result.left_score + (counts.1 : ℚ),
    tri_atom_count := result.tri_atom_count + counts.2,
    n_pdb_atoms := result.n_pdb_atoms + n_pdb,
    connection_type := if flag then result.connection_type ||| bit else result.connection_type }

/-- The method `SSE_Base::atom_vec_iter(resnum)`, as the position in `atoms`;
`resnum_out_of_range` is thrown outside the element. -/
def atom_vec_iter {X : Type} (e : AtomSSE X) (resnum : Int) : Except Failure Nat :=
  if resnum - e.init < 0 ∨ (e.atoms.length : Int) ≤ resnum - e.init then .error .exception
  else .ok (resnum - e.init).toNat

/-- The loop of `filter_one_unit` over the sub-strands of a strand between the
two flanking strands. The result is `Sum.inl` when `filter_one_unit` returns
from inside the loop and `Sum.inr` when the loop ends. The atoms of a
sub-strand are those from `atom_vec_iter(n_term_res)` to
`atom_vec_iter(c_term_res) + 1`; a range that ends before it starts has no
defined behaviour. -/
def mid_strand_loop {σ X : Type} (f : BabFilter σ X) (b0 b1 : SubStrand)
    (b0_reverse b1_reverse : Bool) (target_sse : AtomSSE X) :
    List SubStrand → BabFilterResult → Except Failure (BabFilterResult ⊕ BabFilterResult)
  | [], result => .ok (.inr result)
  | ss :: rest, result =>
    (f.attr b0 ss).bind (fun a =>
      if a.reachable then
        (if f.cut_off_mid_str < result.n_mid_str + 1 then
          .ok (.inl { result with n_mid_str := result.n_mid_str + 1, non_bab_reason := 5 })
         else
          mid_strand_loop f b0 b1 b0_reverse b1_reverse target_sse rest
            { result with n_mid_str := result.n_mid_str + 1 })
      else
        match f.substrs.n_term_res ss, f.substrs.c_term_res ss with
        | some n_term, some c_term =>
          (atom_vec_iter target_sse n_term).bind (fun a_begin =>
            (atom_vec_iter target_sse c_term).bind (fun a_last =>
              (count_left_tri f b0 b1 b0_reverse b1_reverse
                  ((target_sse.atoms.drop a_begin).take (a_last + 1 - a_begin))).bind
                (fun counts_s =>
                  if a_last + 1 < a_begin then .error .undefined
                  else
                    mid_strand_loop f b0 b1 b0_reverse b1_reverse target_sse rest
                      (add_counts result counts_s target_sse.n_pdb 4
                        (decide (counts_s.2 ≠ 0))))))
        | _, _ => .error .exception)

/-- The part of the body of the loop of `filter_one_unit` that depends on the
type of the element: a helix, a strand, or neither. -/
def mid_sse_part {σ X : Type} (f : BabFilter σ X) (b0 b1 : SubStrand)
    (b0_reverse b1_reverse : Bool) (sse_id : Nat) (target_sse : AtomSSE X)
    (result : BabFilterResult) : Except Failure (BabFilterResult ⊕ BabFilterResult) :=
  if target_sse.type = 'H' then
    (count_left_tri f b0 b1 b0_reverse b1_reverse target_sse.atoms).bind (fun counts_h =>
      .ok (.inr (add_counts result counts_h target_sse.n_pdb 1 (decide (counts_h.2 ≠ 0)))))
  else if target_sse.type = 'E' then
    match f.substrs.vec (f.serial sse_id) with
    | none => .error .exception
    | some subs => mid_strand_loop f b0 b1 b0_reverse b1_reverse target_sse subs result
  else .ok (.inr result)

/-- The part of `filter_one_unit` for the loop that follows the element `n`,
compiled with `WITH_LOOP`; `first` tells the loop after the first strand, for
which the bit of `connection_type` is switched on when it has an atom of the
PDB file. -/
def loop_part {σ X : Type} (f : BabFilter σ X) (b0 b1 : SubStrand)
    (b0_reverse b1_reverse : Bool) (n : Nat) (first : Bool) (result : BabFilterResult) :
    Except Failure BabFilterResult :=
  if f.with_loop then
    match f.loops_data.get? n with
    | none => .error .exception
    | some target_loop =>
      (count_left_tri f b0 b1 b0_reverse b1_reverse target_loop.atoms).bind (fun counts =>
        .ok { add_counts result counts target_loop.n_pdb 2
                (first && decide (target_loop.n_pdb ≠ 0)) with
              mid_res_len := result.mid_res_len + target_loop.atoms.length })
  else .ok result

/-- The loop of `filter_one_unit` over the elements between the two flanking
strands; `sses[...]` is not checked. -/
def mid_sse_loop {σ X : Type} (f : BabFilter σ X) (b0 b1 : SubStrand)
    (b0_reverse b1_reverse : Bool) :
    List Nat → BabFilterResult → Except Failure (BabFilterResult ⊕ BabFilterResult)
  | [], result => .ok (.inr result)
  | sse_id :: rest, result =>
    match f.sses.get? sse_id with
    | none => .error .undefined
    | some target_sse =>
      if f.cut_off_res_len < result.mid_res_len + target_sse.atoms.length then
        .ok (.inl { result with
          mid_res_len := result.mid_res_len + target_sse.atoms.length, non_bab_reason := 4 })
      else
        (mid_sse_part f b0 b1 b0_reverse b1_reverse sse_id target_sse
            { result with mid_res_len := result.mid_res_len + target_sse.atoms.length }).bind
          (fun part =>
            match part with
            | .inl r => .ok (.inl r)
            | .inr r =>
              (loop_part f b0 b1 b0_reverse b1_reverse sse_id false r).bind (fun r1 =>
                mid_sse_loop f b0 b1 b0_reverse b1_reverse rest r1))

/-- The end of `filter_one_unit` after the loop. -/
def finish_unit {σ X : Type} (f : BabFilter σ X) (result : BabFilterResult) : BabFilterResult :=
  if f.cut_off_res_len < result.mid_res_len then { result with non_bab_reason := 4 }
  else
    { result with
      left_score :=
        if result.tri_atom_count ≠ 0 then result.left_score / (result.tri_atom_count : ℚ) else 0,
      success := true }

/-- The method `filter_one_unit` for the range `ids` of elements, from the
first flanking strand to the last one. -/
def filter_one_unit {σ X : Type} (f : BabFilter σ X) (b0 b1 : SubStrand)
    (b0_reverse b1_reverse : Bool) (ids : List Nat) : Except Failure BabFilterResult :=
  (loop_part f b0 b1 b0_reverse b1_reverse (ids.headD 0) true
      { sub_first := b0, sub_last := b1 }).bind (fun r0 =>
    (mid_sse_loop f b0 b1 b0_reverse b1_reverse ids.tail.dropLast r0).bind (fun out =>
      match out with
      | .inl r => .ok r
      | .inr r => .ok (finish_unit f r)))

/-- The method `operator()(ss0, ss1, first, last, reverse)`: the value it
returns and the value it leaves in `last_result`. -/
def BabFilter.call_sub {σ X : Type} (f : BabFilter σ X) (ss0 ss1 : SubStrand) (ids : List Nat)
    (reverse : Nat) : Except Failure (Bool × BabFilterResult) :=
  if non_bab_condition f.with_loop ids.length ≠ 0 then
    .ok (false,
      { sub_first := ss0, sub_last := ss1,
        non_bab_reason := non_bab_condition f.with_loop ids.length })
  else
    (f.attr ss0 ss1).bind (fun attr =>
      (reverse_bit reverse (ids.headD 0)).bind (fun reversed_first =>
        (reverse_bit reverse (ids.getLastD 0)).bind (fun reversed_last =>
          if !attr.reachable ||
              direction_with_reverse attr.direction reversed_first reversed_last then
            .ok (false, { sub_first := ss0, sub_last := ss1, non_bab_reason := 3 })
          else
            (filter_one_unit f ss0 ss1 reversed_first reversed_last ids).bind (fun result =>
              .ok (result.success && f.comp result.left_score f.cut_off_left_score,
                { result with jump := attr.jump })))))

/-- The inner loop of `operator()(first, last, reverse)` over the sub-strands
of the last strand. -/
def call_inner {σ X : Type} (f : BabFilter σ X) (sub_first : SubStrand) (ids : List Nat)
    (reverse : Nat) : List SubStrand → BabFilterResult → Except Failure (Bool × BabFilterResult)
  | [], last_result => .ok (false, last_result)
  | sub_last :: rest, _ =>
    (f.call_sub sub_first sub_last ids reverse).bind (fun r =>
      if r.1 then .ok r else call_inner f sub_first ids reverse rest r.2)

/-- The outer loop of `operator()(first, last, reverse)` over the sub-strands
of the first strand. -/
def call_outer {σ X : Type} (f : BabFilter σ X) (ids : List Nat) (reverse : Nat) :
    List SubStrand → BabFilterResult → Except Failure (Bool × BabFilterResult)
  | [], last_result => .ok (false, last_result)
  | sub_first :: rest, last_result =>
    match f.substrs.vec (f.serial (ids.getLastD 0)) with
    | none => .error .exception
    | some subs_last =>
      (call_inner f sub_first ids reverse subs_last last_result).bind (fun r =>
        if r.1 then .ok r else call_outer f ids reverse rest r.2)

/-- The method `operator()(first, last, reverse)` for the range `ids` of
elements: the value it returns and the value of `last_result` after the call,
from the value before the call. An empty range and an element outside the
table have no defined behaviour. -/
def BabFilter.call {σ X : Type} (f : BabFilter σ X) (last_result : BabFilterResult)
    (ids : List Nat) (reverse : Nat) : Except Failure (Bool × BabFilterResult) :=
  match ids.head? with
  | none => .error .undefined
  | some first =>
    match f.sses.get? first with
    | none => .error .undefined
    | some e_first =>
      if e_first.type ≠ 'E' then .ok (false, { non_bab_reason := 1 })
      else
        match f.sses.get? (ids.getLastD 0) with
        | none => .error .undefined
        | some e_last =>
          if e_last.type ≠ 'E' then .ok (false, { non_bab_reason := 1 })
          else
            match f.substrs.vec (f.serial first) with
            | none => .error .exception
            | some subs_first => call_outer f ids reverse subs_first last_result

/-- The ranges `[b + i, b + j)` of `get_handedness`, in the order of its two
loops; `pseudo_seq` holds the numbers of the elements. -/
def handedness_ranges (n_sse : Nat) : List (List Nat) :=
  (List.range n_sse).flatMap (fun i =>
    (List.range' (i + 1) (n_sse - i)).map (fun j => (List.range' i (j - i)).map toIndexType))

/-- The function `get_handedness`: the filter is called for every range and
`result()` is pushed when its `success` is set. The value is the vector
`found_bab`. -/
def get_handedness {σ X : Type} (f : BabFilter σ X) (last_result : BabFilterResult) :
    Except Failure (List BabFilterResult) :=
  ((handedness_ranges f.sses.length).foldlM
    (fun (st : BabFilterResult × List BabFilterResult) ids =>
      (f.call st.1 ids 0).bind (fun r =>
        .ok (r.2, if r.2.success then st.2 ++ [r.2] else st.2)))
    (last_result, [])).bind (fun st => .ok st.2)

/-- The assertion `assert(result.connection_type)` of `output_handedness` for
every element of `found_bab`. -/
def handedness_assertion (found_bab : List BabFilterResult) : Bool :=
  found_bab.all (fun result => decide (result.connection_type ≠ 0))

/-- Four atoms read from the PDB file, without coordinates. -/
def four_atoms : List (ATOM Unit) := List.replicate 4 { xyz := (), pdb := true }

/-- A filter for a strand of the residues 1 to 4, a helix of the residues 8 to
16 and a strand of the residues 20 to 23; the two strands are one sub-strand
each, parallel neighbours in one sheet, with three sides each. The decision of
`on_left_side` is the same `side` for every side and every atom. -/
def helix_unit (side : Bool × Bool) : BabFilter (Bool × Bool) Unit :=
  { sses :=
      [{ type := 'E', init := 1, end_ := 4, atoms := four_atoms, n_pdb := 4 },
       { type := 'H', init := 8, end_ := 16,
         atoms := List.replicate 9 { xyz := (), pdb := true }, n_pdb := 9 },
       { type := 'E', init := 20, end_ := 23, atoms := four_atoms, n_pdb := 4 }],
    substrs :=
      { data := [[(1, 4)], [(20, 23)]],
        index_vec := [⟨0, 0⟩, ⟨1, 0⟩],
        sub_strands_iters_vec := [(0, 1), (1, 2)] },
    adj_attr :=
      [(⟨0, 0, 0, 0⟩, { ss0 := ⟨0, 0⟩, ss1 := ⟨0, 0⟩ }),
       (⟨0, 0, 1, 0⟩, { ss0 := ⟨0, 0⟩, ss1 := ⟨1, 0⟩, reachable := true, direction := true }),
       (⟨1, 0, 0, 0⟩, { ss0 := ⟨1, 0⟩, ss1 := ⟨0, 0⟩ }),
       (⟨1, 0, 1, 0⟩, { ss0 := ⟨1, 0⟩, ss1 := ⟨1, 0⟩ })],
    sides_map :=
      [(⟨0, 0, 1, 0⟩, List.replicate 3 side), (⟨1, 0, 0, 0⟩, List.replicate 3 side)],
    on_left_side := fun s _ _ _ => s }

/-- The filter `helix_unit` with a second helix of the residues 30 to 89 (60
residues) and a third strand of the residues 95 to 98 in the same sheet, and
with the helix of 60 residues alone between two strands. -/
def long_unit (side : Bool × Bool) : BabFilter (Bool × Bool) Unit :=
  { helix_unit side with
    sses :=
      [{ type := 'E', init := 1, end_ := 4, atoms := four_atoms, n_pdb := 4 },
       { type := 'H', init := 8, end_ := 16,
         atoms := List.replicate 9 { xyz := (), pdb := true }, n_pdb := 9 },
       { type := 'H', init := 30, end_ := 89,
         atoms := List.replicate 60 { xyz := (), pdb := true }, n_pdb := 60 },
       { type := 'E', init := 95, end_ := 98, atoms := four_atoms, n_pdb := 4 }],
    substrs :=
      { data := [[(1, 4)], [(95, 98)]],
        index_vec := [⟨0, 0⟩, ⟨1, 0⟩],
        sub_strands_iters_vec := [(0, 1), (1, 2)] } }

/-- A filter for three strands of the residues 1 to 4, 8 to 11 and 20 to 23,
one sub-strand each, in one sheet: the first and the third are parallel, the
second lies between them in the sequence. -/
def three_strands (side : Bool × Bool) : BabFilter (Bool × Bool) Unit :=
  { sses :=
      [{ type := 'E', init := 1, end_ := 4, atoms := four_atoms, n_pdb := 4 },
       { type := 'E', init := 8, end_ := 11, atoms := four_atoms, n_pdb := 4 },
       { type := 'E', init := 20, end_ := 23, atoms := four_atoms, n_pdb := 4 }],
    substrs :=
      { data := [[(1, 4)], [(8, 11)], [(20, 23)]],
        index_vec := [⟨0, 0⟩, ⟨1, 0⟩, ⟨2, 0⟩],
        sub_strands_iters_vec := [(0, 1), (1, 2), (2, 3)] },
    adj_attr :=
      [(⟨0, 0, 1, 0⟩, { ss0 := ⟨0, 0⟩, ss1 := ⟨1, 0⟩, reachable := true, direction := false }),
       (⟨0, 0, 2, 0⟩,
         { ss0 := ⟨0, 0⟩, ss1 := ⟨2, 0⟩, reachable := true, jump := 1, direction := true,
           jumped_substrs := [⟨1, 0⟩, ⟨0, 0⟩] }),
       (⟨1, 0, 2, 0⟩, { ss0 := ⟨1, 0⟩, ss1 := ⟨2, 0⟩, reachable := true, direction := false }),
       (⟨1, 0, 0, 0⟩, { ss0 := ⟨1, 0⟩, ss1 := ⟨0, 0⟩ }),
       (⟨2, 0, 0, 0⟩, { ss0 := ⟨2, 0⟩, ss1 := ⟨0, 0⟩ }),
       (⟨2, 0, 1, 0⟩, { ss0 := ⟨2, 0⟩, ss1 := ⟨1, 0⟩ })],
    sides_map :=
      [(⟨0, 0, 2, 0⟩, List.replicate 3 side), (⟨2, 0, 0, 0⟩, List.replicate 3 side)],
    on_left_side := fun s _ _ _ => s }

/-- The filter `helix_unit` with a fourth element, a strand of the residues 30
to 33 that has no sub-strand in the registry. -/
def bare_strand (side : Bool × Bool) : BabFilter (Bool × Bool) Unit :=
  { helix_unit side with
    sses :=
      [{ type := 'E', init := 1, end_ := 4, atoms := four_atoms, n_pdb := 4 },
       { type := 'H', init := 8, end_ := 16,
         atoms := List.replicate 9 { xyz := (), pdb := true }, n_pdb := 9 },
       { type := 'E', init := 20, end_ := 23, atoms := four_atoms, n_pdb := 4 },
       { type := 'E', init := 30, end_ := 33, atoms := four_atoms, n_pdb := 4 }],
    substrs :=
      { data := [[(1, 4)], [(20, 23)], []],
        index_vec := [⟨0, 0⟩, ⟨1, 0⟩],
        sub_strands_iters_vec := [(0, 1), (1, 2), (2, 2)] } }

/-- The result of `helix_unit` for the range of its three elements when every
atom is on the left of every side. -/
def helix_result : BabFilterResult :=
  { success := true, connection_type := 1, left_score := 1, mid_res_len := 9,
    tri_atom_count := 54, n_pdb_atoms := 9, sub_first := ⟨0, 0⟩, sub_last := ⟨1, 0⟩ }

/-- The state of the result of `filter_one_unit` while the counts are summed
up: no success, no reason, and the score is the number of decisions for the
left among the `tri_atom_count` decisions. -/
def Counting (r : BabFilterResult) : Prop :=
  r.success = false ∧ r.non_bab_reason = 0 ∧
    ∃ left : Nat, left ≤ r.tri_atom_count ∧ r.left_score = (left : ℚ)

/-- The state of a result that `filter_one_unit` returns without success: the
reason is set and the score is still the number of decisions for the left. -/
def Rejected (r : BabFilterResult) (reason : Nat) : Prop :=
  r.success = false ∧ r.non_bab_reason = reason ∧
    ∃ left : Nat, left ≤ r.tri_atom_count ∧ r.left_score = (left : ℚ)

/-- The number of residues between the two flanking strands of a range: the
atoms of the elements between them, and with `WITH_LOOP` the atoms of the
loops after the first strand and after each of these elements. -/
def mid_residues {σ X : Type} (f : BabFilter σ X) (ids : List Nat) : Nat :=
  (if f.with_loop then (f.loops_data.getD (ids.headD 0) {}).atoms.length else 0) +
    (ids.tail.dropLast.map (fun i =>
      (f.sses.getD i {}).atoms.length +
        (if f.with_loop then (f.loops_data.getD i {}).atoms.length else 0))).sum

/-- The test of `filter_one_unit` for a sub-strand between the flanking
strands: `attr(b0, ss).reachable`, the sub-strand is joined to `b0` by a path
of directed edges, from `b0` or to `b0`. -/
def attr_reachable {σ X : Type} (f : BabFilter σ X) (b0 ss : SubStrand) : Bool :=
  match f.attr b0 ss with
  | .ok a => a.reachable
  | .error _ => false

/-- The number of sub-strands of the strands between the two flanking strands
of a range for which `attr(b0, ss)` is reachable. -/
def mid_reachable {σ X : Type} (f : BabFilter σ X) (b0 : SubStrand) (ids : List Nat) : Nat :=
  (ids.tail.dropLast.map (fun i =>
    if (f.sses.getD i {}).type = 'E' then
      ((f.substrs.vec (f.serial i)).getD []).countP (attr_reachable f b0)
    else 0)).sum

/-- The filter `three_strands` with a helix of 56 residues before the strand
in the middle: 60 residues and one sub-strand that is reachable from the first
flanking sub-strand lie between the flanking strands. -/
def limit_unit (side : Bool × Bool) : BabFilter (Bool × Bool) Unit :=
  { three_strands side with
    sses :=
      [{ type := 'E', init := 1, end_ := 4, atoms := four_atoms, n_pdb := 4 },
       { type := 'H', init := 8, end_ := 63,
         atoms := List.replicate 56 { xyz := (), pdb := true }, n_pdb := 56 },
       { type := 'E', init := 70, end_ := 73, atoms := four_atoms, n_pdb := 4 },
       { type := 'E', init := 80, end_ := 83, atoms := four_atoms, n_pdb := 4 }],
    substrs :=
      { data := [[(1, 4)], [(70, 73)], [(80, 83)]],
        index_vec := [⟨0, 0⟩, ⟨1, 0⟩, ⟨2, 0⟩],
        sub_strands_iters_vec := [(0, 1), (1, 2), (2, 3)] } }

/-! ## The side of a strand pair `Side` (`include/bab/side.h`,
`src/find_left_bab_side.cpp`) -/

/-- A vector `Eigen::Vector3d`; the coordinates are rational numbers here. -/
abbrev Vec3 := ℚ × ℚ × ℚ

/-- The difference of two vectors. -/
def Vec3.sub (a b : Vec3) : Vec3 := (a.1 - b.1, a.2.1 - b.2.1, a.2.2 - b.2.2)

/-- The method `dot` of a vector. -/
def Vec3.dot (a b : Vec3) : ℚ := a.1 * b.1 + a.2.1 * b.2.1 + a.2.2 * b.2.2

/-- The members of `Side` that `on_left_side` reads: the coordinates of the
atoms `a0` and `a1` and the two normal vectors. -/
structure Side where
  a0 : Vec3 := (0, 0, 0)
  a1 : Vec3 := (0, 0, 0)
  normal_vec : Vec3 × Vec3 := ((0, 0, 0), (0, 0, 0))
deriving DecidableEq

/-- The method `Side::normal`. -/
def Side.normal (s : Side) (reversed : Bool) : Vec3 :=
  if reversed then s.normal_vec.2 else s.normal_vec.1

/-- The method `Side::base_point`. -/
def Side.base_point (s : Side) (reversed : Bool) : Vec3 := if reversed then s.a1 else s.a0

/-- The method `Side::on_left_side`: the tuple of the answer and of
`is_distant`. -/
def Side.on_left_side (s : Side) (v : Vec3) (reversed myside : Bool) (min_dist : ℚ) :
    Bool × Bool :=
  let dist := (s.normal reversed).dot (v.sub (s.base_point reversed))
  let is_distant := decide (min_dist < |dist|)
  if myside then (decide (dist < -min_dist), is_distant)
  else (decide (dist > min_dist), is_distant)

/-- The value `DEFAULT_SIDE_MIN_DIST` of `include/bab/filter.h`. -/
def DEFAULT_SIDE_MIN_DIST : ℚ := 1

/-- A filter over sides of the class `Side`: the calls of `on_left_side` in
`count_left_tri` pass `cut_off_side_min_dist`. -/
def side_filter (cut_off_side_min_dist : ℚ) : BabFilter Side Vec3 :=
  { on_left_side := fun side xyz reversed myside =>
      side.on_left_side xyz reversed myside cut_off_side_min_dist }

/-- The signed distance of a point to a side: the value of the local variable
`dist` of `on_left_side`. -/
def signed_dist (s : Side) (v : Vec3) (reversed : Bool) : ℚ :=
  (s.normal reversed).dot (v.sub (s.base_point reversed))

/-- A side through the origin with the normal vectors along the third axis. -/
def flat_side : Side := { normal_vec := ((0, 0, 1), (0, 0, -1)) }

/-! ## The registration of the bridges in `gen_strict_zone`
(`src/sheet_directed_adjacency_list.cpp`) -/

/-- The local variables of `gen_strict_zone` that the loop over the hydrogen
bonds of one target strand updates. -/
structure ZoneGenState where
  strict_zone : StrictZone := {}
  last_pairs : List (Nat × LastPair) := []
deriving DecidableEq

/-- The body of the loop of `gen_strict_zone` over the hydrogen bonds of the
strand `target_str`; `adj_ids` is the set `adj_index_map.at(target_str)`. The
exception `non_sse_resnum` of the search of the partner is caught, the one of
`undirected_adj_list.at` is not. -/
def gen_strict_zone_step (sses : List SSE) (undirected_adj_list : AdjList) (adj_ids : List Nat)
    (target_str : Nat) (s : ZoneGenState) (hbond : HbondPair) : Except Failure ZoneGenState :=
  match partner_of sses hbond with
  | none => .ok s
  | some adj_str =>
    if adj_str ∉ adj_ids then .ok s
    else
      match map_at undirected_adj_list (target_str, adj_str) with
      | none => .error .exception
      | some data =>
        (if ((map_at s.last_pairs adj_str).getD {}).first = false then
          (if data.direction then
            (if hbond.1 = ((map_at s.last_pairs adj_str).getD {}).res0 ∧
                hbond.2.1 = ((map_at s.last_pairs adj_str).getD {}).res1 + 2 ∧
                hbond.2.2 ≠ ((map_at s.last_pairs adj_str).getD {}).hbond_dir then
              On s.strict_zone target_str hbond.1 adj_str (hbond.2.1 - 1) true
                BridgeType.ParallelHbonds
            else if hbond.1 = ((map_at s.last_pairs adj_str).getD {}).res0 + 2 ∧
                hbond.2.1 = ((map_at s.last_pairs adj_str).getD {}).res1 ∧
                hbond.2.2 ≠ ((map_at s.last_pairs adj_str).getD {}).hbond_dir then
              On s.strict_zone target_str (hbond.1 - 1) adj_str hbond.2.1 false
                BridgeType.ParallelNoHbonds
            else .ok s.strict_zone)
          else
            (if hbond.1 = ((map_at s.last_pairs adj_str).getD {}).res0 ∧
                hbond.2.1 = ((map_at s.last_pairs adj_str).getD {}).res1 ∧
                hbond.2.2 ≠ ((map_at s.last_pairs adj_str).getD {}).hbond_dir then
              On s.strict_zone target_str hbond.1 adj_str hbond.2.1 true BridgeType.SmallRing
            else if hbond.1 = ((map_at s.last_pairs adj_str).getD {}).res0 + 2 ∧
                hbond.2.1 = ((map_at s.last_pairs adj_str).getD {}).res1 - 2 ∧
                hbond.2.2 ≠ ((map_at s.last_pairs adj_str).getD {}).hbond_dir then
              On s.strict_zone target_str (hbond.1 - 1) adj_str (hbond.2.1 + 1) false
                BridgeType.LargeRing
            else .ok s.strict_zone))
        else .ok s.strict_zone).bind (fun strict_zone =>
          .ok { strict_zone := strict_zone,
                last_pairs := map_set (map_insert s.last_pairs adj_str {}) adj_str
                  { res0 := hbond.1, res1 := hbond.2.1, hbond_dir := hbond.2.2, first := false } })

/-- The statements of `gen_strict_zone` for one target strand: a new
`LastPair` for every adjacent strand, then the loop over the hydrogen bonds. -/
def gen_strict_zone_strand (sses : List SSE) (undirected_adj_list : AdjList) (adj_ids : List Nat)
    (target_str : Nat) (strict_zone : StrictZone) (involved_pairs : List HbondPair) :
    Except Failure ZoneGenState :=
  involved_pairs.foldlM (gen_strict_zone_step sses undirected_adj_list adj_ids target_str)
    { strict_zone := strict_zone,
      last_pairs := adj_ids.foldl (fun m i => map_insert m i {}) [] }

/-- The zone built from an empty one by a list of calls of `On`. -/
def zone_of (sses : List SSE) (calls : List (Nat × Int × Nat × Int × Bool × BridgeType)) :
    Except Failure StrictZone :=
  calls.foldlM (fun z c => On z c.1 c.2.1 c.2.2.1 c.2.2.2.1 c.2.2.2.2.1 c.2.2.2.2.2)
    (StrictZone.init sses)

/-- Three strands: the residues 1 to 2, 11 to 20 and 31 to 40. -/
def swap_sses : List SSE := [⟨'E', 1, 2⟩, ⟨'E', 11, 20⟩, ⟨'E', 31, 40⟩]

/-- The calls of `On` for a zone on `swap_sses` with two ladders between the
strands 1 and 2: the residues 18 and 19 with 38 and 39, and the residues 11 and
12 with 31 and 32; the residues 1 and 2 of the strand 0 are paired with the
residues 18 and 19. -/
def swap_calls : List (Nat × Int × Nat × Int × Bool × BridgeType) :=
  [(0, 1, 1, 18, true, BridgeType.ParallelHbonds), (1, 18, 0, 1, true, BridgeType.ParallelHbonds),
   (0, 2, 1, 19, false, BridgeType.ParallelNoHbonds),
   (1, 19, 0, 2, false, BridgeType.ParallelNoHbonds),
   (1, 18, 2, 38, false, BridgeType.ParallelNoHbonds),
   (2, 38, 1, 18, false, BridgeType.ParallelNoHbonds),
   (1, 19, 2, 39, true, BridgeType.ParallelHbonds), (2, 39, 1, 19, true, BridgeType.ParallelHbonds),
   (1, 11, 2, 31, false, BridgeType.ParallelNoHbonds),
   (2, 31, 1, 11, false, BridgeType.ParallelNoHbonds),
   (1, 12, 2, 32, true, BridgeType.ParallelHbonds), (2, 32, 1, 12, true, BridgeType.ParallelHbonds)]

/-- The undirected adjacency list for the zone of `swap_calls`. -/
def swap_adj : AdjList :=
  [((0, 1), ⟨1, true, 2⟩), ((1, 0), ⟨0, true, 2⟩), ((1, 2), ⟨2, true, 4⟩), ((2, 1), ⟨1, true, 4⟩)]

/-- The zone built by `swap_calls`. -/
def swap_strict : StrictZone := (returned (zone_of swap_sses swap_calls)).getD {}

/-- The coloured residues of `swap_strict`, in the order of `collect_colored`. -/
def swap_colored : List ZoneResidue := (returned (collect_colored swap_strict)).getD []

/-- The zone and the registry of edges that the loop of `decide_side` over the
components leaves for `swap_strict`. -/
def swap_components : StrictZone × AdjListWithSub :=
  (returned (decide_side_loop swap_adj (swap_colored.length + 1) swap_strict {}
    swap_colored)).getD ({}, {})

/-- The calls of `On` for a zone on `ladder_sses` whose three strands are
paired with one another: the residue 1 with 11 and 21, the residue 11 with 21,
the residue 2 with 12 and the residue 12 with 22. -/
def tri_calls : List (Nat × Int × Nat × Int × Bool × BridgeType) :=
  [(0, 1, 1, 11, false, BridgeType.ParallelNoHbonds),
   (1, 11, 0, 1, false, BridgeType.ParallelNoHbonds),
   (0, 1, 2, 21, true, BridgeType.SmallRing), (2, 21, 0, 1, true, BridgeType.SmallRing),
   (1, 11, 2, 21, true, BridgeType.ParallelHbonds),
   (2, 21, 1, 11, false, BridgeType.ParallelNoHbonds),
   (0, 2, 1, 12, true, BridgeType.ParallelHbonds), (1, 12, 0, 2, true, BridgeType.ParallelHbonds),
   (2, 22, 1, 12, true, BridgeType.ParallelHbonds),
   (1, 12, 2, 22, false, BridgeType.ParallelNoHbonds)]

/-- The undirected adjacency list for the zone of `tri_calls`: the strands 0
and 1 and the strands 1 and 2 are parallel, the strands 0 and 2 anti-parallel,
which no assignment of relative directions satisfies. -/
def tri_adj : AdjList :=
  [((0, 1), ⟨1, true, 2⟩), ((1, 0), ⟨0, true, 2⟩), ((1, 2), ⟨2, true, 2⟩), ((2, 1), ⟨1, true, 2⟩),
   ((0, 2), ⟨2, false, 2⟩), ((2, 0), ⟨0, false, 2⟩)]

/-- The zone built by `tri_calls`. -/
def tri_strict : StrictZone := (returned (zone_of ladder_sses tri_calls)).getD {}

/-- The coloured residues of `tri_strict`, in the order of `collect_colored`. -/
def tri_colored : List ZoneResidue := (returned (collect_colored tri_strict)).getD []
/-- The result of `bfs` for `tri_strict` from an empty registry of edges. -/
def tri_bfs : StrictZone × AdjListWithSub × List ZoneResidue :=
  (returned (bfs tri_strict {} tri_colored tri_adj)).getD ({}, {}, [])

/-! ## The course of the loops of `bfs` and `decide_side` -/

/-- The states of `bfs` at the test of its `while` loop, from the state `s` on:
the course of `bfs_loop`, which stops at an empty queue, at a body that does
not return, or at the end of the fuel. -/
def bfs_loop_states (undirected_adj_list : AdjList) : Nat → BfsState → List BfsState
  | 0, _ => []
  | fuel + 1, s =>
    s ::
      match s.queue with
      | [] => []
      | target :: _ =>
        match bfs_body undirected_adj_list target s with
        | .ok s1 => bfs_loop_states undirected_adj_list fuel s1
        | .error _ => []

/-- The states of one call of `bfs` at the test of its loop. -/
def bfs_states (z : StrictZone) (adj_list : AdjListWithSub) (remainder : List ZoneResidue)
    (undirected_adj_list : AdjList) : List BfsState :=
  match bfs_start z adj_list remainder with
  | .ok s0 => bfs_loop_states undirected_adj_list (remainder.length + 1) s0
  | .error _ => []

/-- The residues that the loop takes from the front of the queue in a list of
states: one for every state with a queue that is not empty. -/
def dequeued (states : List BfsState) : List ZoneResidue :=
  states.filterMap (fun s => s.queue.head?)

/-- The states of all the calls of `bfs` in the loop of `decide_side` over the
components: the course of `decide_side_loop`. -/
def decide_side_states (undirected_adj_list : AdjList) :
    Nat → StrictZone → AdjListWithSub → List ZoneResidue → List BfsState
  | 0, _, _, _ => []
  | fuel + 1, z, adj_sub, remainder =>
    if remainder.length = 0 then []
    else
      bfs_states z adj_sub remainder undirected_adj_list ++
        match bfs z adj_sub remainder undirected_adj_list with
        | .ok r => decide_side_states undirected_adj_list fuel r.1 r.2.1 r.2.2
        | .error _ => []

/-- The `ZoneInfo` at a position of the table `strict`. -/
def cell (strict : List (List ZoneInfo)) (serial_str_id serial_res_id : Nat) : Option ZoneInfo :=
  (strict.get? serial_str_id).bind (fun row => row.get? serial_res_id)

/-- The side of the residue in the table is `Upper` or `Lower`. -/
def side_defined (strict : List (List ZoneInfo)) (res : ZoneResidue) : Bool :=
  match cell strict res.serial_str_id res.serial_res_id with
  | some info => decide (info.side ≠ SideStatus.Undefined)
  | none => false

/-- The residue is the one the constructor `ZoneResidue(sse_id, resnum, sses)`
builds for its element and its residue number. -/
def Canon (sses : List SSE) (res : ZoneResidue) : Prop :=
  ZoneResidue.make sses res.sse_id res.resnum = some res

/-- Every partner stored in the table is a residue built by the constructor. -/
def CanonTable (sses : List SSE) (strict : List (List ZoneInfo)) : Prop :=
  ∀ i j info, cell strict i j = some info → ∀ slot : Bool,
    (at2 info.adj_residues slot).has_value = true → Canon sses (at2 info.adj_residues slot)

/-- Every coloured position of the table has a defined side or is the position
of a residue of the remainder. -/
def SidesLeft (strict : List (List ZoneInfo)) (remainder : List ZoneResidue) : Prop :=
  ∀ i j info, cell strict i j = some info → info.colored = true →
    info.side ≠ SideStatus.Undefined ∨
      ∃ x ∈ remainder, x.serial_str_id = i ∧ x.serial_res_id = j

/-- The table `strict1` comes from `strict` by assignments of defined sides:
the positions are the same, and a `ZoneInfo` differs at most in its side, a
defined side staying defined. -/
def SideStep (strict strict1 : List (List ZoneInfo)) : Prop :=
  ∀ i j, (cell strict i j = none → cell strict1 i j = none) ∧
    ∀ info, cell strict i j = some info →
      ∃ info1, cell strict1 i j = some info1 ∧ info1.colored = info.colored ∧
        info1.adj_residues = info.adj_residues ∧ info1.adj_set = info.adj_set ∧
        info1.bridge_type = info.bridge_type ∧
        (info.side ≠ SideStatus.Undefined → info1.side ≠ SideStatus.Undefined)

/-- The invariant of the loop of `bfs` for the sides, for a zone over the
elements `sses`: the residues of the queue have a defined side, the residues
of the queue and of the remainder and the partners stored in the table are
built by the constructor, and every coloured position has a defined side or a
residue in the remainder. -/
structure SideInv (sses : List SSE) (s : BfsState) : Prop where
  zone_sses : s.zone.sses = sses
  queue_side : ∀ q ∈ s.queue, side_defined s.zone.strict q = true
  queue_canon : ∀ q ∈ s.queue, Canon sses q
  rem_canon : ∀ x ∈ s.remainder, Canon sses x
  table_canon : CanonTable sses s.zone.strict
  sides_left : SidesLeft s.zone.strict s.remainder
/-- The undirected adjacency list gives a pair of elements and the reversed
pair the same direction: the test of `undirected_adj_symmetry_check`. -/
def adj_symmetric (undirected_adj_list : AdjList) : Prop :=
  ∀ a b sd, map_at undirected_adj_list (a, b) = some sd →
    ∃ sd1, map_at undirected_adj_list (b, a) = some sd1 ∧ sd1.direction = sd.direction

/-- Every edge of the map has the direction that the undirected adjacency list
gives for the elements of its two strands. -/
def EdgeDirs (undirected_adj_list : AdjList) (strand_indices : List Nat)
    (data : AdjListWithSubData) : Prop :=
  ∀ key node, map_at data key = some node →
    ∃ sd, map_at undirected_adj_list
        (strand_indices.getD key.str0 0, strand_indices.getD key.str1 0) = some sd ∧
      sd.direction = node.direction

/-- The invariant of the loop of `bfs` for the directions of the edges, for a
zone over the elements `sses`: the residues of the queue have defined sides
and are built by the constructor, as are the residues of the remainder and
the stored partners; every edge has the direction of the undirected adjacency
list; and every key of the last key vector has a node. -/
structure EdgeInv (undirected_adj_list : AdjList) (sses : List SSE) (s : BfsState) : Prop where
  zone_sses : s.zone.sses = sses
  queue_side : ∀ q ∈ s.queue, side_defined s.zone.strict q = true
  queue_canon : ∀ q ∈ s.queue, Canon sses q
  rem_canon : ∀ x ∈ s.remainder, Canon sses x
  table_canon : CanonTable sses s.zone.strict
  dirs : EdgeDirs undirected_adj_list (gen_index_vec sses) s.adj_list.data
  vec_in_data : ∀ key ∈ s.adj_list.sheets_key_vec.getLast?.getD [],
    (map_at s.adj_list.data key).isSome = true

/-! ## Notions used to state what `gen_strict_zone` registers -/

/-- The zone info `info1` is `info` with the residue `residue` registered as the
partner in the slot `hbonded` with the bridge type `b_type`: the residue is
coloured, the slot is set and holds the partner and the type, and the side and
the other slot are as before. -/
def Registered (info info1 : ZoneInfo) (residue : ZoneResidue) (hbonded : Bool)
    (b_type : BridgeType) : Prop :=
  info1.colored = true ∧ info1.side = info.side ∧
    at2 info1.adj_residues hbonded = residue ∧ at2 info1.adj_set hbonded = true ∧
    at2 info1.bridge_type hbonded = b_type ∧
    at2 info1.adj_residues (!hbonded) = at2 info.adj_residues (!hbonded) ∧
    at2 info1.adj_set (!hbonded) = at2 info.adj_set (!hbonded) ∧
    at2 info1.bridge_type (!hbonded) = at2 info.bridge_type (!hbonded)

/-- The zone `z1` is the zone `z` with the residue `res1` registered as the
partner of the residue `res0` in the slot `hbonded`: the zone info of `res0` is
changed as `Registered` says, and the zone info of every other position of the
table and the other members are as before. -/
def RegisteredAt (z z1 : StrictZone) (res0 res1 : ZoneResidue) (hbonded : Bool)
    (b_type : BridgeType) : Prop :=
  z1.sses = z.sses ∧ z1.strand_indices = z.strand_indices ∧ z1.sub_strands = z.sub_strands ∧
    z1.adj_substrands = z.adj_substrands ∧
    (∃ info info1, strict_c_info z.strict res0 = .ok info ∧
      strict_c_info z1.strict res0 = .ok info1 ∧ Registered info info1 res1 hbonded b_type) ∧
    ∀ i j, ¬ (i = res0.serial_str_id ∧ j = res0.serial_res_id) →
      cell z1.strict i j = cell z.strict i j

/-- The outcome `out` of a round of the loop of `gen_strict_zone` that calls
`On` for the residue `r0` of the strand `target_str` and the residue `r1` of
the strand `adj_str`, from the state `s`, with `last_pairs1` the new value of
`last_pairs`: when one of the two residues is not a residue of its strand, the
call is skipped and the zone is as before; when the slot holds a residue that
compares equal to the partner (set or not), the zone is as before; when the
slot is set and holds another residue, the round throws `third_pair_found`;
otherwise the partner is registered. -/
def BridgeOutcome (s : ZoneGenState) (out : Except Failure ZoneGenState)
    (last_pairs1 : List (Nat × LastPair)) (target_str : Nat) (r0 : Int) (adj_str : Nat)
    (r1 : Int) (hbonded : Bool) (b_type : BridgeType) : Prop :=
  ((ZoneResidue.make s.strict_zone.sses target_str r0 = none ∨
      ZoneResidue.make s.strict_zone.sses adj_str r1 = none) →
    out = .ok { strict_zone := s.strict_zone, last_pairs := last_pairs1 }) ∧
  ∀ res0 res1 info, ZoneResidue.make s.strict_zone.sses target_str r0 = some res0 →
    ZoneResidue.make s.strict_zone.sses adj_str r1 = some res1 →
    strict_c_info s.strict_zone.strict res0 = .ok info →
    ((at2 info.adj_residues hbonded).same res1 = true →
      out = .ok { strict_zone := s.strict_zone, last_pairs := last_pairs1 }) ∧
    ((at2 info.adj_residues hbonded).same res1 = false → at2 info.adj_set hbonded = true →
      out = .error .exception) ∧
    ((at2 info.adj_residues hbonded).same res1 = false → at2 info.adj_set hbonded = false →
      ∃ z1, out = .ok { strict_zone := z1, last_pairs := last_pairs1 } ∧
        RegisteredAt s.strict_zone z1 res0 res1 hbonded b_type)

/-- The undirected adjacency list of the two strands of `zero_sses`, as an
anti-parallel pair. -/
def zero_adj_list : AdjList := [((0, 1), ⟨1, false, 2⟩), ((1, 0), ⟨0, false, 2⟩)]

/-! ## The calls of `count_left_tri` in a run of `filter_one_unit` -/

/-- The tuple `(left_counter, total_counter)` that `count_left_tri` returns for
the atoms of a range; `(0, 0)` stands for a call that throws. -/
def part_counts {σ X : Type} (f : BabFilter σ X) (b0 b1 : SubStrand)
    (b0_reverse b1_reverse : Bool) (atoms : List (ATOM X)) : Nat × Nat :=
  match count_left_tri f b0 b1 b0_reverse b1_reverse atoms with
  | .ok c => c
  | .error _ => (0, 0)

/-- The ranges of atoms for which the loop of `filter_one_unit` over the
sub-strands of a strand calls `count_left_tri`, in the order of the calls, from
the value `n_mid_str` of the counter at the start: a reachable sub-strand is
counted and skipped, and the loop is left when the counter exceeds the limit;
every other sub-strand is a call for the atoms of its range. -/
def mid_strand_parts {σ X : Type} (f : BabFilter σ X) (b0 : SubStrand) (target_sse : AtomSSE X) :
    List SubStrand → Nat → List (List (ATOM X))
  | [], _ => []
  | ss :: rest, n_mid_str =>
    match f.attr b0 ss with
    | .error _ => []
    | .ok a =>
      if a.reachable then
        (if f.cut_off_mid_str < n_mid_str + 1 then []
         else mid_strand_parts f b0 target_sse rest (n_mid_str + 1))
      else
        match f.substrs.n_term_res ss, f.substrs.c_term_res ss with
        | some n_term, some c_term =>
          match atom_vec_iter target_sse n_term, atom_vec_iter target_sse c_term with
          | .ok a_begin, .ok a_last =>
            ((target_sse.atoms.drop a_begin).take (a_last + 1 - a_begin)) ::
              mid_strand_parts f b0 target_sse rest n_mid_str
          | _, _ => []
        | _, _ => []

/-- The ranges of atoms for which `filter_one_unit` calls `count_left_tri` for
one element between the flanking strands: the atoms of a helix, the calls of
the loop over the sub-strands of a strand, none for another element. -/
def mid_sse_part_parts {σ X : Type} (f : BabFilter σ X) (b0 : SubStrand) (sse_id : Nat)
    (target_sse : AtomSSE X) (n_mid_str : Nat) : List (List (ATOM X)) :=
  if target_sse.type = 'H' then [target_sse.atoms]
  else if target_sse.type = 'E' then
    mid_strand_parts f b0 target_sse ((f.substrs.vec (f.serial sse_id)).getD []) n_mid_str
  else []

/-- The range of atoms for which `filter_one_unit` calls `count_left_tri` for
the loop that follows the element `n`, compiled with `WITH_LOOP`. -/
def loop_parts {σ X : Type} (f : BabFilter σ X) (n : Nat) : List (List (ATOM X)) :=
  if f.with_loop then [(f.loops_data.getD n {}).atoms] else []

/-- The ranges of atoms for which the loop of `filter_one_unit` over the
elements between the flanking strands calls `count_left_tri`, in the order of
the calls, from the result `result` at the start: the loop is left when the
number of residues exceeds the limit or when the loop over the sub-strands of
a strand is left. -/
def mid_sse_parts {σ X : Type} (f : BabFilter σ X) (b0 b1 : SubStrand)
    (b0_reverse b1_reverse : Bool) :
    List Nat → BabFilterResult → List (List (ATOM X))
  | [], _ => []
  | sse_id :: rest, result =>
    match f.sses.get? sse_id with
    | none => []
    | some target_sse =>
      if f.cut_off_res_len < result.mid_res_len + target_sse.atoms.length then []
      else
        mid_sse_part_parts f b0 sse_id target_sse result.n_mid_str ++
          (match mid_sse_part f b0 b1 b0_reverse b1_reverse sse_id target_sse
              { result with mid_res_len := result.mid_res_len + target_sse.atoms.length } with
           | .ok (.inr r) =>
             loop_parts f sse_id ++
               (match loop_part f b0 b1 b0_reverse b1_reverse sse_id false r with
                | .ok r1 => mid_sse_parts f b0 b1 b0_reverse b1_reverse rest r1
                | .error _ => [])
           | _ => [])

/-- The ranges of atoms for which `filter_one_unit` calls `count_left_tri` for
the range `ids` of elements, in the order of the calls. -/
def unit_parts {σ X : Type} (f : BabFilter σ X) (b0 b1 : SubStrand)
    (b0_reverse b1_reverse : Bool) (ids : List Nat) : List (List (ATOM X)) :=
  loop_parts f (ids.headD 0) ++
    (match loop_part f b0 b1 b0_reverse b1_reverse (ids.headD 0) true
        { sub_first := b0, sub_last := b1 } with
     | .ok r0 => mid_sse_parts f b0 b1 b0_reverse b1_reverse ids.tail.dropLast r0
     | .error _ => [])

/-- The number of decisions for the left that `count_left_tri` returns for the
ranges of atoms of a list, summed up. -/
def left_sum {σ X : Type} (f : BabFilter σ X) (b0 b1 : SubStrand)
    (b0_reverse b1_reverse : Bool) (parts : List (List (ATOM X))) : Nat :=
  (parts.map (fun p => (part_counts f b0 b1 b0_reverse b1_reverse p).1)).sum

/-- The number of decisions that `count_left_tri` returns for the ranges of
atoms of a list, summed up. -/
def total_sum {σ X : Type} (f : BabFilter σ X) (b0 b1 : SubStrand)
    (b0_reverse b1_reverse : Bool) (parts : List (List (ATOM X))) : Nat :=
  (parts.map (fun p => (part_counts f b0 b1 b0_reverse b1_reverse p).2)).sum

/-- The result `r` comes from the result `result` by the calls of
`count_left_tri` for the ranges of atoms `parts`: every call returns a tuple
with at most as many decisions for the left as decisions, the score of `r` is
the score of `result` plus the decisions for the left, and `tri_atom_count` of
`r` is the one of `result` plus the decisions. -/
def Summed {σ X : Type} (f : BabFilter σ X) (b0 b1 : SubStrand)
    (b0_reverse b1_reverse : Bool) (result r : BabFilterResult)
    (parts : List (List (ATOM X))) : Prop :=
  r.left_score = result.left_score + (left_sum f b0 b1 b0_reverse b1_reverse parts : ℚ) ∧
    r.tri_atom_count = result.tri_atom_count + total_sum f b0 b1 b0_reverse b1_reverse parts ∧
    ∀ p ∈ parts, ∃ c, count_left_tri f b0 b1 b0_reverse b1_reverse p = .ok c ∧ c.1 ≤ c.2

/-! ## The attribute map and the sheets behind the filter -/

/-- The method `DirectedAdjacencyList::init_adj_attr`: the result of `search`
for every ordered pair of the index vector, in the order of the two nested
loops. -/
def init_adj_attr (data : AdjListWithSubData) (vec : List SubStrand) :
    Option (List (SubStrandsPairKey × StrandsPairAttribute)) :=
  (index_pairs vec).foldlM
    (fun map pr =>
      (search data pr.1 pr.2 (gen_adj_sub_vec data)).map
        (fun attr => map_insert map (SubStrandsPairKey.ofSubs pr.1 pr.2) attr))
    []

/-- Two sub-strands are members of one sheet of the collection. -/
def in_same_sheet (S : List Sheet) (a b : SubStrand) : Bool :=
  S.any (fun sh => decide (a ∈ sh.member_substr) && decide (b ∈ sh.member_substr))

/-- The number of sub-strands of the strands between the two flanking strands
of a range that are members of the sheet of `b0` in the collection `S`. -/
def mid_in_sheet {σ X : Type} (f : BabFilter σ X) (S : List Sheet) (b0 : SubStrand)
    (ids : List Nat) : Nat :=
  (ids.tail.dropLast.map (fun i =>
    if (f.sses.getD i {}).type = 'E' then
      ((f.substrs.vec (f.serial i)).getD []).countP (in_same_sheet S b0)
    else 0)).sum

/-- The index vector of the four sub-strands 0 to 3. -/
def four_substrands : List SubStrand := [⟨0, 0⟩, ⟨1, 0⟩, ⟨2, 0⟩, ⟨3, 0⟩]

/-- Four sub-strands with the parallel edges 0 -> 3, 1 -> 3 and 2 -> 1: one
sheet with a branch at the sub-strand 3. -/
def branch_sheet : AdjListWithSubData :=
  [(⟨0, 0, 3, 0⟩, { direction := true }), (⟨1, 0, 3, 0⟩, { direction := true }),
    (⟨2, 0, 1, 0⟩, { direction := true })]

/-- A filter for four strands of the residues 1 to 4, 8 to 11, 15 to 18 and 22
to 25, one sub-strand each, with the edges of `branch_sheet`; the attribute map
is the one `init_adj_attr` builds. The first and the fourth strand are
parallel neighbours; the second and the third lie between them in the
sequence. -/
def branch_unit (side : Bool × Bool) : BabFilter (Bool × Bool) Unit :=
  { sses :=
      [{ type := 'E', init := 1, end_ := 4, atoms := four_atoms, n_pdb := 4 },
       { type := 'E', init := 8, end_ := 11, atoms := four_atoms, n_pdb := 4 },
       { type := 'E', init := 15, end_ := 18, atoms := four_atoms, n_pdb := 4 },
       { type := 'E', init := 22, end_ := 25, atoms := four_atoms, n_pdb := 4 }],
    substrs :=
      { data := [[(1, 4)], [(8, 11)], [(15, 18)], [(22, 25)]],
        index_vec := four_substrands,
        sub_strands_iters_vec := [(0, 1), (1, 2), (2, 3), (3, 4)] },
    adj_attr := (init_adj_attr branch_sheet four_substrands).getD [],
    sides_map :=
      [(⟨0, 0, 3, 0⟩, List.replicate 3 side), (⟨3, 0, 0, 0⟩, List.replicate 3 side)],
    on_left_side := fun s _ _ _ => s }

/-! ## The calls of `extend_substrand` in the runs of `bfs` -/

/-- The residue for which one round of the loop of `bfs` over the two paired
residues of the target calls `extend_substrand`, from the state `s`: the
paired residue of the slot `i`, when it has a value and is in the remainder. -/
def bfs_adj_calls (target : ZoneResidue) (i : Bool) (s : BfsState) : List ZoneResidue :=
  match strict_c_info s.zone.strict target with
  | .error _ => []
  | .ok info_t =>
    if (at2 info_t.adj_residues i).has_value = false ∨
        res_count s.remainder (at2 info_t.adj_residues i) = false then []
    else [at2 info_t.adj_residues i]

/-- The residues for which the body of the `while` loop of `bfs` calls
`extend_substrand`, in the order of the calls, from the state `s` with the
target at the front of the queue: the target, then the paired residue
without hydrogen bonds and the bonded one. -/
def bfs_body_calls (undirected_adj_list : AdjList) (target : ZoneResidue) (s : BfsState) :
    List ZoneResidue :=
  target ::
    match s.zone.extend target with
    | .error _ => []
    | .ok z1 =>
      bfs_adj_calls target false
          { s with
            zone := z1,
            involved_serial_str_ids :=
              if target.serial_str_id ∈ s.involved_serial_str_ids then s.involved_serial_str_ids
              else s.involved_serial_str_ids ++ [target.serial_str_id] } ++
        match bfs_adj undirected_adj_list target false
            { s with
              zone := z1,
              involved_serial_str_ids :=
                if target.serial_str_id ∈ s.involved_serial_str_ids then
                  s.involved_serial_str_ids
                else s.involved_serial_str_ids ++ [target.serial_str_id] } with
        | .ok s1 => bfs_adj_calls target true s1
        | .error _ => []

/-- The residues for which `extend_substrand` is called in a list of states of
`bfs` at the test of its loop, in the order of the calls: the calls of the
body for every state with a queue that is not empty. -/
def extend_calls (undirected_adj_list : AdjList) (states : List BfsState) : List ZoneResidue :=
  states.flatMap (fun s =>
    match s.queue with
    | [] => []
    | target :: _ => bfs_body_calls undirected_adj_list target s)

/-- The states of the calls of `bfs` in the loop of `decide_side` over the
components, one list for every call: the course of `decide_side_loop`. -/
def decide_side_runs (undirected_adj_list : AdjList) :
    Nat → StrictZone → AdjListWithSub → List ZoneResidue → List (List BfsState)
  | 0, _, _, _ => []
  | fuel + 1, z, adj_sub, remainder =>
    if remainder.length = 0 then []
    else
      bfs_states z adj_sub remainder undirected_adj_list ::
        match bfs z adj_sub remainder undirected_adj_list with
        | .ok r => decide_side_runs undirected_adj_list fuel r.1 r.2.1 r.2.2
        | .error _ => []

/-- The components of `decide_side` for a zone with the coloured residues
`remainder`: for every call of `bfs` in the loop over the components, the
residues for which it called `extend_substrand`. -/
def decide_side_calls (z : StrictZone) (undirected_adj_list : AdjList)
    (remainder : List ZoneResidue) : List (List ZoneResidue) :=
  (decide_side_runs undirected_adj_list (remainder.length + 1) z {} remainder).map
    (extend_calls undirected_adj_list)

/-! ## The walks of `remove_one_path` -/

/-- The loop of `update_key_substr` over the key vectors alone, for the keys
`walk` in the order of the loop and the renaming `kappa` of the keys. -/
def replace_walk (kappa : SubStrandsPairKey → SubStrandsPairKey)
    (walk : List SubStrandsPairKey) (sheets : List SubStrandsPairKeyVec) :
    List SubStrandsPairKeyVec :=
  walk.foldl (fun sheets key => replace_erased_itr sheets key (kappa key)) sheets

/-- The key vectors `b` list, vector by vector and in any order within a
vector, the keys of the key vectors `a` renamed by `conv`. -/
def key_vecs_renamed (conv : List (SubStrand × SubStrand)) (a b : List SubStrandsPairKeyVec) :
    Bool :=
  decide (a.length = b.length) &&
    (a.zip b).all (fun p => decide ((p.1.map (converted_key conv)).Perm p.2))

/-- The method `decide_side` for given orders of iteration of its two
unordered containers: `order` gives the order in which the set of coloured
residues is iterated, `walk` the order in which `update_key_substr` goes over
the edge map. With the identity for both it is `decide_side`. -/
def decide_side_with (order : List ZoneResidue → List ZoneResidue)
    (walk : AdjListWithSubData → List (SubStrandsPairKey × SubStrandsPairNode))
    (z : StrictZone) (undirected_adj_list : AdjList) :
    Except Failure (AdjListWithSub × StrictZone) :=
  (collect_colored z).bind (fun remainder =>
    (decide_side_loop undirected_adj_list ((order remainder).length + 1) z {}
        (order remainder)).bind (fun r =>
      match r.1.sub_strands.finish with
      | none => .error .undefined
      | some (sub_strands, conv) =>
        ((update_key_substr_walk (walk r.2.data) r.2 conv).cleanup).bind (fun adj_sub1 =>
          (calc_deltas { r.1 with sub_strands := sub_strands } adj_sub1).bind (fun adj_sub2 =>
            .ok ({ adj_sub2 with
                   adj_sub_vec := adj_sub2.data.foldl (fun adj e => adj_push adj e.1.sub0 e.1)
                     adj_sub2.adj_sub_vec },
              { r.1 with sub_strands := sub_strands })))))

/-- Nine strands of ten residues: the residues 10 to 19, 30 to 39, and so on up
to 170 to 179. -/
def nine_sses : List SSE :=
  [⟨'E', 10, 19⟩, ⟨'E', 30, 39⟩, ⟨'E', 50, 59⟩, ⟨'E', 70, 79⟩, ⟨'E', 90, 99⟩, ⟨'E', 110, 119⟩,
   ⟨'E', 130, 139⟩, ⟨'E', 150, 159⟩, ⟨'E', 170, 179⟩]

/-- The calls of `On` for a zone on `nine_sses` with two ladders between the
strands 0 and 4: the residues 16 and 17 with 96 and 97, and the residues 11 and
12 with 91 and 92; the residues 175 and 176 of the strand 8 are paired with
the residues 16 and 17. -/
def nine_calls : List (Nat × Int × Nat × Int × Bool × BridgeType) :=
  [(8, 175, 0, 16, true, BridgeType.ParallelHbonds), (0, 16, 8, 175, true, BridgeType.ParallelHbonds),
   (8, 176, 0, 17, false, BridgeType.ParallelNoHbonds),
   (0, 17, 8, 176, false, BridgeType.ParallelNoHbonds),
   (0, 16, 4, 96, false, BridgeType.ParallelNoHbonds),
   (4, 96, 0, 16, false, BridgeType.ParallelNoHbonds),
   (0, 17, 4, 97, true, BridgeType.ParallelHbonds), (4, 97, 0, 17, true, BridgeType.ParallelHbonds),
   (0, 11, 4, 91, false, BridgeType.ParallelNoHbonds),
   (4, 91, 0, 11, false, BridgeType.ParallelNoHbonds),
   (0, 12, 4, 92, true, BridgeType.ParallelHbonds), (4, 92, 0, 12, true, BridgeType.ParallelHbonds)]

/-- The undirected adjacency list for the zone of `nine_calls`. -/
def nine_adj : AdjList :=
  [((8, 0), ⟨0, true, 2⟩), ((0, 8), ⟨8, true, 2⟩), ((0, 4), ⟨4, true, 4⟩), ((4, 0), ⟨0, true, 4⟩)]

/-- The zone built by `nine_calls`. -/
def nine_strict : StrictZone := (returned (zone_of nine_sses nine_calls)).getD {}

/-- The coloured residues of `nine_strict`, in the order of `collect_colored`. -/
def nine_colored : List ZoneResidue := (returned (collect_colored nine_strict)).getD []

/-- The residue `resnum` of the strand `str` of `nine_sses`. -/
def nine_residue (str : Nat) (resnum : Int) : ZoneResidue :=
  ⟨str, resnum, str, (resnum - (10 + 20 * str)).toNat, true⟩

/-- Three orders of the coloured residues of `nine_strict`: the set `remainder`
of `decide_side` is a `std::unordered_set`, and these are the orders in which
the set of the GNU C++ library presents the ten residues for the three
versions of `hash_combine` that Boost has had (the shift and xor of the
versions before 1.56, the multiplications by 0xc6a4a7935bd1e995 of the versions
1.56 to 1.80, the mixing function of the versions from 1.81 on). -/
def nine_orders : List (List ZoneResidue) :=
  [[nine_residue 8 176, nine_residue 4 97, nine_residue 8 175, nine_residue 4 96,
    nine_residue 4 91, nine_residue 0 17, nine_residue 0 16, nine_residue 0 12,
    nine_residue 4 92, nine_residue 0 11],
   [nine_residue 8 176, nine_residue 8 175, nine_residue 4 97, nine_residue 4 96,
    nine_residue 4 91, nine_residue 0 17, nine_residue 0 16, nine_residue 4 92,
    nine_residue 0 12, nine_residue 0 11],
   [nine_residue 8 176, nine_residue 8 175, nine_residue 4 97, nine_residue 4 96,
    nine_residue 4 91, nine_residue 0 17, nine_residue 0 16, nine_residue 0 12,
    nine_residue 4 92, nine_residue 0 11]]

/-- The zone and the registry of edges that the loop of `decide_side` over the
components leaves for `nine_strict` when the set of coloured residues is
iterated in the order `order`. -/
def nine_components (order : List ZoneResidue) : StrictZone × AdjListWithSub :=
  (returned (decide_side_loop nine_adj (order.length + 1) nine_strict {} order)).getD ({}, {})

/-- The bindings of the edge map `data` for the keys `keys`, in the order of
`keys`. -/
def bindings_in_order (data : AdjListWithSubData) (keys : List SubStrandsPairKey) :
    List (SubStrandsPairKey × SubStrandsPairNode) :=
  keys.filterMap (fun key => (map_at data key).map (fun node => (key, node)))

/-- The order in which the keys of the edge map of `nine_components` are
iterated by the GNU C++ library, for each of the three versions of
`hash_combine`: the key `(0,1,4,1)`, inserted last, falls into the bucket of
the key `(0,0,8,0)`, inserted first, and is linked between the two older
keys. -/
def nine_walk : List SubStrandsPairKey := [⟨0, 0, 4, 0⟩, ⟨0, 1, 4, 1⟩, ⟨0, 0, 8, 0⟩]

/-! # Proofs -/

/-! ## Rotation to the smallest element -/

theorem natLt_strictTotal : StrictTotal natLt := by
  refine ⟨?_, ?_, ?_⟩
  · intro a; simp [natLt]
  · intro a b c; simp only [natLt, decide_eq_true_eq]; omega
  · intro a b; simp only [natLt, decide_eq_true_eq]; omega

theorem subStrandLt_strictTotal : StrictTotal SubStrand.lt := by
  refine ⟨?_, ?_, ?_⟩
  · intro a; simp [SubStrand.lt]
  · intro a b c
    simp only [SubStrand.lt, Bool.or_eq_true, Bool.and_eq_true, decide_eq_true_eq]
    omega
  · intro a b hab
    have h : a.str ≠ b.str ∨ a.substr ≠ b.substr := by
      by_contra hc
      push_neg at hc
      apply hab
      cases a; cases b; simp_all
    simp only [SubStrand.lt, Bool.or_eq_true, Bool.and_eq_true, decide_eq_true_eq]
    omega

theorem min_element_scan_spec {α : Type} (lt : α → α → Bool) (hlt : StrictTotal lt) :
    ∀ (xs pre : List α) (best : α) (bi : Nat) (hbi : bi < pre.length),
      pre[bi] = best → (∀ x ∈ pre, x ≠ best → lt best x = true) →
      (pre ++ xs).Nodup →
      ∃ (h : min_element_scan lt best bi pre.length xs < (pre ++ xs).length),
        ∀ x ∈ pre ++ xs, x ≠ (pre ++ xs)[min_element_scan lt best bi pre.length xs] →
          lt ((pre ++ xs)[min_element_scan lt best bi pre.length xs]) x = true := by
  intro xs
  induction xs with
  | nil =>
    intro pre best bi hbi hb hmin _
    simp only [min_element_scan, List.append_nil]
    exact ⟨hbi, fun x hx hne => by rw [hb] at hne ⊢; exact hmin x hx hne⟩
  | cons y ys ih =>
    intro pre best bi hbi hb hmin hnd
    have hlen : (pre ++ [y]).length = pre.length + 1 := by simp
    have happ : pre ++ y :: ys = (pre ++ [y]) ++ ys := by simp
    have hnd2 : ((pre ++ [y]) ++ ys).Nodup := by rw [← happ]; exact hnd
    have hbest_mem : best ∈ pre := hb ▸ List.getElem_mem _
    have hy_ne : y ≠ best := by
      intro h
      rw [List.nodup_append] at hnd
      exact hnd.2.2 hbest_mem (h ▸ List.mem_cons_self _ _)
    simp only [min_element_scan]
    split_ifs with hy
    · have hgoal := ih (pre ++ [y]) y pre.length (by simp) (by simp)
        (by
          intro x hx hne
          rcases List.mem_append.1 hx with hx | hx
          · by_cases hxb : x = best
            · rw [hxb]; exact hy
            · exact hlt.trans _ _ _ hy (hmin x hx hxb)
          · simp at hx; exact absurd hx hne) hnd2
      simp only [hlen] at hgoal
      simpa only [happ] using hgoal
    · have hby : lt best y = true := by
        rcases hlt.total best y (Ne.symm hy_ne) with h | h
        · exact h
        · exact absurd h hy
      have hgoal := ih (pre ++ [y]) best bi (by simp; omega)
        (by rw [List.getElem_append_left hbi]; exact hb)
        (by
          intro x hx hne
          rcases List.mem_append.1 hx with hx | hx
          · exact hmin x hx hne
          · simp at hx; rw [hx]; exact hby) hnd2
      simp only [hlen] at hgoal
      simpa only [happ] using hgoal

theorem min_element_scan_le {α : Type} (lt : α → α → Bool) :
    ∀ (xs : List α) (best : α) (bi i : Nat), bi < i →
      min_element_scan lt best bi i xs < i + xs.length := by
  intro xs
  induction xs with
  | nil => intro best bi i h; simpa [min_element_scan] using h
  | cons y ys ih =>
    intro best bi i h
    simp only [min_element_scan, List.length_cons]
    split_ifs
    · have := ih y i (i + 1) (by omega); omega
    · have := ih best bi (i + 1) (by omega); omega

theorem min_element_le {α : Type} (lt : α → α → Bool) (l : List α) :
    min_element lt l ≤ l.length := by
  cases l with
  | nil => simp [min_element]
  | cons x xs =>
    have := min_element_scan_le lt xs x 0 1 (by omega)
    simp only [min_element, List.length_cons]; omega

theorem rotate_to_smallest_eq_rotate {α : Type} (lt : α → α → Bool) (l : List α) :
    rotate_to_smallest lt l = l.rotate (min_element lt l) := by
  rw [rotate_to_smallest, List.rotate_eq_drop_append_take (min_element_le lt l)]

theorem rotate_to_smallest_isRotated {α : Type} (lt : α → α → Bool) (l : List α) :
    l ~r rotate_to_smallest lt l :=
  ⟨min_element lt l, (rotate_to_smallest_eq_rotate lt l).symm⟩

theorem invert_isRotated {α : Type} (lt : α → α → Bool) (l : List α) :
    l.reverse ~r invert lt l :=
  rotate_to_smallest_isRotated lt l.reverse

theorem rotate_to_smallest_normal {α : Type} (lt : α → α → Bool) (hlt : StrictTotal lt)
    (l : List α) (hnd : l.Nodup) : Normal lt (rotate_to_smallest lt l) := by
  cases l with
  | nil => intro h t ht; simp [rotate_to_smallest, min_element] at ht
  | cons a as =>
    obtain ⟨hm, hmin⟩ := min_element_scan_spec lt hlt as [a] a 0 (by simp) (by simp)
      (by intro x hx hne; simp at hx; exact absurd hx hne) (by simpa using hnd)
    simp only [List.length_singleton, List.singleton_append] at hm hmin
    intro h t ht x hx
    have hm2 : min_element lt (a :: as) = min_element_scan lt a 0 1 as := rfl
    rw [rotate_to_smallest, hm2] at ht
    have hdrop : List.drop (min_element_scan lt a 0 1 as) (a :: as) =
        (a :: as)[min_element_scan lt a 0 1 as] ::
          List.drop (min_element_scan lt a 0 1 as + 1) (a :: as) :=
      List.drop_eq_getElem_cons hm
    rw [hdrop, List.cons_append] at ht
    injection ht with h1 h2
    have hnd2 : (h :: t).Nodup := by
      have hr := rotate_to_smallest_isRotated lt (a :: as)
      have : rotate_to_smallest lt (a :: as) = h :: t := by
        rw [rotate_to_smallest, hm2, hdrop, List.cons_append, h1, h2]
      rw [this] at hr
      exact hr.nodup_iff.1 hnd
    have hxl : x ∈ a :: as := by
      rw [← h2] at hx
      rcases List.mem_append.1 hx with hx | hx
      · exact List.mem_of_mem_drop hx
      · exact List.mem_of_mem_take hx
    have hne : x ≠ h := by
      intro hxh
      rw [hxh] at hx
      exact (List.nodup_cons.1 hnd2).1 hx
    rw [← h1]
    exact hmin x hxl (by rw [h1]; exact hne)

theorem normal_unique {α : Type} (lt : α → α → Bool) (hlt : StrictTotal lt)
    (c d : List α) (hc : Normal lt c) (hd : Normal lt d) (hnd : c.Nodup) (hr : c ~r d) :
    c = d := by
  cases c with
  | nil => exact (List.isRotated_nil_iff'.1 hr)
  | cons h t =>
    cases d with
    | nil => exact absurd (List.isRotated_nil_iff.1 hr) (by simp)
    | cons h2 t2 =>
      have hndd : (h2 :: t2).Nodup := hr.nodup_iff.1 hnd
      have hh : h = h2 := by
        by_contra hne
        have h1 : h ∈ h2 :: t2 := hr.mem_iff.1 (List.mem_cons_self _ _)
        have h2m : h2 ∈ h :: t := hr.mem_iff.2 (List.mem_cons_self _ _)
        have h1t : h ∈ t2 := by
          rcases List.mem_cons.1 h1 with e | e
          · exact absurd e hne
          · exact e
        have h2t : h2 ∈ t := by
          rcases List.mem_cons.1 h2m with e | e
          · exact absurd e.symm hne
          · exact e
        have a1 := hc h t rfl h2 h2t
        have a2 := hd h2 t2 rfl h h1t
        have := hlt.trans _ _ _ a1 a2
        rw [hlt.irrefl] at this
        exact Bool.noConfusion this
      subst hh
      obtain ⟨n, hn⟩ := hr
      have hlen : (h :: t).length ≠ 0 := by simp
      rw [← List.rotate_mod] at hn
      have hk : n % (h :: t).length < (h :: t).length := Nat.mod_lt _ (by simp)
      rw [List.rotate_eq_drop_append_take (le_of_lt hk)] at hn
      by_cases hz : n % (h :: t).length = 0
      · rw [hz] at hn; simpa using hn
      · exfalso
        have hdrop := List.drop_eq_getElem_cons hk
        rw [hdrop, List.cons_append] at hn
        injection hn with e1 e2
        have h0 : (h :: t)[0] = h := rfl
        have := (@List.Nodup.getElem_inj_iff _ _ hnd _ hk _ (by simp)).1 (e1.trans h0.symm)
        exact hz this

/-! ## Closed walks -/

theorem closedChain_iff_cycle {α : Type} (R : α → α → Prop) (c : List α) :
    ClosedChain R c ↔ Cycle.Chain R (c : Cycle α) := by
  cases c with
  | nil => simp [ClosedChain]
  | cons h t =>
    rw [Cycle.chain_coe_cons]
    simp [ClosedChain, List.Chain']

theorem closedChain_of_isRotated {α : Type} (R : α → α → Prop) {c d : List α}
    (h : c ~r d) (hc : ClosedChain R c) : ClosedChain R d := by
  rw [closedChain_iff_cycle] at hc ⊢
  rwa [← Cycle.coe_eq_coe.2 h]

theorem closedChain_reverse {α : Type} (R : α → α → Prop) (c : List α)
    (hc : ClosedChain (flip R) c) : ClosedChain R c.reverse := by
  cases c with
  | nil => simp [ClosedChain]
  | cons h t =>
    have hrot : (h :: t.reverse) ~r (h :: t).reverse := by
      have := @List.isRotated_append _ [h] t.reverse
      simpa using this
    apply closedChain_of_isRotated R hrot
    have h1 : List.Chain' (flip R) (h :: (t ++ [h])) := by
      simpa [ClosedChain] using hc
    have h2 : List.Chain' R (h :: (t ++ [h])).reverse := List.chain'_reverse.2 h1
    simpa [ClosedChain] using h2

theorem closedChain_of_path {α : Type} (R : α → α → Prop) (path : List α) (h l : α)
    (hh : path.head? = some h) (hl : path.getLast? = some l)
    (hch : List.Chain' R path) (hcl : R l h) : ClosedChain R path := by
  cases path with
  | nil => simp at hh
  | cons a as =>
    simp only [List.head?_cons, Option.some.injEq] at hh
    subst hh
    simp only [ClosedChain, List.take_succ_cons, List.take_zero]
    rw [List.chain'_append]
    refine ⟨hch, List.chain'_singleton _, ?_⟩
    intro x hx y hy
    rw [hl] at hx
    simp only [Option.mem_def, Option.some.injEq] at hx
    simp only [List.head?_cons, Option.mem_def, Option.some.injEq] at hy
    subst hx; subst hy
    exact hcl

/-! ## The search for cycles -/

theorem nodup_bounded_length (n : Nat) (l : List Nat) (hnd : l.Nodup) (hb : ∀ x ∈ l, x < n) :
    l.length ≤ n := by
  have hsub : l ⊆ List.range n := fun x hx => List.mem_range.2 (hb x hx)
  simpa using (hnd.subperm hsub).length_le

theorem foldlM_mono_spec {α β : Type} (f : List β → α → Option (List β))
    (I : List β → Prop) (Q : α → List β → Prop)
    (hQ : ∀ a c d, Q a c → c ⊆ d → Q a d) :
    ∀ (l : List α), (∀ a ∈ l, ∀ c, I c → ∃ d, f c a = some d ∧ I d ∧ c ⊆ d ∧ Q a d) →
      ∀ c, I c → ∃ out, l.foldlM f c = some out ∧ I out ∧ c ⊆ out ∧ ∀ a ∈ l, Q a out := by
  intro l
  induction l with
  | nil =>
    intro _ c hc
    exact ⟨c, rfl, hc, List.Subset.refl _, fun a ha => absurd ha (List.not_mem_nil a)⟩
  | cons x xs ih =>
    intro hstep c hc
    obtain ⟨d, hd, hId, hcd, hQd⟩ := hstep x (List.mem_cons_self _ _) c hc
    obtain ⟨out, ho, hIo, hdo, hQo⟩ :=
      ih (fun a ha => hstep a (List.mem_cons_of_mem _ ha)) d hId
    refine ⟨out, ?_, hIo, hcd.trans hdo, ?_⟩
    · rw [List.foldlM_cons, hd]; exact ho
    · intro a ha
      rcases List.mem_cons.1 ha with e | e
      · rw [e]; exact hQ x d out hQd hdo
      · exact hQo a e

theorem push_cycle_subset (path : List Nat) (cyc : List (List Nat)) :
    cyc ⊆ push_cycle path cyc := by
  unfold push_cycle
  split_ifs
  · exact List.subset_append_left _ _
  · exact List.Subset.refl _

theorem push_cycle_rep (path : List Nat) (cyc : List (List Nat)) :
    Rep path (push_cycle path cyc) := by
  unfold push_cycle Rep
  split_ifs with h
  · right; simp
  · by_cases h1 : rotate_to_smallest natLt path ∈ cyc
    · left; exact h1
    · right
      by_contra h2
      exact h ⟨h1, h2⟩

theorem rep_mono (path : List Nat) (c d : List (List Nat)) (h : Rep path c) (hcd : c ⊆ d) :
    Rep path d := by
  rcases h with h | h
  · exact Or.inl (hcd h)
  · exact Or.inr (hcd h)

theorem invert_invert (c : List Nat) (hn : Normal natLt c) (hnd : c.Nodup) :
    invert natLt (invert natLt c) = c := by
  have h1 : c.reverse ~r invert natLt c := invert_isRotated natLt c
  have h2 : (invert natLt c).reverse ~r invert natLt (invert natLt c) :=
    invert_isRotated natLt _
  have h3 : c ~r (invert natLt c).reverse := by
    have := h1.reverse
    simpa using this
  have h4 : c ~r invert natLt (invert natLt c) := h3.trans h2
  have hnd2 : (invert natLt c).reverse.Nodup := h3.nodup_iff.1 hnd
  have hn2 : Normal natLt (invert natLt (invert natLt c)) :=
    rotate_to_smallest_normal natLt natLt_strictTotal _ hnd2
  exact (normal_unique natLt natLt_strictTotal _ _ hn hn2 hnd h4).symm

theorem push_cycle_inv (E : List (Nat × Nat)) (n : Nat) (path : List Nat)
    (cyc : List (List Nat)) (hp : PathOK E n path) (hlen : 2 < path.length)
    (l : Nat) (hl : path.getLast? = some l) (h : Nat) (hh : path.head? = some h)
    (hcl : (h, l) ∈ E) (hc : CycInv E n cyc) : CycInv E n (push_cycle path cyc) := by
  unfold push_cycle
  split_ifs with hcond
  · obtain ⟨hne, hnd, hb, hch⟩ := hp
    have hr1 : path ~r rotate_to_smallest natLt path := rotate_to_smallest_isRotated _ _
    have hnd1 : (rotate_to_smallest natLt path).Nodup := hr1.nodup_iff.1 hnd
    have hn1 : Normal natLt (rotate_to_smallest natLt path) :=
      rotate_to_smallest_normal natLt natLt_strictTotal _ hnd
    have hr2 : (rotate_to_smallest natLt path).reverse ~r
        invert natLt (rotate_to_smallest natLt path) := invert_isRotated _ _
    have hr3 : path.reverse ~r invert natLt (rotate_to_smallest natLt path) :=
      hr1.reverse.trans hr2
    have hndr : path.reverse.Nodup := List.nodup_reverse.2 hnd
    have hgood : GoodIdx E n (invert natLt (rotate_to_smallest natLt path)) := by
      refine ⟨hr3.nodup_iff.1 hndr, ?_, ?_, ?_, ?_⟩
      · rw [← hr3.perm.length_eq]; simpa using hlen
      · intro x hx
        exact hb x (List.mem_reverse.1 (hr3.mem_iff.2 hx))
      · apply closedChain_of_isRotated _ hr3
        apply closedChain_reverse
        exact closedChain_of_path _ path h l hh hl hch hcl
      · exact rotate_to_smallest_normal natLt natLt_strictTotal _
          (List.nodup_reverse.2 hnd1)
    refine ⟨?_, ?_⟩
    · intro c hcm
      rcases List.mem_append.1 hcm with hcm | hcm
      · exact hc.1 c hcm
      · simp only [List.mem_singleton] at hcm
        rw [hcm]; exact hgood
    · rw [List.pairwise_append]
      refine ⟨hc.2, List.pairwise_singleton _ _, ?_⟩
      intro a ha b hb2
      simp only [List.mem_singleton] at hb2
      subst hb2
      refine ⟨?_, ?_⟩
      · intro e; exact hcond.2 (e ▸ ha)
      · rw [invert_invert _ hn1 hnd1]
        intro e; exact hcond.1 (e ▸ ha)
  · exact hc

theorem edgeDone_mono (E : List (Nat × Nat)) (n : Nat) (path : List Nat) (e : Nat × Nat)
    (c d : List (List Nat)) (h : EdgeDone E n path e c) (hcd : c ⊆ d) :
    EdgeDone E n path e d := by
  intro hh
  obtain ⟨h1, h2⟩ := h hh
  exact ⟨fun a ext b c2 => rep_mono _ _ _ (h1 a ext b c2) hcd,
    fun a b c2 => rep_mono _ _ _ (h2 a b c2) hcd⟩

theorem find_new_cycles_spec (E : List (Nat × Nat)) (n : Nat) (hE : ∀ e ∈ E, e.2 < n) :
    ∀ (fuel : Nat) (path : List Nat) (cyc : List (List Nat)),
      PathOK E n path → n < fuel + path.length → CycInv E n cyc →
      ∃ out, find_new_cycles E fuel path cyc = some out ∧ CycInv E n out ∧ cyc ⊆ out ∧
        ∀ ext, PathOK E n (ext ++ path) → Closable E (ext ++ path) → Rep (ext ++ path) out := by
  intro fuel
  induction fuel with
  | zero =>
    intro path cyc hp hf _
    have := nodup_bounded_length n path hp.2.1 hp.2.2.1
    omega
  | succ fuel ih =>
    intro path cyc hp hf hc
    have hfold := foldlM_mono_spec
      (fun cyc e =>
        if path.head? = some e.1 then
          if e.2 ∉ path then find_new_cycles E fuel (e.2 :: path) cyc
          else if 2 < path.length ∧ path.getLast? = some e.2 then some (push_cycle path cyc)
          else some cyc
        else some cyc)
      (CycInv E n) (EdgeDone E n path) (edgeDone_mono E n path) E
      (by
        intro e he c hIc
        by_cases hh : path.head? = some e.1
        · by_cases hm : e.2 ∉ path
          · have hp2 : PathOK E n (e.2 :: path) := by
              refine ⟨by simp, List.nodup_cons.2 ⟨hm, hp.2.1⟩, ?_, ?_⟩
              · intro x hx
                rcases List.mem_cons.1 hx with hx | hx
                · rw [hx]; exact hE e he
                · exact hp.2.2.1 x hx
              · rw [List.chain'_cons']
                refine ⟨?_, hp.2.2.2⟩
                intro y hy
                rw [hh] at hy
                simp only [Option.mem_def, Option.some.injEq] at hy
                rw [← hy]; exact he
            obtain ⟨d, hd, hId, hcd, hrep⟩ := ih (e.2 :: path) c hp2
              (by simp only [List.length_cons]; omega) hIc
            refine ⟨d, by simp only [hh, hm, not_false_eq_true, if_true]; exact hd,
              hId, hcd, ?_⟩
            intro _
            exact ⟨fun _ ext a b => hrep ext a b, fun a => absurd a hm⟩
          · by_cases hcl : 2 < path.length ∧ path.getLast? = some e.2
            · refine ⟨push_cycle path c, by simp only [hh, hm, hcl, if_true, if_false, and_self],
                ?_, push_cycle_subset _ _, ?_⟩
              · exact push_cycle_inv E n path c hp hcl.1 e.2 hcl.2 e.1 hh he hIc
              · intro _
                exact ⟨fun a => absurd a hm, fun _ _ _ => push_cycle_rep _ _⟩
            · refine ⟨c, by simp only [hh, hm, hcl, if_true, if_false], hIc,
                List.Subset.refl _, ?_⟩
              intro _
              exact ⟨fun a => absurd a hm, fun _ a b => absurd ⟨a, b⟩ hcl⟩
        · exact ⟨c, by simp only [hh, if_false], hIc, List.Subset.refl _,
            fun a => absurd a hh⟩)
      cyc hc
    obtain ⟨out, ho, hIo, hco, hQ⟩ := hfold
    refine ⟨out, ?_, hIo, hco, ?_⟩
    · rw [find_new_cycles]; exact ho
    · intro ext hpe hce
      rcases List.eq_nil_or_concat ext with hnil | ⟨ext2, w, hw⟩
      · subst hnil
        simp only [List.nil_append] at hpe hce ⊢
        obtain ⟨hlen, h, l, hh, hl, hhl⟩ := hce
        have hlm : l ∈ path := List.mem_of_mem_getLast? hl
        exact (hQ (h, l) hhl hh).2 hlm hlen hl
      · subst hw
        obtain ⟨h, hh⟩ : ∃ h, path.head? = some h := by
          cases path with
          | nil => exact absurd rfl hp.1
          | cons a as => exact ⟨a, rfl⟩
        have heq : ext2.concat w ++ path = ext2 ++ w :: path := by simp
        rw [heq] at hpe hce ⊢
        have hch := hpe.2.2.2
        rw [List.chain'_append] at hch
        have hwh : (h, w) ∈ E := by
          have := hch.2.1
          rw [List.chain'_cons'] at this
          exact this.1 h hh
        have hwn : w ∉ path := by
          have hnd := hpe.2.1
          rw [List.nodup_append] at hnd
          exact (List.nodup_cons.1 hnd.2.1).1
        exact (hQ (h, w) hwh hh).1 hwn ext2 hpe hce

/-! ## The node table and the edge vector -/

theorem has_node_spec : ∀ (nodes : List SubStrand) (s : SubStrand),
    has_node nodes s = if s ∈ nodes then some (List.indexOf s nodes) else none := by
  intro nodes s
  induction nodes with
  | nil => simp [has_node]
  | cons x xs ih =>
    simp only [has_node]
    by_cases hx : x = s
    · subst hx; simp
    · have hx2 : ¬ s = x := fun e => hx e.symm
      rw [if_neg hx, ih]
      by_cases hm : s ∈ xs
      · simp [hm, List.indexOf_cons_ne _ hx]
      · simp [hm, hx2]

theorem init_edges_end_spec (st : List SubStrand × List Nat) (s : SubStrand)
    (hnd : st.1.Nodup) :
    (init_edges_end st s).1.Nodup ∧ s ∈ (init_edges_end st s).1 ∧
      (∃ t, (init_edges_end st s).1 = st.1 ++ t) ∧
      (init_edges_end st s).2 = st.2 ++ [List.indexOf s (init_edges_end st s).1] := by
  unfold init_edges_end
  rw [has_node_spec]
  by_cases hm : s ∈ st.1
  · rw [if_pos hm]
    exact ⟨hnd, hm, ⟨[], by simp⟩, rfl⟩
  · rw [if_neg hm]
    refine ⟨?_, by simp, ⟨[s], rfl⟩, ?_⟩
    · rw [List.nodup_append]
      refine ⟨hnd, List.nodup_singleton _, ?_⟩
      intro a ha hb
      simp only [List.mem_singleton] at hb
      exact hm (hb ▸ ha)
    · rw [List.indexOf_append_of_not_mem hm]
      simp

/-- The flat edge vector that belongs to a node table. -/
theorem init_edges_spec (keys : SubStrandsPairKeyVec) :
    (init_edges keys).1.Nodup ∧
      (∀ k ∈ keys, k.sub0 ∈ (init_edges keys).1 ∧ k.sub1 ∈ (init_edges keys).1) ∧
      (init_edges keys).2 = keys.flatMap (fun k =>
        [List.indexOf k.sub0 (init_edges keys).1, List.indexOf k.sub1 (init_edges keys).1]) := by
  induction keys using List.reverseRecOn with
  | nil => simp [init_edges]
  | append_singleton ks k ih =>
    obtain ⟨hnd, hmem, hed⟩ := ih
    have hstep : init_edges (ks ++ [k]) =
        init_edges_end (init_edges_end (init_edges ks) k.sub0) k.sub1 := by
      simp [init_edges, List.foldl_append]
    obtain ⟨hnd1, hm1, ⟨t1, ht1⟩, he1⟩ := init_edges_end_spec (init_edges ks) k.sub0 hnd
    obtain ⟨hnd2, hm2, ⟨t2, ht2⟩, he2⟩ :=
      init_edges_end_spec (init_edges_end (init_edges ks) k.sub0) k.sub1 hnd1
    have hpre : (init_edges (ks ++ [k])).1 = (init_edges ks).1 ++ (t1 ++ t2) := by
      rw [hstep, ht2, ht1, List.append_assoc]
    have hm0 : k.sub0 ∈ (init_edges (ks ++ [k])).1 := by
      rw [hstep, ht2]; exact List.mem_append_left _ hm1
    have hm3 : k.sub1 ∈ (init_edges (ks ++ [k])).1 := by
      rw [hstep]; exact hm2
    refine ⟨by rw [hstep]; exact hnd2, ?_, ?_⟩
    · intro k2 hk2
      rcases List.mem_append.1 hk2 with h | h
      · rw [hpre]
        exact ⟨List.mem_append_left _ (hmem k2 h).1, List.mem_append_left _ (hmem k2 h).2⟩
      · simp only [List.mem_singleton] at h
        subst h
        exact ⟨hm0, hm3⟩
    · rw [List.flatMap_append]
      have hold : List.flatMap ks (fun k2 =>
          [List.indexOf k2.sub0 (init_edges (ks ++ [k])).1,
            List.indexOf k2.sub1 (init_edges (ks ++ [k])).1]) = (init_edges ks).2 := by
        rw [hed]
        apply List.flatMap_congr
        intro k2 hk2
        rw [hpre, List.indexOf_append_of_mem (hmem k2 hk2).1,
          List.indexOf_append_of_mem (hmem k2 hk2).2]
      rw [hold]
      have hnew : (init_edges (ks ++ [k])).2 = (init_edges ks).2 ++
          [List.indexOf k.sub0 (init_edges (ks ++ [k])).1,
            List.indexOf k.sub1 (init_edges (ks ++ [k])).1] := by
        have e0 : List.indexOf k.sub0 (init_edges (ks ++ [k])).1 =
            List.indexOf k.sub0 (init_edges_end (init_edges ks) k.sub0).1 := by
          rw [hstep, ht2, List.indexOf_append_of_mem hm1]
        rw [e0]
        conv_lhs => rw [hstep, he2, he1]
        rw [hstep]
        simp
      rw [hnew]
      simp

theorem edge_pairs_flatMap {α : Type} (f g : α → Nat) (l : List α) :
    edge_pairs (l.flatMap (fun k => [f k, g k])) = l.map (fun k => (f k, g k)) := by
  induction l with
  | nil => rfl
  | cons x xs ih => simp only [List.flatMap_cons, List.map_cons]; simp [edge_pairs, ih]

theorem edge_pairs_mem : ∀ (l : List Nat) (a b : Nat), (a, b) ∈ edge_pairs l → a ∈ l ∧ b ∈ l := by
  intro l
  induction l using edge_pairs.induct with
  | case1 x y rest ih =>
    intro a b h
    simp only [edge_pairs, List.mem_cons, Prod.mk.injEq] at h
    rcases h with ⟨h1, h2⟩ | h
    · subst h1; subst h2; simp
    · have := ih a b h
      exact ⟨List.mem_cons_of_mem _ (List.mem_cons_of_mem _ this.1),
        List.mem_cons_of_mem _ (List.mem_cons_of_mem _ this.2)⟩
  | case2 l hl =>
    intro a b h
    rw [edge_pairs] at h
    · exact absurd h (List.not_mem_nil _)
    · exact hl

theorem init_hidden_cycles_spec (nodes : List SubStrand) (edges : List Nat)
    (hb : ∀ x ∈ edges, x < nodes.length) :
    ∃ hidden, init_hidden_cycles nodes edges = some hidden ∧
      CycInv (edge_pairs edges) nodes.length hidden ∧
      ∀ path, PathOK (edge_pairs edges) nodes.length path → Closable (edge_pairs edges) path →
        Rep path hidden := by
  have hE : ∀ e ∈ edge_pairs edges, e.2 < nodes.length := by
    intro e he
    exact hb _ (edge_pairs_mem edges e.1 e.2 he).2
  have hfold := foldlM_mono_spec
    (fun cyc edge => find_new_cycles (edge_pairs edges) (nodes.length + 1) [edge] cyc)
    (CycInv (edge_pairs edges) nodes.length)
    (fun edge out => ∀ ext, PathOK (edge_pairs edges) nodes.length (ext ++ [edge]) →
      Closable (edge_pairs edges) (ext ++ [edge]) → Rep (ext ++ [edge]) out)
    (fun a c d h hcd ext h1 h2 => rep_mono _ _ _ (h ext h1 h2) hcd) edges
    (by
      intro edge he c hIc
      have hp : PathOK (edge_pairs edges) nodes.length [edge] := by
        refine ⟨by simp, List.nodup_singleton _, ?_, List.chain'_singleton _⟩
        intro x hx
        simp only [List.mem_singleton] at hx
        rw [hx]; exact hb edge he
      obtain ⟨d, hd, hId, hcd, hrep⟩ := find_new_cycles_spec (edge_pairs edges) nodes.length hE
        (nodes.length + 1) [edge] c hp (by simp only [List.length_singleton]; omega) hIc
      exact ⟨d, hd, hId, hcd, hrep⟩)
    [] ⟨fun c hc => absurd hc (List.not_mem_nil _), List.Pairwise.nil⟩
  obtain ⟨out, ho, hIo, _, hQ⟩ := hfold
  refine ⟨out, ho, hIo, ?_⟩
  intro path hp hc
  rcases List.eq_nil_or_concat path with hnil | ⟨ext, w, hw⟩
  · exact absurd hnil hp.1
  · subst hw
    rw [List.concat_eq_append] at hp hc ⊢
    obtain ⟨_, h, l, _, hl, hhl⟩ := hc
    have hlw : l = w := by simpa using hl.symm
    subst hlw
    exact hQ l (edge_pairs_mem edges h l hhl).2 ext hp ⟨by assumption, h, l, by assumption, hl, hhl⟩

theorem mapM_node_at (nodes : List SubStrand) : ∀ (c : List Nat), (∀ x ∈ c, x < nodes.length) →
    c.mapM (fun a => nodes.get? a) = some (c.map (node_at nodes)) := by
  intro c
  induction c with
  | nil => intro _; rfl
  | cons x xs ih =>
    intro hb
    have hx : x < nodes.length := hb x (List.mem_cons_self _ _)
    rw [List.mapM_cons, ih (fun y hy => hb y (List.mem_cons_of_mem _ hy))]
    simp [node_at, List.getD_eq_getElem _ _ hx, List.getElem?_eq_getElem hx]

theorem init_cycles_spec (nodes : List SubStrand) : ∀ (hidden : List (List Nat)),
    (∀ c ∈ hidden, ∀ x ∈ c, x < nodes.length) →
    init_cycles nodes hidden = some (hidden.map (cycle_of nodes)) := by
  intro hidden
  induction hidden with
  | nil => intro _; rfl
  | cons c cs ih =>
    intro hb
    have h1 := mapM_node_at nodes c (hb c (List.mem_cons_self _ _))
    have h2 := ih (fun d hd => hb d (List.mem_cons_of_mem _ hd))
    unfold init_cycles at h2 ⊢
    rw [List.mapM_cons, h2, h1]
    simp [cycle_of]

/-- The run of `FindCycle`: the recorded index cycles and their translation. -/
theorem findCycle_run (keys : SubStrandsPairKeyVec) :
    ∃ hidden, FindCycle keys = some (hidden.map (cycle_of (init_edges keys).1)) ∧
      CycInv (edge_pairs (init_edges keys).2) (init_edges keys).1.length hidden ∧
      ∀ path, PathOK (edge_pairs (init_edges keys).2) (init_edges keys).1.length path →
        Closable (edge_pairs (init_edges keys).2) path → Rep path hidden := by
  obtain ⟨hnd, hmem, hed⟩ := init_edges_spec keys
  have hb : ∀ x ∈ (init_edges keys).2, x < (init_edges keys).1.length := by
    intro x hx
    rw [hed, List.mem_flatMap] at hx
    obtain ⟨k, hk, hx⟩ := hx
    simp only [List.mem_cons, List.mem_singleton, List.not_mem_nil, or_false] at hx
    rcases hx with hx | hx
    · rw [hx]; exact List.indexOf_lt_length.2 (hmem k hk).1
    · rw [hx]; exact List.indexOf_lt_length.2 (hmem k hk).2
  obtain ⟨hidden, hh, hI, hrep⟩ := init_hidden_cycles_spec _ _ hb
  refine ⟨hidden, ?_, hI, hrep⟩
  unfold FindCycle
  rw [hh]
  exact init_cycles_spec _ hidden (fun c hc => (hI.1 c hc).2.2.1)

/-! ## Cycles of sub-strands and cycles of node indices -/

theorem closedChain_map {α β : Type} (R : α → α → Prop) (f : β → α) (c : List β)
    (h : ClosedChain (fun a b => R (f a) (f b)) c) : ClosedChain R (c.map f) := by
  unfold ClosedChain at h ⊢
  rw [← List.map_take, ← List.map_append, List.chain'_map]
  exact h

theorem closedChain_imp {α : Type} (R S : α → α → Prop) (c : List α)
    (hRS : ∀ a b, a ∈ c → b ∈ c → R a b → S a b) (h : ClosedChain R c) : ClosedChain S c := by
  unfold ClosedChain at h ⊢
  have hmem : ∀ x ∈ c ++ c.take 1, x ∈ c := by
    intro x hx
    rcases List.mem_append.1 hx with hx | hx
    · exact hx
    · exact List.mem_of_mem_take hx
  generalize c ++ c.take 1 = l at h hmem
  induction l with
  | nil => exact List.chain'_nil
  | cons x xs ih =>
    rw [List.chain'_cons'] at h ⊢
    refine ⟨?_, ih h.2 (fun y hy => hmem y (List.mem_cons_of_mem _ hy))⟩
    intro y hy
    exact hRS x y (hmem x (List.mem_cons_self _ _))
      (hmem y (List.mem_cons_of_mem _ (List.mem_of_mem_head? hy))) (h.1 y hy)

theorem closedChain_chain {α : Type} (R : α → α → Prop) (c : List α) (h : ClosedChain R c) :
    List.Chain' R c :=
  List.Chain'.left_of_append h

theorem closedChain_closing {α : Type} (R : α → α → Prop) (c : List α) (hd l : α)
    (h : ClosedChain R c) (hh : c.head? = some hd) (hl : c.getLast? = some l) : R l hd := by
  cases c with
  | nil => simp at hh
  | cons a as =>
    simp only [List.head?_cons, Option.some.injEq] at hh
    subst hh
    simp only [ClosedChain, List.take_succ_cons, List.take_zero] at h
    rw [List.chain'_append] at h
    exact h.2.2 l hl a rfl

theorem closedChain_succ {α : Type} (R : α → α → Prop) (c : List α) (h : ClosedChain R c) :
    ∀ x ∈ c, ∃ y, R x y := by
  intro x hx
  obtain ⟨p, q, hpq⟩ := List.append_of_mem hx
  cases c with
  | nil => simp at hx
  | cons a as =>
    simp only [ClosedChain, List.take_succ_cons, List.take_zero] at h
    rw [hpq] at h
    have h2 : List.Chain' R (x :: (q ++ [a])) := by
      have : p ++ x :: q ++ [a] = p ++ (x :: (q ++ [a])) := by simp
      rw [this] at h
      exact List.Chain'.right_of_append h
    cases q with
    | nil =>
      simp only [List.nil_append] at h2
      exact ⟨a, (List.chain'_cons.1 h2).1⟩
    | cons y ys =>
      simp only [List.cons_append] at h2
      exact ⟨y, (List.chain'_cons.1 h2).1⟩

theorem node_at_indexOf (nodes : List SubStrand) (s : SubStrand) (h : s ∈ nodes) :
    node_at nodes (List.indexOf s nodes) = s := by
  have hl : List.indexOf s nodes < nodes.length := List.indexOf_lt_length.2 h
  rw [node_at, List.getD_eq_getElem _ _ hl]
  exact List.getElem_indexOf hl

theorem node_at_inj (nodes : List SubStrand) (hnd : nodes.Nodup) (a b : Nat)
    (ha : a < nodes.length) (hb : b < nodes.length) (h : node_at nodes a = node_at nodes b) :
    a = b := by
  rw [node_at, node_at, List.getD_eq_getElem _ _ ha, List.getD_eq_getElem _ _ hb] at h
  exact (List.Nodup.getElem_inj_iff hnd).1 h

theorem map_node_at_inj (nodes : List SubStrand) (hnd : nodes.Nodup) :
    ∀ (a b : List Nat), (∀ x ∈ a, x < nodes.length) → (∀ x ∈ b, x < nodes.length) →
      a.map (node_at nodes) = b.map (node_at nodes) → a = b := by
  intro a
  induction a with
  | nil => intro b _ _ h; simpa using h.symm
  | cons x xs ih =>
    intro b ha hb h
    cases b with
    | nil => simp at h
    | cons y ys =>
      simp only [List.map_cons, List.cons.injEq] at h
      have h1 := node_at_inj nodes hnd x y (ha x (List.mem_cons_self _ _))
        (hb y (List.mem_cons_self _ _)) h.1
      have h2 := ih ys (fun z hz => ha z (List.mem_cons_of_mem _ hz))
        (fun z hz => hb z (List.mem_cons_of_mem _ hz)) h.2
      rw [h1, h2]

theorem isRotated_of_map_node_at (nodes : List SubStrand) (hnd : nodes.Nodup)
    (a b : List Nat) (ha : ∀ x ∈ a, x < nodes.length) (hb : ∀ x ∈ b, x < nodes.length)
    (h : a.map (node_at nodes) ~r b.map (node_at nodes)) : a ~r b := by
  obtain ⟨k, hk⟩ := h
  rw [← List.map_rotate] at hk
  refine ⟨k, map_node_at_inj nodes hnd _ _ ?_ hb hk⟩
  intro x hx
  exact ha x (List.mem_rotate.1 hx)

theorem cycle_of_isRotated (nodes : List SubStrand) (c : List Nat) :
    c.map (node_at nodes) ~r cycle_of nodes c :=
  rotate_to_smallest_isRotated _ _

theorem ofSubs_sub0 (a b : SubStrand) : (SubStrandsPairKey.ofSubs a b).sub0 = a := rfl

theorem ofSubs_sub1 (a b : SubStrand) : (SubStrandsPairKey.ofSubs a b).sub1 = b := rfl

theorem ofSubs_eta (k : SubStrandsPairKey) : SubStrandsPairKey.ofSubs k.sub0 k.sub1 = k := rfl

/-- The index pairs of the edge vector are the keys, end by end. -/
theorem edge_pairs_init_edges (keys : SubStrandsPairKeyVec) :
    edge_pairs (init_edges keys).2 = keys.map (fun k =>
      (List.indexOf k.sub0 (init_edges keys).1, List.indexOf k.sub1 (init_edges keys).1)) := by
  have h := (init_edges_spec keys).2.2
  rw [h]
  exact edge_pairs_flatMap _ _ _

theorem key_of_pair (keys : SubStrandsPairKeyVec) (a b : Nat)
    (h : (a, b) ∈ edge_pairs (init_edges keys).2) :
    SubStrandsPairKey.ofSubs (node_at (init_edges keys).1 a) (node_at (init_edges keys).1 b)
      ∈ keys := by
  rw [edge_pairs_init_edges, List.mem_map] at h
  obtain ⟨k, hk, he⟩ := h
  simp only [Prod.mk.injEq] at he
  have hm := (init_edges_spec keys).2.1 k hk
  rw [← he.1, ← he.2, node_at_indexOf _ _ hm.1, node_at_indexOf _ _ hm.2, ofSubs_eta]
  exact hk

theorem pair_of_key (keys : SubStrandsPairKeyVec) (a b : SubStrand)
    (h : SubStrandsPairKey.ofSubs a b ∈ keys) :
    (List.indexOf a (init_edges keys).1, List.indexOf b (init_edges keys).1)
      ∈ edge_pairs (init_edges keys).2 := by
  rw [edge_pairs_init_edges, List.mem_map]
  exact ⟨_, h, rfl⟩

theorem cycle_of_good (keys : SubStrandsPairKeyVec) (h : List Nat)
    (hg : GoodIdx (edge_pairs (init_edges keys).2) (init_edges keys).1.length h) :
    3 ≤ (cycle_of (init_edges keys).1 h).length ∧ (cycle_of (init_edges keys).1 h).Nodup ∧
      IsCycleIn keys (cycle_of (init_edges keys).1 h) := by
  obtain ⟨hnd, hlen, hb, hch, _⟩ := hg
  have hN := (init_edges_spec keys).1
  have hr := cycle_of_isRotated (init_edges keys).1 h
  refine ⟨?_, ?_, ?_⟩
  · rw [← hr.perm.length_eq]; simpa using hlen
  · apply hr.nodup_iff.1
    apply List.Nodup.map_on _ hnd
    intro x hx y hy hxy
    exact node_at_inj _ hN x y (hb x hx) (hb y hy) hxy
  · apply closedChain_of_isRotated _ hr
    apply closedChain_map
    apply closedChain_imp _ _ _ _ hch
    intro a b _ _ hab
    exact key_of_pair keys a b hab

/-- C8. `FindCycle` returns, and every cycle it reports has at least three
sub-strands, all distinct, and is a closed walk along the input keys: every
consecutive pair and the pair of the last and the first sub-strand is a key of
the input vector. Two mutually reverse edges alone have two sub-strands and are
never reported. -/
theorem findCycle_sound (keys : SubStrandsPairKeyVec) :
    ∃ cycles, FindCycle keys = some cycles ∧
      ∀ c ∈ cycles, 3 ≤ c.length ∧ c.Nodup ∧ IsCycleIn keys c := by
  obtain ⟨hidden, hf, hI, _⟩ := findCycle_run keys
  refine ⟨_, hf, ?_⟩
  intro c hc
  rw [List.mem_map] at hc
  obtain ⟨h, hh, rfl⟩ := hc
  exact cycle_of_good keys h (hI.1 h hh)

/-- Every closed walk of at least three distinct sub-strands is represented
among the translated cycles. -/
theorem cycle_represented (keys : SubStrandsPairKeyVec) (hidden : List (List Nat))
    (hrep : ∀ path, PathOK (edge_pairs (init_edges keys).2) (init_edges keys).1.length path →
      Closable (edge_pairs (init_edges keys).2) path → Rep path hidden)
    (c : List SubStrand) (hnd : c.Nodup) (hlen : 3 ≤ c.length) (hc : IsCycleIn keys c) :
    ∃ d ∈ hidden.map (cycle_of (init_edges keys).1), d ~r c ∨ d ~r c.reverse := by
  have hN := (init_edges_spec keys).1
  have hmemN : ∀ x ∈ c, x ∈ (init_edges keys).1 := by
    intro x hx
    obtain ⟨y, hy⟩ := closedChain_succ _ c hc x hx
    exact ((init_edges_spec keys).2.1 _ hy).1
  have hback : (c.map (fun s => List.indexOf s (init_edges keys).1)).map
      (node_at (init_edges keys).1) = c := by
    rw [List.map_map]
    conv_rhs => rw [← List.map_id c]
    apply List.map_congr_left
    intro x hx
    exact node_at_indexOf _ x (hmemN x hx)
  have hci : ClosedChain (fun a b => (a, b) ∈ edge_pairs (init_edges keys).2)
      (c.map (fun s => List.indexOf s (init_edges keys).1)) := by
    apply closedChain_map
    apply closedChain_imp _ _ _ _ hc
    intro a b _ _ hab
    exact pair_of_key keys a b hab
  have hcind : (c.map (fun s => List.indexOf s (init_edges keys).1)).Nodup := by
    apply List.Nodup.map_on _ hnd
    intro x hx y hy hxy
    exact (List.indexOf_inj (hmemN x hx) (hmemN y hy)).1 hxy
  have hcib : ∀ x ∈ c.map (fun s => List.indexOf s (init_edges keys).1),
      x < (init_edges keys).1.length := by
    intro x hx
    rw [List.mem_map] at hx
    obtain ⟨s, hs, rfl⟩ := hx
    exact List.indexOf_lt_length.2 (hmemN s hs)
  obtain ⟨hd0, hhd0⟩ : ∃ a, (c.map (fun s => List.indexOf s (init_edges keys).1)).head? =
      some a := by
    cases c with
    | nil => simp at hlen
    | cons a as => exact ⟨_, rfl⟩
  obtain ⟨l0, hl0⟩ : ∃ a, (c.map (fun s => List.indexOf s (init_edges keys).1)).getLast? =
      some a := by
    cases hq : (c.map (fun s => List.indexOf s (init_edges keys).1)).getLast? with
    | none =>
      rw [List.getLast?_eq_none_iff] at hq
      rw [hq] at hhd0
      simp at hhd0
    | some a => exact ⟨a, rfl⟩
  have hp : PathOK (edge_pairs (init_edges keys).2) (init_edges keys).1.length
      (c.map (fun s => List.indexOf s (init_edges keys).1)).reverse := by
    refine ⟨?_, List.nodup_reverse.2 hcind, fun x hx => hcib x (List.mem_reverse.1 hx), ?_⟩
    · intro h
      rw [List.reverse_eq_nil_iff] at h
      rw [h] at hhd0
      simp at hhd0
    · rw [List.chain'_reverse]
      exact closedChain_chain _ _ hci
  have hcl : Closable (edge_pairs (init_edges keys).2)
      (c.map (fun s => List.indexOf s (init_edges keys).1)).reverse := by
    refine ⟨by simpa using hlen, l0, hd0, ?_, ?_, closedChain_closing _ _ hd0 l0 hci hhd0 hl0⟩
    · rw [List.head?_reverse]; exact hl0
    · rw [List.getLast?_reverse]; exact hhd0
  have hr1 := rotate_to_smallest_isRotated natLt
    (c.map (fun s => List.indexOf s (init_edges keys).1)).reverse
  rcases hrep _ hp hcl with h | h
  · refine ⟨_, List.mem_map_of_mem _ h, Or.inr ?_⟩
    have h1 := (cycle_of_isRotated (init_edges keys).1 _).symm.trans
      ((hr1.symm).map (node_at (init_edges keys).1))
    rw [List.map_reverse, hback] at h1
    exact h1
  · refine ⟨_, List.mem_map_of_mem _ h, Or.inl ?_⟩
    have hr2 := invert_isRotated natLt (rotate_to_smallest natLt
      (c.map (fun s => List.indexOf s (init_edges keys).1)).reverse)
    have hr3 := hr1.reverse.trans hr2
    rw [List.reverse_reverse] at hr3
    have h1 := (cycle_of_isRotated (init_edges keys).1 _).symm.trans
      ((hr3.symm).map (node_at (init_edges keys).1))
    rw [hback] at h1
    exact h1

/-- C9. `FindCycle` is complete: for every closed walk of at least three
distinct sub-strands along the input keys, the reported cycles contain a
sequence equal to it up to cyclic rotation, or to its reverse up to cyclic
rotation. -/
theorem findCycle_complete (keys : SubStrandsPairKeyVec) (c : List SubStrand)
    (hnd : c.Nodup) (hlen : 3 ≤ c.length) (hc : IsCycleIn keys c) :
    ∃ cycles, FindCycle keys = some cycles ∧ ∃ d ∈ cycles, d ~r c ∨ d ~r c.reverse := by
  obtain ⟨hidden, hf, _, hrep⟩ := findCycle_run keys
  exact ⟨_, hf, cycle_represented keys hidden hrep c hnd hlen hc⟩

/-- C9, on the ring of four sub-strands A -> B -> C -> D -> A: the ring is
found, and it is the only cycle reported. -/
theorem findCycle_complete_witness :
    FindCycle [⟨0, 0, 1, 0⟩, ⟨1, 0, 2, 0⟩, ⟨2, 0, 3, 0⟩, ⟨3, 0, 0, 0⟩] =
        some [[⟨0, 0⟩, ⟨1, 0⟩, ⟨2, 0⟩, ⟨3, 0⟩]] ∧
      ∃ cycles, FindCycle [⟨0, 0, 1, 0⟩, ⟨1, 0, 2, 0⟩, ⟨2, 0, 3, 0⟩, ⟨3, 0, 0, 0⟩] = some cycles ∧
        ∃ d ∈ cycles, d ~r [(⟨0, 0⟩ : SubStrand), ⟨1, 0⟩, ⟨2, 0⟩, ⟨3, 0⟩] ∨
          d ~r [(⟨0, 0⟩ : SubStrand), ⟨1, 0⟩, ⟨2, 0⟩, ⟨3, 0⟩].reverse :=
  ⟨by decide,
    findCycle_complete [⟨0, 0, 1, 0⟩, ⟨1, 0, 2, 0⟩, ⟨2, 0, 3, 0⟩, ⟨3, 0, 0, 0⟩]
      [⟨0, 0⟩, ⟨1, 0⟩, ⟨2, 0⟩, ⟨3, 0⟩] (by decide) (by decide)
      (by simp [IsCycleIn, ClosedChain, SubStrandsPairKey.ofSubs])⟩

theorem cycle_of_normal (keys : SubStrandsPairKeyVec) (h : List Nat)
    (hg : GoodIdx (edge_pairs (init_edges keys).2) (init_edges keys).1.length h) :
    Normal SubStrand.lt (cycle_of (init_edges keys).1 h) := by
  apply rotate_to_smallest_normal _ subStrandLt_strictTotal
  apply List.Nodup.map_on _ hg.1
  intro x hx y hy hxy
  exact node_at_inj _ (init_edges_spec keys).1 x y (hg.2.2.1 x hx) (hg.2.2.1 y hy) hxy

theorem cycle_of_distinct (keys : SubStrandsPairKeyVec) (a b : List Nat)
    (ha : GoodIdx (edge_pairs (init_edges keys).2) (init_edges keys).1.length a)
    (hb : GoodIdx (edge_pairs (init_edges keys).2) (init_edges keys).1.length b)
    (hab : a ≠ b ∧ a ≠ invert natLt b) :
    ¬ cycle_of (init_edges keys).1 a ~r cycle_of (init_edges keys).1 b ∧
      ¬ cycle_of (init_edges keys).1 a ~r (cycle_of (init_edges keys).1 b).reverse := by
  have hN := (init_edges_spec keys).1
  have hra := cycle_of_isRotated (init_edges keys).1 a
  have hrb := cycle_of_isRotated (init_edges keys).1 b
  refine ⟨?_, ?_⟩
  · intro h
    have h1 := (hra.trans h).trans hrb.symm
    have h2 := isRotated_of_map_node_at _ hN a b ha.2.2.1 hb.2.2.1 h1
    exact hab.1 (normal_unique natLt natLt_strictTotal a b ha.2.2.2.2 hb.2.2.2.2 ha.1 h2)
  · intro h
    have h1 := (hra.trans h).trans hrb.reverse.symm
    rw [← List.map_reverse] at h1
    have h2 := isRotated_of_map_node_at _ hN a b.reverse ha.2.2.1
      (fun x hx => hb.2.2.1 x (List.mem_reverse.1 hx)) h1
    have h3 := h2.trans (invert_isRotated natLt b)
    have hn : Normal natLt (invert natLt b) :=
      rotate_to_smallest_normal natLt natLt_strictTotal _ (List.nodup_reverse.2 hb.1)
    exact hab.2 (normal_unique natLt natLt_strictTotal a _ ha.2.2.2.2 hn ha.1 h3)

/-- C10. The cycle list of `FindCycle` holds one representative of each cycle
up to cyclic rotation and inversion: every reported cycle starts with its
smallest sub-strand, no two reported cycles are equal up to rotation or up to
rotation of the reverse, and so every closed walk of at least three distinct
sub-strands along the keys (in particular one that can be walked in both
directions) is represented by exactly one reported cycle. -/
theorem findCycle_normal_distinct (keys : SubStrandsPairKeyVec) :
    ∃ cycles, FindCycle keys = some cycles ∧
      (∀ c ∈ cycles, Normal SubStrand.lt c) ∧
      cycles.Pairwise (fun a b => ¬ a ~r b ∧ ¬ a ~r b.reverse) ∧
      ∀ c : List SubStrand, c.Nodup → 3 ≤ c.length → IsCycleIn keys c →
        ∃! d, d ∈ cycles ∧ (d ~r c ∨ d ~r c.reverse) := by
  obtain ⟨hidden, hf, hI, hrep⟩ := findCycle_run keys
  have hpw : (hidden.map (cycle_of (init_edges keys).1)).Pairwise
      (fun a b => ¬ a ~r b ∧ ¬ a ~r b.reverse) := by
    rw [List.pairwise_map]
    apply List.Pairwise.imp_of_mem _ hI.2
    intro a b ha hb hab
    exact cycle_of_distinct keys a b (hI.1 a ha) (hI.1 b hb) hab
  refine ⟨_, hf, ?_, hpw, ?_⟩
  · intro c hc
    rw [List.mem_map] at hc
    obtain ⟨h, hh, rfl⟩ := hc
    exact cycle_of_normal keys h (hI.1 h hh)
  · intro c hnd hlen hc
    obtain ⟨d, hd, hdc⟩ := cycle_represented keys hidden hrep c hnd hlen hc
    refine ⟨d, ⟨hd, hdc⟩, ?_⟩
    rintro e ⟨he, hec⟩
    by_contra hne
    have hsym : Symmetric (fun a b : List SubStrand => ¬ a ~r b ∧ ¬ a ~r b.reverse) := by
      intro a b hab
      refine ⟨fun h => hab.1 h.symm, fun h => hab.2 ?_⟩
      have := h.reverse
      rw [List.reverse_reverse] at this
      exact this.symm
    have hde := hpw.forall hsym hd he (fun h => hne h.symm)
    rcases hdc with h1 | h1
    · rcases hec with h2 | h2
      · exact hde.1 (h1.trans h2.symm)
      · apply hde.2
        have := h2.reverse
        rw [List.reverse_reverse] at this
        exact h1.trans this.symm
    · rcases hec with h2 | h2
      · exact hde.2 (h1.trans h2.symm.reverse)
      · exact hde.1 (h1.trans h2.symm)

/-- C10, on the triangle whose three edges all have their reverse: the one
cycle is reported once, starting at its smallest sub-strand. -/
theorem findCycle_normal_distinct_witness :
    FindCycle [⟨0, 0, 1, 0⟩, ⟨1, 0, 0, 0⟩, ⟨1, 0, 2, 0⟩, ⟨2, 0, 1, 0⟩, ⟨2, 0, 0, 0⟩,
        ⟨0, 0, 2, 0⟩] = some [[⟨0, 0⟩, ⟨1, 0⟩, ⟨2, 0⟩]] ∧
      ∃ cycles, FindCycle [⟨0, 0, 1, 0⟩, ⟨1, 0, 0, 0⟩, ⟨1, 0, 2, 0⟩, ⟨2, 0, 1, 0⟩, ⟨2, 0, 0, 0⟩,
          ⟨0, 0, 2, 0⟩] = some cycles ∧
        (∀ c ∈ cycles, Normal SubStrand.lt c) ∧
        cycles.Pairwise (fun a b => ¬ a ~r b ∧ ¬ a ~r b.reverse) ∧
        ∀ c : List SubStrand, c.Nodup → 3 ≤ c.length →
          IsCycleIn [⟨0, 0, 1, 0⟩, ⟨1, 0, 0, 0⟩, ⟨1, 0, 2, 0⟩, ⟨2, 0, 1, 0⟩, ⟨2, 0, 0, 0⟩,
            ⟨0, 0, 2, 0⟩] c →
          ∃! d, d ∈ cycles ∧ (d ~r c ∨ d ~r c.reverse) :=
  ⟨by decide, findCycle_normal_distinct _⟩

/-! ## The loop of `check_undirected` -/

theorem key_set_insert_mem (s : List SubStrandsPairKey) (x k : SubStrandsPairKey) :
    k ∈ key_set_insert s x ↔ k ∈ s ∨ k = x := by
  unfold key_set_insert
  split_ifs with h
  · constructor
    · intro hk; exact Or.inl hk
    · rintro (hk | rfl)
      · exact hk
      · exact h
  · simp

theorem key_set_foldl_mem (v : List SubStrandsPairKey) :
    ∀ (acc : List SubStrandsPairKey) (k : SubStrandsPairKey),
      k ∈ v.foldl key_set_insert acc ↔ k ∈ acc ∨ k ∈ v := by
  induction v with
  | nil => intro acc k; simp
  | cons x xs ih =>
    intro acc k
    rw [List.foldl_cons, ih, key_set_insert_mem]
    simp only [List.mem_cons]
    tauto

/-- The loop of `check_undirected` ends within its fuel, and it reports an
erasure exactly when the key vector `v` the set was filled from holds a key
together with its reverse. -/
theorem check_undirected_loop_spec (v : List SubStrandsPairKey) :
    ∀ (fuel : Nat) (passed rest : List SubStrandsPairKey) (eo : Bool),
      rest.length < fuel →
      (∀ k ∈ passed, k.reverse ∉ passed ++ rest) →
      (∀ k ∈ passed ++ rest, k ∈ v) →
      (eo = true → ∃ k ∈ v, k.reverse ∈ v) →
      (eo = false → ∀ k ∈ v, k ∈ passed ++ rest) →
      ∃ b, check_undirected_loop fuel passed rest eo = some b ∧
        (b = true ↔ ∃ k ∈ v, k.reverse ∈ v) := by
  intro fuel
  induction fuel with
  | zero => intro passed rest eo hlen; omega
  | succ fuel ih =>
    intro passed rest eo hlen h1 h2 h3 h4
    cases rest with
    | nil =>
      refine ⟨eo, rfl, h3, ?_⟩
      rintro ⟨k, hk, hr⟩
      by_contra hne
      have hf : eo = false := by simpa using hne
      exact h1 k (by simpa using h4 hf k hk) (h4 hf _ hr)
    | cons cur rest =>
      simp only [check_undirected_loop]
      split_ifs with hrev
      · apply ih
        · have := List.length_erase_le cur.reverse rest
          simp only [List.length_cons] at hlen
          omega
        · intro k hk hmem
          apply h1 k (List.mem_of_mem_erase hk)
          rcases List.mem_append.1 hmem with hm | hm
          · exact List.mem_append.2 (Or.inl (List.mem_of_mem_erase hm))
          · exact List.mem_append.2 (Or.inr (List.mem_cons_of_mem _ (List.mem_of_mem_erase hm)))
        · intro k hmem
          apply h2
          rcases List.mem_append.1 hmem with hm | hm
          · exact List.mem_append.2 (Or.inl (List.mem_of_mem_erase hm))
          · exact List.mem_append.2 (Or.inr (List.mem_cons_of_mem _ (List.mem_of_mem_erase hm)))
        · intro _
          exact ⟨cur, h2 cur (by simp), h2 _ hrev⟩
        · intro hf; cases hf
      · apply ih
        · simp only [List.length_cons] at hlen
          omega
        · intro k hk hmem
          have hmem2 : k.reverse ∈ passed ++ cur :: rest := by
            simp only [List.mem_append, List.mem_cons, List.mem_singleton] at hmem ⊢
            tauto
          rcases List.mem_append.1 hk with hm | hm
          · exact h1 k hm hmem2
          · have hkc : k = cur := by simpa using hm
            subst hkc
            exact hrev hmem2
        · intro k hmem
          apply h2
          simp only [List.mem_append, List.mem_cons, List.mem_singleton] at hmem ⊢
          tauto
        · exact h3
        · intro hf k hk
          have := h4 hf k hk
          simp only [List.mem_append, List.mem_cons, List.mem_singleton] at this ⊢
          tauto

/-- The function `check_undirected` returns, and its result is true exactly
when some key of the vector has its reverse in the vector. -/
theorem check_undirected_spec (v : SubStrandsPairKeyVec) :
    ∃ b, check_undirected v = some b ∧ (b = true ↔ ∃ k ∈ v, k.reverse ∈ v) := by
  unfold check_undirected
  apply check_undirected_loop_spec v
  · omega
  · intro k hk; simp at hk
  · intro k hk
    simpa [key_set_foldl_mem] using hk
  · intro hf; cases hf
  · intro _ k hk
    simpa [key_set_foldl_mem] using hk

/-! ## The size of a sheet -/

theorem jump_size_append (js : List Nat) (j : Nat) :
    jump_size (js ++ [j]) = max (jump_size js) (j + 2) := by
  unfold jump_size
  induction js with
  | nil => simp
  | cons x xs ih =>
    simp only [List.cons_append, List.map_cons, List.foldr_cons, ih]
    omega

theorem jump_size_append_list (js ks : List Nat) :
    jump_size (js ++ ks) = max (jump_size js) (jump_size ks) := by
  unfold jump_size
  induction js with
  | nil => simp
  | cons x xs ih =>
    simp only [List.cons_append, List.map_cons, List.foldr_cons, ih]
    omega

theorem jump_size_le (js : List Nat) (h : ∀ j ∈ js, j ≤ 255) : jump_size js ≤ 257 := by
  unfold jump_size
  induction js with
  | nil => simp
  | cons x xs ih =>
    simp only [List.map_cons, List.foldr_cons]
    have := ih (fun j hj => h j (List.mem_cons_of_mem _ hj))
    have := h x (List.mem_cons_self _ _)
    omega

theorem jump_size_ge (js : List Nat) (h : js ≠ []) : 2 ≤ jump_size js := by
  unfold jump_size
  cases js with
  | nil => exact absurd rfl h
  | cons x xs => simp only [List.map_cons, List.foldr_cons]; omega

theorem add_jump_size (sh : Sheet) (pair : SubStrandsPairKey) (jump : Nat) :
    (sh.add_jump pair jump).sheet_size = max sh.sheet_size (jump + 2) ∧
      (sh.add_jump pair jump).cycles_vec = sh.cycles_vec := by
  unfold Sheet.add_jump
  split_ifs with h
  · simp only [and_true]; omega
  · simp only [and_true]; omega

theorem inRange_jumps (b : SheetBuild) (h : b.inRange) : ∀ j ∈ b.jumps, j ≤ 255 := by
  induction b with
  | empty => intro j hj; simp [SheetBuild.jumps] at hj
  | add b pair attr ih =>
    intro j hj
    simp only [SheetBuild.jumps, List.mem_append, List.mem_singleton] at hj
    rcases hj with hj | hj
    · exact ih h.1 j hj
    · rw [hj]; exact h.2
  | merge b other ih1 ih2 =>
    intro j hj
    simp only [SheetBuild.jumps, List.mem_append] at hj
    rcases hj with hj | hj
    · exact ih1 h.1 j hj
    · exact ih2 h.2.1 j hj

/-- Before `finish`, the size is the largest jump + 2 and no cycle is stored. -/
theorem run_size (b : SheetBuild) (h : b.inRange) :
    b.run.sheet_size = jump_size b.jumps ∧ b.run.cycles_vec = [] := by
  induction b with
  | empty => exact ⟨rfl, rfl⟩
  | add b pair attr ih =>
    obtain ⟨h1, h2⟩ := ih h.1
    have hj : attr.jump ≤ 255 := h.2
    simp only [SheetBuild.run, SheetBuild.jumps, Sheet.add]
    rw [jump_size_append]
    have hs := add_jump_size
      { b.run with
        member_substr :=
          set_insert_all (set_insert (set_insert b.run.member_substr pair.sub0) pair.sub1)
            attr.jumped_substrs }
      pair (toIndexType attr.jump)
    rw [hs.1, hs.2]
    have ht : toIndexType attr.jump = attr.jump := by unfold toIndexType; omega
    rw [ht]
    exact ⟨by rw [h1], h2⟩
  | merge b other ih1 ih2 =>
    obtain ⟨h1, h2⟩ := ih1 h.1
    obtain ⟨h3, _⟩ := ih2 h.2.1
    have hle := jump_size_le other.jumps (inRange_jumps other h.2.1)
    have hge := jump_size_ge other.jumps h.2.2
    simp only [SheetBuild.run, SheetBuild.jumps, Sheet.merge]
    rw [jump_size_append_list]
    have hs := add_jump_size
      { b.run with member_substr := set_insert_all b.run.member_substr other.run.member_substr }
      other.run.max_key (toIndexType ((other.run.sheet_size + (2 ^ 64 - 2)) % 2 ^ 64))
    rw [hs.1, hs.2]
    have ht : toIndexType ((other.run.sheet_size + (2 ^ 64 - 2)) % 2 ^ 64) + 2 =
        jump_size other.jumps := by
      unfold toIndexType
      rw [h3]
      omega
    rw [ht]
    exact ⟨by rw [h1], h2⟩

theorem max_size_scan_eq : ∀ (cs : List (List SubStrand)) (best : Nat),
    max_size_scan best cs = max best (largest_cycle cs) := by
  intro cs
  induction cs with
  | nil => intro best; simp [max_size_scan, largest_cycle]
  | cons c cs ih =>
    intro best
    simp only [max_size_scan, largest_cycle, List.map_cons, List.foldr_cons]
    split_ifs with h
    · rw [ih]; unfold largest_cycle; omega
    · rw [ih]; unfold largest_cycle; omega

theorem largest_cycle_map_rotate (cs : List (List SubStrand)) :
    largest_cycle (cs.map (rotate_to_smallest SubStrand.lt)) = largest_cycle cs := by
  unfold largest_cycle
  rw [List.map_map]
  congr 1
  apply List.map_congr_left
  intro c _
  exact (rotate_to_smallest_isRotated SubStrand.lt c).perm.length_eq.symm

/-- The size after `finish` of a sheet that stores no cycle yet. -/
theorem finish_size (sh : Sheet) (keys : SubStrandsPairKeyVec) (hc : sh.cycles_vec = []) :
    ∃ res cycles, FindCycle (sh.keys keys) = some cycles ∧ sh.finish keys = some res ∧
      res.size = if cycles = [] then sh.sheet_size else largest_cycle cycles := by
  obtain ⟨hidden, hf, _, _⟩ := findCycle_run (sh.keys keys)
  generalize List.map (cycle_of (init_edges (sh.keys keys)).1) hidden = cycles at hf
  suffices hsuf : ∃ res, sh.finish keys = some res ∧
      res.size = if cycles = [] then sh.sheet_size else largest_cycle cycles by
    obtain ⟨res, h1, h2⟩ := hsuf
    exact ⟨res, cycles, hf, h1, h2⟩
  obtain ⟨undirected, hu, _⟩ := check_undirected_spec (sh.keys keys)
  unfold Sheet.finish Sheet.cycle_check
  rw [hu, hf]
  simp only [Option.some_bind]
  cases cycles with
  | nil =>
    simp only [Option.map_some', hc, List.nil_append, List.map_nil, max_size]
    exact ⟨_, rfl, by simp [Sheet.size]⟩
  | cons c cs =>
    simp only [Option.map_some', hc, List.nil_append, List.map_cons, max_size]
    refine ⟨_, rfl, ?_⟩
    simp only [Sheet.size, reduceCtorEq, if_false]
    rw [max_size_scan_eq, largest_cycle_map_rotate]
    simp only [largest_cycle, List.map_cons, List.foldr_cons]
    rw [(rotate_to_smallest_isRotated SubStrand.lt c).perm.length_eq]

/-- C1, as amended. For every sheet built from a default-constructed sheet by
`add` and `merge` calls (every jump at most 255, every merged sheet with at
least one pair) and then finished, `FindCycle` and `finish` return, and
`size()` is the length of the largest cycle found among the edges of the sheet
when a cycle is found, and the largest jump + 2 over all the (pair, jump)
values added to it, merged sheets included, when no cycle is found. -/
theorem sheet_size_cycle_first (b : SheetBuild) (keys : SubStrandsPairKeyVec)
    (h : b.inRange) :
    ∃ res cycles, FindCycle (b.run.keys keys) = some cycles ∧ b.run.finish keys = some res ∧
      res.size = if cycles = [] then jump_size b.jumps else largest_cycle cycles := by
  obtain ⟨h1, h2⟩ := run_size b h
  obtain ⟨res, cycles, hf, hr, hs⟩ := finish_size b.run keys h2
  exact ⟨res, cycles, hf, hr, by rw [hs, h1]⟩

/-- C1 as amended, on the sheet of the triangle with a tail: the history is in
range and the finished size is the cycle length 3. -/
theorem sheet_size_cycle_first_witness :
    tailed_triangle_build.inRange ∧
      ∃ res cycles, FindCycle (tailed_triangle_build.run.keys tailed_triangle_keys) = some cycles ∧
        tailed_triangle_build.run.finish tailed_triangle_keys = some res ∧
        res.size = if cycles = [] then jump_size tailed_triangle_build.jumps
          else largest_cycle cycles :=
  ⟨by simp [tailed_triangle_build, SheetBuild.inRange, tailed_triangle_attr],
    sheet_size_cycle_first tailed_triangle_build tailed_triangle_keys
      (by simp [tailed_triangle_build, SheetBuild.inRange, tailed_triangle_attr])⟩

/-- C1 fails as stated. In the graph 0 -> 1 -> 2 -> 0, 2 -> 3 -> 4 the search
from 0 to 4 jumps over three sub-strands; the sheet that receives this pair has
the largest jump + 2 equal to 5 and its largest cycle has length 3, the maximum
of the two is 5, and `size()` after `finish` is 3. -/
theorem sheet_size_max_counterexample :
    search tailed_triangle ⟨0, 0⟩ ⟨4, 0⟩ (gen_adj_sub_vec tailed_triangle) =
        some tailed_triangle_attr ∧
      jump_size tailed_triangle_build.jumps = 5 ∧
      (FindCycle (tailed_triangle_build.run.keys tailed_triangle_keys)).map largest_cycle =
        some 3 ∧
      (tailed_triangle_build.run.finish tailed_triangle_keys).map Sheet.size = some 3 ∧
      (tailed_triangle_build.run.finish tailed_triangle_keys).map Sheet.size ≠
        (FindCycle (tailed_triangle_build.run.keys tailed_triangle_keys)).map
          (fun cycles => max (jump_size tailed_triangle_build.jumps) (largest_cycle cycles)) := by
  refine ⟨by decide, by decide, by decide, by decide, by decide⟩

/-! ## Maps, sets and the scan of the adjacent keys -/

theorem mem_set_insert (E : List SubStrand) (node x : SubStrand) :
    x ∈ set_insert E node ↔ x ∈ E ∨ x = node := by
  unfold set_insert
  split_ifs with h
  · constructor
    · exact Or.inl
    · rintro (h1 | h1)
      · exact h1
      · rw [h1]; exact h
  · simp

theorem map_at_append {K V : Type} [DecidableEq K] (m : List (K × V)) (k : K) (v : V) (x : K) :
    map_at (m ++ [(k, v)]) x =
      if (map_at m x).isSome then map_at m x else if k = x then some v else none := by
  induction m with
  | nil => simp [map_at]
  | cons e es ih =>
    simp only [List.cons_append, map_at]
    split_ifs with h1 <;> simp_all

theorem map_at_insert {K V : Type} [DecidableEq K] (m : List (K × V)) (k : K) (v : V) (x : K) :
    map_at (map_insert m k v) x =
      if (map_at m x).isSome then map_at m x else if k = x then some v else none := by
  unfold map_insert
  cases hk : map_at m k with
  | some w =>
    simp only
    by_cases hx : (map_at m x).isSome
    · simp [hx]
    · simp only [hx, Bool.false_eq_true, if_false]
      by_cases hkx : k = x
      · subst hkx; rw [hk] at hx; simp at hx
      · simp only [hkx, if_false]
        simpa using hx
  | none => simp only; exact map_at_append m k v x

theorem map_at_mem {K V : Type} [DecidableEq K] (m : List (K × V)) (x : K) (v : V)
    (h : map_at m x = some v) : (x, v) ∈ m := by
  induction m with
  | nil => simp [map_at] at h
  | cons e es ih =>
    simp only [map_at] at h
    split_ifs at h with h1
    · simp only [Option.some.injEq] at h
      rw [← h1, ← h]
      exact List.mem_cons_self _ _
    · exact List.mem_cons_of_mem _ (ih h)

/-- The parents after the scan of the sub-strands `new` from `node`. -/
theorem fold_insert_spec (node : SubStrand) : ∀ (new : List SubStrand) (P : PathParents)
    (x : SubStrand),
    map_at (new.foldl (fun P y => map_insert P y node) P) x =
      if (map_at P x).isSome then map_at P x else if x ∈ new then some node else none := by
  intro new
  induction new with
  | nil => intro P x; cases h : map_at P x <;> simp [h]
  | cons y ys ih =>
    intro P x
    rw [List.foldl_cons, ih, map_at_insert]
    by_cases h1 : (map_at P x).isSome
    · simp [h1]
    · simp only [h1, Bool.false_eq_true, if_false]
      by_cases h2 : y = x
      · subst h2; simp
      · have h3 : ¬ x = y := fun e => h2 e.symm
        simp [h2, h3]

theorem bfs_scan_spec (E : List SubStrand) (node : SubStrand) :
    ∀ (keys : List SubStrandsPairKey) (st : List SubStrand × PathParents),
      bfs_scan E node keys st =
        (st.1 ++ (keys.map (fun k => k.sub1)).filter (fun y => decide (y ∉ E)),
          ((keys.map (fun k => k.sub1)).filter (fun y => decide (y ∉ E))).foldl
            (fun P y => map_insert P y node) st.2) := by
  intro keys
  induction keys with
  | nil => intro st; simp [bfs_scan]
  | cons k ks ih =>
    intro st
    simp only [bfs_scan]
    split_ifs with h
    · rw [ih]; simp [h]
    · rw [ih]; simp [h]

/-- One iteration of the loop of `search_bfs`. -/
theorem search_bfs_loop_succ (adj : AdjSubVec) (last : SubStrand) (fuel : Nat)
    (node : SubStrand) (rest E : List SubStrand) (P : PathParents) :
    search_bfs_loop adj last (fuel + 1) (node :: rest) E P =
      if node = last then some P
      else search_bfs_loop adj last fuel
        (rest ++ (targets adj node).filter (fun y => decide (y ∉ set_insert E node)))
        (set_insert E node)
        (((targets adj node).filter (fun y => decide (y ∉ set_insert E node))).foldl
          (fun P y => map_insert P y node) P) := by
  rw [search_bfs_loop]
  split_ifs with h
  · rfl
  · cases hm : map_at adj node with
    | none => simp [targets, hm]
    | some keys =>
      simp only [bfs_scan_spec, targets, hm, Option.getD_some]

/-! ## The walks of an index -/

theorem walk_zero (adj : AdjSubVec) (s0 x : SubStrand) (h : Walk adj s0 0 x) : x = s0 := by
  cases h; rfl

theorem walk_succ (adj : AdjSubVec) (s0 x : SubStrand) (n : Nat) (h : Walk adj s0 (n + 1) x) :
    ∃ p, Walk adj s0 n p ∧ Step adj p x := by
  cases h with
  | tail hw hs => exact ⟨_, hw, hs⟩

theorem dist_unique (adj : AdjSubVec) (s0 x : SubStrand) (n m : Nat)
    (h1 : Dist adj s0 x n) (h2 : Dist adj s0 x m) : n = m := by
  rcases Nat.lt_trichotomy n m with h | h | h
  · exact absurd h1.1 (h2.2 n h)
  · exact h
  · exact absurd h2.1 (h1.2 m h)

theorem walk_of_path (adj : AdjSubVec) (s0 : SubStrand) : ∀ (p : List SubStrand) (s1 : SubStrand),
    IsPath adj s0 s1 p → Walk adj s0 (p.length - 1) s1 := by
  intro p
  induction p using List.reverseRecOn with
  | nil => intro s1 h; simp [IsPath] at h
  | append_singleton q x ih =>
    intro s1 h
    obtain ⟨hh, hl, hc⟩ := h
    have hl2 : x = s1 := by simpa using hl
    subst hl2
    cases hq : q.getLast? with
    | none =>
      rw [List.getLast?_eq_none_iff] at hq
      subst hq
      simp only [List.nil_append, List.head?_cons, Option.some.injEq] at hh
      subst hh
      exact Walk.refl
    | some y =>
      have hqne : q ≠ [] := by
        intro e; rw [e] at hq; simp at hq
      rw [List.chain'_append] at hc
      have hstep : Step adj y x := hc.2.2 y hq x rfl
      have hhq : q.head? = some s0 := by
        cases q with
        | nil => exact absurd rfl hqne
        | cons a as => simpa using hh
      have hw := ih y ⟨hhq, hq, hc.1⟩
      have hlen : (q ++ [x]).length - 1 = (q.length - 1) + 1 := by
        have : 0 < q.length := List.length_pos.2 hqne
        simp only [List.length_append, List.length_singleton]
        omega
      rw [hlen]
      exact Walk.tail hw hstep

/-! ## The loop of `search_bfs` ends -/

theorem unexamined_le (univ E F : List SubStrand) (h : ∀ x, x ∈ E → x ∈ F) :
    unexamined univ F ≤ unexamined univ E := by
  unfold unexamined
  induction univ with
  | nil => simp
  | cons u us ih =>
    simp only [List.filter_cons]
    by_cases hF : u ∈ F
    · simp only [hF, not_true_eq_false, decide_False, Bool.false_eq_true, if_false]
      split_ifs
      · simp only [List.length_cons]; omega
      · exact ih
    · have hE : u ∉ E := fun e => hF (h u e)
      simp only [hF, hE, not_false_eq_true, decide_True, if_true, List.length_cons]
      omega

theorem unexamined_lt (univ E F : List SubStrand) (h : ∀ x, x ∈ E → x ∈ F)
    (node : SubStrand) (hu : node ∈ univ) (hE : node ∉ E) (hF : node ∈ F) :
    unexamined univ F < unexamined univ E := by
  induction univ with
  | nil => simp at hu
  | cons u us ih =>
    have hle := unexamined_le us E F h
    unfold unexamined at ih hle ⊢
    simp only [List.filter_cons]
    by_cases hun : u = node
    · subst hun
      simp only [hF, hE, not_true_eq_false, decide_False, Bool.false_eq_true, if_false,
        not_false_eq_true, decide_True, if_true, List.length_cons]
      omega
    · have hus : node ∈ us := by
        rcases List.mem_cons.1 hu with e | e
        · exact absurd e.symm hun
        · exact e
      have := ih hus
      by_cases hF2 : u ∈ F
      · simp only [hF2, not_true_eq_false, decide_False, Bool.false_eq_true, if_false]
        split_ifs
        · simp only [List.length_cons]; omega
        · exact this
      · have hE2 : u ∉ E := fun e => hF2 (h u e)
        simp only [hF2, hE2, not_false_eq_true, decide_True, if_true, List.length_cons]
        omega

theorem weight_sum_new (B U : Nat) (E : List SubStrand) : ∀ (new : List SubStrand),
    (∀ y ∈ new, y ∉ E) → (new.map (bfs_weight B U E)).sum = new.length * B ^ (2 * U) := by
  intro new
  induction new with
  | nil => intro _; simp
  | cons y ys ih =>
    intro h
    have hy : y ∉ E := h y (List.mem_cons_self _ _)
    have hw : bfs_weight B U E y = B ^ (2 * U) := by unfold bfs_weight; rw [if_neg hy]
    simp only [List.map_cons, List.sum_cons, List.length_cons, hw]
    rw [ih (fun z hz => h z (List.mem_cons_of_mem _ hz))]
    ring

theorem weight_le (B U V : Nat) (E F : List SubStrand) (hB : 0 < B) (hUV : V + 1 ≤ U)
    (x : SubStrand) : bfs_weight B V F x ≤ bfs_weight B U E x := by
  have h1 : bfs_weight B V F x ≤ B ^ (2 * V + 1) := by
    unfold bfs_weight
    split_ifs
    · exact le_refl _
    · exact Nat.pow_le_pow_right hB (by omega)
  have h2 : B ^ (2 * V + 1) ≤ B ^ (2 * U) := Nat.pow_le_pow_right hB (by omega)
  have h3 : B ^ (2 * U) ≤ bfs_weight B U E x := by
    unfold bfs_weight
    split_ifs
    · exact Nat.pow_le_pow_right hB (by omega)
    · exact le_refl _
  omega

theorem potential_decrease (adj : AdjSubVec) (s0 node : SubStrand)
    (rest E new : List SubStrand) (hnode : node ∈ bfs_univ adj s0)
    (hnew : ∀ y ∈ new, y ∉ set_insert E node) (hlen : new.length ≤ adj_size adj) :
    bfs_potential adj s0 (rest ++ new) (set_insert E node) <
      bfs_potential adj s0 (node :: rest) E := by
  have hB : 0 < adj_size adj + 1 := by omega
  unfold bfs_potential
  rw [List.map_append, List.sum_append, weight_sum_new _ _ _ new hnew, List.map_cons,
    List.sum_cons]
  by_cases hE : node ∈ E
  · have hset : set_insert E node = E := by unfold set_insert; rw [if_pos hE]
    rw [hset]
    have hw : bfs_weight (adj_size adj + 1) (unexamined (bfs_univ adj s0) E) E node =
        (adj_size adj + 1) ^ (2 * unexamined (bfs_univ adj s0) E + 1) := by
      unfold bfs_weight; rw [if_pos hE]
    rw [hw, pow_succ]
    have hpos : 0 < (adj_size adj + 1) ^ (2 * unexamined (bfs_univ adj s0) E) :=
      Nat.pos_pow_of_pos _ hB
    have h1 : new.length * (adj_size adj + 1) ^ (2 * unexamined (bfs_univ adj s0) E) ≤
        adj_size adj * (adj_size adj + 1) ^ (2 * unexamined (bfs_univ adj s0) E) :=
      Nat.mul_le_mul_right _ hlen
    nlinarith
  · have hU : unexamined (bfs_univ adj s0) (set_insert E node) + 1 ≤
        unexamined (bfs_univ adj s0) E :=
      unexamined_lt _ E _ (fun x hx => (mem_set_insert E node x).2 (Or.inl hx)) node hnode hE
        ((mem_set_insert E node node).2 (Or.inr rfl))
    have hw : bfs_weight (adj_size adj + 1) (unexamined (bfs_univ adj s0) E) E node =
        (adj_size adj + 1) ^ (2 * unexamined (bfs_univ adj s0) E) := by
      unfold bfs_weight; rw [if_neg hE]
    rw [hw]
    have hrest : (rest.map (bfs_weight (adj_size adj + 1)
        (unexamined (bfs_univ adj s0) (set_insert E node)) (set_insert E node))).sum ≤
        (rest.map (bfs_weight (adj_size adj + 1) (unexamined (bfs_univ adj s0) E) E)).sum := by
      apply List.sum_le_sum
      intro x _
      exact weight_le _ _ _ _ _ hB hU x
    have hpos : 0 < (adj_size adj + 1) ^
        (2 * unexamined (bfs_univ adj s0) (set_insert E node)) := Nat.pos_pow_of_pos _ hB
    have h1 : new.length * (adj_size adj + 1) ^
        (2 * unexamined (bfs_univ adj s0) (set_insert E node)) ≤
        adj_size adj * (adj_size adj + 1) ^
          (2 * unexamined (bfs_univ adj s0) (set_insert E node)) :=
      Nat.mul_le_mul_right _ hlen
    have h2 : (adj_size adj + 1) ^
        (2 * unexamined (bfs_univ adj s0) (set_insert E node) + 1) ≤
        (adj_size adj + 1) ^ (2 * unexamined (bfs_univ adj s0) E) :=
      Nat.pow_le_pow_right hB (by omega)
    rw [pow_succ] at h2
    nlinarith

theorem map_at_length_le (adj : AdjSubVec) (node : SubStrand) (ks : List SubStrandsPairKey)
    (h : map_at adj node = some ks) : ks.length ≤ adj_size adj := by
  unfold adj_size
  have hm := map_at_mem adj node ks h
  have : ks.length ∈ adj.map (fun e => e.2.length) := List.mem_map.2 ⟨_, hm, rfl⟩
  exact List.single_le_sum (fun _ _ => Nat.zero_le _) _ this

theorem targets_length_le (adj : AdjSubVec) (node : SubStrand) :
    (targets adj node).length ≤ adj_size adj := by
  unfold targets
  cases h : map_at adj node with
  | none => simp
  | some ks => simpa using map_at_length_le adj node ks h

theorem targets_univ (adj : AdjSubVec) (s0 node y : SubStrand) (h : y ∈ targets adj node) :
    y ∈ bfs_univ adj s0 := by
  unfold targets at h
  cases hm : map_at adj node with
  | none => rw [hm] at h; simp at h
  | some ks =>
    rw [hm] at h
    simp only [Option.getD_some] at h
    unfold bfs_univ
    apply List.mem_cons_of_mem
    rw [List.mem_flatMap]
    exact ⟨_, map_at_mem adj node ks hm, h⟩

theorem potential_init (adj : AdjSubVec) (s0 : SubStrand) :
    bfs_potential adj s0 [s0] [] < bfs_fuel adj := by
  have hU : unexamined (bfs_univ adj s0) [] = adj_size adj + 1 := by
    unfold unexamined bfs_univ adj_size
    simp only [List.not_mem_nil, not_false_eq_true, decide_True, List.filter_true,
      List.length_cons, List.length_flatMap, List.length_map]
    congr 2
    apply List.map_congr_left
    intro e _
    simp
  unfold bfs_potential bfs_fuel
  simp only [List.map_cons, List.map_nil, List.sum_cons, List.sum_nil, bfs_weight,
    List.not_mem_nil, if_false, hU]
  have : 2 * (adj_size adj + 1) = 2 * adj_size adj + 2 := by ring
  rw [this]
  omega

/-! ## The invariant of the loop of `search_bfs` -/

theorem bfsInv_init (adj : AdjSubVec) (s0 s1 : SubStrand) :
    BfsInv adj s0 s1 0 [s0] [] [] [] := by
  refine ⟨?_, ?_, ?_, ?_, ?_, ?_, ?_, ?_, ?_⟩
  · intro x hx
    simp only [List.mem_singleton] at hx
    exact ⟨0, le_refl _, hx ▸ Walk.refl⟩
  · intro x hx; simp at hx
  · intro y m hm hw
    have : m = 0 := by omega
    subst this
    right
    rw [walk_zero adj s0 y hw]
    exact List.mem_singleton_self _
  · intro p hp; simp at hp
  · intro x hx; simp [map_at] at hx
  · intro x hx
    left
    simpa using hx
  · right; rfl
  · intro x p hx; simp [map_at] at hx
  · intro x hx; simp at hx

theorem bfsInv_resplit (adj : AdjSubVec) (s0 s1 : SubStrand) (g : Nat)
    (Q2 E : List SubStrand) (P : PathParents) (h : BfsInv adj s0 s1 g [] Q2 E P) :
    BfsInv adj s0 s1 (g + 1) Q2 [] E P := by
  have hs0 : s0 ∈ E := by
    rcases h.start with e | e
    · exact e
    · simp at e
  refine ⟨h.q2, ?_, ?_, h.closed, ?_, ?_, Or.inl hs0, h.par, h.notlast⟩
  · intro x hx; simp at hx
  · intro y m hm hw
    have hE : ∀ z k, k ≤ g → Walk adj s0 k z → z ∈ E := by
      intro z k hk hz
      rcases h.near z k hk hz with e | e
      · exact e
      · simp at e
    by_cases hmg : m ≤ g
    · exact Or.inl (hE y m hmg hw)
    · have hm1 : m = g + 1 := by omega
      subst hm1
      obtain ⟨p, hp, hpy⟩ := walk_succ adj s0 y g hw
      rcases h.closed p (hE p g (le_refl _) hp) y hpy with e | e
      · exact Or.inl (e ▸ hs0)
      · rcases h.dom_sub y e with e1 | e1 | e1
        · exact Or.inl e1
        · simp at e1
        · exact Or.inr e1
  · intro x hx
    rcases h.dom_sub x hx with e | e | e
    · exact Or.inl e
    · simp at e
    · exact Or.inr (Or.inl e)
  · intro x hx
    apply h.sub_dom
    rcases hx with e | e | e
    · exact Or.inl e
    · exact Or.inr (Or.inr e)
    · simp at e

theorem bfsInv_step (adj : AdjSubVec) (s0 s1 : SubStrand) (g : Nat) (node : SubStrand)
    (Q1 Q2 E : List SubStrand) (P : PathParents)
    (h : BfsInv adj s0 s1 g (node :: Q1) Q2 E P) (hne : node ≠ s1) :
    BfsInv adj s0 s1 g Q1
      (Q2 ++ (targets adj node).filter (fun y => decide (y ∉ set_insert E node)))
      (set_insert E node)
      (((targets adj node).filter (fun y => decide (y ∉ set_insert E node))).foldl
        (fun P y => map_insert P y node) P) := by
  have hnew : ∀ y, y ∈ (targets adj node).filter (fun y => decide (y ∉ set_insert E node)) ↔
      Step adj node y ∧ y ∉ set_insert E node := by
    intro y
    simp [Step]
  have hdom : ∀ x, (map_at (((targets adj node).filter
      (fun y => decide (y ∉ set_insert E node))).foldl (fun P y => map_insert P y node) P)
        x).isSome = true ↔ ((map_at P x).isSome = true ∨
          x ∈ (targets adj node).filter (fun y => decide (y ∉ set_insert E node))) := by
    intro x
    rw [fold_insert_spec]
    by_cases h1 : (map_at P x).isSome = true
    · simp [h1]
    · by_cases h2 : x ∈ (targets adj node).filter (fun y => decide (y ∉ set_insert E node))
      · simp only [h1, Bool.false_eq_true, if_false, h2, if_true, Option.isSome_some, or_true]
      · simp only [h1, Bool.false_eq_true, if_false, h2, Option.isSome_none, or_self]
  have hs0 : s0 ∈ set_insert E node := by
    rw [mem_set_insert]
    rcases h.start with e | e
    · exact Or.inl e
    · right
      simpa using e.symm
  have hnodeQ : node = s0 ∨ (map_at P node).isSome = true :=
    h.sub_dom node (Or.inr (Or.inl (List.mem_cons_self _ _)))
  refine ⟨?_, ?_, ?_, ?_, ?_, ?_, Or.inl hs0, ?_, ?_⟩
  · intro x hx
    exact h.q1 x (List.mem_cons_of_mem _ hx)
  · intro x hx
    rcases List.mem_append.1 hx with e | e
    · exact h.q2 x e
    · obtain ⟨m, hm, hw⟩ := h.q1 node (List.mem_cons_self _ _)
      exact ⟨m + 1, by omega, Walk.tail hw ((hnew x).1 e).1⟩
  · intro y m hm hw
    rcases h.near y m hm hw with e | e
    · exact Or.inl ((mem_set_insert E node y).2 (Or.inl e))
    · rcases List.mem_cons.1 e with e1 | e1
      · exact Or.inl ((mem_set_insert E node y).2 (Or.inr e1))
      · exact Or.inr e1
  · intro p hp y hpy
    rw [hdom]
    rcases (mem_set_insert E node p).1 hp with e | e
    · rcases h.closed p e y hpy with e1 | e1
      · exact Or.inl e1
      · exact Or.inr (Or.inl e1)
    · subst e
      by_cases hy : y ∈ set_insert E p
      · have hy2 : y ∈ E ∨ y ∈ p :: Q1 ∨ y ∈ Q2 := by
          rcases (mem_set_insert E p y).1 hy with e1 | e1
          · exact Or.inl e1
          · exact Or.inr (Or.inl (e1 ▸ List.mem_cons_self _ _))
        rcases h.sub_dom y hy2 with e1 | e1
        · exact Or.inl e1
        · exact Or.inr (Or.inl e1)
      · exact Or.inr (Or.inr ((hnew y).2 ⟨hpy, hy⟩))
  · intro x hx
    rcases (hdom x).1 hx with e | e
    · rcases h.dom_sub x e with e1 | e1 | e1
      · exact Or.inl ((mem_set_insert E node x).2 (Or.inl e1))
      · rcases List.mem_cons.1 e1 with e2 | e2
        · exact Or.inl ((mem_set_insert E node x).2 (Or.inr e2))
        · exact Or.inr (Or.inl e2)
      · exact Or.inr (Or.inr (List.mem_append_left _ e1))
    · exact Or.inr (Or.inr (List.mem_append_right _ e))
  · intro x hx
    rw [hdom]
    rcases hx with e | e | e
    · rcases (mem_set_insert E node x).1 e with e1 | e1
      · rcases h.sub_dom x (Or.inl e1) with e2 | e2
        · exact Or.inl e2
        · exact Or.inr (Or.inl e2)
      · subst e1
        rcases hnodeQ with e2 | e2
        · exact Or.inl e2
        · exact Or.inr (Or.inl e2)
    · rcases h.sub_dom x (Or.inr (Or.inl (List.mem_cons_of_mem _ e))) with e2 | e2
      · exact Or.inl e2
      · exact Or.inr (Or.inl e2)
    · rcases List.mem_append.1 e with e1 | e1
      · rcases h.sub_dom x (Or.inr (Or.inr e1)) with e2 | e2
        · exact Or.inl e2
        · exact Or.inr (Or.inl e2)
      · exact Or.inr (Or.inr e1)
  · intro x p hxp
    rw [fold_insert_spec] at hxp
    by_cases h1 : (map_at P x).isSome = true
    · rw [if_pos h1] at hxp
      obtain ⟨hs, hp, hd⟩ := h.par x p hxp
      refine ⟨hs, ?_, hd⟩
      rcases hp with e | e
      · exact Or.inl e
      · exact Or.inr ((hdom p).2 (Or.inl e))
    · rw [if_neg h1] at hxp
      by_cases h2 : x ∈ (targets adj node).filter (fun y => decide (y ∉ set_insert E node))
      · rw [if_pos h2] at hxp
        simp only [Option.some.injEq] at hxp
        subst hxp
        obtain ⟨hstep, hxE⟩ := (hnew x).1 h2
        refine ⟨hstep, ?_, ?_⟩
        · rcases hnodeQ with e | e
          · exact Or.inl e
          · exact Or.inr ((hdom node).2 (Or.inl e))
        · have hxs0 : x ≠ s0 := fun e => hxE (e ▸ hs0)
          have hfar : ∀ m, m ≤ g → ¬ Walk adj s0 m x := by
            intro m hm hw
            have hx2 : x ∈ E ∨ x ∈ node :: Q1 ∨ x ∈ Q2 := by
              rcases h.near x m hm hw with e | e
              · exact Or.inl e
              · exact Or.inr (Or.inl e)
            rcases h.sub_dom x hx2 with e | e
            · exact hxs0 e
            · exact h1 e
          obtain ⟨m, hm, hw⟩ := h.q1 node (List.mem_cons_self _ _)
          have hwx : Walk adj s0 (m + 1) x := Walk.tail hw hstep
          have hmg : m = g := by
            by_contra hc
            exact hfar (m + 1) (by omega) hwx
          subst hmg
          refine ⟨m, ⟨hw, ?_⟩, ⟨hwx, ?_⟩⟩
          · intro k hk hwk
            exact hfar (k + 1) (by omega) (Walk.tail hwk hstep)
          · intro k hk hwk
            exact hfar k (by omega) hwk
      · rw [if_neg h2] at hxp
        exact absurd hxp (by simp)
  · intro x hx
    rcases (mem_set_insert E node x).1 hx with e | e
    · exact h.notlast x e
    · rw [e]; exact hne

/-- The loop of `search_bfs` returns, with the empty map when the last
sub-strand cannot be reached and with a sound parents map otherwise. -/
theorem search_bfs_loop_spec (adj : AdjSubVec) (s0 s1 : SubStrand) (hne : s0 ≠ s1) :
    ∀ (fuel g : Nat) (Q1 Q2 E : List SubStrand) (P : PathParents),
      BfsInv adj s0 s1 g Q1 Q2 E P → (∀ x ∈ Q1 ++ Q2, x ∈ bfs_univ adj s0) →
      bfs_potential adj s0 (Q1 ++ Q2) E < fuel →
      ∃ R, search_bfs_loop adj s1 fuel (Q1 ++ Q2) E P = some R ∧ BfsPost adj s0 s1 R := by
  intro fuel
  induction fuel with
  | zero => intro g Q1 Q2 E P _ _ hf; omega
  | succ fuel ih =>
    intro g Q1 Q2 E P hinv huniv hf
    have hmain : ∀ (g : Nat) (node : SubStrand) (Q1 Q2 : List SubStrand),
        BfsInv adj s0 s1 g (node :: Q1) Q2 E P →
        (∀ x ∈ (node :: Q1) ++ Q2, x ∈ bfs_univ adj s0) →
        bfs_potential adj s0 ((node :: Q1) ++ Q2) E < fuel + 1 →
        ∃ R, search_bfs_loop adj s1 (fuel + 1) ((node :: Q1) ++ Q2) E P = some R ∧
          BfsPost adj s0 s1 R := by
      intro g node Q1 Q2 hinv huniv hf
      rw [List.cons_append, search_bfs_loop_succ]
      by_cases hn : node = s1
      · rw [if_pos hn]
        refine ⟨P, rfl, Or.inr ⟨?_, hinv.par⟩⟩
        rcases hinv.sub_dom s1 (Or.inr (Or.inl (hn ▸ List.mem_cons_self _ _))) with e | e
        · exact absurd e.symm hne
        · exact e
      · rw [if_neg hn]
        have hstep := bfsInv_step adj s0 s1 g node Q1 Q2 E P hinv hn
        have hq : Q1 ++ Q2 ++ (targets adj node).filter
            (fun y => decide (y ∉ set_insert E node)) =
            Q1 ++ (Q2 ++ (targets adj node).filter
              (fun y => decide (y ∉ set_insert E node))) := List.append_assoc _ _ _
        rw [hq]
        apply ih g Q1 _ _ _ hstep
        · intro x hx
          rw [← hq] at hx
          rcases List.mem_append.1 hx with e | e
          · exact huniv x (List.mem_cons_of_mem _ e)
          · exact targets_univ adj s0 node x (List.mem_of_mem_filter e)
        · rw [← hq]
          have hdec := potential_decrease adj s0 node (Q1 ++ Q2) E
            ((targets adj node).filter (fun y => decide (y ∉ set_insert E node)))
            (huniv node (List.mem_cons_self _ _))
            (by
              intro y hy
              simpa using (List.mem_filter.1 hy).2)
            (le_trans (List.length_filter_le _ _) (targets_length_le adj node))
          rw [List.cons_append] at hf
          omega
    cases Q1 with
    | cons node Q1 => exact hmain g node Q1 Q2 hinv huniv hf
    | nil =>
      cases Q2 with
      | cons node Q2 =>
        have h2 := bfsInv_resplit adj s0 s1 g (node :: Q2) E P hinv
        have := hmain (g + 1) node Q2 [] h2 (by simpa using huniv) (by simpa using hf)
        simpa using this
      | nil =>
        refine ⟨[], by rw [List.append_nil, search_bfs_loop], Or.inl ⟨rfl, ?_⟩⟩
        have hs0 : s0 ∈ E := by
          rcases hinv.start with e | e
          · exact e
          · simp at e
        have hall : ∀ m y, Walk adj s0 m y → y ∈ E := by
          intro m
          induction m with
          | zero => intro y hw; rw [walk_zero adj s0 y hw]; exact hs0
          | succ m ihm =>
            intro y hw
            obtain ⟨p, hp, hpy⟩ := walk_succ adj s0 y m hw
            rcases hinv.closed p (ihm p hp) y hpy with e | e
            · rw [e]; exact hs0
            · rcases hinv.dom_sub y e with e1 | e1 | e1
              · exact e1
              · simp at e1
              · simp at e1
        intro m hw
        exact hinv.notlast s1 (hall m s1 hw) rfl

/-- The run of `search_bfs` from two distinct sub-strands. -/
theorem search_bfs_spec (adj : AdjSubVec) (s0 s1 : SubStrand) (hne : s0 ≠ s1) :
    ∃ R, search_bfs s0 s1 adj = some R ∧ BfsPost adj s0 s1 R := by
  have := search_bfs_loop_spec adj s0 s1 hne (bfs_fuel adj) 0 [s0] [] [] []
    (bfsInv_init adj s0 s1)
    (by intro x hx; simp only [List.append_nil, List.mem_singleton] at hx
        rw [hx]; exact List.mem_cons_self _ _)
    (by simpa using potential_init adj s0)
  simpa [search_bfs] using this

/-! ## The backtrace over the parents -/

theorem dist_zero (adj : AdjSubVec) (s0 x : SubStrand) (h : Dist adj s0 x 0) : x = s0 :=
  walk_zero adj s0 x h.1

theorem dist_succ_ne (adj : AdjSubVec) (s0 x : SubStrand) (n : Nat)
    (h : Dist adj s0 x (n + 1)) : x ≠ s0 := by
  intro e
  exact h.2 0 (by omega) (e ▸ Walk.refl)

/-- The chain of the parents from a sub-strand at distance `n` back to the start. -/
theorem backChain_exists (adj : AdjSubVec) (s0 : SubStrand) (R : PathParents)
    (hR : ParentsOK adj s0 R) :
    ∀ (n : Nat) (x : SubStrand), Dist adj s0 x n → (x = s0 ∨ (map_at R x).isSome = true) →
      ∃ tl, BackChain R s0 (x :: tl) ∧ tl.length = n ∧
        (∀ y ∈ tl, ∃ m, m < n ∧ Dist adj s0 y m) ∧ (x :: tl).Nodup ∧
        List.Chain' (fun a b => Step adj b a) (x :: tl) ∧ (x :: tl).getLast? = some s0 ∧
        (∀ y ∈ x :: tl, y = s0 ∨ (map_at R y).isSome = true) := by
  intro n
  induction n with
  | zero =>
    intro x hd _
    have hx := dist_zero adj s0 x hd
    subst hx
    exact ⟨[], rfl, rfl, by simp, by simp, by simp, by simp, by simp⟩
  | succ n ih =>
    intro x hd hx
    have hxs := dist_succ_ne adj s0 x n hd
    rcases hx with hx | hx
    · exact absurd hx hxs
    · obtain ⟨p, hp⟩ := Option.isSome_iff_exists.1 hx
      obtain ⟨hstep, hpd, k, hk1, hk2⟩ := hR x p hp
      have hkn : k + 1 = n + 1 := dist_unique adj s0 x _ _ hk2 hd
      have hk : k = n := by omega
      subst hk
      obtain ⟨tl, hbc, hlen, hdist, hnd, hch, hlast, hdom⟩ := ih p hk1 hpd
      have hdist2 : ∀ y ∈ p :: tl, ∃ m, m < k + 1 ∧ Dist adj s0 y m := by
        intro y hy
        rcases List.mem_cons.1 hy with e | e
        · exact ⟨k, by omega, e ▸ hk1⟩
        · obtain ⟨m, hm, hmd⟩ := hdist y e
          exact ⟨m, by omega, hmd⟩
      refine ⟨p :: tl, ⟨hxs, hp, hbc⟩, by simp [hlen], hdist2, ?_, ?_, ?_, ?_⟩
      · rw [List.nodup_cons]
        refine ⟨?_, hnd⟩
        intro hxm
        obtain ⟨m, hm, hmd⟩ := hdist2 x hxm
        have := dist_unique adj s0 x _ _ hmd hd
        omega
      · exact List.Chain'.cons hstep hch
      · rw [List.getLast?_cons_cons]; exact hlast
      · intro y hy
        rcases List.mem_cons.1 hy with e | e
        · exact Or.inr (e ▸ hx)
        · exact hdom y e

theorem backChain_length_le (s0 : SubStrand) (R : PathParents) (bp : List SubStrand)
    (hnd : bp.Nodup) (hdom : ∀ y ∈ bp, y = s0 ∨ (map_at R y).isSome = true) :
    bp.length ≤ R.length + 1 := by
  have hsub : bp ⊆ s0 :: R.map (fun e => e.1) := by
    intro y hy
    rcases hdom y hy with e | e
    · rw [e]; exact List.mem_cons_self _ _
    · obtain ⟨p, hp⟩ := Option.isSome_iff_exists.1 e
      exact List.mem_cons_of_mem _ (List.mem_map.2 ⟨_, map_at_mem R y p hp, rfl⟩)
  have := (hnd.subperm hsub).length_le
  simpa using this

theorem step_data (data : AdjListWithSubData) (adj : AdjSubVec) (hc : AdjConsistent data adj)
    (a b : SubStrand) (h : Step adj b a) :
    (map_at data (SubStrandsPairKey.ofSubs b a)).isSome = true := by
  unfold Step targets at h
  cases hm : map_at adj b with
  | none => rw [hm] at h; simp at h
  | some ks =>
    rw [hm] at h
    simp only [Option.getD_some, List.mem_map] at h
    obtain ⟨k, hk, hka⟩ := h
    obtain ⟨h0, hd⟩ := hc _ (map_at_mem adj b ks hm) k hk
    simp only at h0
    rw [← h0, ← hka, ofSubs_eta]
    exact hd

/-- The loop of `search_backtrace` along a chain of parents. -/
theorem backtrace_loop_spec (data : AdjListWithSubData) (R : PathParents) (s0 : SubStrand) :
    ∀ (tl : List SubStrand) (x : SubStrand), BackChain R s0 (x :: tl) →
      List.Chain' (fun a b => (map_at data (SubStrandsPairKey.ofSubs b a)).isSome = true)
        (x :: tl) →
      ∀ (fuel : Nat) (attr : StrandsPairAttribute), tl.length < fuel →
        search_backtrace_loop data R s0 fuel x attr =
          some { attr with
            jump := attr.jump + tl.length,
            direction := backtrace_direction data attr.direction (x :: tl),
            jumped_substrs := attr.jumped_substrs ++ tl } := by
  intro tl
  induction tl with
  | nil =>
    intro x hbc _ fuel attr hf
    have hx : x = s0 := hbc
    subst hx
    cases fuel with
    | zero => omega
    | succ fuel =>
      rw [search_backtrace_loop, if_pos rfl]
      simp [backtrace_direction]
  | cons y ys ih =>
    intro x hbc hch fuel attr hf
    obtain ⟨hxs, hxy, hbc2⟩ := hbc
    rw [List.chain'_cons] at hch
    obtain ⟨node, hnode⟩ := Option.isSome_iff_exists.1 hch.1
    cases fuel with
    | zero => omega
    | succ fuel =>
      rw [search_backtrace_loop, if_neg hxs]
      simp only [hxy, hnode]
      rw [ih y hbc2 hch.2 fuel _ (by simp only [List.length_cons] at hf; omega)]
      simp only [backtrace_direction, hnode, Option.map_some', Option.getD_some,
        List.length_cons, List.append_assoc, List.singleton_append]
      congr 2
      omega

theorem backtrace_direction_parity (data : AdjListWithSubData) :
    ∀ (bp : List SubStrand) (acc : Bool),
      backtrace_direction data acc bp =
        decide (acc = decide (anti_parallel_edges data bp % 2 = 0)) := by
  intro bp
  induction bp with
  | nil => intro acc; cases acc <;> simp [backtrace_direction, anti_parallel_edges]
  | cons x xs ih =>
    cases xs with
    | nil => intro acc; cases acc <;> simp [backtrace_direction, anti_parallel_edges]
    | cons y ys =>
      intro acc
      rw [backtrace_direction, ih, anti_parallel_edges]
      cases hm : (map_at data (SubStrandsPairKey.ofSubs y x)).map (fun n => n.direction) with
      | none =>
        simp only [Option.getD_none, reduceCtorEq, if_false, Nat.zero_add]
        cases acc <;> simp
      | some d =>
        cases d with
        | true =>
          simp only [Option.getD_some, Option.some.injEq, Bool.true_eq_false, if_false,
            Nat.zero_add]
          cases acc <;> simp
        | false =>
          simp only [Option.getD_some, if_true]
          have hpar : ∀ k : Nat, ((1 + k) % 2 = 0) ↔ ¬ (k % 2 = 0) := by intro k; omega
          cases acc <;> simp [hpar]

/-- The result of `search` for two distinct sub-strands of a consistent index. -/
theorem search_spec (data : AdjListWithSubData) (adj : AdjSubVec) (s0 s1 : SubStrand)
    (hc : AdjConsistent data adj) (hne : s0 ≠ s1) :
    (search data s0 s1 adj = some { ss0 := s0, ss1 := s1 } ∧ ∀ m, ¬ Walk adj s0 m s1) ∨
    (∃ tl n, tl.length = n + 1 ∧ Dist adj s0 s1 (n + 1) ∧ tl.getLast? = some s0 ∧
      (s1 :: tl).Nodup ∧ List.Chain' (fun a b => Step adj b a) (s1 :: tl) ∧
      search data s0 s1 adj = some
        { ss0 := s0, ss1 := s1, reachable := true, jump := n,
          direction := backtrace_direction data true (s1 :: tl), jumped_substrs := tl }) := by
  obtain ⟨R, hR, hpost⟩ := search_bfs_spec adj s0 s1 hne
  rcases hpost with ⟨hnil, hno⟩ | ⟨hdom, hpar⟩
  · left
    refine ⟨?_, hno⟩
    unfold search
    rw [hR, hnil]
    rfl
  · right
    obtain ⟨p, hp⟩ := Option.isSome_iff_exists.1 hdom
    obtain ⟨_, _, n, _, hd⟩ := hpar s1 p hp
    obtain ⟨tl, hbc, hlen, _, hnd, hch, hlast, hdomall⟩ :=
      backChain_exists adj s0 R hpar (n + 1) s1 hd (Or.inr hdom)
    have hbound := backChain_length_le s0 R (s1 :: tl) hnd hdomall
    have hRne : R.length ≠ 0 := by
      intro e
      rw [List.length_eq_zero] at e
      rw [e] at hdom
      simp [map_at] at hdom
    have hlast2 : tl.getLast? = some s0 := by
      cases tl with
      | nil => simp at hlen
      | cons y ys => rw [List.getLast?_cons_cons] at hlast; exact hlast
    refine ⟨tl, n, hlen, hd, hlast2, hnd, hch, ?_⟩
    have hdata : List.Chain'
        (fun a b => (map_at data (SubStrandsPairKey.ofSubs b a)).isSome = true) (s1 :: tl) :=
      List.Chain'.imp (fun a b h => step_data data adj hc a b h) hch
    have hloop := backtrace_loop_spec data R s0 tl s1 hbc hdata (R.length + 1)
      { ss0 := s0, ss1 := s1, reachable := true }
      (by simp only [List.length_cons] at hbound; omega)
    unfold search
    rw [hR]
    simp only [hRne, if_false]
    unfold search_backtrace
    simp only [hloop, Option.map_some', hlen, List.nil_append, Nat.zero_add]
    simp

theorem isPath_of_backward (adj : AdjSubVec) (s0 s1 : SubStrand) (tl : List SubStrand)
    (hlast : (s1 :: tl).getLast? = some s0)
    (hch : List.Chain' (fun a b => Step adj b a) (s1 :: tl)) :
    IsPath adj s0 s1 (s1 :: tl).reverse := by
  refine ⟨?_, ?_, ?_⟩
  · rw [List.head?_reverse]; exact hlast
  · rw [List.getLast?_reverse]; rfl
  · rw [List.chain'_reverse]; exact hch

theorem path_length_ge (adj : AdjSubVec) (s0 s1 : SubStrand) (n : Nat)
    (hd : Dist adj s0 s1 n) (q : List SubStrand) (hq : IsPath adj s0 s1 q) :
    n + 1 ≤ q.length := by
  have hw := walk_of_path adj s0 q s1 hq
  have hpos : 0 < q.length := by
    cases q with
    | nil => simp [IsPath] at hq
    | cons a as => simp
  by_contra hc
  exact hd.2 (q.length - 1) (by omega) hw

theorem path_of_walk (adj : AdjSubVec) (s0 : SubStrand) : ∀ (n : Nat) (x : SubStrand),
    Walk adj s0 n x → ∃ p, IsPath adj s0 x p := by
  intro n
  induction n with
  | zero =>
    intro x hw
    rw [walk_zero adj s0 x hw]
    exact ⟨[s0], rfl, rfl, List.chain'_singleton _⟩
  | succ n ih =>
    intro x hw
    obtain ⟨y, hy, hyx⟩ := walk_succ adj s0 x n hw
    obtain ⟨p, hh, hl, hc⟩ := ih y hy
    refine ⟨p ++ [x], ?_, by simp, ?_⟩
    · cases p with
      | nil => simp at hh
      | cons a as => simpa using hh
    · rw [List.chain'_append]
      refine ⟨hc, List.chain'_singleton _, ?_⟩
      intro a ha b hb
      rw [hl] at ha
      simp only [Option.mem_def, Option.some.injEq] at ha
      simp only [List.head?_cons, Option.mem_def, Option.some.injEq] at hb
      subst ha; subst hb
      exact hyx

theorem search_same (data : AdjListWithSubData) (adj : AdjSubVec) (s : SubStrand) :
    search data s s adj = some { ss0 := s, ss1 := s } := by
  have hb : search_bfs s s adj = some [] := by
    unfold search_bfs bfs_fuel
    rw [search_bfs_loop, if_pos rfl]
  unfold search
  rw [hb]
  rfl

/-- Whatever the edge map holds, a backtrace that returns has followed the
chain of parents. -/
theorem backtrace_loop_result (data : AdjListWithSubData) (R : PathParents) (s0 : SubStrand) :
    ∀ (tl : List SubStrand) (x : SubStrand), BackChain R s0 (x :: tl) →
      ∀ (fuel : Nat) (attr a : StrandsPairAttribute), tl.length < fuel →
        search_backtrace_loop data R s0 fuel x attr = some a →
        a = { attr with
              jump := attr.jump + tl.length,
              direction := backtrace_direction data attr.direction (x :: tl),
              jumped_substrs := attr.jumped_substrs ++ tl } := by
  intro tl
  induction tl with
  | nil =>
    intro x hbc fuel attr a hf h
    have hx : x = s0 := hbc
    subst hx
    cases fuel with
    | zero => omega
    | succ fuel =>
      rw [search_backtrace_loop, if_pos rfl] at h
      simp only [Option.some.injEq] at h
      rw [← h]
      simp [backtrace_direction]
  | cons y ys ih =>
    intro x hbc fuel attr a hf h
    obtain ⟨hxs, hxy, hbc2⟩ := hbc
    cases fuel with
    | zero => omega
    | succ fuel =>
      rw [search_backtrace_loop, if_neg hxs] at h
      simp only [hxy] at h
      cases hnode : map_at data (SubStrandsPairKey.ofSubs y x) with
      | none => rw [hnode] at h; simp at h
      | some node =>
        rw [hnode] at h
        simp only at h
        have hf2 : ys.length < fuel := by simp only [List.length_cons] at hf; omega
        rw [ih y hbc2 fuel _ a hf2 h]
        simp only [backtrace_direction, hnode, Option.map_some', Option.getD_some,
          List.length_cons, List.append_assoc, List.singleton_append]
        have e : attr.jump + 1 + ys.length = attr.jump + (ys.length + 1) := by omega
        rw [e]

/-- The attribute `search` returns, whatever the edge map holds: the default
attribute when the sub-strands are equal or the second one cannot be reached,
and otherwise the attribute of a chain of parents of shortest length. -/
theorem search_result (data : AdjListWithSubData) (adj : AdjSubVec) (s0 s1 : SubStrand)
    (a : StrandsPairAttribute) (h : search data s0 s1 adj = some a) :
    (a = { ss0 := s0, ss1 := s1 } ∧ (s0 = s1 ∨ ∀ m, ¬ Walk adj s0 m s1)) ∨
    (s0 ≠ s1 ∧ ∃ tl n, tl.length = n + 1 ∧ Dist adj s0 s1 (n + 1) ∧ tl.getLast? = some s0 ∧
      (s1 :: tl).Nodup ∧ List.Chain' (fun a b => Step adj b a) (s1 :: tl) ∧
      a = { ss0 := s0, ss1 := s1, reachable := true, jump := n,
            direction := backtrace_direction data true (s1 :: tl), jumped_substrs := tl }) := by
  by_cases hne : s0 = s1
  · subst hne
    rw [search_same] at h
    simp only [Option.some.injEq] at h
    exact Or.inl ⟨h.symm, Or.inl rfl⟩
  · obtain ⟨R, hR, hpost⟩ := search_bfs_spec adj s0 s1 hne
    rcases hpost with ⟨hnil, hno⟩ | ⟨hdom, hpar⟩
    · left
      unfold search at h
      rw [hR, hnil] at h
      simp only [List.length_nil, if_true, Option.some.injEq] at h
      exact ⟨h.symm, Or.inr hno⟩
    · right
      refine ⟨hne, ?_⟩
      obtain ⟨p, hp⟩ := Option.isSome_iff_exists.1 hdom
      obtain ⟨_, _, n, _, hd⟩ := hpar s1 p hp
      obtain ⟨tl, hbc, hlen, _, hnd, hch, hlast, hdomall⟩ :=
        backChain_exists adj s0 R hpar (n + 1) s1 hd (Or.inr hdom)
      have hbound := backChain_length_le s0 R (s1 :: tl) hnd hdomall
      have hRne : R.length ≠ 0 := by
        intro e
        rw [List.length_eq_zero] at e
        rw [e] at hdom
        simp [map_at] at hdom
      have hlast2 : tl.getLast? = some s0 := by
        cases tl with
        | nil => simp at hlen
        | cons y ys => rw [List.getLast?_cons_cons] at hlast; exact hlast
      refine ⟨tl, n, hlen, hd, hlast2, hnd, hch, ?_⟩
      unfold search at h
      rw [hR] at h
      simp only [hRne, if_false] at h
      unfold search_backtrace at h
      simp only [Option.map_eq_some'] at h
      obtain ⟨b, hb, hba⟩ := h
      have hres := backtrace_loop_result data R s0 tl s1 hbc (R.length + 1)
        { ss0 := s0, ss1 := s1, reachable := true } b
        (by simp only [List.length_cons] at hbound; omega) hb
      rw [← hba, hres]
      simp [hlen]

/-- With an index that agrees with the edge map, `search` returns. -/
theorem search_total (data : AdjListWithSubData) (adj : AdjSubVec) (s0 s1 : SubStrand)
    (hc : AdjConsistent data adj) : ∃ a, search data s0 s1 adj = some a := by
  by_cases hne : s0 = s1
  · subst hne
    exact ⟨_, search_same data adj s0⟩
  · rcases search_spec data adj s0 s1 hc hne with ⟨hs, _⟩ | ⟨_, _, _, _, _, _, _, hs⟩
    · exact ⟨_, hs⟩
    · exact ⟨_, hs⟩

/-! ## The attribute returned by `search` -/

theorem chain3_consistent : AdjConsistent chain3 (gen_adj_sub_vec chain3) := by
  unfold AdjConsistent
  decide

/-- C2. For every adjacency index and every two distinct sub-strands, an
attribute returned by `search` reports `reachable` exactly when there is a
directed path from the first to the second sub-strand along the listed keys;
and `search` does return when the index agrees with the edge map. -/
theorem search_reachable_iff (data : AdjListWithSubData) (adj : AdjSubVec) (s0 s1 : SubStrand)
    (hne : s0 ≠ s1) :
    (AdjConsistent data adj → ∃ a, search data s0 s1 adj = some a) ∧
      ∀ a, search data s0 s1 adj = some a →
        (a.reachable = true ↔ ∃ p, IsPath adj s0 s1 p) := by
  refine ⟨fun hc => search_total data adj s0 s1 hc, ?_⟩
  intro a ha
  rcases search_result data adj s0 s1 a ha with ⟨hs, hno⟩ | ⟨_, tl, n, _, hd, _, _, _, hs⟩
  · rw [hs]
    constructor
    · intro h; simp at h
    · rintro ⟨p, hp⟩
      rcases hno with e | e
      · exact absurd e hne
      · exact absurd (walk_of_path adj s0 p s1 hp) (e _)
  · rw [hs]
    constructor
    · intro _
      exact path_of_walk adj s0 _ s1 hd.1
    · intro _; rfl

/-- C2 on the chain 0 -> 1 -> 2: the pair (0, 2) is reachable and the pair
(2, 0) is not. -/
theorem search_reachable_iff_witness :
    ((⟨0, 0⟩ : SubStrand) ≠ ⟨2, 0⟩ ∧ AdjConsistent chain3 (gen_adj_sub_vec chain3)) ∧
      (search chain3 ⟨0, 0⟩ ⟨2, 0⟩ (gen_adj_sub_vec chain3)).map (fun a => a.reachable) =
        some true ∧
      (search chain3 ⟨2, 0⟩ ⟨0, 0⟩ (gen_adj_sub_vec chain3)).map (fun a => a.reachable) =
        some false ∧
      (AdjConsistent chain3 (gen_adj_sub_vec chain3) →
        ∃ a, search chain3 ⟨0, 0⟩ ⟨2, 0⟩ (gen_adj_sub_vec chain3) = some a) ∧
      ∀ a, search chain3 ⟨0, 0⟩ ⟨2, 0⟩ (gen_adj_sub_vec chain3) = some a →
        (a.reachable = true ↔ ∃ p, IsPath (gen_adj_sub_vec chain3) ⟨0, 0⟩ ⟨2, 0⟩ p) :=
  ⟨⟨by decide, chain3_consistent⟩, by decide, by decide,
    search_reachable_iff chain3 (gen_adj_sub_vec chain3) ⟨0, 0⟩ ⟨2, 0⟩ (by decide)⟩

/-- C3. Whenever `search` reports `reachable`, the backtrace has ended at the
first sub-strand (the last entry it pushed), and `jump` is the number of edges
of a shortest directed path minus one: a shortest path `p` visits `jump + 2`
sub-strands, so it has `jump + 1` edges. With an index that agrees with the
edge map `search` returns. -/
theorem search_jump_shortest (data : AdjListWithSubData) (adj : AdjSubVec) (s0 s1 : SubStrand) :
    (AdjConsistent data adj → ∃ a, search data s0 s1 adj = some a) ∧
      ∀ a, search data s0 s1 adj = some a → a.reachable = true →
        a.jumped_substrs.getLast? = some s0 ∧
        ∃ p, IsPath adj s0 s1 p ∧ (∀ q, IsPath adj s0 s1 q → p.length ≤ q.length) ∧
          a.jump + 2 = p.length ∧ a.jump = (p.length - 1) - 1 := by
  refine ⟨fun hc => search_total data adj s0 s1 hc, ?_⟩
  intro a ha hr
  rcases search_result data adj s0 s1 a ha with ⟨hs, _⟩ | ⟨_, tl, n, hlen, hd, hlast, _, hch, hs⟩
  · rw [hs] at hr; simp at hr
  · rw [hs]
    refine ⟨hlast, (s1 :: tl).reverse, ?_, ?_, ?_, ?_⟩
    · apply isPath_of_backward adj s0 s1 tl _ hch
      cases tl with
      | nil => simp at hlen
      | cons y ys => rw [List.getLast?_cons_cons]; exact hlast
    · intro q hq
      have := path_length_ge adj s0 s1 (n + 1) hd q hq
      simp only [List.length_reverse, List.length_cons, hlen]
      omega
    · simp [hlen]
    · simp [hlen]

/-- C3 on the chain 0 -> 1 -> 2: `jump` is 0 for the direct successor (0, 1)
and 1 for the pair (0, 2). -/
theorem search_jump_shortest_witness :
    (search chain3 ⟨0, 0⟩ ⟨1, 0⟩ (gen_adj_sub_vec chain3)).map (fun a => a.jump) = some 0 ∧
      (search chain3 ⟨0, 0⟩ ⟨2, 0⟩ (gen_adj_sub_vec chain3)).map
        (fun a => (a.reachable, a.jump)) = some (true, 1) ∧
      (AdjConsistent chain3 (gen_adj_sub_vec chain3) →
        ∃ a, search chain3 ⟨0, 0⟩ ⟨2, 0⟩ (gen_adj_sub_vec chain3) = some a) ∧
      ∀ a, search chain3 ⟨0, 0⟩ ⟨2, 0⟩ (gen_adj_sub_vec chain3) = some a →
        a.reachable = true →
          a.jumped_substrs.getLast? = some ⟨0, 0⟩ ∧
          ∃ p, IsPath (gen_adj_sub_vec chain3) ⟨0, 0⟩ ⟨2, 0⟩ p ∧
            (∀ q, IsPath (gen_adj_sub_vec chain3) ⟨0, 0⟩ ⟨2, 0⟩ q → p.length ≤ q.length) ∧
            a.jump + 2 = p.length ∧ a.jump = (p.length - 1) - 1 :=
  ⟨by decide, by decide,
    search_jump_shortest chain3 (gen_adj_sub_vec chain3) ⟨0, 0⟩ ⟨2, 0⟩⟩

/-- C4. Whenever `search` reports `reachable`, the backward list made of the
second sub-strand followed by `jumped_substrs` is, reversed, a directed path
from the first to the second sub-strand, and `direction` is the accumulation
along it that starts from parallel and flips at every anti-parallel edge:
`direction` is parallel exactly when the path has an even number of
anti-parallel edges. With an index that agrees with the edge map `search`
returns. -/
theorem search_direction_parity (data : AdjListWithSubData) (adj : AdjSubVec)
    (s0 s1 : SubStrand) :
    (AdjConsistent data adj → ∃ a, search data s0 s1 adj = some a) ∧
      ∀ a, search data s0 s1 adj = some a → a.reachable = true →
        IsPath adj s0 s1 (s1 :: a.jumped_substrs).reverse ∧
        a.direction = backtrace_direction data true (s1 :: a.jumped_substrs) ∧
        (a.direction = true ↔ Even (anti_parallel_edges data (s1 :: a.jumped_substrs))) := by
  refine ⟨fun hc => search_total data adj s0 s1 hc, ?_⟩
  intro a ha hr
  rcases search_result data adj s0 s1 a ha with ⟨hs, _⟩ | ⟨_, tl, n, hlen, hd, hlast, _, hch, hs⟩
  · rw [hs] at hr; simp at hr
  · rw [hs]
    refine ⟨?_, rfl, ?_⟩
    · apply isPath_of_backward adj s0 s1 tl _ hch
      cases tl with
      | nil => simp at hlen
      | cons y ys => rw [List.getLast?_cons_cons]; exact hlast
    · simp only [backtrace_direction_parity, Nat.even_iff]
      simp

/-- C4 on the chain 0 -> 1 -> 2, whose second edge is anti-parallel: the
direction of the pair (0, 2) is anti-parallel. -/
theorem search_direction_parity_witness :
    (search chain3 ⟨0, 0⟩ ⟨2, 0⟩ (gen_adj_sub_vec chain3)).map
        (fun a => (a.reachable, a.direction)) = some (true, false) ∧
      (AdjConsistent chain3 (gen_adj_sub_vec chain3) →
        ∃ a, search chain3 ⟨0, 0⟩ ⟨2, 0⟩ (gen_adj_sub_vec chain3) = some a) ∧
      ∀ a, search chain3 ⟨0, 0⟩ ⟨2, 0⟩ (gen_adj_sub_vec chain3) = some a →
        a.reachable = true →
          IsPath (gen_adj_sub_vec chain3) ⟨0, 0⟩ ⟨2, 0⟩
            ((⟨2, 0⟩ : SubStrand) :: a.jumped_substrs).reverse ∧
          a.direction = backtrace_direction chain3 true (⟨2, 0⟩ :: a.jumped_substrs) ∧
          (a.direction = true ↔
            Even (anti_parallel_edges chain3 (⟨2, 0⟩ :: a.jumped_substrs))) :=
  ⟨by decide, search_direction_parity chain3 (gen_adj_sub_vec chain3) ⟨0, 0⟩ ⟨2, 0⟩⟩

/-- C5, as amended. Whenever `search` reports `reachable`, `jumped_substrs`
lists the sub-strands of the found path from the one before the second
sub-strand back to the first sub-strand: it excludes the second sub-strand,
ends with the first one, has no repetition, and its length is `jump + 1`; for
directly adjacent sub-strands it is the first sub-strand alone. With an index
that agrees with the edge map `search` returns. -/
theorem search_jumped_substrs (data : AdjListWithSubData) (adj : AdjSubVec)
    (s0 s1 : SubStrand) :
    (AdjConsistent data adj → ∃ a, search data s0 s1 adj = some a) ∧
      ∀ a, search data s0 s1 adj = some a → a.reachable = true →
        IsPath adj s0 s1 (s1 :: a.jumped_substrs).reverse ∧
        a.jumped_substrs.getLast? = some s0 ∧ s1 ∉ a.jumped_substrs ∧
        a.jumped_substrs.Nodup ∧ a.jumped_substrs.length = a.jump + 1 ∧
        (a.jump = 0 → a.jumped_substrs = [s0]) := by
  refine ⟨fun hc => search_total data adj s0 s1 hc, ?_⟩
  intro a ha hr
  rcases search_result data adj s0 s1 a ha with ⟨hs, _⟩ | ⟨_, tl, n, hlen, hd, hlast, hnd, hch, hs⟩
  · rw [hs] at hr; simp at hr
  · rw [hs]
    refine ⟨?_, hlast, (List.nodup_cons.1 hnd).1, (List.nodup_cons.1 hnd).2, hlen, ?_⟩
    · apply isPath_of_backward adj s0 s1 tl _ hch
      cases tl with
      | nil => simp at hlen
      | cons y ys => rw [List.getLast?_cons_cons]; exact hlast
    · intro hn
      simp only at hn
      subst hn
      cases tl with
      | nil => simp at hlen
      | cons y ys =>
        cases ys with
        | nil => simpa using hlast
        | cons z zs => simp at hlen

/-- C5 as amended, on the chain 0 -> 1 -> 2: the pair (0, 2) jumps over the
sub-strand 1 and `jumped_substrs` is 1 followed by 0. -/
theorem search_jumped_substrs_witness :
    (search chain3 ⟨0, 0⟩ ⟨2, 0⟩ (gen_adj_sub_vec chain3)).map
        (fun a => (a.reachable, a.jumped_substrs)) = some (true, [⟨1, 0⟩, ⟨0, 0⟩]) ∧
      (AdjConsistent chain3 (gen_adj_sub_vec chain3) →
        ∃ a, search chain3 ⟨0, 0⟩ ⟨2, 0⟩ (gen_adj_sub_vec chain3) = some a) ∧
      ∀ a, search chain3 ⟨0, 0⟩ ⟨2, 0⟩ (gen_adj_sub_vec chain3) = some a →
        a.reachable = true →
          IsPath (gen_adj_sub_vec chain3) ⟨0, 0⟩ ⟨2, 0⟩
            ((⟨2, 0⟩ : SubStrand) :: a.jumped_substrs).reverse ∧
          a.jumped_substrs.getLast? = some ⟨0, 0⟩ ∧ (⟨2, 0⟩ : SubStrand) ∉ a.jumped_substrs ∧
          a.jumped_substrs.Nodup ∧ a.jumped_substrs.length = a.jump + 1 ∧
          (a.jump = 0 → a.jumped_substrs = [⟨0, 0⟩]) :=
  ⟨by decide, search_jumped_substrs chain3 (gen_adj_sub_vec chain3) ⟨0, 0⟩ ⟨2, 0⟩⟩

/-- C5 fails as stated. On the chain 0 -> 1 -> 2, `search` reports the directly
adjacent pair (0, 1) reachable with `jump = 0`, and `jumped_substrs` is not
empty: it holds the endpoint 0, so its length 1 differs from `jump`. -/
theorem search_jumped_substrs_counterexample :
    search chain3 ⟨0, 0⟩ ⟨1, 0⟩ (gen_adj_sub_vec chain3) =
        some { ss0 := ⟨0, 0⟩, ss1 := ⟨1, 0⟩, reachable := true, jump := 0, direction := true,
               jumped_substrs := [⟨0, 0⟩] } ∧
      ¬ (∀ a, search chain3 ⟨0, 0⟩ ⟨1, 0⟩ (gen_adj_sub_vec chain3) = some a →
          a.reachable = true →
            (⟨0, 0⟩ : SubStrand) ∉ a.jumped_substrs ∧ a.jumped_substrs.length = a.jump ∧
              a.jumped_substrs = []) := by
  refine ⟨by decide, ?_⟩
  intro h
  have h2 := h { ss0 := ⟨0, 0⟩, ss1 := ⟨1, 0⟩, reachable := true, jump := 0, direction := true,
                 jumped_substrs := [⟨0, 0⟩] } (by decide) rfl
  simp at h2

/-! ## Members of a sheet -/

theorem mem_set_insert_all (xs s : List SubStrand) (x : SubStrand) :
    x ∈ set_insert_all s xs ↔ x ∈ s ∨ x ∈ xs := by
  unfold set_insert_all
  induction xs generalizing s with
  | nil => simp
  | cons y ys ih =>
    rw [List.foldl_cons, ih, mem_set_insert]
    simp only [List.mem_cons]
    tauto

theorem add_jump_member (sh : Sheet) (pair : SubStrandsPairKey) (jump : Nat) :
    (sh.add_jump pair jump).member_substr = sh.member_substr := by
  unfold Sheet.add_jump
  split_ifs <;> rfl

theorem mem_add (sh : Sheet) (pair : SubStrandsPairKey) (attr : StrandsPairAttribute)
    (x : SubStrand) :
    x ∈ (sh.add pair attr).member_substr ↔
      x ∈ sh.member_substr ∨ x = pair.sub0 ∨ x = pair.sub1 ∨ x ∈ attr.jumped_substrs := by
  unfold Sheet.add
  rw [add_jump_member]
  simp only [mem_set_insert_all, mem_set_insert]
  tauto

theorem mem_merge (sh other : Sheet) (x : SubStrand) :
    x ∈ (sh.merge other).member_substr ↔ x ∈ sh.member_substr ∨ x ∈ other.member_substr := by
  unfold Sheet.merge
  rw [add_jump_member]
  simp only [mem_set_insert_all]

theorem common_iff (a b : List SubStrand) : common a b = true ↔ ∃ x, x ∈ a ∧ x ∈ b := by
  unfold common
  simp

theorem not_common_iff (a b : Sheet) :
    ¬ common a.member_substr b.member_substr = true ↔ Disj a b := by
  rw [common_iff]
  unfold Disj
  push_neg
  rfl

theorem disj_symm (a b : Sheet) (h : Disj a b) : Disj b a :=
  fun x hb ha => h x ha hb

/-! ## The merging of sheets -/

theorem inner_of_disj : ∀ (rest : List Sheet) (cur : Sheet), (∀ s ∈ rest, Disj cur s) →
    reconstruct_inner cur rest = (cur, rest) := by
  intro rest
  induction rest with
  | nil => intro cur _; rfl
  | cons s ss ih =>
    intro cur h
    have hs : ¬ common cur.member_substr s.member_substr = true :=
      (not_common_iff cur s).2 (h s (List.mem_cons_self _ _))
    rw [reconstruct_inner, if_neg hs, ih cur (fun t ht => h t (List.mem_cons_of_mem _ ht))]

theorem inner_append : ∀ (l1 l2 : List Sheet) (cur : Sheet),
    reconstruct_inner cur (l1 ++ l2) =
      ((reconstruct_inner (reconstruct_inner cur l1).1 l2).1,
        (reconstruct_inner cur l1).2 ++ (reconstruct_inner (reconstruct_inner cur l1).1 l2).2) := by
  intro l1
  induction l1 with
  | nil => intro l2 cur; simp [reconstruct_inner]
  | cons s ss ih =>
    intro l2 cur
    rw [List.cons_append, reconstruct_inner]
    split_ifs with h
    · rw [ih, reconstruct_inner, if_pos h]
    · rw [ih, reconstruct_inner, if_neg h]
      simp

/-- The inner loop on later sheets that are pairwise disjoint: the sheets kept
are disjoint from the merged sheet and from one another. -/
theorem inner_spec : ∀ (rest : List Sheet) (cur : Sheet), SheetsDisjoint rest →
    SheetsDisjoint (reconstruct_inner cur rest).2 ∧
      (∀ s ∈ (reconstruct_inner cur rest).2, s ∈ rest) ∧
      (∀ s ∈ (reconstruct_inner cur rest).2, Disj (reconstruct_inner cur rest).1 s) ∧
      (∀ x ∈ (reconstruct_inner cur rest).1.member_substr,
        x ∈ cur.member_substr ∨ ∃ s ∈ rest, x ∈ s.member_substr) := by
  intro rest
  induction rest with
  | nil =>
    intro cur _
    simp only [reconstruct_inner]
    exact ⟨List.Pairwise.nil, fun s hs => hs, fun s hs => absurd hs (List.not_mem_nil _),
      fun x hx => Or.inl hx⟩
  | cons s ss ih =>
    intro cur hd
    have hd2 : SheetsDisjoint ss := (List.pairwise_cons.1 hd).2
    have hs : ∀ t ∈ ss, Disj s t := (List.pairwise_cons.1 hd).1
    rw [reconstruct_inner]
    split_ifs with h
    · obtain ⟨h1, h2, h3, h4⟩ := ih (cur.merge s) hd2
      refine ⟨h1, fun t ht => List.mem_cons_of_mem _ (h2 t ht), h3, ?_⟩
      intro x hx
      rcases h4 x hx with e | ⟨t, ht, hxt⟩
      · rcases (mem_merge cur s x).1 e with e1 | e1
        · exact Or.inl e1
        · exact Or.inr ⟨s, List.mem_cons_self _ _, e1⟩
      · exact Or.inr ⟨t, List.mem_cons_of_mem _ ht, hxt⟩
    · obtain ⟨h1, h2, h3, h4⟩ := ih cur hd2
      simp only
      refine ⟨?_, ?_, ?_, ?_⟩
      · unfold SheetsDisjoint
        rw [List.pairwise_cons]
        exact ⟨fun t ht => hs t (h2 t ht), h1⟩
      · intro t ht
        rcases List.mem_cons.1 ht with e | e
        · rw [e]; exact List.mem_cons_self _ _
        · exact List.mem_cons_of_mem _ (h2 t e)
      · intro t ht
        rcases List.mem_cons.1 ht with e | e
        · subst e
          intro x hx hxt
          rcases h4 x hx with e1 | ⟨u, hu, hxu⟩
          · exact h ((common_iff _ _).2 ⟨x, e1, hxt⟩)
          · exact hs u hu x hxt hxu
        · exact h3 t e
      · intro x hx
        rcases h4 x hx with e | ⟨t, ht, hxt⟩
        · exact Or.inl e
        · exact Or.inr ⟨t, List.mem_cons_of_mem _ ht, hxt⟩

theorem inner_length : ∀ (rest : List Sheet) (cur : Sheet),
    (reconstruct_inner cur rest).2.length ≤ rest.length := by
  intro rest
  induction rest with
  | nil => intro cur; simp [reconstruct_inner]
  | cons s ss ih =>
    intro cur
    rw [reconstruct_inner]
    split_ifs
    · have := ih (cur.merge s); simp only [List.length_cons]; omega
    · have := ih cur; simp only [List.length_cons]; omega

theorem outer_of_disj : ∀ (fuel : Nat) (L : List Sheet), SheetsDisjoint L →
    reconstruct_outer fuel L = L := by
  intro fuel
  induction fuel with
  | zero => intro L _; rfl
  | succ fuel ih =>
    intro L hd
    cases L with
    | nil => rfl
    | cons s ss =>
      rw [reconstruct_outer, inner_of_disj ss s (List.pairwise_cons.1 hd).1]
      simp only
      rw [ih ss (List.pairwise_cons.1 hd).2]

/-- Every member of a sheet after `reconstruct` was a member of a sheet before. -/
theorem outer_members : ∀ (fuel : Nat) (L : List Sheet),
    ∀ t ∈ reconstruct_outer fuel L, ∀ x ∈ t.member_substr, ∃ s ∈ L, x ∈ s.member_substr := by
  intro fuel
  induction fuel with
  | zero => intro L t ht x hx; exact ⟨t, ht, hx⟩
  | succ fuel ih =>
    intro L
    cases L with
    | nil => intro t ht; simp [reconstruct_outer] at ht
    | cons s ss =>
      intro t ht x hx
      rw [reconstruct_outer] at ht
      have hin : ∀ (rest : List Sheet) (cur : Sheet),
          (∀ y ∈ (reconstruct_inner cur rest).1.member_substr,
            y ∈ cur.member_substr ∨ ∃ u ∈ rest, y ∈ u.member_substr) ∧
          (∀ u ∈ (reconstruct_inner cur rest).2, u ∈ rest) := by
        intro rest
        induction rest with
        | nil => intro cur; simp [reconstruct_inner]
        | cons r rs ihr =>
          intro cur
          rw [reconstruct_inner]
          split_ifs
          · obtain ⟨h1, h2⟩ := ihr (cur.merge r)
            refine ⟨?_, fun u hu => List.mem_cons_of_mem _ (h2 u hu)⟩
            intro y hy
            rcases h1 y hy with e | ⟨u, hu, hyu⟩
            · rcases (mem_merge cur r y).1 e with e1 | e1
              · exact Or.inl e1
              · exact Or.inr ⟨r, List.mem_cons_self _ _, e1⟩
            · exact Or.inr ⟨u, List.mem_cons_of_mem _ hu, hyu⟩
          · obtain ⟨h1, h2⟩ := ihr cur
            refine ⟨?_, ?_⟩
            · intro y hy
              rcases h1 y hy with e | ⟨u, hu, hyu⟩
              · exact Or.inl e
              · exact Or.inr ⟨u, List.mem_cons_of_mem _ hu, hyu⟩
            · intro u hu
              rcases List.mem_cons.1 hu with e | e
              · rw [e]; exact List.mem_cons_self _ _
              · exact List.mem_cons_of_mem _ (h2 u e)
      rcases List.mem_cons.1 ht with e | e
      · subst e
        rcases (hin ss s).1 x hx with e1 | ⟨u, hu, hxu⟩
        · exact ⟨s, List.mem_cons_self _ _, e1⟩
        · exact ⟨u, List.mem_cons_of_mem _ hu, hxu⟩
      · obtain ⟨u, hu, hxu⟩ := ih _ t e x hx
        exact ⟨u, List.mem_cons_of_mem _ ((hin ss s).2 u hu), hxu⟩

/-- Every sheet before `reconstruct` lies within a sheet after it. -/
theorem outer_covers : ∀ (fuel : Nat) (L : List Sheet), L.length ≤ fuel →
    Covers L (reconstruct_outer fuel L) := by
  intro fuel
  induction fuel with
  | zero => intro L _ s hs; exact ⟨s, hs, fun x hx => hx⟩
  | succ fuel ih =>
    intro L hlen
    cases L with
    | nil => intro s hs; simp at hs
    | cons s ss =>
      have hin : ∀ (rest : List Sheet) (cur : Sheet),
          (∀ y ∈ cur.member_substr, y ∈ (reconstruct_inner cur rest).1.member_substr) ∧
          (∀ u ∈ rest, (∀ y ∈ u.member_substr,
            y ∈ (reconstruct_inner cur rest).1.member_substr) ∨
              u ∈ (reconstruct_inner cur rest).2) := by
        intro rest
        induction rest with
        | nil => intro cur; simp [reconstruct_inner]
        | cons r rs ihr =>
          intro cur
          rw [reconstruct_inner]
          split_ifs
          · obtain ⟨h1, h2⟩ := ihr (cur.merge r)
            refine ⟨fun y hy => h1 y ((mem_merge cur r y).2 (Or.inl hy)), ?_⟩
            intro u hu
            rcases List.mem_cons.1 hu with e | e
            · subst e
              exact Or.inl (fun y hy => h1 y ((mem_merge cur u y).2 (Or.inr hy)))
            · exact h2 u e
          · obtain ⟨h1, h2⟩ := ihr cur
            refine ⟨h1, ?_⟩
            intro u hu
            rcases List.mem_cons.1 hu with e | e
            · subst e
              exact Or.inr (List.mem_cons_self _ _)
            · rcases h2 u e with e1 | e1
              · exact Or.inl e1
              · exact Or.inr (List.mem_cons_of_mem _ e1)
      have hl2 : (reconstruct_inner s ss).2.length ≤ fuel := by
        have := inner_length ss s
        simp only [List.length_cons] at hlen
        omega
      intro t ht
      rw [reconstruct_outer]
      rcases List.mem_cons.1 ht with e | e
      · subst e
        exact ⟨_, List.mem_cons_self _ _, (hin ss t).1⟩
      · rcases (hin ss s).2 t e with e1 | e1
        · exact ⟨_, List.mem_cons_self _ _, e1⟩
        · obtain ⟨u, hu, hsub⟩ := ih _ hl2 t e1
          exact ⟨u, List.mem_cons_of_mem _ hu, hsub⟩

/-- After one sheet `X` of a disjoint collection has grown, `reconstruct` makes
the collection disjoint again when at most one earlier sheet meets `X`. -/
theorem outer_disjoint_after : ∀ (A : List Sheet) (X : Sheet) (B : List Sheet) (fuel : Nat),
    SheetsDisjoint (A ++ B) →
    A.Pairwise (fun a1 a2 => ¬ (¬ Disj a1 X ∧ ¬ Disj a2 X)) →
    (A ++ X :: B).length ≤ fuel →
    SheetsDisjoint (reconstruct_outer fuel (A ++ X :: B)) := by
  intro A
  induction A with
  | nil =>
    intro X B fuel hd _ hlen
    cases fuel with
    | zero => simp at hlen
    | succ fuel =>
      simp only [List.nil_append] at hd ⊢
      rw [reconstruct_outer]
      obtain ⟨h1, _, h3, _⟩ := inner_spec B X hd
      rw [outer_of_disj fuel _ h1]
      unfold SheetsDisjoint
      rw [List.pairwise_cons]
      exact ⟨h3, h1⟩
  | cons a A ih =>
    intro X B fuel hd hone hlen
    cases fuel with
    | zero => simp only [List.length_append, List.length_cons] at hlen; omega
    | succ fuel =>
      have hd1 : ∀ t ∈ A ++ B, Disj a t := (List.pairwise_cons.1 hd).1
      have hd2 : SheetsDisjoint (A ++ B) := (List.pairwise_cons.1 hd).2
      have hone1 := (List.pairwise_cons.1 hone).1
      have hone2 := (List.pairwise_cons.1 hone).2
      rw [List.cons_append, reconstruct_outer]
      by_cases haX : Disj a X
      · have hall : ∀ s ∈ A ++ X :: B, Disj a s := by
          intro s hs
          rcases List.mem_append.1 hs with e | e
          · exact hd1 s (List.mem_append_left _ e)
          · rcases List.mem_cons.1 e with e1 | e1
            · rw [e1]; exact haX
            · exact hd1 s (List.mem_append_right _ e1)
        rw [inner_of_disj _ a hall]
        simp only
        have hrec := ih X B fuel hd2 hone2
          (by simp only [List.cons_append, List.length_cons, List.length_append] at hlen ⊢; omega)
        unfold SheetsDisjoint
        rw [List.pairwise_cons]
        refine ⟨?_, hrec⟩
        intro t ht x hxa hxt
        obtain ⟨s, hs, hxs⟩ := outer_members fuel _ t ht x hxt
        exact hall s hs x hxa hxs
      · have hA : ∀ s ∈ A, Disj s X := by
          intro s hs
          by_contra hc
          exact hone1 s hs ⟨haX, hc⟩
        have hcom : common a.member_substr X.member_substr = true := by
          by_contra hc
          exact haX ((not_common_iff a X).1 hc)
        have hBd : SheetsDisjoint B := (List.pairwise_append.1 hd2).2.1
        have hAd : SheetsDisjoint A := (List.pairwise_append.1 hd2).1
        have hAB : ∀ s ∈ A, ∀ t ∈ B, Disj s t := (List.pairwise_append.1 hd2).2.2
        rw [inner_append, inner_of_disj A a (fun s hs => hd1 s (List.mem_append_left _ hs))]
        simp only
        rw [reconstruct_inner, if_pos hcom]
        obtain ⟨h1, h2, h3, h4⟩ := inner_spec B (a.merge X) hBd
        have hrest : SheetsDisjoint (A ++ (reconstruct_inner (a.merge X) B).2) := by
          unfold SheetsDisjoint
          rw [List.pairwise_append]
          exact ⟨hAd, h1, fun s hs t ht => hAB s hs t (h2 t ht)⟩
        rw [outer_of_disj fuel _ hrest]
        unfold SheetsDisjoint
        rw [List.pairwise_cons]
        refine ⟨?_, hrest⟩
        intro t ht
        rcases List.mem_append.1 ht with e | e
        · intro x hx hxt
          rcases h4 x hx with e1 | ⟨u, hu, hxu⟩
          · rcases (mem_merge a X x).1 e1 with e2 | e2
            · exact hd1 t (List.mem_append_left _ e) x e2 hxt
            · exact hA t e x hxt e2
          · exact hAB t e u hu x hxt hxu
        · exact h3 t e

theorem conn_trans (adj : AdjSubVec) (a b c : SubStrand) (h1 : Conn adj a b)
    (h2 : Conn adj b c) : Conn adj a c :=
  Relation.TransGen.trans h1 h2

theorem uedge_symm (adj : AdjSubVec) (a b : SubStrand) (h : UEdge adj a b) : UEdge adj b a :=
  Or.symm h

theorem conn_symm (adj : AdjSubVec) (a b : SubStrand) (h : Conn adj a b) : Conn adj b a := by
  unfold Conn at h ⊢
  induction h with
  | single h1 => exact Relation.TransGen.single (uedge_symm adj _ _ h1)
  | tail _ h2 ih => exact Relation.TransGen.head (uedge_symm adj _ _ h2) ih

theorem merge_conn (adj : AdjSubVec) (a b : Sheet) (ha : SheetConn adj a)
    (hb : SheetConn adj b) (hc : common a.member_substr b.member_substr = true) :
    SheetConn adj (a.merge b) := by
  obtain ⟨c, hca, hcb⟩ := (common_iff _ _).1 hc
  intro x hx y hy
  rcases (mem_merge a b x).1 hx with e1 | e1 <;> rcases (mem_merge a b y).1 hy with e2 | e2
  · exact ha x e1 y e2
  · exact conn_trans adj _ _ _ (ha x e1 c hca) (hb c hcb y e2)
  · exact conn_trans adj _ _ _ (hb x e1 c hcb) (ha c hca y e2)
  · exact hb x e1 y e2

theorem inner_conn (adj : AdjSubVec) : ∀ (rest : List Sheet) (cur : Sheet),
    SheetConn adj cur → (∀ s ∈ rest, SheetConn adj s) →
    SheetConn adj (reconstruct_inner cur rest).1 ∧
      ∀ s ∈ (reconstruct_inner cur rest).2, SheetConn adj s := by
  intro rest
  induction rest with
  | nil => intro cur hc _; simp [reconstruct_inner, hc]
  | cons r rs ih =>
    intro cur hc hr
    rw [reconstruct_inner]
    split_ifs with h
    · exact ih (cur.merge r)
        (merge_conn adj cur r hc (hr r (List.mem_cons_self _ _)) h)
        (fun s hs => hr s (List.mem_cons_of_mem _ hs))
    · obtain ⟨h1, h2⟩ := ih cur hc (fun s hs => hr s (List.mem_cons_of_mem _ hs))
      refine ⟨h1, ?_⟩
      intro s hs
      rcases List.mem_cons.1 hs with e | e
      · rw [e]; exact hr r (List.mem_cons_self _ _)
      · exact h2 s e

theorem outer_conn (adj : AdjSubVec) : ∀ (fuel : Nat) (L : List Sheet),
    (∀ s ∈ L, SheetConn adj s) → ∀ t ∈ reconstruct_outer fuel L, SheetConn adj t := by
  intro fuel
  induction fuel with
  | zero => intro L h t ht; exact h t ht
  | succ fuel ih =>
    intro L h
    cases L with
    | nil => intro t ht; simp [reconstruct_outer] at ht
    | cons s ss =>
      obtain ⟨h1, h2⟩ := inner_conn adj ss s (h s (List.mem_cons_self _ _))
        (fun u hu => h u (List.mem_cons_of_mem _ hu))
      intro t ht
      rw [reconstruct_outer] at ht
      rcases List.mem_cons.1 ht with e | e
      · rw [e]; exact h1
      · exact ih _ h2 t e

/-! ## One call of `Sheets::add` -/

theorem find_sheet_none : ∀ (L : List Sheet) (J : List SubStrand), find_sheet L J = none →
    ∀ a ∈ L, ¬ common a.member_substr J = true := by
  intro L
  induction L with
  | nil => intro J _ a ha; simp at ha
  | cons s ss ih =>
    intro J h a ha
    rw [find_sheet] at h
    split_ifs at h with hc
    simp only [Option.map_eq_none'] at h
    rcases List.mem_cons.1 ha with e | e
    · rw [e]; exact hc
    · exact ih J h a e

theorem find_sheet_some : ∀ (L : List Sheet) (J : List SubStrand) (i : Nat),
    find_sheet L J = some i →
    ∃ A X0 B, L = A ++ X0 :: B ∧ A.length = i ∧ common X0.member_substr J = true ∧
      ∀ a ∈ A, ¬ common a.member_substr J = true := by
  intro L
  induction L with
  | nil => intro J i h; simp [find_sheet] at h
  | cons s ss ih =>
    intro J i h
    rw [find_sheet] at h
    split_ifs at h with hc
    · simp only [Option.some.injEq] at h
      exact ⟨[], s, ss, rfl, by simpa using h, hc, by simp⟩
    · simp only [Option.map_eq_some'] at h
      obtain ⟨j, hj, hji⟩ := h
      obtain ⟨A, X0, B, hL, hlen, hX, hA⟩ := ih J j hj
      refine ⟨s :: A, X0, B, by rw [hL]; rfl, by simp only [List.length_cons]; omega, hX, ?_⟩
      intro a ha
      rcases List.mem_cons.1 ha with e | e
      · rw [e]; exact hc
      · exact hA a e

theorem modify_at_append (f : Sheet → Sheet) : ∀ (A : List Sheet) (X0 : Sheet) (B : List Sheet),
    modify_at f A.length (A ++ X0 :: B) = A ++ f X0 :: B := by
  intro A
  induction A with
  | nil => intro X0 B; rfl
  | cons a A ih =>
    intro X0 B
    rw [List.cons_append, List.length_cons, modify_at, ih, List.cons_append]

/-- The sheet a call of `Sheets::add` updates, the sheets before it and the
sheets after it. -/
theorem add_decomp (S : List Sheet) (key : SubStrandsPairKey) (attr : StrandsPairAttribute) :
    ∃ A X0 B, (A ++ X0 :: B = S ∨ (A = S ∧ X0 = ({} : Sheet) ∧ B = [])) ∧
      (∀ a ∈ A, ¬ common a.member_substr attr.jumped_substrs = true) ∧
      (X0.member_substr = [] ∨ common X0.member_substr attr.jumped_substrs = true) ∧
      Sheets.add S key attr =
        reconstruct_outer (A ++ X0.add key attr :: B).length (A ++ X0.add key attr :: B) := by
  unfold Sheets.add
  cases h : find_sheet S attr.jumped_substrs with
  | none =>
    refine ⟨S, {}, [], Or.inr ⟨rfl, rfl, rfl⟩, find_sheet_none S _ h, Or.inl rfl, ?_⟩
    simp only [modify_at_append, reconstruct]
  | some i =>
    obtain ⟨A, X0, B, hL, hlen, hX, hA⟩ := find_sheet_some S _ i h
    refine ⟨A, X0, B, Or.inl hL.symm, hA, Or.inr hX, ?_⟩
    simp only [hL, ← hlen, modify_at_append, reconstruct]

/-- One call of `Sheets::add` with an attribute whose `jumped_substrs` holds the
first sub-strand of the key and whose sub-strands are joined to one another:
the sheets stay disjoint and joined, no two sub-strands of one sheet are
separated, and the sub-strands of the key end in one sheet. -/
theorem add_invariant (adj : AdjSubVec) (S : List Sheet) (key : SubStrandsPairKey)
    (attr : StrandsPairAttribute) (hS : SheetsDisjoint S) (hconn : ∀ s ∈ S, SheetConn adj s)
    (h0 : key.sub0 ∈ attr.jumped_substrs)
    (hpath : ∀ x y, (x = key.sub0 ∨ x = key.sub1 ∨ x ∈ attr.jumped_substrs) →
      (y = key.sub0 ∨ y = key.sub1 ∨ y ∈ attr.jumped_substrs) → Conn adj x y) :
    SheetsDisjoint (Sheets.add S key attr) ∧ (∀ s ∈ Sheets.add S key attr, SheetConn adj s) ∧
      Covers S (Sheets.add S key attr) ∧ SameSheet (Sheets.add S key attr) key.sub0 key.sub1 := by
  obtain ⟨A, X0, B, hS2, hA, hX0, hadd⟩ := add_decomp S key attr
  have hdis : SheetsDisjoint (A ++ X0 :: B) := by
    rcases hS2 with e | ⟨e1, e2, e3⟩
    · rw [e]; exact hS
    · subst e1; subst e2; subst e3
      unfold SheetsDisjoint
      rw [List.pairwise_append]
      refine ⟨hS, List.pairwise_singleton _ _, ?_⟩
      intro a _ b hb x _ hxb
      simp only [List.mem_singleton] at hb
      rw [hb] at hxb
      simp at hxb
  have hmemS : ∀ s, s ∈ S → s ∈ A ++ X0 :: B := by
    intro s hs
    rcases hS2 with e | ⟨e1, _, _⟩
    · rw [e]; exact hs
    · rw [e1]; exact List.mem_append_left _ hs
  have hconn2 : ∀ s ∈ A ++ X0 :: B, SheetConn adj s := by
    intro s hs
    rcases hS2 with e | ⟨e1, e2, e3⟩
    · rw [e] at hs; exact hconn s hs
    · subst e1; subst e2; subst e3
      rcases List.mem_append.1 hs with e | e
      · exact hconn s e
      · simp only [List.mem_singleton] at e
        rw [e]
        intro a ha
        simp at ha
  have hAd : SheetsDisjoint A := (List.pairwise_append.1 hdis).1
  have hAX0 : ∀ a ∈ A, Disj a X0 := fun a ha =>
    (List.pairwise_append.1 hdis).2.2 a ha X0 (List.mem_cons_self _ _)
  have hAB : SheetsDisjoint (A ++ B) := by
    unfold SheetsDisjoint at hdis ⊢
    rw [List.pairwise_append] at hdis ⊢
    exact ⟨hdis.1, (List.pairwise_cons.1 hdis.2.1).2,
      fun a ha b hb => hdis.2.2 a ha b (List.mem_cons_of_mem _ hb)⟩
  have hmeet : ∀ a ∈ A, ¬ Disj a (X0.add key attr) → key.sub1 ∈ a.member_substr := by
    intro a ha hnd
    unfold Disj at hnd
    push_neg at hnd
    obtain ⟨x, hxa, hxX⟩ := hnd
    have hJ : ∀ y, y ∈ a.member_substr → y ∉ attr.jumped_substrs := by
      intro y hy hyJ
      exact hA a ha ((common_iff _ _).2 ⟨y, hy, hyJ⟩)
    rcases (mem_add X0 key attr x).1 hxX with e | e | e | e
    · exact absurd e (hAX0 a ha x hxa)
    · exact absurd (e ▸ h0) (hJ x hxa)
    · exact e ▸ hxa
    · exact absurd e (hJ x hxa)
  have hone : A.Pairwise (fun a1 a2 =>
      ¬ (¬ Disj a1 (X0.add key attr) ∧ ¬ Disj a2 (X0.add key attr))) := by
    apply List.Pairwise.imp_of_mem _ hAd
    intro a1 a2 h1 h2 hd hboth
    exact hd key.sub1 (hmeet a1 h1 hboth.1) (hmeet a2 h2 hboth.2)
  have hconnX : SheetConn adj (X0.add key attr) := by
    intro x hx y hy
    have hX0c : SheetConn adj X0 := hconn2 X0 (List.mem_append_right _ (List.mem_cons_self _ _))
    have hlink : ∀ z ∈ X0.member_substr, ∀ w,
        (w = key.sub0 ∨ w = key.sub1 ∨ w ∈ attr.jumped_substrs) →
        Conn adj z w ∧ Conn adj w z := by
      intro z hz w hw
      rcases hX0 with e | e
      · rw [e] at hz; simp at hz
      · obtain ⟨c, hc1, hc2⟩ := (common_iff _ _).1 e
        exact ⟨conn_trans adj _ _ _ (hX0c z hz c hc1) (hpath c w (Or.inr (Or.inr hc2)) hw),
          conn_trans adj _ _ _ (hpath w c hw (Or.inr (Or.inr hc2))) (hX0c c hc1 z hz)⟩
    rcases (mem_add X0 key attr x).1 hx with e1 | e1 <;>
      rcases (mem_add X0 key attr y).1 hy with e2 | e2
    · exact hX0c x e1 y e2
    · exact (hlink x e1 y e2).1
    · exact (hlink y e2 x e1).2
    · exact hpath x y e1 e2
  have hcov : Covers (A ++ X0 :: B) (Sheets.add S key attr) := by
    have h1 : Covers (A ++ X0 :: B) (A ++ X0.add key attr :: B) := by
      intro s hs
      rcases List.mem_append.1 hs with e | e
      · exact ⟨s, List.mem_append_left _ e, fun x hx => hx⟩
      · rcases List.mem_cons.1 e with e1 | e1
        · exact ⟨X0.add key attr, List.mem_append_right _ (List.mem_cons_self _ _),
            fun x hx => (mem_add X0 key attr x).2 (Or.inl (e1 ▸ hx))⟩
        · exact ⟨s, List.mem_append_right _ (List.mem_cons_of_mem _ e1), fun x hx => hx⟩
    have h2 := outer_covers (A ++ X0.add key attr :: B).length (A ++ X0.add key attr :: B)
      (le_refl _)
    intro s hs
    obtain ⟨t, ht, hst⟩ := h1 s hs
    obtain ⟨u, hu, htu⟩ := h2 t ht
    rw [hadd]
    exact ⟨u, hu, fun x hx => htu x (hst x hx)⟩
  refine ⟨?_, ?_, ?_, ?_⟩
  · rw [hadd]
    exact outer_disjoint_after A (X0.add key attr) B _ hAB hone (le_refl _)
  · rw [hadd]
    apply outer_conn adj
    intro s hs
    rcases List.mem_append.1 hs with e | e
    · exact hconn2 s (List.mem_append_left _ e)
    · rcases List.mem_cons.1 e with e1 | e1
      · rw [e1]; exact hconnX
      · exact hconn2 s (List.mem_append_right _ (List.mem_cons_of_mem _ e1))
  · intro s hs
    exact hcov s (hmemS s hs)
  · obtain ⟨u, hu, hsub⟩ := outer_covers (A ++ X0.add key attr :: B).length
      (A ++ X0.add key attr :: B) (le_refl _) (X0.add key attr)
      (List.mem_append_right _ (List.mem_cons_self _ _))
    rw [hadd]
    exact ⟨u, hu, hsub _ ((mem_add X0 key attr _).2 (Or.inr (Or.inl rfl))),
      hsub _ ((mem_add X0 key attr _).2 (Or.inr (Or.inr (Or.inl rfl))))⟩

/-! ## The index generated from the edge map -/

theorem adj_push_spec (key : SubStrandsPairKey) (keys : List SubStrandsPairKey) :
    ∀ (adj : AdjSubVec), (∀ e ∈ adj, ∀ k ∈ e.2, k.sub0 = e.1 ∧ k ∈ keys) →
      ∀ e ∈ adj_push adj key.sub0 key, ∀ k ∈ e.2, k.sub0 = e.1 ∧ (k ∈ keys ∨ k = key) := by
  intro adj
  induction adj with
  | nil =>
    intro _ e he k hk
    simp only [adj_push, List.mem_singleton] at he
    subst he
    simp only [List.mem_singleton] at hk
    subst hk
    exact ⟨rfl, Or.inr rfl⟩
  | cons a as ih =>
    intro h e he k hk
    rw [adj_push] at he
    split_ifs at he with ha
    · rcases List.mem_cons.1 he with e1 | e1
      · subst e1
        simp only [List.mem_append, List.mem_singleton] at hk
        rcases hk with hk | hk
        · exact ⟨(h a (List.mem_cons_self _ _) k hk).1,
            Or.inl (h a (List.mem_cons_self _ _) k hk).2⟩
        · subst hk
          exact ⟨ha.symm, Or.inr rfl⟩
      · exact ⟨(h e (List.mem_cons_of_mem _ e1) k hk).1,
          Or.inl (h e (List.mem_cons_of_mem _ e1) k hk).2⟩
    · rcases List.mem_cons.1 he with e1 | e1
      · subst e1
        exact ⟨(h e (List.mem_cons_self _ _) k hk).1,
          Or.inl (h e (List.mem_cons_self _ _) k hk).2⟩
      · exact ih (fun e2 he2 => h e2 (List.mem_cons_of_mem _ he2)) e e1 k hk

theorem gen_adj_spec (data : AdjListWithSubData) :
    ∀ e ∈ gen_adj_sub_vec data, ∀ k ∈ e.2, k.sub0 = e.1 ∧ k ∈ data.map (fun d => d.1) := by
  induction data using List.reverseRecOn with
  | nil => intro e he; simp [gen_adj_sub_vec] at he
  | append_singleton ds d ih =>
    intro e he k hk
    have hstep : gen_adj_sub_vec (ds ++ [d]) = adj_push (gen_adj_sub_vec ds) d.1.sub0 d.1 := by
      simp [gen_adj_sub_vec, List.foldl_append]
    rw [hstep] at he
    obtain ⟨h1, h2⟩ := adj_push_spec d.1 (ds.map (fun d => d.1)) (gen_adj_sub_vec ds) ih e he k hk
    refine ⟨h1, ?_⟩
    simp only [List.map_append, List.map_cons, List.map_nil, List.mem_append,
      List.mem_singleton]
    exact h2

theorem map_at_isSome {K V : Type} [DecidableEq K] (m : List (K × V)) (x : K)
    (h : x ∈ m.map (fun e => e.1)) : (map_at m x).isSome = true := by
  induction m with
  | nil => simp at h
  | cons e es ih =>
    rw [map_at]
    split_ifs with he
    · rfl
    · simp only [List.map_cons, List.mem_cons] at h
      rcases h with h | h
      · exact absurd h.symm he
      · exact ih h

theorem gen_adj_consistent (data : AdjListWithSubData) :
    AdjConsistent data (gen_adj_sub_vec data) := by
  intro e he k hk
  obtain ⟨h1, h2⟩ := gen_adj_spec data e he k hk
  exact ⟨h1, map_at_isSome data k h2⟩

theorem step_gen_adj (data : AdjListWithSubData) (a b : SubStrand)
    (h : Step (gen_adj_sub_vec data) a b) : ∃ d ∈ data, d.1.sub0 = a ∧ d.1.sub1 = b := by
  unfold Step targets at h
  cases hm : map_at (gen_adj_sub_vec data) a with
  | none => rw [hm] at h; simp at h
  | some ks =>
    rw [hm] at h
    simp only [Option.getD_some, List.mem_map] at h
    obtain ⟨k, hk, hkb⟩ := h
    obtain ⟨h0, hd⟩ := gen_adj_spec data _ (map_at_mem _ a ks hm) k hk
    rw [List.mem_map] at hd
    obtain ⟨d, hd1, hd2⟩ := hd
    exact ⟨d, hd1, by rw [hd2]; exact h0, by rw [hd2]; exact hkb⟩

/-! ## The loop of `init_sheets` -/

theorem chain_conn (adj : AdjSubVec) : ∀ (l : List SubStrand), 2 ≤ l.length →
    List.Chain' (fun a b => Step adj b a) l → ∀ x ∈ l, ∀ y ∈ l, Conn adj x y := by
  intro l
  induction l with
  | nil => intro h; simp at h
  | cons a as ih =>
    intro hlen hch
    cases as with
    | nil => simp at hlen
    | cons b bs =>
      have hab : Conn adj a b := Relation.TransGen.single (Or.inr (List.chain'_cons.1 hch).1)
      have hba : Conn adj b a := conn_symm adj a b hab
      have haa : Conn adj a a := conn_trans adj _ _ _ hab hba
      have hbb : Conn adj b b := conn_trans adj _ _ _ hba hab
      have htail : ∀ x ∈ b :: bs, ∀ y ∈ b :: bs, Conn adj x y := by
        cases bs with
        | nil =>
          intro x hx y hy
          simp only [List.mem_singleton] at hx hy
          rw [hx, hy]; exact hbb
        | cons c cs =>
          exact ih (by simp) (List.chain'_cons.1 hch).2
      have hbm : b ∈ b :: bs := List.mem_cons_self _ _
      intro x hx y hy
      rcases List.mem_cons.1 hx with e1 | e1 <;> rcases List.mem_cons.1 hy with e2 | e2
      · rw [e1, e2]; exact haa
      · rw [e1]; exact conn_trans adj _ _ _ hab (htail b hbm y e2)
      · rw [e2]; exact conn_trans adj _ _ _ (htail x e1 b hbm) hba
      · exact htail x e1 y e2

theorem sameSheet_covers (S T : List Sheet) (a b : SubStrand) (h : SameSheet S a b)
    (hc : Covers S T) : SameSheet T a b := by
  obtain ⟨sh, hsh, ha, hb⟩ := h
  obtain ⟨t, ht, hsub⟩ := hc sh hsh
  exact ⟨t, ht, hsub a ha, hsub b hb⟩

theorem covers_trans (S T U : List Sheet) (h1 : Covers S T) (h2 : Covers T U) : Covers S U := by
  intro s hs
  obtain ⟨t, ht, hst⟩ := h1 s hs
  obtain ⟨u, hu, htu⟩ := h2 t ht
  exact ⟨u, hu, fun x hx => htu x (hst x hx)⟩

/-- The loop of `init_sheets` from a collection of disjoint, joined sheets. -/
theorem init_sheets_loop_spec (data : AdjListWithSubData) (adj : AdjSubVec)
    (hc : AdjConsistent data adj) :
    ∀ (pairs : List (SubStrand × SubStrand)) (S : List Sheet), SheetsDisjoint S →
      (∀ s ∈ S, SheetConn adj s) →
      ∃ T, init_sheets_loop data adj pairs S = some T ∧ SheetsDisjoint T ∧
        (∀ s ∈ T, SheetConn adj s) ∧ Covers S T ∧
        ∀ pr ∈ pairs, pr.1 ≠ pr.2 → (∃ p, IsPath adj pr.1 pr.2 p) → SameSheet T pr.1 pr.2 := by
  intro pairs
  induction pairs with
  | nil =>
    intro S hS hconn
    exact ⟨S, rfl, hS, hconn, fun s hs => ⟨s, hs, fun x hx => hx⟩,
      fun pr hpr => absurd hpr (List.not_mem_nil _)⟩
  | cons pr rest ih =>
    intro S hS hconn
    rw [init_sheets_loop]
    by_cases heq : pr.1 = pr.2
    · have hs : search data pr.1 pr.2 adj = some { ss0 := pr.1, ss1 := pr.2 } := by
        have := search_same data adj pr.1
        rw [← heq]; exact this
      rw [hs]
      simp only [Bool.false_eq_true, if_false]
      obtain ⟨T, hT, hd, hcn, hcov, hpairs⟩ := ih S hS hconn
      refine ⟨T, hT, hd, hcn, hcov, ?_⟩
      intro q hq hne hp
      rcases List.mem_cons.1 hq with e | e
      · rw [e] at hne; exact absurd heq hne
      · exact hpairs q e hne hp
    · rcases search_spec data adj pr.1 pr.2 hc heq with
        ⟨hs, hno⟩ | ⟨tl, n, hlen, hd, hlast, hnd, hch, hs⟩
      · rw [hs]
        simp only [Bool.false_eq_true, if_false]
        obtain ⟨T, hT, hd, hcn, hcov, hpairs⟩ := ih S hS hconn
        refine ⟨T, hT, hd, hcn, hcov, ?_⟩
        intro q hq hne hp
        rcases List.mem_cons.1 hq with e | e
        · obtain ⟨p, hp⟩ := hp
          rw [e] at hp
          exact absurd (walk_of_path adj pr.1 p pr.2 hp) (hno _)
        · exact hpairs q e hne hp
      · rw [hs]
        simp only [if_true]
        have hall : ∀ x y, (x = pr.1 ∨ x = pr.2 ∨ x ∈ tl) → (y = pr.1 ∨ y = pr.2 ∨ y ∈ tl) →
            Conn adj x y := by
          have hs0 : pr.1 ∈ tl := List.mem_of_mem_getLast? hlast
          have hcc := chain_conn adj (pr.2 :: tl) (by simp only [List.length_cons]; omega) hch
          have hm : ∀ x, (x = pr.1 ∨ x = pr.2 ∨ x ∈ tl) → x ∈ pr.2 :: tl := by
            intro x hx
            rcases hx with e | e | e
            · rw [e]; exact List.mem_cons_of_mem _ hs0
            · rw [e]; exact List.mem_cons_self _ _
            · exact List.mem_cons_of_mem _ e
          intro x y hx hy
          exact hcc x (hm x hx) y (hm y hy)
        obtain ⟨h1, h2, h3, h4⟩ := add_invariant adj S (SubStrandsPairKey.ofSubs pr.1 pr.2)
          { ss0 := pr.1, ss1 := pr.2, reachable := true, jump := n,
            direction := backtrace_direction data true (pr.2 :: tl), jumped_substrs := tl }
          hS hconn (List.mem_of_mem_getLast? hlast) hall
        obtain ⟨T, hT, hd2, hcn, hcov, hpairs⟩ := ih _ h1 h2
        refine ⟨T, hT, hd2, hcn, covers_trans _ _ _ h3 hcov, ?_⟩
        intro q hq hne hp
        rcases List.mem_cons.1 hq with e | e
        · rw [e]
          exact sameSheet_covers _ _ _ _ h4 hcov
        · exact hpairs q e hne hp

theorem sheets_of_one : ∀ (S : List Sheet), SheetsDisjoint S → ∀ (x : SubStrand),
    (∃ sh ∈ S, x ∈ sh.member_substr) → sheets_of S x = 1 := by
  intro S
  induction S with
  | nil => intro _ x h; obtain ⟨sh, hsh, _⟩ := h; simp at hsh
  | cons s ss ih =>
    intro hd x h
    have hd1 := (List.pairwise_cons.1 hd).1
    have hd2 := (List.pairwise_cons.1 hd).2
    unfold sheets_of at ih ⊢
    by_cases hx : x ∈ s.member_substr
    · have hnone : ss.filter (fun sh => decide (x ∈ sh.member_substr)) = [] := by
        rw [List.filter_eq_nil_iff]
        intro t ht
        simpa using hd1 t ht x hx
      simp [List.filter_cons, hx, hnone]
    · obtain ⟨sh, hsh, hxs⟩ := h
      have hsh2 : sh ∈ ss := by
        rcases List.mem_cons.1 hsh with e | e
        · rw [e] at hxs; exact absurd hxs hx
        · exact e
      simp only [List.filter_cons, hx, decide_False, Bool.false_eq_true, if_false]
      exact ih hd2 x ⟨sh, hsh2, hxs⟩

theorem sameSheet_trans (S : List Sheet) (hS : SheetsDisjoint S) (a b c : SubStrand)
    (h1 : SameSheet S a b) (h2 : SameSheet S b c) : SameSheet S a c := by
  obtain ⟨s, hs, ha, hb⟩ := h1
  obtain ⟨t, ht, hb2, hc⟩ := h2
  by_cases hst : s = t
  · subst hst
    exact ⟨s, hs, ha, hc⟩
  · exfalso
    have hsym : Symmetric Disj := fun x y h => disj_symm x y h
    exact List.Pairwise.forall hsym hS hs ht hst b hb hb2

/-- C6. Starting from an empty collection and adding, in the order of
`init_sheets`, every pair that `search` reports reachable with the attribute
`search` returns: after any number of pairs the loop returns, no sub-strand is
a member of two sheets, and both sub-strands of every pair added so far are
members of exactly one sheet. -/
theorem init_sheets_disjoint (data : AdjListWithSubData) (vec : List SubStrand) (n : Nat) :
    ∃ S, init_sheets_loop data (gen_adj_sub_vec data) ((index_pairs vec).take n) [] = some S ∧
      SheetsDisjoint S ∧
      ∀ pr ∈ (index_pairs vec).take n, ∀ a,
        search data pr.1 pr.2 (gen_adj_sub_vec data) = some a → a.reachable = true →
          sheets_of S pr.1 = 1 ∧ sheets_of S pr.2 = 1 := by
  have hc := gen_adj_consistent data
  obtain ⟨T, hT, hd, _, _, hpairs⟩ := init_sheets_loop_spec data (gen_adj_sub_vec data) hc
    ((index_pairs vec).take n) [] List.Pairwise.nil (fun s hs => absurd hs (List.not_mem_nil _))
  refine ⟨T, hT, hd, ?_⟩
  intro pr hpr a ha hr
  have hne : pr.1 ≠ pr.2 := by
    intro e
    have hs := search_same data (gen_adj_sub_vec data) pr.2
    rw [e, hs] at ha
    simp only [Option.some.injEq] at ha
    rw [← ha] at hr
    simp at hr
  have hpath : ∃ p, IsPath (gen_adj_sub_vec data) pr.1 pr.2 p := by
    rcases search_spec data (gen_adj_sub_vec data) pr.1 pr.2 hc hne with
      ⟨hs, _⟩ | ⟨tl, m, _, hdist, _, _, _, _⟩
    · rw [hs] at ha
      simp only [Option.some.injEq] at ha
      rw [← ha] at hr
      simp at hr
    · exact path_of_walk _ _ _ _ hdist.1
  obtain ⟨sh, hsh, h1, h2⟩ := hpairs pr hpr hne hpath
  exact ⟨sheets_of_one T hd pr.1 ⟨sh, hsh, h1⟩, sheets_of_one T hd pr.2 ⟨sh, hsh, h2⟩⟩

/-- C6 on the triangle with a tail: after all 25 ordered pairs there is one
sheet, with the five sub-strands as members. -/
theorem init_sheets_disjoint_witness :
    (init_sheets_loop tailed_triangle (gen_adj_sub_vec tailed_triangle)
        ((index_pairs five_substrands).take 25) []).map
          (fun S => S.map (fun sh => sh.member_substr)) = some [five_substrands] ∧
      ∃ S, init_sheets_loop tailed_triangle (gen_adj_sub_vec tailed_triangle)
          ((index_pairs five_substrands).take 25) [] = some S ∧
        SheetsDisjoint S ∧
        ∀ pr ∈ (index_pairs five_substrands).take 25, ∀ a,
          search tailed_triangle pr.1 pr.2 (gen_adj_sub_vec tailed_triangle) = some a →
            a.reachable = true → sheets_of S pr.1 = 1 ∧ sheets_of S pr.2 = 1 :=
  ⟨by decide, init_sheets_disjoint tailed_triangle five_substrands 25⟩

/-- C7. When no key joins a sub-strand to itself and the index vector holds the
sub-strands of every key, `init_sheets` returns from its loop over the pairs,
and afterwards two sub-strands are members of one sheet exactly when they are
joined in the undirected graph under the directed adjacency: each sheet is one
connected component. -/
theorem init_sheets_components (data : AdjListWithSubData) (vec : List SubStrand)
    (hself : ∀ d ∈ data, d.1.sub0 ≠ d.1.sub1)
    (hvec : ∀ d ∈ data, d.1.sub0 ∈ vec ∧ d.1.sub1 ∈ vec) :
    ∃ S, init_sheets_added data vec = some S ∧
      ∀ a b, SameSheet S a b ↔ Conn (gen_adj_sub_vec data) a b := by
  have hc := gen_adj_consistent data
  obtain ⟨T, hT, hd, hcn, _, hpairs⟩ := init_sheets_loop_spec data (gen_adj_sub_vec data) hc
    (index_pairs vec) [] List.Pairwise.nil (fun s hs => absurd hs (List.not_mem_nil _))
  refine ⟨T, hT, ?_⟩
  have hstep : ∀ a b, Step (gen_adj_sub_vec data) a b → SameSheet T a b := by
    intro a b hab
    obtain ⟨d, hdm, h0, h1⟩ := step_gen_adj data a b hab
    have hne : a ≠ b := by rw [← h0, ← h1]; exact hself d hdm
    have hmem : (a, b) ∈ index_pairs vec := by
      unfold index_pairs
      rw [List.mem_flatMap]
      refine ⟨a, by rw [← h0]; exact (hvec d hdm).1, ?_⟩
      rw [List.mem_map]
      exact ⟨b, by rw [← h1]; exact (hvec d hdm).2, rfl⟩
    apply hpairs (a, b) hmem hne
    refine ⟨[a, b], rfl, rfl, ?_⟩
    simp only [List.chain'_cons, List.chain'_singleton, and_true]
    exact hab
  have hsymm : ∀ a b, SameSheet T a b → SameSheet T b a := by
    rintro a b ⟨s, hs, ha, hb⟩
    exact ⟨s, hs, hb, ha⟩
  have hedge : ∀ a b, UEdge (gen_adj_sub_vec data) a b → SameSheet T a b := by
    intro a b hab
    rcases hab with e | e
    · exact hstep a b e
    · exact hsymm b a (hstep b a e)
  intro a b
  constructor
  · rintro ⟨s, hs, ha, hb⟩
    exact hcn s hs a ha b hb
  · intro h
    unfold Conn at h
    induction h with
    | single h1 => exact hedge _ _ h1
    | tail _ h2 ih => exact sameSheet_trans T hd _ _ _ ih (hedge _ _ h2)

/-- C7 on the chain 0 -> 1 -> 2 with the separate edge 4 -> 3: the loop leaves
two sheets, one per connected component. -/
theorem init_sheets_components_witness :
    ((∀ d ∈ two_chains, d.1.sub0 ≠ d.1.sub1) ∧
      (∀ d ∈ two_chains, d.1.sub0 ∈ five_substrands ∧ d.1.sub1 ∈ five_substrands)) ∧
      (init_sheets_added two_chains five_substrands).map
          (fun S => S.map (fun sh => sh.member_substr)) =
        some [[⟨0, 0⟩, ⟨1, 0⟩, ⟨2, 0⟩], [⟨4, 0⟩, ⟨3, 0⟩]] ∧
      ∃ S, init_sheets_added two_chains five_substrands = some S ∧
        ∀ a b, SameSheet S a b ↔ Conn (gen_adj_sub_vec two_chains) a b :=
  ⟨⟨by decide, by decide⟩, by decide,
    init_sheets_components two_chains five_substrands (by decide) (by decide)⟩

/-- C16. For every non-empty vector of edge keys, each joining two distinct
sub-strands, the key set `check_undirected` fills is not empty (its first
assertion holds), the function returns, and it returns true if and only if
some key of the vector has its reverse key, a different key, in the vector as
well. The same holds for the loop run over the key set in any iteration
order. -/
theorem check_undirected_iff (v : SubStrandsPairKeyVec) (hne : v ≠ [])
    (hd : ∀ k ∈ v, k.sub0 ≠ k.sub1) :
    (v.foldl key_set_insert []).length ≠ 0 ∧
      (∃ b, check_undirected v = some b ∧
        (b = true ↔ ∃ k ∈ v, k.reverse ∈ v ∧ k.reverse ≠ k)) ∧
      ∀ order : List SubStrandsPairKey, (∀ k, k ∈ order ↔ k ∈ v) →
        ∃ b, check_undirected_loop (order.length + 1) [] order false = some b ∧
          (b = true ↔ ∃ k ∈ v, k.reverse ∈ v ∧ k.reverse ≠ k) := by
  have hrev : (∃ k ∈ v, k.reverse ∈ v) ↔ ∃ k ∈ v, k.reverse ∈ v ∧ k.reverse ≠ k := by
    constructor
    · rintro ⟨k, hk, hr⟩
      refine ⟨k, hk, hr, ?_⟩
      intro he
      apply hd k hk
      have h0 := congrArg SubStrandsPairKey.sub0 he
      simpa [SubStrandsPairKey.reverse, SubStrandsPairKey.sub0, SubStrandsPairKey.sub1,
        eq_comm] using h0
    · rintro ⟨k, hk, hr, _⟩
      exact ⟨k, hk, hr⟩
  refine ⟨?_, ?_, ?_⟩
  · obtain ⟨x, xs, rfl⟩ := List.exists_cons_of_ne_nil hne
    intro h0
    have hx : x ∈ (x :: xs).foldl key_set_insert [] := by
      rw [key_set_foldl_mem]; simp
    rw [List.length_eq_zero.1 h0] at hx
    simp at hx
  · obtain ⟨b, hb, hiff⟩ := check_undirected_spec v
    exact ⟨b, hb, hiff.trans hrev⟩
  · intro order hmem
    obtain ⟨b, hb, hiff⟩ := check_undirected_loop_spec v (order.length + 1) [] order false
      (by omega) (by intro k hk; simp at hk) (by intro k hk; simpa [hmem] using hk)
      (by intro hf; cases hf) (by intro _ k hk; simpa [hmem] using hk)
    exact ⟨b, hb, hiff.trans hrev⟩

/-- C16 on the vector holding an edge and its reverse. -/
theorem check_undirected_iff_witness :
    (reverse_pair.map (fun e => e.1)) ≠ [] ∧
      (∀ k ∈ reverse_pair.map (fun e => e.1), k.sub0 ≠ k.sub1) ∧
      check_undirected (reverse_pair.map (fun e => e.1)) = some true ∧
      ((reverse_pair.map (fun e => e.1)).foldl key_set_insert []).length ≠ 0 :=
  ⟨by decide, by decide, by decide,
    (check_undirected_iff (reverse_pair.map (fun e => e.1)) (by decide) (by decide)).1⟩

/-- C17 fails on the code. The edge map holding one pair of mutually reverse
edges between the sub-strands 0 and 1 gives one sheet with these two members;
`finish` marks it undirected, `FindCycle` reports no cycle for it (a cycle has
at least three sub-strands), so `has_cycle` is false and the condition
asserted at the end of `Sheet::finish` is false. -/
theorem finish_undirected_without_cycle :
    ((init_sheets_added reverse_pair [⟨0, 0⟩, ⟨1, 0⟩]).bind
        (fun sheets => Sheets.cycle_check sheets reverse_pair)).map
      (fun sheets => sheets.map (fun sh =>
        (sh.member_substr, sh.cycles_vec, sh.is_undirected, sh.with_cycle, finish_assertion sh))) =
      some [([⟨0, 0⟩, ⟨1, 0⟩], [], true, false, false)] := by
  decide

/-! ## `AdjListWithSub::cleanup` -/

theorem map_at_filter_key {K V : Type} [DecidableEq K] (p : K → Bool) :
    ∀ (m : List (K × V)) (k : K),
      map_at (m.filter (fun e => p e.1)) k = if p k = true then map_at m k else none := by
  intro m
  induction m with
  | nil => intro k; simp [map_at]
  | cons e rest ih =>
    intro k
    by_cases hp : p e.1 = true
    · rw [List.filter_cons_of_pos (by simpa using hp)]
      simp only [map_at]
      by_cases he : e.1 = k
      · subst he; simp [hp]
      · simp only [he, if_false]; exact ih k
    · rw [List.filter_cons_of_neg (by simpa using hp)]
      simp only [map_at]
      by_cases he : e.1 = k
      · subst he; rw [ih]; simp [hp]
      · simp only [he, if_false]; exact ih k

theorem map_at_erase {K V : Type} [DecidableEq K] (m : List (K × V)) (x k : K) :
    map_at (map_erase m x) k = if k = x then none else map_at m k := by
  unfold map_erase
  rw [map_at_filter_key (fun a => decide (a ≠ x)) m k]
  by_cases h : k = x <;> simp [h]

theorem reverse_reverse (k : SubStrandsPairKey) : k.reverse.reverse = k := rfl

theorem eraseIdx_eq_filter : ∀ (l : List SubStrandsPairKey) (i : Nat) (x : SubStrandsPairKey),
    l.Nodup → l.get? i = some x → l.eraseIdx i = l.filter (fun k => decide (k ≠ x)) := by
  intro l
  induction l with
  | nil => intro i x _ h; simp at h
  | cons a rest ih =>
    intro i x hnd h
    have hnd2 := List.nodup_cons.1 hnd
    cases i with
    | zero =>
      have hax : a = x := by simpa using h
      subst hax
      simp only [List.eraseIdx_cons_zero]
      rw [List.filter_cons_of_neg (by simp)]
      symm
      rw [List.filter_eq_self]
      intro k hk
      have : k ≠ a := fun he => hnd2.1 (he ▸ hk)
      simpa using this
    | succ i =>
      have hx : rest.get? i = some x := by simpa using h
      have hmem : x ∈ rest := List.get?_mem hx
      have hne : a ≠ x := fun he => hnd2.1 (he ▸ hmem)
      simp only [List.eraseIdx_cons_succ]
      rw [List.filter_cons_of_pos (by simpa using hne), ih i x hnd2.2 hx]

theorem take_eraseIdx_le : ∀ (l : List SubStrandsPairKey) (i d : Nat),
    i ≤ d → (l.eraseIdx d).take i = l.take i := by
  intro l
  induction l with
  | nil => intro i d _; simp
  | cons a rest ih =>
    intro i d h
    cases i with
    | zero => simp
    | succ i =>
      cases d with
      | zero => omega
      | succ d =>
        simp only [List.eraseIdx_cons_succ, List.take_succ_cons]
        rw [ih i d (by omega)]

theorem get?_eraseIdx_lt : ∀ (l : List SubStrandsPairKey) (i d : Nat),
    i < d → (l.eraseIdx d).get? i = l.get? i := by
  intro l
  induction l with
  | nil => intro i d _; simp
  | cons a rest ih =>
    intro i d h
    cases d with
    | zero => omega
    | succ d =>
      cases i with
      | zero => simp
      | succ i =>
        simp only [List.eraseIdx_cons_succ, List.get?_cons_succ]
        exact ih i d (by omega)

theorem indexOf_of_get? : ∀ (l : List SubStrandsPairKey) (i : Nat) (x : SubStrandsPairKey),
    l.Nodup → l.get? i = some x → l.indexOf x = i := by
  intro l
  induction l with
  | nil => intro i x _ h; simp at h
  | cons a rest ih =>
    intro i x hnd h
    have hnd2 := List.nodup_cons.1 hnd
    cases i with
    | zero =>
      have hax : a = x := by simpa using h
      subst hax
      simp
    | succ i =>
      have hx : rest.get? i = some x := by simpa using h
      have hne : a ≠ x := fun he => hnd2.1 (he ▸ List.get?_mem hx)
      rw [List.indexOf_cons_ne _ hne, ih i x hnd2.2 hx]

theorem get?_indexOf_mem : ∀ (l : List SubStrandsPairKey) (x : SubStrandsPairKey),
    x ∈ l → l.get? (l.indexOf x) = some x := by
  intro l
  induction l with
  | nil => intro x h; simp at h
  | cons a rest ih =>
    intro x h
    by_cases hax : a = x
    · subst hax; simp
    · rw [List.indexOf_cons_ne _ hax]
      have : x ∈ rest := by
        rcases List.mem_cons.1 h with h | h
        · exact absurd h.symm hax
        · exact h
      simpa using ih x this

theorem mem_take_of_get? : ∀ (l : List SubStrandsPairKey) (i n : Nat) (x : SubStrandsPairKey),
    l.get? i = some x → i < n → x ∈ l.take n := by
  intro l
  induction l with
  | nil => intro i n x h; simp at h
  | cons a rest ih =>
    intro i n x h hin
    cases n with
    | zero => omega
    | succ n =>
      cases i with
      | zero =>
        have hax : a = x := by simpa using h
        subst hax; simp
      | succ i =>
        have hx : rest.get? i = some x := by simpa using h
        simp only [List.take_succ_cons, List.mem_cons]
        exact Or.inr (ih i n x hx (by omega))

theorem take_succ_get? : ∀ (l : List SubStrandsPairKey) (i : Nat) (x : SubStrandsPairKey),
    l.get? i = some x → l.take (i + 1) = l.take i ++ [x] := by
  intro l
  induction l with
  | nil => intro i x h; simp at h
  | cons a rest ih =>
    intro i x h
    cases i with
    | zero =>
      have hax : a = x := by simpa using h
      subst hax; simp
    | succ i =>
      have hx : rest.get? i = some x := by simpa using h
      simp only [List.take_succ_cons, List.cons_append]
      rw [ih i x hx]

theorem filter_not_mem_cons {α : Type} (f : α → SubStrandsPairKey) (l : List α)
    (x : SubStrandsPairKey) (Rl : List SubStrandsPairKey) :
    (l.filter (fun e => decide (f e ∉ Rl))).filter (fun e => decide (f e ≠ x)) =
      l.filter (fun e => decide (f e ∉ x :: Rl)) := by
  rw [List.filter_filter]
  apply List.filter_congr
  intro e _
  by_cases ha : f e = x <;> by_cases hb : f e ∈ Rl <;> simp [ha, hb]

theorem cleanup_keys_spec (data0 : AdjListWithSubData) (vec0 : SubStrandsPairKeyVec)
    (h1 : vec0.Nodup) (h2 : ∀ k ∈ vec0, (map_at data0 k).isSome = true)
    (h3 : ∀ k ∈ vec0, (map_at data0 k.reverse).isSome = true → k.reverse ∈ vec0) :
    ∀ (fuel : Nat) (data : AdjListWithSubData) (vec : SubStrandsPairKeyVec) (pos : Nat)
      (Rl : List SubStrandsPairKey),
      vec.length - pos < fuel → pos ≤ vec.length →
      data = data0.filter (fun e => decide (e.1 ∉ Rl)) →
      vec = vec0.filter (fun k => decide (k ∉ Rl)) →
      (∀ k ∈ Rl, RemovedIn data0 vec0 k) →
      (∀ k ∈ vec.take pos, map_at data k.reverse = none) →
      (∃ Rl' : List SubStrandsPairKey, cleanup_keys fuel data vec pos =
            .ok (data0.filter (fun e => decide (e.1 ∉ Rl')),
              vec0.filter (fun k => decide (k ∉ Rl'))) ∧
          (∀ k, k ∈ Rl' ↔ RemovedIn data0 vec0 k) ∧
          ∀ k ∈ vec0.filter (fun k => decide (k ∉ Rl')),
            map_at (data0.filter (fun e => decide (e.1 ∉ Rl'))) k.reverse = none) ∨
        (∃ k ∈ vec0, (map_at data0 k.reverse).isSome = true ∧
          pairs_of data0 k = pairs_of data0 k.reverse ∧
          (cleanup_keys fuel data vec pos = .error .undefined ∨
            ∃ a b c, cleanup_keys fuel data vec pos =
              .error (.substrand_cleanup_failure a b c))) := by
  intro fuel
  induction fuel with
  | zero => intro data vec pos Rl hfuel; omega
  | succ fuel ih =>
    intro data vec pos Rl hfuel hpos hd hv hR hT
    have hmap : ∀ k, map_at data k = if k ∈ Rl then none else map_at data0 k := by
      intro k
      rw [hd, map_at_filter_key (fun a => decide (a ∉ Rl))]
      by_cases h : k ∈ Rl <;> simp [h]
    have hvnd : vec.Nodup := hv ▸ h1.filter _
    have hvmem : ∀ k, k ∈ vec ↔ k ∈ vec0 ∧ k ∉ Rl := by
      intro k; rw [hv]; simp
    simp only [cleanup_keys]
    cases hget : vec.get? pos with
    | none =>
      left
      have hlen : vec.length ≤ pos := List.get?_eq_none.1 hget
      refine ⟨Rl, by simp only [hd, hv], fun k => ⟨hR k, ?_⟩, ?_⟩
      swap
      · intro k hk
        rw [← hv] at hk
        rw [← hd]
        apply hT
        rwa [List.take_of_length_le hlen]
      intro hrem
      by_contra hk
      have hkv : k ∈ vec := (hvmem k).2 ⟨hrem.1, hk⟩
      have hkt : k ∈ vec.take pos := by rwa [List.take_of_length_le hlen]
      have hnone := hT k hkt
      rw [hmap] at hnone
      by_cases hr : k.reverse ∈ Rl
      · have hrr := hR _ hr
        unfold RemovedIn at hrr
        rw [reverse_reverse] at hrr
        have := hrem.2.2
        have := hrr.2.2
        omega
      · rw [if_neg hr] at hnone
        have := hrem.2.1
        rw [hnone] at this
        simp at this
    | some key =>
      have hkv : key ∈ vec := List.get?_mem hget
      have hposlt : pos < vec.length := by
        by_contra hge
        have := List.get?_eq_none.2 (Nat.le_of_not_lt hge)
        rw [this] at hget
        cases hget
      obtain ⟨hk0, hkR⟩ := (hvmem key).1 hkv
      obtain ⟨node, hnode0⟩ := Option.isSome_iff_exists.1 (h2 key hk0)
      have hnode : map_at data key = some node := by rw [hmap, if_neg hkR, hnode0]
      have hpk : pairs_of data0 key = node.residue_pairs := by simp [pairs_of, hnode0]
      cases hrev : map_at data key.reverse with
      | none =>
        simp only [hrev]
        apply ih data vec (pos + 1) Rl (by omega) (by omega) hd hv hR
        intro k hk
        rw [take_succ_get? vec pos key hget] at hk
        rcases List.mem_append.1 hk with hk | hk
        · exact hT k hk
        · have : k = key := by simpa using hk
          rw [this]; exact hrev
      | some rev_node =>
        have hrevR : key.reverse ∉ Rl := by
          intro hin
          rw [hmap, if_pos hin] at hrev
          cases hrev
        have hrev0 : map_at data0 key.reverse = some rev_node := by
          rw [hmap, if_neg hrevR] at hrev; exact hrev
        have hpr : pairs_of data0 key.reverse = rev_node.residue_pairs := by
          simp [pairs_of, hrev0]
        have hrs : (map_at data0 key.reverse).isSome = true := by simp [hrev0]
        simp only [hrev, hnode]
        by_cases hz : max node.residue_pairs rev_node.residue_pairs = 0
        · right
          refine ⟨key, hk0, hrs, ?_, Or.inl ?_⟩
          · rw [hpk, hpr]
            have h1 := Nat.le_max_left node.residue_pairs rev_node.residue_pairs
            have h2 := Nat.le_max_right node.residue_pairs rev_node.residue_pairs
            omega
          · rw [if_pos hz]
        · rw [if_neg hz]
          by_cases hq : 66 < 100 * (min node.residue_pairs rev_node.residue_pairs /
              max node.residue_pairs rev_node.residue_pairs)
          · right
            refine ⟨key, hk0, hrs, ?_, Or.inr ⟨_, _, _, by rw [if_pos hq]⟩⟩
            rw [hpk, hpr]
            have hq1 : 1 ≤ min node.residue_pairs rev_node.residue_pairs /
                max node.residue_pairs rev_node.residue_pairs := by omega
            have hle := (Nat.one_le_div_iff (Nat.pos_of_ne_zero hz)).1 hq1
            have h1 := Nat.le_max_left node.residue_pairs rev_node.residue_pairs
            have h2 := Nat.le_max_right node.residue_pairs rev_node.residue_pairs
            have h3 := Nat.min_le_left node.residue_pairs rev_node.residue_pairs
            have h4 := Nat.min_le_right node.residue_pairs rev_node.residue_pairs
            omega
          · rw [if_neg hq]
            have hne : node.residue_pairs ≠ rev_node.residue_pairs := by
              intro he
              apply hq
              have hm : min node.residue_pairs rev_node.residue_pairs =
                  max node.residue_pairs rev_node.residue_pairs := by rw [he]; simp
              rw [hm, Nat.div_self (Nat.pos_of_ne_zero hz)]
              omega
            by_cases hlt : node.residue_pairs < rev_node.residue_pairs
            · rw [if_pos hlt]
              apply ih _ _ pos (key :: Rl)
              · rw [List.length_eraseIdx]
                simp only [hposlt, if_true]
                omega
              · rw [List.length_eraseIdx]
                simp only [hposlt, if_true]
                omega
              · rw [hd]
                exact filter_not_mem_cons (fun e => e.1) data0 _ Rl
              · rw [eraseIdx_eq_filter vec pos key hvnd hget, hv]
                exact filter_not_mem_cons (fun e => e) vec0 _ Rl
              · intro k hk
                rcases List.mem_cons.1 hk with hk | hk
                · rw [hk]
                  exact ⟨hk0, hrs, by rw [hpk, hpr]; exact hlt⟩
                · exact hR k hk
              · intro k hk
                rw [take_eraseIdx_le vec pos pos (Nat.le_refl _)] at hk
                have := hT k hk
                rw [map_at_erase]
                split_ifs
                · rfl
                · exact this
            · rw [if_neg hlt]
              have hgt : rev_node.residue_pairs < node.residue_pairs := by omega
              have hrv0 : key.reverse ∈ vec0 := h3 key hk0 hrs
              have hrv : key.reverse ∈ vec := (hvmem _).2 ⟨hrv0, hrevR⟩
              have hdlt : vec.indexOf key.reverse < vec.length := List.indexOf_lt_length.2 hrv
              have hdget := get?_indexOf_mem vec key.reverse hrv
              have hdpos : pos < vec.indexOf key.reverse := by
                by_contra hle
                rcases Nat.lt_or_eq_of_le (Nat.le_of_not_lt hle) with hl | he
                · have hin := mem_take_of_get? vec _ pos _ hdget hl
                  have := hT _ hin
                  rw [reverse_reverse, hnode] at this
                  cases this
                · rw [he, hget] at hdget
                  have hkk : key = key.reverse := by simpa using hdget
                  rw [← hkk, hnode0] at hrev0
                  have : node = rev_node := by simpa using hrev0
                  exact hne (by rw [this])
              have hget2 : (vec.eraseIdx (vec.indexOf key.reverse)).get? pos = some key := by
                rw [get?_eraseIdx_lt vec pos _ hdpos]; exact hget
              have hnd2 : (vec.eraseIdx (vec.indexOf key.reverse)).Nodup := by
                rw [eraseIdx_eq_filter vec _ _ hvnd hdget]
                exact hvnd.filter _
              have hidx := indexOf_of_get? _ pos key hnd2 hget2
              have hlen2 : (vec.eraseIdx (vec.indexOf key.reverse)).length = vec.length - 1 := by
                rw [List.length_eraseIdx]
                simp only [hdlt, if_true]
              rw [if_pos hdlt, hidx, if_pos (by rw [hlen2]; omega)]
              apply ih _ _ (pos + 1) (key.reverse :: Rl)
              · rw [hlen2]; omega
              · rw [hlen2]; omega
              · rw [hd]
                exact filter_not_mem_cons (fun e => e.1) data0 _ Rl
              · rw [eraseIdx_eq_filter vec _ _ hvnd hdget, hv]
                exact filter_not_mem_cons (fun e => e) vec0 _ Rl
              · intro k hk
                rcases List.mem_cons.1 hk with hk | hk
                · rw [hk]
                  refine ⟨hrv0, ?_, ?_⟩
                  · rw [reverse_reverse, hnode0]; rfl
                  · rw [reverse_reverse, hpk, hpr]; exact hgt
                · exact hR k hk
              · intro k hk
                rw [take_eraseIdx_le vec (pos + 1) _ (by omega),
                  take_succ_get? vec pos key hget] at hk
                rw [map_at_erase]
                rcases List.mem_append.1 hk with hk | hk
                · have := hT k hk
                  split_ifs
                  · rfl
                  · exact this
                · have : k = key := by simpa using hk
                  rw [this, if_pos rfl]

theorem get?_append_length {α : Type} : ∀ (xs ys : List α),
    (xs ++ ys).get? xs.length = ys.head? := by
  intro xs
  induction xs with
  | nil => intro ys; cases ys <;> simp
  | cons x xs ih => intro ys; simpa using ih ys

theorem eraseIdx_append_length {α : Type} : ∀ (xs : List α) (y : α) (ys : List α),
    (xs ++ y :: ys).eraseIdx xs.length = xs ++ ys := by
  intro xs
  induction xs with
  | nil => intro y ys; simp
  | cons x xs ih => intro y ys; simpa using ih y ys

theorem set_append_length {α : Type} : ∀ (xs : List α) (y z : α) (ys : List α),
    (xs ++ y :: ys).set xs.length z = xs ++ z :: ys := by
  intro xs
  induction xs with
  | nil => intro y z ys; simp
  | cons x xs ih => intro y z ys; simp [ih y z ys]

theorem cleaned_sheets_append (st : AdjListWithSub)
    (l : List (SubStrandsPairKeyVec × Bool)) (s : SubStrandsPairKeyVec × Bool) :
    cleaned_sheets st (l ++ [s]) = cleaned_sheets st l ++ cleaned_sheets st [s] := by
  unfold cleaned_sheets
  rw [List.map_append, List.filter_append]

theorem cleaned_sheets_length (st : AdjListWithSub) (l : List (SubStrandsPairKeyVec × Bool)) :
    (cleaned_sheets st l).length ≤ l.length := by
  unfold cleaned_sheets
  exact (List.length_filter_le _ _).trans (by simp)

theorem cleanupWF_split (st0 : AdjListWithSub) (hwf : CleanupWF st0)
    (done0 rest1 : List (SubStrandsPairKeyVec × Bool)) (v : SubStrandsPairKeyVec) (d : Bool)
    (hz : st0.sheets_key_vec.zip st0.sheets_directed = done0 ++ (v, d) :: rest1) :
    v.Nodup ∧ (∀ k ∈ v, ∀ s ∈ done0, k ∉ s.1) ∧ v ∈ st0.sheets_key_vec ∧
      done0.length + 1 + rest1.length < 256 := by
  have hs : st0.sheets_key_vec = (done0 ++ (v, d) :: rest1).map Prod.fst := by
    rw [← hz, List.map_fst_zip]
    exact Nat.le_of_eq hwf.flags
  have hnd := hwf.nodup
  rw [hs] at hnd
  simp only [List.map_append, List.map_cons, List.flatten_append, List.flatten_cons] at hnd
  have h1 := List.nodup_append.1 hnd
  have h2 := List.nodup_append.1 h1.2.1
  refine ⟨h2.1, ?_, ?_, ?_⟩
  · intro k hk s hs2 hks
    exact h1.2.2 (List.mem_flatten.2 ⟨s.1, List.mem_map.2 ⟨s, hs2, rfl⟩, hks⟩)
      (List.mem_append.2 (Or.inl hk))
  · rw [hs]; simp
  · have := hwf.small
    rw [hs] at this
    simp only [List.length_map, List.length_append, List.length_cons] at this
    omega

theorem weaker_in_done_false (st0 : AdjListWithSub)
    (done0 : List (SubStrandsPairKeyVec × Bool)) (v : SubStrandsPairKeyVec)
    (hdis : ∀ k ∈ v, ∀ s ∈ done0, k ∉ s.1) (k : SubStrandsPairKey) (hk : k ∈ v) :
    weaker_in st0.data done0 k = false := by
  unfold weaker_in
  have : done0.any (fun s => s.2 && decide (k ∈ s.1)) = false := by
    rw [List.any_eq_false]
    intro s hs
    simp [hdis k hk s hs]
  rw [this]; simp

theorem cleanup_data_agree (st0 : AdjListWithSub) (hwf : CleanupWF st0)
    (done0 : List (SubStrandsPairKeyVec × Bool)) (v : SubStrandsPairKeyVec)
    (hdis : ∀ k ∈ v, ∀ s ∈ done0, k ∉ s.1) (hv : v ∈ st0.sheets_key_vec)
    (k : SubStrandsPairKey) (hk : k ∈ v) :
    map_at (st0.data.filter (fun e => !weaker_in st0.data done0 e.1)) k = map_at st0.data k ∧
      map_at (st0.data.filter (fun e => !weaker_in st0.data done0 e.1)) k.reverse =
        map_at st0.data k.reverse := by
  have hone : ∀ x ∈ v, map_at (st0.data.filter (fun e => !weaker_in st0.data done0 e.1)) x =
      map_at st0.data x := by
    intro x hx
    rw [map_at_filter_key (fun x => !weaker_in st0.data done0 x)]
    simp [weaker_in_done_false st0 done0 v hdis x hx]
  refine ⟨hone k hk, ?_⟩
  by_cases hsome : (map_at st0.data k.reverse).isSome = true
  · exact hone _ (hwf.rev_same v hv k hk hsome)
  · have hn : map_at st0.data k.reverse = none := by
      cases h : map_at st0.data k.reverse with
      | none => rfl
      | some x => rw [h] at hsome; simp at hsome
    rw [map_at_filter_key (fun x => !weaker_in st0.data done0 x), hn]
    simp

theorem pairs_of_congr (d1 d2 : AdjListWithSubData) (k : SubStrandsPairKey)
    (h : map_at d1 k = map_at d2 k) : pairs_of d1 k = pairs_of d2 k := by
  unfold pairs_of; rw [h]

theorem weaker_in_append_one (data : AdjListWithSubData)
    (l : List (SubStrandsPairKeyVec × Bool)) (v : SubStrandsPairKeyVec) (b : Bool)
    (x : SubStrandsPairKey) :
    weaker_in data (l ++ [(v, b)]) x =
      (weaker_in data l x ||
        (b && decide (x ∈ v) && (map_at data x.reverse).isSome &&
          decide (pairs_of data x < pairs_of data x.reverse))) := by
  unfold weaker_in
  rw [List.any_append]
  simp only [List.any_cons, List.any_nil, Bool.or_false]
  generalize l.any (fun s => s.2 && decide (x ∈ s.1)) = a
  generalize decide (x ∈ v) = m
  generalize (map_at data x.reverse).isSome = c
  generalize decide (pairs_of data x < pairs_of data x.reverse) = e
  cases a <;> cases b <;> cases m <;> cases c <;> cases e <;> rfl

theorem weaker_of_mem (st0 : AdjListWithSub) (v : SubStrandsPairKeyVec)
    (hv : (v, true) ∈ st0.sheets_key_vec.zip st0.sheets_directed)
    (k : SubStrandsPairKey) (hk : k ∈ v) :
    weaker st0 k = ((map_at st0.data k.reverse).isSome &&
      decide (pairs_of st0.data k < pairs_of st0.data k.reverse)) := by
  unfold weaker weaker_in
  have : (st0.sheets_key_vec.zip st0.sheets_directed).any
      (fun s => s.2 && decide (k ∈ s.1)) = true := by
    rw [List.any_eq_true]
    exact ⟨(v, true), hv, by simp [hk]⟩
  rw [this]; simp

theorem removedIn_iff (st0 : AdjListWithSub) (data : AdjListWithSubData)
    (v : SubStrandsPairKeyVec)
    (hag : ∀ k ∈ v, map_at data k = map_at st0.data k ∧
      map_at data k.reverse = map_at st0.data k.reverse)
    (k : SubStrandsPairKey) (hk : k ∈ v) :
    RemovedIn data v k ↔ ((map_at st0.data k.reverse).isSome &&
      decide (pairs_of st0.data k < pairs_of st0.data k.reverse)) = true := by
  unfold RemovedIn
  rw [(hag k hk).2, pairs_of_congr data st0.data k (hag k hk).1,
    pairs_of_congr data st0.data k.reverse (hag k hk).2]
  simp [hk]

/-- The outer loop of `cleanup` from a well-formed registry: it gives the
registry described by `cleaned`, or it ends at a pair of mutually reverse edges
of a directed sheet with equal counts. -/
theorem cleanup_loop_spec (st0 : AdjListWithSub) (hwf : CleanupWF st0) :
    ∀ (fuel : Nat) (done0 rest0 : List (SubStrandsPairKeyVec × Bool)) (st : AdjListWithSub)
      (i : Nat),
      st0.sheets_key_vec.zip st0.sheets_directed = done0 ++ rest0 →
      rest0.length < fuel →
      st.sheets_key_vec = (cleaned_sheets st0 done0 ++ rest0).map Prod.fst →
      st.sheets_directed = (cleaned_sheets st0 done0 ++ rest0).map Prod.snd →
      i = (cleaned_sheets st0 done0).length →
      st.data = st0.data.filter (fun e => !weaker_in st0.data done0 e.1) →
      st.adj_sub_vec = st0.adj_sub_vec → st.removed_keys = st0.removed_keys →
      (∀ s ∈ cleaned_sheets st0 done0, s.2 = true → ∀ k ∈ s.1,
        map_at st.data k.reverse = none) →
      (cleanup_loop fuel st i = .ok st0.cleaned ∧
          ∀ s ∈ cleaned_sheets st0 (st0.sheets_key_vec.zip st0.sheets_directed), s.2 = true →
            ∀ k ∈ s.1, map_at st0.cleaned.data k.reverse = none) ∨
        ∃ s ∈ st0.sheets_key_vec.zip st0.sheets_directed, s.2 = true ∧ ∃ k ∈ s.1,
          (map_at st0.data k.reverse).isSome = true ∧
          pairs_of st0.data k = pairs_of st0.data k.reverse ∧
          (cleanup_loop fuel st i = .error .undefined ∨
            ∃ a b c, cleanup_loop fuel st i = .error (.substrand_cleanup_failure a b c)) := by
  intro fuel
  induction fuel with
  | zero => intro done0 rest0 st i _ hfuel; omega
  | succ fuel ih =>
    intro done0 rest0 st i hz hfuel hsk hsd hi hdata hadj hrem hinv
    cases rest0 with
    | nil =>
      left
      have hnone : st.sheets_key_vec.get? i = none := by
        rw [hsk, hi]
        apply List.get?_eq_none.2
        simp
      rw [List.append_nil] at hz hsk hsd
      have hst : st = st0.cleaned := by
        cases st with
        | mk data adj sk sd rk =>
          simp only at hsk hsd hdata hadj hrem
          subst hsk hsd hdata hadj hrem
          simp only [AdjListWithSub.cleaned, hz, weaker]
      refine ⟨?_, ?_⟩
      · simp only [cleanup_loop, hnone]
        rw [hst]
      · rw [← hst, hz]
        exact hinv
    | cons s rest1 =>
      obtain ⟨v, d⟩ := s
      obtain ⟨hvnd, hdis, hvmem, hsmall⟩ := cleanupWF_split st0 hwf done0 rest1 v d hz
      have hA := cleaned_sheets_length st0 done0
      have hi1 : i = ((cleaned_sheets st0 done0).map Prod.fst).length := by simp [hi]
      have hi2 : i = ((cleaned_sheets st0 done0).map Prod.snd).length := by simp [hi]
      have hgk : st.sheets_key_vec.get? i = some v := by
        rw [hsk, List.map_append, hi1, get?_append_length]; rfl
      have hgd : st.sheets_directed.get? i = some d := by
        rw [hsd, List.map_append, hi2, get?_append_length]; rfl
      have hzmem : (v, d) ∈ st0.sheets_key_vec.zip st0.sheets_directed := by
        rw [hz]; simp
      simp only [List.length_cons] at hfuel
      simp only [cleanup_loop, hgk, hgd]
      cases d with
      | false =>
        simp only []
        have hti : toIndexType (i + 1) = i + 1 := by unfold toIndexType; omega
        rw [hti]
        have hc : cleaned_sheets st0 (done0 ++ [(v, false)]) =
            cleaned_sheets st0 done0 ++ [(v, false)] := by
          rw [cleaned_sheets_append]; simp [cleaned_sheets]
        apply ih (done0 ++ [(v, false)]) rest1 st (i + 1)
        · rw [hz]; simp
        · omega
        · rw [hsk, hc]; simp
        · rw [hsd, hc]; simp
        · rw [hc, hi]; simp
        · rw [hdata]
          apply List.filter_congr
          intro e _
          rw [weaker_in_append_one]
          simp
        · exact hadj
        · exact hrem
        · intro s hs hs2 k hk
          rw [hc] at hs
          rcases List.mem_append.1 hs with hs | hs
          · exact hinv s hs hs2 k hk
          · have : s = (v, false) := by simpa using hs
            rw [this] at hs2
            cases hs2
      | true =>
        simp only []
        have hag : ∀ k ∈ v, map_at st.data k = map_at st0.data k ∧
            map_at st.data k.reverse = map_at st0.data k.reverse := by
          intro k hk
          rw [hdata]
          exact cleanup_data_agree st0 hwf done0 v hdis hvmem k hk
        have hin := cleanup_keys_spec st.data v hvnd
          (by intro k hk; rw [(hag k hk).1]; exact hwf.in_data v hvmem k hk)
          (by
            intro k hk hs
            rw [(hag k hk).2] at hs
            exact hwf.rev_same v hvmem k hk hs)
          ((v.length + 1) * (v.length + 1) + 1) st.data v 0 []
          (by have := Nat.le_mul_self (v.length + 1); omega) (Nat.zero_le _)
          (by simp) (by simp) (by simp) (by simp)
        rcases hin with ⟨Rl', hres, hRl, hP1⟩ | ⟨k, hk, hks, hpe, herr⟩
        · rw [hres]
          simp only []
          have hv' : v.filter (fun k => decide (k ∉ Rl')) =
              v.filter (fun k => !weaker st0 k) := by
            apply List.filter_congr
            intro k hk
            rw [weaker_of_mem st0 v hzmem k hk]
            have h1 := (hRl k).trans (removedIn_iff st0 st.data v hag k hk)
            by_cases hin : k ∈ Rl'
            · simp [hin, h1.1 hin]
            · have : ¬ ((map_at st0.data k.reverse).isSome &&
                  decide (pairs_of st0.data k < pairs_of st0.data k.reverse)) = true :=
                fun h => hin (h1.2 h)
              simp only [Bool.not_eq_true] at this
              simp [hin, this]
          have hd' : st.data.filter (fun e => decide (e.1 ∉ Rl')) =
              st0.data.filter (fun e => !weaker_in st0.data (done0 ++ [(v, true)]) e.1) := by
            rw [hdata, List.filter_filter]
            apply List.filter_congr
            intro e _
            rw [weaker_in_append_one]
            by_cases hev : e.1 ∈ v
            · have h1 := (hRl e.1).trans (removedIn_iff st0 st.data v hag e.1 hev)
              rw [weaker_in_done_false st0 done0 v hdis e.1 hev]
              by_cases hin : e.1 ∈ Rl'
              · have := h1.1 hin
                simp only [Bool.and_eq_true] at this
                simp [hin, hev, this.1, this.2]
              · have : ¬ ((map_at st0.data e.1.reverse).isSome &&
                    decide (pairs_of st0.data e.1 < pairs_of st0.data e.1.reverse)) = true :=
                  fun h => hin (h1.2 h)
                simp only [Bool.not_eq_true] at this
                simp only [Bool.true_and, hev, decide_True, Bool.false_or, Bool.and_assoc]
                rw [this]
                simp [hin]
            · have hin : e.1 ∉ Rl' := fun h => hev ((hRl e.1).1 h).1
              simp [hin, hev]
          have hinv' : ∀ x, map_at st.data x = none →
              map_at (st.data.filter (fun e => decide (e.1 ∉ Rl'))) x = none := by
            intro x hx
            rw [map_at_filter_key (fun a => decide (a ∉ Rl')), hx]
            simp
          rw [hv', hd'] at hP1
          rw [hd'] at hinv'
          rw [hv', hd']
          by_cases hempty : (v.filter (fun k => !weaker st0 k)).length = 0
          · rw [if_pos hempty]
            have hti : toIndexType (toIndexType (i + 255) + 1) = i := by
              unfold toIndexType; omega
            rw [hti]
            have hc : cleaned_sheets st0 (done0 ++ [(v, true)]) = cleaned_sheets st0 done0 := by
              rw [cleaned_sheets_append]
              have : (v.filter (fun k => !weaker st0 k)) = [] := List.length_eq_zero.1 hempty
              simp [cleaned_sheets, this]
            apply ih (done0 ++ [(v, true)]) rest1 _ i
            · rw [hz]; simp
            · omega
            · simp only [hc, hsk, List.map_append, List.map_cons]
              rw [hi1, eraseIdx_append_length]
            · simp only [hc, hsd, List.map_append, List.map_cons]
              rw [hi2, eraseIdx_append_length]
            · rw [hc, hi]
            · rfl
            · exact hadj
            · exact hrem
            · intro s hs hs2 k hk
              rw [hc] at hs
              exact hinv' _ (hinv s hs hs2 k hk)
          · rw [if_neg hempty]
            have hti : toIndexType (i + 1) = i + 1 := by unfold toIndexType; omega
            rw [hti]
            have hc : cleaned_sheets st0 (done0 ++ [(v, true)]) =
                cleaned_sheets st0 done0 ++ [(v.filter (fun k => !weaker st0 k), true)] := by
              rw [cleaned_sheets_append]
              have : (v.filter (fun k => !weaker st0 k)) ≠ [] :=
                fun h => hempty (by rw [h]; rfl)
              simp [cleaned_sheets, this]
            apply ih (done0 ++ [(v, true)]) rest1 _ (i + 1)
            · rw [hz]; simp
            · omega
            · simp only [hc, hsk, List.map_append, List.map_cons, List.map_nil]
              rw [hi1, set_append_length]; simp
            · simp only [hc, hsd, List.map_append, List.map_cons, List.map_nil]; simp
            · rw [hc, hi]; simp
            · rfl
            · exact hadj
            · exact hrem
            · intro s hs hs2 k hk
              rw [hc] at hs
              rcases List.mem_append.1 hs with hs | hs
              · exact hinv' _ (hinv s hs hs2 k hk)
              · have : s = (v.filter (fun k => !weaker st0 k), true) := by simpa using hs
                rw [this] at hk
                exact hP1 k hk
        · right
          refine ⟨(v, true), hzmem, rfl, k, hk, ?_, ?_, ?_⟩
          · rw [← (hag k hk).2]; exact hks
          · rw [← pairs_of_congr st.data st0.data k (hag k hk).1,
              ← pairs_of_congr st.data st0.data k.reverse (hag k hk).2]
            exact hpe
          · rcases herr with herr | ⟨a, b, c, herr⟩
            · left; rw [herr]
            · right; exact ⟨a, b, c, by rw [herr]⟩

theorem zip_map_fst_snd {α β : Type} : ∀ (l : List (α × β)),
    (l.map Prod.fst).zip (l.map Prod.snd) = l := by
  intro l
  induction l with
  | nil => rfl
  | cons x xs ih => simp [ih]

theorem cleaned_undirected (st : AdjListWithSub) : ∀ (l : List (SubStrandsPairKeyVec × Bool)),
    (cleaned_sheets st l).filter (fun s => !s.2) = l.filter (fun s => !s.2) := by
  intro l
  induction l with
  | nil => rfl
  | cons x xs ih =>
    have hc : cleaned_sheets st (x :: xs) = cleaned_sheets st [x] ++ cleaned_sheets st xs := by
      unfold cleaned_sheets
      rw [← List.filter_append, ← List.map_append]; rfl
    rw [hc, List.filter_append, ih]
    obtain ⟨v, d⟩ := x
    cases d with
    | false => simp [cleaned_sheets]
    | true =>
      by_cases he : (v.filter (fun k => !weaker st k)) = []
      · simp [cleaned_sheets, he]
      · simp [cleaned_sheets, he]

theorem mem_cleaned_sheets (st : AdjListWithSub) (l : List (SubStrandsPairKeyVec × Bool))
    (s : SubStrandsPairKeyVec × Bool) (hs : s ∈ cleaned_sheets st l) :
    (s.2 = false ∧ s ∈ l) ∨
      (s.2 = true ∧ ∃ v, (v, true) ∈ l ∧ s.1 = v.filter (fun k => !weaker st k)) := by
  unfold cleaned_sheets at hs
  obtain ⟨z, hz, hzs⟩ := List.mem_map.1 (List.mem_filter.1 hs).1
  obtain ⟨v, d⟩ := z
  cases d with
  | false =>
    left
    simp only [Bool.false_eq_true, if_false] at hzs
    rw [← hzs]; exact ⟨rfl, hz⟩
  | true =>
    right
    simp only [if_true] at hzs
    rw [← hzs]; exact ⟨rfl, v, hz, rfl⟩

theorem flatten_nodup_unique : ∀ (l : List (SubStrandsPairKeyVec × Bool)),
    (l.map Prod.fst).flatten.Nodup → ∀ z1 ∈ l, ∀ z2 ∈ l, ∀ k, k ∈ z1.1 → k ∈ z2.1 → z1 = z2 := by
  intro l
  induction l with
  | nil => intro _ z1 h; simp at h
  | cons x xs ih =>
    intro hnd z1 h1 z2 h2 k hk1 hk2
    simp only [List.map_cons, List.flatten_cons] at hnd
    have hsplit := List.nodup_append.1 hnd
    have hin : ∀ z ∈ xs, k ∈ z.1 → k ∈ (xs.map Prod.fst).flatten := by
      intro z hz hk
      exact List.mem_flatten.2 ⟨z.1, List.mem_map.2 ⟨z, hz, rfl⟩, hk⟩
    rcases List.mem_cons.1 h1 with e1 | e1 <;> rcases List.mem_cons.1 h2 with e2 | e2
    · rw [e1, e2]
    · rw [e1] at hk1
      exact absurd (hin z2 e2 hk2) (fun h => hsplit.2.2 hk1 h)
    · rw [e2] at hk2
      exact absurd (hin z1 e1 hk1) (fun h => hsplit.2.2 hk2 h)
    · exact ih hsplit.2.1 z1 e1 z2 e2 k hk1 hk2

/-- The method `cleanup` on a well-formed registry: it returns the registry
described by `cleaned`, in which no key of a directed sheet has its reverse in
the edge map, or it ends at a pair of mutually reverse edges of a directed
sheet with equal counts. -/
theorem cleanup_spec (st : AdjListWithSub) (hwf : CleanupWF st) :
    (st.cleanup = .ok st.cleaned ∧
        ∀ s ∈ cleaned_sheets st (st.sheets_key_vec.zip st.sheets_directed), s.2 = true →
          ∀ k ∈ s.1, map_at st.cleaned.data k.reverse = none) ∨
      ∃ s ∈ st.sheets_key_vec.zip st.sheets_directed, s.2 = true ∧ ∃ k ∈ s.1,
        (map_at st.data k.reverse).isSome = true ∧
        pairs_of st.data k = pairs_of st.data k.reverse ∧
        (st.cleanup = .error .undefined ∨
          ∃ a b c, st.cleanup = .error (.substrand_cleanup_failure a b c)) := by
  unfold AdjListWithSub.cleanup
  apply cleanup_loop_spec st hwf (st.sheets_key_vec.length + 1) []
    (st.sheets_key_vec.zip st.sheets_directed) st 0
  · rfl
  · rw [List.length_zip]; omega
  · simp only [cleaned_sheets, List.map_nil, List.filter_nil, List.nil_append]
    rw [List.map_fst_zip]
    exact Nat.le_of_eq hwf.flags
  · simp only [cleaned_sheets, List.map_nil, List.filter_nil, List.nil_append]
    rw [List.map_snd_zip]
    exact Nat.le_of_eq hwf.flags.symm
  · rfl
  · symm
    rw [List.filter_eq_self]
    intro e _
    simp [weaker_in]
  · rfl
  · rfl
  · intro s hs; simp [cleaned_sheets] at hs

/-- C12. For a well-formed registry (a flag for every sheet, fewer than 256
sheets, every key in one sheet only and once, every key of a sheet in the edge
map, the reverse of a key of a sheet in the same sheet when it is in the edge
map): `cleanup` returns normally when no directed sheet holds an edge and its
reverse with equal counts; and whenever it returns normally, no sheet
registered as directed holds both an edge and its reverse, the two counts of
every such pair of the input differ and exactly the edge with the smaller
count is gone from the edge map and from every key list while its reverse
stays in both with its node data, the edge map is the input map without these
weaker edges (every other binding is kept as it is), the sheets are the input
sheets without the weaker keys and without the directed sheets left empty, and
the sheets registered as undirected are unchanged. -/
theorem cleanup_removes_weaker (st : AdjListWithSub) (hwf : CleanupWF st) :
    ((∀ s ∈ st.sheets_key_vec.zip st.sheets_directed, s.2 = true → ∀ k ∈ s.1,
        k.reverse ∈ s.1 → pairs_of st.data k ≠ pairs_of st.data k.reverse) →
      ∃ st', st.cleanup = .ok st') ∧
    ∀ st', st.cleanup = .ok st' →
      (∀ s ∈ st'.sheets_key_vec.zip st'.sheets_directed, s.2 = true →
        ∀ k ∈ s.1, k.reverse ∉ s.1) ∧
      (∀ s ∈ st.sheets_key_vec.zip st.sheets_directed, s.2 = true → ∀ k ∈ s.1,
        k.reverse ∈ s.1 →
          pairs_of st.data k ≠ pairs_of st.data k.reverse ∧
          (pairs_of st.data k < pairs_of st.data k.reverse →
            map_at st'.data k = none ∧ (∀ v ∈ st'.sheets_key_vec, k ∉ v) ∧
            map_at st'.data k.reverse = map_at st.data k.reverse ∧
            ∃ v ∈ st'.sheets_key_vec, k.reverse ∈ v)) ∧
      st'.data = st.data.filter (fun e => !weaker st e.1) ∧
      st'.sheets_key_vec.zip st'.sheets_directed =
        cleaned_sheets st (st.sheets_key_vec.zip st.sheets_directed) ∧
      (st'.sheets_key_vec.zip st'.sheets_directed).filter (fun s => !s.2) =
        (st.sheets_key_vec.zip st.sheets_directed).filter (fun s => !s.2) := by
  have hsk : st.sheets_key_vec = (st.sheets_key_vec.zip st.sheets_directed).map Prod.fst := by
    rw [List.map_fst_zip]; exact Nat.le_of_eq hwf.flags
  have hmemv : ∀ s ∈ st.sheets_key_vec.zip st.sheets_directed, s.1 ∈ st.sheets_key_vec := by
    intro s hs
    rw [hsk]
    exact List.mem_map.2 ⟨s, hs, rfl⟩
  have hsome : ∀ s ∈ st.sheets_key_vec.zip st.sheets_directed, ∀ k ∈ s.1,
      (map_at st.data k).isSome = true :=
    fun s hs k hk => hwf.in_data s.1 (hmemv s hs) k hk
  constructor
  · intro hne
    rcases cleanup_spec st hwf with ⟨h, _⟩ | ⟨s, hs, hs2, k, hk, hks, hpe, _⟩
    · exact ⟨_, h⟩
    · exact absurd hpe (hne s hs hs2 k hk (hwf.rev_same s.1 (hmemv s hs) k hk hks))
  · intro st' hok
    have hP1 : st' = st.cleaned ∧
        ∀ s ∈ cleaned_sheets st (st.sheets_key_vec.zip st.sheets_directed), s.2 = true →
          ∀ k ∈ s.1, map_at st.cleaned.data k.reverse = none := by
      rcases cleanup_spec st hwf with ⟨h, hp⟩ | ⟨s, hs, hs2, k, hk, hks, hpe, herr⟩
      · rw [h] at hok
        exact ⟨by injection hok with h'; exact h'.symm, hp⟩
      · rcases herr with herr | ⟨a, b, c, herr⟩ <;> rw [herr] at hok <;> cases hok
    obtain ⟨hst, hP⟩ := hP1
    subst hst
    have hzip : st.cleaned.sheets_key_vec.zip st.cleaned.sheets_directed =
        cleaned_sheets st (st.sheets_key_vec.zip st.sheets_directed) := by
      simp only [AdjListWithSub.cleaned]
      exact zip_map_fst_snd _
    have hdata : ∀ x, map_at st.cleaned.data x =
        if weaker st x = true then none else map_at st.data x := by
      intro x
      simp only [AdjListWithSub.cleaned]
      rw [map_at_filter_key (fun a => !weaker st a)]
      cases weaker st x <;> simp
    -- a key kept in a cleaned directed sheet
    have hkept : ∀ v, (v, true) ∈ st.sheets_key_vec.zip st.sheets_directed → ∀ k ∈ v,
        weaker st k = false →
        (v.filter (fun k => !weaker st k), true) ∈
          cleaned_sheets st (st.sheets_key_vec.zip st.sheets_directed) := by
      intro v hv k hk hw
      unfold cleaned_sheets
      apply List.mem_filter.2
      refine ⟨List.mem_map.2 ⟨(v, true), hv, by simp⟩, ?_⟩
      have : k ∈ v.filter (fun k => !weaker st k) := List.mem_filter.2 ⟨hk, by simp [hw]⟩
      cases hf : v.filter (fun k => !weaker st k) with
      | nil => rw [hf] at this; simp at this
      | cons a l => simp
    refine ⟨?_, ?_, rfl, hzip, ?_⟩
    · intro s hs hs2 k hk hr
      rw [hzip] at hs
      rcases mem_cleaned_sheets st _ s hs with ⟨hf, _⟩ | ⟨_, v, hv, hsv⟩
      · rw [hf] at hs2; cases hs2
      · rw [hsv] at hk hr
        have hr2 := List.mem_filter.1 hr
        have hnone := hP s hs hs2 k (by rw [hsv]; exact hk)
        rw [hdata] at hnone
        have hw : weaker st k.reverse = false := by simpa using hr2.2
        rw [hw] at hnone
        have := hsome (v, true) hv k.reverse hr2.1
        simp only [Bool.false_eq_true, if_false] at hnone
        rw [hnone] at this
        simp at this
    · intro s hs hs2 k hk hr
      obtain ⟨v, d⟩ := s
      simp only at hs2 hk hr
      subst hs2
      have hwk := weaker_of_mem st v hs k hk
      have hwr := weaker_of_mem st v hs k.reverse hr
      rw [reverse_reverse] at hwr
      have hsk1 := hsome (v, true) hs k hk
      have hsr1 := hsome (v, true) hs k.reverse hr
      rw [hsr1] at hwk
      rw [hsk1] at hwr
      simp only [Bool.true_and] at hwk hwr
      constructor
      · intro heq
        have hw1 : weaker st k = false := by rw [hwk, heq]; simp
        have hw2 : weaker st k.reverse = false := by rw [hwr, heq]; simp
        have hmem := hkept v hs k hk hw1
        have hnone := hP _ hmem rfl k (List.mem_filter.2 ⟨hk, by simp [hw1]⟩)
        rw [hdata, hw2] at hnone
        simp only [Bool.false_eq_true, if_false] at hnone
        rw [hnone] at hsr1
        simp at hsr1
      · intro hlt
        have hw1 : weaker st k = true := by rw [hwk]; simpa using hlt
        have hw2 : weaker st k.reverse = false := by
          rw [hwr]; simp; omega
        refine ⟨?_, ?_, ?_, ?_⟩
        · rw [hdata, hw1]; simp
        · intro v' hv' hkv'
          simp only [AdjListWithSub.cleaned] at hv'
          obtain ⟨s', hs', hs'v⟩ := List.mem_map.1 hv'
          rcases mem_cleaned_sheets st _ s' hs' with ⟨hf, hin⟩ | ⟨_, w, hw, hsw⟩
          · have hkk : k ∈ s'.1 := by rw [hs'v]; exact hkv'
            have := flatten_nodup_unique _ (hsk ▸ hwf.nodup) s' hin (v, true) hs k hkk hk
            rw [this] at hf
            cases hf
          · rw [← hs'v, hsw] at hkv'
            have := (List.mem_filter.1 hkv').2
            rw [hw1] at this
            simp at this
        · rw [hdata, hw2]; simp
        · refine ⟨v.filter (fun k => !weaker st k), ?_, List.mem_filter.2 ⟨hr, by simp [hw2]⟩⟩
          simp only [AdjListWithSub.cleaned]
          exact List.mem_map.2 ⟨_, hkept v hs k.reverse hr hw2, rfl⟩
    · rw [hzip]
      exact cleaned_undirected st _

/-- On a well-formed registry `cleanup` raises `substrand_cleanup_failure` only
at a pair of mutually reverse edges of a directed sheet with equal counts. -/
theorem cleanup_failure_equal_counts (st : AdjListWithSub) (hwf : CleanupWF st)
    (a : SubStrandsPairKey) (b c : Nat)
    (h : st.cleanup = .error (.substrand_cleanup_failure a b c)) :
    ∃ s ∈ st.sheets_key_vec.zip st.sheets_directed, s.2 = true ∧ ∃ k ∈ s.1,
      (map_at st.data k.reverse).isSome = true ∧
      pairs_of st.data k = pairs_of st.data k.reverse := by
  rcases cleanup_spec st hwf with ⟨hok, _⟩ | ⟨s, hs, hs2, k, hk, hks, hpe, _⟩
  · rw [hok] at h; cases h
  · exact ⟨s, hs, hs2, k, hk, hks, hpe⟩

theorem three_four_wf : CleanupWF three_four :=
  ⟨by decide, by decide, by decide, by decide, by decide⟩

/-- C12 on the directed sheet with the edge 0 -> 1 of 3 residue pairs and its
reverse of 4: the registry is well formed, the counts differ, `cleanup`
returns, and the edge map it leaves holds the reverse edge only. -/
theorem cleanup_removes_weaker_witness :
    CleanupWF three_four ∧ (∃ st', three_four.cleanup = .ok st') ∧
      three_four.cleanup = .ok three_four.cleaned ∧
      three_four.cleaned.data = [(⟨1, 0, 0, 0⟩, { direction := true, residue_pairs := 4 })] ∧
      three_four.cleaned.data = three_four.data.filter (fun e => !weaker three_four e.1) :=
  ⟨three_four_wf, (cleanup_removes_weaker three_four three_four_wf).1 (by decide), by rfl,
    by decide,
    ((cleanup_removes_weaker three_four three_four_wf).2 three_four.cleaned (by rfl)).2.2.1⟩

/-- C11 fails on the code. For a directed sheet holding the edge 0 -> 1 with 3
residue pairs and its reverse with 4, the ratio 3/4 exceeds 0.66, and `cleanup`
returns normally, having removed the edge with 3 pairs: the quotient of the
two `unsigned` counts is the integer 0. The exception is raised when the two
counts are equal, as for 4 and 4, where the integer quotient is 1. -/
theorem cleanup_three_four_returns :
    returned three_four.cleanup =
        some { three_four with
          data := [(⟨1, 0, 0, 0⟩, { direction := true, residue_pairs := 4 })],
          sheets_key_vec := [[⟨1, 0, 0, 0⟩]] } ∧
      four_four.cleanup = .error (.substrand_cleanup_failure ⟨0, 0, 1, 0⟩ 4 4) :=
  ⟨by decide, by rfl⟩

/-! ## The registry of sub-strands -/

theorem extend_range_fold_aux : ∀ (rs : List Int) (lo0 hi0 : Int) (S : List Int),
    int_min < lo0 → lo0 ≤ hi0 → lo0 ∈ S → hi0 ∈ S → (∀ r ∈ S, lo0 ≤ r ∧ r ≤ hi0) →
    (∀ r ∈ rs, int_min < r) →
    ∃ lo hi, rs.foldl extend_range (lo0, hi0) = (lo, hi) ∧ int_min < lo ∧ lo ≤ hi ∧
      lo ∈ S ++ rs ∧ hi ∈ S ++ rs ∧ ∀ r ∈ S ++ rs, lo ≤ r ∧ r ≤ hi := by
  intro rs
  induction rs with
  | nil =>
    intro lo0 hi0 S h1 h2 h3 h4 h5 _
    exact ⟨lo0, hi0, rfl, h1, h2, by simpa using h3, by simpa using h4, by simpa using h5⟩
  | cons r rs ih =>
    intro lo0 hi0 S h1 h2 h3 h4 h5 h6
    have hr : int_min < r := h6 r (by simp)
    have hrs : ∀ x ∈ rs, int_min < x := fun x hx => h6 x (by simp [hx])
    have hnd : (lo0, hi0) ≠ default_range := by
      intro he
      have : lo0 = int_min := by simpa [default_range] using (congrArg Prod.fst he)
      omega
    have key : ∃ lo1 hi1, extend_range (lo0, hi0) r = (lo1, hi1) ∧ int_min < lo1 ∧ lo1 ≤ hi1 ∧
        lo1 ∈ S ++ [r] ∧ hi1 ∈ S ++ [r] ∧ ∀ x ∈ S ++ [r], lo1 ≤ x ∧ x ≤ hi1 := by
      unfold extend_range
      rw [if_neg hnd]
      by_cases c1 : r < lo0
      · refine ⟨r, hi0, by simp [c1], hr, by omega, by simp, by simp [h4], ?_⟩
        intro x hx
        rcases List.mem_append.1 hx with hx | hx
        · have := h5 x hx; omega
        · have : x = r := by simpa using hx
          omega
      · by_cases c2 : hi0 < r
        · refine ⟨lo0, r, by simp [c1, c2], h1, by omega, by simp [h3], by simp, ?_⟩
          intro x hx
          rcases List.mem_append.1 hx with hx | hx
          · have := h5 x hx; omega
          · have : x = r := by simpa using hx
            omega
        · refine ⟨lo0, hi0, by simp [c1, c2], h1, h2, by simp [h3], by simp [h4], ?_⟩
          intro x hx
          rcases List.mem_append.1 hx with hx | hx
          · exact h5 x hx
          · have : x = r := by simpa using hx
            omega
    obtain ⟨lo1, hi1, he, k1, k2, k3, k4, k5⟩ := key
    obtain ⟨lo, hi, hf, g1, g2, g3, g4, g5⟩ := ih lo1 hi1 (S ++ [r]) k1 k2 k3 k4 k5 hrs
    refine ⟨lo, hi, by rw [List.foldl_cons, he, hf], g1, g2, ?_, ?_, ?_⟩
    · simpa using g3
    · simpa using g4
    · intro x hx
      exact g5 x (by simpa using hx)

/-- The range a sub-strand gets from the residue numbers of a component: the
placeholder when there is none, else the smallest and the largest of them. -/
theorem extend_range_fold (rs : List Int) (h : ∀ r ∈ rs, int_min < r) :
    (rs = [] ∧ rs.foldl extend_range default_range = default_range) ∨
      ∃ lo hi, rs.foldl extend_range default_range = (lo, hi) ∧ int_min < lo ∧ lo ≤ hi ∧
        lo ∈ rs ∧ hi ∈ rs ∧ ∀ r ∈ rs, lo ≤ r ∧ r ≤ hi := by
  cases rs with
  | nil => left; exact ⟨rfl, rfl⟩
  | cons r rs =>
    right
    have hr : int_min < r := h r (by simp)
    have h0 : extend_range default_range r = (r, r) := by simp [extend_range]
    obtain ⟨lo, hi, hf, g1, g2, g3, g4, g5⟩ := extend_range_fold_aux rs r r [r] hr (le_refl _)
      (by simp) (by simp) (by intro x hx; simp at hx; omega)
      (fun x hx => h x (by simp [hx]))
    exact ⟨lo, hi, by rw [List.foldl_cons, h0, hf], g1, g2, by simpa using g3,
      by simpa using g4, fun x hx => g5 x (by simpa using hx)⟩

theorem get?_set_same {α : Type} (l : List α) (i : Nat) (x : α) (h : i < l.length) :
    (l.set i x).get? i = some x := by
  simp [h]

theorem get?_set_other {α : Type} (l : List α) (i j : Nat) (x : α) (h : i ≠ j) :
    (l.set i x).get? j = l.get? j := by
  simp [h]

theorem dropLast_append_last (ranges : List (Int × Int)) (h : ranges ≠ []) :
    ∃ back, ranges.getLast? = some back ∧ ranges.dropLast ++ [back] = ranges := by
  refine ⟨ranges.getLast h, List.getLast?_eq_getLast _ h, List.dropLast_append_getLast h⟩

/-- The range table after the `extend_substrand` calls of a component: the last
range of every strand is extended by the residue numbers of the calls on that
strand. -/
theorem foldlM_extend : ∀ (calls : List ZoneResidue) (d : RangeData),
    (∀ ranges ∈ d, ranges ≠ []) → (∀ res ∈ calls, res.serial_str_id < d.length) →
    ∃ d', calls.foldlM extend_substrand d = some d' ∧ d'.length = d.length ∧
      ∀ str, d'.get? str = (d.get? str).map (fun ranges => ranges.dropLast ++
        [(resnums_on calls str).foldl extend_range (ranges.getLast?.getD default_range)]) := by
  intro calls
  induction calls with
  | nil =>
    intro d hne _
    refine ⟨d, rfl, rfl, ?_⟩
    intro str
    cases hg : d.get? str with
    | none => rfl
    | some ranges =>
      obtain ⟨back, hb, hd⟩ := dropLast_append_last ranges (hne ranges (List.get?_mem hg))
      simp [resnums_on, hb, hd]
  | cons res calls ih =>
    intro d hne hin
    have hlt : res.serial_str_id < d.length := hin res (by simp)
    obtain ⟨ranges, hg⟩ : ∃ ranges, d.get? res.serial_str_id = some ranges :=
      ⟨d.get ⟨_, hlt⟩, List.get?_eq_get hlt⟩
    obtain ⟨back, hb, hd⟩ := dropLast_append_last ranges (hne ranges (List.get?_mem hg))
    have hstep : extend_substrand d res = some (d.set res.serial_str_id
        (ranges.dropLast ++ [extend_range back res.resnum])) := by
      simp only [extend_substrand, hg, hb]
    obtain ⟨d', hf, hl, hget⟩ := ih (d.set res.serial_str_id
        (ranges.dropLast ++ [extend_range back res.resnum]))
      (by
        intro r hr
        rcases List.mem_or_eq_of_mem_set hr with h | h
        · exact hne r h
        · rw [h]; simp)
      (by intro r hr; rw [List.length_set]; exact hin r (by simp [hr]))
    refine ⟨d', ?_, by rw [hl, List.length_set], ?_⟩
    · rw [List.foldlM_cons, hstep]
      exact hf
    · intro str
      rw [hget str]
      by_cases hs : res.serial_str_id = str
      · subst hs
        rw [get?_set_same d _ _ hlt, hg]
        simp [resnums_on, hb]
      · rw [get?_set_other d _ _ _ hs]
        congr 1
        funext rg
        simp [resnums_on, hs]

theorem cleanup_sheet_loop_spec : ∀ (d : RangeData) (id : Nat) (short : List SubStrand),
    (∀ ranges ∈ d, ∃ back, ranges.getLast? = some back ∧
      (back = default_range ∨
        (is_int (back.2 - back.1) = true ∧ is_int (back.2 - back.1 + 1) = true))) →
    id + d.length ≤ 255 →
    ∃ short', cleanup_sheet_loop d id short = some (d.map cleanup_ranges, short') ∧
      ∀ s, s ∈ short' ↔ s ∈ short ∨ ∃ j ranges, d.get? j = some ranges ∧
        too_short ranges = true ∧ s = ⟨id + j, toIndexType (ranges.length - 1)⟩ := by
  intro d
  induction d with
  | nil =>
    intro id short _ _
    exact ⟨short, rfl, by intro s; simp⟩
  | cons ranges rest ih =>
    intro id short hb hlen
    obtain ⟨back, hlast, hback⟩ := hb ranges (by simp)
    simp only [List.length_cons] at hlen
    have hti : toIndexType (id + 1) = id + 1 := by unfold toIndexType; omega
    have hrest : ∀ r ∈ rest, ∃ back, r.getLast? = some back ∧
        (back = default_range ∨
          (is_int (back.2 - back.1) = true ∧ is_int (back.2 - back.1 + 1) = true)) :=
      fun r hr => hb r (by simp [hr])
    have hshift : ∀ (s : SubStrand) (P : List (Int × Int) → Prop),
        (∃ j ranges', rest.get? j = some ranges' ∧ P ranges' ∧
          s = ⟨id + 1 + j, toIndexType (ranges'.length - 1)⟩) ↔
        ∃ j ranges', (ranges :: rest).get? j = some ranges' ∧ P ranges' ∧ j ≠ 0 ∧
          s = ⟨id + j, toIndexType (ranges'.length - 1)⟩ := by
      intro s P
      constructor
      · rintro ⟨j, r, h1, h2, h3⟩
        exact ⟨j + 1, r, by simpa using h1, h2, by omega, by rw [h3]; congr 1; omega⟩
      · rintro ⟨j, r, h1, h2, h3, h4⟩
        cases j with
        | zero => omega
        | succ j => exact ⟨j, r, by simpa using h1, h2, by rw [h4]; congr 1; omega⟩
    simp only [cleanup_sheet_loop, hlast, hti, List.map_cons]
    by_cases hdef : back = default_range
    · obtain ⟨short', hrun, hmem⟩ := ih (id + 1) short hrest (by omega)
      refine ⟨short', ?_, ?_⟩
      · simp [hdef, hrun, cleanup_ranges, hlast]
      · intro s
        rw [hmem s, hshift s (fun r => too_short r = true)]
        constructor
        · rintro (h | ⟨j, r, h1, h2, _, h4⟩)
          · exact Or.inl h
          · exact Or.inr ⟨j, r, h1, h2, h4⟩
        · rintro (h | ⟨j, r, h1, h2, h4⟩)
          · exact Or.inl h
          · right
            refine ⟨j, r, h1, h2, ?_, h4⟩
            intro hj
            subst hj
            have : ranges = r := by simpa using h1
            subst this
            simp [too_short, hlast, hdef] at h2
    · rcases hback with hback | ⟨i1, i2⟩
      · exact absurd hback hdef
      · by_cases hsp : back.2 - back.1 + 1 < min_sub_str_len
        · obtain ⟨short', hrun, hmem⟩ := ih (id + 1)
            (set_insert short ⟨id, toIndexType (ranges.length - 1)⟩) hrest (by omega)
          refine ⟨short', ?_, ?_⟩
          · simp [hdef, i1, i2, hsp, hrun, cleanup_ranges, hlast]
          · intro s
            rw [hmem s, hshift s (fun r => too_short r = true), mem_set_insert]
            constructor
            · rintro ((h | h) | ⟨j, r, h1, h2, _, h4⟩)
              · exact Or.inl h
              · exact Or.inr ⟨0, ranges, by simp, by simp [too_short, hlast, hdef, hsp],
                  by simpa using h⟩
              · exact Or.inr ⟨j, r, h1, h2, h4⟩
            · rintro (h | ⟨j, r, h1, h2, h4⟩)
              · exact Or.inl (Or.inl h)
              · by_cases hj : j = 0
                · subst hj
                  have : ranges = r := by simpa using h1
                  subst this
                  exact Or.inl (Or.inr (by simpa using h4))
                · exact Or.inr ⟨j, r, h1, h2, hj, h4⟩
        · obtain ⟨short', hrun, hmem⟩ := ih (id + 1) short hrest (by omega)
          refine ⟨short', ?_, ?_⟩
          · simp [hdef, i1, i2, hsp, hrun, cleanup_ranges, hlast]
          · intro s
            rw [hmem s, hshift s (fun r => too_short r = true)]
            constructor
            · rintro (h | ⟨j, r, h1, h2, _, h4⟩)
              · exact Or.inl h
              · exact Or.inr ⟨j, r, h1, h2, h4⟩
            · rintro (h | ⟨j, r, h1, h2, h4⟩)
              · exact Or.inl h
              · right
                refine ⟨j, r, h1, h2, ?_, h4⟩
                intro hj
                subst hj
                have : ranges = r := by simpa using h1
                subst this
                simp [too_short, hlast, hdef, hsp] at h2

theorem too_short_fold (rs : List Int) (h : ∀ r ∈ rs, int_min < r) :
    ((rs.foldl extend_range default_range ≠ default_range) ∧
        (rs.foldl extend_range default_range).2 - (rs.foldl extend_range default_range).1 + 1 <
          min_sub_str_len) ↔
      rs ≠ [] ∧ ∀ r ∈ rs, ∀ r' ∈ rs, r = r' := by
  rcases extend_range_fold rs h with ⟨h1, h2⟩ | ⟨lo, hi, hf, g1, g2, g3, g4, g5⟩
  · rw [h2]; simp [h1]
  · rw [hf]
    have hne : rs ≠ [] := by intro he; rw [he] at g3; simp at g3
    have hnd : (lo, hi) ≠ default_range := by
      intro he
      have : lo = int_min := by simpa [default_range] using (congrArg Prod.fst he)
      omega
    simp only [min_sub_str_len]
    constructor
    · rintro ⟨_, hsp⟩
      refine ⟨hne, ?_⟩
      intro r hr r' hr'
      have := g5 r hr
      have := g5 r' hr'
      omega
    · rintro ⟨_, hall⟩
      refine ⟨hnd, ?_⟩
      have := hall lo g3 hi g4
      omega

theorem mem_resnums_on (calls : List ZoneResidue) (str : Nat) (r : Int) :
    r ∈ resnums_on calls str ↔ ∃ res ∈ calls, res.serial_str_id = str ∧ res.resnum = r := by
  unfold resnums_on
  simp only [List.mem_map, List.mem_filter, decide_eq_true_eq]
  constructor
  · rintro ⟨res, ⟨h1, h2⟩, h3⟩; exact ⟨res, h1, h2, h3⟩
  · rintro ⟨res, h1, h2, h3⟩; exact ⟨res, ⟨h1, h2⟩, h3⟩

theorem callsOK_resnums (n : Nat) (calls : List ZoneResidue) (h : CallsOK n calls) (str : Nat) :
    ∀ r ∈ resnums_on calls str, -(2 ^ 30) < r ∧ r < 2 ^ 30 := by
  intro r hr
  obtain ⟨res, h1, _, h3⟩ := (mem_resnums_on calls str r).1 hr
  rw [← h3]
  exact (h res h1).2

/-- One component on the registry: the calls return, the state between
components is kept, and `cleanup_sheet` returns exactly the sub-strands of the
component whose residues all have the same number. -/
theorem run_component_spec (n c : Nat) (d : RangeData) (calls : List ZoneResidue)
    (hinv : RangeInv n c d) (hn : n ≤ 255) (hc : c ≤ 254) (hcalls : CallsOK n calls) :
    ∃ d1 short, run_component d calls = some (d1, short) ∧ RangeInv n (c + 1) d1 ∧
      ∀ s, s ∈ short ↔ (∃ ranges, d.get? s.str = some ranges ∧ s.substr = ranges.length - 1) ∧
        resnums_on calls s.str ≠ [] ∧
        ∀ r ∈ resnums_on calls s.str, ∀ r' ∈ resnums_on calls s.str, r = r' := by
  obtain ⟨hlen, hall⟩ := hinv
  have hne : ∀ ranges ∈ d, ranges ≠ [] := by
    intro r hr he
    have := (hall r hr).1
    rw [he] at this
    simp at this
  obtain ⟨de, hfold, hlen2, hget⟩ := foldlM_extend calls d hne
    (by intro res hr; rw [hlen]; exact (hcalls res hr).1)
  have hint : ∀ str, ∀ r ∈ resnums_on calls str, int_min < r := by
    intro str r hr
    have := callsOK_resnums n calls hcalls str r hr
    unfold int_min
    omega
  have hde : ∀ j r1, de.get? j = some r1 → ∃ rg, d.get? j = some rg ∧ rg ∈ d ∧
      r1 = rg.dropLast ++ [(resnums_on calls j).foldl extend_range default_range] ∧
      r1.length = rg.length := by
    intro j r1 h1
    rw [hget j] at h1
    cases hg : d.get? j with
    | none => rw [hg] at h1; simp at h1
    | some rg =>
      rw [hg] at h1
      have hm := List.get?_mem hg
      have hl := (hall rg hm).1
      simp only [Option.map_some', hl, Option.getD_some, Option.some.injEq] at h1
      refine ⟨rg, rfl, hm, h1.symm, ?_⟩
      rw [← h1]
      have := hne rg hm
      cases rg with
      | nil => contradiction
      | cons a l => simp
  have hback : ∀ ranges ∈ de, ∃ back, ranges.getLast? = some back ∧
      (back = default_range ∨
        (is_int (back.2 - back.1) = true ∧ is_int (back.2 - back.1 + 1) = true)) := by
    intro ranges hr
    obtain ⟨j, hj⟩ := List.mem_iff_get?.1 hr
    obtain ⟨rg, _, _, hr1, _⟩ := hde j ranges hj
    refine ⟨(resnums_on calls j).foldl extend_range default_range, by rw [hr1]; simp, ?_⟩
    rcases extend_range_fold (resnums_on calls j) (hint j) with ⟨_, h2⟩ |
      ⟨lo, hi, hf, _, _, g3, g4, _⟩
    · exact Or.inl h2
    · right
      rw [hf]
      have b1 := callsOK_resnums n calls hcalls j lo g3
      have b2 := callsOK_resnums n calls hcalls j hi g4
      simp only [is_int, int_min, Bool.and_eq_true, decide_eq_true_eq]
      refine ⟨⟨?_, ?_⟩, ⟨?_, ?_⟩⟩ <;> omega
  obtain ⟨short, hrun, hmem⟩ := cleanup_sheet_loop_spec de 0 [] hback (by omega)
  refine ⟨de.map cleanup_ranges, short, ?_, ⟨by rw [List.length_map, hlen2, hlen], ?_⟩, ?_⟩
  · unfold run_component
    rw [hfold]
    exact hrun
  · intro ranges hr
    obtain ⟨r1, hr1, hcr⟩ := List.mem_map.1 hr
    obtain ⟨j, hj⟩ := List.mem_iff_get?.1 hr1
    obtain ⟨rg, _, hrg, he, hl⟩ := hde j r1 hj
    obtain ⟨_, hdl, hlenrg⟩ := hall rg hrg
    have hlast : r1.getLast? = some ((resnums_on calls j).foldl extend_range default_range) := by
      rw [he]; simp
    have hdrop : r1.dropLast = rg.dropLast := by rw [he]; simp
    rw [← hcr]
    unfold cleanup_ranges
    rw [hlast]
    simp only
    by_cases hdef : (resnums_on calls j).foldl extend_range default_range = default_range
    · rw [if_pos hdef]
      refine ⟨by rw [hlast, hdef], by rw [hdrop]; exact hdl, by omega⟩
    · rw [if_neg hdef]
      by_cases hsp : ((resnums_on calls j).foldl extend_range default_range).2 -
          ((resnums_on calls j).foldl extend_range default_range).1 + 1 < min_sub_str_len
      · rw [if_pos hsp]
        refine ⟨by simp, by simpa [hdrop] using hdl, ?_⟩
        rw [hdrop]
        simp only [List.length_append, List.length_dropLast, List.length_singleton]
        omega
      · rw [if_neg hsp]
        refine ⟨by simp, ?_, ?_⟩
        · intro r hrm
          simp only [List.dropLast_concat] at hrm
          rw [he] at hrm
          rcases List.mem_append.1 hrm with hrm | hrm
          · exact hdl r hrm
          · have : r = (resnums_on calls j).foldl extend_range default_range := by
              simpa using hrm
            rw [this]
            omega
        · simp only [List.length_append, List.length_singleton]
          omega
  · intro s
    rw [hmem s]
    simp only [List.not_mem_nil, false_or, Nat.zero_add]
    constructor
    · rintro ⟨j, r1, hj, hts, hs⟩
      obtain ⟨rg, hg, hrg, he, hl⟩ := hde j r1 hj
      have hlenrg := (hall rg hrg).2.2
      have hsj : s.str = j := by rw [hs]
      have hlast : r1.getLast? = some ((resnums_on calls j).foldl extend_range default_range) := by
        rw [he]; simp
      simp only [too_short, hlast, Bool.and_eq_true, decide_eq_true_eq] at hts
      have := (too_short_fold (resnums_on calls j) (hint j)).1 hts
      rw [hsj]
      refine ⟨⟨rg, hg, ?_⟩, this⟩
      rw [hs, hl]
      simp only [toIndexType]
      omega
    · rintro ⟨⟨rg, hg, hsub⟩, hne2, hall2⟩
      have hlt : s.str < de.length := by
        rw [hlen2]
        by_contra hge
        rw [List.get?_eq_none.2 (Nat.le_of_not_lt hge)] at hg
        cases hg
      obtain ⟨rg', hg', hrg, he, hl⟩ := hde s.str _ (List.get?_eq_get hlt)
      rw [hg] at hg'
      have hrr : rg = rg' := by simpa using hg'
      subst hrr
      have hlenrg := (hall rg hrg).2.2
      refine ⟨s.str, _, List.get?_eq_get hlt, ?_, ?_⟩
      · have hlast : (de.get ⟨s.str, hlt⟩).getLast? =
            some ((resnums_on calls s.str).foldl extend_range default_range) := by
          rw [he]; simp
        simp only [too_short, hlast, Bool.and_eq_true, decide_eq_true_eq]
        exact (too_short_fold (resnums_on calls s.str) (hint s.str)).2 ⟨hne2, hall2⟩
      · rw [hl]
        have : toIndexType (rg.length - 1) = rg.length - 1 := by
          simp only [toIndexType]; omega
        rw [this, ← hsub]

theorem run_components_append : ∀ (pre : List (List ZoneResidue)) (d : RangeData)
    (calls : List ZoneResidue) (post : List (List ZoneResidue)),
    run_components d (pre ++ calls :: post) =
      (run_components d pre).bind (fun d0 =>
        (run_component d0 calls).bind (fun r => run_components r.1 post)) := by
  intro pre
  induction pre with
  | nil => intro d calls post; rfl
  | cons c pre ih =>
    intro d calls post
    simp only [List.cons_append, run_components]
    cases run_component d c with
    | none => rfl
    | some r => simp only [Option.some_bind]; exact ih r.1 calls post

theorem run_components_spec : ∀ (comps : List (List ZoneResidue)) (n c : Nat) (d : RangeData),
    RangeInv n c d → n ≤ 255 → c + comps.length ≤ 255 → (∀ calls ∈ comps, CallsOK n calls) →
    ∃ d', run_components d comps = some d' ∧ RangeInv n (c + comps.length) d' := by
  intro comps
  induction comps with
  | nil => intro n c d hinv _ _ _; exact ⟨d, rfl, hinv⟩
  | cons calls rest ih =>
    intro n c d hinv hn hc hcalls
    simp only [List.length_cons] at hc
    obtain ⟨d1, short, hrun, hinv1, _⟩ := run_component_spec n c d calls hinv hn (by omega)
      (hcalls calls (by simp))
    obtain ⟨d', hrest, hinv'⟩ := ih n (c + 1) d1 hinv1 hn (by omega)
      (fun x hx => hcalls x (by simp [hx]))
    refine ⟨d', ?_, ?_⟩
    · simp only [run_components, hrun, Option.some_bind]
      exact hrest
    · have : c + (rest.length + 1) = c + 1 + rest.length := by omega
      simp only [List.length_cons]
      rw [this]
      exact hinv'

theorem rangeInv_init (n : Nat) : RangeInv n 0 (SubStrandsRange.init n).data := by
  refine ⟨by simp [SubStrandsRange.init], ?_⟩
  intro ranges hr
  have : ranges = [default_range] := by
    simp only [SubStrandsRange.init] at hr
    exact (List.mem_replicate.1 hr).2
  rw [this]
  simp

theorem sorted_indices_mem (l : List (Int × Int)) (hl : l.length ≤ 256) (a : Nat) :
    a ∈ sorted_indices l ↔ a < l.length := by
  unfold sorted_indices
  rw [(List.perm_insertionSort (n_term_le l) _).mem_iff]
  simp only [List.mem_map, List.mem_range]
  constructor
  · rintro ⟨i, hi, rfl⟩
    unfold toIndexType
    omega
  · intro ha
    exact ⟨a, ha, by unfold toIndexType; omega⟩

theorem map_getD_range {α : Type} (dflt : α) : ∀ (l : List α),
    (List.range l.length).map (fun a => l.getD a dflt) = l := by
  intro l
  apply List.ext_get
  · simp
  · intro i h1 h2
    simp at h1
    simp [h1]

/-- The ranges of a strand as `finish` reorders them: the same ranges, in
non-decreasing order of the first residue number. -/
theorem sorted_ranges (l : List (Int × Int)) (hl : l.length ≤ 256) :
    ((sorted_indices l).map (fun a => l.getD a default_range)).Perm l ∧
      ((sorted_indices l).map (fun a => l.getD a default_range)).Pairwise
        (fun x y => x.1 ≤ y.1) := by
  constructor
  · have h1 : (sorted_indices l).Perm (List.range l.length) := by
      unfold sorted_indices
      refine (List.perm_insertionSort (n_term_le l) _).trans ?_
      have : (List.range l.length).map toIndexType = List.range l.length := by
        conv_rhs => rw [← List.map_id (List.range l.length)]
        apply List.map_congr_left
        intro a ha
        have := List.mem_range.1 ha
        simp only [toIndexType, id]
        omega
      rw [this]
    have h2 := h1.map (fun a => l.getD a default_range)
    rw [map_getD_range] at h2
    exact h2
  · rw [List.pairwise_map]
    haveI : IsTotal Nat (n_term_le l) := ⟨fun a b => le_total _ _⟩
    haveI : IsTrans Nat (n_term_le l) := ⟨fun a b c h1 h2 => le_trans h1 h2⟩
    exact List.sorted_insertionSort (n_term_le l) _

theorem pairwise_get? {α : Type} (R : α → α → Prop) : ∀ (l : List α) (i j : Nat) (x y : α),
    l.Pairwise R → l.get? i = some x → l.get? j = some y → i < j → R x y := by
  intro l
  induction l with
  | nil => intro i j x y _ h; simp at h
  | cons a l ih =>
    intro i j x y hp hi hj hij
    have hp2 := List.pairwise_cons.1 hp
    cases j with
    | zero => omega
    | succ j =>
      have hy : l.get? j = some y := by simpa using hj
      cases i with
      | zero =>
        have hx : a = x := by simpa using hi
        rw [← hx]
        exact hp2.1 y (List.get?_mem hy)
      | succ i =>
        have hx : l.get? i = some x := by simpa using hi
        exact ih i j x y hp2.2 hx hy (by omega)

theorem mem_index_vec_from : ∀ (d : RangeData) (i : Nat) (s : SubStrand),
    s ∈ index_vec_from i d ↔
      ∃ k ranges, d.get? k = some ranges ∧ s.str = i + k ∧ s.substr < ranges.length := by
  intro d
  induction d with
  | nil => intro i s; simp [index_vec_from]
  | cons r rest ih =>
    intro i s
    simp only [index_vec_from, List.mem_append, List.mem_map, List.mem_range, ih]
    constructor
    · rintro (⟨j, hj, rfl⟩ | ⟨k, ranges, h1, h2, h3⟩)
      · exact ⟨0, r, by simp, by simp, hj⟩
      · exact ⟨k + 1, ranges, by simpa using h1, by omega, h3⟩
    · rintro ⟨k, ranges, h1, h2, h3⟩
      cases k with
      | zero =>
        left
        have : r = ranges := by simpa using h1
        subst this
        refine ⟨s.substr, h3, ?_⟩
        cases s
        simp only [SubStrand.mk.injEq, and_true]
        simp only at h2
        omega
      | succ k => exact Or.inr ⟨k, ranges, by simpa using h1, by omega, h3⟩

theorem index_vec_from_sorted : ∀ (d : RangeData) (i : Nat),
    (index_vec_from i d).Pairwise (fun a b => SubStrand.lt a b = true) := by
  intro d
  induction d with
  | nil => intro i; simp [index_vec_from]
  | cons r rest ih =>
    intro i
    simp only [index_vec_from]
    rw [List.pairwise_append]
    refine ⟨?_, ih (i + 1), ?_⟩
    · rw [List.pairwise_map]
      refine (List.pairwise_lt_range r.length).imp ?_
      intro a b hab
      simp [SubStrand.lt, hab]
    · intro a ha b hb
      obtain ⟨j, _, rfl⟩ := List.mem_map.1 ha
      obtain ⟨k, ranges, _, h2, _⟩ := (mem_index_vec_from rest (i + 1) b).1 hb
      have : i < b.str := by omega
      simp [SubStrand.lt, this]

/-- The method `finish` returns when every strand has a range to pop and there
are fewer than 256 strands and sub-strands of a strand. -/
theorem finish_eq (s : SubStrandsRange) (hne : ∀ ranges ∈ s.data, ranges ≠ [])
    (hn : s.data.length ≤ 255) (hsub : ∀ ranges ∈ s.data, ranges.length ≤ 256) :
    ∃ s' conv, s.finish = some (s', conv) ∧
      s'.data = s.data.map (fun ranges =>
        (sorted_indices ranges.dropLast).map (fun a => ranges.dropLast.getD a default_range)) ∧
      s'.index_vec = s.index_vec ++ index_vec_from 0 s'.data := by
  have h1 : s.data.any (fun ranges => ranges.isEmpty) = false := by
    rw [List.any_eq_false]
    intro r hr
    have := hne r hr
    cases r with
    | nil => contradiction
    | cons a l => simp
  have h2 : (decide (256 ≤ s.data.length) ||
      s.data.any (fun ranges => decide (256 ≤ ranges.dropLast.length))) = false := by
    rw [Bool.or_eq_false_iff]
    constructor
    · simp; omega
    · rw [List.any_eq_false]
      intro r hr
      have := hsub r hr
      have := hne r hr
      cases r with
      | nil => contradiction
      | cons a l =>
        simp only [List.length_dropLast, List.length_cons] at *
        simp; omega
  unfold SubStrandsRange.finish
  rw [h1, h2]
  exact ⟨_, _, rfl, rfl, rfl⟩

theorem n_term_res_some (s : SubStrandsRange) (sub : SubStrand) (x : Int)
    (h : s.n_term_res sub = some x) :
    ∃ l r, s.data.get? sub.str = some l ∧ l.get? sub.substr = some r ∧ r.1 = x := by
  unfold SubStrandsRange.n_term_res at h
  cases hl : s.data.get? sub.str with
  | none => rw [hl] at h; simp at h
  | some l =>
    rw [hl] at h
    simp only [Option.some_bind] at h
    cases hr : l.get? sub.substr with
    | none => rw [hr] at h; simp at h
    | some r =>
      rw [hr] at h
      exact ⟨l, r, rfl, hr, by simpa using h⟩

theorem c_term_res_some (s : SubStrandsRange) (sub : SubStrand) (x : Int)
    (h : s.c_term_res sub = some x) :
    ∃ l r, s.data.get? sub.str = some l ∧ l.get? sub.substr = some r ∧ r.2 = x := by
  unfold SubStrandsRange.c_term_res at h
  cases hl : s.data.get? sub.str with
  | none => rw [hl] at h; simp at h
  | some l =>
    rw [hl] at h
    simp only [Option.some_bind] at h
    cases hr : l.get? sub.substr with
    | none => rw [hr] at h; simp at h
    | some r =>
      rw [hr] at h
      exact ⟨l, r, rfl, hr, by simpa using h⟩

theorem n_term_res_isSome (s : SubStrandsRange) (sub : SubStrand) :
    (s.n_term_res sub).isSome = true ↔
      ∃ l, s.data.get? sub.str = some l ∧ sub.substr < l.length := by
  unfold SubStrandsRange.n_term_res
  cases hl : s.data.get? sub.str with
  | none => simp
  | some l =>
    simp only [Option.some_bind, Option.isSome_map', Option.some.injEq, exists_eq_left']
    constructor
    · intro h
      by_contra hge
      rw [List.get?_eq_none.2 (Nat.le_of_not_lt hge)] at h
      simp at h
    · intro h
      rw [List.get?_eq_get h]
      rfl

/-- C14. For a registry whose strands all hold a range to pop, with at most
255 strands and at most 255 sub-strands of a strand, and an empty index
vector: `finish` returns; within every strand the first residue number does
not decrease with the index of the sub-strand; the ranges of a strand are
those it had, in another order; and `vec()` is strictly increasing for the
order by strand and then index, and lists exactly the sub-strands of the
table. -/
theorem finish_orders_substrands (s : SubStrandsRange)
    (hne : ∀ ranges ∈ s.data, ranges ≠ []) (hn : s.data.length ≤ 255)
    (hsub : ∀ ranges ∈ s.data, ranges.length ≤ 256) (hiv : s.index_vec = []) :
    ∃ s' conv, s.finish = some (s', conv) ∧
      (∀ a b : SubStrand, a.str = b.str → a.substr < b.substr → ∀ x y,
        s'.n_term_res a = some x → s'.n_term_res b = some y → x ≤ y) ∧
      (∀ str ranges, s.data.get? str = some ranges →
        ∃ l, s'.data.get? str = some l ∧ l.Perm ranges.dropLast) ∧
      s'.index_vec.Pairwise (fun a b => SubStrand.lt a b = true) ∧
      ∀ sub, sub ∈ s'.index_vec ↔ (s'.n_term_res sub).isSome = true := by
  obtain ⟨s', conv, hf, hd, hi⟩ := finish_eq s hne hn hsub
  have hdl : ∀ ranges ∈ s.data, ranges.dropLast.length ≤ 256 := by
    intro r hr
    have := hsub r hr
    simp only [List.length_dropLast]
    omega
  have hget : ∀ str l, s'.data.get? str = some l → ∃ ranges, s.data.get? str = some ranges ∧
      ranges ∈ s.data ∧
      l = (sorted_indices ranges.dropLast).map (fun a => ranges.dropLast.getD a default_range) := by
    intro str l hl
    rw [hd, List.get?_map] at hl
    cases hg : s.data.get? str with
    | none => rw [hg] at hl; simp at hl
    | some ranges =>
      rw [hg] at hl
      exact ⟨ranges, rfl, List.get?_mem hg, by simpa using hl.symm⟩
  refine ⟨s', conv, hf, ?_, ?_, ?_, ?_⟩
  · intro a b hab hlt x y hx hy
    obtain ⟨l, ra, h1, h2, h3⟩ := n_term_res_some s' a x hx
    obtain ⟨l', rb, h1', h2', h3'⟩ := n_term_res_some s' b y hy
    rw [← hab, h1] at h1'
    have hll : l = l' := by simpa using h1'
    subst hll
    obtain ⟨ranges, _, hr, hl⟩ := hget a.str l h1
    have hp := (sorted_ranges ranges.dropLast (hdl ranges hr)).2
    rw [← hl] at hp
    rw [← h3, ← h3']
    exact pairwise_get? _ l a.substr b.substr ra rb hp h2 h2' hlt
  · intro str ranges hg
    refine ⟨_, by rw [hd, List.get?_map, hg]; rfl, ?_⟩
    exact (sorted_ranges ranges.dropLast (hdl ranges (List.get?_mem hg))).1
  · rw [hi, hiv, List.nil_append]
    exact index_vec_from_sorted _ 0
  · intro sub
    rw [hi, hiv, List.nil_append, mem_index_vec_from, n_term_res_isSome]
    constructor
    · rintro ⟨k, ranges, h1, h2, h3⟩
      have : sub.str = k := by omega
      rw [this]
      exact ⟨ranges, h1, h3⟩
    · rintro ⟨l, h1, h2⟩
      exact ⟨sub.str, l, h1, by omega, h2⟩

/-- C14 on a strand whose ranges 5..6 and 1..2 were registered in this order:
after `finish` the sub-strand 0 is 1..2 and the sub-strand 1 is 5..6. -/
theorem finish_orders_substrands_witness :
    (∀ ranges ∈ unsorted_registry.data, ranges ≠ []) ∧ unsorted_registry.data.length ≤ 255 ∧
      (∀ ranges ∈ unsorted_registry.data, ranges.length ≤ 256) ∧
      unsorted_registry.index_vec = [] ∧
      (unsorted_registry.finish.map (fun r => (r.1.data, r.1.index_vec))) =
        some ([[(1, 2), (5, 6)]], [⟨0, 0⟩, ⟨0, 1⟩]) ∧
      ∃ s' conv, unsorted_registry.finish = some (s', conv) ∧
        s'.index_vec.Pairwise (fun a b => SubStrand.lt a b = true) := by
  refine ⟨by decide, by decide, by decide, by decide, by decide, ?_⟩
  obtain ⟨s', conv, h1, _, _, h4, _⟩ := finish_orders_substrands unsorted_registry
    (by decide) (by decide) (by decide) (by decide)
  exact ⟨s', conv, h1, h4⟩

/-- C13. For every sequence of components on `n` strands (at most 255 strands
and 255 components, residues on these strands with numbers between -2^30 and
2^30), each a list of `extend_substrand` calls followed by `cleanup_sheet`,
and `finish` at the end: all the calls return; every sub-strand of the final
registry spans at least 2 residues; and `cleanup_sheet` at the end of a
component returns exactly the sub-strands of that component (the last index of
a strand some call of the component was on) that are shorter, that is, whose
calls all have the same residue number. -/
theorem remaining_substrands_long (n : Nat) (comps : List (List ZoneResidue))
    (hn : n ≤ 255) (hc : comps.length ≤ 255) (hcalls : ∀ calls ∈ comps, CallsOK n calls) :
    (∃ d s' conv, run_components (SubStrandsRange.init n).data comps = some d ∧
        SubStrandsRange.finish { data := d } = some (s', conv) ∧
        ∀ sub lo hi, s'.n_term_res sub = some lo → s'.c_term_res sub = some hi →
          2 ≤ hi - lo + 1) ∧
      ∀ pre calls post, comps = pre ++ calls :: post →
        ∃ d0 d1 short, run_components (SubStrandsRange.init n).data pre = some d0 ∧
          run_component d0 calls = some (d1, short) ∧
          ∀ s, s ∈ short ↔
            (∃ ranges, d0.get? s.str = some ranges ∧ s.substr = ranges.length - 1) ∧
            resnums_on calls s.str ≠ [] ∧
            ∀ r ∈ resnums_on calls s.str, ∀ r' ∈ resnums_on calls s.str, r = r' := by
  constructor
  · obtain ⟨d, hrun, hlen, hall⟩ := run_components_spec comps n 0 (SubStrandsRange.init n).data
      (rangeInv_init n) hn (by omega) hcalls
    have hne : ∀ ranges ∈ d, ranges ≠ [] := by
      intro r hr he
      have := (hall r hr).1
      rw [he] at this
      simp at this
    obtain ⟨s', conv, hf, hd, _⟩ := finish_eq { data := d } hne (by simp only; omega)
      (by intro r hr; have := (hall r hr).2.2; omega)
    refine ⟨d, s', conv, hrun, hf, ?_⟩
    intro sub lo hi hlo hhi
    obtain ⟨l, r, h1, h2, h3⟩ := n_term_res_some s' sub lo hlo
    obtain ⟨l', r', h1', h2', h3'⟩ := c_term_res_some s' sub hi hhi
    rw [h1] at h1'
    have hll : l = l' := by simpa using h1'
    subst hll
    rw [h2] at h2'
    have hrr : r = r' := by simpa using h2'
    subst hrr
    rw [hd, List.get?_map] at h1
    simp only at h1
    cases hg : d.get? sub.str with
    | none => rw [hg] at h1; simp at h1
    | some ranges =>
      rw [hg] at h1
      have hm := List.get?_mem hg
      have hl : l = (sorted_indices ranges.dropLast).map
          (fun a => ranges.dropLast.getD a default_range) := by simpa using h1.symm
      have hp := (sorted_ranges ranges.dropLast (by
        have := (hall ranges hm).2.2
        simp only [List.length_dropLast]; omega)).1
      rw [← hl] at hp
      have hr : r ∈ ranges.dropLast := hp.mem_iff.1 (List.get?_mem h2)
      have := (hall ranges hm).2.1 r hr
      simp only [min_sub_str_len] at this
      rw [← h3, ← h3']
      exact this
  · intro pre calls post hcomps
    have hlen : pre.length + 1 + post.length = comps.length := by
      rw [hcomps]; simp; omega
    obtain ⟨d0, hrun, hinv⟩ := run_components_spec pre n 0 (SubStrandsRange.init n).data
      (rangeInv_init n) hn (by omega) (fun x hx => hcalls x (by rw [hcomps]; simp [hx]))
    rw [Nat.zero_add] at hinv
    obtain ⟨d1, short, hrc, _, hmem⟩ := run_component_spec n pre.length d0 calls hinv hn
      (by omega) (hcalls calls (by rw [hcomps]; simp))
    exact ⟨d0, d1, short, hrun, hrc, hmem⟩

theorem two_components_ok : ∀ calls ∈ two_components, CallsOK 1 calls := by
  intro calls h
  simp only [two_components, List.mem_cons, List.mem_singleton, List.not_mem_nil, or_false] at h
  rcases h with rfl | rfl <;> intro res hr <;>
    simp only [List.mem_cons, List.mem_singleton, List.not_mem_nil, or_false] at hr
  · rcases hr with rfl | rfl <;> simp
  · subst hr; simp

/-- C13 on one strand with the components {5, 6} and {9}: the second
`cleanup_sheet` returns the sub-strand 1 of the strand, and the final registry
holds the range 5..6 only. -/
theorem remaining_substrands_long_witness :
    (1 ≤ 255 ∧ two_components.length ≤ 255 ∧ ∀ calls ∈ two_components, CallsOK 1 calls) ∧
      ((run_components (SubStrandsRange.init 1).data two_components).bind
        (fun d => (SubStrandsRange.finish { data := d }).map (fun r => r.1.data))) =
        some [[(5, 6)]] ∧
      (run_component [[(5, 6), default_range]] (two_components.getD 1 [])).map
        (fun r => r.2) = some [⟨0, 1⟩] ∧
      ∃ d s' conv, run_components (SubStrandsRange.init 1).data two_components = some d ∧
        SubStrandsRange.finish { data := d } = some (s', conv) ∧
        ∀ sub lo hi, s'.n_term_res sub = some lo → s'.c_term_res sub = some hi →
          2 ≤ hi - lo + 1 :=
  ⟨⟨by decide, by decide, two_components_ok⟩, by decide, by decide,
    (remaining_substrands_long 1 two_components (by decide) (by decide) two_components_ok).1⟩

/-! ## Simple cycles in closed walks -/

theorem not_nodup_split {α : Type} : ∀ (l : List α), ¬ l.Nodup →
    ∃ x l1 l2 l3, l = l1 ++ x :: l2 ++ x :: l3 := by
  intro l
  induction l with
  | nil => intro h; exact absurd List.nodup_nil h
  | cons a l ih =>
    intro h
    by_cases ha : a ∈ l
    · obtain ⟨s, t, hst⟩ := List.append_of_mem ha
      exact ⟨a, [], s, t, by rw [hst]; simp⟩
    · have hl : ¬ l.Nodup := fun hn => h (List.nodup_cons.2 ⟨ha, hn⟩)
      obtain ⟨x, l1, l2, l3, he⟩ := ih hl
      exact ⟨x, a :: l1, l2, l3, by rw [he]; simp⟩

/-- A closed walk holds a closed walk without a repeated node. -/
theorem exists_simple_cycle {α : Type} (R : α → α → Prop) : ∀ (n : Nat) (c : List α),
    c.length ≤ n → c ≠ [] → ClosedChain R c →
    ∃ c', c' ≠ [] ∧ c'.Nodup ∧ ClosedChain R c' ∧ ∀ x ∈ c', x ∈ c := by
  intro n
  induction n with
  | zero =>
    intro c hlen hne
    cases c with
    | nil => contradiction
    | cons a l => simp at hlen
  | succ n ih =>
    intro c hlen hne hc
    by_cases hnd : c.Nodup
    · exact ⟨c, hne, hnd, hc, fun x hx => hx⟩
    · obtain ⟨x, l1, l2, l3, he⟩ := not_nodup_split c hnd
      have hsub : ClosedChain R (x :: l2) := by
        unfold ClosedChain at hc ⊢
        apply List.Chain'.infix hc
        simp only [List.take_succ_cons, List.take_zero]
        rw [he]
        refine ⟨l1, l3 ++ (l1 ++ x :: l2 ++ x :: l3).take 1, ?_⟩
        simp
      have hlen2 : (x :: l2).length ≤ n := by
        rw [he] at hlen
        simp only [List.length_append, List.length_cons] at hlen ⊢
        omega
      obtain ⟨c', h1, h2, h3, h4⟩ := ih (x :: l2) hlen2 (by simp) hsub
      refine ⟨c', h1, h2, h3, ?_⟩
      intro y hy
      have := h4 y hy
      rw [he]
      simp only [List.mem_append, List.mem_cons] at this ⊢
      tauto

/-- Two paths, there and back, close into a walk. -/
theorem closed_walk_of_paths {α : Type} (R : α → α → Prop) (a b : α) (p q : List α)
    (hab : a ≠ b)
    (hp : p.head? = some a ∧ p.getLast? = some b ∧ List.Chain' R p)
    (hq : q.head? = some b ∧ q.getLast? = some a ∧ List.Chain' R q) :
    ∃ c, c ≠ [] ∧ ClosedChain R c ∧ ∀ x ∈ c, x ∈ p ∨ x ∈ q := by
  obtain ⟨hp1, hp2, hp3⟩ := hp
  obtain ⟨hq1, hq2, hq3⟩ := hq
  have hpne : p ≠ [] := by intro h; rw [h] at hp1; simp at hp1
  have hqne : q ≠ [] := by intro h; rw [h] at hq1; simp at hq1
  have hpl : p.dropLast ++ [b] = p := by
    have := List.dropLast_append_getLast hpne
    rw [List.getLast?_eq_getLast _ hpne] at hp2
    have hb : p.getLast hpne = b := by simpa using hp2
    rw [hb] at this
    exact this
  have hpd : p.dropLast ≠ [] := by
    intro h
    rw [h] at hpl
    rw [← hpl] at hp1
    simp at hp1
    exact hab hp1.symm
  have hhead : (p.dropLast).head? = some a := by
    rw [← hpl] at hp1
    cases hd : p.dropLast with
    | nil => exact absurd hd hpd
    | cons x xs => rw [hd] at hp1; simpa using hp1
  refine ⟨p.dropLast ++ q.dropLast, ?_, ?_, ?_⟩
  · intro h
    exact hpd (List.append_eq_nil.1 h).1
  · unfold ClosedChain
    have htake : (p.dropLast ++ q.dropLast).take 1 = [a] := by
      cases hd : p.dropLast with
      | nil => exact absurd hd hpd
      | cons x xs =>
        rw [hd] at hhead
        have : x = a := by simpa using hhead
        simp [this]
    have hql : q.dropLast ++ [a] = q := by
      have := List.dropLast_append_getLast hqne
      rw [List.getLast?_eq_getLast _ hqne] at hq2
      have hb : q.getLast hqne = a := by simpa using hq2
      rw [hb] at this
      exact this
    rw [htake, List.append_assoc, hql]
    rw [← hpl] at hp3
    rw [List.chain'_append] at hp3 ⊢
    refine ⟨hp3.1, hq3, ?_⟩
    intro x hx y hy
    rw [hq1] at hy
    have : y = b := by simpa using hy.symm
    rw [this]
    exact hp3.2.2 x hx b (by simp)
  · intro x hx
    rcases List.mem_append.1 hx with h | h
    · exact Or.inl (List.mem_of_mem_dropLast h)
    · exact Or.inr (List.mem_of_mem_dropLast h)

theorem path_prefix (adj : AdjSubVec) (a b x : SubStrand) (p : List SubStrand)
    (hp : IsPath adj a b p) (hx : x ∈ p) : ∃ p', IsPath adj a x p' := by
  obtain ⟨l1, l2, he⟩ := List.append_of_mem hx
  obtain ⟨h1, _, h3⟩ := hp
  refine ⟨l1 ++ [x], ?_, by simp, ?_⟩
  · rw [he] at h1
    cases l1 with
    | nil => simpa using h1
    | cons y ys => simpa using h1
  · have : p = (l1 ++ [x]) ++ l2 := by rw [he]; simp
    rw [this] at h3
    exact List.Chain'.left_of_append h3

theorem path_suffix (adj : AdjSubVec) (a b x : SubStrand) (p : List SubStrand)
    (hp : IsPath adj a b p) (hx : x ∈ p) : ∃ p', IsPath adj x b p' := by
  obtain ⟨l1, l2, he⟩ := List.append_of_mem hx
  obtain ⟨_, h2, h3⟩ := hp
  refine ⟨x :: l2, rfl, ?_, ?_⟩
  · rw [he] at h2
    rw [List.getLast?_append_of_ne_nil _ (by simp)] at h2
    exact h2
  · rw [he] at h3
    exact List.Chain'.right_of_append h3

theorem map_at_adj_push_self (adj : AdjSubVec) (s : SubStrand) (k : SubStrandsPairKey) :
    ∃ ks, map_at (adj_push adj s k) s = some ks ∧ k ∈ ks ∧
      ∀ ks0, map_at adj s = some ks0 → ∀ x ∈ ks0, x ∈ ks := by
  induction adj with
  | nil => exact ⟨[k], by simp [adj_push, map_at], by simp, by intro ks0 h; simp [map_at] at h⟩
  | cons e rest ih =>
    by_cases he : e.1 = s
    · refine ⟨e.2 ++ [k], by simp [adj_push, map_at, he], by simp, ?_⟩
      intro ks0 h x hx
      simp only [map_at, he, if_true, Option.some.injEq] at h
      rw [← h] at hx
      simp [hx]
    · obtain ⟨ks, h1, h2, h3⟩ := ih
      refine ⟨ks, by simp [adj_push, map_at, he, h1], h2, ?_⟩
      intro ks0 h x hx
      simp only [map_at, he, if_false] at h
      exact h3 ks0 h x hx

theorem map_at_adj_push_other (adj : AdjSubVec) (s t : SubStrand) (k : SubStrandsPairKey)
    (hst : s ≠ t) : map_at (adj_push adj s k) t = map_at adj t := by
  induction adj with
  | nil => simp [adj_push, map_at, hst]
  | cons e rest ih =>
    by_cases he : e.1 = s
    · have het : e.1 ≠ t := by rw [he]; exact hst
      simp [adj_push, map_at, he, hst]
    · by_cases het : e.1 = t
      · have hts : ¬ t = s := fun h => hst h.symm
        simp [adj_push, map_at, het, hts]
      · simp [adj_push, map_at, he, het, ih]

/-- Every key of the edge map is listed in the index under its first
sub-strand. -/
theorem gen_adj_complete (data : AdjListWithSubData) :
    ∀ d ∈ data, ∃ ks, map_at (gen_adj_sub_vec data) d.1.sub0 = some ks ∧ d.1 ∈ ks := by
  induction data using List.reverseRecOn with
  | nil => intro d hd; simp at hd
  | append_singleton ds e ih =>
    intro d hd
    have hstep : gen_adj_sub_vec (ds ++ [e]) = adj_push (gen_adj_sub_vec ds) e.1.sub0 e.1 := by
      simp [gen_adj_sub_vec, List.foldl_append]
    rw [hstep]
    obtain ⟨ks, h1, h2, h3⟩ := map_at_adj_push_self (gen_adj_sub_vec ds) e.1.sub0 e.1
    rcases List.mem_append.1 hd with hd | hd
    · obtain ⟨ks0, g1, g2⟩ := ih d hd
      by_cases hs : e.1.sub0 = d.1.sub0
      · rw [← hs]
        rw [← hs] at g1
        exact ⟨ks, h1, h3 ks0 g1 _ g2⟩
      · rw [map_at_adj_push_other _ _ _ _ hs]
        exact ⟨ks0, g1, g2⟩
    · have : d = e := by simpa using hd
      rw [this]
      exact ⟨ks, h1, h2⟩

theorem step_of_key (data : AdjListWithSubData) (d : SubStrandsPairKey × SubStrandsPairNode)
    (hd : d ∈ data) : Step (gen_adj_sub_vec data) d.1.sub0 d.1.sub1 := by
  obtain ⟨ks, h1, h2⟩ := gen_adj_complete data d hd
  unfold Step targets
  rw [h1]
  simp only [Option.getD_some, List.mem_map]
  exact ⟨d.1, h2, rfl⟩

theorem mapM_some_mem {α β : Type} (f : α → Option β) : ∀ (l : List α) (r : List β),
    l.mapM f = some r → ∀ y ∈ r, ∃ x ∈ l, f x = some y := by
  intro l
  induction l with
  | nil =>
    intro r h y hy
    rw [List.mapM_nil] at h
    have : r = [] := by
      injection h with h'
      exact h'.symm
    rw [this] at hy
    simp at hy
  | cons a l ih =>
    intro r h y hy
    rw [List.mapM_cons] at h
    cases hfa : f a with
    | none => rw [hfa] at h; simp at h
    | some b =>
      rw [hfa] at h
      cases hl : l.mapM f with
      | none => rw [hl] at h; simp at h
      | some bs =>
        rw [hl] at h
        have hr : r = b :: bs := by simpa using h.symm
        rw [hr] at hy
        rcases List.mem_cons.1 hy with e | e
        · exact ⟨a, by simp, by rw [e]; exact hfa⟩
        · obtain ⟨x, hx, hfx⟩ := ih bs hl y e
          exact ⟨x, by simp [hx], hfx⟩

theorem mapM_total {α β : Type} (f : α → Option β) : ∀ (l : List α),
    (∀ x ∈ l, ∃ y, f x = some y) → ∃ r, l.mapM f = some r := by
  intro l
  induction l with
  | nil => intro _; exact ⟨[], rfl⟩
  | cons a l ih =>
    intro h
    obtain ⟨b, hb⟩ := h a (by simp)
    obtain ⟨bs, hbs⟩ := ih (fun x hx => h x (by simp [hx]))
    exact ⟨b :: bs, by rw [List.mapM_cons, hb, hbs]; rfl⟩

theorem max_size_none (l : List (List SubStrand)) (h : max_size l = none) : l = [] := by
  cases l with
  | nil => rfl
  | cons c cs => simp [max_size] at h

theorem finish_total (sh0 : Sheet) (keys : SubStrandsPairKeyVec) :
    ∃ sh, sh0.finish keys = some sh := by
  obtain ⟨u, hu, _⟩ := check_undirected_spec (sh0.keys keys)
  obtain ⟨hidden, hf, _, _⟩ := findCycle_run (sh0.keys keys)
  unfold Sheet.finish Sheet.cycle_check
  rw [hu, hf]
  exact ⟨_, rfl⟩

/-- What `finish` leaves in a sheet: the members are kept, the flag is the
result of `check_undirected` on the keys of the sheet, and `has_cycle` is
false only when `FindCycle` reports no cycle for these keys. -/
theorem finish_fields (sh0 sh : Sheet) (keys : SubStrandsPairKeyVec)
    (h : sh0.finish keys = some sh) :
    sh.member_substr = sh0.member_substr ∧
      check_undirected (sh0.keys keys) = some sh.is_undirected ∧
      (sh.with_cycle = false → FindCycle (sh0.keys keys) = some []) := by
  unfold Sheet.finish Sheet.cycle_check at h
  cases hu : check_undirected (sh0.keys keys) with
  | none => rw [hu] at h; simp at h
  | some u =>
    rw [hu] at h
    simp only [Option.some_bind] at h
    cases hf : FindCycle (sh0.keys keys) with
    | none => rw [hf] at h; simp at h
    | some tmp =>
      rw [hf] at h
      simp only [Option.map_some', Option.some.injEq] at h
      cases hm : max_size (sh0.cycles_vec ++ tmp.map (rotate_to_smallest SubStrand.lt)) with
      | none =>
        rw [hm] at h
        simp only at h
        rw [← h]
        refine ⟨rfl, rfl, ?_⟩
        intro _
        have := max_size_none _ hm
        have h2 := (List.append_eq_nil.1 this).2
        rw [List.map_eq_nil_iff] at h2
        rw [h2]
      | some n =>
        rw [hm] at h
        simp only at h
        rw [← h]
        refine ⟨rfl, rfl, ?_⟩
        intro hw
        simp at hw

theorem ofSubs_sub (k : SubStrandsPairKey) : SubStrandsPairKey.ofSubs k.sub0 k.sub1 = k := rfl

theorem ofSubs_reverse (a b : SubStrand) :
    (SubStrandsPairKey.ofSubs a b).reverse = SubStrandsPairKey.ofSubs b a := rfl

/-- A closed walk without a repeated sub-strand among the members of a sheet
makes the sheet undirected or gives it a cycle. -/
theorem simple_cycle_absurd (data : AdjListWithSubData)
    (hself : ∀ d ∈ data, d.1.sub0 ≠ d.1.sub1) (sh0 : Sheet) (c : List SubStrand)
    (hne : c ≠ []) (hnd : c.Nodup) (hc : ClosedChain (Step (gen_adj_sub_vec data)) c)
    (hmem : ∀ x ∈ c, x ∈ sh0.member_substr)
    (hu : check_undirected (sh0.keys (data.map (fun e => e.1))) = some false)
    (hf : FindCycle (sh0.keys (data.map (fun e => e.1))) = some []) : False := by
  have hedge : ∀ x y, x ∈ c → y ∈ c → Step (gen_adj_sub_vec data) x y →
      SubStrandsPairKey.ofSubs x y ∈ sh0.keys (data.map (fun e => e.1)) := by
    intro x y hx hy hs
    obtain ⟨d, hd, h0, h1⟩ := step_gen_adj data x y hs
    unfold Sheet.keys
    rw [List.mem_filter]
    refine ⟨?_, ?_⟩
    · rw [← h0, ← h1, ofSubs_sub]
      exact List.mem_map.2 ⟨d, hd, rfl⟩
    · simp [SubStrandsPairKey.ofSubs, SubStrandsPairKey.sub0, SubStrandsPairKey.sub1,
        hmem x hx, hmem y hy]
  have hcyc : IsCycleIn (sh0.keys (data.map (fun e => e.1))) c :=
    closedChain_imp _ _ c hedge hc
  cases c with
  | nil => exact hne rfl
  | cons x t =>
    cases t with
    | nil =>
      simp only [ClosedChain, List.take_succ_cons, List.take_zero, List.singleton_append,
        List.chain'_cons, List.chain'_singleton, and_true] at hc
      obtain ⟨d, hd, h0, h1⟩ := step_gen_adj data x x hc
      exact hself d hd (by rw [h0, h1])
    | cons y t =>
      cases t with
      | nil =>
        simp only [IsCycleIn, ClosedChain, List.take_succ_cons, List.take_zero,
          List.cons_append, List.nil_append, List.chain'_cons, List.chain'_singleton,
          and_true] at hcyc
        obtain ⟨b, hb, hiff⟩ := check_undirected_spec (sh0.keys (data.map (fun e => e.1)))
        rw [hu] at hb
        have hbf : b = false := by
          injection hb with h'
          exact h'.symm
        have : b = true := hiff.2 ⟨_, hcyc.1, by rw [ofSubs_reverse]; exact hcyc.2⟩
        rw [hbf] at this
        cases this
      | cons z t =>
        obtain ⟨hidden, hrun, _, hrep⟩ := findCycle_run (sh0.keys (data.map (fun e => e.1)))
        obtain ⟨d, hd, _⟩ := cycle_represented _ hidden hrep (x :: y :: z :: t) hnd
          (by simp) hcyc
        rw [hf] at hrun
        have : List.map (cycle_of (init_edges (sh0.keys (data.map (fun e => e.1)))).1) hidden =
            [] := by
          injection hrun with h'
          exact h'.symm
        rw [this] at hd
        simp at hd

theorem conn_endpoint (data : AdjListWithSubData) (a b : SubStrand)
    (h : Conn (gen_adj_sub_vec data) a b) :
    ∃ d ∈ data, d.1.sub0 = a ∨ d.1.sub1 = a := by
  unfold Conn at h
  obtain ⟨c, hc, _⟩ := Relation.TransGen.head'_iff.1 h
  rcases hc with hs | hs
  · obtain ⟨d, hd, h0, _⟩ := step_gen_adj data a c hs
    exact ⟨d, hd, Or.inl h0⟩
  · obtain ⟨d, hd, _, h1⟩ := step_gen_adj data c a hs
    exact ⟨d, hd, Or.inr h1⟩

theorem mem_index_pairs (vec : List SubStrand) (a b : SubStrand) (ha : a ∈ vec) (hb : b ∈ vec) :
    (a, b) ∈ index_pairs vec := by
  unfold index_pairs
  rw [List.mem_flatMap]
  exact ⟨a, ha, List.mem_map.2 ⟨b, hb, rfl⟩⟩

/-- C18, as amended. When no key joins a sub-strand to itself and the index
vector holds the sub-strands of every key, `init_sheets` builds the sheets and
`cycle_check` finishes them, and for every sheet that is marked neither
undirected nor as having a cycle and every two distinct members `a` and `b` of
it: both searches return, at most one of `search(a, b)` and `search(b, a)` is
reachable, and exactly one when an edge joins `a` and `b` in either
direction. -/
theorem search_one_direction (data : AdjListWithSubData) (vec : List SubStrand)
    (hself : ∀ d ∈ data, d.1.sub0 ≠ d.1.sub1)
    (hvec : ∀ d ∈ data, d.1.sub0 ∈ vec ∧ d.1.sub1 ∈ vec) :
    ∃ S F, init_sheets_added data vec = some S ∧ Sheets.cycle_check S data = some F ∧
      ∀ sh ∈ F, sh.is_undirected = false → sh.with_cycle = false →
        ∀ a ∈ sh.member_substr, ∀ b ∈ sh.member_substr, a ≠ b →
          ∃ ab ba, search data a b (gen_adj_sub_vec data) = some ab ∧
            search data b a (gen_adj_sub_vec data) = some ba ∧
            ¬ (ab.reachable = true ∧ ba.reachable = true) ∧
            ((∃ d ∈ data, d.1 = SubStrandsPairKey.ofSubs a b ∨
                d.1 = SubStrandsPairKey.ofSubs b a) →
              (ab.reachable = true ∨ ba.reachable = true)) := by
  have hcons := gen_adj_consistent data
  obtain ⟨T, hT, hd, hcn, _, hpairs⟩ := init_sheets_loop_spec data (gen_adj_sub_vec data) hcons
    (index_pairs vec) [] List.Pairwise.nil (fun s hs => absurd hs (List.not_mem_nil _))
  obtain ⟨F, hF⟩ := mapM_total (fun sh => sh.finish (data.map (fun e => e.1))) T
    (fun sh _ => finish_total sh _)
  refine ⟨T, F, hT, hF, ?_⟩
  intro sh hsh hund hcyc a ha b hb hab
  obtain ⟨sh0, hsh0, hfin⟩ := mapM_some_mem _ T F hF sh hsh
  obtain ⟨hmem, hu, hnc⟩ := finish_fields sh0 sh _ hfin
  rw [hund] at hu
  have hf := hnc hcyc
  rw [hmem] at ha hb
  obtain ⟨ab, hsab⟩ := search_total data (gen_adj_sub_vec data) a b hcons
  obtain ⟨ba, hsba⟩ := search_total data (gen_adj_sub_vec data) b a hcons
  have hreach : ∀ x y r, search data x y (gen_adj_sub_vec data) = some r →
      r.reachable = true → ∃ p, IsPath (gen_adj_sub_vec data) x y p := by
    intro x y r hs hr
    rcases search_result data _ x y r hs with ⟨he, _⟩ | ⟨_, tl, n, _, hdist, _⟩
    · rw [he] at hr; simp at hr
    · exact path_of_walk _ x (n + 1) y hdist.1
  have hstepreach : ∀ x y r, x ≠ y → search data x y (gen_adj_sub_vec data) = some r →
      Step (gen_adj_sub_vec data) x y → r.reachable = true := by
    intro x y r hxy hs hst
    rcases search_result data _ x y r hs with ⟨_, he | hno⟩ | ⟨_, tl, n, _, _, _, _, _, hr⟩
    · exact absurd he hxy
    · exact absurd (Walk.tail Walk.refl hst) (hno 1)
    · rw [hr]
  have hvecmem : ∀ x ∈ sh0.member_substr, x ∈ vec := by
    intro x hx
    obtain ⟨d, hdm, h | h⟩ := conn_endpoint data x x (hcn sh0 hsh0 x hx x hx)
    · rw [← h]; exact (hvec d hdm).1
    · rw [← h]; exact (hvec d hdm).2
  have hsame : ∀ x y, SameSheet T x y → x ∈ sh0.member_substr → y ∈ sh0.member_substr := by
    rintro x y ⟨s, hs, hxs, hys⟩ hx
    by_cases hst : s = sh0
    · rw [← hst]; exact hys
    · exfalso
      have hsym : Symmetric Disj := fun x y h => disj_symm x y h
      exact List.Pairwise.forall hsym hd hs hsh0 hst x hxs hx
  have hsame2 : ∀ x y, SameSheet T x y → y ∈ sh0.member_substr → x ∈ sh0.member_substr := by
    rintro x y ⟨s, hs, hxs, hys⟩ hy
    exact hsame y x ⟨s, hs, hys, hxs⟩ hy
  refine ⟨ab, ba, hsab, hsba, ?_, ?_⟩
  · rintro ⟨h1, h2⟩
    obtain ⟨p, hp⟩ := hreach a b ab hsab h1
    obtain ⟨q, hq⟩ := hreach b a ba hsba h2
    obtain ⟨c, hcne, hcc, hcm⟩ := closed_walk_of_paths (Step (gen_adj_sub_vec data)) a b p q
      hab hp hq
    obtain ⟨c', h1', h2', h3', h4'⟩ := exists_simple_cycle (Step (gen_adj_sub_vec data))
      c.length c (le_refl _) hcne hcc
    apply simple_cycle_absurd data hself sh0 c' h1' h2' h3' _ hu hf
    intro x hx
    have hxv : x ∈ vec := by
      obtain ⟨y, hy⟩ := closedChain_succ _ c' h3' x hx
      obtain ⟨d, hdm, h0, _⟩ := step_gen_adj data x y hy
      rw [← h0]; exact (hvec d hdm).1
    by_cases hxa : x = a
    · rw [hxa]; exact ha
    · rcases hcm x (h4' x hx) with hxp | hxq
      · obtain ⟨p', hp'⟩ := path_prefix _ a b x p hp hxp
        exact hsame a x (hpairs (a, x) (mem_index_pairs vec a x (hvecmem a ha) hxv)
          (fun h => hxa h.symm) ⟨p', hp'⟩) ha
      · obtain ⟨q', hq'⟩ := path_suffix _ b a x q hq hxq
        exact hsame2 x a (hpairs (x, a) (mem_index_pairs vec x a hxv (hvecmem a ha))
          hxa ⟨q', hq'⟩) ha
  · rintro ⟨d, hdm, hk | hk⟩
    · left
      apply hstepreach a b ab hab hsab
      have := step_of_key data d hdm
      rw [hk] at this
      exact this
    · right
      apply hstepreach b a ba (fun h => hab h.symm) hsba
      have := step_of_key data d hdm
      rw [hk] at this
      exact this

/-- C18 as amended, on the chain 0 -> 1 -> 2 with the separate edge 4 -> 3. -/
theorem search_one_direction_witness :
    ((∀ d ∈ two_chains, d.1.sub0 ≠ d.1.sub1) ∧
      (∀ d ∈ two_chains, d.1.sub0 ∈ five_substrands ∧ d.1.sub1 ∈ five_substrands)) ∧
      ((init_sheets_added two_chains five_substrands).bind
          (fun S => Sheets.cycle_check S two_chains)).map
        (fun F => F.map (fun sh => (sh.member_substr, sh.is_undirected, sh.with_cycle))) =
        some [([⟨0, 0⟩, ⟨1, 0⟩, ⟨2, 0⟩], false, false), ([⟨4, 0⟩, ⟨3, 0⟩], false, false)] ∧
      ∃ S F, init_sheets_added two_chains five_substrands = some S ∧
        Sheets.cycle_check S two_chains = some F ∧
        ∀ sh ∈ F, sh.is_undirected = false → sh.with_cycle = false →
          ∀ a ∈ sh.member_substr, ∀ b ∈ sh.member_substr, a ≠ b →
            ∃ ab ba, search two_chains a b (gen_adj_sub_vec two_chains) = some ab ∧
              search two_chains b a (gen_adj_sub_vec two_chains) = some ba ∧
              ¬ (ab.reachable = true ∧ ba.reachable = true) ∧
              ((∃ d ∈ two_chains, d.1 = SubStrandsPairKey.ofSubs a b ∨
                  d.1 = SubStrandsPairKey.ofSubs b a) →
                (ab.reachable = true ∨ ba.reachable = true)) :=
  ⟨⟨by decide, by decide⟩, by decide,
    search_one_direction two_chains five_substrands (by decide) (by decide)⟩

/-- C18 fails as stated. With the edges 0 -> 2 and 1 -> 2 the three
sub-strands form one sheet that is not marked undirected, and neither
`search(0, 1)` nor `search(1, 0)` is reachable. With the edges 0 -> 1, 1 -> 2
and 2 -> 0 the sheet is not marked undirected either, and `search(0, 1)` and
`search(1, 0)` are both reachable. -/
theorem search_one_direction_counterexample :
    (((init_sheets_added branch three_substrands).bind
          (fun S => Sheets.cycle_check S branch)).map
        (fun F => F.map (fun sh => (sh.member_substr, sh.is_undirected))) =
        some [([⟨0, 0⟩, ⟨2, 0⟩, ⟨1, 0⟩], false)] ∧
      (search branch ⟨0, 0⟩ ⟨1, 0⟩ (gen_adj_sub_vec branch)).map (fun a => a.reachable) =
        some false ∧
      (search branch ⟨1, 0⟩ ⟨0, 0⟩ (gen_adj_sub_vec branch)).map (fun a => a.reachable) =
        some false) ∧
    (((init_sheets_added directed_triangle three_substrands).bind
          (fun S => Sheets.cycle_check S directed_triangle)).map
        (fun F => F.map (fun sh => (sh.member_substr, sh.is_undirected))) =
        some [([⟨0, 0⟩, ⟨1, 0⟩, ⟨2, 0⟩], false)] ∧
      (search directed_triangle ⟨0, 0⟩ ⟨1, 0⟩ (gen_adj_sub_vec directed_triangle)).map
        (fun a => a.reachable) = some true ∧
      (search directed_triangle ⟨1, 0⟩ ⟨0, 0⟩ (gen_adj_sub_vec directed_triangle)).map
        (fun a => a.reachable) = some true) := by
  refine ⟨⟨by decide, by decide, by decide⟩, by decide, by decide, by decide⟩

/-! ## `fix_undirected_paths` -/

theorem shrunk_mono (B C : SubStrandsPairKey → Prop) (hBC : ∀ k, B k → C k)
    (a b : AdjListWithSub) (h : Shrunk B a b) : Shrunk C a b := by
  intro key
  rcases h key with g | ⟨g, gb⟩
  · exact Or.inl g
  · exact Or.inr ⟨g, hBC key gb⟩

theorem map_at_map_set {K V : Type} [DecidableEq K] (k : K) (v : V) :
    ∀ (m : List (K × V)) (x : K),
      map_at (map_set m k v) x = if x = k then (map_at m k).map (fun _ => v) else map_at m x := by
  intro m
  induction m with
  | nil => intro x; simp [map_set, map_at]
  | cons e rest ih =>
    intro x
    by_cases hek : e.1 = k
    · by_cases hx : x = k
      · simp [map_set, map_at, hek, hx]
      · have : ¬ k = x := fun h => hx h.symm
        simp [map_set, map_at, hek, hx, this]
    · by_cases hx : x = k
      · subst hx
        simp [map_set, map_at, hek, ih]
      · by_cases hex : e.1 = x
        · simp [map_set, map_at, hek, hx, hex]
        · simp [map_set, map_at, hek, hx, hex, ih]

theorem map_at_isSome_mem {K V : Type} [DecidableEq K] (m : List (K × V)) (x : K)
    (h : (map_at m x).isSome = true) : x ∈ m.map (fun e => e.1) := by
  obtain ⟨v, hv⟩ := Option.isSome_iff_exists.1 h
  exact List.mem_map.2 ⟨(x, v), map_at_mem m x v hv, rfl⟩

theorem except_bind_ok {ε α β : Type} (e : Except ε α) (f : α → Except ε β) (r : β)
    (h : e.bind f = .ok r) : ∃ a, e = .ok a ∧ f a = .ok r := by
  cases e with
  | error x => simp [Except.bind] at h
  | ok a => exact ⟨a, rfl, h⟩

theorem extend_ok (z z' : StrictZone) (res : ZoneResidue) (h : z.extend res = .ok z') :
    extend_substrand z.sub_strands.data res = some z'.sub_strands.data ∧
      z'.strict = z.strict ∧ z'.sses = z.sses ∧ z'.strand_indices = z.strand_indices := by
  unfold StrictZone.extend at h
  cases he : extend_substrand z.sub_strands.data res with
  | none => rw [he] at h; cases h
  | some d =>
    rw [he] at h
    simp only [Except.ok.injEq] at h
    subst h
    exact ⟨rfl, rfl, rfl, rfl⟩

theorem set_side_ok (z z' : StrictZone) (res : ZoneResidue) (side : SideStatus)
    (h : z.set_side res side = .ok z') :
    z'.sub_strands = z.sub_strands ∧ z'.sses = z.sses ∧
      z'.strand_indices = z.strand_indices := by
  unfold StrictZone.set_side at h
  obtain ⟨info, _, h2⟩ := except_bind_ok _ _ _ h
  simp only [Except.ok.injEq] at h2
  subst h2
  exact ⟨rfl, rfl, rfl⟩

theorem add_adj_substrands_ok (z z' : StrictZone) (res0 res1 : ZoneResidue) (hb rd : Bool)
    (h : add_adj_substrands z res0 res1 hb rd = .ok z') :
    z'.sub_strands = z.sub_strands ∧ z'.strict = z.strict ∧ z'.sses = z.sses ∧
      z'.strand_indices = z.strand_indices := by
  unfold add_adj_substrands at h
  obtain ⟨info, _, h2⟩ := except_bind_ok _ _ _ h
  obtain ⟨a, _, h3⟩ := except_bind_ok _ _ _ h2
  obtain ⟨b, _, h4⟩ := except_bind_ok _ _ _ h3
  simp only [Except.ok.injEq] at h4
  subst h4
  exact ⟨rfl, rfl, rfl, rfl⟩

/-- What a round of the loop over the paired residues does when it returns. -/
theorem bfs_adj_ok (U : AdjList) (target : ZoneResidue) (i : Bool) (s s' : BfsState)
    (h : bfs_adj U target i s = .ok s') :
    s' = s ∨ ∃ info_t z1 z2 z3 sd fr al,
      strict_c_info s.zone.strict target = .ok info_t ∧
      (at2 info_t.adj_residues i).has_value = true ∧
      res_count s.remainder (at2 info_t.adj_residues i) = true ∧
      s.zone.set_side (at2 info_t.adj_residues i) info_t.side = .ok z1 ∧
      z1.extend (at2 info_t.adj_residues i) = .ok z2 ∧
      map_at U (target.sse_id, (at2 info_t.adj_residues i).sse_id) = some sd ∧
      (if s.fallback then .ok (true, s.relative_directions)
        else update_rel_dir target (at2 info_t.adj_residues i) sd.direction
          s.relative_directions) = .ok fr ∧
      bfs_add_keys z2 target (at2 info_t.adj_residues i) i sd.direction fr.1 fr.2 s.adj_list =
        .ok al ∧
      add_adj_substrands z2 target (at2 info_t.adj_residues i) i sd.direction = .ok z3 ∧
      s' = { s with
             zone := z3,
             adj_list := al,
             relative_directions := fr.2,
             fallback := fr.1,
             queue := (push_into_queue s.queue s.queue_contents
               (at2 info_t.adj_residues i)).1,
             queue_contents := (push_into_queue s.queue s.queue_contents
               (at2 info_t.adj_residues i)).2 } := by
  unfold bfs_adj at h
  obtain ⟨info_t, hi, h1⟩ := except_bind_ok _ _ _ h
  by_cases hc : (at2 info_t.adj_residues i).has_value = false ∨
      res_count s.remainder (at2 info_t.adj_residues i) = false
  · left
    rw [if_pos hc] at h1
    simp only [Except.ok.injEq] at h1
    exact h1.symm
  · right
    rw [if_neg hc] at h1
    have hc1 : (at2 info_t.adj_residues i).has_value = true := by
      by_contra hx
      exact hc (Or.inl (by simpa using hx))
    have hc2 : res_count s.remainder (at2 info_t.adj_residues i) = true := by
      by_contra hx
      exact hc (Or.inr (by simpa using hx))
    obtain ⟨z1, hz1, h2⟩ := except_bind_ok _ _ _ h1
    obtain ⟨z2, hz2, h3⟩ := except_bind_ok _ _ _ h2
    cases hm : map_at U (target.sse_id, (at2 info_t.adj_residues i).sse_id) with
    | none => rw [hm] at h3; cases h3
    | some sd =>
      rw [hm] at h3
      simp only at h3
      obtain ⟨fr, hfr, h4⟩ := except_bind_ok _ _ _ h3
      obtain ⟨al, hal, h5⟩ := except_bind_ok _ _ _ h4
      obtain ⟨z3, hz3, h6⟩ := except_bind_ok _ _ _ h5
      simp only [Except.ok.injEq] at h6
      exact ⟨info_t, z1, z2, z3, sd, fr, al, hi, hc1, hc2, hz1, hz2, hm, hfr, hal, hz3, h6.symm⟩

/-- What a round of the loop over the residues before and after does when it
returns. -/
theorem bfs_ba_ok (target ba : ZoneResidue) (s s' : BfsState)
    (h : bfs_ba target ba s = .ok s') :
    s' = s ∨ ∃ z1 side, ba.has_value = true ∧ s.zone.set_side ba side = .ok z1 ∧
      s' = { s with
             zone := z1,
             queue := (push_into_queue s.queue s.queue_contents ba).1,
             queue_contents := (push_into_queue s.queue s.queue_contents ba).2 } := by
  unfold bfs_ba at h
  by_cases hc : ba.has_value = false
  · left
    rw [if_pos hc] at h
    simp only [Except.ok.injEq] at h
    exact h.symm
  · rw [if_neg hc] at h
    obtain ⟨info_ba, _, h1⟩ := except_bind_ok _ _ _ h
    by_cases hc2 : info_ba.colored = false
    · left
      rw [if_pos hc2] at h1
      simp only [Except.ok.injEq] at h1
      exact h1.symm
    · right
      rw [if_neg hc2] at h1
      obtain ⟨info_t, _, h2⟩ := except_bind_ok _ _ _ h1
      have hv : ba.has_value = true := by simpa using hc
      cases hside : info_t.side with
      | Undefined => rw [hside] at h2; cases h2
      | Upper =>
        rw [hside] at h2
        simp only at h2
        obtain ⟨z1, hz1, h3⟩ := except_bind_ok _ _ _ h2
        simp only [Except.ok.injEq] at h3
        exact ⟨z1, _, hv, hz1, h3.symm⟩
      | Lower =>
        rw [hside] at h2
        simp only at h2
        obtain ⟨z1, hz1, h3⟩ := except_bind_ok _ _ _ h2
        simp only [Except.ok.injEq] at h3
        exact ⟨z1, _, hv, hz1, h3.symm⟩

/-- The residue `ba_check` returns is empty or one of the remainder. -/
theorem ba_check_ok (z : StrictZone) (target ba : ZoneResidue) (diff : Int)
    (remainder : List ZoneResidue) (h : ba_check z target diff remainder = .ok ba) :
    ba.has_value = false ∨ res_count remainder ba = true := by
  unfold ba_check at h
  cases hr : z.strict.get? target.serial_str_id with
  | none => rw [hr] at h; cases h
  | some row =>
    rw [hr] at h
    simp only at h
    by_cases hc : (target.serial_res_id : Int) + diff < 0 ∨
        (row.length : Int) ≤ (target.serial_res_id : Int) + diff
    · left
      rw [if_pos hc] at h
      simp only [Except.ok.injEq] at h
      rw [← h]
    · rw [if_neg hc] at h
      cases hm : ZoneResidue.make z.sses target.sse_id (target.resnum + diff) with
      | none => rw [hm] at h; cases h
      | some b =>
        rw [hm] at h
        simp only at h
        by_cases hc2 : res_count remainder b = false
        · left
          rw [if_pos hc2] at h
          simp only [Except.ok.injEq] at h
          rw [← h]
        · rw [if_neg hc2] at h
          obtain ⟨it, _, h1⟩ := except_bind_ok _ _ _ h
          obtain ⟨ib, _, h2⟩ := except_bind_ok _ _ _ h1
          by_cases hc3 : same_bridges it ib = true
          · left
            rw [if_pos hc3] at h2
            simp only [Except.ok.injEq] at h2
            rw [← h2]
          · right
            rw [if_neg hc3] at h2
            simp only [Except.ok.injEq] at h2
            rw [← h2]
            simpa using hc2

/-- The steps of the body of the loop when it returns. -/
theorem bfs_body_ok (U : AdjList) (target : ZoneResidue) (s s' : BfsState)
    (h : bfs_body U target s = .ok s') :
    ∃ z1 s1 s2 before after s3 s4,
      s.zone.extend target = .ok z1 ∧
      bfs_adj U target false
        { s with
          zone := z1,
          involved_serial_str_ids :=
            if target.serial_str_id ∈ s.involved_serial_str_ids then s.involved_serial_str_ids
            else s.involved_serial_str_ids ++ [target.serial_str_id] } = .ok s1 ∧
      bfs_adj U target true s1 = .ok s2 ∧
      ba_check s2.zone target (-1) s2.remainder = .ok before ∧
      ba_check s2.zone target 1 s2.remainder = .ok after ∧
      bfs_ba target before s2 = .ok s3 ∧
      bfs_ba target after s3 = .ok s4 ∧
      s' = { s4 with
             remainder := res_erase s4.remainder target,
             queue_contents := res_erase s4.queue_contents target,
             queue := s4.queue.tail } := by
  unfold bfs_body at h
  obtain ⟨z1, hz1, h1⟩ := except_bind_ok _ _ _ h
  obtain ⟨s1, hs1, h2⟩ := except_bind_ok _ _ _ h1
  obtain ⟨s2, hs2, h3⟩ := except_bind_ok _ _ _ h2
  obtain ⟨before, hb, h4⟩ := except_bind_ok _ _ _ h3
  obtain ⟨after, ha, h5⟩ := except_bind_ok _ _ _ h4
  obtain ⟨s3, hs3, h6⟩ := except_bind_ok _ _ _ h5
  obtain ⟨s4, hs4, h7⟩ := except_bind_ok _ _ _ h6
  simp only [Except.ok.injEq] at h7
  exact ⟨z1, s1, s2, before, after, s3, s4, hz1, hs1, hs2, hb, ha, hs3, hs4, h7.symm⟩

theorem same_refl (a : ZoneResidue) : a.same a = true := by
  simp [ZoneResidue.same]

theorem same_symm (a b : ZoneResidue) : a.same b = b.same a := by
  simp only [ZoneResidue.same]
  by_cases h1 : a.sse_id = b.sse_id <;> by_cases h2 : a.resnum = b.resnum <;>
    simp [h1, h2, eq_comm]

theorem same_trans (a b c : ZoneResidue) (h1 : a.same b = true) (h2 : b.same c = true) :
    a.same c = true := by
  simp only [ZoneResidue.same, Bool.and_eq_true, decide_eq_true_eq] at *
  exact ⟨h1.1.trans h2.1, h1.2.trans h2.2⟩

theorem same_resnum (a b : ZoneResidue) (h : a.same b = true) : a.resnum = b.resnum := by
  simp only [ZoneResidue.same, Bool.and_eq_true, decide_eq_true_eq] at h
  exact h.2

theorem res_count_iff (l : List ZoneResidue) (x : ZoneResidue) :
    res_count l x = true ↔ ∃ y ∈ l, y.same x = true := by
  simp [res_count]

theorem res_count_congr (l : List ZoneResidue) (x y : ZoneResidue) (h : x.same y = true) :
    res_count l x = res_count l y := by
  have hx : ∀ a b : ZoneResidue, a.same b = true → res_count l a = true →
      res_count l b = true := by
    intro a b hab ha
    obtain ⟨w, hw, hwa⟩ := (res_count_iff l a).1 ha
    exact (res_count_iff l b).2 ⟨w, hw, same_trans _ _ _ hwa hab⟩
  cases h1 : res_count l x <;> cases h2 : res_count l y <;> try rfl
  · have := hx y x (by rw [same_symm]; exact h) h2
    rw [h1] at this; cases this
  · have := hx x y h h1
    rw [h2] at this; cases this

theorem res_count_erase (l : List ZoneResidue) (t x : ZoneResidue) :
    res_count (res_erase l t) x = true ↔ res_count l x = true ∧ x.same t = false := by
  rw [res_count_iff, res_count_iff]
  unfold res_erase
  constructor
  · rintro ⟨y, hy, hyx⟩
    rw [List.mem_filter] at hy
    refine ⟨⟨y, hy.1, hyx⟩, ?_⟩
    cases hxt : x.same t with
    | false => rfl
    | true =>
      have := same_trans _ _ _ hyx hxt
      have h2 := hy.2
      rw [this] at h2
      simp at h2
  · rintro ⟨⟨y, hy, hyx⟩, hxt⟩
    refine ⟨y, List.mem_filter.2 ⟨hy, ?_⟩, hyx⟩
    cases hyt : y.same t with
    | false => rfl
    | true =>
      have h1 : x.same y = true := by rw [same_symm]; exact hyx
      have := same_trans _ _ _ h1 hyt
      rw [this] at hxt
      cases hxt

theorem res_count_append (l m : List ZoneResidue) (x : ZoneResidue) :
    res_count (l ++ m) x = (res_count l x || res_count m x) := by
  simp [res_count]

theorem res_count_mem (l : List ZoneResidue) (x : ZoneResidue) (h : x ∈ l) :
    res_count l x = true :=
  (res_count_iff l x).2 ⟨x, h, same_refl x⟩

theorem res_erase_length (l : List ZoneResidue) (t : ZoneResidue) (h : res_count l t = true) :
    (res_erase l t).length < l.length := by
  obtain ⟨y, hy, hyt⟩ := (res_count_iff l t).1 h
  unfold res_erase
  apply List.length_filter_lt_length_iff_exists.2
  exact ⟨y, hy, by simp [hyt]⟩

/-- One call of `push_into_queue` keeps the queue in step with its contents
and appends at most the new residue. -/
theorem push_into_queue_ok (qc : List ZoneResidue × List ZoneResidue) (a : ZoneResidue)
    (h : QueueOK qc) :
    QueueOK (push_into_queue qc.1 qc.2 a) ∧
      res_count (push_into_queue qc.1 qc.2 a).1 a = true ∧
      ∃ extra, (push_into_queue qc.1 qc.2 a).1 = qc.1 ++ extra ∧ ∀ e ∈ extra, e = a := by
  obtain ⟨h1, h2⟩ := h
  unfold push_into_queue
  by_cases hc : res_count qc.2 a = false
  · rw [if_pos hc]
    have hq : res_count qc.1 a = false := by rw [← h1]; exact hc
    refine ⟨⟨?_, ?_⟩, ?_, [a], rfl, by simp⟩
    · intro x
      simp only [res_insert, hc, Bool.false_eq_true, if_false]
      rw [res_count_append, res_count_append, h1]
    · simp only
      rw [List.pairwise_append]
      refine ⟨h2, by simp, ?_⟩
      intro x hx y hy
      simp only [List.mem_singleton] at hy
      subst hy
      cases hs : x.same y with
      | false => rfl
      | true =>
        have := (res_count_iff qc.1 y).2 ⟨x, hx, hs⟩
        rw [hq] at this
        cases this
    · simp only
      rw [res_count_append]
      simp [res_count, same_refl]
  · rw [if_neg hc]
    have hc2 : res_count qc.2 a = true := by simpa using hc
    exact ⟨⟨h1, h2⟩, by simp only; rw [← h1]; exact hc2, [], by simp, by simp⟩

/-- The calls of `push_into_queue` for a list keep the queue in step with its
contents and append residues of the list only; every residue of the list is
in the queue afterwards. -/
theorem push_all_ok : ∀ (adds : List ZoneResidue) (qc : List ZoneResidue × List ZoneResidue),
    QueueOK qc →
    QueueOK (push_all qc adds) ∧ (∀ a ∈ adds, res_count (push_all qc adds).1 a = true) ∧
      ∃ extra, (push_all qc adds).1 = qc.1 ++ extra ∧ ∀ e ∈ extra, e ∈ adds := by
  intro adds
  induction adds with
  | nil => intro qc h; exact ⟨h, by simp, [], by simp [push_all], by simp⟩
  | cons a rest ih =>
    intro qc h
    obtain ⟨g1, g2, e1, g3, g4⟩ := push_into_queue_ok qc a h
    obtain ⟨i1, i2, e2, i3, i4⟩ := ih (push_into_queue qc.1 qc.2 a) g1
    have hstep : push_all qc (a :: rest) = push_all (push_into_queue qc.1 qc.2 a) rest := by
      simp [push_all]
    rw [hstep]
    refine ⟨i1, ?_, e1 ++ e2, ?_, ?_⟩
    · intro x hx
      rcases List.mem_cons.1 hx with rfl | hx
      · rw [i3, res_count_append, g2]; rfl
      · exact i2 x hx
    · rw [i3, g3, List.append_assoc]
    · intro e he
      rcases List.mem_append.1 he with he | he
      · rw [g4 e he]; exact List.mem_cons_self _ _
      · exact List.mem_cons_of_mem _ (i4 e he)

theorem push_all_append (qc : List ZoneResidue × List ZoneResidue) (a b : List ZoneResidue) :
    push_all qc (a ++ b) = push_all (push_all qc a) b := by
  simp [push_all, List.foldl_append]

theorem foldlM_option_append {σ α : Type} (f : σ → α → Option σ) (l m : List α) (s s1 s2 : σ)
    (h1 : l.foldlM f s = some s1) (h2 : m.foldlM f s1 = some s2) :
    (l ++ m).foldlM f s = some s2 := by
  rw [List.foldlM_append, h1]
  exact h2

theorem pushed_refl (s : BfsState) : Pushed s s [] [] :=
  ⟨rfl, rfl, rfl, by simp, by simp⟩

theorem pushed_trans (s s1 s2 : BfsState) (c1 a1 c2 a2 : List ZoneResidue)
    (h1 : Pushed s s1 c1 a1) (h2 : Pushed s1 s2 c2 a2) :
    Pushed s s2 (c1 ++ c2) (a1 ++ a2) := by
  obtain ⟨p1, p2, p3, p4, p5⟩ := h1
  obtain ⟨q1, q2, q3, q4, q5⟩ := h2
  refine ⟨q1.trans p1, foldlM_option_append _ _ _ _ _ _ p2 q2, ?_, ?_, ?_⟩
  · rw [push_all_append, ← p3, q3]
  · intro c hc
    rcases List.mem_append.1 hc with hc | hc
    · exact List.mem_append_left _ (p4 c hc)
    · exact List.mem_append_right _ (q4 c hc)
  · intro a ha
    rcases List.mem_append.1 ha with ha | ha
    · exact p5 a ha
    · rw [← p1]; exact q5 a ha

theorem foldlM_extend_single (d d1 : RangeData) (res : ZoneResidue)
    (h : extend_substrand d res = some d1) : [res].foldlM extend_substrand d = some d1 := by
  simp [List.foldlM_cons, h]

/-- A round over a paired residue extends the registry for at most that
residue and pushes at most it. -/
theorem bfs_adj_pushed (U : AdjList) (target : ZoneResidue) (i : Bool) (s s1 : BfsState)
    (h : bfs_adj U target i s = .ok s1) : ∃ calls adds, Pushed s s1 calls adds := by
  rcases bfs_adj_ok U target i s s1 h with rfl | ⟨info_t, z1, z2, z3, sd, fr, al, _, _, hrem, hz1,
    hz2, _, _, _, hz3, hs⟩
  · exact ⟨[], [], pushed_refl _⟩
  · refine ⟨[at2 info_t.adj_residues i], [at2 info_t.adj_residues i], ?_⟩
    obtain ⟨a1, _⟩ := set_side_ok _ _ _ _ hz1
    obtain ⟨b1, _⟩ := extend_ok _ _ _ hz2
    obtain ⟨c1, _⟩ := add_adj_substrands_ok _ _ _ _ _ _ hz3
    subst hs
    refine ⟨rfl, ?_, ?_, by simp, ?_⟩
    · apply foldlM_extend_single
      simp only
      rw [c1, ← a1]
      exact b1
    · simp [push_all]
    · intro a ha
      simp only [List.mem_singleton] at ha
      subst ha
      exact hrem

/-- A round over the residue before or after the target pushes at most that
residue, which is one of the remainder. -/
theorem bfs_ba_pushed (target ba : ZoneResidue) (s s1 : BfsState)
    (hba : ba.has_value = false ∨ res_count s.remainder ba = true)
    (h : bfs_ba target ba s = .ok s1) : ∃ adds, Pushed s s1 [] adds := by
  rcases bfs_ba_ok target ba s s1 h with rfl | ⟨z1, side, hv, hz1, hs⟩
  · exact ⟨[], pushed_refl _⟩
  · refine ⟨[ba], ?_⟩
    obtain ⟨a1, _⟩ := set_side_ok _ _ _ _ hz1
    subst hs
    refine ⟨rfl, ?_, ?_, by simp, ?_⟩
    · simp only [List.foldlM_nil]
      rw [a1]
      rfl
    · simp [push_all]
    · intro a ha
      simp only [List.mem_singleton] at ha
      subst ha
      rcases hba with hba | hba
      · rw [hv] at hba; cases hba
      · exact hba

/-- The body of the loop: the registry is extended for the target and then for
residues of the remainder, which are pushed; the target is erased from the
remainder and popped. -/
theorem bfs_body_pushed (U : AdjList) (target : ZoneResidue) (s s1 : BfsState)
    (h : bfs_body U target s = .ok s1) :
    ∃ (calls adds : List ZoneResidue) (d1 : RangeData),
      extend_substrand s.zone.sub_strands.data target = some d1 ∧
      calls.foldlM extend_substrand d1 = some s1.zone.sub_strands.data ∧
      (∀ c ∈ calls, c ∈ adds) ∧ (∀ a ∈ adds, res_count s.remainder a = true) ∧
      s1.remainder = res_erase s.remainder target ∧
      s1.queue = (push_all (s.queue, s.queue_contents) adds).1.tail ∧
      s1.queue_contents = res_erase (push_all (s.queue, s.queue_contents) adds).2 target := by
  obtain ⟨z1, t1, t2, before, after, t3, t4, hz1, h1, h2, hb, ha, h3, h4, hs⟩ :=
    bfs_body_ok U target s s1 h
  obtain ⟨e1, _⟩ := extend_ok _ _ _ hz1
  obtain ⟨c1, a1, p1⟩ := bfs_adj_pushed _ _ _ _ _ h1
  obtain ⟨c2, a2, p2⟩ := bfs_adj_pushed _ _ _ _ _ h2
  obtain ⟨a3, p3⟩ := bfs_ba_pushed _ _ _ _ (ba_check_ok _ _ _ _ _ hb) h3
  have hrem3 : t3.remainder = t2.remainder := p3.1
  obtain ⟨a4, p4⟩ := bfs_ba_pushed _ _ _ _
    (by rw [hrem3]; exact ba_check_ok _ _ _ _ _ ha) h4
  have p := pushed_trans _ _ _ _ _ _ _ (pushed_trans _ _ _ _ _ _ _
    (pushed_trans _ _ _ _ _ _ _ p1 p2) p3) p4
  obtain ⟨q1, q2, q3, q4, q5⟩ := p
  simp only at q1 q2 q3 q5
  refine ⟨c1 ++ c2 ++ [] ++ [], a1 ++ a2 ++ a3 ++ a4, _, e1, ?_, q4, q5, ?_, ?_, ?_⟩
  · rw [hs]; exact q2
  · rw [hs]; simp only; rw [q1]
  · rw [hs]; simp only
    rw [← q3]
  · rw [hs]; simp only
    rw [← q3]

theorem res_count_cons_other (t : ZoneResidue) (l : List ZoneResidue) (c : ZoneResidue)
    (h : res_count (t :: l) c = true) (hct : c.same t = false) : res_count l c = true := by
  obtain ⟨y, hy, hyc⟩ := (res_count_iff _ _).1 h
  rcases List.mem_cons.1 hy with rfl | hy
  · rw [same_symm, hyc] at hct; cases hct
  · exact (res_count_iff _ _).2 ⟨y, hy, hyc⟩

/-- The invariant of the loop of `bfs` is kept by its body, and the remainder
gets shorter. -/
theorem visit_body (U : AdjList) (d0 : RangeData) (rem0 : List ZoneResidue) (s s1 : BfsState)
    (calls : List ZoneResidue) (target : ZoneResidue) (rest : List ZoneResidue)
    (hq : s.queue = target :: rest) (hinv : VisitInv d0 rem0 s calls)
    (h : bfs_body U target s = .ok s1) :
    (∃ calls1, VisitInv d0 rem0 s1 calls1) ∧ s1.remainder.length < s.remainder.length := by
  obtain ⟨cs, adds, d1, e1, f1, cadds, addsrem, hrem, hqueue, hcont⟩ :=
    bfs_body_pushed U target s s1 h
  obtain ⟨Q1, Q2, extra, Q3, Q4⟩ := push_all_ok adds (s.queue, s.queue_contents) hinv.queue_ok
  simp only at Q3
  have hP : (push_all (s.queue, s.queue_contents) adds).1 = target :: (rest ++ extra) := by
    rw [Q3, hq]; rfl
  have hq1 : s1.queue = rest ++ extra := by rw [hqueue, hP]; rfl
  have htq : target ∈ s.queue := by rw [hq]; exact List.mem_cons_self _ _
  have htrem : res_count s.remainder target = true := hinv.queue_rem target htq
  have hpw := Q1.2
  rw [hP, List.pairwise_cons] at hpw
  have hnot : ∀ q ∈ rest ++ extra, q.same target = false := by
    intro q hq'
    rw [same_symm]
    exact hpw.1 q hq'
  refine ⟨⟨calls ++ target :: cs, ?_, ?_, ?_, ?_, ?_, ?_⟩, ?_⟩
  · refine foldlM_option_append _ _ _ _ _ _ hinv.fold ?_
    rw [List.foldlM_cons, e1]
    exact f1
  · intro c hc
    rcases List.mem_append.1 hc with hc | hc
    · exact hinv.calls_rem0 c hc
    · rcases List.mem_cons.1 hc with rfl | hc
      · exact hinv.rem_sub _ htrem
      · exact hinv.rem_sub _ (addsrem c (cadds c hc))
  · intro x hx
    rw [hrem] at hx
    exact hinv.rem_sub x ((res_count_erase _ _ _).1 hx).1
  · intro c hc hcr
    rw [hrem] at hcr
    obtain ⟨hcr1, hct⟩ := (res_count_erase _ _ _).1 hcr
    rw [hq1]
    apply res_count_cons_other target _ c _ hct
    rw [← hP]
    rcases List.mem_append.1 hc with hc | hc
    · have := hinv.calls_done c hc hcr1
      rw [Q3, res_count_append, this]
      rfl
    · rcases List.mem_cons.1 hc with rfl | hc
      · rw [same_refl] at hct; cases hct
      · exact Q2 c (cadds c hc)
  · intro q hq'
    rw [hq1] at hq'
    rw [hrem]
    refine (res_count_erase _ _ _).2 ⟨?_, hnot q hq'⟩
    rcases List.mem_append.1 hq' with hr | he
    · exact hinv.queue_rem q (by rw [hq]; exact List.mem_cons_of_mem _ hr)
    · exact addsrem q (Q4 q he)
  · constructor
    · intro x
      simp only
      rw [hcont, hq1]
      have hiff : res_count (res_erase (push_all (s.queue, s.queue_contents) adds).2 target) x =
          true ↔ res_count (rest ++ extra) x = true := by
        rw [res_count_erase]
        constructor
        · rintro ⟨h1, h2⟩
          rw [Q1.1 x, hP] at h1
          exact res_count_cons_other target _ x h1 h2
        · intro h1
          obtain ⟨y, hy, hyx⟩ := (res_count_iff _ _).1 h1
          refine ⟨?_, ?_⟩
          · rw [Q1.1 x, hP]
            exact (res_count_iff _ _).2 ⟨y, List.mem_cons_of_mem _ hy, hyx⟩
          · cases hxt : x.same target with
            | false => rfl
            | true =>
              have := same_trans _ _ _ hyx hxt
              rw [hnot y hy] at this
              cases this
      cases h1 : res_count (res_erase (push_all (s.queue, s.queue_contents) adds).2 target) x <;>
        cases h2 : res_count (rest ++ extra) x <;> try rfl
      · have := hiff.2 h2
        rw [h1] at this; cases this
      · have := hiff.1 h1
        rw [h2] at this; cases this
    · simp only
      rw [hq1]
      exact hpw.2
  · rw [hrem]
    exact res_erase_length _ _ htrem

/-- The loop of `bfs` keeps its invariant, and it ends with an empty queue. -/
theorem visit_loop (U : AdjList) (d0 : RangeData) (rem0 : List ZoneResidue) :
    ∀ (fuel : Nat) (s s1 : BfsState) (calls : List ZoneResidue),
      VisitInv d0 rem0 s calls → bfs_loop U fuel s = .ok s1 →
      ∃ calls1, VisitInv d0 rem0 s1 calls1 ∧ s1.queue = [] ∧
        s1.remainder.length ≤ s.remainder.length ∧
        (s.queue ≠ [] → s1.remainder.length < s.remainder.length) := by
  intro fuel
  induction fuel with
  | zero => intro s s1 calls _ h; simp [bfs_loop] at h
  | succ fuel ih =>
    intro s s1 calls hinv h
    rw [bfs_loop] at h
    cases hq : s.queue with
    | nil =>
      rw [hq] at h
      simp only [Except.ok.injEq] at h
      subst h
      exact ⟨calls, hinv, hq, le_refl _, fun hne => absurd rfl hne⟩
    | cons target rest =>
      rw [hq] at h
      simp only at h
      obtain ⟨s2, hb, hl⟩ := except_bind_ok _ _ _ h
      obtain ⟨⟨calls2, hinv2⟩, hlt⟩ := visit_body U d0 rem0 s s2 calls target rest hq hinv hb
      obtain ⟨calls1, g1, g2, g3, _⟩ := ih s2 s1 calls2 hinv2 hl
      exact ⟨calls1, g1, g2, by omega, fun _ => by omega⟩

/-- The state `bfs` starts its loop with satisfies the invariant. -/
theorem visit_start (z : StrictZone) (adj_list : AdjListWithSub) (remainder : List ZoneResidue)
    (s : BfsState) (h : bfs_start z adj_list remainder = .ok s) :
    VisitInv z.sub_strands.data remainder s [] ∧ s.remainder = remainder ∧ remainder ≠ [] := by
  unfold bfs_start at h
  cases remainder with
  | nil => cases h
  | cons front rest =>
    simp only at h
    obtain ⟨z1, hz1, h1⟩ := except_bind_ok _ _ _ h
    obtain ⟨a1, _⟩ := set_side_ok _ _ _ _ hz1
    by_cases hc : front.serial_str_id < z.strand_indices.length
    · rw [if_pos hc] at h1
      simp only [Except.ok.injEq] at h1
      subst h1
      refine ⟨⟨?_, by simp, fun x hx => hx, by simp, ?_, ?_⟩, rfl, by simp⟩
      · simp only [List.foldlM_nil]
        rw [a1]
        rfl
      · intro q hq
        simp only [List.mem_singleton] at hq
        subst hq
        exact res_count_mem _ _ (List.mem_cons_self _ _)
      · exact ⟨fun x => rfl, by simp⟩
    · rw [if_neg hc] at h1
      cases h1

/-- One run of `bfs` acts on the registry of sub-strands as the calls of
`extend_substrand` for a list of residues followed by `cleanup_sheet`; these
residues are in the remainder before the run and not after it, and the
remainder loses residues only, at least one. -/
theorem bfs_component (z : StrictZone) (adj_list : AdjListWithSub)
    (remainder : List ZoneResidue) (U : AdjList)
    (r : StrictZone × AdjListWithSub × List ZoneResidue)
    (h : bfs z adj_list remainder U = .ok r) :
    ∃ calls short, run_component z.sub_strands.data calls = some (r.1.sub_strands.data, short) ∧
      (∀ c ∈ calls, res_count remainder c = true) ∧
      (∀ c ∈ calls, res_count r.2.2 c = false) ∧
      (∀ x, res_count r.2.2 x = true → res_count remainder x = true) ∧
      r.2.2.length < remainder.length := by
  unfold bfs bfs_search at h
  obtain ⟨s, hs, hf⟩ := except_bind_ok _ _ _ h
  obtain ⟨s0, hs0, hl⟩ := except_bind_ok _ _ _ hs
  obtain ⟨hinv0, hrem0, hne⟩ := visit_start z adj_list remainder s0 hs0
  obtain ⟨calls, hinv, hq, _, hlt⟩ := visit_loop U _ _ _ s0 s [] hinv0 hl
  have hq0 : s0.queue ≠ [] := by
    intro he
    have := hinv0.queue_ok.1
    unfold bfs_start at hs0
    cases remainder with
    | nil => exact hne rfl
    | cons front rest =>
      simp only at hs0
      obtain ⟨z1, _, h1⟩ := except_bind_ok _ _ _ hs0
      by_cases hc : front.serial_str_id < z.strand_indices.length
      · rw [if_pos hc] at h1
        simp only [Except.ok.injEq] at h1
        rw [← h1] at he
        cases he
      · rw [if_neg hc] at h1
        cases h1
  unfold bfs_finish at hf
  cases hc : cleanup_sheet s.zone.sub_strands.data with
  | none => rw [hc] at hf; cases hf
  | some p =>
    obtain ⟨data, short⟩ := p
    rw [hc] at hf
    simp only at hf
    obtain ⟨al1, _, hf1⟩ := except_bind_ok _ _ _ hf
    obtain ⟨al2, _, hf2⟩ := except_bind_ok _ _ _ hf1
    simp only [Except.ok.injEq] at hf2
    subst hf2
    refine ⟨calls, short, ?_, hinv.calls_rem0, ?_, hinv.rem_sub, ?_⟩
    · unfold run_component
      rw [hinv.fold]
      simp only [Option.some_bind]
      exact hc
    · intro c hc'
      simp only
      cases hcr : res_count s.remainder c with
      | false => rfl
      | true =>
        have := hinv.calls_done c hc' hcr
        rw [hq] at this
        simp [res_count] at this
    · simp only
      rw [← hrem0]
      exact hlt hq0

theorem extend_substrand_bound (d d1 : RangeData) (res : ZoneResidue)
    (h : extend_substrand d res = some d1) :
    res.serial_str_id < d.length ∧ d1.length = d.length := by
  unfold extend_substrand at h
  cases hg : d.get? res.serial_str_id with
  | none => rw [hg] at h; cases h
  | some ranges =>
    rw [hg] at h
    simp only at h
    cases hl : ranges.getLast? with
    | none => rw [hl] at h; cases h
    | some back =>
      rw [hl] at h
      simp only [Option.some.injEq] at h
      subst h
      refine ⟨?_, by simp⟩
      by_contra hc
      rw [List.get?_eq_none.2 (by omega)] at hg
      cases hg

theorem foldlM_extend_bound : ∀ (calls : List ZoneResidue) (d d1 : RangeData),
    calls.foldlM extend_substrand d = some d1 → ∀ res ∈ calls, res.serial_str_id < d.length := by
  intro calls
  induction calls with
  | nil => intro d d1 _ res hr; simp at hr
  | cons c rest ih =>
    intro d d1 h res hr
    rw [List.foldlM_cons] at h
    cases hc : extend_substrand d c with
    | none => rw [hc] at h; simp at h
    | some d2 =>
      rw [hc] at h
      change List.foldlM extend_substrand d2 rest = some d1 at h
      obtain ⟨b1, b2⟩ := extend_substrand_bound d d2 c hc
      rcases List.mem_cons.1 hr with rfl | hr
      · exact b1
      · rw [← b2]; exact ih d2 d1 h res hr

theorem cleanup_sheet_loop_data : ∀ (d : RangeData) (id : Nat) (short : List SubStrand)
    (d1 : RangeData) (s : List SubStrand),
    cleanup_sheet_loop d id short = some (d1, s) → d1 = d.map cleanup_ranges := by
  intro d
  induction d with
  | nil =>
    intro id short d1 s h
    simp only [cleanup_sheet_loop, Option.some.injEq, Prod.mk.injEq] at h
    rw [← h.1]; rfl
  | cons ranges rest ih =>
    intro id short d1 s h
    rw [cleanup_sheet_loop] at h
    cases hl : ranges.getLast? with
    | none => rw [hl] at h; cases h
    | some back =>
      rw [hl] at h
      simp only at h
      have hcr : ∀ (p : RangeData × List SubStrand) (x : List (Int × Int)) (id1 : Nat)
          (sh : List SubStrand),
          (cleanup_sheet_loop rest id1 sh).map (fun r => (x :: r.1, r.2)) = some (d1, s) →
          x = cleanup_ranges ranges → d1 = (ranges :: rest).map cleanup_ranges := by
        intro p x id1 sh hm hx
        cases hr : cleanup_sheet_loop rest id1 sh with
        | none => rw [hr] at hm; cases hm
        | some q =>
          rw [hr] at hm
          simp only [Option.map_some', Option.some.injEq, Prod.mk.injEq] at hm
          rw [← hm.1, List.map_cons, ← hx, ih id1 sh q.1 q.2 hr]
      by_cases hb : back ≠ default_range
      · rw [if_pos hb] at h
        by_cases hi : (is_int (back.2 - back.1) && is_int (back.2 - back.1 + 1)) = true
        · rw [if_pos hi] at h
          by_cases hs : back.2 - back.1 + 1 < min_sub_str_len
          · rw [if_pos hs] at h
            exact hcr (d1, s) _ _ _ h (by simp [cleanup_ranges, hl, hb, hs])
          · rw [if_neg hs] at h
            exact hcr (d1, s) _ _ _ h (by simp [cleanup_ranges, hl, hb, hs])
        · rw [if_neg hi] at h
          cases h
      · rw [if_neg hb] at h
        have hb2 : back = default_range := by simpa using hb
        exact hcr (d1, s) _ _ _ h (by simp [cleanup_ranges, hl, hb2])

/-- One component keeps the state of the range table between components, with
its own calls added to the components. -/
theorem hull_component (comps : List (List ZoneResidue)) (d d1 : RangeData)
    (calls : List ZoneResidue) (short : List SubStrand) (hs : HullState comps d)
    (hrun : run_component d calls = some (d1, short))
    (hnum : ∀ c ∈ calls, int_min < c.resnum) : HullState (comps ++ [calls]) d1 := by
  unfold run_component at hrun
  cases hf : calls.foldlM extend_substrand d with
  | none => rw [hf] at hrun; cases hrun
  | some de =>
    rw [hf] at hrun
    simp only [Option.some_bind] at hrun
    have hne : ∀ ranges ∈ d, ranges ≠ [] := by
      intro ranges hr he
      obtain ⟨n, hn⟩ := List.get?_of_mem hr
      have := (hs n ranges hn).1
      rw [he] at this
      cases this
    obtain ⟨d', hd', _, hget⟩ := foldlM_extend calls d hne (foldlM_extend_bound calls d de hf)
    rw [hf] at hd'
    simp only [Option.some.injEq] at hd'
    subst hd'
    have hd1 := cleanup_sheet_loop_data de 0 [] d1 short hrun
    subst hd1
    intro str ranges1 hg1
    rw [List.get?_map] at hg1
    cases hde : de.get? str with
    | none => rw [hde] at hg1; cases hg1
    | some rde =>
      rw [hde] at hg1
      simp only [Option.map_some', Option.some.injEq] at hg1
      rw [hget str] at hde
      cases hdg : d.get? str with
      | none => rw [hdg] at hde; cases hde
      | some ranges =>
        rw [hdg] at hde
        simp only [Option.map_some', Option.some.injEq] at hde
        obtain ⟨hlast, hold⟩ := hs str ranges hdg
        rw [hlast] at hde
        simp only [Option.getD_some] at hde
        have hold2 : ∀ r ∈ ranges.dropLast, 2 ≤ r.2 - r.1 + 1 ∧
            ∃ c ∈ comps ++ [calls], hull_of (resnums_on c str) r.1 r.2 := by
          intro r hr
          obtain ⟨g1, c, hc, g2⟩ := hold r hr
          exact ⟨g1, c, List.mem_append_left _ hc, g2⟩
        have hnum2 : ∀ r ∈ resnums_on calls str, int_min < r := by
          intro r hr
          obtain ⟨res, h1, _, h3⟩ := (mem_resnums_on calls str r).1 hr
          rw [← h3]
          exact hnum res h1
        have hdl : ranges.dropLast ++ [default_range] = ranges := by
          obtain ⟨back, hb1, hb2⟩ := dropLast_append_last ranges
            (by intro he; rw [he] at hlast; cases hlast)
          rw [hlast] at hb1
          simp only [Option.some.injEq] at hb1
          rw [hb1]; exact hb2
        rcases extend_range_fold (resnums_on calls str) hnum2 with ⟨_, h2⟩ | ⟨lo, hi, hfold,
          g1, g2, g3, g4, g5⟩
        · rw [h2] at hde
          rw [hdl] at hde
          subst hde
          have hc : cleanup_ranges ranges = ranges := by
            simp [cleanup_ranges, hlast]
          rw [hc] at hg1
          subst hg1
          exact ⟨hlast, hold2⟩
        · rw [hfold] at hde
          have hnd : ((lo, hi) : Int × Int) ≠ default_range := by
            intro he
            simp only [default_range, Prod.mk.injEq] at he
            omega
          by_cases hshort : hi - lo + 1 < min_sub_str_len
          · have hc : cleanup_ranges rde = ranges := by
              rw [← hde]
              simp [cleanup_ranges, hnd, hshort, hdl]
            rw [hc] at hg1
            subst hg1
            exact ⟨hlast, hold2⟩
          · have hc : cleanup_ranges rde = ranges.dropLast ++ [(lo, hi)] ++ [default_range] := by
              rw [← hde]
              simp [cleanup_ranges, hnd, hshort]
            rw [hc] at hg1
            subst hg1
            refine ⟨by simp, ?_⟩
            intro r hr
            rw [List.dropLast_concat] at hr
            rcases List.mem_append.1 hr with hr | hr
            · exact hold2 r hr
            · simp only [List.mem_singleton] at hr
              subst hr
              refine ⟨?_, calls, by simp, g3, g4, g5⟩
              simp only [min_sub_str_len] at hshort
              simp only
              omega

/-- The loop of `decide_side` keeps the state of the range table between
components: the components are lists of residues of the first remainder, and
no residue is in two of them. -/
theorem hull_loop (U : AdjList) (rem0 : List ZoneResidue)
    (hnum : ∀ c ∈ rem0, int_min < c.resnum) :
    ∀ (fuel : Nat) (z : StrictZone) (al : AdjListWithSub) (rem : List ZoneResidue)
      (r : StrictZone × AdjListWithSub) (comps : List (List ZoneResidue)),
      HullState comps z.sub_strands.data →
      (∀ x, res_count rem x = true → res_count rem0 x = true) →
      (∀ calls ∈ comps, ∀ c ∈ calls, res_count rem0 c = true ∧ res_count rem c = false) →
      comps.Pairwise disjoint_calls →
      decide_side_loop U fuel z al rem = .ok r →
      ∃ comps1, HullState comps1 r.1.sub_strands.data ∧
        (∀ calls ∈ comps1, ∀ c ∈ calls, res_count rem0 c = true) ∧
        comps1.Pairwise disjoint_calls := by
  intro fuel
  induction fuel with
  | zero => intro z al rem r comps _ _ _ _ h; simp [decide_side_loop] at h
  | succ fuel ih =>
    intro z al rem r comps hs hsub hcomps hpw h
    rw [decide_side_loop] at h
    by_cases hl : rem.length = 0
    · rw [if_pos hl] at h
      simp only [Except.ok.injEq] at h
      subst h
      exact ⟨comps, hs, fun calls hc c hcc => (hcomps calls hc c hcc).1, hpw⟩
    · rw [if_neg hl] at h
      obtain ⟨b, hb, hrest⟩ := except_bind_ok _ _ _ h
      obtain ⟨calls, short, hrun, c1, c2, c3, _⟩ := bfs_component z al rem U b hb
      have hnum2 : ∀ c ∈ calls, int_min < c.resnum := by
        intro c hc
        obtain ⟨y, hy, hyc⟩ := (res_count_iff _ _).1 (hsub c (c1 c hc))
        rw [← same_resnum y c hyc]
        exact hnum y hy
      refine ih b.1 b.2.1 b.2.2 r (comps ++ [calls])
        (hull_component comps _ _ calls short hs hrun hnum2)
        (fun x hx => hsub x (c3 x hx)) ?_ ?_ hrest
      · intro cl hcl c hc
        rcases List.mem_append.1 hcl with hcl | hcl
        · refine ⟨(hcomps cl hcl c hc).1, ?_⟩
          cases hx : res_count b.2.2 c with
          | false => rfl
          | true =>
            have := c3 c hx
            rw [(hcomps cl hcl c hc).2] at this
            cases this
        · simp only [List.mem_singleton] at hcl
          subst hcl
          exact ⟨hsub c (c1 c hc), c2 c hc⟩
      · rw [List.pairwise_append]
        refine ⟨hpw, by simp, ?_⟩
        intro a ha b' hb'
        simp only [List.mem_singleton] at hb'
        subst hb'
        intro x hx y hy
        cases hxy : x.same y with
        | false => rfl
        | true =>
          have h1 := res_count_congr rem x y hxy
          rw [(hcomps a ha x hx).2, c1 y hy] at h1
          cases h1

theorem finish_data (s s1 : SubStrandsRange) (conv : List (SubStrand × SubStrand))
    (h : s.finish = some (s1, conv)) :
    s1.data = s.data.map (fun ranges =>
        (sorted_indices ranges.dropLast).map (fun a => ranges.dropLast.getD a default_range)) ∧
      ∀ ranges ∈ s.data, ranges.dropLast.length < 256 := by
  unfold SubStrandsRange.finish at h
  by_cases h1 : s.data.any (fun ranges => ranges.isEmpty) = true
  · rw [if_pos h1] at h; cases h
  · rw [if_neg h1] at h
    by_cases h2 : (decide (256 ≤ s.data.length) ||
        s.data.any (fun ranges => decide (256 ≤ ranges.dropLast.length))) = true
    · rw [if_pos h2] at h; cases h
    · rw [if_neg h2] at h
      simp only [Option.some.injEq, Prod.mk.injEq] at h
      refine ⟨by rw [← h.1], ?_⟩
      intro ranges hr
      by_contra hc
      apply h2
      rw [Bool.or_eq_true]
      right
      rw [List.any_eq_true]
      exact ⟨ranges, hr, by simp only [decide_eq_true_eq]; omega⟩

/-- After `finish`, a range of a strand is one of the ranges the strand had
before its last one. -/
theorem finish_range_mem (s s1 : SubStrandsRange) (conv : List (SubStrand × SubStrand))
    (h : s.finish = some (s1, conv)) (str : Nat) (l : List (Int × Int)) (r : Int × Int)
    (hl : s1.data.get? str = some l) (hr : r ∈ l) :
    ∃ ranges, s.data.get? str = some ranges ∧ r ∈ ranges.dropLast := by
  obtain ⟨hd, hlen⟩ := finish_data s s1 conv h
  rw [hd, List.get?_map] at hl
  cases hg : s.data.get? str with
  | none => rw [hg] at hl; cases hl
  | some ranges =>
    rw [hg] at hl
    simp only [Option.map_some', Option.some.injEq] at hl
    refine ⟨ranges, rfl, ?_⟩
    have hp := (sorted_ranges ranges.dropLast
      (by have := hlen ranges (List.get?_mem hg); omega)).1
    rw [hl] at hp
    exact hp.mem_iff.1 hr

/-- What `decide_side` leaves in the registry of sub-strands when it returns,
for a zone whose registry is new and whose coloured residues are `rem0`. -/
theorem decide_side_hulls (z : StrictZone) (U : AdjList) (rem0 : List ZoneResidue)
    (r : AdjListWithSub × StrictZone)
    (hfresh : ∀ ranges ∈ z.sub_strands.data, ranges = [default_range])
    (hrem : collect_colored z = .ok rem0) (hnum : ∀ c ∈ rem0, int_min < c.resnum)
    (h : decide_side z U = .ok r) :
    ∃ comps : List (List ZoneResidue),
      (∀ calls ∈ comps, ∀ c ∈ calls, res_count rem0 c = true) ∧
      comps.Pairwise disjoint_calls ∧
      ∀ sub lo hi, r.2.sub_strands.n_term_res sub = some lo →
        r.2.sub_strands.c_term_res sub = some hi →
        2 ≤ hi - lo + 1 ∧ ∃ calls ∈ comps, hull_of (resnums_on calls sub.str) lo hi := by
  unfold decide_side at h
  rw [hrem] at h
  obtain ⟨rem, hr0, h1⟩ := except_bind_ok _ _ _ h
  simp only [Except.ok.injEq] at hr0
  subst hr0
  obtain ⟨r1, hloop, h2⟩ := except_bind_ok _ _ _ h1
  have hs0 : HullState [] z.sub_strands.data := by
    intro str ranges hg
    rw [hfresh ranges (List.get?_mem hg)]
    exact ⟨rfl, by simp⟩
  obtain ⟨comps, hs, hc, hpw⟩ := hull_loop U rem0 hnum _ z {} rem0 r1 [] hs0
    (fun x hx => hx) (by simp) (by simp) hloop
  cases hfin : r1.1.sub_strands.finish with
  | none => rw [hfin] at h2; cases h2
  | some p =>
    obtain ⟨ss, conv⟩ := p
    rw [hfin] at h2
    simp only at h2
    obtain ⟨a1, _, h3⟩ := except_bind_ok _ _ _ h2
    obtain ⟨a2, _, h4⟩ := except_bind_ok _ _ _ h3
    simp only [Except.ok.injEq] at h4
    subst h4
    refine ⟨comps, hc, hpw, ?_⟩
    intro sub lo hi hlo hhi
    simp only at hlo hhi
    obtain ⟨l, x, g1, g2, g3⟩ := n_term_res_some ss sub lo hlo
    obtain ⟨l', x', g1', g2', g3'⟩ := c_term_res_some ss sub hi hhi
    rw [g1] at g1'
    simp only [Option.some.injEq] at g1'
    subst g1'
    rw [g2] at g2'
    simp only [Option.some.injEq] at g2'
    subst g2'
    obtain ⟨ranges, k1, k2⟩ := finish_range_mem _ ss conv hfin sub.str l x g1 (List.get?_mem g2)
    obtain ⟨m1, calls, m2, m3⟩ := (hs sub.str ranges k1).2 x k2
    rw [g3, g3'] at m1 m3
    exact ⟨m1, calls, m2, m3⟩

theorem bind_fuel {α β : Type} (e : Except Failure α) (f : α → Except Failure β)
    (he : e ≠ .error .out_of_fuel) (hf : ∀ a, e = .ok a → f a ≠ .error .out_of_fuel) :
    e.bind f ≠ .error .out_of_fuel := by
  cases e with
  | error x =>
    intro h
    simp only [Except.bind, Except.error.injEq] at h
    exact he (by rw [h])
  | ok a => exact hf a rfl

theorem strict_c_info_fuel (strict : List (List ZoneInfo)) (zr : ZoneResidue) :
    strict_c_info strict zr ≠ .error .out_of_fuel := by
  unfold strict_c_info
  split <;> simp

theorem set_side_fuel (z : StrictZone) (res : ZoneResidue) (side : SideStatus) :
    z.set_side res side ≠ .error .out_of_fuel := by
  unfold StrictZone.set_side
  exact bind_fuel _ _ (strict_c_info_fuel _ _) (fun _ _ => by simp)

theorem extend_fuel (z : StrictZone) (res : ZoneResidue) :
    z.extend res ≠ .error .out_of_fuel := by
  unfold StrictZone.extend
  split <;> simp

theorem last_substr_id_fuel (d : RangeData) (i : Nat) :
    last_substr_id d i ≠ .error .out_of_fuel := by
  unfold last_substr_id
  split
  · simp
  · split <;> simp

theorem last_key_fuel (d : RangeData) (i j : Nat) : last_key d i j ≠ .error .out_of_fuel := by
  unfold last_key
  exact bind_fuel _ _ (last_substr_id_fuel _ _)
    (fun _ _ => bind_fuel _ _ (last_substr_id_fuel _ _) (fun _ _ => by simp))

theorem update_rel_dir_fuel (t a : ZoneResidue) (d : Bool) (rel : List RelDir) :
    update_rel_dir t a d rel ≠ .error .out_of_fuel := by
  unfold update_rel_dir
  split
  · simp
  · simp
  · split
    · simp
    · split
      · simp
      · repeat' split
        all_goals simp

theorem gen_list_key_fuel (z : StrictZone) (r0 r1 : ZoneResidue) (hb : Bool)
    (rel : List RelDir) : gen_list_key z r0 r1 hb rel ≠ .error .out_of_fuel := by
  unfold gen_list_key
  split
  · simp
  · simp
  · refine bind_fuel _ _ (strict_c_info_fuel _ _) (fun info _ => ?_)
    split <;> exact last_key_fuel _ _ _

theorem add_adj_list_count_fuel (key : SubStrandsPairKey) (al : AdjListWithSub) (d : Bool) :
    add_adj_list_count key al d ≠ .error .out_of_fuel := by
  unfold add_adj_list_count
  split
  · refine bind_fuel _ _ ?_ (fun _ _ => by simp)
    unfold register_key_vec
    split <;> simp
  · split <;> simp

theorem add_adj_substrands_fuel (z : StrictZone) (r0 r1 : ZoneResidue) (hb rd : Bool) :
    add_adj_substrands z r0 r1 hb rd ≠ .error .out_of_fuel := by
  unfold add_adj_substrands
  exact bind_fuel _ _ (strict_c_info_fuel _ _) (fun _ _ =>
    bind_fuel _ _ (last_substr_id_fuel _ _) (fun _ _ =>
      bind_fuel _ _ (last_substr_id_fuel _ _) (fun _ _ => by simp)))

theorem bfs_add_keys_fuel (z : StrictZone) (t a : ZoneResidue) (i d fb : Bool)
    (rel : List RelDir) (al : AdjListWithSub) :
    bfs_add_keys z t a i d fb rel al ≠ .error .out_of_fuel := by
  unfold bfs_add_keys
  split
  · exact bind_fuel _ _ (last_key_fuel _ _ _) (fun _ _ =>
      bind_fuel _ _ (add_adj_list_count_fuel _ _ _) (fun _ _ => add_adj_list_count_fuel _ _ _))
  · exact bind_fuel _ _ (gen_list_key_fuel _ _ _ _ _) (fun _ _ =>
      add_adj_list_count_fuel _ _ _)

theorem ba_check_fuel (z : StrictZone) (t : ZoneResidue) (diff : Int)
    (rem : List ZoneResidue) : ba_check z t diff rem ≠ .error .out_of_fuel := by
  unfold ba_check
  split
  · simp
  · split
    · simp
    · split
      · simp
      · split
        · simp
        · exact bind_fuel _ _ (strict_c_info_fuel _ _) (fun _ _ =>
            bind_fuel _ _ (strict_c_info_fuel _ _) (fun _ _ => by split <;> simp))

theorem bfs_adj_fuel (U : AdjList) (t : ZoneResidue) (i : Bool) (s : BfsState) :
    bfs_adj U t i s ≠ .error .out_of_fuel := by
  unfold bfs_adj
  refine bind_fuel _ _ (strict_c_info_fuel _ _) (fun info _ => ?_)
  split
  · simp
  · refine bind_fuel _ _ (set_side_fuel _ _ _) (fun z1 _ => ?_)
    refine bind_fuel _ _ (extend_fuel _ _) (fun z2 _ => ?_)
    split
    · simp
    · refine bind_fuel _ _ ?_ (fun fr _ => ?_)
      · split
        · simp
        · exact update_rel_dir_fuel _ _ _ _
      · exact bind_fuel _ _ (bfs_add_keys_fuel _ _ _ _ _ _ _ _) (fun _ _ =>
          bind_fuel _ _ (add_adj_substrands_fuel _ _ _ _ _) (fun _ _ => by simp))

theorem bfs_ba_fuel (t ba : ZoneResidue) (s : BfsState) :
    bfs_ba t ba s ≠ .error .out_of_fuel := by
  unfold bfs_ba
  split
  · simp
  · refine bind_fuel _ _ (strict_c_info_fuel _ _) (fun info _ => ?_)
    split
    · simp
    · refine bind_fuel _ _ (strict_c_info_fuel _ _) (fun info_t _ => ?_)
      split
      · simp
      · exact bind_fuel _ _ (set_side_fuel _ _ _) (fun _ _ => by simp)

theorem bfs_body_fuel (U : AdjList) (t : ZoneResidue) (s : BfsState) :
    bfs_body U t s ≠ .error .out_of_fuel := by
  unfold bfs_body
  exact bind_fuel _ _ (extend_fuel _ _) (fun _ _ =>
    bind_fuel _ _ (bfs_adj_fuel _ _ _ _) (fun _ _ =>
      bind_fuel _ _ (bfs_adj_fuel _ _ _ _) (fun _ _ =>
        bind_fuel _ _ (ba_check_fuel _ _ _ _) (fun _ _ =>
          bind_fuel _ _ (ba_check_fuel _ _ _ _) (fun _ _ =>
            bind_fuel _ _ (bfs_ba_fuel _ _ _) (fun _ _ =>
              bind_fuel _ _ (bfs_ba_fuel _ _ _) (fun _ _ => by simp)))))))

/-- The loop of `bfs` ends before its fuel does when the fuel exceeds the
length of the remainder. -/
theorem bfs_loop_fuel (U : AdjList) (d0 : RangeData) (rem0 : List ZoneResidue) :
    ∀ (fuel : Nat) (s : BfsState) (calls : List ZoneResidue),
      VisitInv d0 rem0 s calls → s.remainder.length < fuel →
      bfs_loop U fuel s ≠ .error .out_of_fuel := by
  intro fuel
  induction fuel with
  | zero => intro s calls _ h; omega
  | succ fuel ih =>
    intro s calls hinv hlt
    rw [bfs_loop]
    cases hq : s.queue with
    | nil => simp
    | cons target rest =>
      simp only
      refine bind_fuel _ _ (bfs_body_fuel _ _ _) (fun s1 hb => ?_)
      obtain ⟨⟨calls1, hinv1⟩, hl⟩ := visit_body U d0 rem0 s s1 calls target rest hq hinv hb
      exact ih s1 calls1 hinv1 (by omega)

/-- The search of `bfs` does not run out of fuel. -/
theorem bfs_search_fuel (z : StrictZone) (adj_list : AdjListWithSub)
    (remainder : List ZoneResidue) (U : AdjList) :
    bfs_search z adj_list remainder U ≠ .error .out_of_fuel := by
  unfold bfs_search
  refine bind_fuel _ _ ?_ (fun s0 hs0 => ?_)
  · unfold bfs_start
    split
    · simp
    · refine bind_fuel _ _ (set_side_fuel _ _ _) (fun _ _ => ?_)
      split <;> simp
  · obtain ⟨hinv, hrem, _⟩ := visit_start z adj_list remainder s0 hs0
    exact bfs_loop_fuel U _ _ _ s0 [] hinv (by rw [hrem]; omega)

theorem bfs_finish_fuel (s : BfsState) : bfs_finish s ≠ .error .out_of_fuel := by
  unfold bfs_finish
  split
  · simp
  · refine bind_fuel _ _ ?_ (fun _ _ => bind_fuel _ _ ?_ (fun _ _ => by simp))
    · unfold erase_too_short
      split <;> simp
    · split
      · unfold ensure_undirected
        split <;> simp
      · simp

theorem bfs_fuel_ok (z : StrictZone) (adj_list : AdjListWithSub)
    (remainder : List ZoneResidue) (U : AdjList) :
    bfs z adj_list remainder U ≠ .error .out_of_fuel := by
  unfold bfs
  exact bind_fuel _ _ (bfs_search_fuel _ _ _ _) (fun _ _ => bfs_finish_fuel _)

/-- The loop of `decide_side` over the components does not run out of fuel
when the fuel exceeds the length of the remainder. -/
theorem decide_side_loop_fuel (U : AdjList) : ∀ (fuel : Nat) (z : StrictZone)
    (al : AdjListWithSub) (rem : List ZoneResidue), rem.length < fuel →
    decide_side_loop U fuel z al rem ≠ .error .out_of_fuel := by
  intro fuel
  induction fuel with
  | zero => intro z al rem h; omega
  | succ fuel ih =>
    intro z al rem hlt
    rw [decide_side_loop]
    split
    · simp
    · refine bind_fuel _ _ (bfs_fuel_ok _ _ _ _) (fun b hb => ?_)
      obtain ⟨_, _, _, _, _, _, hl⟩ := bfs_component z al rem U b hb
      exact ih _ _ _ (by omega)

theorem ok_of_returned {α : Type} (e : Except Failure α) (a : α) (h : returned e = some a) :
    e = .ok a := by
  cases e with
  | error x => simp [returned] at h
  | ok b =>
    simp only [returned, Option.some.injEq] at h
    rw [h]

theorem rel_set_get (rel : List RelDir) (i : Nat) (h : rel_set rel i) : i < rel.length := by
  by_contra hc
  unfold rel_set at h
  rw [List.get?_eq_none.2 (by omega)] at h
  rcases h with h | h <;> cases h

/-- A call of `update_rel_dir` that does not ask for the fallback: the
directions already set are kept, the directions of the two strands are set,
and they are equal exactly for a parallel pair. -/
theorem update_rel_dir_ok (target adj : ZoneResidue) (dir : Bool) (rel rel1 : List RelDir)
    (h : update_rel_dir target adj dir rel = .ok (false, rel1)) :
    (∀ i, rel_set rel i → rel1.get? i = rel.get? i) ∧
      rel_set rel1 target.serial_str_id ∧ rel_set rel1 adj.serial_str_id ∧
      (dir = true ↔ rel1.get? target.serial_str_id = rel1.get? adj.serial_str_id) := by
  unfold update_rel_dir at h
  cases ht : rel.get? target.serial_str_id with
  | none => rw [ht] at h; cases h
  | some rt =>
    rw [ht] at h
    cases ha : rel.get? adj.serial_str_id with
    | none => rw [ha] at h; cases rt <;> cases h
    | some ra =>
      rw [ha] at h
      have hlen : adj.serial_str_id < rel.length := by
        by_contra hc
        rw [List.get?_eq_none.2 (by omega)] at ha
        cases ha
      cases rt with
      | NotSet => cases h
      | AntiParallel =>
        simp only at h
        by_cases hn : ra = RelDir.NotSet
        · rw [if_pos hn] at h
          simp only [Except.ok.injEq, Prod.mk.injEq, true_and] at h
          subst h
          subst hn
          have hne : adj.serial_str_id ≠ target.serial_str_id := by
            intro he; rw [he, ht] at ha; cases ha
          have hg1 := get?_set_same rel adj.serial_str_id
            (if dir = true then RelDir.AntiParallel else RelDir.Parallel) hlen
          have hg2 := get?_set_other rel adj.serial_str_id target.serial_str_id
            (if dir = true then RelDir.AntiParallel else RelDir.Parallel) hne
          simp only [reduceCtorEq, if_false] at hg1 hg2 ⊢
          refine ⟨?_, ?_, ?_, ?_⟩
          · intro i hi
            apply get?_set_other
            intro he
            rw [← he] at hi
            unfold rel_set at hi
            rw [ha] at hi
            rcases hi with hi | hi <;> cases hi
          · unfold rel_set; rw [hg2, ht]; right; rfl
          · unfold rel_set; rw [hg1]; cases dir <;> simp
          · rw [hg1, hg2, ht]; cases dir <;> simp
        · rw [if_neg hn] at h
          simp only [reduceCtorEq, if_false] at h
          by_cases hd : ra ≠ (if dir = true then RelDir.AntiParallel else RelDir.Parallel)
          · rw [if_pos hd] at h
            simp at h
          · rw [if_neg hd] at h
            simp only [Except.ok.injEq, Prod.mk.injEq, true_and] at h
            subst h
            have hra : ra = (if dir = true then RelDir.AntiParallel else RelDir.Parallel) := by
              simpa using hd
            refine ⟨fun i _ => rfl, ?_, ?_, ?_⟩
            · unfold rel_set; rw [ht]; right; rfl
            · unfold rel_set; rw [ha, hra]; cases dir <;> simp
            · rw [ht, ha, hra]; cases dir <;> simp
      | Parallel =>
        simp only at h
        by_cases hn : ra = RelDir.NotSet
        · rw [if_pos hn] at h
          simp only [Except.ok.injEq, Prod.mk.injEq, true_and] at h
          subst h
          subst hn
          have hne : adj.serial_str_id ≠ target.serial_str_id := by
            intro he; rw [he, ht] at ha; cases ha
          have hg1 := get?_set_same rel adj.serial_str_id
            (if dir = true then RelDir.Parallel else RelDir.AntiParallel) hlen
          have hg2 := get?_set_other rel adj.serial_str_id target.serial_str_id
            (if dir = true then RelDir.Parallel else RelDir.AntiParallel) hne
          simp only [if_true] at hg1 hg2 ⊢
          refine ⟨?_, ?_, ?_, ?_⟩
          · intro i hi
            apply get?_set_other
            intro he
            rw [← he] at hi
            unfold rel_set at hi
            rw [ha] at hi
            rcases hi with hi | hi <;> cases hi
          · unfold rel_set; rw [hg2, ht]; left; rfl
          · unfold rel_set; rw [hg1]; cases dir <;> simp
          · rw [hg1, hg2, ht]; cases dir <;> simp
        · rw [if_neg hn] at h
          simp only [if_true] at h
          by_cases hd : ra ≠ (if dir = true then RelDir.Parallel else RelDir.AntiParallel)
          · rw [if_pos hd] at h
            simp at h
          · rw [if_neg hd] at h
            simp only [Except.ok.injEq, Prod.mk.injEq, true_and] at h
            subst h
            have hra : ra = (if dir = true then RelDir.Parallel else RelDir.AntiParallel) := by
              simpa using hd
            refine ⟨fun i _ => rfl, ?_, ?_, ?_⟩
            · unfold rel_set; rw [ht]; left; rfl
            · unfold rel_set; rw [ha, hra]; cases dir <;> simp
            · rw [ht, ha, hra]; cases dir <;> simp

theorem last_key_ok (d : RangeData) (s0 s1 : Nat) (k : SubStrandsPairKey)
    (h : last_key d s0 s1 = .ok k) : k.str0 = s0 ∧ k.str1 = s1 := by
  unfold last_key at h
  obtain ⟨a, _, h1⟩ := except_bind_ok _ _ _ h
  obtain ⟨b, _, h2⟩ := except_bind_ok _ _ _ h1
  simp only [Except.ok.injEq] at h2
  subst h2
  exact ⟨rfl, rfl⟩

theorem gen_list_key_ok (z : StrictZone) (res0 res1 : ZoneResidue) (hb : Bool)
    (rel : List RelDir) (k : SubStrandsPairKey) (h : gen_list_key z res0 res1 hb rel = .ok k) :
    (k.str0 = res0.serial_str_id ∧ k.str1 = res1.serial_str_id) ∨
      (k.str0 = res1.serial_str_id ∧ k.str1 = res0.serial_str_id) := by
  unfold gen_list_key at h
  cases hr : rel.get? res0.serial_str_id with
  | none => rw [hr] at h; cases h
  | some r0 =>
    rw [hr] at h
    have hmain : ∀ r : RelDir,
        ((strict_c_info z.strict res0).bind (fun info =>
          if r.toInt = boolInt (decide (info.side.toInt = boolInt hb)) then
            last_key z.sub_strands.data res0.serial_str_id res1.serial_str_id
          else last_key z.sub_strands.data res1.serial_str_id res0.serial_str_id)) = .ok k →
        (k.str0 = res0.serial_str_id ∧ k.str1 = res1.serial_str_id) ∨
          (k.str0 = res1.serial_str_id ∧ k.str1 = res0.serial_str_id) := by
      intro r hk
      obtain ⟨info, _, h1⟩ := except_bind_ok _ _ _ hk
      by_cases hc : r.toInt = boolInt (decide (info.side.toInt = boolInt hb))
      · rw [if_pos hc] at h1
        exact Or.inl (last_key_ok _ _ _ _ h1)
      · rw [if_neg hc] at h1
        exact Or.inr (last_key_ok _ _ _ _ h1)
    cases r0 with
    | NotSet => cases h
    | AntiParallel => exact hmain _ h
    | Parallel => exact hmain _ h

theorem getLast?_dropLast_append {α : Type} (l : List α) (x : α) :
    (l.dropLast ++ [x]).getLast? = some x := by
  simp

/-- A call of `add_adj_list_count` that returns: the key has a node with the
given direction, the last key vector gains at most the key, and every other
node keeps its direction. -/
theorem add_adj_list_count_ok (key : SubStrandsPairKey) (al al1 : AdjListWithSub) (dir : Bool)
    (h : add_adj_list_count key al dir = .ok al1) :
    (∀ k ∈ al1.sheets_key_vec.getLast?.getD [],
        k ∈ al.sheets_key_vec.getLast?.getD [] ∨ k = key) ∧
      (∃ node, map_at al1.data key = some node ∧ node.direction = dir) ∧
      ∀ k node, map_at al.data k = some node →
        ∃ node1, map_at al1.data k = some node1 ∧ node1.direction = node.direction := by
  unfold add_adj_list_count at h
  cases hm : map_at al.data key with
  | none =>
    rw [hm] at h
    simp only at h
    obtain ⟨sheets, hs, h1⟩ := except_bind_ok _ _ _ h
    simp only [Except.ok.injEq] at h1
    subst h1
    unfold register_key_vec at hs
    cases hl : al.sheets_key_vec.getLast? with
    | none => rw [hl] at hs; cases hs
    | some back =>
      rw [hl] at hs
      simp only [Except.ok.injEq] at hs
      subst hs
      refine ⟨?_, ?_, ?_⟩
      · intro k hk
        simp only [getLast?_dropLast_append, Option.getD_some, List.mem_append,
          List.mem_singleton] at hk
        simpa using hk
      · refine ⟨{ direction := dir }, ?_, rfl⟩
        simp only
        rw [map_at_insert, hm]
        simp
      · intro k node hk
        refine ⟨node, ?_, rfl⟩
        simp only
        rw [map_at_insert, hk]
        simp
  | some node0 =>
    rw [hm] at h
    simp only at h
    by_cases hd : node0.direction = dir
    · rw [if_pos hd] at h
      simp only [Except.ok.injEq] at h
      subst h
      refine ⟨fun k hk => Or.inl hk, ?_, ?_⟩
      · refine ⟨{ node0 with residue_pairs := (node0.residue_pairs + 1) % 2 ^ 32 }, ?_, hd⟩
        simp only
        rw [map_at_map_set, if_pos rfl, hm]
        rfl
      · intro k node hk
        simp only
        rw [map_at_map_set]
        by_cases hkk : k = key
        · rw [if_pos hkk, hm]
          rw [hkk, hm] at hk
          simp only [Option.some.injEq] at hk
          exact ⟨_, rfl, by rw [← hk]⟩
        · rw [if_neg hkk]
          exact ⟨node, hk, rfl⟩
    · rw [if_neg hd] at h
      cases h

theorem dirInv_congr (s t : BfsState) (h1 : t.adj_list = s.adj_list)
    (h2 : t.relative_directions = s.relative_directions) (h3 : t.fallback = s.fallback)
    (h : DirInv s) : DirInv t := by
  unfold DirInv at *
  rw [h1, h2, h3]
  exact h

/-- A round over a paired residue keeps the invariant of the edges, and the
fallback mode is never left. -/
theorem bfs_adj_dir (U : AdjList) (target : ZoneResidue) (i : Bool) (s s1 : BfsState)
    (hinv : DirInv s) (h : bfs_adj U target i s = .ok s1) :
    DirInv s1 ∧ (s1.fallback = false → s.fallback = false) := by
  rcases bfs_adj_ok U target i s s1 h with rfl | ⟨info_t, z1, z2, z3, sd, fr, al, _, _, _, _,
    _, _, hfr, hal, _, hs⟩
  · exact ⟨hinv, fun h => h⟩
  · subst hs
    have hfb : fr.1 = false → s.fallback = false := by
      intro hf
      cases hsf : s.fallback with
      | false => rfl
      | true =>
        rw [hsf] at hfr
        simp only [if_true, Except.ok.injEq] at hfr
        rw [← hfr] at hf
        cases hf
    refine ⟨?_, hfb⟩
    intro hf
    simp only at hf
    have hsf := hfb hf
    rw [hsf] at hfr
    simp only [Bool.false_eq_true, if_false] at hfr
    have hfr2 : update_rel_dir target (at2 info_t.adj_residues i) sd.direction
        s.relative_directions = .ok (false, fr.2) := by
      rw [hfr, ← hf]
    obtain ⟨u1, u2, u3, u4⟩ := update_rel_dir_ok _ _ _ _ _ hfr2
    unfold bfs_add_keys at hal
    rw [hf] at hal
    simp only [Bool.false_eq_true, if_false] at hal
    obtain ⟨key, hkey, hadd⟩ := except_bind_ok _ _ _ hal
    obtain ⟨a1, ⟨nk, a2, a3⟩, a4⟩ := add_adj_list_count_ok key s.adj_list al sd.direction hadd
    have hk := gen_list_key_ok _ _ _ _ _ _ hkey
    intro k hkmem
    simp only at hkmem ⊢
    rcases a1 k hkmem with hold | hnew
    · obtain ⟨node, n1, n2, n3, n4⟩ := hinv hsf k hold
      obtain ⟨node1, m1, m2⟩ := a4 k node n1
      refine ⟨node1, m1, ?_, ?_, ?_⟩
      · unfold rel_set at n2 ⊢; rw [u1 _ n2]; exact n2
      · unfold rel_set at n3 ⊢; rw [u1 _ n3]; exact n3
      · rw [m2, u1 _ n2, u1 _ n3]; exact n4
    · subst hnew
      refine ⟨nk, a2, ?_, ?_, ?_⟩
      · rcases hk with ⟨e1, _⟩ | ⟨e1, _⟩ <;> rw [e1] <;> assumption
      · rcases hk with ⟨_, e2⟩ | ⟨_, e2⟩ <;> rw [e2] <;> assumption
      · rw [a3]
        rcases hk with ⟨e1, e2⟩ | ⟨e1, e2⟩
        · rw [e1, e2]; exact u4
        · rw [e1, e2]; exact u4.trans eq_comm

theorem bfs_ba_dir (target ba : ZoneResidue) (s s1 : BfsState)
    (h : bfs_ba target ba s = .ok s1) :
    s1.adj_list = s.adj_list ∧ s1.relative_directions = s.relative_directions ∧
      s1.fallback = s.fallback := by
  rcases bfs_ba_ok target ba s s1 h with rfl | ⟨z1, side, _, _, hs⟩
  · exact ⟨rfl, rfl, rfl⟩
  · subst hs; exact ⟨rfl, rfl, rfl⟩

/-- The body of the loop keeps the invariant of the edges. -/
theorem bfs_body_dir (U : AdjList) (target : ZoneResidue) (s s1 : BfsState)
    (hinv : DirInv s) (h : bfs_body U target s = .ok s1) :
    DirInv s1 ∧ (s1.fallback = false → s.fallback = false) := by
  obtain ⟨z1, t1, t2, before, after, t3, t4, _, h1, h2, _, _, h3, h4, hs⟩ :=
    bfs_body_ok U target s s1 h
  have hinv0 : DirInv
      { s with
        zone := z1,
        involved_serial_str_ids :=
          if target.serial_str_id ∈ s.involved_serial_str_ids then s.involved_serial_str_ids
          else s.involved_serial_str_ids ++ [target.serial_str_id] } :=
    dirInv_congr s _ rfl rfl rfl hinv
  obtain ⟨i1, f1⟩ := bfs_adj_dir U target false _ t1 hinv0 h1
  obtain ⟨i2, f2⟩ := bfs_adj_dir U target true t1 t2 i1 h2
  obtain ⟨a3, b3, c3⟩ := bfs_ba_dir _ _ _ _ h3
  obtain ⟨a4, b4, c4⟩ := bfs_ba_dir _ _ _ _ h4
  subst hs
  refine ⟨dirInv_congr t2 _ (a4.trans a3) (b4.trans b3) (c4.trans c3) i2, ?_⟩
  intro hf
  simp only at hf
  rw [c4, c3] at hf
  exact f1 (f2 hf)

/-- The loop of `bfs` keeps the invariant of the edges. -/
theorem bfs_loop_dir (U : AdjList) : ∀ (fuel : Nat) (s s1 : BfsState),
    DirInv s → bfs_loop U fuel s = .ok s1 → DirInv s1 := by
  intro fuel
  induction fuel with
  | zero => intro s s1 _ h; simp [bfs_loop] at h
  | succ fuel ih =>
    intro s s1 hinv h
    rw [bfs_loop] at h
    cases hq : s.queue with
    | nil =>
      rw [hq] at h
      simp only [Except.ok.injEq] at h
      subst h
      exact hinv
    | cons target rest =>
      rw [hq] at h
      simp only at h
      obtain ⟨s2, hb, hl⟩ := except_bind_ok _ _ _ h
      exact ih s2 s1 (bfs_body_dir U target s s2 hinv hb).1 hl

theorem bfs_start_dir (z : StrictZone) (adj_list : AdjListWithSub)
    (remainder : List ZoneResidue) (s : BfsState) (h : bfs_start z adj_list remainder = .ok s) :
    DirInv s := by
  unfold bfs_start at h
  cases remainder with
  | nil => cases h
  | cons front rest =>
    simp only at h
    obtain ⟨z1, _, h1⟩ := except_bind_ok _ _ _ h
    by_cases hc : front.serial_str_id < z.strand_indices.length
    · rw [if_pos hc] at h1
      simp only [Except.ok.injEq] at h1
      subst h1
      intro _ key hkey
      simp [AdjListWithSub.add_sheet] at hkey
    · rw [if_neg hc] at h1
      cases h1

theorem map_at_foldl_erase : ∀ (bad : List SubStrandsPairKey) (data : AdjListWithSubData)
    (k : SubStrandsPairKey), k ∉ bad → map_at (bad.foldl map_erase data) k = map_at data k := by
  intro bad
  induction bad with
  | nil => intro data k _; rfl
  | cons b rest ih =>
    intro data k hk
    rw [List.foldl_cons, ih _ k (fun h => hk (List.mem_cons_of_mem _ h)), map_at_erase,
      if_neg (fun h => hk (by rw [h]; exact List.mem_cons_self _ _))]

/-- When a search ends without the fallback, every key of the sheet that `bfs`
registers has a node whose direction is parallel exactly when the relative
directions of its two strands, both set, are equal. -/
theorem bfs_dir (z : StrictZone) (adj_list : AdjListWithSub) (remainder : List ZoneResidue)
    (U : AdjList) (s : BfsState) (r : StrictZone × AdjListWithSub × List ZoneResidue)
    (hs : bfs_search z adj_list remainder U = .ok s) (hr : bfs_finish s = .ok r)
    (hfb : s.fallback = false) :
    r.2.1.sheets_directed.getLast? = some true ∧
    ∀ key ∈ r.2.1.sheets_key_vec.getLast?.getD [],
      ∃ node, map_at r.2.1.data key = some node ∧
        rel_set s.relative_directions key.str0 ∧ rel_set s.relative_directions key.str1 ∧
        (node.direction = true ↔
          s.relative_directions.get? key.str0 = s.relative_directions.get? key.str1) := by
  unfold bfs_search at hs
  obtain ⟨s0, hs0, hl⟩ := except_bind_ok _ _ _ hs
  have hinv := bfs_loop_dir U _ s0 s (bfs_start_dir z adj_list remainder s0 hs0) hl
  unfold bfs_finish at hr
  cases hc : cleanup_sheet s.zone.sub_strands.data with
  | none => rw [hc] at hr; cases hr
  | some p =>
    obtain ⟨data, short⟩ := p
    rw [hc] at hr
    simp only at hr
    obtain ⟨al1, he, h1⟩ := except_bind_ok _ _ _ hr
    rw [hfb] at h1
    simp only [Bool.false_eq_true, if_false] at h1
    obtain ⟨al2, h2, h3⟩ := except_bind_ok _ _ _ h1
    simp only [Except.ok.injEq] at h2 h3
    subst h2
    subst h3
    unfold erase_too_short at he
    cases hlast : s.adj_list.sheets_key_vec.getLast? with
    | none => rw [hlast] at he; cases he
    | some key_vec =>
      rw [hlast] at he
      simp only [Except.ok.injEq] at he
      subst he
      refine ⟨by simp, ?_⟩
      intro key hkey
      simp only [getLast?_dropLast_append, Option.getD_some, List.mem_filter] at hkey
      obtain ⟨node, n1, n2, n3, n4⟩ := hinv hfb key (by rw [hlast]; exact hkey.1)
      refine ⟨node, ?_, n2, n3, n4⟩
      simp only
      rw [map_at_foldl_erase _ _ key, n1]
      intro hbad
      rw [List.mem_filter] at hbad
      have := hkey.2
      rw [hbad.2] at this
      cases this

theorem ofSubs_subs (k : SubStrandsPairKey) : SubStrandsPairKey.ofSubs k.sub0 k.sub1 = k := rfl

/-- The arithmetic of the accumulated direction for three strands whose
relative directions are set. -/
theorem rel_xor (rel : List RelDir) (x y b : Nat) (acc d : Bool)
    (hx : rel_set rel x) (hy : rel_set rel y) (hb : rel_set rel b)
    (hd : d = true ↔ rel.get? x = rel.get? y) :
    decide (decide (acc = d) = decide (rel.get? y = rel.get? b)) =
      decide (acc = decide (rel.get? x = rel.get? b)) := by
  unfold rel_set at hx hy hb
  rcases hx with hx | hx <;> rcases hy with hy | hy <;> rcases hb with hb | hb <;>
    rw [hx, hy] at hd <;> rw [hx, hy, hb] <;> cases acc <;> cases d <;> simp_all

/-- With relative directions behind every edge, the direction accumulated
along a path depends on its two ends only. -/
theorem path_direction_rel (data : AdjListWithSubData) (adj : AdjSubVec) (rel : List RelDir)
    (hedge : ∀ a b, Step adj a b →
      ∃ node, map_at data (SubStrandsPairKey.ofSubs a b) = some node ∧
        rel_set rel a.str ∧ rel_set rel b.str ∧
        (node.direction = true ↔ rel.get? a.str = rel.get? b.str)) :
    ∀ (p : List SubStrand) (acc : Bool) (a b : SubStrand),
      p.head? = some a → p.getLast? = some b → List.Chain' (Step adj) p →
      path_direction data acc p = decide (acc = decide (rel.get? a.str = rel.get? b.str)) ∧
        (2 ≤ p.length → rel_set rel b.str) := by
  intro p
  induction p with
  | nil => intro acc a b h; simp at h
  | cons x rest ih =>
    intro acc a b ha hb hc
    simp only [List.head?_cons, Option.some.injEq] at ha
    subst ha
    cases rest with
    | nil =>
      simp only [List.getLast?_singleton, Option.some.injEq] at hb
      subst hb
      refine ⟨?_, by simp⟩
      simp only [path_direction]
      cases acc <;> simp
    | cons y rest2 =>
      rw [List.chain'_cons] at hc
      obtain ⟨node, n1, n2, n3, n4⟩ := hedge x y hc.1
      have hb2 : (y :: rest2).getLast? = some b := by
        rw [List.getLast?_cons_cons] at hb; exact hb
      obtain ⟨i1, i2⟩ := ih (decide (acc = node.direction)) y b rfl hb2 hc.2
      have hbset : rel_set rel b.str := by
        cases rest2 with
        | nil =>
          simp only [List.getLast?_singleton, Option.some.injEq] at hb2
          rw [← hb2]; exact n3
        | cons w rest3 => exact i2 (by simp)
      refine ⟨?_, fun _ => hbset⟩
      rw [path_direction, n1]
      simp only [Option.map_some', Option.getD_some]
      rw [i1]
      exact rel_xor rel x.str y.str b.str acc node.direction n2 n3 hbset n4

/-- The same for the direction `search_backtrace` accumulates from the end of
a path back to its start. -/
theorem backtrace_direction_rel (data : AdjListWithSubData) (adj : AdjSubVec)
    (rel : List RelDir)
    (hedge : ∀ a b, Step adj a b →
      ∃ node, map_at data (SubStrandsPairKey.ofSubs a b) = some node ∧
        rel_set rel a.str ∧ rel_set rel b.str ∧
        (node.direction = true ↔ rel.get? a.str = rel.get? b.str)) :
    ∀ (p : List SubStrand) (acc : Bool) (a b : SubStrand),
      p.head? = some a → p.getLast? = some b → List.Chain' (fun u v => Step adj v u) p →
      backtrace_direction data acc p =
          decide (acc = decide (rel.get? a.str = rel.get? b.str)) ∧
        (2 ≤ p.length → rel_set rel b.str) := by
  intro p
  induction p with
  | nil => intro acc a b h; simp at h
  | cons x rest ih =>
    intro acc a b ha hb hc
    simp only [List.head?_cons, Option.some.injEq] at ha
    subst ha
    cases rest with
    | nil =>
      simp only [List.getLast?_singleton, Option.some.injEq] at hb
      subst hb
      refine ⟨?_, by simp⟩
      simp only [backtrace_direction]
      cases acc <;> simp
    | cons y rest2 =>
      rw [List.chain'_cons] at hc
      obtain ⟨node, n1, n2, n3, n4⟩ := hedge y x hc.1
      have hb2 : (y :: rest2).getLast? = some b := by
        rw [List.getLast?_cons_cons] at hb; exact hb
      obtain ⟨i1, i2⟩ := ih (decide (acc = node.direction)) y b rfl hb2 hc.2
      have hbset : rel_set rel b.str := by
        cases rest2 with
        | nil =>
          simp only [List.getLast?_singleton, Option.some.injEq] at hb2
          rw [← hb2]; exact n2
        | cons w rest3 => exact i2 (by simp)
      refine ⟨?_, fun _ => hbset⟩
      rw [backtrace_direction, n1]
      simp only [Option.map_some', Option.getD_some]
      rw [i1]
      exact rel_xor rel x.str y.str b.str acc node.direction n3 n2 hbset (n4.trans eq_comm)

/-- With relative directions behind every edge of an edge map, the direction
`search` returns for a pair is the direction accumulated along every path
between the two sub-strands, and it is parallel exactly when their relative
directions are equal. -/
theorem search_direction_rel (data : AdjListWithSubData) (rel : List RelDir)
    (hedge : ∀ d ∈ data, ∃ node, map_at data d.1 = some node ∧
      rel_set rel d.1.str0 ∧ rel_set rel d.1.str1 ∧
      (node.direction = true ↔ rel.get? d.1.str0 = rel.get? d.1.str1))
    (a b : SubStrand) :
    (∃ attr, search data a b (gen_adj_sub_vec data) = some attr) ∧
      ∀ attr p, search data a b (gen_adj_sub_vec data) = some attr →
        IsPath (gen_adj_sub_vec data) a b p →
        attr.direction = path_direction data true p ∧
          (attr.direction = true ↔ rel.get? a.str = rel.get? b.str) := by
  refine ⟨search_total data _ a b (gen_adj_consistent data), ?_⟩
  have hstep : ∀ u v, Step (gen_adj_sub_vec data) u v →
      ∃ node, map_at data (SubStrandsPairKey.ofSubs u v) = some node ∧
        rel_set rel u.str ∧ rel_set rel v.str ∧
        (node.direction = true ↔ rel.get? u.str = rel.get? v.str) := by
    intro u v huv
    obtain ⟨d, hd, e1, e2⟩ := step_gen_adj data u v huv
    obtain ⟨node, n1, n2, n3, n4⟩ := hedge d hd
    rw [← ofSubs_subs d.1, e1, e2] at n1
    have f1 : d.1.str0 = u.str := by rw [← e1]; rfl
    have f2 : d.1.str1 = v.str := by rw [← e2]; rfl
    rw [f1] at n2 n4
    rw [f2] at n3 n4
    exact ⟨node, n1, n2, n3, n4⟩
  intro attr p hs hp
  obtain ⟨hh, hl, hc⟩ := hp
  have hpd := (path_direction_rel data _ rel hstep p true a b hh hl hc).1
  have htrue : ∀ x : Bool, decide (true = x) = x := by intro x; cases x <;> rfl
  rw [htrue] at hpd
  rcases search_result data _ a b attr hs with ⟨ha, hno⟩ | ⟨_, tl, n, _, _, hlast, _, hch, ha⟩
  · rcases hno with e | e
    · subst e
      rw [ha, hpd]
      simp
    · exact absurd (walk_of_path _ a p b ⟨hh, hl, hc⟩) (e _)
  · have hbd := (backtrace_direction_rel data _ rel hstep (b :: tl) true b a rfl
      (by
        cases tl with
        | nil => simp at hlast
        | cons t ts => rw [List.getLast?_cons_cons]; exact hlast) hch).1
    rw [htrue] at hbd
    rw [ha, hpd]
    simp only
    rw [hbd]
    constructor
    · exact decide_eq_decide.2 eq_comm
    · simp only [decide_eq_true_eq]
      exact eq_comm

theorem mem_map_set_key {K V : Type} [DecidableEq K] (k : K) (v : V) :
    ∀ (m : List (K × V)) (e : K × V), e ∈ map_set m k v → ∃ e1 ∈ m, e1.1 = e.1 := by
  intro m
  induction m with
  | nil => intro e he; simp [map_set] at he
  | cons x rest ih =>
    intro e he
    simp only [map_set] at he
    by_cases hx : x.1 = k
    · rw [if_pos hx] at he
      rcases List.mem_cons.1 he with rfl | he
      · exact ⟨x, List.mem_cons_self _ _, hx⟩
      · exact ⟨e, List.mem_cons_of_mem _ he, rfl⟩
    · rw [if_neg hx] at he
      rcases List.mem_cons.1 he with rfl | he
      · exact ⟨e, List.mem_cons_self _ _, rfl⟩
      · obtain ⟨e1, h1, h2⟩ := ih e he
        exact ⟨e1, List.mem_cons_of_mem _ h1, h2⟩

theorem mem_foldl_erase : ∀ (bad : List SubStrandsPairKey) (data : AdjListWithSubData)
    (e : SubStrandsPairKey × SubStrandsPairNode),
    e ∈ bad.foldl map_erase data → e ∈ data ∧ e.1 ∉ bad := by
  intro bad
  induction bad with
  | nil => intro data e he; exact ⟨he, by simp⟩
  | cons b rest ih =>
    intro data e he
    rw [List.foldl_cons] at he
    obtain ⟨h1, h2⟩ := ih _ e he
    unfold map_erase at h1
    rw [List.mem_filter] at h1
    refine ⟨h1.1, ?_⟩
    intro hm
    rcases List.mem_cons.1 hm with hm | hm
    · have := h1.2
      rw [hm] at this
      simp at this
    · exact h2 hm

theorem add_adj_list_count_keys (key : SubStrandsPairKey) (al al1 : AdjListWithSub) (dir : Bool)
    (h : add_adj_list_count key al dir = .ok al1)
    (hk : ∀ e ∈ al.data, e.1 ∈ al.sheets_key_vec.getLast?.getD []) :
    ∀ e ∈ al1.data, e.1 ∈ al1.sheets_key_vec.getLast?.getD [] := by
  unfold add_adj_list_count at h
  cases hm : map_at al.data key with
  | none =>
    rw [hm] at h
    simp only at h
    obtain ⟨sheets, hs, h1⟩ := except_bind_ok _ _ _ h
    simp only [Except.ok.injEq] at h1
    subst h1
    unfold register_key_vec at hs
    cases hl : al.sheets_key_vec.getLast? with
    | none => rw [hl] at hs; cases hs
    | some back =>
      rw [hl] at hs
      simp only [Except.ok.injEq] at hs
      subst hs
      intro e he
      simp only [getLast?_dropLast_append, Option.getD_some, List.mem_append,
        List.mem_singleton]
      simp only [map_insert, hm, List.mem_append, List.mem_singleton] at he
      rcases he with he | he
      · left
        have := hk e he
        rw [hl] at this
        exact this
      · right; rw [he]
  | some node0 =>
    rw [hm] at h
    simp only at h
    by_cases hd : node0.direction = dir
    · rw [if_pos hd] at h
      simp only [Except.ok.injEq] at h
      subst h
      intro e he
      simp only at he ⊢
      obtain ⟨e1, h1, h2⟩ := mem_map_set_key _ _ _ e he
      rw [← h2]
      exact hk e1 h1
    · rw [if_neg hd] at h
      cases h

theorem keyInv_congr (s t : BfsState) (h1 : t.adj_list = s.adj_list)
    (h3 : t.fallback = s.fallback) (h : KeyInv s) : KeyInv t := by
  unfold KeyInv at *
  rw [h1, h3]
  exact h

theorem bfs_adj_keys (U : AdjList) (target : ZoneResidue) (i : Bool) (s s1 : BfsState)
    (hinv : KeyInv s) (h : bfs_adj U target i s = .ok s1) : KeyInv s1 := by
  rcases bfs_adj_ok U target i s s1 h with rfl | ⟨info_t, z1, z2, z3, sd, fr, al, _, _, _, _,
    _, _, hfr, hal, _, hs⟩
  · exact hinv
  · subst hs
    intro hf
    simp only at hf ⊢
    have hsf : s.fallback = false := by
      cases hsf : s.fallback with
      | false => rfl
      | true =>
        rw [hsf] at hfr
        simp only [if_true, Except.ok.injEq] at hfr
        rw [← hfr] at hf
        cases hf
    unfold bfs_add_keys at hal
    rw [hf] at hal
    simp only [Bool.false_eq_true, if_false] at hal
    obtain ⟨key, _, hadd⟩ := except_bind_ok _ _ _ hal
    exact add_adj_list_count_keys key s.adj_list al sd.direction hadd (hinv hsf)

theorem bfs_body_keys (U : AdjList) (target : ZoneResidue) (s s1 : BfsState)
    (hinv : KeyInv s) (h : bfs_body U target s = .ok s1) : KeyInv s1 := by
  obtain ⟨z1, t1, t2, before, after, t3, t4, _, h1, h2, _, _, h3, h4, hs⟩ :=
    bfs_body_ok U target s s1 h
  have hinv0 : KeyInv
      { s with
        zone := z1,
        involved_serial_str_ids :=
          if target.serial_str_id ∈ s.involved_serial_str_ids then s.involved_serial_str_ids
          else s.involved_serial_str_ids ++ [target.serial_str_id] } :=
    keyInv_congr s _ rfl rfl hinv
  have i1 := bfs_adj_keys U target false _ t1 hinv0 h1
  have i2 := bfs_adj_keys U target true t1 t2 i1 h2
  obtain ⟨a3, _, c3⟩ := bfs_ba_dir _ _ _ _ h3
  obtain ⟨a4, _, c4⟩ := bfs_ba_dir _ _ _ _ h4
  subst hs
  exact keyInv_congr t2 _ (a4.trans a3) (c4.trans c3) i2

theorem bfs_loop_keys (U : AdjList) : ∀ (fuel : Nat) (s s1 : BfsState),
    KeyInv s → bfs_loop U fuel s = .ok s1 → KeyInv s1 := by
  intro fuel
  induction fuel with
  | zero => intro s s1 _ h; simp [bfs_loop] at h
  | succ fuel ih =>
    intro s s1 hinv h
    rw [bfs_loop] at h
    cases hq : s.queue with
    | nil =>
      rw [hq] at h
      simp only [Except.ok.injEq] at h
      subst h
      exact hinv
    | cons target rest =>
      rw [hq] at h
      simp only at h
      obtain ⟨s2, hb, hl⟩ := except_bind_ok _ _ _ h
      exact ih s2 s1 (bfs_body_keys U target s s2 hinv hb) hl

/-- From a registry without edges, a search that ends without the fallback
leaves an edge map whose keys are all in the key vector of the new sheet. -/
theorem bfs_sheet_edges (z : StrictZone) (adj_list : AdjListWithSub)
    (remainder : List ZoneResidue) (U : AdjList) (s : BfsState)
    (r : StrictZone × AdjListWithSub × List ZoneResidue)
    (hs : bfs_search z adj_list remainder U = .ok s) (hr : bfs_finish s = .ok r)
    (hfb : s.fallback = false) (hempty : adj_list.data = []) :
    sheet_edges r.2.1 = r.2.1.data := by
  unfold bfs_search at hs
  obtain ⟨s0, hs0, hl⟩ := except_bind_ok _ _ _ hs
  have hinv0 : KeyInv s0 := by
    unfold bfs_start at hs0
    cases remainder with
    | nil => cases hs0
    | cons front rest =>
      simp only at hs0
      obtain ⟨z1, _, h1⟩ := except_bind_ok _ _ _ hs0
      by_cases hc : front.serial_str_id < z.strand_indices.length
      · rw [if_pos hc] at h1
        simp only [Except.ok.injEq] at h1
        subst h1
        intro _ e he
        simp only [AdjListWithSub.add_sheet, hempty] at he
        cases he
      · rw [if_neg hc] at h1
        cases h1
  have hinv := bfs_loop_keys U _ s0 s hinv0 hl
  unfold bfs_finish at hr
  cases hc : cleanup_sheet s.zone.sub_strands.data with
  | none => rw [hc] at hr; cases hr
  | some p =>
    obtain ⟨data, short⟩ := p
    rw [hc] at hr
    simp only at hr
    obtain ⟨al1, he, h1⟩ := except_bind_ok _ _ _ hr
    rw [hfb] at h1
    simp only [Bool.false_eq_true, if_false] at h1
    obtain ⟨al2, h2, h3⟩ := except_bind_ok _ _ _ h1
    simp only [Except.ok.injEq] at h2 h3
    subst h2
    subst h3
    unfold erase_too_short at he
    cases hlast : s.adj_list.sheets_key_vec.getLast? with
    | none => rw [hlast] at he; cases he
    | some key_vec =>
      rw [hlast] at he
      simp only [Except.ok.injEq] at he
      subst he
      unfold sheet_edges
      simp only [getLast?_dropLast_append, Option.getD_some]
      rw [List.filter_eq_self]
      intro e he
      obtain ⟨g1, g2⟩ := mem_foldl_erase _ _ e he
      have hk := hinv hfb e g1
      rw [hlast] at hk
      simp only [Option.getD_some] at hk
      simp only [decide_eq_true_eq, List.mem_filter]
      refine ⟨hk, ?_⟩
      cases hb : (decide (e.1.sub0 ∈ short) || decide (e.1.sub1 ∈ short)) with
      | false => rfl
      | true => exact absurd (List.mem_filter.2 ⟨hk, hb⟩) g2

/-- C19. A run of `bfs` (the search `bfs_search` followed by the closing
statements `bfs_finish`) does not run out of fuel. Let it return without having
switched to the fallback mode, with the relative directions
`s.relative_directions` at the end of the search. Then the sheet is registered as directed; every key of the sheet has a node in
the edge map, the relative directions of its two strands are set, and its
direction is parallel exactly when these two are equal. Consequently, on the
edges of the sheet, `search` returns for every pair of sub-strands, and
whenever there is a path from `a` to `b` the direction it returns is the
direction accumulated along that path, whichever path it is, and is parallel
exactly when the relative directions of the strands of `a` and `b` are equal.
When the registry had no edge before the run, the edges of the sheet are the
whole edge map. -/
theorem relative_directions_consistent (z : StrictZone) (adj_list : AdjListWithSub)
    (remainder : List ZoneResidue) (U : AdjList) :
    bfs z adj_list remainder U ≠ .error .out_of_fuel ∧
    ∀ (s : BfsState) (r : StrictZone × AdjListWithSub × List ZoneResidue),
    bfs_search z adj_list remainder U = .ok s → bfs_finish s = .ok r → s.fallback = false →
    bfs z adj_list remainder U = .ok r ∧
    r.2.1.sheets_directed.getLast? = some true ∧
    (∀ key ∈ r.2.1.sheets_key_vec.getLast?.getD [],
      ∃ node, map_at r.2.1.data key = some node ∧
        rel_set s.relative_directions key.str0 ∧ rel_set s.relative_directions key.str1 ∧
        (node.direction = true ↔
          s.relative_directions.get? key.str0 = s.relative_directions.get? key.str1)) ∧
    (∀ a b,
      (∃ attr, search (sheet_edges r.2.1) a b (gen_adj_sub_vec (sheet_edges r.2.1)) =
        some attr) ∧
      ∀ attr p, search (sheet_edges r.2.1) a b (gen_adj_sub_vec (sheet_edges r.2.1)) =
          some attr →
        IsPath (gen_adj_sub_vec (sheet_edges r.2.1)) a b p →
        attr.direction = path_direction (sheet_edges r.2.1) true p ∧
          (attr.direction = true ↔
            s.relative_directions.get? a.str = s.relative_directions.get? b.str)) ∧
    (adj_list.data = [] → sheet_edges r.2.1 = r.2.1.data) := by
  refine ⟨bfs_fuel_ok z adj_list remainder U, ?_⟩
  intro s r hs hr hfb
  obtain ⟨h1, h2⟩ := bfs_dir z adj_list remainder U s r hs hr hfb
  refine ⟨?_, h1, h2, ?_, bfs_sheet_edges z adj_list remainder U s r hs hr hfb⟩
  · unfold bfs
    rw [hs]
    exact hr
  · intro a b
    apply search_direction_rel
    intro d hd
    unfold sheet_edges at hd ⊢
    rw [List.mem_filter] at hd
    have hk : d.1 ∈ r.2.1.sheets_key_vec.getLast?.getD [] := by simpa using hd.2
    obtain ⟨node, n1, n2⟩ := h2 d.1 hk
    refine ⟨node, ?_, n2⟩
    rw [map_at_filter_key (fun k => decide (k ∈ r.2.1.sheets_key_vec.getLast?.getD []))]
    rw [if_pos (by simpa using hk)]
    exact n1

/-- C19 on the zone `ladder_strict` (an anti-parallel ladder between the
strands 0 and 1, a parallel ladder between the strands 1 and 2): the search
ends without the fallback with the relative directions parallel,
anti-parallel, anti-parallel; the sheet holds the anti-parallel edge 0 -> 1 and
the parallel edge 1 -> 2; and `search` from the sub-strand 0 to the sub-strand 2
returns the anti-parallel direction accumulated along the path 0, 1, 2. -/
theorem relative_directions_consistent_witness :
    (returned (bfs_search ladder_strict {} ladder_colored ladder_adj_list)).map
        (fun s => (s.relative_directions, s.fallback)) =
        some ([RelDir.Parallel, RelDir.AntiParallel, RelDir.AntiParallel], false) ∧
      (returned (bfs ladder_strict {} ladder_colored ladder_adj_list)).map
        (fun r => (r.2.1.data.map (fun e => (e.1, e.2.direction)), r.2.1.sheets_key_vec)) =
        some ([(⟨0, 0, 1, 0⟩, false), (⟨1, 0, 2, 0⟩, true)],
          [[⟨0, 0, 1, 0⟩, ⟨1, 0, 2, 0⟩]]) ∧
      ((returned (bfs ladder_strict {} ladder_colored ladder_adj_list)).bind (fun r =>
        search (sheet_edges r.2.1) ⟨0, 0⟩ ⟨2, 0⟩ (gen_adj_sub_vec (sheet_edges r.2.1)))).map
          (fun attr => (attr.reachable, attr.direction)) = some (true, false) ∧
      ∃ s r, bfs_search ladder_strict {} ladder_colored ladder_adj_list = .ok s ∧
        bfs_finish s = .ok r ∧ s.fallback = false ∧
        bfs ladder_strict {} ladder_colored ladder_adj_list = .ok r ∧
        (∀ key ∈ r.2.1.sheets_key_vec.getLast?.getD [],
          ∃ node, map_at r.2.1.data key = some node ∧
            (node.direction = true ↔
              s.relative_directions.get? key.str0 = s.relative_directions.get? key.str1)) ∧
        ∀ attr p, search (sheet_edges r.2.1) ⟨0, 0⟩ ⟨2, 0⟩
            (gen_adj_sub_vec (sheet_edges r.2.1)) = some attr →
          IsPath (gen_adj_sub_vec (sheet_edges r.2.1)) ⟨0, 0⟩ ⟨2, 0⟩ p →
          attr.direction = path_direction (sheet_edges r.2.1) true p := by
  refine ⟨by decide, by decide, by decide, ?_⟩
  obtain ⟨r, hr⟩ : ∃ r, returned (bfs ladder_strict {} ladder_colored ladder_adj_list) =
      some r := Option.isSome_iff_exists.1 (by decide)
  have hb := ok_of_returned _ _ hr
  unfold bfs at hb
  obtain ⟨s, hs, hf⟩ := except_bind_ok _ _ _ hb
  have hfb : s.fallback = false := by
    have h0 : (returned (bfs_search ladder_strict {} ladder_colored ladder_adj_list)).map
        (fun s => s.fallback) = some false := by decide
    rw [hs] at h0
    simpa [returned] using h0
  obtain ⟨g0, _, g2, g3, _⟩ := (relative_directions_consistent ladder_strict {}
    ladder_colored ladder_adj_list).2 s r hs hf hfb
  refine ⟨s, r, hs, hf, hfb, g0, ?_, ?_⟩
  · intro key hk
    obtain ⟨node, n1, _, _, n4⟩ := g2 key hk
    exact ⟨node, n1, n4⟩
  · intro attr p ha hp
    exact ((g3 ⟨0, 0⟩ ⟨2, 0⟩).2 attr p ha hp).1

theorem half_le_minority (f t : Nat) (h : max f t + min f t ≠ 0) :
    (1 / 2 : ℚ) ≤ (min f t : ℚ) / ((max f t : ℚ) + (min f t : ℚ)) ↔ f = t := by
  rw [← Nat.cast_min, ← Nat.cast_max]
  have hpos : (0 : ℚ) < ((max f t : Nat) : ℚ) + ((min f t : Nat) : ℚ) := by
    have : 0 < max f t + min f t := Nat.pos_of_ne_zero h
    exact_mod_cast this
  rw [le_div_iff₀ hpos]
  constructor
  · intro hle
    have h2 : ((max f t : Nat) : ℚ) ≤ ((min f t : Nat) : ℚ) := by linarith
    have h3 : max f t ≤ min f t := by exact_mod_cast h2
    omega
  · intro he
    subst he
    simp
    linarith

theorem direction_by_majority_cases (sse_id : Nat) (direction_counter : DirectionCounter) :
    direction_by_majority sse_id direction_counter =
      if counter_at direction_counter sse_id false = counter_at direction_counter sse_id true ∧
          counter_at direction_counter sse_id false ≠ 0 then .error .exception
      else .ok (decide (counter_at direction_counter sse_id false <
        counter_at direction_counter sse_id true)) := by
  unfold direction_by_majority minority_frac
  generalize counter_at direction_counter sse_id false = f
  generalize counter_at direction_counter sse_id true = t
  by_cases h0 : max f t + min f t = 0
  · rw [if_pos h0]
    have hf : f = 0 := by omega
    simp [hf]
  · rw [if_neg h0]
    simp only
    have hq := half_le_minority f t h0
    by_cases he : f = t
    · have hf : f ≠ 0 := by
        intro hf; apply h0; subst he; subst hf; simp
      rw [if_pos (hq.2 he), if_pos ⟨he, hf⟩]
    · rw [if_neg (fun hh => he (hq.1 hh)), if_neg (fun hh => he hh.1)]

/-- C21: `direction_by_majority` throws exactly when there is a vote and the
share `min / (min + max)` of the minority among the votes for parallel and
anti-parallel is at least one half, which is the case exactly when both
directions have the same positive number of votes; otherwise it returns
parallel exactly when the votes for parallel outnumber the votes for
anti-parallel; with no vote at all it returns anti-parallel. -/
theorem direction_by_majority_spec (sse_id : Nat) (direction_counter : DirectionCounter) :
    (direction_by_majority sse_id direction_counter = .error .exception ↔
      (counter_at direction_counter sse_id false + counter_at direction_counter sse_id true ≠ 0 ∧
        (1 / 2 : ℚ) ≤
          (min (counter_at direction_counter sse_id false)
              (counter_at direction_counter sse_id true) : ℚ) /
            ((min (counter_at direction_counter sse_id false)
                (counter_at direction_counter sse_id true) : ℚ) +
              (max (counter_at direction_counter sse_id false)
                (counter_at direction_counter sse_id true) : ℚ)))) ∧
    (direction_by_majority sse_id direction_counter = .error .exception ↔
      (counter_at direction_counter sse_id false = counter_at direction_counter sse_id true ∧
        counter_at direction_counter sse_id false ≠ 0)) ∧
    (direction_by_majority sse_id direction_counter ≠ .error .exception →
      direction_by_majority sse_id direction_counter =
        .ok (decide (counter_at direction_counter sse_id false <
          counter_at direction_counter sse_id true))) ∧
    (counter_at direction_counter sse_id false = 0 →
      counter_at direction_counter sse_id true = 0 →
      direction_by_majority sse_id direction_counter = .ok false) := by
  have hc := direction_by_majority_cases sse_id direction_counter
  revert hc
  generalize direction_by_majority sse_id direction_counter = r
  generalize counter_at direction_counter sse_id false = f
  generalize counter_at direction_counter sse_id true = t
  intro hc
  have h2 : r = .error .exception ↔ (f = t ∧ f ≠ 0) := by
    by_cases h : f = t ∧ f ≠ 0
    · rw [if_pos h] at hc; exact ⟨fun _ => h, fun _ => hc⟩
    · rw [if_neg h] at hc; rw [hc]; exact ⟨fun hh => (by cases hh), fun hh => absurd hh h⟩
  refine ⟨?_, h2, ?_, ?_⟩
  · rw [h2]
    by_cases h0 : max f t + min f t = 0
    · have hf : f = 0 := by omega
      have ht : t = 0 := by omega
      simp [hf, ht]
    · have := half_le_minority f t h0
      rw [add_comm (min f t : ℚ)]
      rw [this]
      constructor
      · rintro ⟨he, hf⟩
        exact ⟨by omega, he⟩
      · rintro ⟨hs, he⟩
        exact ⟨he, by omega⟩
  · intro hne
    by_cases h : f = t ∧ f ≠ 0
    · exact absurd (h2.2 h) hne
    · rw [if_neg h] at hc; exact hc
  · intro hf ht
    have h : ¬ (f = t ∧ f ≠ 0) := by simp [hf]
    rw [if_neg h] at hc
    rw [hc, hf, ht]; rfl

/-- C21, witness: with 3 votes for anti-parallel and 5 for parallel the method
does not throw and returns parallel; without an entry for the partner, that is
without a vote, it returns anti-parallel. -/
theorem direction_by_majority_spec_witness :
    direction_by_majority 1 [(1, (3, 5))] ≠ .error .exception ∧
    direction_by_majority 1 [(1, (3, 5))] = .ok true ∧
    direction_by_majority 1 [] = .ok false :=
  ⟨by
    intro h
    have := (direction_by_majority_spec 1 [(1, (3, 5))]).2.1.1 h
    revert this; decide,
   (direction_by_majority_spec 1 [(1, (3, 5))]).2.2.1 (by
    intro h
    have := (direction_by_majority_spec 1 [(1, (3, 5))]).2.1.1 h
    revert this; decide),
   (direction_by_majority_spec 1 []).2.2.2 (by decide) (by decide)⟩

theorem involve_lt_iff (a b : HbondPair) :
    involve_lt a b = true ↔
      (a.1 < b.1 ∨ (a.1 = b.1 ∧ (a.2.2 < b.2.2 ∨ (a.2.2 = b.2.2 ∧ a.2.1 < b.2.1)))) := by
  unfold involve_lt
  by_cases h1 : a.1 < b.1
  · simp [h1]
  · by_cases h2 : a.1 = b.1
    · by_cases h3 : a.2.2 < b.2.2
      · simp [h1, h2, h3]
      · by_cases h4 : a.2.2 = b.2.2
        · simp [h2, h4]
        · simp [h2, h3, h4]
    · simp [h1, h2]

theorem involve_le_iff (a b : HbondPair) :
    involve_le a b ↔
      (a.1 < b.1 ∨ (a.1 = b.1 ∧ (a.2.2 < b.2.2 ∨ (a.2.2 = b.2.2 ∧ a.2.1 ≤ b.2.1)))) := by
  unfold involve_le
  rw [← Bool.not_eq_true, involve_lt_iff]
  constructor
  · intro h
    by_contra hc
    apply h
    rcases lt_trichotomy a.1 b.1 with h1 | h1 | h1
    · exact absurd (Or.inl h1) hc
    · rcases lt_trichotomy a.2.2 b.2.2 with h2 | h2 | h2
      · exact absurd (Or.inr ⟨h1, Or.inl h2⟩) hc
      · by_cases h3 : a.2.1 ≤ b.2.1
        · exact absurd (Or.inr ⟨h1, Or.inr ⟨h2, h3⟩⟩) hc
        · exact Or.inr ⟨h1.symm, Or.inr ⟨h2.symm, by omega⟩⟩
      · exact Or.inr ⟨h1.symm, Or.inl h2⟩
    · exact Or.inl h1
  · intro h hc
    rcases h with h | ⟨h1, h | ⟨h2, h3⟩⟩ <;> rcases hc with hc | ⟨hc1, hc | ⟨hc2, hc3⟩⟩ <;> omega

theorem in_range_N (e : SSE) (resnum offset : Int) :
    e.in_range resnum offset 'N' = true ↔ (e.init ≤ resnum ∧ resnum ≤ e.end_ + offset) := by
  simp [SSE.in_range]

theorem in_range_C (e : SSE) (resnum offset : Int) :
    e.in_range resnum offset 'C' = true ↔ (e.init - offset ≤ resnum ∧ resnum ≤ e.end_) := by
  simp [SSE.in_range]

theorem involve_with_sorted (dnr_ : List HbondPair) (e : SSE) (offset : Int) :
    List.Sorted involve_le (involve_with dnr_ e offset) := by
  haveI : IsTotal HbondPair involve_le := ⟨fun a b => by
    rw [involve_le_iff, involve_le_iff]
    rcases lt_trichotomy a.1 b.1 with h1 | h1 | h1
    · exact Or.inl (Or.inl h1)
    · rcases lt_trichotomy a.2.2 b.2.2 with h2 | h2 | h2
      · exact Or.inl (Or.inr ⟨h1, Or.inl h2⟩)
      · rcases le_total a.2.1 b.2.1 with h3 | h3
        · exact Or.inl (Or.inr ⟨h1, Or.inr ⟨h2, h3⟩⟩)
        · exact Or.inr (Or.inr ⟨h1.symm, Or.inr ⟨h2.symm, h3⟩⟩)
      · exact Or.inr (Or.inr ⟨h1.symm, Or.inl h2⟩)
    · exact Or.inr (Or.inl h1)⟩
  haveI : IsTrans HbondPair involve_le := ⟨fun a b c h1 h2 => by
    rw [involve_le_iff] at h1 h2 ⊢
    rcases h1 with h | ⟨h1, h | ⟨h2a, h3⟩⟩ <;> rcases h2 with hc | ⟨hc1, hc | ⟨hc2, hc3⟩⟩
    all_goals first
      | exact Or.inl (by omega)
      | exact Or.inr ⟨by omega, Or.inl (by omega)⟩
      | exact Or.inr ⟨by omega, Or.inr ⟨by omega, by omega⟩⟩⟩
  exact List.sorted_insertionSort involve_le _

/-- C24: for a strand `e` with the range `[init, end]`, `involve_with` (offset
1) lists the hydrogen bonds whose donor lies in `[init, end + 1]` as
`(donor, acceptor, 0)`, and of the others those whose acceptor lies in
`[init - 1, end]` as `(acceptor, donor, 1)`: every hydrogen bond is listed at
most once, one whose donor is the residue `init - 1` or whose acceptor is the
residue `end + 1` is listed only for its other end, and the list is sorted by
the residue on the strand, then the side, then the partner. -/
theorem involve_with_spec (dnr_ : List HbondPair) (e : SSE) :
    (involve_with dnr_ e 1).Perm
      (dnr_.filterMap (fun pair =>
        if e.init ≤ pair.1 ∧ pair.1 ≤ e.end_ + 1 then some (pair.1, pair.2.1, 0)
        else if e.init - 1 ≤ pair.2.1 ∧ pair.2.1 ≤ e.end_ then some (pair.2.1, pair.1, 1)
        else none)) ∧
    (∀ x : HbondPair, x ∈ involve_with dnr_ e 1 ↔
      ∃ pair ∈ dnr_,
        (e.init ≤ pair.1 ∧ pair.1 ≤ e.end_ + 1 ∧ x = (pair.1, pair.2.1, 0)) ∨
        (¬ (e.init ≤ pair.1 ∧ pair.1 ≤ e.end_ + 1) ∧
          e.init - 1 ≤ pair.2.1 ∧ pair.2.1 ≤ e.end_ ∧ x = (pair.2.1, pair.1, 1))) ∧
    List.Pairwise
      (fun a b : HbondPair =>
        a.1 < b.1 ∨ (a.1 = b.1 ∧ (a.2.2 < b.2.2 ∨ (a.2.2 = b.2.2 ∧ a.2.1 ≤ b.2.1))))
      (involve_with dnr_ e 1) := by
  have hperm : (involve_with dnr_ e 1).Perm
      (dnr_.filterMap (fun pair =>
        if e.init ≤ pair.1 ∧ pair.1 ≤ e.end_ + 1 then some (pair.1, pair.2.1, 0)
        else if e.init - 1 ≤ pair.2.1 ∧ pair.2.1 ≤ e.end_ then some (pair.2.1, pair.1, 1)
        else none)) := by
    unfold involve_with
    refine (List.perm_insertionSort involve_le _).trans ?_
    unfold involve_collect
    have : (fun pair : HbondPair =>
        if e.in_range pair.1 1 'N' then some ((pair.1, pair.2.1, 0) : HbondPair)
        else if e.in_range pair.2.1 1 'C' then some (pair.2.1, pair.1, 1)
        else none) =
      (fun pair : HbondPair =>
        if e.init ≤ pair.1 ∧ pair.1 ≤ e.end_ + 1 then some (pair.1, pair.2.1, 0)
        else if e.init - 1 ≤ pair.2.1 ∧ pair.2.1 ≤ e.end_ then some (pair.2.1, pair.1, 1)
        else none) := by
      funext pair
      simp only [in_range_N, in_range_C]
    rw [this]
  refine ⟨hperm, ?_, ?_⟩
  · intro x
    rw [hperm.mem_iff, List.mem_filterMap]
    constructor
    · rintro ⟨pair, hm, hx⟩
      refine ⟨pair, hm, ?_⟩
      by_cases h1 : e.init ≤ pair.1 ∧ pair.1 ≤ e.end_ + 1
      · rw [if_pos h1] at hx
        exact Or.inl ⟨h1.1, h1.2, (Option.some.inj hx).symm⟩
      · rw [if_neg h1] at hx
        by_cases h2 : e.init - 1 ≤ pair.2.1 ∧ pair.2.1 ≤ e.end_
        · rw [if_pos h2] at hx
          exact Or.inr ⟨h1, h2.1, h2.2, (Option.some.inj hx).symm⟩
        · rw [if_neg h2] at hx; cases hx
    · rintro ⟨pair, hm, h | h⟩
      · refine ⟨pair, hm, ?_⟩
        rw [if_pos ⟨h.1, h.2.1⟩, h.2.2]
      · refine ⟨pair, hm, ?_⟩
        rw [if_neg h.1, if_pos ⟨h.2.1, h.2.2.1⟩, h.2.2.2]
  · have hs := involve_with_sorted dnr_ e 1
    unfold List.Sorted at hs
    exact hs.imp (fun {a b} h => (involve_le_iff a b).1 h)

/-- C24, witness: for the strand of the residues 10 to 20, the hydrogen bond
with the donor 50 and the acceptor 9 is listed as `(9, 50, 1)`, and the one
with the donor 9 and the acceptor 50 is not listed as `(50, 9, 1)`. -/
theorem involve_with_spec_witness :
    ((9, 50, 1) : HbondPair) ∈
        involve_with [(21, 50, 0), (50, 9, 0), (15, 12, 0)] ⟨'E', 10, 20⟩ 1 ∧
      ((50, 9, 1) : HbondPair) ∉
        involve_with [(21, 50, 0), (9, 50, 0), (15, 12, 0)] ⟨'E', 10, 20⟩ 1 :=
  ⟨((involve_with_spec [(21, 50, 0), (50, 9, 0), (15, 12, 0)] ⟨'E', 10, 20⟩).2.1 (9, 50, 1)).2
      ⟨(50, 9, 0), by decide, Or.inr ⟨by decide, by decide, by decide, rfl⟩⟩,
    fun h => by
      have h1 :=
        ((involve_with_spec [(21, 50, 0), (9, 50, 0), (15, 12, 0)] ⟨'E', 10, 20⟩).2.1
          (50, 9, 1)).1 h
      revert h1
      decide⟩

/-- C24, counterexample: for the strand of the residues 10 to 20, the hydrogen
bond with the donor 9 and the acceptor 50 has an end in `[init - 1, end + 1]`
and is not listed, and neither is the one with the donor 50 and the acceptor
21. -/
theorem involve_with_edge_counterexample :
    ((10 : Int) - 1 ≤ 9 ∧ (9 : Int) ≤ 20 + 1) ∧
    involve_with [(9, 50, 0)] ⟨'E', 10, 20⟩ 1 = [] ∧
    involve_with [(50, 21, 0)] ⟨'E', 10, 20⟩ 1 = [] ∧
    involve_with [(21, 50, 0), (50, 9, 0), (15, 12, 0)] ⟨'E', 10, 20⟩ 1 =
      [(9, 50, 1), (15, 12, 0), (21, 50, 0)] := by
  decide

theorem map_getD_insert {K V : Type} [DecidableEq K] (m : List (K × V)) (k : K) (d : V) (x : K) :
    (map_at (map_insert m k d) x).getD d = (map_at m x).getD d := by
  rw [map_at_insert]
  cases h : map_at m x with
  | some v => simp
  | none =>
    by_cases hk : k = x
    · simp [hk]
    · simp [hk]

theorem map_getD_set_insert {K V : Type} [DecidableEq K] (m : List (K × V)) (k : K) (d v : V)
    (x : K) :
    (map_at (map_set (map_insert m k d) k v) x).getD d =
      if x = k then v else (map_at m x).getD d := by
  rw [map_at_map_set]
  by_cases hx : x = k
  · subst hx
    rw [if_pos rfl, if_pos rfl, map_at_insert]
    cases h : map_at m x with
    | some w => simp
    | none => simp
  · rw [if_neg hx, if_neg hx]
    exact map_getD_insert m k d x

theorem counter_at_incr (dc : DirectionCounter) (i : Nat) (d : Bool) (j : Nat) (b : Bool) :
    counter_at (counter_incr dc i d) j b =
      if j = i ∧ b = d then counter_at dc i d + 1 else counter_at dc j b := by
  unfold counter_at counter_incr
  rw [map_getD_set_insert]
  by_cases hj : j = i
  · subst hj
    rw [if_pos rfl]
    cases b <;> cases d <;> simp [at2, set2, counter_at]
  · rw [if_neg hj, if_neg (fun h => hj h.1)]

theorem last_of_count_pair (s : VoteState) (e_index i : Nat) (q : HbondPair) (j : Nat) :
    last_of (count_pair s e_index i q) j =
      if j = i then { res0 := q.1, res1 := q.2.1, hbond_dir := q.2.2, first := false }
      else last_of s j := by
  unfold last_of count_pair
  exact map_getD_set_insert _ _ _ _ _

theorem count_of_count_pair (s : VoteState) (e_index i : Nat) (q : HbondPair) (j : Nat) :
    count_of (count_pair s e_index i q) e_index j =
      if j = i then count_of s e_index i + 1 else count_of s e_index j := by
  unfold count_of count_pair
  simp only
  rw [map_getD_set_insert]
  by_cases hj : j = i
  · subst hj; simp
  · have : ¬ (e_index, j) = (e_index, i) := fun h => hj (Prod.mk.inj h).2
    rw [if_neg this, if_neg hj]

theorem tmp_direction_table (last : LastPair) (q : HbondPair)
    (hq : q.2.2 = 0 ∨ q.2.2 = 1) (hl : last.hbond_dir = 0 ∨ last.hbond_dir = 1)
    (hne : last.hbond_dir ≠ q.2.2) :
    tmp_direction last q =
      .ok (micro_signature (last.res0, last.res1, last.hbond_dir) q) := by
  unfold tmp_direction micro_signature
  simp only
  by_cases h0 : last.res0 = q.1
  · rw [if_pos h0]
    by_cases h1 : last.res1 < q.2.1
    · simp [h1]
    · by_cases h2 : last.res1 = q.2.1
      · simp [h0, h2]
      · simp [h1, h2]
  · rw [if_neg h0]
    by_cases h1 : last.res1 < q.2.1
    · simp [h1]
    · rw [if_neg h1]
      by_cases h2 : last.res1 = q.2.1
      · rw [if_pos h2]
        rcases hq with hq | hq
        · have hl1 : last.hbond_dir = 1 := by
            rcases hl with hl | hl
            · exact absurd (hl.trans hq.symm) hne
            · exact hl
          simp [hl1, hq, h2, h0]
        · have hl0 : last.hbond_dir = 0 := by
            rcases hl with hl | hl
            · exact hl
            · exact absurd (hl.trans hq.symm) hne
          simp [hl0, hq, h2]
      · simp [h1, h2]

theorem vote_step_eq (data : List SSE) (e_index : Nat) (s : VoteState) (q : HbondPair)
    (sse_id : Nat) (hp : partner_of data q = some sse_id)
    (ht : (data.getD sse_id {}).type ≠ 'H') :
    vote_step data e_index s q =
      if (last_of s sse_id).first = false then
        (if (last_of s sse_id).hbond_dir = q.2.2 then
          .ok { s with last_pairs := map_insert s.last_pairs sse_id {} }
         else
          (tmp_direction (last_of s sse_id) q).bind (fun dir =>
            .ok (count_pair
              { s with direction_counter := counter_incr s.direction_counter sse_id dir }
              e_index sse_id q)))
      else .ok (count_pair s e_index sse_id q) := by
  unfold vote_step
  rw [hp]
  simp only
  rw [if_neg ht]
  rfl

/-- C22: for a hydrogen bond `q` of the target strand whose partner strand is
found, `add_undirected_adj_list` looks at the hydrogen bond `p` it stored last
for that partner. The first hydrogen bond to a partner casts no vote, adds one
to the count of the pair and is stored. A hydrogen bond on the same side of
the strand as `p` is skipped: no vote, the count stays and `p` stays stored. A
hydrogen bond on the other side casts exactly one vote, the one of the table
of micro-signatures (parallel when the partner residue increases, or when it
stays, the residue on the strand changes and the side goes from 1 to 0;
anti-parallel otherwise), adds one to the count and is stored. Nothing changes
for the other partners. -/
theorem vote_step_spec (data : List SSE) (e_index : Nat) (s : VoteState) (q : HbondPair)
    (sse_id : Nat) (hp : partner_of data q = some sse_id)
    (ht : (data.getD sse_id {}).type ≠ 'H')
    (hq : q.2.2 = 0 ∨ q.2.2 = 1)
    (hl : (last_of s sse_id).first = true ∨ (last_of s sse_id).hbond_dir = 0 ∨
      (last_of s sse_id).hbond_dir = 1) :
    ∃ s1, vote_step data e_index s q = .ok s1 ∧
      ((last_of s sse_id).first = true →
        (∀ b, counter_at s1.direction_counter sse_id b =
          counter_at s.direction_counter sse_id b) ∧
        count_of s1 e_index sse_id = count_of s e_index sse_id + 1 ∧
        last_of s1 sse_id = { res0 := q.1, res1 := q.2.1, hbond_dir := q.2.2, first := false }) ∧
      ((last_of s sse_id).first = false → (last_of s sse_id).hbond_dir = q.2.2 →
        (∀ b, counter_at s1.direction_counter sse_id b =
          counter_at s.direction_counter sse_id b) ∧
        count_of s1 e_index sse_id = count_of s e_index sse_id ∧
        last_of s1 sse_id = last_of s sse_id) ∧
      ((last_of s sse_id).first = false → (last_of s sse_id).hbond_dir ≠ q.2.2 →
        counter_at s1.direction_counter sse_id
            (micro_signature ((last_of s sse_id).res0, (last_of s sse_id).res1,
              (last_of s sse_id).hbond_dir) q) =
          counter_at s.direction_counter sse_id
            (micro_signature ((last_of s sse_id).res0, (last_of s sse_id).res1,
              (last_of s sse_id).hbond_dir) q) + 1 ∧
        counter_at s1.direction_counter sse_id
            (!micro_signature ((last_of s sse_id).res0, (last_of s sse_id).res1,
              (last_of s sse_id).hbond_dir) q) =
          counter_at s.direction_counter sse_id
            (!micro_signature ((last_of s sse_id).res0, (last_of s sse_id).res1,
              (last_of s sse_id).hbond_dir) q) ∧
        count_of s1 e_index sse_id = count_of s e_index sse_id + 1 ∧
        last_of s1 sse_id = { res0 := q.1, res1 := q.2.1, hbond_dir := q.2.2, first := false }) ∧
      (∀ i, i ≠ sse_id →
        (∀ b, counter_at s1.direction_counter i b = counter_at s.direction_counter i b) ∧
        count_of s1 e_index i = count_of s e_index i ∧
        last_of s1 i = last_of s i) := by
  rw [vote_step_eq data e_index s q sse_id hp ht]
  by_cases hf : (last_of s sse_id).first = false
  · rw [if_pos hf]
    have hl2 : (last_of s sse_id).hbond_dir = 0 ∨ (last_of s sse_id).hbond_dir = 1 := by
      rcases hl with hl | hl
      · rw [hf] at hl; cases hl
      · exact hl
    by_cases hd : (last_of s sse_id).hbond_dir = q.2.2
    · rw [if_pos hd]
      refine ⟨_, rfl, ?_, ?_, ?_, ?_⟩
      · intro h; rw [hf] at h; cases h
      · intro _ _
        refine ⟨fun b => rfl, rfl, ?_⟩
        exact map_getD_insert _ _ _ _
      · intro _ h; exact absurd hd h
      · intro i _
        refine ⟨fun b => rfl, rfl, ?_⟩
        exact map_getD_insert _ _ _ _
    · rw [if_neg hd, tmp_direction_table _ q hq hl2 hd]
      refine ⟨_, rfl, ?_, ?_, ?_, ?_⟩
      · intro h; rw [hf] at h; cases h
      · intro _ h; exact absurd h hd
      · intro _ _
        refine ⟨?_, ?_, ?_, ?_⟩
        · change counter_at (counter_incr s.direction_counter sse_id _) sse_id _ = _
          rw [counter_at_incr, if_pos ⟨rfl, rfl⟩]
        · change counter_at (counter_incr s.direction_counter sse_id _) sse_id _ = _
          rw [counter_at_incr, if_neg]
          intro h
          have := h.2
          revert this
          cases micro_signature ((last_of s sse_id).res0, (last_of s sse_id).res1,
            (last_of s sse_id).hbond_dir) q <;> simp
        · rw [count_of_count_pair, if_pos rfl]; rfl
        · rw [last_of_count_pair, if_pos rfl]
      · intro i hi
        refine ⟨fun b => ?_, ?_, ?_⟩
        · change counter_at (counter_incr s.direction_counter sse_id _) i b = _
          rw [counter_at_incr, if_neg (fun h => hi h.1)]
        · rw [count_of_count_pair, if_neg hi]; rfl
        · rw [last_of_count_pair, if_neg hi]; rfl
  · rw [if_neg hf]
    have hft : (last_of s sse_id).first = true := by
      cases h : (last_of s sse_id).first
      · exact absurd h hf
      · rfl
    refine ⟨_, rfl, ?_, ?_, ?_, ?_⟩
    · intro _
      refine ⟨fun b => rfl, ?_, ?_⟩
      · rw [count_of_count_pair, if_pos rfl]
      · rw [last_of_count_pair, if_pos rfl]
    · intro h; exact absurd h hf
    · intro h; exact absurd h hf
    · intro i hi
      refine ⟨fun b => rfl, ?_, ?_⟩
      · rw [count_of_count_pair, if_neg hi]
      · rw [last_of_count_pair, if_neg hi]

/-- C22, witness: in the state `ladder_votes` the hydrogen bond `(14, 34)` of
the side 1 is stored for the partner; the hydrogen bond `(18, 38)` of the side
0 casts a vote for parallel (the second one), is counted (the third one) and
is stored. -/
theorem vote_step_spec_witness :
    ∃ s1, vote_step two_strands 0 ladder_votes (18, 38, 0) = .ok s1 ∧
      counter_at s1.direction_counter 1 true = 2 ∧
      counter_at s1.direction_counter 1 false = 0 ∧
      count_of s1 0 1 = 3 ∧
      last_of s1 1 = { res0 := 18, res1 := 38, hbond_dir := 0, first := false } := by
  obtain ⟨s1, h, _, _, h3, _⟩ :=
    vote_step_spec two_strands 0 ladder_votes (18, 38, 0) 1 (by decide) (by decide)
      (by decide) (by decide)
  have h4 := h3 (by decide) (by decide)
  exact ⟨s1, h, h4.1, h4.2.1, h4.2.2.1, h4.2.2.2⟩

/-- C22, counterexample: the hydrogen bonds `(14, 34)` and `(16, 36)` of the
first of `two_strands` to the second one are both on the side 1. The second
one, whose partner residue is larger, casts no vote and is not counted: the
step leaves the state as it is; over the four hydrogen bonds of `ladder_bonds`
two votes are cast and three hydrogen bonds are counted. -/
theorem vote_same_side_counterexample :
    returned (vote_step two_strands 0 ladder_votes (16, 36, 1)) = some ladder_votes ∧
    (returned (vote_loop two_strands 0
        (vote_init 0 [] (adj_id_set two_strands ladder_bonds)) ladder_bonds)).map
      (fun s => (counter_at s.direction_counter 1 true, counter_at s.direction_counter 1 false,
        count_of s 0 1)) = some (2, 0, 3) ∧
    (returned (vote_loop two_strands 0
        (vote_init 0 [] (adj_id_set two_strands ladder_bonds)) (ladder_bonds.take 2))) =
      some ladder_votes := by
  decide

theorem add_pair_false_iff (info : ZoneInfo) (residue : ZoneResidue) (hbonded : Bool)
    (b_type : BridgeType) :
    (info.add_pair residue hbonded b_type).1 = false ↔
      (at2 info.adj_set hbonded = true ∧ (at2 info.adj_residues hbonded).same residue = false) := by
  unfold ZoneInfo.add_pair
  by_cases h1 : (at2 info.adj_residues hbonded).same residue = true
  · rw [if_pos h1]; simp [h1]
  · rw [if_neg h1]
    by_cases h2 : at2 info.adj_set hbonded = true
    · rw [if_pos h2]; simp [h2, h1]
    · rw [if_neg h2]; simp [h2]

/-- C23: `add_pair` returns false exactly when the slot is set and holds
another partner, and then leaves the zone info as it is; but it compares the
partner with the content of the slot before it looks at `adj_set`, and an
empty slot holds the default residue (element 0, residue number 0). On the
zone of `zero_sses`, the call `On(1, 10, 0, 0, true, SmallRing)` registers the
residue 0 of the element 0 as the partner of the residue 10 into an empty
slot: `add_pair` returns true and nothing is stored, the residue 10 is not
coloured and the zone is unchanged. The partner residue 1 of the same strand
is stored and colours the residue. -/
theorem add_pair_default_partner :
    (∀ (info : ZoneInfo) (residue : ZoneResidue) (hbonded : Bool) (b_type : BridgeType),
      ((info.add_pair residue hbonded b_type).1 = false ↔
        (at2 info.adj_set hbonded = true ∧
          (at2 info.adj_residues hbonded).same residue = false)) ∧
      ((info.add_pair residue hbonded b_type).1 = false ∨
          (at2 info.adj_residues hbonded).same residue = true ↔
        (info.add_pair residue hbonded b_type).2 = info)) ∧
    ZoneResidue.make zero_sses 0 0 = some ⟨0, 0, 0, 0, true⟩ ∧
    ZoneResidue.make zero_sses 1 10 = some ⟨1, 10, 1, 0, true⟩ ∧
    strict_c_info (StrictZone.init zero_sses).strict ⟨1, 10, 1, 0, true⟩ = .ok {} ∧
    ({} : ZoneInfo).add_pair ⟨0, 0, 0, 0, true⟩ true .SmallRing = (true, {}) ∧
    returned (On (StrictZone.init zero_sses) 1 10 0 0 true .SmallRing) =
      some (StrictZone.init zero_sses) ∧
    (returned (On (StrictZone.init zero_sses) 1 10 0 1 true .SmallRing)).map
        (fun z => (returned (strict_c_info z.strict ⟨1, 10, 1, 0, true⟩)).map
          (fun info => (info.colored, info.adj_set, info.adj_residues.2.resnum))) =
      some (some (true, (false, true), 1)) := by
  refine ⟨fun info residue hbonded b_type => ⟨add_pair_false_iff _ _ _ _, ?_⟩, by decide,
    by decide, rfl, by decide, by decide, by decide⟩
  unfold ZoneInfo.add_pair
  by_cases h1 : (at2 info.adj_residues hbonded).same residue = true
  · rw [if_pos h1]; simp [h1]
  · rw [if_neg h1]
    by_cases h2 : at2 info.adj_set hbonded = true
    · rw [if_pos h2]; simp [h2, h1]
    · rw [if_neg h2]
      simp only [Bool.true_eq_false, false_or, h1]
      refine ⟨fun h => (by cases h), fun h => ?_⟩
      exfalso
      have := congrArg (fun i => at2 i.adj_set hbonded) h
      simp only at this
      apply h2
      rw [← this]
      cases hbonded <;> simp [at2, set2]

theorem count_delta_adj_walk (z : StrictZone) (str : Nat) (row : List ZoneInfo)
    (hrow : z.strict.get? str = some row) (step : Int) (hstep : step = 1 ∨ step = -1)
    (last : Nat) :
    ∀ (n : Nat) (start : Int) (fuel : Nat) (delta : Int),
      start + n * step = last → 0 ≤ start →
      (∀ k, k < n → (start + k * step).toNat < row.length) → n < fuel →
      count_delta_adj z str step last fuel start delta =
        .ok (delta + ((List.range n).countP
          (fun k : Nat => (row.getD (start + (k : Int) * step).toNat {}).colored) : Nat)) := by
  intro n
  induction n with
  | zero =>
    intro start fuel delta hl _ _ hf
    obtain ⟨f, rfl⟩ : ∃ f, fuel = f + 1 := ⟨fuel - 1, by omega⟩
    unfold count_delta_adj
    rw [if_pos (by simpa using hl)]
    simp
  | succ n ih =>
    intro start fuel delta hl h0 hin hf
    obtain ⟨f, rfl⟩ : ∃ f, fuel = f + 1 := ⟨fuel - 1, by omega⟩
    unfold count_delta_adj
    have hne : start ≠ (last : Int) := by
      intro h
      rw [h] at hl
      push_cast at hl
      rcases hstep with hs | hs <;> rw [hs] at hl <;> omega
    rw [if_neg hne, if_neg (by omega)]
    have h00 := hin 0 (by omega)
    simp only [Nat.cast_zero, zero_mul, add_zero] at h00
    have hget : (z.strict.get? str).bind (fun row => row.get? start.toNat) =
        some (row.getD start.toNat {}) := by
      rw [hrow]
      simp only [Option.some_bind]
      rw [List.get?_eq_getElem?, List.getD_eq_getElem?_getD, List.getElem?_eq_getElem h00]
      rfl
    rw [hget]
    simp only
    have hstart1 : 0 ≤ start + step := by
      push_cast at hl
      rcases hstep with hs | hs <;> rw [hs] at hl ⊢ <;> omega
    rw [ih (start + step) f _ (by push_cast at hl ⊢; linarith) hstart1
      (fun k hk => by
        have := hin (k + 1) (by omega)
        push_cast at this
        have e : start + step + (k : Int) * step = start + ((k : Int) + 1) * step := by ring
        rw [e]; exact this)
      (by omega)]
    rw [List.range_succ_eq_map, List.countP_cons, List.countP_map]
    have e2 : ((fun k : Nat => (row.getD (start + (k : Int) * step).toNat {}).colored) ∘ Nat.succ) =
        (fun k : Nat => (row.getD (start + step + (k : Int) * step).toNat {}).colored) := by
      funext k
      simp only [Function.comp, Nat.succ_eq_add_one]
      have e : start + step + (k : Int) * step = start + (((k + 1 : Nat) : Int)) * step := by
        push_cast; ring
      rw [e]
    rw [e2]
    simp only [Nat.cast_zero, zero_mul, add_zero]
    by_cases hc : (row.getD start.toNat {}).colored = true
    · simp only [hc, if_true]
      congr 1
      push_cast
      ring
    · simp only [hc, if_false]
      simp

/-- C25: `count_delta_adj` leaves its loop as soon as the position is the one
of `last`, before it looks at that residue: when `start` is `last` it returns
0 whatever the colour of the residue, and on the second strand of
`ladder_strict`, whose two residues are both coloured, the count from the
position 0 to the position 1 and the count from the position 1 down to the
position 0 are 1, not 2. The header documents that `last` is included in the
count. -/
theorem count_delta_adj_excludes_last :
    (∀ (z : StrictZone) (str : Nat) (step : Int) (last fuel : Nat) (delta : Int),
      count_delta_adj z str step last (fuel + 1) (last : Int) delta = .ok delta) ∧
    ladder_strict.strict.map (fun row => row.map (fun info => info.colored)) =
      [[true, true], [true, true], [true, true]] ∧
    returned (count_delta_adj ladder_strict 1 1 1 3 0 0) = some 1 ∧
    returned (count_delta_adj ladder_strict 1 (-1) 0 3 1 0) = some 1 ∧
    returned (count_delta_adj ladder_strict 1 1 1 3 1 0) = some 0 := by
  refine ⟨fun z str step last fuel delta => ?_, by decide, by decide, by decide, by decide⟩
  unfold count_delta_adj
  rw [if_pos rfl]

theorem count_sides_le {σ X : Type} (f : BabFilter σ X) (xyz : X) (reversed myside : Bool) :
    ∀ (sides : List σ) (c : Nat × Nat), c.1 ≤ c.2 →
      (count_sides f sides xyz reversed myside c).1 ≤
        (count_sides f sides xyz reversed myside c).2 := by
  intro sides
  induction sides with
  | nil => intro c hc; exact hc
  | cons s rest ih =>
    intro c hc
    unfold count_sides
    rw [List.foldl_cons]
    apply ih
    by_cases h2 : (f.on_left_side s xyz reversed myside).2 = true
    · rw [if_pos h2]
      by_cases h1 : (f.on_left_side s xyz reversed myside).1 = true
      · rw [if_pos h1]; simp only; omega
      · rw [if_neg h1]; simp only; omega
    · rw [if_neg h2]; exact hc

theorem count_left_tri_le {σ X : Type} (f : BabFilter σ X) (b0 b1 : SubStrand)
    (b0_reverse b1_reverse : Bool) (atoms : List (ATOM X)) (c : Nat × Nat)
    (h : count_left_tri f b0 b1 b0_reverse b1_reverse atoms = .ok c) : c.1 ≤ c.2 := by
  unfold count_left_tri at h
  cases h0 : map_at f.sides_map (SubStrandsPairKey.ofSubs b0 b1) with
  | none => rw [h0] at h; cases h
  | some sides_0 =>
    cases h1 : map_at f.sides_map (SubStrandsPairKey.ofSubs b1 b0) with
    | none => rw [h0, h1] at h; cases h
    | some sides_1 =>
      rw [h0, h1] at h
      simp only at h
      have key : ∀ (l : List (ATOM X)) (c0 : Nat × Nat), c0.1 ≤ c0.2 →
          (l.foldl
            (fun c mid_a =>
              if mid_a.pdb then
                count_sides f sides_1 mid_a.xyz b1_reverse false
                  (count_sides f sides_0 mid_a.xyz b0_reverse true c)
              else c) c0).1 ≤
          (l.foldl
            (fun c mid_a =>
              if mid_a.pdb then
                count_sides f sides_1 mid_a.xyz b1_reverse false
                  (count_sides f sides_0 mid_a.xyz b0_reverse true c)
              else c) c0).2 := by
        intro l
        induction l with
        | nil => intro c0 hc; exact hc
        | cons a rest ih =>
          intro c0 hc
          rw [List.foldl_cons]
          apply ih
          by_cases hp : a.pdb = true
          · rw [if_pos hp]
            exact count_sides_le f _ _ _ _ _ (count_sides_le f _ _ _ _ _ hc)
          · rw [if_neg hp]; exact hc
      have := key atoms (0, 0) (le_refl _)
      cases h
      exact this

theorem add_counts_counting (r : BabFilterResult) (counts : Nat × Nat) (n_pdb bit : Nat)
    (flag : Bool) (hr : Counting r) (hc : counts.1 ≤ counts.2) :
    Counting (add_counts r counts n_pdb bit flag) ∧
      (add_counts r counts n_pdb bit flag).mid_res_len = r.mid_res_len ∧
      (add_counts r counts n_pdb bit flag).n_mid_str = r.n_mid_str := by
  obtain ⟨h1, h2, left, hl, hs⟩ := hr
  refine ⟨⟨h1, h2, left + counts.1, ?_, ?_⟩, rfl, rfl⟩
  · show left + counts.1 ≤ r.tri_atom_count + counts.2
    omega
  · show r.left_score + (counts.1 : ℚ) = ((left + counts.1 : Nat) : ℚ)
    rw [hs]; push_cast; rfl

theorem attr_reachable_of_attr {σ X : Type} (f : BabFilter σ X) (b0 ss : SubStrand)
    (a : StrandsPairAttribute) (h : f.attr b0 ss = .ok a) : attr_reachable f b0 ss = a.reachable := by
  unfold attr_reachable; rw [h]

theorem mid_strand_loop_spec {σ X : Type} (f : BabFilter σ X) (b0 b1 : SubStrand)
    (b0_reverse b1_reverse : Bool) (target_sse : AtomSSE X) :
    ∀ (subs : List SubStrand) (result : BabFilterResult)
      (out : BabFilterResult ⊕ BabFilterResult),
      Counting result →
      mid_strand_loop f b0 b1 b0_reverse b1_reverse target_sse subs result = .ok out →
      (∀ r, out = .inr r →
        Counting r ∧ r.mid_res_len = result.mid_res_len ∧
        r.n_mid_str = result.n_mid_str + subs.countP (attr_reachable f b0) ∧
        (result.n_mid_str ≤ f.cut_off_mid_str → r.n_mid_str ≤ f.cut_off_mid_str)) ∧
      (∀ r, out = .inl r →
        Rejected r 5 ∧ f.cut_off_mid_str < r.n_mid_str ∧
        r.n_mid_str ≤ result.n_mid_str + subs.countP (attr_reachable f b0) ∧
        r.mid_res_len = result.mid_res_len) := by
  intro subs
  induction subs with
  | nil =>
    intro result out hr h
    unfold mid_strand_loop at h
    cases h
    refine ⟨fun r hout => ?_, fun r hout => by cases hout⟩
    cases hout
    exact ⟨hr, rfl, by simp, fun h => h⟩
  | cons ss rest ih =>
    intro result out hr h
    unfold mid_strand_loop at h
    obtain ⟨a, ha, h⟩ := except_bind_ok _ _ _ h
    have hsame := attr_reachable_of_attr f b0 ss a ha
    rw [List.countP_cons, hsame]
    by_cases hreach : a.reachable = true
    · rw [if_pos hreach] at h
      simp only [hreach, if_true]
      by_cases hcut : f.cut_off_mid_str < result.n_mid_str + 1
      · rw [if_pos hcut] at h
        cases h
        refine ⟨fun r hout => (by cases hout), fun r hout => ?_⟩
        cases hout
        obtain ⟨h1, h2, left, hl, hs⟩ := hr
        exact ⟨⟨h1, rfl, left, hl, hs⟩, hcut, (by show result.n_mid_str + 1 ≤ _; omega), rfl⟩
      · rw [if_neg hcut] at h
        have hr1 : Counting { result with n_mid_str := result.n_mid_str + 1 } := hr
        have := ih _ out hr1 h
        refine ⟨fun r hout => ?_, fun r hout => ?_⟩
        · obtain ⟨c1, c2, c3, c4⟩ := this.1 r hout
          refine ⟨c1, c2, ?_, fun _ => c4 (by show result.n_mid_str + 1 ≤ _; omega)⟩
          rw [c3]; show result.n_mid_str + 1 + _ = _; omega
        · obtain ⟨c1, c2, c3, c4⟩ := this.2 r hout
          refine ⟨c1, c2, ?_, c4⟩
          have : ({ result with n_mid_str := result.n_mid_str + 1 } : BabFilterResult).n_mid_str =
            result.n_mid_str + 1 := rfl
          rw [this] at c3; omega
    · rw [if_neg hreach] at h
      have hreach2 : a.reachable = false := by
        cases hh : a.reachable
        · rfl
        · exact absurd hh hreach
      simp only [hreach2, Bool.false_eq_true, if_false, add_zero]
      cases hn : f.substrs.n_term_res ss with
      | none => rw [hn] at h; cases h
      | some n_term =>
        cases hc : f.substrs.c_term_res ss with
        | none => rw [hn, hc] at h; cases h
        | some c_term =>
          rw [hn, hc] at h
          simp only at h
          obtain ⟨a_begin, _, h⟩ := except_bind_ok _ _ _ h
          obtain ⟨a_last, _, h⟩ := except_bind_ok _ _ _ h
          obtain ⟨counts_s, hcounts, h⟩ := except_bind_ok _ _ _ h
          by_cases hinv : a_last + 1 < a_begin
          · rw [if_pos hinv] at h; cases h
          · rw [if_neg hinv] at h
            have hle := count_left_tri_le f _ _ _ _ _ _ hcounts
            obtain ⟨k1, k2, k3⟩ := add_counts_counting result counts_s target_sse.n_pdb 4
              (decide (counts_s.2 ≠ 0)) hr hle
            have := ih _ out k1 h
            refine ⟨fun r hout => ?_, fun r hout => ?_⟩
            · obtain ⟨c1, c2, c3, c4⟩ := this.1 r hout
              refine ⟨c1, c2.trans k2, ?_, fun hh => c4 (by rw [k3]; exact hh)⟩
              rw [c3, k3]
            · obtain ⟨c1, c2, c3, c4⟩ := this.2 r hout
              refine ⟨c1, c2, ?_, c4.trans k2⟩
              rw [k3] at c3; exact c3

theorem mid_sse_part_spec {σ X : Type} (f : BabFilter σ X) (b0 b1 : SubStrand)
    (b0_reverse b1_reverse : Bool) (sse_id : Nat) (target_sse : AtomSSE X)
    (result : BabFilterResult) (out : BabFilterResult ⊕ BabFilterResult)
    (hr : Counting result)
    (h : mid_sse_part f b0 b1 b0_reverse b1_reverse sse_id target_sse result = .ok out) :
    (∀ r, out = .inr r →
      Counting r ∧ r.mid_res_len = result.mid_res_len ∧
      r.n_mid_str = result.n_mid_str +
        (if target_sse.type = 'E' then
          ((f.substrs.vec (f.serial sse_id)).getD []).countP (attr_reachable f b0) else 0) ∧
      (result.n_mid_str ≤ f.cut_off_mid_str → r.n_mid_str ≤ f.cut_off_mid_str)) ∧
    (∀ r, out = .inl r →
      Rejected r 5 ∧ f.cut_off_mid_str < r.n_mid_str ∧
      r.n_mid_str ≤ result.n_mid_str +
        (if target_sse.type = 'E' then
          ((f.substrs.vec (f.serial sse_id)).getD []).countP (attr_reachable f b0) else 0) ∧
      r.mid_res_len = result.mid_res_len) := by
  unfold mid_sse_part at h
  by_cases hH : target_sse.type = 'H'
  · rw [if_pos hH] at h
    have hE : ¬ target_sse.type = 'E' := by rw [hH]; decide
    rw [if_neg hE]
    obtain ⟨counts_h, hcounts, h⟩ := except_bind_ok _ _ _ h
    cases h
    have hle := count_left_tri_le f _ _ _ _ _ _ hcounts
    obtain ⟨k1, k2, k3⟩ := add_counts_counting result counts_h target_sse.n_pdb 1
      (decide (counts_h.2 ≠ 0)) hr hle
    refine ⟨fun r hout => ?_, fun r hout => (by cases hout)⟩
    cases hout
    exact ⟨k1, k2, by rw [k3]; rfl, fun hh => by rw [k3]; exact hh⟩
  · rw [if_neg hH] at h
    by_cases hE : target_sse.type = 'E'
    · rw [if_pos hE] at h
      rw [if_pos hE]
      cases hv : f.substrs.vec (f.serial sse_id) with
      | none => rw [hv] at h; cases h
      | some subs =>
        rw [hv] at h
        simp only at h
        exact mid_strand_loop_spec f b0 b1 b0_reverse b1_reverse target_sse subs result out hr h
    · rw [if_neg hE] at h
      rw [if_neg hE]
      cases h
      refine ⟨fun r hout => ?_, fun r hout => (by cases hout)⟩
      cases hout
      exact ⟨hr, rfl, rfl, fun hh => hh⟩

theorem loop_part_spec {σ X : Type} (f : BabFilter σ X) (b0 b1 : SubStrand)
    (b0_reverse b1_reverse : Bool) (n : Nat) (first : Bool)
    (result r : BabFilterResult) (hr : Counting result)
    (h : loop_part f b0 b1 b0_reverse b1_reverse n first result = .ok r) :
    Counting r ∧
      r.mid_res_len = result.mid_res_len +
        (if f.with_loop then (f.loops_data.getD n {}).atoms.length else 0) ∧
      r.n_mid_str = result.n_mid_str := by
  unfold loop_part at h
  by_cases hw : f.with_loop = true
  · rw [if_pos hw] at h
    rw [if_pos hw]
    cases hl : f.loops_data.get? n with
    | none => rw [hl] at h; cases h
    | some target_loop =>
      rw [hl] at h
      simp only at h
      obtain ⟨counts, hcounts, h⟩ := except_bind_ok _ _ _ h
      cases h
      have hle := count_left_tri_le f _ _ _ _ _ _ hcounts
      obtain ⟨k1, k2, k3⟩ := add_counts_counting result counts target_loop.n_pdb 2
        (first && decide (target_loop.n_pdb ≠ 0)) hr hle
      have hg : f.loops_data.getD n {} = target_loop := by
        rw [List.getD_eq_getElem?_getD, ← List.get?_eq_getElem?, hl]; rfl
      rw [hg]
      exact ⟨k1, rfl, k3⟩
  · rw [if_neg hw] at h
    rw [if_neg hw]
    cases h
    exact ⟨hr, rfl, rfl⟩

theorem mid_sse_loop_spec {σ X : Type} (f : BabFilter σ X) (b0 b1 : SubStrand)
    (b0_reverse b1_reverse : Bool) :
    ∀ (ids : List Nat) (result : BabFilterResult) (out : BabFilterResult ⊕ BabFilterResult),
      Counting result → result.n_mid_str ≤ f.cut_off_mid_str →
      mid_sse_loop f b0 b1 b0_reverse b1_reverse ids result = .ok out →
      (∀ r, out = .inr r →
        Counting r ∧
        r.mid_res_len = result.mid_res_len +
          (ids.map (fun i =>
            (f.sses.getD i {}).atoms.length +
              (if f.with_loop then (f.loops_data.getD i {}).atoms.length else 0))).sum ∧
        r.n_mid_str = result.n_mid_str +
          (ids.map (fun i =>
            if (f.sses.getD i {}).type = 'E' then
              ((f.substrs.vec (f.serial i)).getD []).countP (attr_reachable f b0)
            else 0)).sum ∧
        r.n_mid_str ≤ f.cut_off_mid_str) ∧
      (∀ r, out = .inl r →
        (Rejected r 4 ∧ f.cut_off_res_len < r.mid_res_len ∧
          r.mid_res_len ≤ result.mid_res_len +
            (ids.map (fun i =>
              (f.sses.getD i {}).atoms.length +
                (if f.with_loop then (f.loops_data.getD i {}).atoms.length else 0))).sum) ∨
        (Rejected r 5 ∧ f.cut_off_mid_str < r.n_mid_str ∧
          r.n_mid_str ≤ result.n_mid_str +
            (ids.map (fun i =>
              if (f.sses.getD i {}).type = 'E' then
                ((f.substrs.vec (f.serial i)).getD []).countP (attr_reachable f b0)
              else 0)).sum)) := by
  intro ids
  induction ids with
  | nil =>
    intro result out hr hn h
    unfold mid_sse_loop at h
    cases h
    refine ⟨fun r hout => ?_, fun r hout => (by cases hout)⟩
    cases hout
    exact ⟨hr, by simp, by simp, hn⟩
  | cons sse_id rest ih =>
    intro result out hr hn h
    unfold mid_sse_loop at h
    cases hs : f.sses.get? sse_id with
    | none => rw [hs] at h; cases h
    | some target_sse =>
      rw [hs] at h
      simp only at h
      have hg : f.sses.getD sse_id {} = target_sse := by
        rw [List.getD_eq_getElem?_getD, ← List.get?_eq_getElem?, hs]; rfl
      simp only [List.map_cons, List.sum_cons, hg]
      by_cases hcut : f.cut_off_res_len < result.mid_res_len + target_sse.atoms.length
      · rw [if_pos hcut] at h
        cases h
        refine ⟨fun r hout => (by cases hout), fun r hout => ?_⟩
        cases hout
        obtain ⟨h1, h2, left, hl, hsc⟩ := hr
        refine Or.inl ⟨⟨h1, rfl, left, hl, hsc⟩, hcut, ?_⟩
        show result.mid_res_len + target_sse.atoms.length ≤ _
        omega
      · rw [if_neg hcut] at h
        obtain ⟨part, hpart, h⟩ := except_bind_ok _ _ _ h
        have hr1 : Counting
            { result with mid_res_len := result.mid_res_len + target_sse.atoms.length } := hr
        have hp := mid_sse_part_spec f b0 b1 b0_reverse b1_reverse sse_id target_sse _ part
          hr1 hpart
        cases part with
        | inl r0 =>
          simp only at h
          cases h
          obtain ⟨c1, c2, c3, c4⟩ := hp.2 r0 rfl
          refine ⟨fun r hout => (by cases hout), fun r hout => ?_⟩
          cases hout
          refine Or.inr ⟨c1, c2, ?_⟩
          have e : ({ result with mid_res_len := result.mid_res_len +
              target_sse.atoms.length } : BabFilterResult).n_mid_str = result.n_mid_str := rfl
          rw [e] at c3
          omega
        | inr r0 =>
          simp only at h
          obtain ⟨c1, c2, c3, c4⟩ := hp.1 r0 rfl
          obtain ⟨r1, hloop, h⟩ := except_bind_ok _ _ _ h
          obtain ⟨l1, l2, l3⟩ := loop_part_spec f b0 b1 b0_reverse b1_reverse sse_id false r0 r1
            c1 hloop
          have e1 : ({ result with mid_res_len := result.mid_res_len +
              target_sse.atoms.length } : BabFilterResult).n_mid_str = result.n_mid_str := rfl
          have e2 : ({ result with mid_res_len := result.mid_res_len +
              target_sse.atoms.length } : BabFilterResult).mid_res_len =
              result.mid_res_len + target_sse.atoms.length := rfl
          rw [e1] at c3 c4
          rw [e2] at c2
          have hn1 : r1.n_mid_str ≤ f.cut_off_mid_str := by rw [l3]; exact c4 hn
          have := ih r1 out l1 hn1 h
          refine ⟨fun r hout => ?_, fun r hout => ?_⟩
          · obtain ⟨d1, d2, d3, d4⟩ := this.1 r hout
            refine ⟨d1, ?_, ?_, d4⟩
            · rw [d2, l2, c2]; omega
            · rw [d3, l3, c3]; omega
          · rcases this.2 r hout with ⟨d1, d2, d3⟩ | ⟨d1, d2, d3⟩
            · refine Or.inl ⟨d1, d2, ?_⟩
              rw [l2, c2] at d3; omega
            · refine Or.inr ⟨d1, d2, ?_⟩
              rw [l3, c3] at d3; omega

theorem filter_one_unit_spec {σ X : Type} (f : BabFilter σ X) (b0 b1 : SubStrand)
    (b0_reverse b1_reverse : Bool) (ids : List Nat) (r : BabFilterResult)
    (h : filter_one_unit f b0 b1 b0_reverse b1_reverse ids = .ok r) :
    (r.success = true ∧ r.non_bab_reason = 0 ∧
      r.mid_res_len = mid_residues f ids ∧ r.n_mid_str = mid_reachable f b0 ids ∧
      mid_residues f ids ≤ f.cut_off_res_len ∧ mid_reachable f b0 ids ≤ f.cut_off_mid_str ∧
      ∃ left : Nat, left ≤ r.tri_atom_count ∧
        r.left_score = if r.tri_atom_count = 0 then 0 else (left : ℚ) / (r.tri_atom_count : ℚ)) ∨
    (Rejected r 4 ∧ f.cut_off_res_len < r.mid_res_len ∧ r.mid_res_len ≤ mid_residues f ids) ∨
    (Rejected r 5 ∧ f.cut_off_mid_str < r.n_mid_str ∧ r.n_mid_str ≤ mid_reachable f b0 ids) := by
  unfold filter_one_unit at h
  obtain ⟨r0, hloop, h⟩ := except_bind_ok _ _ _ h
  have hr00 : Counting ({ sub_first := b0, sub_last := b1 } : BabFilterResult) :=
    ⟨rfl, rfl, 0, le_refl _, by simp⟩
  obtain ⟨l1, l2, l3⟩ := loop_part_spec f b0 b1 b0_reverse b1_reverse (ids.headD 0) true _ r0
    hr00 hloop
  obtain ⟨out, hmid, h⟩ := except_bind_ok _ _ _ h
  have hn0 : r0.n_mid_str ≤ f.cut_off_mid_str := by rw [l3]; exact Nat.zero_le _
  have hm := mid_sse_loop_spec f b0 b1 b0_reverse b1_reverse ids.tail.dropLast r0 out l1 hn0 hmid
  have e1 : ({ sub_first := b0, sub_last := b1 } : BabFilterResult).mid_res_len = 0 := rfl
  have e2 : ({ sub_first := b0, sub_last := b1 } : BabFilterResult).n_mid_str = 0 := rfl
  rw [e1] at l2
  rw [e2] at l3
  cases out with
  | inl r1 =>
    simp only at h
    cases h
    rcases hm.2 r rfl with ⟨d1, d2, d3⟩ | ⟨d1, d2, d3⟩
    · refine Or.inr (Or.inl ⟨d1, d2, ?_⟩)
      unfold mid_residues
      rw [l2] at d3; omega
    · refine Or.inr (Or.inr ⟨d1, d2, ?_⟩)
      unfold mid_reachable
      rw [l3] at d3; omega
  | inr r1 =>
    simp only at h
    cases h
    obtain ⟨d1, d2, d3, d4⟩ := hm.1 r1 rfl
    have hres : r1.mid_res_len = mid_residues f ids := by
      unfold mid_residues; rw [d2, l2]; omega
    have hstr : r1.n_mid_str = mid_reachable f b0 ids := by
      unfold mid_reachable; rw [d3, l3]; omega
    obtain ⟨s1, s2, left, hl, hsc⟩ := d1
    unfold finish_unit
    by_cases hcut : f.cut_off_res_len < r1.mid_res_len
    · rw [if_pos hcut]
      refine Or.inr (Or.inl ⟨⟨s1, rfl, left, hl, hsc⟩, hcut, ?_⟩)
      show r1.mid_res_len ≤ _
      omega
    · rw [if_neg hcut]
      refine Or.inl ⟨rfl, s2, hres, hstr, ?_, ?_, left, hl, ?_⟩
      · omega
      · omega
      · show (if r1.tri_atom_count ≠ 0 then r1.left_score / (r1.tri_atom_count : ℚ) else 0) = _
        by_cases ht : r1.tri_atom_count = 0
        · rw [if_neg (by simpa using ht), if_pos ht]
        · rw [if_pos ht, if_neg ht, hsc]

theorem score_bounds (left total : Nat) (h : left ≤ total) :
    (0 : ℚ) ≤ (if total = 0 then 0 else (left : ℚ) / (total : ℚ)) ∧
      (if total = 0 then 0 else (left : ℚ) / (total : ℚ)) ≤ 1 := by
  by_cases ht : total = 0
  · rw [if_pos ht]; exact ⟨le_refl _, by norm_num⟩
  · rw [if_neg ht]
    have hpos : (0 : ℚ) < (total : ℚ) := by
      have : 0 < total := Nat.pos_of_ne_zero ht
      exact_mod_cast this
    refine ⟨div_nonneg (by exact_mod_cast Nat.zero_le left) hpos.le, ?_⟩
    rw [div_le_one hpos]
    exact_mod_cast h

theorem call_sub_gate {σ X : Type} (f : BabFilter σ X) (ss0 ss1 : SubStrand) (ids : List Nat)
    (reverse : Nat) (a : StrandsPairAttribute)
    (hcond : non_bab_condition f.with_loop ids.length = 0)
    (ha : f.attr ss0 ss1 = .ok a) (h0 : ids.headD 0 < 32) (h1 : ids.getLastD 0 < 32) :
    f.call_sub ss0 ss1 ids reverse =
      if a.reachable = true ∧
          a.direction =
            (reverse.testBit (ids.headD 0) == reverse.testBit (ids.getLastD 0)) then
        (filter_one_unit f ss0 ss1 (reverse.testBit (ids.headD 0))
            (reverse.testBit (ids.getLastD 0)) ids).bind (fun result =>
          .ok (result.success && f.comp result.left_score f.cut_off_left_score,
            { result with jump := a.jump }))
      else .ok (false, { sub_first := ss0, sub_last := ss1, non_bab_reason := 3 }) := by
  unfold BabFilter.call_sub
  rw [if_neg (by rw [hcond]; exact fun h => h rfl), ha]
  unfold reverse_bit
  rw [if_pos h0, if_pos h1]
  show (if (!a.reachable ||
      direction_with_reverse a.direction (reverse.testBit (ids.headD 0))
        (reverse.testBit (ids.getLastD 0))) = true then _ else _) = _
  unfold direction_with_reverse
  cases a.reachable <;> cases a.direction <;> cases reverse.testBit (ids.headD 0) <;>
    cases reverse.testBit (ids.getLastD 0) <;> simp

theorem filter_one_unit_reason {σ X : Type} (f : BabFilter σ X) (b0 b1 : SubStrand)
    (b0_reverse b1_reverse : Bool) (ids : List Nat) (r : BabFilterResult)
    (h : filter_one_unit f b0 b1 b0_reverse b1_reverse ids = .ok r) :
    (r.success = true ∧ r.non_bab_reason = 0) ∨
      (r.success = false ∧ (r.non_bab_reason = 4 ∨ r.non_bab_reason = 5)) := by
  rcases filter_one_unit_spec f b0 b1 b0_reverse b1_reverse ids r h with
    ⟨h1, h2, _⟩ | ⟨⟨h1, h2, _⟩, _⟩ | ⟨⟨h1, h2, _⟩, _⟩
  · exact Or.inl ⟨h1, h2⟩
  · exact Or.inr ⟨h1, Or.inl h2⟩
  · exact Or.inr ⟨h1, Or.inr h2⟩

/-- C26: for a range that passes the test of `non_bab_condition`, with the
attribute `attr(ss0, ss1)` found and the numbers of the first and the last
element below 32, `operator()(ss0, ss1, first, last, reverse)` rejects the
candidate with the reason 3 exactly when the attribute is not reachable or its
direction differs from `rev_s0 == rev_s1`: the candidate passes when the pair
is reachable and `direction == (rev_s0 == rev_s1)`, that is when the
direction is parallel and the two reverse bits are equal, or anti-parallel
and the bits differ. A candidate that passes goes on to `filter_one_unit`, and
no result of that call has the reason 3. -/
theorem gate_three_spec {σ X : Type} (f : BabFilter σ X) (ss0 ss1 : SubStrand)
    (ids : List Nat) (reverse : Nat) (a : StrandsPairAttribute)
    (hcond : non_bab_condition f.with_loop ids.length = 0)
    (ha : f.attr ss0 ss1 = .ok a) (h0 : ids.headD 0 < 32) (h1 : ids.getLastD 0 < 32) :
    (¬ (a.reachable = true ∧
        a.direction =
          (reverse.testBit (ids.headD 0) == reverse.testBit (ids.getLastD 0))) →
      f.call_sub ss0 ss1 ids reverse =
        .ok (false, { sub_first := ss0, sub_last := ss1, non_bab_reason := 3 })) ∧
    ((a.reachable = true ∧
        a.direction =
          (reverse.testBit (ids.headD 0) == reverse.testBit (ids.getLastD 0))) →
      f.call_sub ss0 ss1 ids reverse =
        (filter_one_unit f ss0 ss1 (reverse.testBit (ids.headD 0))
            (reverse.testBit (ids.getLastD 0)) ids).bind (fun result =>
          .ok (result.success && f.comp result.left_score f.cut_off_left_score,
            { result with jump := a.jump })) ∧
      ∀ r, f.call_sub ss0 ss1 ids reverse = .ok r → r.2.non_bab_reason ≠ 3) ∧
    (∀ d r0 r1 : Bool, direction_with_reverse d r0 r1 = !(d == (r0 == r1))) := by
  have hg := call_sub_gate f ss0 ss1 ids reverse a hcond ha h0 h1
  refine ⟨fun hn => ?_, fun hp => ?_, ?_⟩
  · rw [hg, if_neg hn]
  · rw [if_pos hp] at hg
    refine ⟨hg, fun r hr => ?_⟩
    rw [hg] at hr
    obtain ⟨result, hres, hr⟩ := except_bind_ok _ _ _ hr
    cases hr
    show result.non_bab_reason ≠ 3
    rcases filter_one_unit_reason f _ _ _ _ _ _ hres with ⟨_, h⟩ | ⟨_, h | h⟩ <;> omega
  · intro d r0 r1
    cases d <;> cases r0 <;> cases r1 <;> rfl

/-- C26, witness: the two sub-strands of `helix_unit` are reachable and
parallel; without reverse bits the candidate is not rejected with the reason
3, with the first strand reversed it is. -/
theorem gate_three_spec_witness :
    ∃ r, (helix_unit (true, true)).call_sub ⟨0, 0⟩ ⟨1, 0⟩ [0, 1, 2] 0 = .ok r ∧
      r.2.non_bab_reason ≠ 3 ∧
      (helix_unit (true, true)).call_sub ⟨0, 0⟩ ⟨1, 0⟩ [0, 1, 2] 1 =
        .ok (false, { sub_first := ⟨0, 0⟩, sub_last := ⟨1, 0⟩, non_bab_reason := 3 }) := by
  obtain ⟨r, hr⟩ := Option.isSome_iff_exists.1
    (show (returned ((helix_unit (true, true)).call_sub ⟨0, 0⟩ ⟨1, 0⟩ [0, 1, 2] 0)).isSome = true
      by decide)
  have hr1 := ok_of_returned _ _ hr
  exact ⟨r, hr1,
    ((gate_three_spec (helix_unit (true, true)) ⟨0, 0⟩ ⟨1, 0⟩ [0, 1, 2] 0
      { ss0 := ⟨0, 0⟩, ss1 := ⟨1, 0⟩, reachable := true, direction := true }
      (by decide) rfl (by decide) (by decide)).2.1 (by decide)).2 r hr1,
    (gate_three_spec (helix_unit (true, true)) ⟨0, 0⟩ ⟨1, 0⟩ [0, 1, 2] 1
      { ss0 := ⟨0, 0⟩, ss1 := ⟨1, 0⟩, reachable := true, direction := true }
      (by decide) rfl (by decide) (by decide)).1 (by decide)⟩

/-- C26, counterexample: in `helix_unit` the two flanking sub-strands are
reachable and parallel. Without reverse bits `base_parallel XOR (rev_s0 ==
rev_s1)` is false and the candidate passes (the call ends with success); with
the first strand reversed the expression is true and the candidate is
rejected with the reason 3. -/
theorem gate_three_xor_counterexample :
    xor true (Nat.testBit 0 0 == Nat.testBit 0 2) = false ∧
    (returned ((helix_unit (true, true)).call_sub ⟨0, 0⟩ ⟨1, 0⟩ [0, 1, 2] 0)).map
      (fun r => (r.2.success, r.2.non_bab_reason)) = some (true, 0) ∧
    xor true (Nat.testBit 1 0 == Nat.testBit 1 2) = true ∧
    (returned ((helix_unit (true, true)).call_sub ⟨0, 0⟩ ⟨1, 0⟩ [0, 1, 2] 1)).map
      (fun r => (r.2.success, r.2.non_bab_reason)) = some (false, 3) := by
  decide

/-- C29: `filter_one_unit` switches on a bit of `connection_type` only for a
helix or a strand of another sheet with at least one decision, and with
`WITH_LOOP` for a first loop with an atom. In `helix_unit` with every atom
nearer to every side than the minimal distance, the helix gives no decision:
the call ends with success and `connection_type` 0. In `three_strands` the
only element between the flanking strands is a strand of the same sheet, which
is skipped: again success with `connection_type` 0. `get_handedness` collects
both results, and the assertion of `output_handedness` fails on them. -/
theorem success_without_connection_type :
    (returned ((helix_unit (true, false)).call {} [0, 1, 2] 0)).map
      (fun r => (r.2.success, r.2.connection_type, r.2.tri_atom_count, r.2.non_bab_reason)) =
      some (true, 0, 0, 0) ∧
    (returned (get_handedness (helix_unit (true, false)) {})).map
      (fun found_bab => (found_bab.map (fun r => (r.sub_first, r.sub_last, r.connection_type)),
        handedness_assertion found_bab)) =
      some ([(⟨0, 0⟩, ⟨1, 0⟩, 0)], false) ∧
    (returned ((three_strands (true, true)).call {} [0, 1, 2] 0)).map
      (fun r => (r.2.success, r.2.connection_type, r.2.n_mid_str, r.2.non_bab_reason)) =
      some (true, 0, 1, 0) ∧
    (returned (get_handedness (three_strands (true, true)) {})).map
      (fun found_bab => (found_bab.map (fun r => (r.sub_first, r.sub_last, r.connection_type)),
        handedness_assertion found_bab)) =
      some ([(⟨0, 0⟩, ⟨2, 0⟩, 0)], false) ∧
    (returned (get_handedness (helix_unit (true, true)) {})).map
      (fun found_bab => (found_bab.map (fun r => (r.sub_first, r.sub_last, r.connection_type)),
        handedness_assertion found_bab)) =
      some ([(⟨0, 0⟩, ⟨1, 0⟩, 1)], true) := by
  refine ⟨?_, ?_, ?_, ?_, ?_⟩ <;> decide!

/-- C30: when a flanking strand has no sub-strand, the loops of
`operator()(first, last, reverse)` have no round and `last_result` is not
written. In `bare_strand` the fourth element is such a strand. The first call
of a new filter for the range of this strand alone returns false and
`result()` is the default result: no success and the reason 0. After the call
for the first three elements, which ends with success, the call for all four
elements returns false and `result()` is still the result of the call before,
with success; `get_handedness` collects this result twice. -/
theorem stale_result_without_substrand :
    (bare_strand (true, true)).substrs.vec ((bare_strand (true, true)).serial 3) = some [] ∧
    (returned ((bare_strand (true, true)).call {} [3] 0)).map
      (fun r => (r.1, r.2.success, r.2.non_bab_reason, decide (r.2 = {}))) =
      some (false, false, 0, true) ∧
    (returned ((bare_strand (true, true)).call {} [0, 1, 2] 0)).map
      (fun r => (r.1, decide (r.2 = helix_result))) = some (true, true) ∧
    (returned ((bare_strand (true, true)).call helix_result [0, 1, 2, 3] 0)).map
      (fun r => (r.1, r.2.success, decide (r.2 = helix_result))) = some (false, true, true) ∧
    (returned (get_handedness (bare_strand (true, true)) {})).map
      (fun found_bab => decide (found_bab = [helix_result, helix_result])) = some true := by
  refine ⟨?_, ?_, ?_, ?_, ?_⟩ <;> decide!

theorem signed_dist_on_left (s : Side) (v : Vec3) (reversed myside : Bool) (min_dist : ℚ) :
    s.on_left_side v reversed myside min_dist =
      (if myside then decide (signed_dist s v reversed < -min_dist)
        else decide (min_dist < signed_dist s v reversed),
       decide (min_dist < |signed_dist s v reversed|)) := by
  unfold Side.on_left_side signed_dist
  cases myside <;> simp

/-- C31. For a side `s`, a point `v` and `0 ≤ min_dist`, with `d` the signed
distance `n . (v - b)` of the point to the side: `Side::on_left_side` reports
`is_distant` exactly when `min_dist < |d|`, whatever `myside` is; with
`myside = true` it reports left exactly when `d < -min_dist`, with
`myside = false` exactly when `min_dist < d`; in the loop of `count_left_tri`
over the sides a side with `|d| ≤ min_dist` leaves the two counters as they
are, and a side with `min_dist < |d|` adds one to the total counter and, when
the answer is left, one to the left counter; and for such a counted point the
answers for the two values of `myside` are opposite. -/
theorem on_left_side_spec (s : Side) (v : Vec3) (reversed : Bool) (min_dist : ℚ)
    (hmin : 0 ≤ min_dist) :
    (∀ myside, (s.on_left_side v reversed myside min_dist).2 = true ↔
      min_dist < |signed_dist s v reversed|) ∧
    ((s.on_left_side v reversed true min_dist).1 = true ↔ signed_dist s v reversed < -min_dist) ∧
    ((s.on_left_side v reversed false min_dist).1 = true ↔ min_dist < signed_dist s v reversed) ∧
    (|signed_dist s v reversed| ≤ min_dist →
      ∀ (rest : List Side) (myside : Bool) (c : Nat × Nat),
        count_sides (side_filter min_dist) (s :: rest) v reversed myside c =
          count_sides (side_filter min_dist) rest v reversed myside c) ∧
    (min_dist < |signed_dist s v reversed| →
      (∀ (rest : List Side) (myside : Bool) (c : Nat × Nat),
        count_sides (side_filter min_dist) (s :: rest) v reversed myside c =
          count_sides (side_filter min_dist) rest v reversed myside
            (if (s.on_left_side v reversed myside min_dist).1 then c.1 + 1 else c.1, c.2 + 1)) ∧
      (s.on_left_side v reversed true min_dist).1 =
        !(s.on_left_side v reversed false min_dist).1) := by
  refine ⟨?_, ?_, ?_, ?_, ?_⟩
  · intro myside
    rw [signed_dist_on_left]
    simp
  · rw [signed_dist_on_left]
    simp
  · rw [signed_dist_on_left]
    simp
  · intro h rest myside c
    have hd : (s.on_left_side v reversed myside min_dist).2 = false := by
      rw [signed_dist_on_left]
      simp only [decide_eq_false_iff_not, not_lt]
      exact h
    simp only [count_sides, side_filter, List.foldl_cons]
    rw [hd]
    simp
  · intro h
    constructor
    · intro rest myside c
      have hd : (s.on_left_side v reversed myside min_dist).2 = true := by
        rw [signed_dist_on_left]
        simp only [decide_eq_true_eq]
        exact h
      simp only [count_sides, side_filter, List.foldl_cons]
      rw [hd]
      simp
    · rw [signed_dist_on_left, signed_dist_on_left]
      simp only [if_true, Bool.false_eq_true, if_false]
      rcases lt_abs.1 h with h1 | h1
      · have h2 : ¬ signed_dist s v reversed < -min_dist := by
          intro h3; linarith
        simp [h1, h2]
      · have h2 : signed_dist s v reversed < -min_dist := by linarith
        have h3 : ¬ min_dist < signed_dist s v reversed := by
          intro h3; linarith
        simp [h2, h3]

/-- C31, witness: the point `(0, 0, 3)` is at the signed distance 3 of the side
`flat_side`, so with the default distance 1 the answer for `myside = false` is
left. -/
theorem on_left_side_witness :
    (0 : ℚ) ≤ DEFAULT_SIDE_MIN_DIST ∧
      (flat_side.on_left_side (0, 0, 3) false false DEFAULT_SIDE_MIN_DIST).1 = true :=
  ⟨zero_le_one, (on_left_side_spec flat_side (0, 0, 3) false DEFAULT_SIDE_MIN_DIST
    zero_le_one).2.2.1.2 (by
      simp [signed_dist, flat_side, Side.normal, Side.base_point, Vec3.dot, Vec3.sub,
        DEFAULT_SIDE_MIN_DIST])⟩

/-- C32. For every default direction and every pair of reverse bits:
reversing both strands leaves the value of `direction_with_reverse` as it is,
and reversing one of them, either one, gives the opposite value. -/
theorem direction_with_reverse_spec (d r0 r1 : Bool) :
    direction_with_reverse d (!r0) (!r1) = direction_with_reverse d r0 r1 ∧
      direction_with_reverse d (!r0) r1 = direction_with_reverse d r0 (!r1) ∧
      direction_with_reverse d r0 (!r1) = !direction_with_reverse d r0 r1 := by
  cases d <;> cases r0 <;> cases r1 <;> decide

/-- C32, witness: a parallel pair whose second strand is reversed. -/
theorem direction_with_reverse_witness :
    direction_with_reverse true true false = !direction_with_reverse true false false ∧
      direction_with_reverse true false false = false :=
  ⟨(direction_with_reverse_spec true false false).2.1 ▸
    (direction_with_reverse_spec true false false).2.2, by decide⟩

/-- C33. For a vector of relative directions that holds the entry `rt` for the
strand of `target` and the entry `ra` for the strand of `adj`:
`update_rel_dir` throws `TargetRelativeDirectionNotSet` exactly when `rt` is
`NotSet`. Otherwise let `e` be the direction it computes for the adjacent
strand, which is `Parallel` exactly when (`rt` is `Parallel`) equals
`direction_to_adj`, and `AntiParallel` if not: when `ra` is `NotSet` the entry
of the adjacent strand is set to `e` and `false` is returned; when `ra` is `e`
the vector is left as it is and `false` is returned; when `ra` is the other
direction the vector is left as it is and `true` (the fallback) is returned;
and in every case the entries of the other strands are the ones of before. -/
theorem update_rel_dir_spec (target adj : ZoneResidue) (direction_to_adj : Bool)
    (relative_directions : List RelDir) (rt ra : RelDir)
    (ht : relative_directions.get? target.serial_str_id = some rt)
    (ha : relative_directions.get? adj.serial_str_id = some ra) :
    (update_rel_dir target adj direction_to_adj relative_directions = .error .exception ↔
      rt = RelDir.NotSet) ∧
    (rt ≠ RelDir.NotSet →
      ∃ e : RelDir, (e = RelDir.Parallel ∨ e = RelDir.AntiParallel) ∧
        (e = RelDir.Parallel ↔ ((rt = RelDir.Parallel) ↔ direction_to_adj = true)) ∧
        (ra = RelDir.NotSet →
          update_rel_dir target adj direction_to_adj relative_directions =
            .ok (false, relative_directions.set adj.serial_str_id e)) ∧
        (ra = e →
          update_rel_dir target adj direction_to_adj relative_directions =
            .ok (false, relative_directions)) ∧
        (ra ≠ RelDir.NotSet → ra ≠ e →
          update_rel_dir target adj direction_to_adj relative_directions =
            .ok (true, relative_directions)) ∧
        ∀ r, update_rel_dir target adj direction_to_adj relative_directions = .ok r →
          ∀ k, k ≠ adj.serial_str_id → r.2.get? k = relative_directions.get? k) := by
  unfold update_rel_dir
  rw [ht, ha]
  cases rt with
  | NotSet => exact ⟨⟨fun _ => rfl, fun _ => rfl⟩, fun h => absurd rfl h⟩
  | AntiParallel =>
    refine ⟨⟨?_, fun h => by cases h⟩, fun _ => ?_⟩
    · intro h
      simp only [reduceCtorEq, if_false] at h
      split_ifs at h
    · refine ⟨if direction_to_adj then RelDir.AntiParallel else RelDir.Parallel, ?_, ?_, ?_, ?_,
        ?_, ?_⟩
      · cases direction_to_adj <;> simp
      · cases direction_to_adj <;> simp
      · intro h; subst h; simp
      · intro h; subst h; cases direction_to_adj <;> simp
      · intro h1 h2; cases direction_to_adj <;> simp_all
      · intro r hr k hk
        simp only [reduceCtorEq, if_false] at hr
        split_ifs at hr <;> simp only [Except.ok.injEq] at hr <;> subst hr <;>
          first
          | rfl
          | exact get?_set_other _ _ _ _ (Ne.symm hk)
  | Parallel =>
    refine ⟨⟨?_, fun h => by cases h⟩, fun _ => ?_⟩
    · intro h
      simp only [if_true] at h
      split_ifs at h
    · refine ⟨if direction_to_adj then RelDir.Parallel else RelDir.AntiParallel, ?_, ?_, ?_, ?_,
        ?_, ?_⟩
      · cases direction_to_adj <;> simp
      · cases direction_to_adj <;> simp
      · intro h; subst h; simp
      · intro h; subst h; cases direction_to_adj <;> simp
      · intro h1 h2; cases direction_to_adj <;> simp_all
      · intro r hr k hk
        simp only [if_true] at hr
        split_ifs at hr <;> simp only [Except.ok.injEq] at hr <;> subst hr <;>
          first
          | rfl
          | exact get?_set_other _ _ _ _ (Ne.symm hk)

/-- C33, witness: the strand 0 is parallel, the strand 1 is not set and the
direction to it is anti-parallel: the strand 1 becomes anti-parallel. -/
theorem update_rel_dir_witness :
    update_rel_dir { serial_str_id := 0 } { serial_str_id := 1 } false
        [RelDir.Parallel, RelDir.NotSet, RelDir.NotSet] =
      .ok (false, [RelDir.Parallel, RelDir.AntiParallel, RelDir.NotSet]) := by
  obtain ⟨e, he, hiff, hset, -⟩ :=
    (update_rel_dir_spec { serial_str_id := 0 } { serial_str_id := 1 } false
      [RelDir.Parallel, RelDir.NotSet, RelDir.NotSet] RelDir.Parallel RelDir.NotSet rfl rfl).2
      (by decide)
  have h2 : e = RelDir.AntiParallel := by
    rcases he with h | h
    · exact absurd (hiff.1 h) (by decide)
    · exact h
  rw [hset rfl, h2]
  rfl

/-- C34. For a residue `res0` whose strand has a set relative direction `rel0`
and whose side is `Upper` or `Lower`, and two strands with a last sub-strand
`ss0` and `ss1`: `gen_list_key` returns the key from the sub-strand of `res0`
to the sub-strand of `res1` exactly when `rel0 == (side == hbonded)`, read with
`Parallel`, `Upper` and `true` as the true values, and the reversed key
otherwise; this gives the eight rows of the truth table of the source. -/
theorem gen_list_key_spec (z : StrictZone) (res0 res1 : ZoneResidue) (hbonded : Bool)
    (rel_dir : List RelDir) (rel0 : RelDir) (info : ZoneInfo) (ss0 ss1 : Nat)
    (hrel : rel_dir.get? res0.serial_str_id = some rel0) (hset : rel0 ≠ RelDir.NotSet)
    (hinfo : strict_c_info z.strict res0 = .ok info) (hside : info.side ≠ SideStatus.Undefined)
    (h0 : last_substr_id z.sub_strands.data res0.serial_str_id = .ok ss0)
    (h1 : last_substr_id z.sub_strands.data res1.serial_str_id = .ok ss1) :
    (gen_list_key z res0 res1 hbonded rel_dir =
      if (rel0 = RelDir.Parallel ↔ (info.side = SideStatus.Upper ↔ hbonded = true)) then
        .ok ⟨res0.serial_str_id, ss0, res1.serial_str_id, ss1⟩
      else .ok ⟨res1.serial_str_id, ss1, res0.serial_str_id, ss0⟩) ∧
    (∀ forward : Bool,
      (rel0, info.side, hbonded, forward) ∈
        [(RelDir.Parallel, SideStatus.Upper, true, true),
         (RelDir.Parallel, SideStatus.Upper, false, false),
         (RelDir.Parallel, SideStatus.Lower, true, false),
         (RelDir.Parallel, SideStatus.Lower, false, true),
         (RelDir.AntiParallel, SideStatus.Upper, true, false),
         (RelDir.AntiParallel, SideStatus.Upper, false, true),
         (RelDir.AntiParallel, SideStatus.Lower, true, true),
         (RelDir.AntiParallel, SideStatus.Lower, false, false)] →
      gen_list_key z res0 res1 hbonded rel_dir =
        if forward then .ok ⟨res0.serial_str_id, ss0, res1.serial_str_id, ss1⟩
        else .ok ⟨res1.serial_str_id, ss1, res0.serial_str_id, ss0⟩) := by
  have hk : ∀ r : RelDir, r ≠ RelDir.NotSet →
      (match some r with
        | none => (.error .undefined : Except Failure SubStrandsPairKey)
        | some RelDir.NotSet => .error .exception
        | some rel0 =>
          (strict_c_info z.strict res0).bind (fun info =>
            if rel0.toInt = boolInt (decide (info.side.toInt = boolInt hbonded)) then
              last_key z.sub_strands.data res0.serial_str_id res1.serial_str_id
            else last_key z.sub_strands.data res1.serial_str_id res0.serial_str_id)) =
        if r.toInt = boolInt (decide (info.side.toInt = boolInt hbonded)) then
          .ok ⟨res0.serial_str_id, ss0, res1.serial_str_id, ss1⟩
        else .ok ⟨res1.serial_str_id, ss1, res0.serial_str_id, ss0⟩ := by
    intro r hr
    cases r with
    | NotSet => exact absurd rfl hr
    | AntiParallel => simp only [hinfo, last_key, h0, h1]; rfl
    | Parallel => simp only [hinfo, last_key, h0, h1]; rfl
  have hgen := hk rel0 hset
  have hmain : gen_list_key z res0 res1 hbonded rel_dir =
      if rel0.toInt = boolInt (decide (info.side.toInt = boolInt hbonded)) then
        .ok ⟨res0.serial_str_id, ss0, res1.serial_str_id, ss1⟩
      else .ok ⟨res1.serial_str_id, ss1, res0.serial_str_id, ss0⟩ := by
    unfold gen_list_key
    rw [hrel]
    exact hgen
  constructor
  · rw [hmain]
    cases rel0 <;> cases hs : info.side <;> cases hbonded <;>
      first
      | exact absurd rfl hset
      | exact absurd hs hside
      | simp [RelDir.toInt, SideStatus.toInt, boolInt]
  · intro forward hmem
    rw [hmain]
    simp only [List.mem_cons, Prod.mk.injEq, List.mem_singleton, List.not_mem_nil, or_false] at hmem
    rcases hmem with h | h | h | h | h | h | h | h <;>
      obtain ⟨a, b, c, d⟩ := h <;> subst a <;> subst c <;> subst d <;> rw [b] <;>
        simp [RelDir.toInt, SideStatus.toInt, boolInt]

/-- C34, witness: a residue on the upper side of a parallel strand and its
partner without hydrogen bonds: the key is reversed (second row of the table). -/
theorem gen_list_key_witness :
    gen_list_key
        { strict := [[{ side := SideStatus.Upper }], [{}]],
          sub_strands := { data := [[(1, 2)], [(5, 6), (8, 9)]] } }
        { serial_str_id := 0 } { serial_str_id := 1 } false [RelDir.Parallel, RelDir.NotSet] =
      .ok ⟨1, 1, 0, 0⟩ :=
  (gen_list_key_spec
    { strict := [[{ side := SideStatus.Upper }], [{}]],
      sub_strands := { data := [[(1, 2)], [(5, 6), (8, 9)]] } }
    { serial_str_id := 0 } { serial_str_id := 1 } false [RelDir.Parallel, RelDir.NotSet]
    RelDir.Parallel { side := SideStatus.Upper } 0 1 rfl (by decide) rfl (by decide) rfl rfl).2
    false (by decide)

/-- C37. The method `AdjacentSubStrands::add` on an empty table, for the
sub-strand 0 of the strand 0 as `key` and the sub-strand 0 of the strand 1 as
`ss`: `ss` is recorded on the side `side` of `key`, once, and `key` is recorded
once on a side of `ss`; but for a parallel pair (`rel_dir = true`) that side is
the inverse of `side`, and for an anti-parallel pair it is `side` itself, the
opposite of what the comment in the source states. A second call with the same
arguments leaves the table as it is. -/
theorem adjacent_add_inverts_parallel :
    ∀ side rel_dir : Bool,
      map_at (adjacent_add [] ⟨0, 0⟩ ⟨1, 0⟩ side rel_dir) ⟨0, 0⟩ =
          some (if side then ([], [⟨1, 0⟩]) else ([⟨1, 0⟩], [])) ∧
        side_of (adjacent_add [] ⟨0, 0⟩ ⟨1, 0⟩ side rel_dir) ⟨0, 0⟩ ⟨1, 0⟩ =
          some (if rel_dir then !side else side) ∧
        map_at (adjacent_add [] ⟨0, 0⟩ ⟨1, 0⟩ side rel_dir) ⟨1, 0⟩ =
          some (if (if rel_dir then !side else side) then ([], [⟨0, 0⟩]) else ([⟨0, 0⟩], [])) ∧
        adjacent_add (adjacent_add [] ⟨0, 0⟩ ⟨1, 0⟩ side rel_dir) ⟨0, 0⟩ ⟨1, 0⟩ side rel_dir =
          adjacent_add [] ⟨0, 0⟩ ⟨1, 0⟩ side rel_dir := by
  decide

theorem map_insert_keeps {K V : Type} [DecidableEq K] (m : List (K × V)) (k : K) (v : V) (x : K)
    (w : V) (h : map_at m x = some w) : map_at (map_insert m k v) x = some w := by
  rw [map_at_insert, h]
  simp

theorem map_insert_self {K V : Type} [DecidableEq K] (m : List (K × V)) (k : K) (v : V) :
    (map_at (map_insert m k v) k).isSome = true := by
  rw [map_at_insert]
  cases h : map_at m k with
  | none => simp
  | some w => simp

theorem map_insert_isSome {K V : Type} [DecidableEq K] (m : List (K × V)) (k : K) (v : V) (x : K)
    (h : (map_at m x).isSome = true) : (map_at (map_insert m k v) x).isSome = true := by
  obtain ⟨w, hw⟩ := Option.isSome_iff_exists.1 h
  rw [map_insert_keeps m k v x w hw]
  rfl

theorem ensure_undirected_add_vec (st : AdjListWithSub) (key : SubStrandsPairKey) :
    (ensure_undirected_add st key).sheets_key_vec.getLast?.getD [] =
      st.sheets_key_vec.getLast?.getD [] ++ [key.reverse] := by
  simp [ensure_undirected_add]

theorem ensure_undirected_add_keeps (st : AdjListWithSub) (key x : SubStrandsPairKey)
    (w : SubStrandsPairNode) (h : map_at st.data x = some w) :
    map_at (ensure_undirected_add st key).data x = some w := by
  simp only [ensure_undirected_add]
  exact map_insert_keeps _ _ _ _ _ (map_insert_keeps _ _ _ _ _ h)

theorem ensure_undirected_fold_keeps : ∀ (to_add : List SubStrandsPairKey) (st : AdjListWithSub)
    (x : SubStrandsPairKey) (w : SubStrandsPairNode), map_at st.data x = some w →
    map_at (to_add.foldl ensure_undirected_add st).data x = some w := by
  intro to_add
  induction to_add with
  | nil => intro st x w h; exact h
  | cons k rest ih =>
    intro st x w h
    rw [List.foldl_cons]
    exact ih _ x w (ensure_undirected_add_keeps st k x w h)

theorem ensure_undirected_fold_reverse : ∀ (to_add : List SubStrandsPairKey)
    (st : AdjListWithSub),
    (∀ key ∈ st.sheets_key_vec.getLast?.getD [],
      (map_at st.data key.reverse).isSome = true ∨ key ∈ to_add) →
    ∀ key ∈ (to_add.foldl ensure_undirected_add st).sheets_key_vec.getLast?.getD [],
      (map_at (to_add.foldl ensure_undirected_add st).data key.reverse).isSome = true := by
  intro to_add
  induction to_add with
  | nil =>
    intro st h key hk
    rcases h key hk with h1 | h1
    · exact h1
    · cases h1
  | cons k rest ih =>
    intro st h
    rw [List.foldl_cons]
    apply ih
    intro key hk
    rw [ensure_undirected_add_vec] at hk
    have hkk : (map_at (ensure_undirected_add st k).data k).isSome = true := by
      simp only [ensure_undirected_add]
      exact map_insert_isSome _ _ _ _ (map_insert_self _ _ _)
    have hkr : (map_at (ensure_undirected_add st k).data k.reverse).isSome = true := by
      simp only [ensure_undirected_add]
      exact map_insert_self _ _ _
    rcases List.mem_append.1 hk with h1 | h1
    · rcases h key h1 with h2 | h2
      · left
        obtain ⟨w, hw⟩ := Option.isSome_iff_exists.1 h2
        rw [ensure_undirected_add_keeps st k _ w hw]
        rfl
      · rcases List.mem_cons.1 h2 with h3 | h3
        · left
          rw [h3]
          exact hkr
        · right
          exact h3
    · left
      rw [List.mem_singleton] at h1
      rw [h1, reverse_reverse]
      exact hkk

theorem ensure_undirected_reverse (st st1 : AdjListWithSub) (h : ensure_undirected st = .ok st1) :
    ∀ key ∈ st1.sheets_key_vec.getLast?.getD [], (map_at st1.data key.reverse).isSome = true := by
  unfold ensure_undirected at h
  cases hv : st.sheets_key_vec.getLast? with
  | none => rw [hv] at h; cases h
  | some key_vec =>
    rw [hv] at h
    simp only [Except.ok.injEq] at h
    subst h
    apply ensure_undirected_fold_reverse
    intro key hk
    rw [hv] at hk
    simp only [Option.getD_some] at hk
    by_cases hr : (map_at st.data key.reverse).isSome = true
    · left; exact hr
    · right
      rw [List.mem_filter]
      refine ⟨hk, ?_⟩
      cases hm : map_at st.data key.reverse with
      | none => rfl
      | some w => rw [hm] at hr; exact absurd rfl hr

theorem ensure_undirected_copy (st st1 : AdjListWithSub) (key : SubStrandsPairKey)
    (node : SubStrandsPairNode) (h : ensure_undirected st = .ok st1)
    (hk : key ∈ st.sheets_key_vec.getLast?.getD []) (hn : map_at st.data key = some node)
    (hr : map_at st.data key.reverse = none) :
    map_at st1.data key = some node ∧ map_at st1.data key.reverse = some node := by
  unfold ensure_undirected at h
  cases hv : st.sheets_key_vec.getLast? with
  | none => rw [hv] at h; cases h
  | some key_vec =>
    rw [hv] at h hk
    simp only [Except.ok.injEq] at h
    simp only [Option.getD_some] at hk
    subst h
    refine ⟨ensure_undirected_fold_keeps _ _ _ _ hn, ?_⟩
    have hmem : key ∈ key_vec.filter (fun key => (map_at st.data key.reverse).isNone) := by
      rw [List.mem_filter]
      exact ⟨hk, by rw [hr]; rfl⟩
    have hall : ∀ k ∈ key_vec.filter (fun key => (map_at st.data key.reverse).isNone),
        k ≠ key.reverse := by
      intro k hk2 he
      rw [List.mem_filter] at hk2
      rw [he, reverse_reverse, hn] at hk2
      exact absurd hk2.2 (by simp)
    generalize key_vec.filter (fun key => (map_at st.data key.reverse).isNone) = to_add at hmem hall
    clear hv hk
    induction to_add generalizing st with
    | nil => cases hmem
    | cons k rest ih =>
      rw [List.foldl_cons]
      by_cases hkk : k = key
      · subst hkk
        apply ensure_undirected_fold_keeps
        simp only [ensure_undirected_add]
        rw [map_at_insert, map_insert_keeps _ _ _ _ _ hn]
        have h0 : map_at (map_insert st.data k {}) k.reverse = none := by
          rw [map_at_insert, hr]
          have : k ≠ k.reverse := by
            intro he
            rw [← he, hn] at hr
            cases hr
          simp [this]
        rw [h0]
        simp
      · have hmem2 : key ∈ rest := by
          rcases List.mem_cons.1 hmem with h1 | h1
          · exact absurd h1.symm hkk
          · exact h1
        have hne : k ≠ key.reverse := hall k (List.mem_cons_self _ _)
        refine ih (ensure_undirected_add st k) (ensure_undirected_add_keeps st k key node hn) ?_
          hmem2 (fun k2 hk2 => hall k2 (List.mem_cons_of_mem _ hk2))
        simp only [ensure_undirected_add]
        rw [map_at_insert, map_at_insert, hr]
        have h1 : ¬ k.reverse = key.reverse := by
          intro he
          apply hkk
          have := congrArg SubStrandsPairKey.reverse he
          rw [reverse_reverse, reverse_reverse] at this
          exact this
        simp [hne, h1]

theorem bfs_finish_fallback (s : BfsState) (r : StrictZone × AdjListWithSub × List ZoneResidue)
    (h : bfs_finish s = .ok r) (hfb : r.2.1.sheets_directed.getLast? = some false) :
    ∃ st st1, ensure_undirected st = .ok st1 ∧ r.2.1.data = st1.data ∧
      r.2.1.sheets_key_vec = st1.sheets_key_vec := by
  unfold bfs_finish at h
  cases hc : cleanup_sheet s.zone.sub_strands.data with
  | none => rw [hc] at h; cases h
  | some p =>
    obtain ⟨data, too_short_subs⟩ := p
    rw [hc] at h
    simp only at h
    obtain ⟨st, _, h2⟩ := except_bind_ok _ _ _ h
    obtain ⟨st1, h3, h4⟩ := except_bind_ok _ _ _ h2
    simp only [Except.ok.injEq] at h4
    subst h4
    have hfb2 : s.fallback = true := by
      cases hf : s.fallback with
      | true => rfl
      | false => rw [hf] at hfb; simp at hfb
    rw [if_pos hfb2] at h3
    exact ⟨st, st1, h3, rfl, rfl⟩

theorem bfs_finish_parts (s : BfsState) (r : StrictZone × AdjListWithSub × List ZoneResidue)
    (h : bfs_finish s = .ok r) :
    r.2.2 = s.remainder ∧ r.1.strict = s.zone.strict ∧ r.1.sses = s.zone.sses ∧
      r.1.strand_indices = s.zone.strand_indices := by
  unfold bfs_finish at h
  cases hc : cleanup_sheet s.zone.sub_strands.data with
  | none => rw [hc] at h; cases h
  | some p =>
    obtain ⟨data, too_short_subs⟩ := p
    rw [hc] at h
    simp only at h
    obtain ⟨st, _, h2⟩ := except_bind_ok _ _ _ h
    obtain ⟨st1, _, h4⟩ := except_bind_ok _ _ _ h2
    simp only [Except.ok.injEq] at h4
    subst h4
    exact ⟨rfl, rfl, rfl, rfl⟩

theorem bfs_loop_states_nil (U : AdjList) (fuel : Nat) (s : BfsState) (hq : s.queue = []) :
    bfs_loop_states U (fuel + 1) s = [s] := by
  rw [bfs_loop_states, hq]

theorem bfs_loop_states_ok (U : AdjList) (fuel : Nat) (s s1 : BfsState) (target : ZoneResidue)
    (rest : List ZoneResidue) (hq : s.queue = target :: rest)
    (hb : bfs_body U target s = .ok s1) :
    bfs_loop_states U (fuel + 1) s = s :: bfs_loop_states U fuel s1 := by
  rw [bfs_loop_states, hq]
  simp only
  rw [hb]

theorem bfs_loop_states_error (U : AdjList) (fuel : Nat) (s : BfsState) (target : ZoneResidue)
    (rest : List ZoneResidue) (e : Failure) (hq : s.queue = target :: rest)
    (hb : bfs_body U target s = .error e) :
    bfs_loop_states U (fuel + 1) s = [s] := by
  rw [bfs_loop_states, hq]
  simp only
  rw [hb]

theorem bfs_loop_states_inv (U : AdjList) (d0 : RangeData) (rem0 : List ZoneResidue) :
    ∀ (fuel : Nat) (s : BfsState) (calls : List ZoneResidue), VisitInv d0 rem0 s calls →
      ∀ s1 ∈ bfs_loop_states U fuel s, ∃ calls1, VisitInv d0 rem0 s1 calls1 := by
  intro fuel
  induction fuel with
  | zero => intro s calls _ s1 h1; simp [bfs_loop_states] at h1
  | succ fuel ih =>
    intro s calls hinv s1 h1
    cases hq : s.queue with
    | nil =>
      rw [bfs_loop_states_nil U fuel s hq, List.mem_singleton] at h1
      rw [h1]; exact ⟨calls, hinv⟩
    | cons target rest =>
      cases hb : bfs_body U target s with
      | error e =>
        rw [bfs_loop_states_error U fuel s target rest e hq hb, List.mem_singleton] at h1
        rw [h1]; exact ⟨calls, hinv⟩
      | ok s' =>
        rw [bfs_loop_states_ok U fuel s s' target rest hq hb] at h1
        rcases List.mem_cons.1 h1 with h2 | h2
        · rw [h2]; exact ⟨calls, hinv⟩
        · obtain ⟨⟨calls1, hinv1⟩, _⟩ := visit_body U d0 rem0 s s' calls target rest hq hinv hb
          exact ih s' calls1 hinv1 s1 h2

theorem bfs_loop_dequeued (U : AdjList) (d0 : RangeData) (rem0 : List ZoneResidue) :
    ∀ (fuel : Nat) (s s1 : BfsState) (calls : List ZoneResidue), VisitInv d0 rem0 s calls →
      bfs_loop U fuel s = .ok s1 →
      (dequeued (bfs_loop_states U fuel s)).Pairwise (fun a b => a.same b = false) ∧
        (∀ t ∈ dequeued (bfs_loop_states U fuel s), res_count s.remainder t = true) ∧
        ∀ x, res_count s1.remainder x = true ↔
          (res_count s.remainder x = true ∧
            res_count (dequeued (bfs_loop_states U fuel s)) x = false) := by
  intro fuel
  induction fuel with
  | zero => intro s s1 calls _ h; simp [bfs_loop] at h
  | succ fuel ih =>
    intro s s1 calls hinv h
    rw [bfs_loop] at h
    cases hq : s.queue with
    | nil =>
      rw [hq] at h
      simp only [Except.ok.injEq] at h
      subst h
      rw [bfs_loop_states_nil U fuel s hq]
      simp [dequeued, hq, res_count]
    | cons target rest =>
      rw [hq] at h
      simp only at h
      obtain ⟨s', hb, hl⟩ := except_bind_ok _ _ _ h
      rw [bfs_loop_states_ok U fuel s s' target rest hq hb]
      obtain ⟨⟨calls1, hinv1⟩, _⟩ := visit_body U d0 rem0 s s' calls target rest hq hinv hb
      obtain ⟨_, _, _, _, _, _, _, hrem, _, _⟩ := bfs_body_pushed U target s s' hb
      obtain ⟨p1, p2, p3⟩ := ih s' s1 calls1 hinv1 hl
      have hd : dequeued (s :: bfs_loop_states U fuel s') =
          target :: dequeued (bfs_loop_states U fuel s') := by
        simp [dequeued, hq]
      rw [hd]
      have htrem : res_count s.remainder target = true :=
        hinv.queue_rem target (by rw [hq]; exact List.mem_cons_self _ _)
      refine ⟨List.pairwise_cons.2 ⟨?_, p1⟩, ?_, ?_⟩
      · intro t ht
        have := p2 t ht
        rw [hrem, res_count_erase] at this
        rw [same_symm]
        exact this.2
      · intro t ht
        rcases List.mem_cons.1 ht with h1 | h1
        · rw [h1]; exact htrem
        · have := p2 t h1
          rw [hrem, res_count_erase] at this
          exact this.1
      · intro x
        rw [p3 x, hrem, res_count_erase]
        have hc : res_count (target :: dequeued (bfs_loop_states U fuel s')) x =
            (target.same x || res_count (dequeued (bfs_loop_states U fuel s')) x) := by
          simp [res_count]
        rw [hc, Bool.or_eq_false_iff, same_symm target x]
        tauto

theorem bfs_dequeued (z : StrictZone) (adj_list : AdjListWithSub) (remainder : List ZoneResidue)
    (U : AdjList) (r : StrictZone × AdjListWithSub × List ZoneResidue)
    (h : bfs z adj_list remainder U = .ok r) :
    (dequeued (bfs_states z adj_list remainder U)).Pairwise (fun a b => a.same b = false) ∧
      (∀ t ∈ dequeued (bfs_states z adj_list remainder U), res_count remainder t = true) ∧
      (∀ x, res_count r.2.2 x = true ↔
        (res_count remainder x = true ∧
          res_count (dequeued (bfs_states z adj_list remainder U)) x = false)) ∧
      (dequeued (bfs_states z adj_list remainder U)).head? = remainder.head? ∧
      remainder ≠ [] := by
  unfold bfs bfs_search at h
  obtain ⟨s, hs, hf⟩ := except_bind_ok _ _ _ h
  obtain ⟨s0, hs0, hl⟩ := except_bind_ok _ _ _ hs
  obtain ⟨hinv0, hrem0, hne⟩ := visit_start z adj_list remainder s0 hs0
  obtain ⟨p1, p2, p3⟩ := bfs_loop_dequeued U _ _ _ s0 s [] hinv0 hl
  obtain ⟨hr, _⟩ := bfs_finish_parts s r hf
  have hst : bfs_states z adj_list remainder U =
      bfs_loop_states U (remainder.length + 1) s0 := by
    unfold bfs_states
    rw [hs0]
  rw [hst, hr]
  rw [hrem0] at p2 p3
  refine ⟨p1, p2, p3, ?_, hne⟩
  have hq0 : s0.queue = remainder.head?.toList := by
    unfold bfs_start at hs0
    cases remainder with
    | nil => cases hs0
    | cons front rest =>
      simp only at hs0
      obtain ⟨z1, _, h1⟩ := except_bind_ok _ _ _ hs0
      by_cases hc : front.serial_str_id < z.strand_indices.length
      · rw [if_pos hc] at h1
        simp only [Except.ok.injEq] at h1
        subst h1
        rfl
      · rw [if_neg hc] at h1
        cases h1
  cases remainder with
  | nil => exact absurd rfl hne
  | cons front rest =>
    simp only [List.head?_cons, Option.toList_some] at hq0
    cases hb : bfs_body U front s0 with
    | error e =>
      rw [bfs_loop_states_error U _ s0 front [] e hq0 hb]
      simp [dequeued, hq0]
    | ok s' =>
      rw [bfs_loop_states_ok U _ s0 s' front [] hq0 hb]
      simp [dequeued, hq0]

theorem dequeued_append (a b : List BfsState) : dequeued (a ++ b) = dequeued a ++ dequeued b := by
  simp [dequeued]

theorem decide_side_loop_dequeued (U : AdjList) : ∀ (fuel : Nat) (z : StrictZone)
    (al : AdjListWithSub) (rem : List ZoneResidue) (r : StrictZone × AdjListWithSub),
    decide_side_loop U fuel z al rem = .ok r →
    (dequeued (decide_side_states U fuel z al rem)).Pairwise (fun a b => a.same b = false) ∧
      (∀ t ∈ dequeued (decide_side_states U fuel z al rem), res_count rem t = true) ∧
      ∀ x, res_count rem x = true →
        res_count (dequeued (decide_side_states U fuel z al rem)) x = true := by
  intro fuel
  induction fuel with
  | zero => intro z al rem r h; simp [decide_side_loop] at h
  | succ fuel ih =>
    intro z al rem r h
    rw [decide_side_loop] at h
    rw [decide_side_states]
    by_cases h0 : rem.length = 0
    · rw [if_pos h0]
      have : rem = [] := List.length_eq_zero.1 h0
      subst this
      simp [dequeued, res_count]
    · rw [if_neg h0] at h ⊢
      obtain ⟨r1, hb, hl⟩ := except_bind_ok _ _ _ h
      rw [hb]
      simp only
      obtain ⟨p1, p2, p3, _, _⟩ := bfs_dequeued z al rem U r1 hb
      obtain ⟨q1, q2, q3⟩ := ih _ _ _ r hl
      rw [dequeued_append]
      refine ⟨List.pairwise_append.2 ⟨p1, q1, ?_⟩, ?_, ?_⟩
      · intro a ha b hb2
        have h1 := ((p3 b).1 (q2 b hb2)).2
        cases hs : a.same b with
        | false => rfl
        | true =>
          have : res_count (dequeued (bfs_states z al rem U)) b = true :=
            (res_count_iff _ _).2 ⟨a, ha, hs⟩
          rw [this] at h1
          cases h1
      · intro t ht
        rcases List.mem_append.1 ht with h1 | h1
        · exact p2 t h1
        · exact ((p3 t).1 (q2 t h1)).1
      · intro x hx
        rw [res_count_append]
        cases hc : res_count (dequeued (bfs_states z al rem U)) x with
        | true => rfl
        | false =>
          rw [Bool.false_or]
          exact q3 x ((p3 x).2 ⟨hx, hc⟩)

/-- C40. For every zone, registry of edges, remainder and undirected adjacency
list: `bfs` and the loop of `decide_side` over the components end within the
fuel of the model, one round of the loop of `bfs` for every residue of the
remainder and one call of `bfs` for every residue of the remainder. In every
state of `bfs` at the test of its loop the residues of the queue are residues
of the remainder, no residue is twice in the queue, the set of the contents of
the queue holds the residues of the queue, and the remainder holds only
residues of the remainder at the call. When `bfs` returns, the first residue
it took from the queue is the first of the remainder, no residue was taken
twice, every residue taken was in the remainder, the remainder it leaves holds
the residues of the remainder at the call that were not taken, and it is
shorter. When the loop of `decide_side` returns, over all its calls of `bfs`
no residue was taken from the queue twice, every residue taken was in the
remainder at the start and every residue of that remainder was taken. -/
theorem bfs_processes_once (U : AdjList) (z : StrictZone) (adj_list : AdjListWithSub)
    (remainder : List ZoneResidue) :
    bfs z adj_list remainder U ≠ .error .out_of_fuel ∧
    decide_side_loop U (remainder.length + 1) z adj_list remainder ≠ .error .out_of_fuel ∧
    (∀ s ∈ bfs_states z adj_list remainder U,
      (∀ q ∈ s.queue, res_count s.remainder q = true) ∧
        s.queue.Pairwise (fun a b => a.same b = false) ∧
        (∀ x, res_count s.queue_contents x = res_count s.queue x) ∧
        ∀ x, res_count s.remainder x = true → res_count remainder x = true) ∧
    (∀ r, bfs z adj_list remainder U = .ok r →
      (dequeued (bfs_states z adj_list remainder U)).head? = remainder.head? ∧
        remainder ≠ [] ∧
        (dequeued (bfs_states z adj_list remainder U)).Pairwise (fun a b => a.same b = false) ∧
        (∀ t ∈ dequeued (bfs_states z adj_list remainder U), res_count remainder t = true) ∧
        (∀ x, res_count r.2.2 x = true ↔
          (res_count remainder x = true ∧
            res_count (dequeued (bfs_states z adj_list remainder U)) x = false)) ∧
        r.2.2.length < remainder.length) ∧
    (∀ r, decide_side_loop U (remainder.length + 1) z adj_list remainder = .ok r →
      (dequeued (decide_side_states U (remainder.length + 1) z adj_list remainder)).Pairwise
          (fun a b => a.same b = false) ∧
        (∀ t ∈ dequeued (decide_side_states U (remainder.length + 1) z adj_list remainder),
          res_count remainder t = true) ∧
        ∀ x, res_count remainder x = true →
          res_count (dequeued (decide_side_states U (remainder.length + 1) z adj_list remainder))
            x = true) := by
  refine ⟨bfs_fuel_ok z adj_list remainder U,
    decide_side_loop_fuel U _ z adj_list remainder (by omega), ?_, ?_,
    fun r h => decide_side_loop_dequeued U _ z adj_list remainder r h⟩
  · intro s hs
    unfold bfs_states at hs
    cases h0 : bfs_start z adj_list remainder with
    | error e => rw [h0] at hs; simp at hs
    | ok s0 =>
      rw [h0] at hs
      simp only at hs
      obtain ⟨hinv0, _, _⟩ := visit_start z adj_list remainder s0 h0
      obtain ⟨calls, hinv⟩ := bfs_loop_states_inv U _ _ _ s0 [] hinv0 s hs
      exact ⟨hinv.queue_rem, hinv.queue_ok.2, hinv.queue_ok.1, hinv.rem_sub⟩
  · intro r h
    obtain ⟨p1, p2, p3, p4, p5⟩ := bfs_dequeued z adj_list remainder U r h
    obtain ⟨_, _, _, _, _, _, hl⟩ := bfs_component z adj_list remainder U r h
    exact ⟨p4, p5, p1, p2, p3, hl⟩

set_option maxRecDepth 100000 in
/-- C40, witness: for the zone `nested_strict` with its eight coloured residues
the loop of `decide_side` ends, and eight residues are taken from the queue
over its calls of `bfs`. -/
theorem bfs_processes_once_witness :
    decide_side_loop nested_adj_list (nested_colored.length + 1) nested_strict {}
        nested_colored ≠ .error .out_of_fuel ∧
      nested_colored.length = 8 ∧
      (dequeued (decide_side_states nested_adj_list (nested_colored.length + 1) nested_strict {}
        nested_colored)).length = 8 :=
  ⟨(bfs_processes_once nested_adj_list nested_strict {} nested_colored).2.1, by decide,
    by decide⟩

theorem strict_c_info_cell (strict : List (List ZoneInfo)) (r : ZoneResidue) (info : ZoneInfo) :
    strict_c_info strict r = .ok info ↔ cell strict r.serial_str_id r.serial_res_id = some info := by
  unfold strict_c_info cell
  cases h : (strict.get? r.serial_str_id).bind (fun row => row.get? r.serial_res_id) with
  | none => simp
  | some x => simp

theorem cell_strict_set (strict : List (List ZoneInfo)) (r : ZoneResidue) (info1 : ZoneInfo)
    (i j : Nat) :
    cell (strict_set strict r info1) i j =
      if i = r.serial_str_id ∧ j = r.serial_res_id ∧ (cell strict i j).isSome = true then some info1
      else cell strict i j := by
  unfold cell strict_set
  simp only [List.get?_eq_getElem?, List.getElem?_set]
  by_cases hi : r.serial_str_id = i
  · subst hi
    by_cases hl : r.serial_str_id < strict.length
    · have hg : strict[r.serial_str_id]? = some strict[r.serial_str_id] :=
        List.getElem?_eq_getElem hl
      have hd : strict.getD r.serial_str_id [] = strict[r.serial_str_id] := by
        rw [List.getD_eq_getElem?_getD, hg]; rfl
      simp only [if_true, hl, hg, Option.some_bind, hd, List.getElem?_set, true_and]
      by_cases hj : r.serial_res_id = j
      · subst hj
        by_cases hl2 : r.serial_res_id < strict[r.serial_str_id].length
        · simp [hl2]
        · have : strict[r.serial_str_id][r.serial_res_id]? = none :=
            List.getElem?_eq_none (by omega)
          simp [hl2, this]
      · have hj2 : ¬ j = r.serial_res_id := fun h => hj h.symm
        simp [hj, hj2]
    · have hg : strict[r.serial_str_id]? = none := List.getElem?_eq_none (by omega)
      simp [hl, hg]
  · have hi2 : ¬ i = r.serial_str_id := fun h => hi h.symm
    simp [hi, hi2]

theorem set_side_cell (z z1 : StrictZone) (res : ZoneResidue) (side : SideStatus)
    (h : z.set_side res side = .ok z1) :
    ∃ info, cell z.strict res.serial_str_id res.serial_res_id = some info ∧
      z1.strict = strict_set z.strict res { info with side := side } ∧ z1.sses = z.sses ∧
      z1.strand_indices = z.strand_indices ∧ z1.sub_strands = z.sub_strands := by
  unfold StrictZone.set_side at h
  obtain ⟨info, hi, h2⟩ := except_bind_ok _ _ _ h
  simp only [Except.ok.injEq] at h2
  subst h2
  exact ⟨info, (strict_c_info_cell _ _ _).1 hi, rfl, rfl, rfl, rfl⟩

theorem side_step_refl (strict : List (List ZoneInfo)) : SideStep strict strict :=
  fun _ _ => ⟨fun h => h, fun info h => ⟨info, h, rfl, rfl, rfl, rfl, fun h => h⟩⟩

theorem side_step_trans (a b c : List (List ZoneInfo)) (h1 : SideStep a b) (h2 : SideStep b c) :
    SideStep a c := by
  intro i j
  refine ⟨fun h => (h2 i j).1 ((h1 i j).1 h), fun info h => ?_⟩
  obtain ⟨info1, e1, c1, a1, s1, b1, d1⟩ := (h1 i j).2 info h
  obtain ⟨info2, e2, c2, a2, s2, b2, d2⟩ := (h2 i j).2 info1 e1
  exact ⟨info2, e2, c2.trans c1, a2.trans a1, s2.trans s1, b2.trans b1, fun h => d2 (d1 h)⟩

theorem side_step_eq (a b : List (List ZoneInfo)) (h : b = a) : SideStep a b := by
  rw [h]; exact side_step_refl a

theorem set_side_step (z z1 : StrictZone) (res : ZoneResidue) (side : SideStatus)
    (hs : side ≠ SideStatus.Undefined) (h : z.set_side res side = .ok z1) :
    SideStep z.strict z1.strict ∧ side_defined z1.strict res = true := by
  obtain ⟨info, hc, hz, _⟩ := set_side_cell z z1 res side h
  rw [hz]
  constructor
  · intro i j
    rw [cell_strict_set]
    constructor
    · intro hn
      rw [if_neg (by rw [hn]; simp)]
      exact hn
    · intro info0 h0
      by_cases hij : i = res.serial_str_id ∧ j = res.serial_res_id
      · obtain ⟨hi, hj⟩ := hij
        subst hi; subst hj
        rw [hc] at h0
        simp only [Option.some.injEq] at h0
        subst h0
        rw [if_pos ⟨rfl, rfl, by rw [hc]; rfl⟩]
        exact ⟨_, rfl, rfl, rfl, rfl, rfl, fun _ => hs⟩
      · rw [if_neg (fun hh => hij ⟨hh.1, hh.2.1⟩)]
        exact ⟨info0, h0, rfl, rfl, rfl, rfl, fun h => h⟩
  · unfold side_defined
    rw [cell_strict_set, if_pos ⟨rfl, rfl, by rw [hc]; rfl⟩]
    simp only [decide_eq_true_eq]
    exact hs

theorem side_defined_step (a b : List (List ZoneInfo)) (h : SideStep a b) (r : ZoneResidue)
    (hd : side_defined a r = true) : side_defined b r = true := by
  unfold side_defined at hd ⊢
  cases hc : cell a r.serial_str_id r.serial_res_id with
  | none => rw [hc] at hd; cases hd
  | some info =>
    rw [hc] at hd
    simp only [decide_eq_true_eq] at hd
    obtain ⟨info1, e1, _, _, _, _, d1⟩ := (h _ _).2 info hc
    rw [e1]
    simp only [decide_eq_true_eq]
    exact d1 hd

theorem side_defined_info (strict : List (List ZoneInfo)) (r : ZoneResidue) (info : ZoneInfo)
    (hd : side_defined strict r = true) (hi : strict_c_info strict r = .ok info) :
    info.side ≠ SideStatus.Undefined := by
  unfold side_defined at hd
  rw [(strict_c_info_cell _ _ _).1 hi] at hd
  simpa using hd

theorem push_into_queue_mem (queue contents : List ZoneResidue) (x q : ZoneResidue)
    (h : q ∈ (push_into_queue queue contents x).1) : q ∈ queue ∨ q = x := by
  unfold push_into_queue at h
  split_ifs at h
  · rcases List.mem_append.1 h with h1 | h1
    · left; exact h1
    · right; simpa using h1
  · left; exact h

/-- One round of the loop over the partners keeps the sides of the queue
defined when the side of the target is defined. -/
theorem bfs_adj_sides (U : AdjList) (target : ZoneResidue) (i : Bool) (s s1 : BfsState)
    (ht : side_defined s.zone.strict target = true)
    (hq : ∀ q ∈ s.queue, side_defined s.zone.strict q = true)
    (h : bfs_adj U target i s = .ok s1) :
    SideStep s.zone.strict s1.zone.strict ∧ s1.zone.sses = s.zone.sses ∧
      s1.remainder = s.remainder ∧
      (∀ q ∈ s1.queue, side_defined s1.zone.strict q = true) ∧
      ∀ q ∈ s1.queue, q ∈ s.queue ∨
        ∃ info slot, cell s.zone.strict target.serial_str_id target.serial_res_id = some info ∧
          q = at2 info.adj_residues slot ∧ q.has_value = true := by
  rcases bfs_adj_ok U target i s s1 h with rfl | ⟨info_t, z1, z2, z3, sd, fr, al, hinfo, hv, _,
    hz1, hz2, _, _, _, hz3, hs⟩
  · exact ⟨side_step_refl _, rfl, rfl, hq, fun q hq2 => Or.inl hq2⟩
  · have hside := side_defined_info _ _ _ ht hinfo
    obtain ⟨st1, sd1⟩ := set_side_step _ _ _ _ hside hz1
    obtain ⟨_, _, _, a3, _⟩ := set_side_cell _ _ _ _ hz1
    obtain ⟨_, b1, b2, _⟩ := extend_ok _ _ _ hz2
    obtain ⟨_, c1, c2, _⟩ := add_adj_substrands_ok _ _ _ _ _ _ hz3
    have hstrict : z3.strict = z1.strict := c1.trans b1
    subst hs
    simp only
    rw [hstrict]
    refine ⟨st1, by rw [c2, b2, a3], trivial, ?_, ?_⟩
    · intro q hq2
      rcases push_into_queue_mem _ _ _ _ hq2 with h1 | h1
      · exact side_defined_step _ _ st1 q (hq q h1)
      · rw [h1]; exact sd1
    · intro q hq2
      rcases push_into_queue_mem _ _ _ _ hq2 with h1 | h1
      · left; exact h1
      · right
        exact ⟨info_t, i, (strict_c_info_cell _ _ _).1 hinfo, h1, by rw [h1]; exact hv⟩

/-- One round of the loop over the residues before and after the target keeps
the sides of the queue defined. -/
theorem bfs_ba_sides (target ba : ZoneResidue) (s s1 : BfsState)
    (hq : ∀ q ∈ s.queue, side_defined s.zone.strict q = true)
    (h : bfs_ba target ba s = .ok s1) :
    SideStep s.zone.strict s1.zone.strict ∧ s1.zone.sses = s.zone.sses ∧
      s1.remainder = s.remainder ∧
      (∀ q ∈ s1.queue, side_defined s1.zone.strict q = true) ∧
      ∀ q ∈ s1.queue, q ∈ s.queue ∨ (q = ba ∧ ba.has_value = true) := by
  unfold bfs_ba at h
  by_cases hc : ba.has_value = false
  · rw [if_pos hc] at h
    simp only [Except.ok.injEq] at h
    subst h
    exact ⟨side_step_refl _, rfl, rfl, hq, fun q hq2 => Or.inl hq2⟩
  · rw [if_neg hc] at h
    have hv : ba.has_value = true := by simpa using hc
    obtain ⟨info_ba, _, h1⟩ := except_bind_ok _ _ _ h
    by_cases hc2 : info_ba.colored = false
    · rw [if_pos hc2] at h1
      simp only [Except.ok.injEq] at h1
      subst h1
      exact ⟨side_step_refl _, rfl, rfl, hq, fun q hq2 => Or.inl hq2⟩
    · rw [if_neg hc2] at h1
      obtain ⟨info_t, _, h2⟩ := except_bind_ok _ _ _ h1
      have hmain : ∀ side : SideStatus, side ≠ SideStatus.Undefined →
          ((s.zone.set_side ba side).bind
            (fun z1 => (.ok { s with
                      zone := z1,
                      queue := (push_into_queue s.queue s.queue_contents ba).1,
                      queue_contents := (push_into_queue s.queue s.queue_contents ba).2 } :
                Except Failure BfsState))) = .ok s1 →
          SideStep s.zone.strict s1.zone.strict ∧ s1.zone.sses = s.zone.sses ∧
            s1.remainder = s.remainder ∧
            (∀ q ∈ s1.queue, side_defined s1.zone.strict q = true) ∧
            ∀ q ∈ s1.queue, q ∈ s.queue ∨ (q = ba ∧ ba.has_value = true) := by
        intro side hside h3
        obtain ⟨z1, hz1, h4⟩ := except_bind_ok _ _ _ h3
        simp only [Except.ok.injEq] at h4
        subst h4
        obtain ⟨st1, sd1⟩ := set_side_step _ _ _ _ hside hz1
        obtain ⟨_, _, _, a3, _⟩ := set_side_cell _ _ _ _ hz1
        refine ⟨st1, a3, rfl, ?_, ?_⟩
        · intro q hq2
          rcases push_into_queue_mem _ _ _ _ hq2 with h5 | h5
          · exact side_defined_step _ _ st1 q (hq q h5)
          · rw [h5]; exact sd1
        · intro q hq2
          rcases push_into_queue_mem _ _ _ _ hq2 with h5 | h5
          · left; exact h5
          · right; exact ⟨h5, hv⟩
      cases hside : info_t.side with
      | Undefined => rw [hside] at h2; cases h2
      | Upper =>
        rw [hside] at h2
        exact hmain _ (by decide) h2
      | Lower =>
        rw [hside] at h2
        exact hmain _ (by decide) h2

/-- The `throw` of `bfs` is not reached for a target with a defined side. -/
theorem bfs_ba_no_throw (target ba : ZoneResidue) (s : BfsState)
    (ht : side_defined s.zone.strict target = true) :
    bfs_ba target ba s ≠ .error .exception := by
  unfold bfs_ba
  by_cases hc : ba.has_value = false
  · rw [if_pos hc]; simp
  · rw [if_neg hc]
    cases h1 : strict_c_info s.zone.strict ba with
    | error e =>
      unfold strict_c_info at h1
      split at h1
      · simp only [Except.error.injEq] at h1
        subst h1
        simp [Except.bind]
      · cases h1
    | ok info_ba =>
      simp only [Except.bind]
      by_cases hc2 : info_ba.colored = false
      · rw [if_pos hc2]; simp
      · rw [if_neg hc2]
        cases h2 : strict_c_info s.zone.strict target with
        | error e =>
          unfold strict_c_info at h2
          split at h2
          · simp only [Except.error.injEq] at h2
            subst h2
            simp
          · cases h2
        | ok info_t =>
          simp only
          have hside := side_defined_info _ _ _ ht h2
          have hset : ∀ side, (s.zone.set_side ba side).bind
              (fun z1 => (.ok { s with
                        zone := z1,
                        queue := (push_into_queue s.queue s.queue_contents ba).1,
                        queue_contents := (push_into_queue s.queue s.queue_contents ba).2 } :
                  Except Failure BfsState)) ≠ .error .exception := by
            intro side
            unfold StrictZone.set_side
            rw [h1]
            simp [Except.bind]
          cases hs : info_t.side with
          | Undefined => exact absurd hs hside
          | Upper => exact hset _
          | Lower => exact hset _

theorem make_fields (sses : List SSE) (i : Nat) (n : Int) (r : ZoneResidue)
    (h : ZoneResidue.make sses i n = some r) :
    r.sse_id = i ∧ r.resnum = n ∧ r.serial_str_id = serial_strand_id sses i ∧
      r.serial_res_id = (n - (sses.getD i {}).init).toNat ∧ r.has_value = true := by
  unfold ZoneResidue.make at h
  cases hs : sse_ind_of sses n with
  | none => rw [hs] at h; cases h
  | some k =>
    rw [hs] at h
    simp only at h
    by_cases hc : i = k
    · rw [if_pos hc] at h
      simp only [Option.some.injEq] at h
      subst h
      exact ⟨rfl, rfl, rfl, rfl, rfl⟩
    · rw [if_neg hc] at h
      cases h

theorem make_canon (sses : List SSE) (i : Nat) (n : Int) (r : ZoneResidue)
    (h : ZoneResidue.make sses i n = some r) : Canon sses r := by
  obtain ⟨h1, h2, _⟩ := make_fields sses i n r h
  unfold Canon
  rw [h1, h2]
  exact h

theorem canon_same (sses : List SSE) (a b : ZoneResidue) (ha : Canon sses a) (hb : Canon sses b)
    (h : a.same b = true) : a = b := by
  unfold Canon at ha hb
  simp only [ZoneResidue.same, Bool.and_eq_true, decide_eq_true_eq] at h
  rw [h.1, h.2, hb] at ha
  simp only [Option.some.injEq] at ha
  exact ha.symm

theorem side_step_back (a b : List (List ZoneInfo)) (h : SideStep a b) (i j : Nat)
    (info1 : ZoneInfo) (hc : cell b i j = some info1) :
    ∃ info, cell a i j = some info ∧ info1.colored = info.colored ∧
      info1.adj_residues = info.adj_residues ∧
      (info.side ≠ SideStatus.Undefined → info1.side ≠ SideStatus.Undefined) := by
  cases ha : cell a i j with
  | none =>
    rw [(h i j).1 ha] at hc
    cases hc
  | some info =>
    obtain ⟨info2, e2, c2, a2, _, _, d2⟩ := (h i j).2 info ha
    rw [hc] at e2
    simp only [Option.some.injEq] at e2
    subst e2
    exact ⟨info, rfl, c2, a2, d2⟩

theorem ba_check_make (z : StrictZone) (target ba : ZoneResidue) (diff : Int)
    (remainder : List ZoneResidue) (h : ba_check z target diff remainder = .ok ba) :
    ba.has_value = false ∨
      ZoneResidue.make z.sses target.sse_id (target.resnum + diff) = some ba := by
  unfold ba_check at h
  cases hr : z.strict.get? target.serial_str_id with
  | none => rw [hr] at h; cases h
  | some row =>
    rw [hr] at h
    simp only at h
    by_cases hc : (target.serial_res_id : Int) + diff < 0 ∨
        (row.length : Int) ≤ (target.serial_res_id : Int) + diff
    · left
      rw [if_pos hc] at h
      simp only [Except.ok.injEq] at h
      rw [← h]
    · rw [if_neg hc] at h
      cases hm : ZoneResidue.make z.sses target.sse_id (target.resnum + diff) with
      | none => rw [hm] at h; cases h
      | some b =>
        rw [hm] at h
        simp only at h
        by_cases hc2 : res_count remainder b = false
        · left
          rw [if_pos hc2] at h
          simp only [Except.ok.injEq] at h
          rw [← h]
        · rw [if_neg hc2] at h
          obtain ⟨info_t, _, h1⟩ := except_bind_ok _ _ _ h
          obtain ⟨info_ba, _, h2⟩ := except_bind_ok _ _ _ h1
          by_cases hc3 : same_bridges info_t info_ba = true
          · left
            rw [if_pos hc3] at h2
            simp only [Except.ok.injEq] at h2
            rw [← h2]
          · right
            rw [if_neg hc3] at h2
            simp only [Except.ok.injEq] at h2
            rw [← h2]

/-- The body of the loop of `bfs` for a queue whose residues have defined
sides: the sides of the table can only become defined, the residues of the new
queue have defined sides, and a residue of the new queue was in the queue, is
a partner stored for the target, or was built by the constructor. -/
theorem bfs_body_sides (U : AdjList) (target : ZoneResidue) (rest : List ZoneResidue)
    (s s' : BfsState) (hq : s.queue = target :: rest)
    (hqs : ∀ q ∈ s.queue, side_defined s.zone.strict q = true)
    (h : bfs_body U target s = .ok s') :
    SideStep s.zone.strict s'.zone.strict ∧ s'.zone.sses = s.zone.sses ∧
      s'.remainder = res_erase s.remainder target ∧
      side_defined s'.zone.strict target = true ∧
      (∀ q ∈ s'.queue, side_defined s'.zone.strict q = true) ∧
      ∀ q ∈ s'.queue, q ∈ s.queue ∨
        (∃ info slot, cell s.zone.strict target.serial_str_id target.serial_res_id = some info ∧
          q = at2 info.adj_residues slot ∧ q.has_value = true) ∨
        ∃ diff, ZoneResidue.make s.zone.sses target.sse_id (target.resnum + diff) = some q := by
  obtain ⟨z1, s1, s2, before, after, s3, s4, hz1, h1, h2, hb, ha, h3, h4, hs⟩ :=
    bfs_body_ok U target s s' h
  obtain ⟨_, e1, e2, _⟩ := extend_ok _ _ _ hz1
  have ht0 : side_defined s.zone.strict target = true :=
    hqs target (by rw [hq]; exact List.mem_cons_self _ _)
  obtain ⟨a1, a2, a3, a4, a5⟩ := bfs_adj_sides U target false _ s1
    (by simp only; rw [e1]; exact ht0) (by simp only; rw [e1]; exact hqs) h1
  simp only at a1 a2 a3 a5
  rw [e1] at a1 a5
  rw [e2] at a2
  have ht1 : side_defined s1.zone.strict target = true := side_defined_step _ _ a1 _ ht0
  obtain ⟨b1, b2, b3, b4, b5⟩ := bfs_adj_sides U target true s1 s2 ht1 a4 h2
  have st2 : SideStep s.zone.strict s2.zone.strict := side_step_trans _ _ _ a1 b1
  obtain ⟨c1, c2, c3, c4, c5⟩ := bfs_ba_sides target before s2 s3 b4 h3
  have st3 : SideStep s.zone.strict s3.zone.strict := side_step_trans _ _ _ st2 c1
  obtain ⟨d1, d2, d3, d4, d5⟩ := bfs_ba_sides target after s3 s4 c4 h4
  have st4 : SideStep s.zone.strict s4.zone.strict := side_step_trans _ _ _ st3 d1
  subst hs
  simp only
  refine ⟨st4, by rw [d2, c2, b2, a2], by rw [d3, c3, b3, a3], side_defined_step _ _ st4 _ ht0,
    fun q hq2 => d4 q (List.mem_of_mem_tail hq2), ?_⟩
  intro q hq2
  have hm4 := List.mem_of_mem_tail hq2
  rcases d5 q hm4 with k4 | ⟨k4, v4⟩
  · rcases c5 q k4 with k3 | ⟨k3, v3⟩
    · rcases b5 q k3 with k2 | ⟨info, slot, hc, hqa, hv⟩
      · rcases a5 q k2 with k1 | ⟨info, slot, hc, hqa, hv⟩
        · left; exact k1
        · right; left; exact ⟨info, slot, hc, hqa, hv⟩
      · right; left
        obtain ⟨info0, hc0, _, hadj, _⟩ := side_step_back _ _ a1 _ _ info hc
        exact ⟨info0, slot, hc0, by rw [hqa, hadj], hv⟩
    · right; right
      rcases ba_check_make _ _ _ _ _ hb with hh | hh
      · rw [hh] at v3; cases v3
      · exact ⟨-1, by rw [k3, ← hh, b2, a2]⟩
  · right; right
    rcases ba_check_make _ _ _ _ _ ha with hh | hh
    · rw [hh] at v4; cases v4
    · exact ⟨1, by rw [k4, ← hh, b2, a2]⟩

theorem sides_left_step (a b : List (List ZoneInfo)) (rem : List ZoneResidue)
    (h : SideStep a b) (hl : SidesLeft a rem) : SidesLeft b rem := by
  intro i j info1 hc hcol
  obtain ⟨info, hc0, c0, _, d0⟩ := side_step_back a b h i j info1 hc
  rcases hl i j info hc0 (by rw [← c0]; exact hcol) with h1 | h1
  · left; exact d0 h1
  · right; exact h1

theorem canon_table_step (sses : List SSE) (a b : List (List ZoneInfo)) (h : SideStep a b)
    (ht : CanonTable sses a) : CanonTable sses b := by
  intro i j info1 hc slot hv
  obtain ⟨info, hc0, _, a0, _⟩ := side_step_back a b h i j info1 hc
  rw [a0] at hv ⊢
  exact ht i j info hc0 slot hv

theorem mem_res_erase (l : List ZoneResidue) (t x : ZoneResidue) (h : x ∈ res_erase l t) :
    x ∈ l := by
  unfold res_erase at h
  exact (List.mem_filter.1 h).1

/-- The body of the loop of `bfs` keeps the invariant of the sides. -/
theorem side_inv_body (sses : List SSE) (U : AdjList) (target : ZoneResidue)
    (rest : List ZoneResidue) (s s' : BfsState) (hq : s.queue = target :: rest)
    (hinv : SideInv sses s) (h : bfs_body U target s = .ok s') : SideInv sses s' := by
  obtain ⟨st, hsses, hrem, htd, hqs, hqm⟩ := bfs_body_sides U target rest s s' hq hinv.queue_side h
  have htc : Canon sses target := hinv.queue_canon target (by rw [hq]; exact List.mem_cons_self _ _)
  refine ⟨hsses.trans hinv.zone_sses, hqs, ?_, ?_, canon_table_step sses _ _ st hinv.table_canon, ?_⟩
  · intro q hq2
    rcases hqm q hq2 with h1 | ⟨info, slot, hc, hqa, hv⟩ | ⟨diff, hm⟩
    · exact hinv.queue_canon q h1
    · rw [hqa] at hv ⊢
      exact hinv.table_canon _ _ info hc slot hv
    · rw [hinv.zone_sses] at hm
      exact make_canon _ _ _ _ hm
  · intro x hx
    rw [hrem] at hx
    exact hinv.rem_canon x (mem_res_erase _ _ _ hx)
  · intro i j info1 hc hcol
    rcases sides_left_step _ _ _ st hinv.sides_left i j info1 hc hcol with h1 | ⟨x, hx, hi, hj⟩
    · left; exact h1
    · by_cases hs : x.same target = true
      · left
        have hxt : x = target := canon_same sses x target (hinv.rem_canon x hx) htc hs
        subst hxt
        unfold side_defined at htd
        rw [hi, hj, hc] at htd
        simpa using htd
      · right
        refine ⟨x, ?_, hi, hj⟩
        rw [hrem]
        unfold res_erase
        rw [List.mem_filter]
        exact ⟨hx, by simpa using hs⟩

theorem side_inv_loop (sses : List SSE) (U : AdjList) : ∀ (fuel : Nat) (s s1 : BfsState),
    SideInv sses s → bfs_loop U fuel s = .ok s1 → SideInv sses s1 := by
  intro fuel
  induction fuel with
  | zero => intro s s1 _ h; simp [bfs_loop] at h
  | succ fuel ih =>
    intro s s1 hinv h
    rw [bfs_loop] at h
    cases hq : s.queue with
    | nil =>
      rw [hq] at h
      simp only [Except.ok.injEq] at h
      subst h
      exact hinv
    | cons target rest =>
      rw [hq] at h
      simp only at h
      obtain ⟨s', hb, hl⟩ := except_bind_ok _ _ _ h
      exact ih s' s1 (side_inv_body sses U target rest s s' hq hinv hb) hl

theorem bfs_start_parts (z : StrictZone) (adj_list : AdjListWithSub)
    (remainder : List ZoneResidue) (s0 : BfsState) (h : bfs_start z adj_list remainder = .ok s0) :
    ∃ front rest z1, remainder = front :: rest ∧ z.set_side front SideStatus.Upper = .ok z1 ∧
      s0.zone = z1 ∧ s0.queue = [front] ∧ s0.remainder = remainder := by
  unfold bfs_start at h
  cases remainder with
  | nil => cases h
  | cons front rest =>
    simp only at h
    obtain ⟨z1, hz1, h1⟩ := except_bind_ok _ _ _ h
    by_cases hc : front.serial_str_id < z.strand_indices.length
    · rw [if_pos hc] at h1
      simp only [Except.ok.injEq] at h1
      subst h1
      exact ⟨front, rest, z1, rfl, hz1, rfl, rfl, rfl⟩
    · rw [if_neg hc] at h1
      cases h1

theorem bfs_start_sides (z : StrictZone) (adj_list : AdjListWithSub)
    (remainder : List ZoneResidue) (s0 : BfsState) (h : bfs_start z adj_list remainder = .ok s0) :
    SideStep z.strict s0.zone.strict ∧ s0.zone.sses = z.sses ∧
      ∀ q ∈ s0.queue, side_defined s0.zone.strict q = true := by
  obtain ⟨front, rest, z1, _, hz1, e1, e2, _⟩ := bfs_start_parts z adj_list remainder s0 h
  obtain ⟨st, sd⟩ := set_side_step _ _ _ _ (by decide) hz1
  obtain ⟨_, _, _, a3, _⟩ := set_side_cell _ _ _ _ hz1
  rw [e1, e2]
  refine ⟨st, a3, ?_⟩
  intro q hq
  rw [List.mem_singleton] at hq
  rw [hq]
  exact sd

theorem side_inv_start (sses : List SSE) (z : StrictZone) (adj_list : AdjListWithSub)
    (remainder : List ZoneResidue) (s0 : BfsState) (hs : z.sses = sses)
    (hrem : ∀ x ∈ remainder, Canon sses x) (ht : CanonTable sses z.strict)
    (hl : SidesLeft z.strict remainder) (h : bfs_start z adj_list remainder = .ok s0) :
    SideInv sses s0 := by
  obtain ⟨st, e1, hq⟩ := bfs_start_sides z adj_list remainder s0 h
  obtain ⟨front, rest, z1, hr, _, _, e2, e3⟩ := bfs_start_parts z adj_list remainder s0 h
  refine ⟨e1.trans hs, hq, ?_, by rw [e3]; exact hrem, canon_table_step sses _ _ st ht,
    by rw [e3]; exact sides_left_step _ _ _ st hl⟩
  intro q hq2
  rw [e2, List.mem_singleton] at hq2
  rw [hq2]
  exact hrem front (by rw [hr]; exact List.mem_cons_self _ _)

/-- A call of `bfs` keeps the state between two components: the residues of
the remainder and the stored partners are built by the constructor, and every
coloured position has a defined side or a residue in the remainder. -/
theorem bfs_sides (sses : List SSE) (z : StrictZone) (adj_list : AdjListWithSub)
    (remainder : List ZoneResidue) (U : AdjList)
    (r : StrictZone × AdjListWithSub × List ZoneResidue) (hs : z.sses = sses)
    (hrem : ∀ x ∈ remainder, Canon sses x) (ht : CanonTable sses z.strict)
    (hl : SidesLeft z.strict remainder) (h : bfs z adj_list remainder U = .ok r) :
    r.1.sses = sses ∧ (∀ x ∈ r.2.2, Canon sses x) ∧ CanonTable sses r.1.strict ∧
      SidesLeft r.1.strict r.2.2 := by
  unfold bfs bfs_search at h
  obtain ⟨s, hs1, hf⟩ := except_bind_ok _ _ _ h
  obtain ⟨s0, hs0, hloop⟩ := except_bind_ok _ _ _ hs1
  have hinv0 := side_inv_start sses z adj_list remainder s0 hs hrem ht hl hs0
  have hinv := side_inv_loop sses U _ s0 s hinv0 hloop
  obtain ⟨f1, f2, f3, _⟩ := bfs_finish_parts s r hf
  rw [f1, f2, f3]
  exact ⟨hinv.zone_sses, hinv.rem_canon, hinv.table_canon, hinv.sides_left⟩

theorem decide_side_loop_sides (sses : List SSE) (U : AdjList) : ∀ (fuel : Nat) (z : StrictZone)
    (al : AdjListWithSub) (rem : List ZoneResidue) (r : StrictZone × AdjListWithSub),
    z.sses = sses → (∀ x ∈ rem, Canon sses x) → CanonTable sses z.strict →
    SidesLeft z.strict rem → decide_side_loop U fuel z al rem = .ok r →
    SidesLeft r.1.strict [] := by
  intro fuel
  induction fuel with
  | zero => intro z al rem r _ _ _ _ h; simp [decide_side_loop] at h
  | succ fuel ih =>
    intro z al rem r hs hrem ht hl h
    rw [decide_side_loop] at h
    by_cases h0 : rem.length = 0
    · rw [if_pos h0] at h
      simp only [Except.ok.injEq] at h
      subst h
      have : rem = [] := List.length_eq_zero.1 h0
      subst this
      exact hl
    · rw [if_neg h0] at h
      obtain ⟨r1, hb, hloop⟩ := except_bind_ok _ _ _ h
      obtain ⟨g1, g2, g3, g4⟩ := bfs_sides sses z al rem U r1 hs hrem ht hl hb
      exact ih _ _ _ r g1 g2 g3 g4 hloop

theorem bfs_loop_states_sides (U : AdjList) : ∀ (fuel : Nat) (s : BfsState),
    (∀ q ∈ s.queue, side_defined s.zone.strict q = true) →
    ∀ s1 ∈ bfs_loop_states U fuel s, ∀ q ∈ s1.queue, side_defined s1.zone.strict q = true := by
  intro fuel
  induction fuel with
  | zero => intro s _ s1 h1; simp [bfs_loop_states] at h1
  | succ fuel ih =>
    intro s hqs s1 h1
    cases hq : s.queue with
    | nil =>
      rw [bfs_loop_states_nil U fuel s hq, List.mem_singleton] at h1
      rw [h1]; exact hqs
    | cons target rest =>
      cases hb : bfs_body U target s with
      | error e =>
        rw [bfs_loop_states_error U fuel s target rest e hq hb, List.mem_singleton] at h1
        rw [h1]; exact hqs
      | ok s' =>
        rw [bfs_loop_states_ok U fuel s s' target rest hq hb] at h1
        rcases List.mem_cons.1 h1 with h2 | h2
        · rw [h2]; exact hqs
        · obtain ⟨_, _, _, _, hqs', _⟩ := bfs_body_sides U target rest s s' hq hqs hb
          exact ih s' hqs' s1 h2

theorem bfs_states_sides (z : StrictZone) (adj_list : AdjListWithSub)
    (remainder : List ZoneResidue) (U : AdjList) :
    ∀ s ∈ bfs_states z adj_list remainder U, ∀ q ∈ s.queue,
      side_defined s.zone.strict q = true := by
  intro s hs
  unfold bfs_states at hs
  cases h0 : bfs_start z adj_list remainder with
  | error e => rw [h0] at hs; simp at hs
  | ok s0 =>
    rw [h0] at hs
    simp only at hs
    obtain ⟨_, _, hq0⟩ := bfs_start_sides z adj_list remainder s0 h0
    exact bfs_loop_states_sides U _ s0 hq0 s hs

theorem decide_side_states_sides (U : AdjList) : ∀ (fuel : Nat) (z : StrictZone)
    (al : AdjListWithSub) (rem : List ZoneResidue),
    ∀ s ∈ decide_side_states U fuel z al rem, ∀ q ∈ s.queue,
      side_defined s.zone.strict q = true := by
  intro fuel
  induction fuel with
  | zero => intro z al rem s hs; simp [decide_side_states] at hs
  | succ fuel ih =>
    intro z al rem s hs
    rw [decide_side_states] at hs
    by_cases h0 : rem.length = 0
    · rw [if_pos h0] at hs
      cases hs
    · rw [if_neg h0] at hs
      rcases List.mem_append.1 hs with h1 | h1
      · exact bfs_states_sides z al rem U s h1
      · cases hb : bfs z al rem U with
        | error e => rw [hb] at h1; simp at h1
        | ok r =>
          rw [hb] at h1
          exact ih _ _ _ s h1

/-- In the body of the loop of `bfs` for a target with a defined side, the two
rounds over the residues before and after the target do not reach the
`throw`. -/
theorem bfs_body_no_throw (U : AdjList) (target : ZoneResidue) (s : BfsState)
    (hqs : ∀ q ∈ s.queue, side_defined s.zone.strict q = true)
    (ht : side_defined s.zone.strict target = true) (z1 : StrictZone) (s1 s2 : BfsState)
    (hz1 : s.zone.extend target = .ok z1)
    (h1 : bfs_adj U target false
      { s with
        zone := z1,
        involved_serial_str_ids :=
          if target.serial_str_id ∈ s.involved_serial_str_ids then s.involved_serial_str_ids
          else s.involved_serial_str_ids ++ [target.serial_str_id] } = .ok s1)
    (h2 : bfs_adj U target true s1 = .ok s2) (before after : ZoneResidue) :
    bfs_ba target before s2 ≠ .error .exception ∧
      ∀ s3, bfs_ba target before s2 = .ok s3 → bfs_ba target after s3 ≠ .error .exception := by
  obtain ⟨_, e1, _⟩ := extend_ok _ _ _ hz1
  obtain ⟨a1, _, _, a4, _⟩ := bfs_adj_sides U target false _ s1
    (by simp only; rw [e1]; exact ht) (by simp only; rw [e1]; exact hqs) h1
  simp only at a1
  rw [e1] at a1
  have ht1 : side_defined s1.zone.strict target = true := side_defined_step _ _ a1 _ ht
  obtain ⟨b1, _, _, b4, _⟩ := bfs_adj_sides U target true s1 s2 ht1 a4 h2
  have ht2 : side_defined s2.zone.strict target = true := side_defined_step _ _ b1 _ ht1
  refine ⟨bfs_ba_no_throw target before s2 ht2, fun s3 h3 => ?_⟩
  obtain ⟨c1, _⟩ := bfs_ba_sides target before s2 s3 b4 h3
  exact bfs_ba_no_throw target after s3 (side_defined_step _ _ c1 _ ht2)

theorem cell_init_strict (sses : List SSE) (idx : List Nat) (i j : Nat) (info : ZoneInfo)
    (h : cell (init_strict sses idx) i j = some info) : info = {} := by
  unfold cell init_strict at h
  simp only [List.get?_eq_getElem?, List.getElem?_map] at h
  cases hi : idx[i]? with
  | none => rw [hi] at h; simp at h
  | some sse_id =>
    rw [hi] at h
    simp only [Option.map_some', Option.some_bind] at h
    rw [List.getElem?_replicate] at h
    split_ifs at h
    simp only [Option.some.injEq] at h
    exact h.symm

theorem at2_set2 {α : Type} (a : α × α) (i slot : Bool) (x : α) :
    at2 (set2 a i x) slot = if slot = i then x else at2 a slot := by
  cases i <;> cases slot <;> simp [at2, set2]

theorem add_pair_canon (sses : List SSE) (info : ZoneInfo) (residue : ZoneResidue) (hb : Bool)
    (bt : BridgeType) (hr : Canon sses residue)
    (hi : ∀ slot : Bool, (at2 info.adj_residues slot).has_value = true →
      Canon sses (at2 info.adj_residues slot)) :
    ∀ slot : Bool, (at2 (info.add_pair residue hb bt).2.adj_residues slot).has_value = true →
      Canon sses (at2 (info.add_pair residue hb bt).2.adj_residues slot) := by
  intro slot
  unfold ZoneInfo.add_pair
  split_ifs
  · exact hi slot
  · exact hi slot
  · simp only
    rw [at2_set2]
    split_ifs
    · intro _; exact hr
    · exact hi slot

theorem on_one_wf (sses : List SSE) (z z1 : StrictZone) (res0 res1 : ZoneResidue) (hb : Bool)
    (bt : BridgeType) (hr : Canon sses res1) (ht : CanonTable sses z.strict)
    (h : On_one z res0 res1 hb bt = .ok z1) :
    z1.sses = z.sses ∧ z1.strand_indices = z.strand_indices ∧
      z1.strict.length = z.strict.length ∧ CanonTable sses z1.strict := by
  unfold On_one at h
  obtain ⟨info, hi, h1⟩ := except_bind_ok _ _ _ h
  by_cases hc : (info.add_pair res1 hb bt).1 = true
  · rw [if_pos hc] at h1
    simp only [Except.ok.injEq] at h1
    subst h1
    refine ⟨rfl, rfl, by simp [strict_set], ?_⟩
    intro i j info1 hc1 slot
    simp only at hc1
    rw [cell_strict_set] at hc1
    split_ifs at hc1 with hij
    · simp only [Option.some.injEq] at hc1
      subst hc1
      have hcell := (strict_c_info_cell _ _ _).1 hi
      exact add_pair_canon sses info res1 hb bt hr (ht _ _ info hcell) slot
    · exact ht i j info1 hc1 slot
  · rw [if_neg hc] at h1
    cases h1

theorem on_wf (sses : List SSE) (z z1 : StrictZone) (sse_id : Nat) (resnum : Int)
    (paired_sse_id : Nat) (paired_resnum : Int) (hb : Bool) (bt : BridgeType)
    (hs : z.sses = sses) (ht : CanonTable sses z.strict)
    (h : On z sse_id resnum paired_sse_id paired_resnum hb bt = .ok z1) :
    z1.sses = z.sses ∧ z1.strand_indices = z.strand_indices ∧
      z1.strict.length = z.strict.length ∧ CanonTable sses z1.strict := by
  unfold On at h
  cases h0 : ZoneResidue.make z.sses sse_id resnum with
  | none =>
    rw [h0] at h
    simp only [Except.ok.injEq] at h
    subst h
    exact ⟨rfl, rfl, rfl, ht⟩
  | some res0 =>
    cases h1 : ZoneResidue.make z.sses paired_sse_id paired_resnum with
    | none =>
      rw [h0, h1] at h
      simp only [Except.ok.injEq] at h
      subst h
      exact ⟨rfl, rfl, rfl, ht⟩
    | some res1 =>
      rw [h0, h1] at h
      simp only at h
      rw [hs] at h1
      exact on_one_wf sses z z1 res0 res1 hb bt (make_canon _ _ _ _ h1) ht h

theorem zone_of_wf (sses : List SSE) :
    ∀ (calls : List (Nat × Int × Nat × Int × Bool × BridgeType)) (z0 z : StrictZone),
      z0.sses = sses → CanonTable sses z0.strict →
      calls.foldlM (fun z c => On z c.1 c.2.1 c.2.2.1 c.2.2.2.1 c.2.2.2.2.1 c.2.2.2.2.2) z0 =
        .ok z →
      z.sses = sses ∧ z.strand_indices = z0.strand_indices ∧
        z.strict.length = z0.strict.length ∧ CanonTable sses z.strict := by
  intro calls
  induction calls with
  | nil =>
    intro z0 z hs ht h
    simp only [List.foldlM_nil] at h
    cases h
    exact ⟨hs, rfl, rfl, ht⟩
  | cons c rest ih =>
    intro z0 z hs ht h
    rw [List.foldlM_cons] at h
    obtain ⟨z1, h1, h2⟩ := except_bind_ok _ _ _ h
    obtain ⟨a1, a2, a3, a4⟩ := on_wf sses z0 z1 _ _ _ _ _ _ hs ht h1
    obtain ⟨b1, b2, b3, b4⟩ := ih z1 z (a1.trans hs) a4 h2
    exact ⟨b1, b2.trans a2, b3.trans a3, b4⟩

theorem zone_of_init (sses : List SSE) (calls : List (Nat × Int × Nat × Int × Bool × BridgeType))
    (z : StrictZone) (h : zone_of sses calls = .ok z) :
    z.sses = sses ∧ z.strand_indices = gen_index_vec sses ∧
      z.strict.length = (gen_index_vec sses).length ∧ CanonTable sses z.strict := by
  unfold zone_of at h
  have ht : CanonTable sses (StrictZone.init sses).strict := by
    intro i j info hc slot hv
    have := cell_init_strict sses _ i j info hc
    subst this
    cases slot <;> simp [at2] at hv
  obtain ⟨a1, a2, a3, a4⟩ := zone_of_wf sses calls (StrictZone.init sses) z rfl ht h
  refine ⟨a1, a2, ?_, a4⟩
  rw [a3]
  simp [StrictZone.init, init_strict]

theorem res_insert_mem (set : List ZoneResidue) (res x : ZoneResidue) (h : x ∈ set) :
    x ∈ res_insert set res := by
  unfold res_insert
  split_ifs
  · exact h
  · exact List.mem_append_left _ h

theorem res_insert_canon (sses : List SSE) (set : List ZoneResidue) (res : ZoneResidue)
    (hs : ∀ x ∈ set, Canon sses x) (hr : Canon sses res) :
    (∀ x ∈ res_insert set res, Canon sses x) ∧ res ∈ res_insert set res := by
  unfold res_insert
  by_cases hc : res_count set res = true
  · rw [if_pos hc]
    refine ⟨hs, ?_⟩
    obtain ⟨y, hy, hyr⟩ := (res_count_iff _ _).1 hc
    have := canon_same sses y res (hs y hy) hr hyr
    rw [← this]
    exact hy
  · rw [if_neg hc]
    refine ⟨?_, by simp⟩
    intro x hx
    rcases List.mem_append.1 hx with h1 | h1
    · exact hs x h1
    · rw [List.mem_singleton] at h1
      rw [h1]; exact hr

theorem collect_colored_row_spec (z : StrictZone) (sse_id : Nat) :
    ∀ (row : List ZoneInfo) (j0 : Nat) (set set1 : List ZoneResidue),
      (∀ x ∈ set, Canon z.sses x) →
      collect_colored_row z sse_id row j0 set = .ok set1 →
      (∀ x ∈ set1, Canon z.sses x) ∧ (∀ x ∈ set, x ∈ set1) ∧
        ∀ j info, row.get? j = some info → info.colored = true →
          ∃ x ∈ set1, x.serial_str_id = serial_strand_id z.sses sse_id ∧
            x.serial_res_id = j0 + j := by
  intro row
  induction row with
  | nil =>
    intro j0 set set1 hs h
    simp only [collect_colored_row, Except.ok.injEq] at h
    subst h
    exact ⟨hs, fun x hx => hx, fun j info hj => by simp at hj⟩
  | cons zone_info rest ih =>
    intro j0 set set1 hs h
    rw [collect_colored_row] at h
    by_cases hc : zone_info.colored = true
    · rw [if_pos hc] at h
      cases hg : z.sses.get? sse_id with
      | none => rw [hg] at h; cases h
      | some sse =>
        rw [hg] at h
        simp only at h
        cases hm : ZoneResidue.make z.sses sse_id ((j0 : Int) + sse.init) with
        | none => rw [hm] at h; cases h
        | some res =>
          rw [hm] at h
          simp only at h
          obtain ⟨c1, c2⟩ := res_insert_canon z.sses set res hs (make_canon _ _ _ _ hm)
          obtain ⟨i1, i2, i3⟩ := ih (j0 + 1) (res_insert set res) set1 c1 h
          refine ⟨i1, fun x hx => i2 x (res_insert_mem _ _ _ hx), ?_⟩
          intro j info hj hcol
          cases j with
          | zero =>
            obtain ⟨_, _, f3, f4, _⟩ := make_fields _ _ _ _ hm
            refine ⟨res, i2 res c2, f3, ?_⟩
            rw [f4]
            have hd : z.sses.getD sse_id {} = sse := by
              rw [List.getD_eq_getElem?_getD, ← List.get?_eq_getElem?, hg]
              rfl
            rw [hd]
            simp
          | succ j =>
            simp only [List.get?_cons_succ] at hj
            obtain ⟨x, hx, e1, e2⟩ := i3 j info hj hcol
            exact ⟨x, hx, e1, by rw [e2]; omega⟩
    · rw [if_neg hc] at h
      obtain ⟨i1, i2, i3⟩ := ih (j0 + 1) set set1 hs h
      refine ⟨i1, i2, ?_⟩
      intro j info hj hcol
      cases j with
      | zero =>
        simp only [List.get?_cons_zero, Option.some.injEq] at hj
        subst hj
        exact absurd hcol hc
      | succ j =>
        simp only [List.get?_cons_succ] at hj
        obtain ⟨x, hx, e1, e2⟩ := i3 j info hj hcol
        exact ⟨x, hx, e1, by rw [e2]; omega⟩

theorem gen_index_vec_nodup (data : List SSE) : (gen_index_vec data).Nodup := by
  unfold gen_index_vec
  exact List.Nodup.filter _ (List.nodup_range _)

theorem serial_strand_id_get (data : List SSE) (c sse_id : Nat) (hc : c < 256)
    (h : (gen_index_vec data).get? c = some sse_id) : serial_strand_id data sse_id = c := by
  unfold serial_strand_id
  have hlt : c < (gen_index_vec data).length := by
    rw [List.get?_eq_getElem?] at h
    by_contra hn
    rw [List.getElem?_eq_none (by omega)] at h
    cases h
  have hget : (gen_index_vec data)[c] = sse_id := by
    rw [List.get?_eq_getElem?, List.getElem?_eq_getElem hlt] at h
    simpa using h
  have hmem : sse_id ∈ gen_index_vec data := by
    rw [← hget]
    exact List.getElem_mem _
  rw [if_pos hmem]
  have hidx : (gen_index_vec data).indexOf sse_id = c := by
    rw [← hget]
    exact List.indexOf_getElem (gen_index_vec_nodup data) c hlt
  rw [hidx]
  unfold toIndexType
  omega

theorem collect_colored_loop_spec (z : StrictZone)
    (hidx : z.strand_indices = gen_index_vec z.sses) :
    ∀ (rows : List (List ZoneInfo)) (c : Nat) (set set1 : List ZoneResidue),
      c + rows.length ≤ 256 → (∀ x ∈ set, Canon z.sses x) →
      collect_colored_loop z rows c set = .ok set1 →
      (∀ x ∈ set1, Canon z.sses x) ∧ (∀ x ∈ set, x ∈ set1) ∧
        ∀ i j row info, rows.get? i = some row → row.get? j = some info →
          info.colored = true →
          ∃ x ∈ set1, x.serial_str_id = c + i ∧ x.serial_res_id = j := by
  intro rows
  induction rows with
  | nil =>
    intro c set set1 _ hs h
    simp only [collect_colored_loop, Except.ok.injEq] at h
    subst h
    exact ⟨hs, fun x hx => hx, fun i j row info hi => by simp at hi⟩
  | cons one_sse rest ih =>
    intro c set set1 hlen hs h
    rw [collect_colored_loop] at h
    simp only [List.length_cons] at hlen
    have hc256 : c < 256 := by omega
    have hnext : ∀ (set0 : List ZoneResidue), (∀ x ∈ set0, Canon z.sses x) →
        collect_colored_loop z rest (toIndexType (c + 1)) set0 = .ok set1 →
        (∀ x ∈ set1, Canon z.sses x) ∧ (∀ x ∈ set0, x ∈ set1) ∧
          ∀ i j row info, rest.get? i = some row → row.get? j = some info →
            info.colored = true →
            ∃ x ∈ set1, x.serial_str_id = c + 1 + i ∧ x.serial_res_id = j := by
      intro set0 hs0 h0
      cases hrest : rest with
      | nil =>
        rw [hrest] at h0
        simp only [collect_colored_loop, Except.ok.injEq] at h0
        subst h0
        exact ⟨hs0, fun x hx => hx, fun i j row info hi => by simp at hi⟩
      | cons r0 rs =>
        have hl : rest.length = rs.length + 1 := by rw [hrest]; rfl
        have hc1 : toIndexType (c + 1) = c + 1 := by
          unfold toIndexType
          omega
        rw [hc1] at h0
        rw [← hrest]
        exact ih (c + 1) set0 set1 (by omega) hs0 h0
    by_cases hany : one_sse.any (fun zone_info => zone_info.colored) = true
    · rw [if_pos hany] at h
      cases hg : z.strand_indices.get? c with
      | none => rw [hg] at h; cases h
      | some sse_id =>
        rw [hg] at h
        simp only at h
        obtain ⟨set0, hrow, hrest⟩ := except_bind_ok _ _ _ h
        obtain ⟨r1, r2, r3⟩ := collect_colored_row_spec z sse_id one_sse 0 set set0 hs hrow
        obtain ⟨n1, n2, n3⟩ := hnext set0 r1 hrest
        refine ⟨n1, fun x hx => n2 x (r2 x hx), ?_⟩
        intro i j row info hi hj hcol
        cases i with
        | zero =>
          simp only [List.get?_cons_zero, Option.some.injEq] at hi
          subst hi
          obtain ⟨x, hx, e1, e2⟩ := r3 j info hj hcol
          refine ⟨x, n2 x hx, ?_, by rw [e2]; omega⟩
          rw [e1]
          rw [hidx] at hg
          rw [serial_strand_id_get z.sses c sse_id hc256 hg]
          rfl
        | succ i =>
          simp only [List.get?_cons_succ] at hi
          obtain ⟨x, hx, e1, e2⟩ := n3 i j row info hi hj hcol
          exact ⟨x, hx, by rw [e1]; omega, e2⟩
    · rw [if_neg hany] at h
      obtain ⟨n1, n2, n3⟩ := hnext set hs h
      refine ⟨n1, n2, ?_⟩
      intro i j row info hi hj hcol
      cases i with
      | zero =>
        simp only [List.get?_cons_zero, Option.some.injEq] at hi
        subst hi
        exfalso
        apply hany
        rw [List.any_eq_true]
        exact ⟨info, List.mem_iff_get?.2 ⟨j, hj⟩, hcol⟩
      | succ i =>
        simp only [List.get?_cons_succ] at hi
        obtain ⟨x, hx, e1, e2⟩ := n3 i j row info hi hj hcol
        exact ⟨x, hx, by rw [e1]; omega, e2⟩

theorem collect_colored_sides (z : StrictZone) (remainder : List ZoneResidue)
    (hidx : z.strand_indices = gen_index_vec z.sses) (hlen : z.strict.length ≤ 256)
    (h : collect_colored z = .ok remainder) :
    (∀ x ∈ remainder, Canon z.sses x) ∧ SidesLeft z.strict remainder := by
  unfold collect_colored at h
  obtain ⟨c1, _, c3⟩ := collect_colored_loop_spec z hidx z.strict 0 [] remainder (by omega)
    (fun x hx => by cases hx) h
  refine ⟨c1, ?_⟩
  intro i j info hc _ 
  right
  unfold cell at hc
  cases hr : z.strict.get? i with
  | none => rw [hr] at hc; cases hc
  | some row =>
    rw [hr] at hc
    simp only [Option.some_bind] at hc
    rename_i hcol
    obtain ⟨x, hx, e1, e2⟩ := c3 i j row info hr hc hcol
    exact ⟨x, hx, by rw [e1]; omega, e2⟩

/-- C39. For a zone `z` built from the empty zone over `sses` (at most 256
strands, the range of an `IndexType`) by calls of `On`, and every undirected
adjacency list: in every state of every call of `bfs` at the test of its
loop, whatever the zone, the registry and the remainder of the call are, the
residues of the queue have the side `Upper` or `Lower` in the table, so the
residue taken from the queue has a defined side, and in the body of the loop
for it neither of the two rounds over the residues before and after it
reaches the `throw` of `runtime_error` (the only exception of `bfs_ba`); and
when `decide_side` returns for `z`, every coloured `ZoneInfo` of the table it
leaves has a side other than `Undefined`. -/
theorem decide_side_sides_defined (sses : List SSE)
    (calls : List (Nat × Int × Nat × Int × Bool × BridgeType)) (z : StrictZone) (U : AdjList)
    (hz : zone_of sses calls = .ok z) (hlen : (gen_index_vec sses).length ≤ 256) :
    (∀ (fuel : Nat) (z0 : StrictZone) (adj_sub : AdjListWithSub) (remainder : List ZoneResidue),
      ∀ s ∈ decide_side_states U fuel z0 adj_sub remainder,
        (∀ q ∈ s.queue, side_defined s.zone.strict q = true) ∧
        ∀ target rest, s.queue = target :: rest →
          side_defined s.zone.strict target = true ∧
          ∀ z1 s1 s2, s.zone.extend target = .ok z1 →
            bfs_adj U target false
              { s with
                zone := z1,
                involved_serial_str_ids :=
                  if target.serial_str_id ∈ s.involved_serial_str_ids then
                    s.involved_serial_str_ids
                  else s.involved_serial_str_ids ++ [target.serial_str_id] } = .ok s1 →
            bfs_adj U target true s1 = .ok s2 →
            ∀ before after : ZoneResidue,
              bfs_ba target before s2 ≠ .error .exception ∧
                ∀ s3, bfs_ba target before s2 = .ok s3 →
                  bfs_ba target after s3 ≠ .error .exception) ∧
    ∀ r, decide_side z U = .ok r →
      ∀ i j info, cell r.2.strict i j = some info → info.colored = true →
        info.side ≠ SideStatus.Undefined := by
  constructor
  · intro fuel z0 adj_sub remainder s hs
    have hqs := decide_side_states_sides U fuel z0 adj_sub remainder s hs
    refine ⟨hqs, fun target rest hq => ?_⟩
    have ht : side_defined s.zone.strict target = true :=
      hqs target (by rw [hq]; exact List.mem_cons_self _ _)
    exact ⟨ht, fun z1 s1 s2 hz1 h1 h2 before after =>
      bfs_body_no_throw U target s hqs ht z1 s1 s2 hz1 h1 h2 before after⟩
  · intro r h i j info hc hcol
    obtain ⟨w1, w2, w3, w4⟩ := zone_of_init sses calls z hz
    unfold decide_side at h
    obtain ⟨remainder, hrem, h1⟩ := except_bind_ok _ _ _ h
    obtain ⟨r1, hloop, h2⟩ := except_bind_ok _ _ _ h1
    obtain ⟨c1, c2⟩ := collect_colored_sides z remainder (by rw [w2, w1]) (by rw [w3]; exact hlen)
      hrem
    rw [w1] at c1
    have hleft := decide_side_loop_sides sses U _ z {} remainder r1 w1 c1 w4 c2 hloop
    cases hf : r1.1.sub_strands.finish with
    | none => rw [hf] at h2; cases h2
    | some p =>
      obtain ⟨sub_strands, conv⟩ := p
      rw [hf] at h2
      simp only at h2
      obtain ⟨adj_sub1, _, h3⟩ := except_bind_ok _ _ _ h2
      obtain ⟨adj_sub2, _, h4⟩ := except_bind_ok _ _ _ h3
      simp only [Except.ok.injEq] at h4
      subst h4
      simp only at hc
      rcases hleft i j info hc hcol with h5 | ⟨x, hx, _⟩
      · exact h5
      · cases hx

set_option maxRecDepth 100000 in
/-- C39, witness: the zone `swap_strict` is built by the calls `swap_calls`
over three strands; `decide_side` returns for it, and the ten coloured
residues of the table it leaves have a defined side. -/
theorem decide_side_sides_defined_witness :
    zone_of swap_sses swap_calls = .ok swap_strict ∧
      (gen_index_vec swap_sses).length ≤ 256 ∧
      ∃ r, decide_side swap_strict swap_adj = .ok r ∧
        (r.2.strict.map (fun row => (row.filter (fun info => info.colored)).length)).sum = 10 ∧
        ∀ i j info, cell r.2.strict i j = some info → info.colored = true →
          info.side ≠ SideStatus.Undefined := by
  have hz : zone_of swap_sses swap_calls = .ok swap_strict := ok_of_returned _ _ (by decide)
  obtain ⟨r, hr⟩ : ∃ r, returned (decide_side swap_strict swap_adj) = some r :=
    Option.isSome_iff_exists.1 (by decide)
  have hcount : (returned (decide_side swap_strict swap_adj)).map
      (fun r => (r.2.strict.map (fun row => (row.filter (fun info => info.colored)).length)).sum) =
      some 10 := by decide
  rw [hr] at hcount
  simp only [Option.map_some', Option.some.injEq] at hcount
  exact ⟨hz, by decide, r, ok_of_returned _ _ hr, hcount,
    (decide_side_sides_defined swap_sses swap_calls swap_strict swap_adj hz (by decide)).2 r
      (ok_of_returned _ _ hr)⟩

theorem canon_index (sses : List SSE) (r : ZoneResidue) (hc : Canon sses r)
    (hlen : (gen_index_vec sses).length ≤ 256) :
    (gen_index_vec sses).getD r.serial_str_id 0 = r.sse_id := by
  unfold Canon at hc
  obtain ⟨_, _, f3, _⟩ := make_fields _ _ _ _ hc
  have hmem : r.sse_id ∈ gen_index_vec sses := by
    unfold ZoneResidue.make at hc
    cases hs : sse_ind_of sses r.resnum with
    | none => rw [hs] at hc; cases hc
    | some k =>
      rw [hs] at hc
      simp only at hc
      by_cases hk : r.sse_id = k
      · rw [hk]
        unfold sse_ind_of at hs
        cases hf : (gen_index_vec sses).find?
            (fun i => !decide ((sses.getD i {}).end_ < r.resnum)) with
        | none => rw [hf] at hs; cases hs
        | some i =>
          rw [hf] at hs
          simp only at hs
          split_ifs at hs
          simp only [Option.some.injEq] at hs
          rw [← hs]
          exact List.mem_of_find?_eq_some hf
      · rw [if_neg hk] at hc
        cases hc
  have hlt : (gen_index_vec sses).indexOf r.sse_id < (gen_index_vec sses).length :=
    List.indexOf_lt_length.2 hmem
  rw [f3]
  unfold serial_strand_id
  rw [if_pos hmem]
  have ht : toIndexType ((gen_index_vec sses).indexOf r.sse_id) =
      (gen_index_vec sses).indexOf r.sse_id := by
    unfold toIndexType
    omega
  rw [ht, List.getD_eq_getElem _ _ hlt]
  exact List.getElem_indexOf hlt

theorem add_adj_list_count_edges (U : AdjList) (idx : List Nat) (key : SubStrandsPairKey)
    (al al1 : AdjListWithSub) (dir : Bool) (sd : AdjStrandData)
    (hsd : map_at U (idx.getD key.str0 0, idx.getD key.str1 0) = some sd)
    (hdir : sd.direction = dir) (hd : EdgeDirs U idx al.data)
    (hv : ∀ k ∈ al.sheets_key_vec.getLast?.getD [], (map_at al.data k).isSome = true)
    (h : add_adj_list_count key al dir = .ok al1) :
    EdgeDirs U idx al1.data ∧
      ∀ k ∈ al1.sheets_key_vec.getLast?.getD [], (map_at al1.data k).isSome = true := by
  obtain ⟨a1, ⟨nk, a2, a3⟩, a4⟩ := add_adj_list_count_ok key al al1 dir h
  constructor
  · intro k node hk
    by_cases hkk : k = key
    · subst hkk
      rw [a2] at hk
      simp only [Option.some.injEq] at hk
      subst hk
      exact ⟨sd, hsd, hdir.trans a3.symm⟩
    · have hold : ∃ node0, map_at al.data k = some node0 ∧ node0.direction = node.direction := by
        unfold add_adj_list_count at h
        cases hm : map_at al.data key with
        | none =>
          rw [hm] at h
          simp only at h
          obtain ⟨sheets, _, h1⟩ := except_bind_ok _ _ _ h
          simp only [Except.ok.injEq] at h1
          subst h1
          simp only at hk
          rw [map_at_insert] at hk
          cases hmk : map_at al.data k with
          | none =>
            rw [hmk] at hk
            simp only [Option.isSome_none, Bool.false_eq_true, if_false] at hk
            rw [if_neg (fun hh => hkk hh.symm)] at hk
            cases hk
          | some node0 =>
            rw [hmk] at hk
            simp only [Option.isSome_some, if_true, Option.some.injEq] at hk
            exact ⟨node0, rfl, by rw [hk]⟩
        | some node0 =>
          rw [hm] at h
          simp only at h
          by_cases hd0 : node0.direction = dir
          · rw [if_pos hd0] at h
            simp only [Except.ok.injEq] at h
            subst h
            simp only at hk
            rw [map_at_map_set, if_neg hkk] at hk
            exact ⟨node, hk, rfl⟩
          · rw [if_neg hd0] at h
            cases h
      obtain ⟨node0, h0, h1⟩ := hold
      obtain ⟨sd0, s1, s2⟩ := hd k node0 h0
      exact ⟨sd0, s1, s2.trans h1⟩
  · intro k hk
    rcases a1 k hk with h1 | h1
    · obtain ⟨node, hn⟩ := Option.isSome_iff_exists.1 (hv k h1)
      obtain ⟨node1, hn1, _⟩ := a4 k node hn
      rw [hn1]; rfl
    · rw [h1, a2]; rfl

theorem bfs_add_keys_edges (U : AdjList) (sses : List SSE) (z : StrictZone)
    (target adj : ZoneResidue) (i fb : Bool) (rel : List RelDir) (al al1 : AdjListWithSub)
    (sd : AdjStrandData) (ht : Canon sses target) (ha : Canon sses adj)
    (hlen : (gen_index_vec sses).length ≤ 256) (hsym : adj_symmetric U)
    (hsd : map_at U (target.sse_id, adj.sse_id) = some sd)
    (hd : EdgeDirs U (gen_index_vec sses) al.data)
    (hv : ∀ k ∈ al.sheets_key_vec.getLast?.getD [], (map_at al.data k).isSome = true)
    (h : bfs_add_keys z target adj i sd.direction fb rel al = .ok al1) :
    EdgeDirs U (gen_index_vec sses) al1.data ∧
      ∀ k ∈ al1.sheets_key_vec.getLast?.getD [], (map_at al1.data k).isSome = true := by
  have it := canon_index sses target ht hlen
  have ia := canon_index sses adj ha hlen
  obtain ⟨sd1, hsd1, hdir1⟩ := hsym _ _ sd hsd
  have hfwd : ∀ key : SubStrandsPairKey, key.str0 = target.serial_str_id →
      key.str1 = adj.serial_str_id →
      map_at U ((gen_index_vec sses).getD key.str0 0, (gen_index_vec sses).getD key.str1 0) =
        some sd := by
    intro key e0 e1
    rw [e0, e1, it, ia]
    exact hsd
  have hbwd : ∀ key : SubStrandsPairKey, key.str0 = adj.serial_str_id →
      key.str1 = target.serial_str_id →
      map_at U ((gen_index_vec sses).getD key.str0 0, (gen_index_vec sses).getD key.str1 0) =
        some sd1 := by
    intro key e0 e1
    rw [e0, e1, it, ia]
    exact hsd1
  unfold bfs_add_keys at h
  by_cases hfb : fb = true
  · rw [if_pos hfb] at h
    obtain ⟨key0, hk0, h1⟩ := except_bind_ok _ _ _ h
    obtain ⟨al0, h2, h3⟩ := except_bind_ok _ _ _ h1
    obtain ⟨e0, e1⟩ := last_key_ok _ _ _ _ hk0
    obtain ⟨d1, v1⟩ := add_adj_list_count_edges U _ key0 al al0 sd.direction sd (hfwd key0 e0 e1)
      rfl hd hv h2
    exact add_adj_list_count_edges U _ key0.reverse al0 al1 sd.direction sd1
      (hbwd key0.reverse e1 e0) hdir1 d1 v1 h3
  · rw [if_neg hfb] at h
    obtain ⟨key, hk, h1⟩ := except_bind_ok _ _ _ h
    rcases gen_list_key_ok _ _ _ _ _ _ hk with ⟨e0, e1⟩ | ⟨e0, e1⟩
    · exact add_adj_list_count_edges U _ key al al1 sd.direction sd (hfwd key e0 e1) rfl hd hv h1
    · exact add_adj_list_count_edges U _ key al al1 sd.direction sd1 (hbwd key e0 e1) hdir1 hd hv
        h1

theorem bfs_adj_edges (U : AdjList) (sses : List SSE) (target : ZoneResidue) (i : Bool)
    (s s1 : BfsState) (ht : Canon sses target) (htab : CanonTable sses s.zone.strict)
    (hlen : (gen_index_vec sses).length ≤ 256) (hsym : adj_symmetric U)
    (hd : EdgeDirs U (gen_index_vec sses) s.adj_list.data)
    (hv : ∀ k ∈ s.adj_list.sheets_key_vec.getLast?.getD [],
      (map_at s.adj_list.data k).isSome = true)
    (h : bfs_adj U target i s = .ok s1) :
    EdgeDirs U (gen_index_vec sses) s1.adj_list.data ∧
      ∀ k ∈ s1.adj_list.sheets_key_vec.getLast?.getD [],
        (map_at s1.adj_list.data k).isSome = true := by
  rcases bfs_adj_ok U target i s s1 h with rfl | ⟨info_t, z1, z2, z3, sd, fr, al, hinfo, hval, _,
    _, _, hsd, _, hal, _, hs⟩
  · exact ⟨hd, hv⟩
  · subst hs
    simp only
    have ha : Canon sses (at2 info_t.adj_residues i) :=
      htab _ _ info_t ((strict_c_info_cell _ _ _).1 hinfo) i hval
    exact bfs_add_keys_edges U sses z2 target _ i fr.1 fr.2 s.adj_list al sd ht ha hlen hsym hsd
      hd hv hal

/-- The body of the loop of `bfs` keeps the invariant of the directions of the
edges. -/
theorem edge_inv_body (U : AdjList) (sses : List SSE) (target : ZoneResidue)
    (rest : List ZoneResidue) (s s' : BfsState) (hlen : (gen_index_vec sses).length ≤ 256)
    (hsym : adj_symmetric U) (hq : s.queue = target :: rest) (hinv : EdgeInv U sses s)
    (h : bfs_body U target s = .ok s') : EdgeInv U sses s' := by
  obtain ⟨st, hsses, hrem, _, hqs, hqm⟩ := bfs_body_sides U target rest s s' hq hinv.queue_side h
  have htm : target ∈ s.queue := by rw [hq]; exact List.mem_cons_self _ _
  have htc : Canon sses target := hinv.queue_canon target htm
  have ht0 : side_defined s.zone.strict target = true := hinv.queue_side target htm
  obtain ⟨z1, s1, s2, before, after, s3, s4, hz1, h1, h2, _, _, h3, h4, hs⟩ :=
    bfs_body_ok U target s s' h
  obtain ⟨_, e1, _, _⟩ := extend_ok _ _ _ hz1
  obtain ⟨a1, _, _, _, _⟩ := bfs_adj_sides U target false _ s1
    (by simp only; rw [e1]; exact ht0) (by simp only; rw [e1]; exact hinv.queue_side) h1
  simp only at a1
  rw [e1] at a1
  obtain ⟨d1, v1⟩ : EdgeDirs U (gen_index_vec sses) s1.adj_list.data ∧
      ∀ k ∈ s1.adj_list.sheets_key_vec.getLast?.getD [],
        (map_at s1.adj_list.data k).isSome = true := by
    refine bfs_adj_edges U sses target false _ s1 htc ?_ hlen hsym ?_ ?_ h1
    · simp only; rw [e1]; exact hinv.table_canon
    · exact hinv.dirs
    · exact hinv.vec_in_data
  obtain ⟨d2, v2⟩ := bfs_adj_edges U sses target true s1 s2 htc
    (canon_table_step sses _ _ a1 hinv.table_canon) hlen hsym d1 v1 h2
  obtain ⟨b3, _, _⟩ := bfs_ba_dir target before s2 s3 h3
  obtain ⟨b4, _, _⟩ := bfs_ba_dir target after s3 s4 h4
  have hal : s'.adj_list = s2.adj_list := by
    rw [hs]
    simp only
    rw [b4, b3]
  refine ⟨hsses.trans hinv.zone_sses, hqs, ?_,
    fun x hx => hinv.rem_canon x (mem_res_erase _ _ _ (by rw [← hrem]; exact hx)),
    canon_table_step sses _ _ st hinv.table_canon, by rw [hal]; exact d2,
    by rw [hal]; exact v2⟩
  intro q hq2
  rcases hqm q hq2 with k1 | ⟨info, slot, hc, hqa, hval⟩ | ⟨diff, hm⟩
  · exact hinv.queue_canon q k1
  · rw [hqa] at hval ⊢
    exact hinv.table_canon _ _ info hc slot hval
  · rw [hinv.zone_sses] at hm
    exact make_canon _ _ _ _ hm

theorem edge_inv_loop (U : AdjList) (sses : List SSE) (hlen : (gen_index_vec sses).length ≤ 256)
    (hsym : adj_symmetric U) : ∀ (fuel : Nat) (s s1 : BfsState),
    EdgeInv U sses s → bfs_loop U fuel s = .ok s1 → EdgeInv U sses s1 := by
  intro fuel
  induction fuel with
  | zero => intro s s1 _ h; simp [bfs_loop] at h
  | succ fuel ih =>
    intro s s1 hinv h
    rw [bfs_loop] at h
    cases hq : s.queue with
    | nil =>
      rw [hq] at h
      simp only [Except.ok.injEq] at h
      subst h
      exact hinv
    | cons target rest =>
      rw [hq] at h
      simp only at h
      obtain ⟨s', hb, hl⟩ := except_bind_ok _ _ _ h
      exact ih s' s1 (edge_inv_body U sses target rest s s' hlen hsym hq hinv hb) hl

theorem edge_inv_start (U : AdjList) (sses : List SSE) (z : StrictZone)
    (adj_list : AdjListWithSub) (remainder : List ZoneResidue) (s0 : BfsState)
    (hs : z.sses = sses) (hrem : ∀ x ∈ remainder, Canon sses x)
    (ht : CanonTable sses z.strict) (hd : EdgeDirs U (gen_index_vec sses) adj_list.data)
    (h : bfs_start z adj_list remainder = .ok s0) : EdgeInv U sses s0 := by
  obtain ⟨st, e1, hq⟩ := bfs_start_sides z adj_list remainder s0 h
  obtain ⟨front, rest, z1, hr, _, _, e2, e3⟩ := bfs_start_parts z adj_list remainder s0 h
  have hal : s0.adj_list = adj_list.add_sheet := by
    unfold bfs_start at h
    rw [hr] at h
    simp only at h
    obtain ⟨z2, _, h1⟩ := except_bind_ok _ _ _ h
    by_cases hc : front.serial_str_id < z.strand_indices.length
    · rw [if_pos hc] at h1
      simp only [Except.ok.injEq] at h1
      rw [← h1]
    · rw [if_neg hc] at h1
      cases h1
  refine ⟨e1.trans hs, hq, ?_, by rw [e3]; exact hrem, canon_table_step sses _ _ st ht, ?_, ?_⟩
  · intro q hq2
    rw [e2, List.mem_singleton] at hq2
    rw [hq2]
    exact hrem front (by rw [hr]; exact List.mem_cons_self _ _)
  · rw [hal]
    exact hd
  · rw [hal]
    intro key hk
    simp [AdjListWithSub.add_sheet] at hk

theorem map_at_foldl_erase_some : ∀ (bad : List SubStrandsPairKey) (data : AdjListWithSubData)
    (k : SubStrandsPairKey) (node : SubStrandsPairNode),
    map_at (bad.foldl map_erase data) k = some node → map_at data k = some node := by
  intro bad
  induction bad with
  | nil => intro data k node h; exact h
  | cons b rest ih =>
    intro data k node h
    rw [List.foldl_cons] at h
    have := ih _ k node h
    rw [map_at_erase] at this
    split_ifs at this
    exact this

theorem erase_too_short_edges (U : AdjList) (idx : List Nat) (st st1 : AdjListWithSub)
    (short_subs : List SubStrand) (hd : EdgeDirs U idx st.data)
    (hv : ∀ k ∈ st.sheets_key_vec.getLast?.getD [], (map_at st.data k).isSome = true)
    (h : erase_too_short st short_subs = .ok st1) :
    EdgeDirs U idx st1.data ∧
      ∀ k ∈ st1.sheets_key_vec.getLast?.getD [], (map_at st1.data k).isSome = true := by
  unfold erase_too_short at h
  cases hl : st.sheets_key_vec.getLast? with
  | none => rw [hl] at h; cases h
  | some key_vec =>
    rw [hl] at h hv
    simp only [Except.ok.injEq] at h
    subst h
    simp only [Option.getD_some] at hv
    constructor
    · intro k node hk
      exact hd k node (map_at_foldl_erase_some _ _ k node hk)
    · intro k hk
      simp only [getLast?_dropLast_append, Option.getD_some, List.mem_filter] at hk
      simp only
      rw [map_at_foldl_erase]
      · exact hv k hk.1
      · intro hbad
        rw [List.mem_filter] at hbad
        have := hk.2
        rw [hbad.2] at this
        cases this

theorem ensure_undirected_add_edges (U : AdjList) (idx : List Nat) (st : AdjListWithSub)
    (k : SubStrandsPairKey) (hsym : adj_symmetric U) (hd : EdgeDirs U idx st.data)
    (hk : (map_at st.data k).isSome = true) :
    EdgeDirs U idx (ensure_undirected_add st k).data := by
  obtain ⟨nk, hnk⟩ := Option.isSome_iff_exists.1 hk
  intro x node hx
  simp only [ensure_undirected_add] at hx
  rw [map_insert_keeps _ k {} k nk hnk] at hx
  simp only [Option.getD_some] at hx
  rw [map_at_insert] at hx
  have hin : ∀ y, map_at (map_insert st.data k {}) y = map_at st.data y := by
    intro y
    rw [map_at_insert]
    cases hy : map_at st.data y with
    | some w => simp
    | none =>
      have : ¬ k = y := by
        intro he
        rw [← he, hnk] at hy
        cases hy
      simp [this]
  rw [hin] at hx
  cases hmx : map_at st.data x with
  | some w =>
    rw [hmx] at hx
    simp only [Option.isSome_some, if_true, Option.some.injEq] at hx
    rw [← hx]
    exact hd x w hmx
  | none =>
    rw [hmx] at hx
    simp only [Option.isSome_none, Bool.false_eq_true, if_false] at hx
    split_ifs at hx with he
    simp only [Option.some.injEq] at hx
    subst hx
    obtain ⟨sd, s1, s2⟩ := hd k nk hnk
    obtain ⟨sd1, t1, t2⟩ := hsym _ _ sd s1
    rw [← he]
    exact ⟨sd1, t1, t2.trans s2⟩

theorem ensure_undirected_fold_edges (U : AdjList) (idx : List Nat) (hsym : adj_symmetric U) :
    ∀ (to_add : List SubStrandsPairKey) (st : AdjListWithSub),
      (∀ k ∈ to_add, (map_at st.data k).isSome = true) → EdgeDirs U idx st.data →
      (∀ k ∈ st.sheets_key_vec.getLast?.getD [], (map_at st.data k).isSome = true) →
      EdgeDirs U idx (to_add.foldl ensure_undirected_add st).data ∧
        ∀ k ∈ (to_add.foldl ensure_undirected_add st).sheets_key_vec.getLast?.getD [],
          (map_at (to_add.foldl ensure_undirected_add st).data k).isSome = true := by
  intro to_add
  induction to_add with
  | nil => intro st _ hd hv; exact ⟨hd, hv⟩
  | cons k rest ih =>
    intro st hall hd hv
    rw [List.foldl_cons]
    have hkeep : ∀ x, (map_at st.data x).isSome = true →
        (map_at (ensure_undirected_add st k).data x).isSome = true := by
      intro x hx
      obtain ⟨w, hw⟩ := Option.isSome_iff_exists.1 hx
      rw [ensure_undirected_add_keeps st k x w hw]
      rfl
    apply ih
    · intro k2 hk2
      exact hkeep k2 (hall k2 (List.mem_cons_of_mem _ hk2))
    · exact ensure_undirected_add_edges U idx st k hsym hd (hall k (List.mem_cons_self _ _))
    · intro x hx
      rw [ensure_undirected_add_vec] at hx
      rcases List.mem_append.1 hx with h1 | h1
      · exact hkeep x (hv x h1)
      · rw [List.mem_singleton] at h1
        rw [h1]
        simp only [ensure_undirected_add]
        exact map_insert_self _ _ _

theorem ensure_undirected_edges (U : AdjList) (idx : List Nat) (st st1 : AdjListWithSub)
    (hsym : adj_symmetric U) (hd : EdgeDirs U idx st.data)
    (hv : ∀ k ∈ st.sheets_key_vec.getLast?.getD [], (map_at st.data k).isSome = true)
    (h : ensure_undirected st = .ok st1) :
    EdgeDirs U idx st1.data ∧
      ∀ k ∈ st1.sheets_key_vec.getLast?.getD [], (map_at st1.data k).isSome = true := by
  unfold ensure_undirected at h
  cases hl : st.sheets_key_vec.getLast? with
  | none => rw [hl] at h; cases h
  | some key_vec =>
    rw [hl] at h
    simp only [Except.ok.injEq] at h
    subst h
    apply ensure_undirected_fold_edges U idx hsym _ st _ hd hv
    intro k hk
    rw [List.mem_filter] at hk
    apply hv
    rw [hl]
    exact hk.1

/-- A call of `bfs` keeps the directions of the edges in agreement with a
symmetric undirected adjacency list, and every key of the key vector of the
component has a node. -/
theorem bfs_edges (U : AdjList) (sses : List SSE) (z : StrictZone) (adj_list : AdjListWithSub)
    (remainder : List ZoneResidue) (r : StrictZone × AdjListWithSub × List ZoneResidue)
    (hlen : (gen_index_vec sses).length ≤ 256) (hsym : adj_symmetric U) (hs : z.sses = sses)
    (hrem : ∀ x ∈ remainder, Canon sses x) (ht : CanonTable sses z.strict)
    (hd : EdgeDirs U (gen_index_vec sses) adj_list.data)
    (h : bfs z adj_list remainder U = .ok r) :
    (r.1.sses = sses ∧ (∀ x ∈ r.2.2, Canon sses x) ∧ CanonTable sses r.1.strict) ∧
      EdgeDirs U (gen_index_vec sses) r.2.1.data ∧
      ∀ k ∈ r.2.1.sheets_key_vec.getLast?.getD [], (map_at r.2.1.data k).isSome = true := by
  unfold bfs bfs_search at h
  obtain ⟨s, hs1, hf⟩ := except_bind_ok _ _ _ h
  obtain ⟨s0, hs0, hloop⟩ := except_bind_ok _ _ _ hs1
  have hinv := edge_inv_loop U sses hlen hsym _ s0 s
    (edge_inv_start U sses z adj_list remainder s0 hs hrem ht hd hs0) hloop
  obtain ⟨f1, f2, f3, _⟩ := bfs_finish_parts s r hf
  refine ⟨⟨by rw [f3]; exact hinv.zone_sses, by rw [f1]; exact hinv.rem_canon,
    by rw [f2]; exact hinv.table_canon⟩, ?_⟩
  unfold bfs_finish at hf
  cases hc : cleanup_sheet s.zone.sub_strands.data with
  | none => rw [hc] at hf; cases hf
  | some p =>
    obtain ⟨data, too_short_subs⟩ := p
    rw [hc] at hf
    simp only at hf
    obtain ⟨st, he, h2⟩ := except_bind_ok _ _ _ hf
    obtain ⟨st1, h3, h4⟩ := except_bind_ok _ _ _ h2
    simp only [Except.ok.injEq] at h4
    subst h4
    simp only
    obtain ⟨d1, v1⟩ := erase_too_short_edges U _ s.adj_list st too_short_subs hinv.dirs
      hinv.vec_in_data he
    by_cases hfb : s.fallback = true
    · rw [if_pos hfb] at h3
      exact ensure_undirected_edges U _ st st1 hsym d1 v1 h3
    · rw [if_neg hfb] at h3
      simp only [Except.ok.injEq] at h3
      subst h3
      exact ⟨d1, v1⟩

theorem edge_dirs_reverse (U : AdjList) (idx : List Nat) (data : AdjListWithSubData)
    (key : SubStrandsPairKey) (node node1 : SubStrandsPairNode) (hsym : adj_symmetric U)
    (hd : EdgeDirs U idx data) (h0 : map_at data key = some node)
    (h1 : map_at data key.reverse = some node1) : node1.direction = node.direction := by
  obtain ⟨sd, s1, s2⟩ := hd key node h0
  obtain ⟨sd1, t1, t2⟩ := hd key.reverse node1 h1
  obtain ⟨sd2, u1, u2⟩ := hsym _ _ sd s1
  have : sd1 = sd2 := by
    have e : map_at U (idx.getD key.reverse.str0 0, idx.getD key.reverse.str1 0) =
        map_at U (idx.getD key.str1 0, idx.getD key.str0 0) := rfl
    rw [e, u1] at t1
    simp only [Option.some.injEq] at t1
    exact t1.symm
  rw [← t2, this, u2, s2]

/-- A round over a paired residue extends the registry for the residue of
`bfs_adj_calls` and pushes at most it. -/
theorem bfs_adj_pushed_calls (U : AdjList) (target : ZoneResidue) (i : Bool) (s s1 : BfsState)
    (h : bfs_adj U target i s = .ok s1) :
    ∃ adds, Pushed s s1 (bfs_adj_calls target i s) adds := by
  unfold bfs_adj at h
  obtain ⟨info_t, hi, h1⟩ := except_bind_ok _ _ _ h
  unfold bfs_adj_calls
  rw [hi]
  simp only
  by_cases hc : (at2 info_t.adj_residues i).has_value = false ∨
      res_count s.remainder (at2 info_t.adj_residues i) = false
  · rw [if_pos hc] at h1
    rw [if_pos hc]
    simp only [Except.ok.injEq] at h1
    subst h1
    exact ⟨[], pushed_refl _⟩
  · rw [if_neg hc] at h1
    rw [if_neg hc]
    have hrem : res_count s.remainder (at2 info_t.adj_residues i) = true := by
      by_contra hx
      exact hc (Or.inr (by simpa using hx))
    obtain ⟨z1, hz1, h2⟩ := except_bind_ok _ _ _ h1
    obtain ⟨z2, hz2, h3⟩ := except_bind_ok _ _ _ h2
    cases hm : map_at U (target.sse_id, (at2 info_t.adj_residues i).sse_id) with
    | none => rw [hm] at h3; cases h3
    | some sd =>
      rw [hm] at h3
      simp only at h3
      obtain ⟨fr, _, h4⟩ := except_bind_ok _ _ _ h3
      obtain ⟨al, _, h5⟩ := except_bind_ok _ _ _ h4
      obtain ⟨z3, hz3, h6⟩ := except_bind_ok _ _ _ h5
      simp only [Except.ok.injEq] at h6
      refine ⟨[at2 info_t.adj_residues i], ?_⟩
      obtain ⟨a1, _⟩ := set_side_ok _ _ _ _ hz1
      obtain ⟨b1, _⟩ := extend_ok _ _ _ hz2
      obtain ⟨c1, _⟩ := add_adj_substrands_ok _ _ _ _ _ _ hz3
      subst h6
      refine ⟨rfl, ?_, ?_, by simp, ?_⟩
      · apply foldlM_extend_single
        simp only
        rw [c1, ← a1]
        exact b1
      · simp [push_all]
      · intro a ha
        simp only [List.mem_singleton] at ha
        subst ha
        exact hrem

/-- The body of the loop: the registry is extended for the residues of
`bfs_body_calls`, the target first; the others are residues of the remainder,
which are pushed; the target is erased from the remainder and popped. -/
theorem bfs_body_pushed_calls (U : AdjList) (target : ZoneResidue) (s s1 : BfsState)
    (h : bfs_body U target s = .ok s1) :
    ∃ (calls adds : List ZoneResidue) (d1 : RangeData),
      bfs_body_calls U target s = target :: calls ∧
      extend_substrand s.zone.sub_strands.data target = some d1 ∧
      calls.foldlM extend_substrand d1 = some s1.zone.sub_strands.data ∧
      (∀ c ∈ calls, c ∈ adds) ∧ (∀ a ∈ adds, res_count s.remainder a = true) ∧
      s1.remainder = res_erase s.remainder target ∧
      s1.queue = (push_all (s.queue, s.queue_contents) adds).1.tail ∧
      s1.queue_contents = res_erase (push_all (s.queue, s.queue_contents) adds).2 target := by
  obtain ⟨z1, t1, t2, before, after, t3, t4, hz1, h1, h2, hb, ha, h3, h4, hs⟩ :=
    bfs_body_ok U target s s1 h
  obtain ⟨e1, _⟩ := extend_ok _ _ _ hz1
  obtain ⟨a1, p1⟩ := bfs_adj_pushed_calls _ _ _ _ _ h1
  obtain ⟨a2, p2⟩ := bfs_adj_pushed_calls _ _ _ _ _ h2
  obtain ⟨a3, p3⟩ := bfs_ba_pushed _ _ _ _ (ba_check_ok _ _ _ _ _ hb) h3
  have hrem3 : t3.remainder = t2.remainder := p3.1
  obtain ⟨a4, p4⟩ := bfs_ba_pushed _ _ _ _
    (by rw [hrem3]; exact ba_check_ok _ _ _ _ _ ha) h4
  have p := pushed_trans _ _ _ _ _ _ _ (pushed_trans _ _ _ _ _ _ _
    (pushed_trans _ _ _ _ _ _ _ p1 p2) p3) p4
  obtain ⟨q1, q2, q3, q4, q5⟩ := p
  simp only at q1 q2 q3 q5
  refine ⟨_, a1 ++ a2 ++ a3 ++ a4, _, ?_, e1, ?_, q4, q5, ?_, ?_, ?_⟩
  · unfold bfs_body_calls
    rw [hz1]
    simp only
    rw [h1]
    simp only [List.append_nil]
  · rw [hs]; exact q2
  · rw [hs]; simp only; rw [q1]
  · rw [hs]; simp only
    rw [← q3]
  · rw [hs]; simp only
    rw [← q3]

/-- The invariant of the loop of `bfs` is kept by its body, with the calls of
the body added, and the remainder gets shorter. -/
theorem visit_body_calls (U : AdjList) (d0 : RangeData) (rem0 : List ZoneResidue)
    (s s1 : BfsState) (calls : List ZoneResidue) (target : ZoneResidue)
    (rest : List ZoneResidue) (hq : s.queue = target :: rest) (hinv : VisitInv d0 rem0 s calls)
    (h : bfs_body U target s = .ok s1) :
    VisitInv d0 rem0 s1 (calls ++ bfs_body_calls U target s) ∧
      s1.remainder.length < s.remainder.length := by
  obtain ⟨cs, adds, d1, hcs, e1, f1, cadds, addsrem, hrem, hqueue, hcont⟩ :=
    bfs_body_pushed_calls U target s s1 h
  rw [hcs]
  obtain ⟨Q1, Q2, extra, Q3, Q4⟩ := push_all_ok adds (s.queue, s.queue_contents) hinv.queue_ok
  simp only at Q3
  have hP : (push_all (s.queue, s.queue_contents) adds).1 = target :: (rest ++ extra) := by
    rw [Q3, hq]; rfl
  have hq1 : s1.queue = rest ++ extra := by rw [hqueue, hP]; rfl
  have htq : target ∈ s.queue := by rw [hq]; exact List.mem_cons_self _ _
  have htrem : res_count s.remainder target = true := hinv.queue_rem target htq
  have hpw := Q1.2
  rw [hP, List.pairwise_cons] at hpw
  have hnot : ∀ q ∈ rest ++ extra, q.same target = false := by
    intro q hq'
    rw [same_symm]
    exact hpw.1 q hq'
  refine ⟨⟨?_, ?_, ?_, ?_, ?_, ?_⟩, ?_⟩
  · refine foldlM_option_append _ _ _ _ _ _ hinv.fold ?_
    rw [List.foldlM_cons, e1]
    exact f1
  · intro c hc
    rcases List.mem_append.1 hc with hc | hc
    · exact hinv.calls_rem0 c hc
    · rcases List.mem_cons.1 hc with rfl | hc
      · exact hinv.rem_sub _ htrem
      · exact hinv.rem_sub _ (addsrem c (cadds c hc))
  · intro x hx
    rw [hrem] at hx
    exact hinv.rem_sub x ((res_count_erase _ _ _).1 hx).1
  · intro c hc hcr
    rw [hrem] at hcr
    obtain ⟨hcr1, hct⟩ := (res_count_erase _ _ _).1 hcr
    rw [hq1]
    apply res_count_cons_other target _ c _ hct
    rw [← hP]
    rcases List.mem_append.1 hc with hc | hc
    · have := hinv.calls_done c hc hcr1
      rw [Q3, res_count_append, this]
      rfl
    · rcases List.mem_cons.1 hc with rfl | hc
      · rw [same_refl] at hct; cases hct
      · exact Q2 c (cadds c hc)
  · intro q hq'
    rw [hq1] at hq'
    rw [hrem]
    refine (res_count_erase _ _ _).2 ⟨?_, hnot q hq'⟩
    rcases List.mem_append.1 hq' with hr | he
    · exact hinv.queue_rem q (by rw [hq]; exact List.mem_cons_of_mem _ hr)
    · exact addsrem q (Q4 q he)
  · constructor
    · intro x
      simp only
      rw [hcont, hq1]
      have hiff : res_count (res_erase (push_all (s.queue, s.queue_contents) adds).2 target) x =
          true ↔ res_count (rest ++ extra) x = true := by
        rw [res_count_erase]
        constructor
        · rintro ⟨h1, h2⟩
          rw [Q1.1 x, hP] at h1
          exact res_count_cons_other target _ x h1 h2
        · intro h1
          obtain ⟨y, hy, hyx⟩ := (res_count_iff _ _).1 h1
          refine ⟨?_, ?_⟩
          · rw [Q1.1 x, hP]
            exact (res_count_iff _ _).2 ⟨y, List.mem_cons_of_mem _ hy, hyx⟩
          · cases hxt : x.same target with
            | false => rfl
            | true =>
              have := same_trans _ _ _ hyx hxt
              rw [hnot y hy] at this
              cases this
      cases h1 : res_count (res_erase (push_all (s.queue, s.queue_contents) adds).2 target) x <;>
        cases h2 : res_count (rest ++ extra) x <;> try rfl
      · have := hiff.2 h2
        rw [h1] at this; cases this
      · have := hiff.1 h1
        rw [h2] at this; cases this
    · simp only
      rw [hq1]
      exact hpw.2
  · rw [hrem]
    exact res_erase_length _ _ htrem

theorem extend_calls_nil (U : AdjList) : extend_calls U [] = [] := rfl

theorem extend_calls_cons (U : AdjList) (s : BfsState) (rest : List BfsState) :
    extend_calls U (s :: rest) =
      (match s.queue with
        | [] => []
        | target :: _ => bfs_body_calls U target s) ++ extend_calls U rest := by
  unfold extend_calls
  exact List.flatMap_cons _ _ _

/-- The loop of `bfs` keeps its invariant, with the calls of the course of
the loop added, and it ends with an empty queue. -/
theorem visit_loop_calls (U : AdjList) (d0 : RangeData) (rem0 : List ZoneResidue) :
    ∀ (fuel : Nat) (s s1 : BfsState) (calls : List ZoneResidue),
      VisitInv d0 rem0 s calls → bfs_loop U fuel s = .ok s1 →
      VisitInv d0 rem0 s1 (calls ++ extend_calls U (bfs_loop_states U fuel s)) ∧
        s1.queue = [] ∧ s1.remainder.length ≤ s.remainder.length ∧
        (s.queue ≠ [] → s1.remainder.length < s.remainder.length) := by
  intro fuel
  induction fuel with
  | zero => intro s s1 calls _ h; simp [bfs_loop] at h
  | succ fuel ih =>
    intro s s1 calls hinv h
    rw [bfs_loop] at h
    cases hq : s.queue with
    | nil =>
      rw [hq] at h
      simp only [Except.ok.injEq] at h
      subst h
      have e : extend_calls U (bfs_loop_states U (fuel + 1) s) = [] := by
        rw [bfs_loop_states_nil U fuel s hq, extend_calls_cons, hq]
        rfl
      rw [e, List.append_nil]
      exact ⟨hinv, hq, le_refl _, fun hne => absurd rfl hne⟩
    | cons target rest =>
      rw [hq] at h
      simp only at h
      obtain ⟨s2, hb, hl⟩ := except_bind_ok _ _ _ h
      obtain ⟨hinv2, hlt⟩ := visit_body_calls U d0 rem0 s s2 calls target rest hq hinv hb
      obtain ⟨g1, g2, g3, _⟩ := ih s2 s1 _ hinv2 hl
      rw [bfs_loop_states_ok U fuel s s2 target rest hq hb, extend_calls_cons, hq]
      simp only
      rw [← List.append_assoc]
      exact ⟨g1, g2, by omega, fun _ => by omega⟩

/-- One run of `bfs` acts on the registry of sub-strands as the calls of
`extend_substrand` of its course followed by `cleanup_sheet`; these residues
are in the remainder before the run and not after it, and the remainder loses
residues only, at least one. -/
theorem bfs_component_calls (z : StrictZone) (adj_list : AdjListWithSub)
    (remainder : List ZoneResidue) (U : AdjList)
    (r : StrictZone × AdjListWithSub × List ZoneResidue)
    (h : bfs z adj_list remainder U = .ok r) :
    ∃ short, run_component z.sub_strands.data
          (extend_calls U (bfs_states z adj_list remainder U)) =
        some (r.1.sub_strands.data, short) ∧
      (∀ c ∈ extend_calls U (bfs_states z adj_list remainder U),
        res_count remainder c = true) ∧
      (∀ c ∈ extend_calls U (bfs_states z adj_list remainder U), res_count r.2.2 c = false) ∧
      (∀ x, res_count r.2.2 x = true → res_count remainder x = true) ∧
      r.2.2.length < remainder.length := by
  unfold bfs bfs_search at h
  obtain ⟨s, hs, hf⟩ := except_bind_ok _ _ _ h
  obtain ⟨s0, hs0, hl⟩ := except_bind_ok _ _ _ hs
  obtain ⟨hinv0, hrem0, hne⟩ := visit_start z adj_list remainder s0 hs0
  obtain ⟨hinv, hq, _, hlt⟩ := visit_loop_calls U _ _ _ s0 s [] hinv0 hl
  rw [List.nil_append] at hinv
  have hst : bfs_states z adj_list remainder U =
      bfs_loop_states U (remainder.length + 1) s0 := by
    unfold bfs_states
    rw [hs0]
  rw [hst]
  have hq0 : s0.queue ≠ [] := by
    intro he
    unfold bfs_start at hs0
    cases remainder with
    | nil => exact hne rfl
    | cons front rest =>
      simp only at hs0
      obtain ⟨z1, _, h1⟩ := except_bind_ok _ _ _ hs0
      by_cases hc : front.serial_str_id < z.strand_indices.length
      · rw [if_pos hc] at h1
        simp only [Except.ok.injEq] at h1
        rw [← h1] at he
        cases he
      · rw [if_neg hc] at h1
        cases h1
  unfold bfs_finish at hf
  cases hc : cleanup_sheet s.zone.sub_strands.data with
  | none => rw [hc] at hf; cases hf
  | some p =>
    obtain ⟨data, short⟩ := p
    rw [hc] at hf
    simp only at hf
    obtain ⟨al1, _, hf1⟩ := except_bind_ok _ _ _ hf
    obtain ⟨al2, _, hf2⟩ := except_bind_ok _ _ _ hf1
    simp only [Except.ok.injEq] at hf2
    subst hf2
    refine ⟨short, ?_, hinv.calls_rem0, ?_, hinv.rem_sub, ?_⟩
    · unfold run_component
      rw [hinv.fold]
      simp only [Option.some_bind]
      exact hc
    · intro c hc'
      simp only
      cases hcr : res_count s.remainder c with
      | false => rfl
      | true =>
        have := hinv.calls_done c hc' hcr
        rw [hq] at this
        simp [res_count] at this
    · simp only
      rw [← hrem0]
      exact hlt hq0

/-- The loop of `decide_side` keeps the state of the range table between
components, with the calls of its runs of `bfs` added to the components: the
components are lists of residues of the first remainder, and no residue is in
two of them. -/
theorem hull_loop_calls (U : AdjList) (rem0 : List ZoneResidue)
    (hnum : ∀ c ∈ rem0, int_min < c.resnum) :
    ∀ (fuel : Nat) (z : StrictZone) (al : AdjListWithSub) (rem : List ZoneResidue)
      (r : StrictZone × AdjListWithSub) (comps : List (List ZoneResidue)),
      HullState comps z.sub_strands.data →
      (∀ x, res_count rem x = true → res_count rem0 x = true) →
      (∀ calls ∈ comps, ∀ c ∈ calls, res_count rem0 c = true ∧ res_count rem c = false) →
      comps.Pairwise disjoint_calls →
      decide_side_loop U fuel z al rem = .ok r →
      HullState (comps ++ (decide_side_runs U fuel z al rem).map (extend_calls U))
          r.1.sub_strands.data ∧
        (∀ calls ∈ comps ++ (decide_side_runs U fuel z al rem).map (extend_calls U),
          ∀ c ∈ calls, res_count rem0 c = true) ∧
        (comps ++ (decide_side_runs U fuel z al rem).map (extend_calls U)).Pairwise
          disjoint_calls := by
  intro fuel
  induction fuel with
  | zero => intro z al rem r comps _ _ _ _ h; simp [decide_side_loop] at h
  | succ fuel ih =>
    intro z al rem r comps hs hsub hcomps hpw h
    rw [decide_side_loop] at h
    rw [decide_side_runs]
    by_cases hl : rem.length = 0
    · rw [if_pos hl] at h
      rw [if_pos hl]
      simp only [Except.ok.injEq] at h
      subst h
      simp only [List.map_nil, List.append_nil]
      exact ⟨hs, fun calls hc c hcc => (hcomps calls hc c hcc).1, hpw⟩
    · rw [if_neg hl] at h
      rw [if_neg hl]
      obtain ⟨b, hb, hrest⟩ := except_bind_ok _ _ _ h
      rw [hb]
      simp only [List.map_cons]
      obtain ⟨short, hrun, c1, c2, c3, _⟩ := bfs_component_calls z al rem U b hb
      have hnum2 : ∀ c ∈ extend_calls U (bfs_states z al rem U), int_min < c.resnum := by
        intro c hc
        obtain ⟨y, hy, hyc⟩ := (res_count_iff _ _).1 (hsub c (c1 c hc))
        rw [← same_resnum y c hyc]
        exact hnum y hy
      have := ih b.1 b.2.1 b.2.2 r (comps ++ [extend_calls U (bfs_states z al rem U)])
        (hull_component comps _ _ _ short hs hrun hnum2)
        (fun x hx => hsub x (c3 x hx)) ?_ ?_ hrest
      · rw [List.append_assoc] at this
        exact this
      · intro cl hcl c hc
        rcases List.mem_append.1 hcl with hcl | hcl
        · refine ⟨(hcomps cl hcl c hc).1, ?_⟩
          cases hx : res_count b.2.2 c with
          | false => rfl
          | true =>
            have := c3 c hx
            rw [(hcomps cl hcl c hc).2] at this
            cases this
        · simp only [List.mem_singleton] at hcl
          subst hcl
          exact ⟨hsub c (c1 c hc), c2 c hc⟩
      · rw [List.pairwise_append]
        refine ⟨hpw, by simp, ?_⟩
        intro a ha b' hb'
        simp only [List.mem_singleton] at hb'
        subst hb'
        intro x hx y hy
        cases hxy : x.same y with
        | false => rfl
        | true =>
          have h1 := res_count_congr rem x y hxy
          rw [(hcomps a ha x hx).2, c1 y hy] at h1
          cases h1

theorem decide_side_states_runs (U : AdjList) : ∀ (fuel : Nat) (z : StrictZone)
    (al : AdjListWithSub) (rem : List ZoneResidue),
    decide_side_states U fuel z al rem = (decide_side_runs U fuel z al rem).flatten := by
  intro fuel
  induction fuel with
  | zero => intro z al rem; rfl
  | succ fuel ih =>
    intro z al rem
    rw [decide_side_states, decide_side_runs]
    by_cases hl : rem.length = 0
    · rw [if_pos hl, if_pos hl]; rfl
    · rw [if_neg hl, if_neg hl]
      cases hb : bfs z al rem U with
      | error e => simp
      | ok b =>
        simp only [List.flatten_cons]
        rw [ih]

theorem dequeued_mem_calls (U : AdjList) (states : List BfsState) (t : ZoneResidue)
    (h : t ∈ dequeued states) : t ∈ extend_calls U states := by
  unfold dequeued at h
  obtain ⟨s, hs, hst⟩ := List.mem_filterMap.1 h
  unfold extend_calls
  rw [List.mem_flatMap]
  refine ⟨s, hs, ?_⟩
  cases hq : s.queue with
  | nil => rw [hq] at hst; cases hst
  | cons target rest =>
    rw [hq] at hst
    simp only [List.head?_cons, Option.some.injEq] at hst
    subst hst
    simp only [bfs_body_calls]
    exact List.mem_cons_self _ _

/-- Every residue of the remainder is one of the calls of a run of `bfs` in the
loop of `decide_side` when the loop returns. -/
theorem decide_side_loop_covered (U : AdjList) (fuel : Nat) (z : StrictZone)
    (al : AdjListWithSub) (rem : List ZoneResidue) (r : StrictZone × AdjListWithSub)
    (h : decide_side_loop U fuel z al rem = .ok r) :
    ∀ x, res_count rem x = true →
      ∃ calls ∈ (decide_side_runs U fuel z al rem).map (extend_calls U),
        res_count calls x = true := by
  intro x hx
  obtain ⟨_, _, h3⟩ := decide_side_loop_dequeued U fuel z al rem r h
  obtain ⟨y, hy, hyx⟩ := (res_count_iff _ _).1 (h3 x hx)
  rw [decide_side_states_runs] at hy
  unfold dequeued at hy
  obtain ⟨s, hs, hst⟩ := List.mem_filterMap.1 hy
  obtain ⟨states, hstates, hs2⟩ := List.mem_flatten.1 hs
  refine ⟨extend_calls U states, List.mem_map.2 ⟨states, hstates, rfl⟩, ?_⟩
  refine (res_count_iff _ _).2 ⟨y, ?_, hyx⟩
  apply dequeued_mem_calls
  unfold dequeued
  exact List.mem_filterMap.2 ⟨s, hs2, hst⟩

/-- What `decide_side` leaves in the registry of sub-strands when it returns,
for a zone whose registry is new and whose coloured residues are `rem0`, in
terms of the calls of `extend_substrand` of its runs of `bfs`. -/
theorem decide_side_hulls_calls (z : StrictZone) (U : AdjList) (rem0 : List ZoneResidue)
    (r : AdjListWithSub × StrictZone)
    (hfresh : ∀ ranges ∈ z.sub_strands.data, ranges = [default_range])
    (hrem : collect_colored z = .ok rem0) (hnum : ∀ c ∈ rem0, int_min < c.resnum)
    (h : decide_side z U = .ok r) :
    (∀ calls ∈ decide_side_calls z U rem0, ∀ c ∈ calls, res_count rem0 c = true) ∧
      (decide_side_calls z U rem0).Pairwise disjoint_calls ∧
      (∀ x, res_count rem0 x = true →
        ∃ calls ∈ decide_side_calls z U rem0, res_count calls x = true) ∧
      ∀ sub lo hi, r.2.sub_strands.n_term_res sub = some lo →
        r.2.sub_strands.c_term_res sub = some hi →
        2 ≤ hi - lo + 1 ∧
          ∃ calls ∈ decide_side_calls z U rem0, hull_of (resnums_on calls sub.str) lo hi := by
  unfold decide_side at h
  rw [hrem] at h
  obtain ⟨rem, hr0, h1⟩ := except_bind_ok _ _ _ h
  simp only [Except.ok.injEq] at hr0
  subst hr0
  obtain ⟨r1, hloop, h2⟩ := except_bind_ok _ _ _ h1
  have hs0 : HullState [] z.sub_strands.data := by
    intro str ranges hg
    rw [hfresh ranges (List.get?_mem hg)]
    exact ⟨rfl, by simp⟩
  obtain ⟨hs, hc, hpw⟩ := hull_loop_calls U rem0 hnum _ z {} rem0 r1 [] hs0
    (fun x hx => hx) (by simp) (by simp) hloop
  rw [List.nil_append] at hs hc hpw
  have hcov := decide_side_loop_covered U _ z {} rem0 r1 hloop
  cases hfin : r1.1.sub_strands.finish with
  | none => rw [hfin] at h2; cases h2
  | some p =>
    obtain ⟨ss, conv⟩ := p
    rw [hfin] at h2
    simp only at h2
    obtain ⟨a1, _, h3⟩ := except_bind_ok _ _ _ h2
    obtain ⟨a2, _, h4⟩ := except_bind_ok _ _ _ h3
    simp only [Except.ok.injEq] at h4
    subst h4
    refine ⟨hc, hpw, hcov, ?_⟩
    intro sub lo hi hlo hhi
    simp only at hlo hhi
    obtain ⟨l, x, g1, g2, g3⟩ := n_term_res_some ss sub lo hlo
    obtain ⟨l', x', g1', g2', g3'⟩ := c_term_res_some ss sub hi hhi
    rw [g1] at g1'
    simp only [Option.some.injEq] at g1'
    subst g1'
    rw [g2] at g2'
    simp only [Option.some.injEq] at g2'
    subst g2'
    obtain ⟨ranges, k1, k2⟩ := finish_range_mem _ ss conv hfin sub.str l x g1 (List.get?_mem g2)
    obtain ⟨m1, calls, m2, m3⟩ := (hs sub.str ranges k1).2 x k2
    rw [g3, g3'] at m1 m3
    exact ⟨m1, calls, m2, m3⟩

/-- C15, as amended. For a zone with a new registry of sub-strands whose
coloured residues `rem0` have numbers above `INT_MIN`: the loop of
`decide_side` over the components does not run out of fuel; and when
`decide_side` returns, with `decide_side_calls` the lists of the residues for
which each run of `bfs` called `extend_substrand`: all of them are coloured
residues of the zone, no residue is in two lists, every coloured residue is in
a list, and every sub-strand of the registry spans at least two residues and
its range `[n_term_res, c_term_res]` is the hull of the residue numbers of one
of these lists on its strand: both ends are residues of the list, and every
residue of the list on that strand lies between them. -/
theorem decide_side_ranges_are_hulls (z : StrictZone) (U : AdjList)
    (rem0 : List ZoneResidue)
    (hfresh : ∀ ranges ∈ z.sub_strands.data, ranges = [default_range])
    (hrem : collect_colored z = .ok rem0) (hnum : ∀ c ∈ rem0, int_min < c.resnum) :
    decide_side_loop U (rem0.length + 1) z {} rem0 ≠ .error .out_of_fuel ∧
    ∀ r, decide_side z U = .ok r →
      (∀ calls ∈ decide_side_calls z U rem0, ∀ c ∈ calls, res_count rem0 c = true) ∧
      (decide_side_calls z U rem0).Pairwise disjoint_calls ∧
      (∀ x, res_count rem0 x = true →
        ∃ calls ∈ decide_side_calls z U rem0, res_count calls x = true) ∧
      ∀ sub lo hi, r.2.sub_strands.n_term_res sub = some lo →
        r.2.sub_strands.c_term_res sub = some hi →
        2 ≤ hi - lo + 1 ∧
          ∃ calls ∈ decide_side_calls z U rem0, hull_of (resnums_on calls sub.str) lo hi :=
  ⟨decide_side_loop_fuel U _ z {} rem0 (by omega),
    fun r h => decide_side_hulls_calls z U rem0 r hfresh hrem hnum h⟩

set_option maxRecDepth 100000 in
/-- C15 as amended, on the zone `nested_strict`: its registry is new, its
coloured residues are the eight of `nested_colored`, `decide_side` returns,
the first run of `bfs` calls `extend_substrand` for the residues 10 and 21 of
the strand 0 and 30 and 31 of the strand 1, the second one for the residues 14
and 15 of the strand 0 and 40 and 41 of the strand 2, and the ranges of the
registry are hulls of these two lists. -/
theorem decide_side_ranges_are_hulls_witness :
    (∀ ranges ∈ nested_strict.sub_strands.data, ranges = [default_range]) ∧
      collect_colored nested_strict = .ok nested_colored ∧
      nested_colored.map (fun c => (c.serial_str_id, c.resnum)) =
        [(0, 10), (0, 14), (0, 15), (0, 21), (1, 30), (1, 31), (2, 40), (2, 41)] ∧
      (∀ c ∈ nested_colored, int_min < c.resnum) ∧
      (decide_side_calls nested_strict nested_adj_list nested_colored).map
          (fun calls => calls.map (fun c => (c.serial_str_id, c.resnum))) =
        [[(0, 10), (1, 30), (1, 30), (1, 31), (0, 21), (0, 21)],
          [(0, 14), (2, 40), (2, 40), (0, 15), (2, 41), (2, 41)]] ∧
      ∃ r, decide_side nested_strict nested_adj_list = .ok r ∧
        (decide_side_calls nested_strict nested_adj_list nested_colored).Pairwise
          disjoint_calls ∧
        ∀ sub lo hi, r.2.sub_strands.n_term_res sub = some lo →
          r.2.sub_strands.c_term_res sub = some hi →
          2 ≤ hi - lo + 1 ∧
            ∃ calls ∈ decide_side_calls nested_strict nested_adj_list nested_colored,
              hull_of (resnums_on calls sub.str) lo hi := by
  have h1 : ∀ ranges ∈ nested_strict.sub_strands.data, ranges = [default_range] := by decide
  have h2 : collect_colored nested_strict = .ok nested_colored :=
    ok_of_returned _ _ (by decide)
  have h3 : ∀ c ∈ nested_colored, int_min < c.resnum := by decide
  obtain ⟨r, hr⟩ : ∃ r, returned (decide_side nested_strict nested_adj_list) = some r :=
    Option.isSome_iff_exists.1 (by decide)
  have h4 := ok_of_returned _ _ hr
  have h5 :=
    (decide_side_ranges_are_hulls nested_strict nested_adj_list nested_colored h1 h2 h3).2 r h4
  exact ⟨h1, h2, by decide, h3, by decide, r, h4, h5.2.1, h5.2.2.2⟩

/-- C15 fails as stated. The zone `nested_strict` is built by calls of `On` on
three strands: the residues 10 and 21 of the strand 0 are paired with the
residues 30 and 31 of the strand 1, and the residues 14 and 15 of the strand 0
with the residues 40 and 41 of the strand 2. `decide_side` returns; one
component visits the residues 10 and 21 of the strand 0, on both sides of the
residues 14 and 15 another component visits, and the registry holds the
sub-strand 0 of the strand 0 with the range 10 to 21 and the sub-strand 1 of
the same strand with the range 14 to 15, which lies inside the first. -/
theorem decide_side_nested_counterexample :
    returned nested_zone = some nested_strict ∧
      (returned (decide_side nested_strict nested_adj_list)).map
        (fun r => r.2.sub_strands.data) =
        some [[(10, 21), (14, 15)], [(30, 31)], [(40, 41)]] ∧
      (returned (decide_side nested_strict nested_adj_list)).map
        (fun r => r.1.sheets_key_vec) = some [[⟨0, 0, 1, 0⟩], [⟨0, 1, 2, 0⟩]] ∧
      (returned (decide_side nested_strict nested_adj_list)).map
        (fun r => (r.2.sub_strands.n_term_res ⟨0, 0⟩, r.2.sub_strands.c_term_res ⟨0, 0⟩)) =
        some (some 10, some 21) ∧
      (returned (decide_side nested_strict nested_adj_list)).map
        (fun r => (r.2.sub_strands.n_term_res ⟨0, 1⟩, r.2.sub_strands.c_term_res ⟨0, 1⟩)) =
        some (some 14, some 15) ∧
      ¬ ranges_disjoint (10, 21) (14, 15) := by
  refine ⟨by decide, by decide, by decide, by decide, by decide, ?_⟩
  unfold ranges_disjoint
  decide

set_option maxRecDepth 100000 in
/-- C27. When `filter_one_unit` returns, it reports success exactly when the
number of residues between the two flanking strands (the residues of the
elements between them; compiled with `WITH_LOOP` also those of the loops) is
at most `cut_off_res_len` and the number of sub-strands between them for which
`attr(b0, ss)` is reachable is at most `cut_off_mid_str`, so counts equal to
the limits are accepted; the result then holds these two counts. A result
without success has the reason 4 with more residues than the limit, or the
reason 5 with more such sub-strands than the limit, and a result with a reason
has no success. With the default limits 60 and 1, the candidate of
`limit_unit` with exactly 60 residues and one reachable sub-strand between the
flanking strands ends with success.

The count is the one of the reachable sub-strands, not of the sub-strands of
the sheet of `b0`: in `branch_sheet` the four sub-strands are the members of
one sheet of `init_sheets`, the attribute map is the one of `init_adj_attr`,
and neither the sub-strand 1 nor the sub-strand 2 is reachable from the
sub-strand 0 or reaches it. For the flanking sub-strands 0 and 3 of
`branch_unit`, two sub-strands of the sheet lie between them, the limit is 1,
and `filter_one_unit` ends with success and `n_mid_str = 0`; both sub-strands
are counted as strands of another sheet (the bit 4 of `connection_type`). -/
theorem filter_one_unit_limits :
    (∀ {σ X : Type} (f : BabFilter σ X) (b0 b1 : SubStrand) (b0_reverse b1_reverse : Bool)
      (ids : List Nat) (r : BabFilterResult),
      filter_one_unit f b0 b1 b0_reverse b1_reverse ids = .ok r →
      (r.success = true ↔
        (mid_residues f ids ≤ f.cut_off_res_len ∧
          mid_reachable f b0 ids ≤ f.cut_off_mid_str)) ∧
      (r.success = true →
        r.mid_res_len = mid_residues f ids ∧ r.n_mid_str = mid_reachable f b0 ids) ∧
      (r.success = false →
        (r.non_bab_reason = 4 ∧ f.cut_off_res_len < mid_residues f ids) ∨
        (r.non_bab_reason = 5 ∧ f.cut_off_mid_str < mid_reachable f b0 ids)) ∧
      (r.non_bab_reason ≠ 0 → r.success = false)) ∧
    ((limit_unit (true, true)).cut_off_res_len = 60 ∧
      (limit_unit (true, true)).cut_off_mid_str = 1 ∧
      mid_residues (limit_unit (true, true)) [0, 1, 2, 3] = 60 ∧
      mid_reachable (limit_unit (true, true)) ⟨0, 0⟩ [0, 1, 2, 3] = 1 ∧
      (returned (filter_one_unit (limit_unit (true, true)) ⟨0, 0⟩ ⟨2, 0⟩ false false
          [0, 1, 2, 3])).map (fun r => (r.success, r.non_bab_reason, r.mid_res_len, r.n_mid_str)) =
        some (true, 0, 60, 1)) ∧
    (init_adj_attr branch_sheet four_substrands = some (branch_unit (true, true)).adj_attr ∧
      (init_sheets_added branch_sheet four_substrands).map
          (fun S => S.map (fun sh => sh.member_substr)) =
        some [[⟨0, 0⟩, ⟨3, 0⟩, ⟨1, 0⟩, ⟨2, 0⟩]] ∧
      (init_sheets_added branch_sheet four_substrands).map
          (fun S => mid_in_sheet (branch_unit (true, true)) S ⟨0, 0⟩ [0, 1, 2, 3]) = some 2 ∧
      (branch_unit (true, true)).cut_off_mid_str = 1 ∧
      attr_reachable (branch_unit (true, true)) ⟨0, 0⟩ ⟨1, 0⟩ = false ∧
      attr_reachable (branch_unit (true, true)) ⟨0, 0⟩ ⟨2, 0⟩ = false ∧
      mid_reachable (branch_unit (true, true)) ⟨0, 0⟩ [0, 1, 2, 3] = 0 ∧
      (returned (filter_one_unit (branch_unit (true, true)) ⟨0, 0⟩ ⟨3, 0⟩ false false
          [0, 1, 2, 3])).map
          (fun r => (r.success, r.non_bab_reason, r.mid_res_len, r.n_mid_str,
            r.connection_type)) =
        some (true, 0, 8, 0, 4) ∧
      (returned ((branch_unit (true, true)).call {} [0, 1, 2, 3] 0)).map
          (fun r => (r.1, r.2.success, r.2.non_bab_reason, r.2.n_mid_str)) =
        some (true, true, 0, 0)) := by
  refine ⟨?_, ⟨rfl, rfl, by decide, by decide, by decide⟩,
    ⟨by decide, by decide, by decide, rfl, by decide, by decide, by decide, by decide, ?_⟩⟩
  · intro σ X f b0 b1 b0_reverse b1_reverse ids r h
    rcases filter_one_unit_spec f b0 b1 b0_reverse b1_reverse ids r h with
      ⟨h1, h2, h3, h4, h5, h6, _⟩ | ⟨⟨h1, h2, _⟩, h3, h4⟩ | ⟨⟨h1, h2, _⟩, h3, h4⟩
    · refine ⟨⟨fun _ => ⟨h5, h6⟩, fun _ => h1⟩, fun _ => ⟨h3, h4⟩, fun hf => ?_,
        fun hn => absurd h2 hn⟩
      rw [h1] at hf; cases hf
    · refine ⟨⟨fun hs => ?_, fun hl => ?_⟩, fun hs => ?_, fun _ => Or.inl ⟨h2, by omega⟩,
        fun _ => h1⟩
      · rw [h1] at hs; cases hs
      · omega
      · rw [h1] at hs; cases hs
    · refine ⟨⟨fun hs => ?_, fun hl => ?_⟩, fun hs => ?_, fun _ => Or.inr ⟨h2, by omega⟩,
        fun _ => h1⟩
      · rw [h1] at hs; cases hs
      · omega
      · rw [h1] at hs; cases hs
  · decide!

theorem part_counts_ok {σ X : Type} (f : BabFilter σ X) (b0 b1 : SubStrand)
    (b0_reverse b1_reverse : Bool) (atoms : List (ATOM X)) (c : Nat × Nat)
    (h : count_left_tri f b0 b1 b0_reverse b1_reverse atoms = .ok c) :
    part_counts f b0 b1 b0_reverse b1_reverse atoms = c := by
  unfold part_counts
  rw [h]

theorem left_sum_append {σ X : Type} (f : BabFilter σ X) (b0 b1 : SubStrand)
    (b0_reverse b1_reverse : Bool) (p q : List (List (ATOM X))) :
    left_sum f b0 b1 b0_reverse b1_reverse (p ++ q) =
      left_sum f b0 b1 b0_reverse b1_reverse p + left_sum f b0 b1 b0_reverse b1_reverse q := by
  simp [left_sum]

theorem total_sum_append {σ X : Type} (f : BabFilter σ X) (b0 b1 : SubStrand)
    (b0_reverse b1_reverse : Bool) (p q : List (List (ATOM X))) :
    total_sum f b0 b1 b0_reverse b1_reverse (p ++ q) =
      total_sum f b0 b1 b0_reverse b1_reverse p + total_sum f b0 b1 b0_reverse b1_reverse q := by
  simp [total_sum]

theorem summed_refl {σ X : Type} (f : BabFilter σ X) (b0 b1 : SubStrand)
    (b0_reverse b1_reverse : Bool) (result r : BabFilterResult)
    (h1 : r.left_score = result.left_score) (h2 : r.tri_atom_count = result.tri_atom_count) :
    Summed f b0 b1 b0_reverse b1_reverse result r [] :=
  ⟨by rw [h1]; simp [left_sum], by rw [h2]; simp [total_sum], fun p hp => by cases hp⟩

theorem summed_trans {σ X : Type} (f : BabFilter σ X) (b0 b1 : SubStrand)
    (b0_reverse b1_reverse : Bool) (a b c : BabFilterResult) (p q : List (List (ATOM X)))
    (h1 : Summed f b0 b1 b0_reverse b1_reverse a b p)
    (h2 : Summed f b0 b1 b0_reverse b1_reverse b c q) :
    Summed f b0 b1 b0_reverse b1_reverse a c (p ++ q) := by
  obtain ⟨a1, a2, a3⟩ := h1
  obtain ⟨b1', b2, b3⟩ := h2
  refine ⟨?_, ?_, ?_⟩
  · rw [b1', a1, left_sum_append]; push_cast; ring
  · rw [b2, a2, total_sum_append]; omega
  · intro x hx
    rcases List.mem_append.1 hx with h | h
    · exact a3 x h
    · exact b3 x h

theorem summed_add_counts {σ X : Type} (f : BabFilter σ X) (b0 b1 : SubStrand)
    (b0_reverse b1_reverse : Bool) (result : BabFilterResult) (atoms : List (ATOM X))
    (c : Nat × Nat) (n_pdb bit : Nat) (flag : Bool)
    (h : count_left_tri f b0 b1 b0_reverse b1_reverse atoms = .ok c) :
    Summed f b0 b1 b0_reverse b1_reverse result (add_counts result c n_pdb bit flag) [atoms] := by
  have hp := part_counts_ok f b0 b1 b0_reverse b1_reverse atoms c h
  refine ⟨?_, ?_, ?_⟩
  · show result.left_score + (c.1 : ℚ) = _
    simp [left_sum, hp]
  · show result.tri_atom_count + c.2 = _
    simp [total_sum, hp]
  · intro p hp2
    rw [List.mem_singleton] at hp2
    subst hp2
    exact ⟨c, h, count_left_tri_le f _ _ _ _ _ _ h⟩

theorem mid_strand_loop_sum {σ X : Type} (f : BabFilter σ X) (b0 b1 : SubStrand)
    (b0_reverse b1_reverse : Bool) (target_sse : AtomSSE X) :
    ∀ (subs : List SubStrand) (result : BabFilterResult)
      (out : BabFilterResult ⊕ BabFilterResult),
      mid_strand_loop f b0 b1 b0_reverse b1_reverse target_sse subs result = .ok out →
      ∀ r, (out = .inl r ∨ out = .inr r) →
        Summed f b0 b1 b0_reverse b1_reverse result r
          (mid_strand_parts f b0 target_sse subs result.n_mid_str) := by
  intro subs
  induction subs with
  | nil =>
    intro result out h r hout
    unfold mid_strand_loop at h
    cases h
    rcases hout with hout | hout
    · cases hout
    · cases hout
      exact summed_refl f b0 b1 _ _ _ _ rfl rfl
  | cons ss rest ih =>
    intro result out h r hout
    unfold mid_strand_loop at h
    obtain ⟨a, ha, h⟩ := except_bind_ok _ _ _ h
    unfold mid_strand_parts
    rw [ha]
    simp only
    by_cases hreach : a.reachable = true
    · rw [if_pos hreach] at h
      rw [if_pos hreach]
      by_cases hcut : f.cut_off_mid_str < result.n_mid_str + 1
      · rw [if_pos hcut] at h
        rw [if_pos hcut]
        cases h
        rcases hout with hout | hout
        · cases hout
          exact summed_refl f b0 b1 _ _ _ _ rfl rfl
        · cases hout
      · rw [if_neg hcut] at h
        rw [if_neg hcut]
        have := ih _ out h r hout
        exact ⟨this.1, this.2.1, this.2.2⟩
    · rw [if_neg hreach] at h
      rw [if_neg hreach]
      cases hn : f.substrs.n_term_res ss with
      | none => rw [hn] at h; cases h
      | some n_term =>
        cases hc : f.substrs.c_term_res ss with
        | none => rw [hn, hc] at h; cases h
        | some c_term =>
          rw [hn, hc] at h
          simp only at h
          obtain ⟨a_begin, hb, h⟩ := except_bind_ok _ _ _ h
          obtain ⟨a_last, hl, h⟩ := except_bind_ok _ _ _ h
          obtain ⟨counts_s, hcounts, h⟩ := except_bind_ok _ _ _ h
          simp only [hb, hl]
          by_cases hinv : a_last + 1 < a_begin
          · rw [if_pos hinv] at h; cases h
          · rw [if_neg hinv] at h
            have h1 := summed_add_counts f b0 b1 b0_reverse b1_reverse result _ counts_s
              target_sse.n_pdb 4 (decide (counts_s.2 ≠ 0)) hcounts
            have h2 := ih _ out h r hout
            exact summed_trans f b0 b1 _ _ _ _ _ _ _ h1 h2

theorem mid_sse_part_sum {σ X : Type} (f : BabFilter σ X) (b0 b1 : SubStrand)
    (b0_reverse b1_reverse : Bool) (sse_id : Nat) (target_sse : AtomSSE X)
    (result : BabFilterResult) (out : BabFilterResult ⊕ BabFilterResult)
    (h : mid_sse_part f b0 b1 b0_reverse b1_reverse sse_id target_sse result = .ok out) :
    ∀ r, (out = .inl r ∨ out = .inr r) →
      Summed f b0 b1 b0_reverse b1_reverse result r
        (mid_sse_part_parts f b0 sse_id target_sse result.n_mid_str) := by
  intro r hout
  unfold mid_sse_part at h
  unfold mid_sse_part_parts
  by_cases hH : target_sse.type = 'H'
  · rw [if_pos hH] at h
    rw [if_pos hH]
    obtain ⟨counts_h, hcounts, h⟩ := except_bind_ok _ _ _ h
    cases h
    rcases hout with hout | hout
    · cases hout
    · cases hout
      exact summed_add_counts f b0 b1 b0_reverse b1_reverse result _ counts_h _ _ _ hcounts
  · rw [if_neg hH] at h
    rw [if_neg hH]
    by_cases hE : target_sse.type = 'E'
    · rw [if_pos hE] at h
      rw [if_pos hE]
      cases hv : f.substrs.vec (f.serial sse_id) with
      | none => rw [hv] at h; cases h
      | some subs =>
        rw [hv] at h
        simp only at h
        exact mid_strand_loop_sum f b0 b1 b0_reverse b1_reverse target_sse subs result out h r hout
    · rw [if_neg hE] at h
      rw [if_neg hE]
      cases h
      rcases hout with hout | hout
      · cases hout
      · cases hout
        exact summed_refl f b0 b1 _ _ _ _ rfl rfl

theorem loop_part_sum {σ X : Type} (f : BabFilter σ X) (b0 b1 : SubStrand)
    (b0_reverse b1_reverse : Bool) (n : Nat) (first : Bool)
    (result r : BabFilterResult)
    (h : loop_part f b0 b1 b0_reverse b1_reverse n first result = .ok r) :
    Summed f b0 b1 b0_reverse b1_reverse result r (loop_parts f n) := by
  unfold loop_part at h
  unfold loop_parts
  by_cases hw : f.with_loop = true
  · rw [if_pos hw] at h
    rw [if_pos hw]
    cases hl : f.loops_data.get? n with
    | none => rw [hl] at h; cases h
    | some target_loop =>
      rw [hl] at h
      simp only at h
      obtain ⟨counts, hcounts, h⟩ := except_bind_ok _ _ _ h
      cases h
      have hg : f.loops_data.getD n {} = target_loop := by
        rw [List.getD_eq_getElem?_getD, ← List.get?_eq_getElem?, hl]; rfl
      rw [hg]
      have := summed_add_counts f b0 b1 b0_reverse b1_reverse result _ counts target_loop.n_pdb 2
        (first && decide (target_loop.n_pdb ≠ 0)) hcounts
      exact ⟨this.1, this.2.1, this.2.2⟩
  · rw [if_neg hw] at h
    rw [if_neg hw]
    cases h
    exact summed_refl f b0 b1 _ _ _ _ rfl rfl

theorem mid_sse_loop_sum {σ X : Type} (f : BabFilter σ X) (b0 b1 : SubStrand)
    (b0_reverse b1_reverse : Bool) :
    ∀ (ids : List Nat) (result : BabFilterResult) (out : BabFilterResult ⊕ BabFilterResult),
      mid_sse_loop f b0 b1 b0_reverse b1_reverse ids result = .ok out →
      ∀ r, (out = .inl r ∨ out = .inr r) →
        Summed f b0 b1 b0_reverse b1_reverse result r
          (mid_sse_parts f b0 b1 b0_reverse b1_reverse ids result) := by
  intro ids
  induction ids with
  | nil =>
    intro result out h r hout
    unfold mid_sse_loop at h
    cases h
    rcases hout with hout | hout
    · cases hout
    · cases hout
      exact summed_refl f b0 b1 _ _ _ _ rfl rfl
  | cons sse_id rest ih =>
    intro result out h r hout
    unfold mid_sse_loop at h
    unfold mid_sse_parts
    cases hs : f.sses.get? sse_id with
    | none => rw [hs] at h; cases h
    | some target_sse =>
      rw [hs] at h
      simp only at h ⊢
      by_cases hcut : f.cut_off_res_len < result.mid_res_len + target_sse.atoms.length
      · rw [if_pos hcut] at h
        rw [if_pos hcut]
        cases h
        rcases hout with hout | hout
        · cases hout
          exact summed_refl f b0 b1 _ _ _ _ rfl rfl
        · cases hout
      · rw [if_neg hcut] at h
        rw [if_neg hcut]
        obtain ⟨part, hpart, h⟩ := except_bind_ok _ _ _ h
        have hp := mid_sse_part_sum f b0 b1 b0_reverse b1_reverse sse_id target_sse _ part hpart
        rw [hpart]
        cases part with
        | inl r0 =>
          simp only at h ⊢
          cases h
          have h1 := hp r0 (Or.inl rfl)
          rcases hout with hout | hout
          · cases hout
            rw [List.append_nil]
            exact ⟨h1.1, h1.2.1, h1.2.2⟩
          · cases hout
        | inr r0 =>
          simp only at h ⊢
          have h1 := hp r0 (Or.inr rfl)
          obtain ⟨r1, hloop, h⟩ := except_bind_ok _ _ _ h
          have h2 := loop_part_sum f b0 b1 b0_reverse b1_reverse sse_id false r0 r1 hloop
          rw [hloop]
          simp only
          have h3 := ih r1 out h r hout
          have h12 := summed_trans f b0 b1 _ _ _ _ _ _ _ h2 h3
          have h4 : Summed f b0 b1 b0_reverse b1_reverse result r0
              (mid_sse_part_parts f b0 sse_id target_sse result.n_mid_str) :=
            ⟨h1.1, h1.2.1, h1.2.2⟩
          exact summed_trans f b0 b1 _ _ _ _ _ _ _ h4 h12

theorem filter_one_unit_sum {σ X : Type} (f : BabFilter σ X) (b0 b1 : SubStrand)
    (b0_reverse b1_reverse : Bool) (ids : List Nat) (r : BabFilterResult)
    (h : filter_one_unit f b0 b1 b0_reverse b1_reverse ids = .ok r) :
    (∀ p ∈ unit_parts f b0 b1 b0_reverse b1_reverse ids,
      ∃ c, count_left_tri f b0 b1 b0_reverse b1_reverse p = .ok c ∧ c.1 ≤ c.2) ∧
    r.tri_atom_count =
      total_sum f b0 b1 b0_reverse b1_reverse (unit_parts f b0 b1 b0_reverse b1_reverse ids) ∧
    (r.success = true →
      r.left_score =
        if total_sum f b0 b1 b0_reverse b1_reverse
            (unit_parts f b0 b1 b0_reverse b1_reverse ids) = 0 then 0
        else (left_sum f b0 b1 b0_reverse b1_reverse
            (unit_parts f b0 b1 b0_reverse b1_reverse ids) : ℚ) /
          (total_sum f b0 b1 b0_reverse b1_reverse
            (unit_parts f b0 b1 b0_reverse b1_reverse ids) : ℚ)) ∧
    (r.success = false →
      r.left_score =
        (left_sum f b0 b1 b0_reverse b1_reverse
          (unit_parts f b0 b1 b0_reverse b1_reverse ids) : ℚ)) := by
  unfold filter_one_unit at h
  obtain ⟨r0, hloop, h⟩ := except_bind_ok _ _ _ h
  have h1 := loop_part_sum f b0 b1 b0_reverse b1_reverse (ids.headD 0) true _ r0 hloop
  obtain ⟨out, hmid, h⟩ := except_bind_ok _ _ _ h
  have hu : unit_parts f b0 b1 b0_reverse b1_reverse ids =
      loop_parts f (ids.headD 0) ++
        mid_sse_parts f b0 b1 b0_reverse b1_reverse ids.tail.dropLast r0 := by
    unfold unit_parts
    rw [hloop]
  have key : ∀ r1, (out = .inl r1 ∨ out = .inr r1) →
      Summed f b0 b1 b0_reverse b1_reverse { sub_first := b0, sub_last := b1 } r1
        (unit_parts f b0 b1 b0_reverse b1_reverse ids) := by
    intro r1 hout
    rw [hu]
    exact summed_trans f b0 b1 _ _ _ _ _ _ _ h1
      (mid_sse_loop_sum f b0 b1 b0_reverse b1_reverse _ r0 out hmid r1 hout)
  have z1 : ({ sub_first := b0, sub_last := b1 } : BabFilterResult).left_score = 0 := rfl
  have z2 : ({ sub_first := b0, sub_last := b1 } : BabFilterResult).tri_atom_count = 0 := rfl
  cases out with
  | inl r1 =>
    simp only at h
    cases h
    obtain ⟨k1, k2, k3⟩ := key r (Or.inl rfl)
    rw [z1, zero_add] at k1
    rw [z2, zero_add] at k2
    have hs : r.success = false := by
      obtain ⟨hs, _⟩ : r.success = false ∧ True := by
        rcases (mid_sse_loop_spec f b0 b1 b0_reverse b1_reverse ids.tail.dropLast r0 (.inl r)
          (loop_part_spec f b0 b1 b0_reverse b1_reverse (ids.headD 0) true _ r0
            ⟨rfl, rfl, 0, le_refl _, by simp⟩ hloop).1
          (by rw [(loop_part_spec f b0 b1 b0_reverse b1_reverse (ids.headD 0) true _ r0
            ⟨rfl, rfl, 0, le_refl _, by simp⟩ hloop).2.2]; exact Nat.zero_le _) hmid).2 r rfl with
          ⟨d, _⟩ | ⟨d, _⟩
        · exact ⟨d.1, trivial⟩
        · exact ⟨d.1, trivial⟩
      exact hs
    exact ⟨k3, k2, fun ht => (by rw [hs] at ht; cases ht), fun _ => k1⟩
  | inr r1 =>
    simp only at h
    cases h
    obtain ⟨k1, k2, k3⟩ := key r1 (Or.inr rfl)
    rw [z1, zero_add] at k1
    rw [z2, zero_add] at k2
    have hs1 : r1.success = false :=
      ((mid_sse_loop_spec f b0 b1 b0_reverse b1_reverse ids.tail.dropLast r0 (.inr r1)
        (loop_part_spec f b0 b1 b0_reverse b1_reverse (ids.headD 0) true _ r0
          ⟨rfl, rfl, 0, le_refl _, by simp⟩ hloop).1
        (by rw [(loop_part_spec f b0 b1 b0_reverse b1_reverse (ids.headD 0) true _ r0
          ⟨rfl, rfl, 0, le_refl _, by simp⟩ hloop).2.2]; exact Nat.zero_le _) hmid).1 r1 rfl).1.1
    unfold finish_unit
    by_cases hcut : f.cut_off_res_len < r1.mid_res_len
    · rw [if_pos hcut]
      exact ⟨k3, k2, fun ht => (by
        rw [show ({ r1 with non_bab_reason := 4 } : BabFilterResult).success = r1.success
          from rfl, hs1] at ht
        cases ht), fun _ => k1⟩
    · rw [if_neg hcut]
      refine ⟨k3, k2, fun _ => ?_, fun hf => (by cases hf)⟩
      show (if r1.tri_atom_count ≠ 0 then r1.left_score / (r1.tri_atom_count : ℚ) else 0) = _
      rw [← k2]
      by_cases ht : r1.tri_atom_count = 0
      · rw [if_neg (by simpa using ht), if_pos ht]
      · rw [if_pos ht, if_neg ht, k1]

theorem left_sum_le_total {σ X : Type} (f : BabFilter σ X) (b0 b1 : SubStrand)
    (b0_reverse b1_reverse : Bool) :
    ∀ parts : List (List (ATOM X)),
      (∀ p ∈ parts, ∃ c, count_left_tri f b0 b1 b0_reverse b1_reverse p = .ok c ∧ c.1 ≤ c.2) →
      left_sum f b0 b1 b0_reverse b1_reverse parts ≤
        total_sum f b0 b1 b0_reverse b1_reverse parts := by
  intro parts
  induction parts with
  | nil => intro _; simp [left_sum, total_sum]
  | cons p rest ih =>
    intro h
    obtain ⟨c, hc, hle⟩ := h p (List.mem_cons_self _ _)
    have hp := part_counts_ok f b0 b1 b0_reverse b1_reverse p c hc
    have := ih (fun q hq => h q (List.mem_cons_of_mem _ hq))
    unfold left_sum total_sum at this ⊢
    simp only [List.map_cons, List.sum_cons, hp]
    omega

/-- C28, as amended. The score that `operator()(ss0, ss1, first, last,
reverse)` leaves in `last_result`, with `parts` the ranges of atoms for which
the run of `filter_one_unit` called `count_left_tri` (every call returned),
`left` the sum of the first components of the tuples it returned and `total`
the sum of the second ones. In all cases `tri_atom_count` is `total`. With
success the score is `left / total`, and 0 when `total` is 0, so it lies
between 0 and 1. After a rejection with the reason 2 or 3 it is 0. After a
rejection with the reason 4 or 5 it is `left`, the number of decisions for the
left summed up before the rejection, not divided by `total`. -/
theorem left_score_spec {σ X : Type} (f : BabFilter σ X) (ss0 ss1 : SubStrand)
    (ids : List Nat) (reverse : Nat) (r : Bool × BabFilterResult)
    (h : f.call_sub ss0 ss1 ids reverse = .ok r) :
    (r.2.success = true →
      ∃ rf rl, reverse_bit reverse (ids.headD 0) = .ok rf ∧
        reverse_bit reverse (ids.getLastD 0) = .ok rl ∧
        (∀ p ∈ unit_parts f ss0 ss1 rf rl ids,
          ∃ c, count_left_tri f ss0 ss1 rf rl p = .ok c ∧ c.1 ≤ c.2) ∧
        r.2.tri_atom_count = total_sum f ss0 ss1 rf rl (unit_parts f ss0 ss1 rf rl ids) ∧
        left_sum f ss0 ss1 rf rl (unit_parts f ss0 ss1 rf rl ids) ≤
          total_sum f ss0 ss1 rf rl (unit_parts f ss0 ss1 rf rl ids) ∧
        r.2.left_score =
          (if total_sum f ss0 ss1 rf rl (unit_parts f ss0 ss1 rf rl ids) = 0 then 0
           else (left_sum f ss0 ss1 rf rl (unit_parts f ss0 ss1 rf rl ids) : ℚ) /
             (total_sum f ss0 ss1 rf rl (unit_parts f ss0 ss1 rf rl ids) : ℚ)) ∧
        0 ≤ r.2.left_score ∧ r.2.left_score ≤ 1) ∧
    (r.2.success = false →
      ((r.2.non_bab_reason = 2 ∨ r.2.non_bab_reason = 3) ∧ r.2.left_score = 0 ∧
        r.2.tri_atom_count = 0) ∨
      ((r.2.non_bab_reason = 4 ∨ r.2.non_bab_reason = 5) ∧
        ∃ rf rl, reverse_bit reverse (ids.headD 0) = .ok rf ∧
          reverse_bit reverse (ids.getLastD 0) = .ok rl ∧
          (∀ p ∈ unit_parts f ss0 ss1 rf rl ids,
            ∃ c, count_left_tri f ss0 ss1 rf rl p = .ok c ∧ c.1 ≤ c.2) ∧
          r.2.tri_atom_count = total_sum f ss0 ss1 rf rl (unit_parts f ss0 ss1 rf rl ids) ∧
          r.2.left_score =
            (left_sum f ss0 ss1 rf rl (unit_parts f ss0 ss1 rf rl ids) : ℚ))) := by
  unfold BabFilter.call_sub at h
  by_cases hcond : non_bab_condition f.with_loop ids.length ≠ 0
  · rw [if_pos hcond] at h
    cases h
    refine ⟨fun hs => (by cases hs), fun _ => Or.inl ⟨Or.inl ?_, rfl, rfl⟩⟩
    show non_bab_condition f.with_loop ids.length = 2
    unfold non_bab_condition at hcond ⊢
    split <;> simp_all
  · rw [if_neg hcond] at h
    obtain ⟨a, _, h⟩ := except_bind_ok _ _ _ h
    obtain ⟨rf, hrf, h⟩ := except_bind_ok _ _ _ h
    obtain ⟨rl, hrl, h⟩ := except_bind_ok _ _ _ h
    by_cases hg : (!a.reachable || direction_with_reverse a.direction rf rl) = true
    · rw [if_pos hg] at h
      cases h
      exact ⟨fun hs => (by cases hs), fun _ => Or.inl ⟨Or.inr rfl, rfl, rfl⟩⟩
    · rw [if_neg hg] at h
      obtain ⟨result, hres, h⟩ := except_bind_ok _ _ _ h
      cases h
      obtain ⟨s1, s2, s3, s4⟩ := filter_one_unit_sum f ss0 ss1 rf rl ids result hres
      have hle := left_sum_le_total f ss0 ss1 rf rl _ s1
      refine ⟨fun hs => ?_, fun hf => Or.inr ⟨?_, rf, rl, hrf, hrl, s1, s2, s4 hf⟩⟩
      · have hsc := s3 hs
        have hb := score_bounds _ _ hle
        exact ⟨rf, rl, hrf, hrl, s1, s2, hle, hsc, by rw [hsc]; exact hb.1,
          by rw [hsc]; exact hb.2⟩
      · have hf2 : result.success = false := hf
        rcases filter_one_unit_spec f _ _ _ _ _ _ hres with
          ⟨h1, _⟩ | ⟨⟨_, h2, _⟩, _⟩ | ⟨⟨_, h2, _⟩, _⟩
        · rw [hf2] at h1; cases h1
        · exact Or.inl h2
        · exact Or.inr h2

set_option maxRecDepth 100000 in
/-- C28, witness: the call for the two sub-strands of `helix_unit`, with every
atom on the left of every side, ends with success; `count_left_tri` is called
once, for the nine atoms of the helix, and returns 54 decisions for the left
among 54; the score is 1. -/
theorem left_score_spec_witness :
    unit_parts (helix_unit (true, true)) ⟨0, 0⟩ ⟨1, 0⟩ false false [0, 1, 2] =
        [List.replicate 9 { xyz := (), pdb := true }] ∧
      left_sum (helix_unit (true, true)) ⟨0, 0⟩ ⟨1, 0⟩ false false
        (unit_parts (helix_unit (true, true)) ⟨0, 0⟩ ⟨1, 0⟩ false false [0, 1, 2]) = 54 ∧
      total_sum (helix_unit (true, true)) ⟨0, 0⟩ ⟨1, 0⟩ false false
        (unit_parts (helix_unit (true, true)) ⟨0, 0⟩ ⟨1, 0⟩ false false [0, 1, 2]) = 54 ∧
      ∃ r, (helix_unit (true, true)).call_sub ⟨0, 0⟩ ⟨1, 0⟩ [0, 1, 2] 0 = .ok r ∧
        r.2.success = true ∧ r.2.tri_atom_count = 54 ∧ r.2.left_score = 1 ∧
        0 ≤ r.2.left_score ∧ r.2.left_score ≤ 1 := by
  have hp : unit_parts (helix_unit (true, true)) ⟨0, 0⟩ ⟨1, 0⟩ false false [0, 1, 2] =
      [List.replicate 9 { xyz := (), pdb := true }] := by rfl
  have hl : left_sum (helix_unit (true, true)) ⟨0, 0⟩ ⟨1, 0⟩ false false
      (unit_parts (helix_unit (true, true)) ⟨0, 0⟩ ⟨1, 0⟩ false false [0, 1, 2]) = 54 := by
    rw [hp]; decide
  have ht : total_sum (helix_unit (true, true)) ⟨0, 0⟩ ⟨1, 0⟩ false false
      (unit_parts (helix_unit (true, true)) ⟨0, 0⟩ ⟨1, 0⟩ false false [0, 1, 2]) = 54 := by
    rw [hp]; decide
  obtain ⟨r, hr⟩ := Option.isSome_iff_exists.1
    (show (returned ((helix_unit (true, true)).call_sub ⟨0, 0⟩ ⟨1, 0⟩ [0, 1, 2] 0)).isSome = true
      by decide)
  have hr1 := ok_of_returned _ _ hr
  have hs : r.2.success = true := by
    have : (returned ((helix_unit (true, true)).call_sub ⟨0, 0⟩ ⟨1, 0⟩ [0, 1, 2] 0)).map
        (fun r => r.2.success) = some true := by decide
    rw [hr] at this
    exact Option.some.inj this
  obtain ⟨rf, rl, hrf, hrl, _, htri, _, hsc, hb0, hb1⟩ :=
    (left_score_spec (helix_unit (true, true)) ⟨0, 0⟩ ⟨1, 0⟩ [0, 1, 2] 0 r hr1).1 hs
  have erf : rf = false := by
    have : reverse_bit 0 ([0, 1, 2].headD 0) = .ok false := by rfl
    rw [this] at hrf
    exact (Except.ok.inj hrf).symm
  have erl : rl = false := by
    have : reverse_bit 0 ([0, 1, 2].getLastD 0) = .ok false := by rfl
    rw [this] at hrl
    exact (Except.ok.inj hrl).symm
  subst erf
  subst erl
  rw [ht] at htri
  rw [ht, hl] at hsc
  exact ⟨hp, hl, ht, r, hr1, hs, htri, by rw [hsc]; norm_num, hb0, hb1⟩

/-- C28, counterexample: in `long_unit` a helix of 9 residues and a helix of
60 residues lie between the flanking strands. The first helix gives 54
decisions, all for the left; the second one makes 69 residues, more than 60,
and the candidate is rejected with the reason 4: the score left in the result
is 54. -/
theorem left_score_rejected_counterexample :
    (returned ((long_unit (true, true)).call {} [0, 1, 2, 3] 0)).map
      (fun r => (r.1, r.2.success, r.2.non_bab_reason, r.2.mid_res_len, r.2.tri_atom_count,
        r.2.left_score)) = some (false, false, 4, 69, 54, 54) := by
  decide!

theorem at2_set2_other {α : Type} (a : α × α) (i : Bool) (x : α) :
    at2 (set2 a i x) (!i) = at2 a (!i) := by
  cases i <;> rfl

theorem at2_set2_same {α : Type} (a : α × α) (i : Bool) (x : α) : at2 (set2 a i x) i = x := by
  cases i <;> rfl

theorem on_outcome (z : StrictZone) (sse_id : Nat) (resnum : Int) (paired_sse_id : Nat)
    (paired_resnum : Int) (hbonded : Bool) (bridge_type : BridgeType) :
    ((ZoneResidue.make z.sses sse_id resnum = none ∨
        ZoneResidue.make z.sses paired_sse_id paired_resnum = none) →
      On z sse_id resnum paired_sse_id paired_resnum hbonded bridge_type = .ok z) ∧
    ∀ res0 res1 info, ZoneResidue.make z.sses sse_id resnum = some res0 →
      ZoneResidue.make z.sses paired_sse_id paired_resnum = some res1 →
      strict_c_info z.strict res0 = .ok info →
      ((at2 info.adj_residues hbonded).same res1 = true →
        On z sse_id resnum paired_sse_id paired_resnum hbonded bridge_type = .ok z) ∧
      ((at2 info.adj_residues hbonded).same res1 = false → at2 info.adj_set hbonded = true →
        On z sse_id resnum paired_sse_id paired_resnum hbonded bridge_type =
          .error .exception) ∧
      ((at2 info.adj_residues hbonded).same res1 = false → at2 info.adj_set hbonded = false →
        ∃ z1, On z sse_id resnum paired_sse_id paired_resnum hbonded bridge_type = .ok z1 ∧
          RegisteredAt z z1 res0 res1 hbonded bridge_type) := by
  refine ⟨?_, ?_⟩
  · intro h
    unfold On
    rcases h with h | h
    · rw [h]
    · rw [h]
      cases ZoneResidue.make z.sses sse_id resnum <;> rfl
  · intro res0 res1 info h0 h1 hi
    have hon : On z sse_id resnum paired_sse_id paired_resnum hbonded bridge_type =
        (if (info.add_pair res1 hbonded bridge_type).1 then
          .ok { z with
            strict := strict_set z.strict res0 (info.add_pair res1 hbonded bridge_type).2 }
        else .error .exception) := by
      unfold On
      rw [h0, h1]
      simp only [On_one, hi]
      rfl
    refine ⟨?_, ?_, ?_⟩
    · intro hs
      rw [hon]
      have hp : info.add_pair res1 hbonded bridge_type = (true, info) := by
        unfold ZoneInfo.add_pair
        rw [if_pos hs]
      rw [hp]
      simp only [if_true]
      have hc := (strict_c_info_cell _ _ _).1 hi
      have hset : strict_set z.strict res0 info = z.strict := by
        unfold strict_set
        unfold cell at hc
        cases hrow : z.strict.get? res0.serial_str_id with
        | none => rw [hrow] at hc; cases hc
        | some row =>
          rw [hrow] at hc
          simp only [Option.some_bind] at hc
          have hd : z.strict.getD res0.serial_str_id [] = row := by
            rw [List.getD_eq_getElem?_getD, ← List.get?_eq_getElem?, hrow]; rfl
          rw [hd]
          have h2 : row.set res0.serial_res_id info = row := by
            apply List.ext_get?
            intro n
            by_cases hn : res0.serial_res_id = n
            · subst hn
              rw [List.get?_eq_getElem?, List.getElem?_set]
              rw [List.get?_eq_getElem?] at hc
              have hl : res0.serial_res_id < row.length := by
                by_contra hlt
                rw [List.getElem?_eq_none (by omega)] at hc
                cases hc
              simp [hl, hc]
            · rw [List.get?_eq_getElem?, List.get?_eq_getElem?, List.getElem?_set]
              simp [hn]
          rw [h2]
          apply List.ext_get?
          intro n
          by_cases hn : res0.serial_str_id = n
          · subst hn
            rw [List.get?_eq_getElem?, List.getElem?_set]
            rw [List.get?_eq_getElem?] at hrow
            have hl : res0.serial_str_id < z.strict.length := by
              by_contra hlt
              rw [List.getElem?_eq_none (by omega)] at hrow
              cases hrow
            simp [hl, hrow]
          · rw [List.get?_eq_getElem?, List.get?_eq_getElem?, List.getElem?_set]
            simp [hn]
      rw [hset]
    · intro hs hset
      rw [hon]
      have hp : (info.add_pair res1 hbonded bridge_type).1 = false := by
        unfold ZoneInfo.add_pair
        rw [if_neg (by rw [hs]; decide), if_pos hset]
      rw [hp]
      rfl
    · intro hs hset
      have hp : info.add_pair res1 hbonded bridge_type =
          (true, { info with
            colored := true,
            adj_residues := set2 info.adj_residues hbonded res1,
            adj_set := set2 info.adj_set hbonded true,
            bridge_type := set2 info.bridge_type hbonded bridge_type }) := by
        unfold ZoneInfo.add_pair
        rw [if_neg (by rw [hs]; decide), if_neg (by rw [hset]; decide)]
      rw [hon, hp]
      simp only [if_true]
      refine ⟨_, rfl, rfl, rfl, rfl, rfl, ⟨info, { info with
            colored := true,
            adj_residues := set2 info.adj_residues hbonded res1,
            adj_set := set2 info.adj_set hbonded true,
            bridge_type := set2 info.bridge_type hbonded bridge_type }, hi, ?_, ?_⟩, ?_⟩
      · rw [strict_c_info_cell, cell_strict_set]
        have hc := (strict_c_info_cell _ _ _).1 hi
        rw [if_pos ⟨rfl, rfl, by rw [hc]; rfl⟩]
      · exact ⟨rfl, rfl, at2_set2_same _ _ _, at2_set2_same _ _ _, at2_set2_same _ _ _,
          at2_set2_other _ _ _, at2_set2_other _ _ _, at2_set2_other _ _ _⟩
      · intro i j hij
        rw [cell_strict_set, if_neg (fun h => hij ⟨h.1, h.2.1⟩)]

theorem bridge_outcome_of_on (s : ZoneGenState) (last_pairs1 : List (Nat × LastPair))
    (target_str : Nat) (r0 : Int) (adj_str : Nat) (r1 : Int) (hbonded : Bool)
    (b_type : BridgeType) :
    BridgeOutcome s
      ((On s.strict_zone target_str r0 adj_str r1 hbonded b_type).bind (fun strict_zone =>
        .ok { strict_zone := strict_zone, last_pairs := last_pairs1 }))
      last_pairs1 target_str r0 adj_str r1 hbonded b_type := by
  obtain ⟨h1, h2⟩ := on_outcome s.strict_zone target_str r0 adj_str r1 hbonded b_type
  refine ⟨fun h => by rw [h1 h]; rfl, ?_⟩
  intro res0 res1 info e0 e1 hi
  obtain ⟨a, b, c⟩ := h2 res0 res1 info e0 e1 hi
  refine ⟨fun hs => by rw [a hs]; rfl, fun hs hset => by rw [b hs hset]; rfl, ?_⟩
  intro hs hset
  obtain ⟨z1, hz, hr⟩ := c hs hset
  exact ⟨z1, by rw [hz]; rfl, hr⟩

/-- C35. In the loop of `gen_strict_zone` over the hydrogen bonds of a target
strand, for a bond `cur` whose partner strand `adj_str` is adjacent to the
target, with `last` the entry of `last_pairs` for that strand and `last_pairs1`
the map `last_pairs` with `cur` as the entry for the strand:
when `last` is the entry of a new `LastPair` (no bond to the strand before), or
the side flag is the same, or none of the patterns below holds, the round
returns the zone as it is. Otherwise: for a parallel pair, the same first
residue and the second residue two further is the bridge `(r0, r1 - 1)` of the
hbonded slot with the type `ParallelHbonds`, and the first residue two further
and the same second residue is the bridge `(r0 - 1, r1)` of the other slot with
the type `ParallelNoHbonds`; for an anti-parallel pair, the same two residues
are the bridge `(r0, r1)` of the hbonded slot with the type `SmallRing`, and
the first residue two further and the second two before is the bridge
`(r0 - 1, r1 + 1)` of the other slot with the type `LargeRing`. What the round
does with the bridge is `BridgeOutcome`: the partner is written into the slot
of the zone info of the first residue, with the type, and the residue is
coloured, only when both residues are residues of their strands, the slot is
not set and the residue in the slot does not compare equal to the partner; an
unset slot holds the default residue (element 0, residue number 0), so a bridge
to that residue is not registered and the zone is returned as it is. In all
cases in which the round returns, `cur` is the entry of `last_pairs` for the
strand afterwards. -/
theorem gen_strict_zone_step_spec (sses : List SSE) (undirected_adj_list : AdjList)
    (adj_ids : List Nat) (target_str adj_str : Nat) (s : ZoneGenState) (cur : HbondPair)
    (data : AdjStrandData) (last : LastPair) (last_pairs1 : List (Nat × LastPair))
    (hpartner : partner_of sses cur = some adj_str) (hadj : adj_str ∈ adj_ids)
    (hdata : map_at undirected_adj_list (target_str, adj_str) = some data)
    (hlast : (map_at s.last_pairs adj_str).getD {} = last)
    (hnew : last_pairs1 = map_set (map_insert s.last_pairs adj_str {}) adj_str
      { res0 := cur.1, res1 := cur.2.1, hbond_dir := cur.2.2, first := false }) :
    (last.first = true →
      gen_strict_zone_step sses undirected_adj_list adj_ids target_str s cur =
        .ok { strict_zone := s.strict_zone, last_pairs := last_pairs1 }) ∧
    (cur.2.2 = last.hbond_dir →
      gen_strict_zone_step sses undirected_adj_list adj_ids target_str s cur =
        .ok { strict_zone := s.strict_zone, last_pairs := last_pairs1 }) ∧
    (last.first = false → cur.2.2 ≠ last.hbond_dir →
      (data.direction = true → cur.1 = last.res0 → cur.2.1 = last.res1 + 2 →
        BridgeOutcome s (gen_strict_zone_step sses undirected_adj_list adj_ids target_str s cur)
          last_pairs1 target_str cur.1 adj_str (cur.2.1 - 1) true BridgeType.ParallelHbonds) ∧
      (data.direction = true → cur.1 = last.res0 + 2 → cur.2.1 = last.res1 →
        BridgeOutcome s (gen_strict_zone_step sses undirected_adj_list adj_ids target_str s cur)
          last_pairs1 target_str (cur.1 - 1) adj_str cur.2.1 false
          BridgeType.ParallelNoHbonds) ∧
      (data.direction = true →
        ¬ (cur.1 = last.res0 ∧ cur.2.1 = last.res1 + 2) →
        ¬ (cur.1 = last.res0 + 2 ∧ cur.2.1 = last.res1) →
        gen_strict_zone_step sses undirected_adj_list adj_ids target_str s cur =
          .ok { strict_zone := s.strict_zone, last_pairs := last_pairs1 }) ∧
      (data.direction = false → cur.1 = last.res0 → cur.2.1 = last.res1 →
        BridgeOutcome s (gen_strict_zone_step sses undirected_adj_list adj_ids target_str s cur)
          last_pairs1 target_str cur.1 adj_str cur.2.1 true BridgeType.SmallRing) ∧
      (data.direction = false → cur.1 = last.res0 + 2 → cur.2.1 = last.res1 - 2 →
        BridgeOutcome s (gen_strict_zone_step sses undirected_adj_list adj_ids target_str s cur)
          last_pairs1 target_str (cur.1 - 1) adj_str (cur.2.1 + 1) false
          BridgeType.LargeRing) ∧
      (data.direction = false →
        ¬ (cur.1 = last.res0 ∧ cur.2.1 = last.res1) →
        ¬ (cur.1 = last.res0 + 2 ∧ cur.2.1 = last.res1 - 2) →
        gen_strict_zone_step sses undirected_adj_list adj_ids target_str s cur =
          .ok { strict_zone := s.strict_zone, last_pairs := last_pairs1 })) ∧
    ∀ s1, gen_strict_zone_step sses undirected_adj_list adj_ids target_str s cur = .ok s1 →
      s1.last_pairs = last_pairs1 ∧
      (map_at s1.last_pairs adj_str).getD {} =
        { res0 := cur.1, res1 := cur.2.1, hbond_dir := cur.2.2, first := false } := by
  have hstep : gen_strict_zone_step sses undirected_adj_list adj_ids target_str s cur =
      (if last.first = false then
          (if data.direction then
            (if cur.1 = last.res0 ∧ cur.2.1 = last.res1 + 2 ∧ cur.2.2 ≠ last.hbond_dir then
              On s.strict_zone target_str cur.1 adj_str (cur.2.1 - 1) true
                BridgeType.ParallelHbonds
            else if cur.1 = last.res0 + 2 ∧ cur.2.1 = last.res1 ∧
                cur.2.2 ≠ last.hbond_dir then
              On s.strict_zone target_str (cur.1 - 1) adj_str cur.2.1 false
                BridgeType.ParallelNoHbonds
            else .ok s.strict_zone)
          else
            (if cur.1 = last.res0 ∧ cur.2.1 = last.res1 ∧ cur.2.2 ≠ last.hbond_dir then
              On s.strict_zone target_str cur.1 adj_str cur.2.1 true BridgeType.SmallRing
            else if cur.1 = last.res0 + 2 ∧ cur.2.1 = last.res1 - 2 ∧
                cur.2.2 ≠ last.hbond_dir then
              On s.strict_zone target_str (cur.1 - 1) adj_str (cur.2.1 + 1) false
                BridgeType.LargeRing
            else .ok s.strict_zone))
        else .ok s.strict_zone).bind (fun strict_zone =>
          .ok { strict_zone := strict_zone, last_pairs := last_pairs1 }) := by
    unfold gen_strict_zone_step
    rw [hpartner]
    simp only
    rw [if_neg (not_not.2 hadj), hdata]
    simp only
    rw [hlast, hnew]
  refine ⟨?_, ?_, ?_, ?_⟩
  · intro hf
    rw [hstep, if_neg (by rw [hf]; decide)]
    rfl
  · intro hsame
    rw [hstep]
    by_cases hf : last.first = false
    · rw [if_pos hf]
      by_cases hd : data.direction = true
      · rw [if_pos hd, if_neg (fun h => h.2.2 hsame), if_neg (fun h => h.2.2 hsame)]
        rfl
      · rw [if_neg hd, if_neg (fun h => h.2.2 hsame), if_neg (fun h => h.2.2 hsame)]
        rfl
    · rw [if_neg hf]
      rfl
  · intro hf hflip
    rw [hstep, if_pos hf]
    refine ⟨?_, ?_, ?_, ?_, ?_, ?_⟩
    · intro hd e0 e1
      rw [if_pos hd, if_pos ⟨e0, e1, hflip⟩]
      exact bridge_outcome_of_on _ _ _ _ _ _ _ _
    · intro hd e0 e1
      rw [if_pos hd, if_neg (fun h => by have := h.1; omega), if_pos ⟨e0, e1, hflip⟩]
      exact bridge_outcome_of_on _ _ _ _ _ _ _ _
    · intro hd n1 n2
      rw [if_pos hd, if_neg (fun h => n1 ⟨h.1, h.2.1⟩), if_neg (fun h => n2 ⟨h.1, h.2.1⟩)]
      rfl
    · intro hd e0 e1
      rw [if_neg (by rw [hd]; decide), if_pos ⟨e0, e1, hflip⟩]
      exact bridge_outcome_of_on _ _ _ _ _ _ _ _
    · intro hd e0 e1
      rw [if_neg (by rw [hd]; decide), if_neg (fun h => by have := h.1; omega),
        if_pos ⟨e0, e1, hflip⟩]
      exact bridge_outcome_of_on _ _ _ _ _ _ _ _
    · intro hd n1 n2
      rw [if_neg (by rw [hd]; decide), if_neg (fun h => n1 ⟨h.1, h.2.1⟩),
        if_neg (fun h => n2 ⟨h.1, h.2.1⟩)]
      rfl
  · intro s1 hs1
    rw [hstep] at hs1
    obtain ⟨z1, _, h2⟩ := except_bind_ok _ _ _ hs1
    simp only [Except.ok.injEq] at h2
    subst h2
    refine ⟨rfl, ?_⟩
    simp only
    rw [hnew, map_getD_set_insert, if_pos rfl]

/-- C35, witness. On `ladder_sses` the strand 1 is parallel to the strand 2;
after the bond of the residue 11 to the residue 20 with the flag 0, the bond of
the residue 11 to the residue 22 with the flag 1 registers the residue 21 as
the partner of the residue 11 in the hbonded slot as `ParallelHbonds`. On
`zero_sses` the strand 1 is anti-parallel to the strand 0; after the bond of
the residue 10 to the residue 0 with the flag 0, the bond of the same residues
with the flag 1 is the pattern of a small ring, the slot of the residue 10 is
not set, and the round returns the zone as it is: the residue 0 of the element
0 compares equal to the default residue of the slot. The loop over the two
bonds leaves the new zone as it is. -/
theorem gen_strict_zone_step_witness :
    (partner_of ladder_sses (11, 22, 1) = some 2 ∧
      ∃ z1, gen_strict_zone_step ladder_sses ladder_adj_list [0, 2] 1
            { strict_zone := StrictZone.init ladder_sses,
              last_pairs := [(2, { res0 := 11, res1 := 20, hbond_dir := 0, first := false })] }
            (11, 22, 1) =
          .ok { strict_zone := z1,
                last_pairs := [(2, { res0 := 11, res1 := 22, hbond_dir := 1, first := false })] } ∧
        RegisteredAt (StrictZone.init ladder_sses) z1 ⟨1, 11, 1, 0, true⟩ ⟨2, 21, 2, 0, true⟩
          true BridgeType.ParallelHbonds) ∧
    (partner_of zero_sses (10, 0, 1) = some 0 ∧
      strict_c_info (StrictZone.init zero_sses).strict ⟨1, 10, 1, 0, true⟩ = .ok {} ∧
      gen_strict_zone_step zero_sses zero_adj_list [0] 1
          { strict_zone := StrictZone.init zero_sses,
            last_pairs := [(0, { res0 := 10, res1 := 0, hbond_dir := 0, first := false })] }
          (10, 0, 1) =
        .ok { strict_zone := StrictZone.init zero_sses,
              last_pairs := [(0, { res0 := 10, res1 := 0, hbond_dir := 1, first := false })] } ∧
      (returned (gen_strict_zone_strand zero_sses zero_adj_list [0] 1 (StrictZone.init zero_sses)
          [(10, 0, 0), (10, 0, 1)])).map (fun s => s.strict_zone) =
        some (StrictZone.init zero_sses)) := by
  refine ⟨⟨by decide, ?_⟩, by decide, rfl, ?_, by decide⟩
  · exact ((((gen_strict_zone_step_spec ladder_sses ladder_adj_list [0, 2] 1 2
      { strict_zone := StrictZone.init ladder_sses,
        last_pairs := [(2, { res0 := 11, res1 := 20, hbond_dir := 0, first := false })] }
      (11, 22, 1) ⟨2, true, 2⟩ { res0 := 11, res1 := 20, hbond_dir := 0, first := false }
      [(2, { res0 := 11, res1 := 22, hbond_dir := 1, first := false })]
      (by decide) (by decide) (by decide) (by decide) (by decide)).2.2.1 rfl (by decide)).1
        rfl rfl rfl).2 ⟨1, 11, 1, 0, true⟩ ⟨2, 21, 2, 0, true⟩ {} (by decide) (by decide)
          rfl).2.2 (by decide) (by decide)
  · exact ((((gen_strict_zone_step_spec zero_sses zero_adj_list [0] 1 0
      { strict_zone := StrictZone.init zero_sses,
        last_pairs := [(0, { res0 := 10, res1 := 0, hbond_dir := 0, first := false })] }
      (10, 0, 1) ⟨0, false, 2⟩ { res0 := 10, res1 := 0, hbond_dir := 0, first := false }
      [(0, { res0 := 10, res1 := 0, hbond_dir := 1, first := false })]
      (by decide) (by decide) (by decide) (by decide) (by decide)).2.2.1 rfl (by decide)).2.2.2.1
        rfl rfl rfl).2 ⟨1, 10, 1, 0, true⟩ ⟨0, 0, 0, 0, true⟩ {} (by decide) (by decide)
          rfl).1 (by decide)

/-! ## `AdjListWithSub::update_key_substr` -/

theorem replace_erased_itr_persist (old new K : SubStrandsPairKey) (h : K ≠ old) :
    ∀ (vs : List SubStrandsPairKeyVec) (j : Nat), K ∈ vs.getD j [] →
      K ∈ (replace_erased_itr vs old new).getD j [] := by
  intro vs
  induction vs with
  | nil => intro j hK; simpa [replace_erased_itr] using hK
  | cons vec rest ih =>
    intro j hK
    by_cases ho : old ∈ vec
    · cases j with
      | zero =>
        simp only [replace_erased_itr, ho, if_true, List.getD_cons_zero] at hK ⊢
        exact List.mem_append_left _ ((List.mem_erase_of_ne h).2 hK)
      | succ j => simpa [replace_erased_itr, ho] using hK
    · cases j with
      | zero => simpa [replace_erased_itr, ho] using hK
      | succ j =>
        simp only [replace_erased_itr, ho, if_false, List.getD_cons_succ] at hK ⊢
        exact ih j hK

theorem replace_erased_itr_places (old new : SubStrandsPairKey) :
    ∀ (vs : List SubStrandsPairKeyVec) (i : Nat), old ∈ vs.getD i [] →
      ∃ i', i' ≤ i ∧ new ∈ (replace_erased_itr vs old new).getD i' [] := by
  intro vs
  induction vs with
  | nil => intro i h; simp at h
  | cons vec rest ih =>
    intro i h
    by_cases ho : old ∈ vec
    · refine ⟨0, Nat.zero_le _, ?_⟩
      simp [replace_erased_itr, ho]
    · cases i with
      | zero => exact absurd (by simpa using h) ho
      | succ i =>
        obtain ⟨i', hi', hn⟩ := ih i (by simpa using h)
        refine ⟨i' + 1, Nat.succ_le_succ hi', ?_⟩
        simpa [replace_erased_itr, ho] using hn

theorem replace_erased_itr_later (old new : SubStrandsPairKey) :
    ∀ (vs : List SubStrandsPairKeyVec) (i j : Nat), old ∈ vs.getD i [] → i < j →
      (replace_erased_itr vs old new).getD j [] = vs.getD j [] := by
  intro vs
  induction vs with
  | nil => intro i j h; simp at h
  | cons vec rest ih =>
    intro i j h hij
    by_cases ho : old ∈ vec
    · cases j with
      | zero => omega
      | succ j => simp [replace_erased_itr, ho]
    · cases i with
      | zero => exact absurd (by simpa using h) ho
      | succ i =>
        cases j with
        | zero => omega
        | succ j =>
          simpa [replace_erased_itr, ho] using ih i j (by simpa using h) (by omega)

theorem replace_walk_cons (kappa : SubStrandsPairKey → SubStrandsPairKey) (k : SubStrandsPairKey)
    (w : List SubStrandsPairKey) (vs : List SubStrandsPairKeyVec) :
    replace_walk kappa (k :: w) vs = replace_walk kappa w (replace_erased_itr vs k (kappa k)) :=
  rfl

theorem replace_walk_append (kappa : SubStrandsPairKey → SubStrandsPairKey)
    (a b : List SubStrandsPairKey) (vs : List SubStrandsPairKeyVec) :
    replace_walk kappa (a ++ b) vs = replace_walk kappa b (replace_walk kappa a vs) := by
  unfold replace_walk
  rw [List.foldl_append]

theorem replace_walk_persist (kappa : SubStrandsPairKey → SubStrandsPairKey)
    (K : SubStrandsPairKey) :
    ∀ (w : List SubStrandsPairKey) (vs : List SubStrandsPairKeyVec) (j : Nat), K ∉ w →
      K ∈ vs.getD j [] → K ∈ (replace_walk kappa w vs).getD j [] := by
  intro w
  induction w with
  | nil => intro vs j _ h; exact h
  | cons k rest ih =>
    intro vs j hK h
    rw [replace_walk_cons]
    exact ih _ j (fun hm => hK (List.mem_cons_of_mem _ hm))
      (replace_erased_itr_persist k (kappa k) K
        (fun e => hK (by rw [e]; exact List.mem_cons_self _ _)) vs j h)

theorem replace_walk_held (kappa : SubStrandsPairKey → SubStrandsPairKey)
    (Y : SubStrandsPairKey) :
    ∀ (w : List SubStrandsPairKey) (vs : List SubStrandsPairKeyVec) (i j : Nat), w.Nodup →
      i < j → Y ∈ vs.getD i [] → Y ∈ vs.getD j [] →
      Y ∈ (replace_walk kappa w vs).getD j [] := by
  intro w
  induction w with
  | nil => intro vs i j _ _ _ h; exact h
  | cons k rest ih =>
    intro vs i j hnd hij hi hj
    rw [replace_walk_cons]
    rw [List.nodup_cons] at hnd
    by_cases hk : k = Y
    · subst hk
      apply replace_walk_persist kappa k rest _ j hnd.1
      rw [replace_erased_itr_later k (kappa k) vs i j hi hij]
      exact hj
    · exact ih _ i j hnd.2 hij
        (replace_erased_itr_persist k (kappa k) Y (fun e => hk e.symm) vs i hi)
        (replace_erased_itr_persist k (kappa k) Y (fun e => hk e.symm) vs j hj)

/-- A key `Y` of the vector `j` stays in it when a key `X` of an earlier vector
`i` is renamed to `Y` before the loop comes to `Y`: the search for `Y` then
stops at the copy written for `X`. -/
theorem replace_walk_keeps_old (kappa : SubStrandsPairKey → SubStrandsPairKey)
    (X Y : SubStrandsPairKey) (pre rest : List SubStrandsPairKey)
    (vs : List SubStrandsPairKeyVec) (i j : Nat) (hij : i < j) (hX : X ∈ vs.getD i [])
    (hY : Y ∈ vs.getD j []) (hk : kappa X = Y) (hne : X ≠ Y)
    (hnd : (pre ++ X :: rest).Nodup) (hpre : Y ∉ pre) :
    Y ∈ (replace_walk kappa (pre ++ X :: rest) vs).getD j [] := by
  rw [replace_walk_append, replace_walk_cons]
  have hXpre : X ∉ pre := fun h =>
    (List.nodup_append.1 hnd).2.2 h (List.mem_cons_self _ _)
  have hrest : rest.Nodup := (List.nodup_cons.1 (List.nodup_append.1 hnd).2.1).2
  have h1 := replace_walk_persist kappa X pre vs i hXpre hX
  have h2 := replace_walk_persist kappa Y pre vs j hpre hY
  obtain ⟨i', hi', h3⟩ := replace_erased_itr_places X (kappa X) _ i h1
  rw [hk] at h3 ⊢
  have h4 := replace_erased_itr_persist X Y Y (fun e => hne e.symm) _ j h2
  exact replace_walk_held kappa Y rest _ i' j hrest (by omega) h3 h4

theorem map_at_foldl_insert {K V : Type} [DecidableEq K] :
    ∀ (T D : List (K × V)) (x : K),
      map_at (T.foldl (fun d e => map_insert d e.1 e.2) D) x =
        if (map_at D x).isSome then map_at D x else map_at T x := by
  intro T
  induction T with
  | nil =>
    intro D x
    cases h : map_at D x <;> simp [map_at, h]
  | cons e T ih =>
    intro D x
    rw [List.foldl_cons, ih, map_at_insert]
    simp only [map_at]
    cases h : map_at D x with
    | some v => simp
    | none =>
      by_cases he : e.1 = x
      · simp [he]
      · simp [he]

theorem map_at_map_key {K V : Type} [DecidableEq K] (f : K → K) :
    ∀ (W : List (K × V)) (k : K), (∀ a ∈ W.map Prod.fst, f a = f k → a = k) →
      map_at (W.map (fun e => (f e.1, e.2))) (f k) = map_at W k := by
  intro W
  induction W with
  | nil => intro k _; rfl
  | cons e W ih =>
    intro k h
    simp only [List.map_cons, map_at]
    by_cases he : e.1 = k
    · simp [he]
    · have : f e.1 ≠ f k := fun hf => he (h e.1 (by simp) hf)
      rw [if_neg this, if_neg he]
      exact ih k (fun a ha => h a (by simp only [List.map_cons, List.mem_cons]; exact Or.inr ha))

theorem map_at_none_of_not_mem {K V : Type} [DecidableEq K] (m : List (K × V)) (x : K)
    (h : x ∉ m.map (fun e => e.1)) : map_at m x = none := by
  cases hm : map_at m x with
  | none => rfl
  | some v => exact absurd (map_at_isSome_mem m x (by rw [hm]; rfl)) h

theorem map_at_of_mem_nodup {K V : Type} [DecidableEq K] :
    ∀ (m : List (K × V)) (k : K) (v : V), (m.map (fun e => e.1)).Nodup → (k, v) ∈ m →
      map_at m k = some v := by
  intro m
  induction m with
  | nil => intro k v _ h; simp at h
  | cons e m ih =>
    intro k v hnd h
    rw [List.map_cons, List.nodup_cons] at hnd
    rw [List.mem_cons] at h
    simp only [map_at]
    rcases h with h | h
    · subst h; simp
    · have : e.1 ≠ k := fun he => hnd.1 (by
        rw [he]; exact List.mem_map.2 ⟨(k, v), h, rfl⟩)
      rw [if_neg this]
      exact ih k v hnd.2 h

theorem map_at_foldl_erase_mem : ∀ (bad : List SubStrandsPairKey) (data : AdjListWithSubData)
    (k : SubStrandsPairKey), k ∈ bad → map_at (bad.foldl map_erase data) k = none := by
  intro bad
  induction bad with
  | nil => intro data k h; simp at h
  | cons b rest ih =>
    intro data k hk
    rw [List.foldl_cons]
    by_cases hr : k ∈ rest
    · exact ih _ k hr
    · rw [map_at_foldl_erase rest _ k hr, map_at_erase]
      rcases List.mem_cons.1 hk with h | h
      · rw [if_pos h]
      · exact absurd h hr

/-- The edge map after `update_key_substr`, for every order of the loop: a key
that was walked as a changed key is bound as in the map `to_add`, every other
key as before and, without a binding, as in `to_add`. -/
theorem update_key_substr_walk_at (walk : List (SubStrandsPairKey × SubStrandsPairNode))
    (st : AdjListWithSub) (conv : List (SubStrand × SubStrand)) (x : SubStrandsPairKey) :
    map_at (update_key_substr_walk walk st conv).data x =
      if x ∈ (walk.filter (fun e => decide (converted_key conv e.1 ≠ e.1))).map Prod.fst then
        map_at ((walk.filter (fun e => decide (converted_key conv e.1 ≠ e.1))).map
          (fun e => (converted_key conv e.1, e.2))) x
      else if (map_at st.data x).isSome then map_at st.data x
      else map_at ((walk.filter (fun e => decide (converted_key conv e.1 ≠ e.1))).map
          (fun e => (converted_key conv e.1, e.2))) x := by
  unfold update_key_substr_walk
  simp only
  generalize walk.filter (fun e => decide (converted_key conv e.1 ≠ e.1)) = W
  have h1 : W.foldl (fun to_add e => map_insert to_add (converted_key conv e.1) e.2) [] =
      (W.map (fun e => (converted_key conv e.1, e.2))).foldl
        (fun d e => map_insert d e.1 e.2) [] := by
    rw [List.foldl_map]
  have h2 : W.foldl (fun data e => map_erase data e.1) st.data =
      (W.map Prod.fst).foldl map_erase st.data := by
    rw [List.foldl_map]
  rw [map_at_foldl_insert, h1, h2, map_at_foldl_insert]
  simp only [map_at, Option.isSome_none, Bool.false_eq_true, if_false]
  by_cases hx : x ∈ W.map Prod.fst
  · rw [map_at_foldl_erase_mem _ _ x hx, if_pos hx]
    simp
  · rw [map_at_foldl_erase _ _ x hx, if_neg hx]

theorem update_key_substr_walk_sheets (walk : List (SubStrandsPairKey × SubStrandsPairNode))
    (st : AdjListWithSub) (conv : List (SubStrand × SubStrand)) :
    (update_key_substr_walk walk st conv).sheets_key_vec =
      replace_walk (converted_key conv)
        ((walk.filter (fun e => decide (converted_key conv e.1 ≠ e.1))).map Prod.fst)
        st.sheets_key_vec := by
  unfold update_key_substr_walk replace_walk
  simp only
  rw [List.foldl_map]

theorem foldl_insert_eq_append {K V : Type} [DecidableEq K] :
    ∀ (T D : List (K × V)), (T.map Prod.fst).Nodup → (∀ k ∈ T.map Prod.fst, k ∉ D.map Prod.fst) →
      T.foldl (fun d e => map_insert d e.1 e.2) D = D ++ T := by
  intro T
  induction T with
  | nil => intro D _ _; simp
  | cons e T ih =>
    intro D hnd hD
    rw [List.map_cons, List.nodup_cons] at hnd
    have he : map_at D e.1 = none :=
      map_at_none_of_not_mem D e.1 (hD e.1 (by simp))
    have hin : map_insert D e.1 e.2 = D ++ [e] := by
      unfold map_insert
      rw [he]
    rw [List.foldl_cons, hin, ih (D ++ [e]) hnd.2, List.append_assoc]
    · rfl
    · intro k hk hk'
      rw [List.map_append, List.mem_append] at hk'
      rcases hk' with h | h
      · exact hD k (by rw [List.map_cons]; exact List.mem_cons_of_mem _ hk) h
      · simp only [List.map_cons, List.map_nil, List.mem_singleton] at h
        exact hnd.1 (h ▸ hk)

theorem foldl_erase_eq_filter : ∀ (bad : List SubStrandsPairKey) (data : AdjListWithSubData),
    bad.foldl map_erase data = data.filter (fun e => decide (e.1 ∉ bad)) := by
  intro bad
  induction bad with
  | nil => intro data; simp
  | cons b rest ih =>
    intro data
    rw [List.foldl_cons, ih]
    unfold map_erase
    rw [List.filter_filter]
    apply List.filter_congr
    intro e _
    simp only [List.mem_cons, not_or, Bool.decide_and, ne_eq, decide_not, Bool.and_comm]

/-- The edge map after `update_key_substr`, for every order of the loop over
an edge map with distinct keys that the renaming maps to distinct keys: the
bindings that stay followed by the renamed ones. -/
theorem update_key_substr_walk_data (walk : List (SubStrandsPairKey × SubStrandsPairNode))
    (st : AdjListWithSub) (conv : List (SubStrand × SubStrand))
    (hperm : walk.Perm st.data) (hnd : (st.data.map Prod.fst).Nodup)
    (hinj : ∀ a ∈ st.data.map Prod.fst, ∀ b ∈ st.data.map Prod.fst,
      converted_key conv a = converted_key conv b → a = b) :
    (update_key_substr_walk walk st conv).data =
      st.data.filter (fun e => !decide (converted_key conv e.1 ≠ e.1)) ++
        (walk.filter (fun e => decide (converted_key conv e.1 ≠ e.1))).map
          (fun e => (converted_key conv e.1, e.2)) := by
  have hwnd : (walk.map Prod.fst).Nodup := (hperm.map Prod.fst).nodup_iff.2 hnd
  have hsub : (walk.filter (fun e => decide (converted_key conv e.1 ≠ e.1))).Sublist walk :=
    List.filter_sublist _
  have hWnd : ((walk.filter (fun e => decide (converted_key conv e.1 ≠ e.1))).map
      Prod.fst).Nodup := (hsub.map Prod.fst).nodup hwnd
  have hWmem : ∀ e, e ∈ walk.filter (fun e => decide (converted_key conv e.1 ≠ e.1)) ↔
      e ∈ st.data ∧ converted_key conv e.1 ≠ e.1 := by
    intro e
    rw [List.mem_filter, hperm.mem_iff]
    simp
  have hkey : ∀ e ∈ st.data, e.1 ∈ st.data.map Prod.fst :=
    fun e he => List.mem_map.2 ⟨e, he, rfl⟩
  have hone : ∀ e ∈ st.data, ∀ e' ∈ st.data, e.1 = e'.1 → e = e' := by
    intro e he e' he' h
    have h1 := map_at_of_mem_nodup st.data e.1 e.2 hnd he
    have h2 := map_at_of_mem_nodup st.data e'.1 e'.2 hnd he'
    rw [h] at h1
    rw [h1] at h2
    exact Prod.ext h (Option.some.inj h2)
  unfold update_key_substr_walk
  simp only
  generalize hW : walk.filter (fun e => decide (converted_key conv e.1 ≠ e.1)) = W at *
  have hnd' : ((W.map (fun e => (converted_key conv e.1, e.2))).map Prod.fst).Nodup := by
    rw [List.map_map]
    have : (Prod.fst ∘ fun (e : SubStrandsPairKey × SubStrandsPairNode) =>
        (converted_key conv e.1, e.2)) = converted_key conv ∘ Prod.fst := rfl
    rw [this, ← List.map_map]
    apply List.Nodup.map_on _ hWnd
    intro a ha b hb hab
    obtain ⟨ea, hea, rfl⟩ := List.mem_map.1 ha
    obtain ⟨eb, heb, rfl⟩ := List.mem_map.1 hb
    exact hinj _ (hkey _ ((hWmem ea).1 hea).1) _ (hkey _ ((hWmem eb).1 heb).1) hab
  have h1 : W.foldl (fun to_add e => map_insert to_add (converted_key conv e.1) e.2) [] =
      W.map (fun e => (converted_key conv e.1, e.2)) := by
    rw [← List.foldl_map (fun e => (converted_key conv e.1, e.2))
      (fun (d : AdjListWithSubData) e => map_insert d e.1 e.2) W [],
      foldl_insert_eq_append _ [] hnd' (by simp), List.nil_append]
  have h2 : W.foldl (fun data e => map_erase data e.1) st.data =
      st.data.filter (fun e => !decide (converted_key conv e.1 ≠ e.1)) := by
    rw [← List.foldl_map Prod.fst map_erase W st.data, foldl_erase_eq_filter]
    apply List.filter_congr
    intro e he
    by_cases hc : converted_key conv e.1 = e.1
    · have : e.1 ∉ W.map Prod.fst := by
        intro hm
        obtain ⟨e', he', h⟩ := List.mem_map.1 hm
        have := ((hWmem e').1 he').2
        rw [h] at this
        exact this hc
      simp [this, hc]
    · have : e.1 ∈ W.map Prod.fst := List.mem_map.2 ⟨e, (hWmem e).2 ⟨he, hc⟩, rfl⟩
      simp [this, hc]
  rw [h1, h2]
  apply foldl_insert_eq_append _ _ hnd'
  intro k hk hk'
  obtain ⟨e', he', rfl⟩ := List.mem_map.1 hk
  obtain ⟨ea, hea, rfl⟩ := List.mem_map.1 he'
  obtain ⟨eb, heb, hab⟩ := List.mem_map.1 hk'
  rw [List.mem_filter] at heb
  have hb : converted_key conv eb.1 = eb.1 := by simpa using heb.2
  have ha := (hWmem ea).1 hea
  have : eb.1 = ea.1 := hinj _ (hkey _ heb.1) _ (hkey _ ha.1) (by rw [hb]; exact hab)
  apply ha.2
  rw [← this, hb]

/-- The method `update_key_substr` for every order `walk` of the loop over the
edge map, when the keys of the map are distinct and the renaming maps them to
distinct keys: the edge map is renamed and keeps its number of edges, and a key
`Y` of a key vector `j` stays in it when an edge `X` of an earlier vector is
renamed to `Y` and the loop does not come to `Y` before `X`. -/
theorem update_key_substr_walk_renames (walk : List (SubStrandsPairKey × SubStrandsPairNode))
    (st : AdjListWithSub) (conv : List (SubStrand × SubStrand))
    (hperm : walk.Perm st.data) (hnd : (st.data.map Prod.fst).Nodup)
    (hinj : ∀ a ∈ st.data.map Prod.fst, ∀ b ∈ st.data.map Prod.fst,
      converted_key conv a = converted_key conv b → a = b) :
    (∀ key node, map_at st.data key = some node →
      map_at (update_key_substr_walk walk st conv).data (converted_key conv key) = some node) ∧
    (∀ name node, map_at (update_key_substr_walk walk st conv).data name = some node →
      ∃ key, converted_key conv key = name ∧ map_at st.data key = some node) ∧
    (update_key_substr_walk walk st conv).data.length = st.data.length ∧
    ∀ X Y nx pre rest i j, walk = pre ++ (X, nx) :: rest → Y ∉ pre.map Prod.fst →
      converted_key conv X = Y → X ≠ Y → i < j → X ∈ st.sheets_key_vec.getD i [] →
      Y ∈ st.sheets_key_vec.getD j [] → X ∉ st.sheets_key_vec.getD j [] →
        Y ∈ (update_key_substr_walk walk st conv).sheets_key_vec.getD j [] ∧
        map_at (update_key_substr_walk walk st conv).data Y = some nx ∧
        ∀ key ∈ st.sheets_key_vec.getD j [], key ∈ st.data.map Prod.fst →
          converted_key conv key ≠ Y := by
  have hwnd : (walk.map Prod.fst).Nodup := (hperm.map Prod.fst).nodup_iff.2 hnd
  have hWmem : ∀ e, e ∈ walk.filter (fun e => decide (converted_key conv e.1 ≠ e.1)) ↔
      e ∈ st.data ∧ converted_key conv e.1 ≠ e.1 := by
    intro e
    rw [List.mem_filter, hperm.mem_iff]
    simp
  have hkey : ∀ e ∈ st.data, e.1 ∈ st.data.map Prod.fst :=
    fun e he => List.mem_map.2 ⟨e, he, rfl⟩
  have hWnd : ((walk.filter (fun e => decide (converted_key conv e.1 ≠ e.1))).map
      Prod.fst).Nodup := ((List.filter_sublist _).map Prod.fst).nodup hwnd
  have hA : ∀ key node, map_at st.data key = some node →
      map_at (update_key_substr_walk walk st conv).data (converted_key conv key) = some node := by
    intro key node hk
    have hmem := map_at_mem _ _ _ hk
    rw [update_key_substr_walk_at]
    by_cases hc : converted_key conv key = key
    · have hn : key ∉ (walk.filter (fun e => decide (converted_key conv e.1 ≠ e.1))).map
          Prod.fst := by
        intro hm
        obtain ⟨e', he', h⟩ := List.mem_map.1 hm
        have := ((hWmem e').1 he').2
        rw [h] at this
        exact this hc
      rw [hc, if_neg hn, hk]
      simp
    · have hW : (key, node) ∈ walk.filter (fun e => decide (converted_key conv e.1 ≠ e.1)) :=
        (hWmem _).2 ⟨hmem, hc⟩
      have hl : map_at ((walk.filter (fun e => decide (converted_key conv e.1 ≠ e.1))).map
          (fun e => (converted_key conv e.1, e.2))) (converted_key conv key) = some node := by
        rw [map_at_map_key (converted_key conv) _ key]
        · exact map_at_of_mem_nodup _ key node hWnd hW
        · intro a ha hab
          obtain ⟨ea, hea, rfl⟩ := List.mem_map.1 ha
          exact hinj _ (hkey _ ((hWmem ea).1 hea).1) _ (hkey _ hmem) hab
      split_ifs with h1 h2
      · exact hl
      · exfalso
        have hx := map_at_isSome_mem st.data _ h2
        obtain ⟨ex, hex, hx1⟩ := List.mem_map.1 hx
        have hxc : converted_key conv ex.1 = ex.1 := by
          by_contra hne
          exact h1 (List.mem_map.2 ⟨ex, (hWmem ex).2 ⟨hex, hne⟩, hx1⟩)
        have : ex.1 = key := hinj _ (hkey _ hex) _ (hkey _ hmem) (by rw [hxc]; exact hx1)
        rw [this] at hxc
        exact hc hxc
      · exact hl
  refine ⟨hA, ?_, ?_, ?_⟩
  · intro name node h
    rw [update_key_substr_walk_data walk st conv hperm hnd hinj] at h
    have hm := map_at_mem _ _ _ h
    rw [List.mem_append] at hm
    rcases hm with hm | hm
    · rw [List.mem_filter] at hm
      refine ⟨name, by simpa using hm.2, ?_⟩
      exact map_at_of_mem_nodup _ _ _ hnd hm.1
    · obtain ⟨e, he, hee⟩ := List.mem_map.1 hm
      have h1 : converted_key conv e.1 = name := congrArg Prod.fst hee
      have h2 : e.2 = node := congrArg Prod.snd hee
      refine ⟨e.1, h1, ?_⟩
      rw [← h2]
      exact map_at_of_mem_nodup _ _ _ hnd ((hWmem e).1 he).1
  · have hl := List.length_eq_length_filter_add (l := st.data)
      (fun e => decide (converted_key conv e.1 ≠ e.1))
    rw [update_key_substr_walk_data walk st conv hperm hnd hinj, List.length_append,
      List.length_map,
      (hperm.filter (fun e => decide (converted_key conv e.1 ≠ e.1))).length_eq, hl,
      Nat.add_comm]
  · intro X Y nx pre rest i j hw hpre hXY hne hij hXi hYj hXj
    have hXmem : (X, nx) ∈ st.data := by
      rw [← hperm.mem_iff, hw]
      simp
    have hXc : converted_key conv X ≠ X := by
      rw [hXY]
      exact fun h => hne h.symm
    refine ⟨?_, ?_, ?_⟩
    · rw [update_key_substr_walk_sheets]
      have hf : (walk.filter (fun e => decide (converted_key conv e.1 ≠ e.1))).map Prod.fst =
          (pre.filter (fun e => decide (converted_key conv e.1 ≠ e.1))).map Prod.fst ++
            X :: (rest.filter (fun e => decide (converted_key conv e.1 ≠ e.1))).map Prod.fst := by
        rw [hw, List.filter_append, List.filter_cons_of_pos (by simpa using hXc),
          List.map_append, List.map_cons]
      have hnd2 := hWnd
      rw [hf] at hnd2 ⊢
      refine replace_walk_keeps_old (converted_key conv) X Y _ _ _ i j hij hXi hYj hXY hne
        hnd2 ?_
      intro hm
      exact hpre (((List.filter_sublist _).map Prod.fst).subset hm)
    · rw [← hXY]
      exact hA X nx (map_at_of_mem_nodup _ _ _ hnd hXmem)
    · intro key hk hkd hkY
      have : key = X := hinj _ hkd _ (hkey _ hXmem) (by rw [hkY, hXY])
      rw [this] at hk
      exact hXj hk

theorem finish_conv (s s1 : SubStrandsRange) (conv : List (SubStrand × SubStrand))
    (h : s.finish = some (s1, conv)) :
    conv = convert_to_substrand (s.data.map (fun ranges => sorted_indices ranges.dropLast)) := by
  unfold SubStrandsRange.finish at h
  by_cases h1 : s.data.any (fun ranges => ranges.isEmpty) = true
  · rw [if_pos h1] at h; cases h
  · rw [if_neg h1] at h
    by_cases h2 : (decide (256 ≤ s.data.length) ||
        s.data.any (fun ranges => decide (256 ≤ ranges.dropLast.length))) = true
    · rw [if_pos h2] at h; cases h
    · rw [if_neg h2] at h
      simp only [Option.some.injEq, Prod.mk.injEq] at h
      exact h.2.symm

/-- The bindings of the map of `convert_to_substrand`: the sub-strand at the
position `p` of a strand, where the table of changed indices holds another
index `a`, is the value of the sub-strand `a` of that strand. -/
theorem convert_to_substrand_mem (M : List (List Nat)) (x v : SubStrand) :
    (x, v) ∈ (List.range M.length).flatMap (fun str =>
        ((List.range (M.getD str []).length).filter (fun substr =>
          decide (substr ≠ (M.getD str []).getD substr 0))).map (fun substr =>
            ((⟨str, (M.getD str []).getD substr 0⟩ : SubStrand),
              (⟨str, substr⟩ : SubStrand)))) ↔
      v.str = x.str ∧ x.str < M.length ∧ v.substr < (M.getD x.str []).length ∧
        (M.getD x.str []).getD v.substr 0 = x.substr ∧ v.substr ≠ x.substr := by
  simp only [List.mem_flatMap, List.mem_range, List.mem_map, List.mem_filter, ne_eq,
    decide_not, Bool.not_eq_eq_eq_not, Bool.not_true, decide_eq_false_iff_not, Prod.mk.injEq]
  constructor
  · rintro ⟨str, hstr, p, ⟨hp, hne⟩, hx, hv⟩
    subst hx hv
    exact ⟨rfl, hstr, hp, rfl, hne⟩
  · rintro ⟨h1, h2, h3, h4, h5⟩
    refine ⟨x.str, h2, v.substr, ⟨h3, ?_⟩, ?_, ?_⟩
    · rw [h4]; exact h5
    · rw [h4]
    · rw [← h1]

theorem convert_to_substrand_at (M : List (List Nat)) (x : SubStrand) :
    map_at (convert_to_substrand M) x =
      map_at ((List.range M.length).flatMap (fun str =>
        ((List.range (M.getD str []).length).filter (fun substr =>
          decide (substr ≠ (M.getD str []).getD substr 0))).map (fun substr =>
            ((⟨str, (M.getD str []).getD substr 0⟩ : SubStrand),
              (⟨str, substr⟩ : SubStrand))))) x := by
  unfold convert_to_substrand
  rw [map_at_foldl_insert]
  simp [map_at]

theorem convert_to_substrand_some (M : List (List Nat)) (x v : SubStrand)
    (h : map_at (convert_to_substrand M) x = some v) :
    v.str = x.str ∧ x.str < M.length ∧ v.substr < (M.getD x.str []).length ∧
      (M.getD x.str []).getD v.substr 0 = x.substr ∧ v.substr ≠ x.substr :=
  (convert_to_substrand_mem M x v).1
    (map_at_mem _ _ _ (by rw [← convert_to_substrand_at]; exact h))

theorem convert_to_substrand_isSome (M : List (List Nat)) (x v : SubStrand)
    (h : v.str = x.str ∧ x.str < M.length ∧ v.substr < (M.getD x.str []).length ∧
      (M.getD x.str []).getD v.substr 0 = x.substr ∧ v.substr ≠ x.substr) :
    (map_at (convert_to_substrand M) x).isSome = true := by
  rw [convert_to_substrand_at]
  exact map_at_isSome _ _ (List.mem_map.2 ⟨(x, v), (convert_to_substrand_mem M x v).2 h, rfl⟩)

theorem sorted_indices_perm (l : List (Int × Int)) (hl : l.length ≤ 256) :
    (sorted_indices l).Perm (List.range (sorted_indices l).length) := by
  have h1 : (sorted_indices l).Perm (List.range l.length) := by
    unfold sorted_indices
    refine (List.perm_insertionSort (n_term_le l) _).trans ?_
    have : (List.range l.length).map toIndexType = List.range l.length := by
      conv_rhs => rw [← List.map_id (List.range l.length)]
      apply List.map_congr_left
      intro a ha
      have := List.mem_range.1 ha
      simp only [toIndexType, id]
      omega
    rw [this]
  have h2 : (sorted_indices l).length = l.length := by
    rw [h1.length_eq, List.length_range]
  rw [h2]
  exact h1

theorem perm_range_getD (l : List Nat) (hl : l.Perm (List.range l.length)) :
    (∀ q, q < l.length → l.getD q 0 < l.length) ∧
      ∀ a, a < l.length → ∃ p, p < l.length ∧ l.getD p 0 = a := by
  constructor
  · intro q hq
    have hm : l.getD q 0 ∈ l := by
      rw [List.getD_eq_getElem l 0 hq]
      exact List.getElem_mem hq
    exact List.mem_range.1 (hl.mem_iff.1 hm)
  · intro a ha
    have hm : a ∈ l := hl.mem_iff.2 (List.mem_range.2 ha)
    obtain ⟨p, hp, hpa⟩ := List.mem_iff_getElem.1 hm
    exact ⟨p, hp, by rw [List.getD_eq_getElem l 0 hp]; exact hpa⟩

/-- The renumbering of `convert_to_substrand`, extended by the identity, for a
table of changed indices whose rows are permutations of their positions: it
keeps the strand, the row of the strand holds the old index at the new
position, a sub-strand outside the table is not changed, and different
sub-strands get different values. -/
theorem convert_to_substrand_spec (M : List (List Nat))
    (hM : ∀ row ∈ M, row.Perm (List.range row.length)) :
    (∀ x, ((map_at (convert_to_substrand M) x).getD x).str = x.str) ∧
    (∀ x, x.str < M.length → x.substr < (M.getD x.str []).length →
      ((map_at (convert_to_substrand M) x).getD x).substr < (M.getD x.str []).length ∧
        (M.getD x.str []).getD ((map_at (convert_to_substrand M) x).getD x).substr 0 =
          x.substr) ∧
    (∀ x, ¬ (x.str < M.length ∧ x.substr < (M.getD x.str []).length) →
      (map_at (convert_to_substrand M) x).getD x = x) ∧
    ∀ x y, (map_at (convert_to_substrand M) x).getD x =
      (map_at (convert_to_substrand M) y).getD y → x = y := by
  have hrow : ∀ str, str < M.length → (M.getD str []).Perm
      (List.range (M.getD str []).length) := by
    intro str hstr
    apply hM
    rw [List.getD_eq_getElem M [] hstr]
    exact List.getElem_mem hstr
  have h1 : ∀ x, ((map_at (convert_to_substrand M) x).getD x).str = x.str := by
    intro x
    cases h : map_at (convert_to_substrand M) x with
    | none => rfl
    | some v => exact (convert_to_substrand_some M x v h).1
  have h2 : ∀ x, x.str < M.length → x.substr < (M.getD x.str []).length →
      ((map_at (convert_to_substrand M) x).getD x).substr < (M.getD x.str []).length ∧
        (M.getD x.str []).getD ((map_at (convert_to_substrand M) x).getD x).substr 0 =
          x.substr := by
    intro x hs ha
    cases h : map_at (convert_to_substrand M) x with
    | some v =>
      have := convert_to_substrand_some M x v h
      exact ⟨this.2.2.1, this.2.2.2.1⟩
    | none =>
      simp only [Option.getD_none]
      refine ⟨ha, ?_⟩
      obtain ⟨p, hp, hpa⟩ := (perm_range_getD _ (hrow x.str hs)).2 x.substr ha
      by_cases hpe : p = x.substr
      · rw [← hpe] at hpa ⊢; exact hpa
      · have := convert_to_substrand_isSome M x ⟨x.str, p⟩ ⟨rfl, hs, hp, hpa, hpe⟩
        rw [h] at this
        cases this
  have h3 : ∀ x, ¬ (x.str < M.length ∧ x.substr < (M.getD x.str []).length) →
      (map_at (convert_to_substrand M) x).getD x = x := by
    intro x hx
    cases h : map_at (convert_to_substrand M) x with
    | none => rfl
    | some v =>
      exfalso
      have := convert_to_substrand_some M x v h
      apply hx
      refine ⟨this.2.1, ?_⟩
      rw [← this.2.2.2.1]
      exact (perm_range_getD _ (hrow x.str this.2.1)).1 _ this.2.2.1
  refine ⟨h1, h2, h3, ?_⟩
  intro x y hxy
  have hstr : x.str = y.str := by rw [← h1 x, ← h1 y, hxy]
  by_cases hx : x.str < M.length ∧ x.substr < (M.getD x.str []).length
  · by_cases hy : y.str < M.length ∧ y.substr < (M.getD y.str []).length
    · have e1 := (h2 x hx.1 hx.2).2
      have e2 := (h2 y hy.1 hy.2).2
      rw [hxy, hstr, e2] at e1
      cases x; cases y
      simp only [SubStrand.mk.injEq]
      exact ⟨hstr, e1.symm⟩
    · exfalso
      have e1 := (h2 x hx.1 hx.2).1
      rw [hxy, h3 y hy] at e1
      apply hy
      rw [← hstr]
      exact ⟨hx.1, e1⟩
  · by_cases hy : y.str < M.length ∧ y.substr < (M.getD y.str []).length
    · exfalso
      have e1 := (h2 y hy.1 hy.2).1
      rw [← hxy, h3 x hx] at e1
      apply hx
      rw [hstr]
      exact ⟨hy.1, e1⟩
    · rw [h3 x hx, h3 y hy] at hxy
      exact hxy

theorem sorted_indices_length (l : List (Int × Int)) (hl : l.length ≤ 256) :
    (sorted_indices l).length = l.length := by
  unfold sorted_indices
  rw [(List.perm_insertionSort (n_term_le l) _).length_eq, List.length_map, List.length_range]

/-- The renumbering that `finish` returns, extended by the identity: different
sub-strands get different values, and for every strand and every identifier
`a` of a range of the strand before the call (the last range, the placeholder,
is dropped) the new sub-strand is on the same strand, its identifier is one of
the identifiers of the strand, and the registry after the call holds for it
the range that the registry before the call held for `a`. -/
theorem finish_renumbering (s : SubStrandsRange)
    (r : SubStrandsRange × List (SubStrand × SubStrand)) (h : s.finish = some r) :
    (∀ x y, (map_at r.2 x).getD x = (map_at r.2 y).getD y → x = y) ∧
    ∀ str ranges, s.data.get? str = some ranges → ∀ a, a < ranges.dropLast.length →
      ((map_at r.2 ⟨str, a⟩).getD ⟨str, a⟩).str = str ∧
      ((map_at r.2 ⟨str, a⟩).getD ⟨str, a⟩).substr < ranges.dropLast.length ∧
      (r.1.data.getD str []).getD ((map_at r.2 ⟨str, a⟩).getD ⟨str, a⟩).substr default_range =
        ranges.getD a default_range := by
  obtain ⟨s1, conv⟩ := r
  obtain ⟨hd, hlen⟩ := finish_data s s1 conv h
  have hc := finish_conv s s1 conv h
  have hM : ∀ row ∈ s.data.map (fun ranges => sorted_indices ranges.dropLast),
      row.Perm (List.range row.length) := by
    intro row hrow
    obtain ⟨ranges, hr, rfl⟩ := List.mem_map.1 hrow
    exact sorted_indices_perm _ (Nat.le_of_lt (hlen ranges hr))
  obtain ⟨k1, k2, _, k4⟩ := convert_to_substrand_spec _ hM
  simp only
  rw [hc]
  refine ⟨k4, ?_⟩
  intro str ranges hstr a ha
  have hmem : ranges ∈ s.data := List.get?_mem hstr
  have hlt : str < s.data.length := by
    obtain ⟨hl, _⟩ := List.get?_eq_some.1 hstr
    exact hl
  have hrow : (s.data.map (fun ranges => sorted_indices ranges.dropLast)).getD str [] =
      sorted_indices ranges.dropLast := by
    rw [List.getD_eq_getD_get?, List.get?_map, hstr]
    rfl
  have hsl := sorted_indices_length ranges.dropLast (Nat.le_of_lt (hlen ranges hmem))
  have hb := k2 ⟨str, a⟩ (by simpa using hlt) (by rw [hrow, hsl]; exact ha)
  rw [hrow, hsl] at hb
  refine ⟨k1 ⟨str, a⟩, hb.1, ?_⟩
  have hdata : s1.data.getD str [] =
      (sorted_indices ranges.dropLast).map (fun a => ranges.dropLast.getD a default_range) := by
    rw [hd, List.getD_eq_getD_get?, List.get?_map, hstr]
    rfl
  rw [hdata]
  generalize ((map_at (convert_to_substrand
    (s.data.map (fun ranges => sorted_indices ranges.dropLast))) ⟨str, a⟩).getD ⟨str, a⟩).substr
      = q at hb
  have hq : q < (sorted_indices ranges.dropLast).length := by rw [hsl]; exact hb.1
  rw [List.getD_eq_getElem _ _ (by rw [List.length_map]; exact hq), List.getElem_map,
    ← List.getD_eq_getElem _ 0 hq, hb.2, List.getD_eq_getElem _ _ ha, List.getElem_dropLast,
    List.getD_eq_getElem]

theorem converted_key_injective (conv : List (SubStrand × SubStrand))
    (hf : ∀ x y, (map_at conv x).getD x = (map_at conv y).getD y → x = y)
    (a b : SubStrandsPairKey) (h : converted_key conv a = converted_key conv b) : a = b := by
  unfold converted_key SubStrandsPairKey.ofSubs at h
  simp only [SubStrandsPairKey.mk.injEq] at h
  have h0 : a.sub0 = b.sub0 := hf _ _ (by
    cases h1 : (map_at conv a.sub0).getD a.sub0
    cases h2 : (map_at conv b.sub0).getD b.sub0
    rw [h1, h2] at h
    simp only [SubStrand.mk.injEq]
    exact ⟨h.1, h.2.1⟩)
  have h1 : a.sub1 = b.sub1 := hf _ _ (by
    cases h1 : (map_at conv a.sub1).getD a.sub1
    cases h2 : (map_at conv b.sub1).getD b.sub1
    rw [h1, h2] at h
    simp only [SubStrand.mk.injEq]
    exact ⟨h.2.2.1, h.2.2.2⟩)
  unfold SubStrandsPairKey.sub0 at h0
  unfold SubStrandsPairKey.sub1 at h1
  simp only [SubStrand.mk.injEq] at h0 h1
  cases a; cases b
  simp only [SubStrandsPairKey.mk.injEq]
  exact ⟨h0.1, h0.2, h1.1, h1.2⟩

/-- C36. The renumbering `r.2` that `finish` returns, extended by the
identity: different sub-strands get different values, and for every strand and
every identifier `a` of a range of the strand before the call (the last range,
the placeholder, is dropped) the new sub-strand is on the same strand, its
identifier is one of the identifiers of the strand, and the registry after the
call holds for it the range that the registry before the call held for `a`.
The method `update_key_substr` with this renumbering, for every order `walk`
in which the loop may go over an edge map with distinct keys: the edge map is
renamed, that is the node of every key is found under the renamed key, every
binding of the new map comes from a binding of the old one, and the number of
edges is the same. The key vectors are renamed one key at a time, and not
always to the same keys: when an edge `X` of the vector `i` is renamed to a key
`Y` that an edge of a later vector `j` has at the start, and the loop does not
come to `Y` before `X`, then the vector `j` still lists `Y` at the end,
although in the new edge map `Y` is the key of the edge that was `X`, and no
edge of the vector `j` is renamed to `Y`. -/
theorem update_key_substr_walk_spec (s : SubStrandsRange)
    (r : SubStrandsRange × List (SubStrand × SubStrand))
    (walk : List (SubStrandsPairKey × SubStrandsPairNode)) (st : AdjListWithSub)
    (hfin : s.finish = some r) (hperm : walk.Perm st.data)
    (hnd : (st.data.map Prod.fst).Nodup) :
    (∀ x y, (map_at r.2 x).getD x = (map_at r.2 y).getD y → x = y) ∧
    (∀ str ranges, s.data.get? str = some ranges → ∀ a, a < ranges.dropLast.length →
      ((map_at r.2 ⟨str, a⟩).getD ⟨str, a⟩).str = str ∧
      ((map_at r.2 ⟨str, a⟩).getD ⟨str, a⟩).substr < ranges.dropLast.length ∧
      (r.1.data.getD str []).getD ((map_at r.2 ⟨str, a⟩).getD ⟨str, a⟩).substr default_range =
        ranges.getD a default_range) ∧
    (∀ key node, map_at st.data key = some node →
      map_at (update_key_substr_walk walk st r.2).data (converted_key r.2 key) = some node) ∧
    (∀ name node, map_at (update_key_substr_walk walk st r.2).data name = some node →
      ∃ key, converted_key r.2 key = name ∧ map_at st.data key = some node) ∧
    (update_key_substr_walk walk st r.2).data.length = st.data.length ∧
    ∀ X Y nx pre rest i j, walk = pre ++ (X, nx) :: rest → Y ∉ pre.map Prod.fst →
      converted_key r.2 X = Y → X ≠ Y → i < j → X ∈ st.sheets_key_vec.getD i [] →
      Y ∈ st.sheets_key_vec.getD j [] → X ∉ st.sheets_key_vec.getD j [] →
        Y ∈ (update_key_substr_walk walk st r.2).sheets_key_vec.getD j [] ∧
        map_at (update_key_substr_walk walk st r.2).data Y = some nx ∧
        ∀ key ∈ st.sheets_key_vec.getD j [], key ∈ st.data.map Prod.fst →
          converted_key r.2 key ≠ Y :=
  ⟨(finish_renumbering s r hfin).1, (finish_renumbering s r hfin).2,
    update_key_substr_walk_renames walk st r.2 hperm hnd
      (fun a _ b _ h => converted_key_injective r.2 (finish_renumbering s r hfin).1 a b h)⟩

theorem decide_side_with_id (z : StrictZone) (undirected_adj_list : AdjList) :
    decide_side_with id id z undirected_adj_list = decide_side z undirected_adj_list := rfl

set_option maxRecDepth 100000 in
/-- The run of `decide_side` on the zone `nine_strict`, for each of the three
orders of the set of coloured residues: the component of the residues 16 to
17, 96 to 97 and 175 to 176 is found first, so before `finish` the
sub-strands 0 of the strands 0 and 4 are the residues 16 to 17 and 96 to 97,
and `finish` exchanges the identifiers 0 and 1 on both strands. -/
theorem nine_run : ∀ order ∈ nine_orders,
    order.Perm nine_colored ∧
    (nine_components order).2.data =
      [(⟨0, 0, 8, 0⟩, ⟨true, 0, 1, 2⟩), (⟨0, 0, 4, 0⟩, ⟨true, 0, 1, 2⟩),
       (⟨0, 1, 4, 1⟩, ⟨true, 0, 1, 2⟩)] ∧
    (nine_components order).2.sheets_key_vec = [[⟨0, 0, 8, 0⟩, ⟨0, 0, 4, 0⟩], [⟨0, 1, 4, 1⟩]] ∧
    ((nine_components order).1.sub_strands.finish).map (fun r => (r.1.data, r.2)) =
      some ([[(11, 12), (16, 17)], [], [], [], [(91, 92), (96, 97)], [], [], [], [(175, 176)]],
        [(⟨0, 1⟩, ⟨0, 0⟩), (⟨0, 0⟩, ⟨0, 1⟩), (⟨4, 1⟩, ⟨4, 0⟩), (⟨4, 0⟩, ⟨4, 1⟩)]) := by
  have h1 : ∀ order ∈ nine_orders, order.Perm nine_colored := by decide
  have h2 : ∀ order ∈ nine_orders, (nine_components order).2.data =
      [(⟨0, 0, 8, 0⟩, ⟨true, 0, 1, 2⟩), (⟨0, 0, 4, 0⟩, ⟨true, 0, 1, 2⟩),
       (⟨0, 1, 4, 1⟩, ⟨true, 0, 1, 2⟩)] := by decide
  have h3 : ∀ order ∈ nine_orders, (nine_components order).2.sheets_key_vec =
      [[⟨0, 0, 8, 0⟩, ⟨0, 0, 4, 0⟩], [⟨0, 1, 4, 1⟩]] := by decide
  have h4 : ∀ order ∈ nine_orders,
      ((nine_components order).1.sub_strands.finish).map (fun r => (r.1.data, r.2)) =
        some ([[(11, 12), (16, 17)], [], [], [], [(91, 92), (96, 97)], [], [], [], [(175, 176)]],
          [(⟨0, 1⟩, ⟨0, 0⟩), (⟨0, 0⟩, ⟨0, 1⟩), (⟨4, 1⟩, ⟨4, 0⟩), (⟨4, 0⟩, ⟨4, 1⟩)]) := by
    decide
  exact fun order ho => ⟨h1 order ho, h2 order ho, h3 order ho, h4 order ho⟩

set_option maxRecDepth 100000 in
/-- C36, witness: the zone `nine_strict` is built by the calls `nine_calls`.
For each of the three orders of its coloured residues the loop of
`decide_side` leaves the edges `(0,0,8,0)` and `(0,0,4,0)` in the first key
vector and the edge `(0,1,4,1)` in the second one, and `finish` exchanges the
identifiers 0 and 1 on the strands 0 and 4, keeping the ranges. When
`update_key_substr` walks the edge map in the order `nine_walk`, the edge map
is renamed, but the key vectors end as `(0,0,4,0)`, `(0,1,8,0)` and
`(0,1,4,1)`: the second vector still lists `(0,1,4,1)`, now the key of the edge
between the residues 16 to 17 and 96 to 97, which the first vector held. Of the
six orders of walking the three edges, the key vectors are renamed like the
edge map exactly in those that come to `(0,1,4,1)` before `(0,0,4,0)`. With
these orders of iteration `decide_side` returns the registry with the key
vectors `(0,0,4,0)`, `(0,1,8,0)` and `(0,1,4,1)`. -/
theorem update_key_substr_walk_witness :
    zone_of nine_sses nine_calls = .ok nine_strict ∧
    collect_colored nine_strict = .ok nine_colored ∧
    (∀ order ∈ nine_orders,
      (returned (decide_side_with (fun _ => order)
          (fun data => bindings_in_order data nine_walk) nine_strict nine_adj)).map
          (fun r => (r.1.sheets_key_vec, r.1.data.map Prod.fst, r.2.sub_strands.data)) =
        some ([[⟨0, 0, 4, 0⟩, ⟨0, 1, 8, 0⟩], [⟨0, 1, 4, 1⟩]],
          [⟨0, 1, 4, 1⟩, ⟨0, 0, 4, 0⟩, ⟨0, 1, 8, 0⟩],
          [[(11, 12), (16, 17)], [], [], [], [(91, 92), (96, 97)], [], [], [], [(175, 176)]])) ∧
    ∀ order ∈ nine_orders,
      order.Perm nine_colored ∧
      (nine_components order).2.sheets_key_vec =
        [[⟨0, 0, 8, 0⟩, ⟨0, 0, 4, 0⟩], [⟨0, 1, 4, 1⟩]] ∧
      (nine_components order).2.data.map Prod.fst = [⟨0, 0, 8, 0⟩, ⟨0, 0, 4, 0⟩, ⟨0, 1, 4, 1⟩] ∧
      ∃ r, (nine_components order).1.sub_strands.finish = some r ∧
        r.1.data =
          [[(11, 12), (16, 17)], [], [], [], [(91, 92), (96, 97)], [], [], [], [(175, 176)]] ∧
        r.2 = [(⟨0, 1⟩, ⟨0, 0⟩), (⟨0, 0⟩, ⟨0, 1⟩), (⟨4, 1⟩, ⟨4, 0⟩), (⟨4, 0⟩, ⟨4, 1⟩)] ∧
        (bindings_in_order (nine_components order).2.data nine_walk).Perm
          (nine_components order).2.data ∧
        ((update_key_substr_walk (bindings_in_order (nine_components order).2.data nine_walk)
          (nine_components order).2 r.2).data.map Prod.fst =
            [⟨0, 1, 4, 1⟩, ⟨0, 0, 4, 0⟩, ⟨0, 1, 8, 0⟩]) ∧
        (update_key_substr_walk (bindings_in_order (nine_components order).2.data nine_walk)
          (nine_components order).2 r.2).sheets_key_vec =
            [[⟨0, 0, 4, 0⟩, ⟨0, 1, 8, 0⟩], [⟨0, 1, 4, 1⟩]] ∧
        (⟨0, 1, 4, 1⟩ ∈ (update_key_substr_walk
            (bindings_in_order (nine_components order).2.data nine_walk)
            (nine_components order).2 r.2).sheets_key_vec.getD 1 [] ∧
          map_at (update_key_substr_walk
            (bindings_in_order (nine_components order).2.data nine_walk)
            (nine_components order).2 r.2).data ⟨0, 1, 4, 1⟩ = some ⟨true, 0, 1, 2⟩ ∧
          ∀ key ∈ (nine_components order).2.sheets_key_vec.getD 1 [],
            key ∈ (nine_components order).2.data.map Prod.fst →
              converted_key r.2 key ≠ ⟨0, 1, 4, 1⟩) ∧
        ∀ keys ∈ nine_walk.permutations',
          key_vecs_renamed r.2 (nine_components order).2.sheets_key_vec
            (update_key_substr_walk (bindings_in_order (nine_components order).2.data keys)
              (nine_components order).2 r.2).sheets_key_vec =
            decide (keys.indexOf (⟨0, 1, 4, 1⟩ : SubStrandsPairKey) <
              keys.indexOf (⟨0, 0, 4, 0⟩ : SubStrandsPairKey)) := by
  refine ⟨ok_of_returned _ _ (by decide), ok_of_returned _ _ (by decide), by decide, ?_⟩
  intro order ho
  obtain ⟨h1, h2, h3, h4⟩ := nine_run order ho
  obtain ⟨r, hr, hrr⟩ := Option.map_eq_some'.1 h4
  have hd : r.1.data =
      [[(11, 12), (16, 17)], [], [], [], [(91, 92), (96, 97)], [], [], [], [(175, 176)]] :=
    congrArg Prod.fst hrr
  have hc : r.2 = [(⟨0, 1⟩, ⟨0, 0⟩), (⟨0, 0⟩, ⟨0, 1⟩), (⟨4, 1⟩, ⟨4, 0⟩), (⟨4, 0⟩, ⟨4, 1⟩)] :=
    congrArg Prod.snd hrr
  refine ⟨h1, h3, by rw [h2]; rfl, r, hr, hd, hc, by rw [h2]; decide, ?_, ?_, ?_, ?_⟩
  · rw [update_key_substr_walk_data _ _ _ (by rw [h2]; decide) (by rw [h2]; decide)
      (by rw [h2, hc]; decide), h2, hc]
    decide
  · rw [update_key_substr_walk_sheets, h2, h3, hc]
    decide
  · exact (update_key_substr_walk_spec (nine_components order).1.sub_strands r
      (bindings_in_order (nine_components order).2.data nine_walk) (nine_components order).2
      hr (by rw [h2]; decide) (by rw [h2]; decide)).2.2.2.2.2
        ⟨0, 0, 4, 0⟩ ⟨0, 1, 4, 1⟩ ⟨true, 0, 1, 2⟩ []
        [(⟨0, 1, 4, 1⟩, ⟨true, 0, 1, 2⟩), (⟨0, 0, 8, 0⟩, ⟨true, 0, 1, 2⟩)] 0 1
        (by rw [h2]; decide) (by decide) (by rw [hc]; decide) (by decide) (by decide)
        (by rw [h3]; decide) (by rw [h3]; decide) (by rw [h3]; decide)
  · intro keys hk
    rw [update_key_substr_walk_sheets, h2, h3, hc]
    revert keys
    decide

theorem ensure_undirected_keeps (st st1 : AdjListWithSub) (key : SubStrandsPairKey)
    (node : SubStrandsPairNode) (h : ensure_undirected st = .ok st1)
    (hn : map_at st.data key = some node) : map_at st1.data key = some node := by
  unfold ensure_undirected at h
  cases hv : st.sheets_key_vec.getLast? with
  | none => rw [hv] at h; cases h
  | some key_vec =>
    rw [hv] at h
    simp only [Except.ok.injEq] at h
    subst h
    exact ensure_undirected_fold_keeps _ _ _ _ hn

theorem bfs_finish_fallback_parts (s : BfsState)
    (r : StrictZone × AdjListWithSub × List ZoneResidue)
    (h : bfs_finish s = .ok r) (hfb : r.2.1.sheets_directed.getLast? = some false) :
    ∃ data short st st1, s.fallback = true ∧
      cleanup_sheet s.zone.sub_strands.data = some (data, short) ∧
      erase_too_short s.adj_list short = .ok st ∧
      ensure_undirected st = .ok st1 ∧ r.2.1.data = st1.data ∧
      r.2.1.sheets_key_vec = st1.sheets_key_vec := by
  unfold bfs_finish at h
  cases hc : cleanup_sheet s.zone.sub_strands.data with
  | none => rw [hc] at h; cases h
  | some p =>
    obtain ⟨data, too_short_subs⟩ := p
    rw [hc] at h
    simp only at h
    obtain ⟨st, h1, h2⟩ := except_bind_ok _ _ _ h
    obtain ⟨st1, h3, h4⟩ := except_bind_ok _ _ _ h2
    simp only [Except.ok.injEq] at h4
    subst h4
    have hfb2 : s.fallback = true := by
      cases hf : s.fallback with
      | true => rfl
      | false => rw [hf] at hfb; simp at hfb
    rw [if_pos hfb2] at h3
    exact ⟨data, too_short_subs, st, st1, hfb2, rfl, h1, h3, rfl, rfl⟩

/-- C38, as amended. When `bfs` returns and has registered the component as
undirected (the fallback mode): every key of the key vector of the component
has its reverse key in the edge map. The registry `st` that the run hands to
`ensure_undirected` is the registry of the state `s` after the search, cleaned
of the sub-strands `short` that `cleanup_sheet` found too short; every key
with a node in `st` has the same node in the edge map that `bfs` leaves, and
for every key of the last key vector of `st` with a node but without a reverse
key in `st`, that edge map holds the same node for the reverse key (the added
reverse edge is a copy, with the same direction and the same count). When the
residues of the remainder and the partners stored in the zone are built by
the constructor (at most 256 strands), the undirected adjacency list is
symmetric and the edges of the registry at the call have the directions of
that list, then every key of the key vector of the component and its reverse
key have nodes with the same direction. Nothing is stated about the counts of
two keys that both had a node before `ensure_undirected`. -/
theorem bfs_fallback_reverse (z : StrictZone) (adj_list : AdjListWithSub)
    (remainder : List ZoneResidue) (undirected_adj_list : AdjList)
    (r : StrictZone × AdjListWithSub × List ZoneResidue)
    (h : bfs z adj_list remainder undirected_adj_list = .ok r)
    (hfb : r.2.1.sheets_directed.getLast? = some false) :
    (∀ key ∈ r.2.1.sheets_key_vec.getLast?.getD [],
      (map_at r.2.1.data key.reverse).isSome = true) ∧
    (∃ s data short st, bfs_search z adj_list remainder undirected_adj_list = .ok s ∧
      s.fallback = true ∧
      cleanup_sheet s.zone.sub_strands.data = some (data, short) ∧
      erase_too_short s.adj_list short = .ok st ∧
      (∀ key node, map_at st.data key = some node → map_at r.2.1.data key = some node) ∧
      ∀ key ∈ st.sheets_key_vec.getLast?.getD [],
        ∀ node, map_at st.data key = some node → map_at st.data key.reverse = none →
          map_at r.2.1.data key.reverse = some node) ∧
    ((gen_index_vec z.sses).length ≤ 256 → (∀ x ∈ remainder, Canon z.sses x) →
      CanonTable z.sses z.strict → adj_symmetric undirected_adj_list →
      EdgeDirs undirected_adj_list (gen_index_vec z.sses) adj_list.data →
      ∀ key ∈ r.2.1.sheets_key_vec.getLast?.getD [],
        ∃ node node1, map_at r.2.1.data key = some node ∧
          map_at r.2.1.data key.reverse = some node1 ∧ node1.direction = node.direction) := by
  have hrev : ∀ key ∈ r.2.1.sheets_key_vec.getLast?.getD [],
      (map_at r.2.1.data key.reverse).isSome = true := by
    unfold bfs at h
    obtain ⟨s, _, hf⟩ := except_bind_ok _ _ _ h
    obtain ⟨st, st1, he, hd, hv⟩ := bfs_finish_fallback s r hf hfb
    rw [hd, hv]
    exact ensure_undirected_reverse st st1 he
  refine ⟨hrev, ?_, ?_⟩
  · unfold bfs at h
    obtain ⟨s, hs, hf⟩ := except_bind_ok _ _ _ h
    obtain ⟨data, short, st, st1, hfb2, hc, het, he, hd, _⟩ := bfs_finish_fallback_parts s r hf hfb
    rw [hd]
    exact ⟨s, data, short, st, hs, hfb2, hc, het,
      fun key node hn => ensure_undirected_keeps st st1 key node he hn,
      fun key hk node hn hr => (ensure_undirected_copy st st1 key node he hk hn hr).2⟩
  · intro hlen hrem ht hsym hdirs key hk
    obtain ⟨_, d1, v1⟩ := bfs_edges undirected_adj_list z.sses z adj_list remainder r hlen hsym
      rfl hrem ht hdirs h
    obtain ⟨node, hn⟩ := Option.isSome_iff_exists.1 (v1 key hk)
    obtain ⟨node1, hn1⟩ := Option.isSome_iff_exists.1 (hrev key hk)
    exact ⟨node, node1, hn, hn1,
      edge_dirs_reverse undirected_adj_list _ _ key node node1 hsym d1 hn hn1⟩

theorem tri_adj_symmetric : adj_symmetric tri_adj := by
  intro a b sd h
  have hm := map_at_mem _ _ _ h
  simp only [tri_adj, List.mem_cons, Prod.mk.injEq, List.mem_singleton, List.not_mem_nil,
    or_false] at hm
  rcases hm with ⟨⟨ha, hb⟩, hs⟩ | ⟨⟨ha, hb⟩, hs⟩ | ⟨⟨ha, hb⟩, hs⟩ | ⟨⟨ha, hb⟩, hs⟩ |
    ⟨⟨ha, hb⟩, hs⟩ | ⟨⟨ha, hb⟩, hs⟩ <;> subst ha <;> subst hb <;> subst hs <;>
    exact ⟨_, rfl, rfl⟩

set_option maxRecDepth 100000 in
/-- C38, witness: the zone `tri_strict` is one component that `bfs` finishes
in the fallback mode, with six edges; every key has its reverse key in the
edge map, with the same direction. The key `(0,0,2,0)` is the only one without
a reverse key after the search; its reverse `(2,0,0,0)` is added as a copy
(anti-parallel, count 1). -/
theorem bfs_fallback_reverse_witness :
    bfs tri_strict {} tri_colored tri_adj = .ok tri_bfs ∧
      tri_bfs.2.1.sheets_directed.getLast? = some false ∧
      tri_bfs.2.1.sheets_key_vec.getLast?.getD [] =
        [⟨1, 0, 0, 0⟩, ⟨0, 0, 2, 0⟩, ⟨1, 0, 2, 0⟩, ⟨2, 0, 1, 0⟩, ⟨0, 0, 1, 0⟩, ⟨2, 0, 0, 0⟩] ∧
      (∀ key ∈ tri_bfs.2.1.sheets_key_vec.getLast?.getD [],
        (map_at tri_bfs.2.1.data key.reverse).isSome = true) ∧
      (∀ key ∈ tri_bfs.2.1.sheets_key_vec.getLast?.getD [],
        ∃ node node1, map_at tri_bfs.2.1.data key = some node ∧
          map_at tri_bfs.2.1.data key.reverse = some node1 ∧
          node1.direction = node.direction) ∧
      (returned (bfs_search tri_strict {} tri_colored tri_adj)).map
          (fun s => (s.adj_list.sheets_key_vec.getLast?.getD []).filter
            (fun key => (map_at s.adj_list.data key.reverse).isNone)) = some [⟨0, 0, 2, 0⟩] ∧
      (map_at tri_bfs.2.1.data ⟨0, 0, 2, 0⟩).map (fun n => (n.direction, n.residue_pairs)) =
        some (false, 1) ∧
      (map_at tri_bfs.2.1.data ⟨2, 0, 0, 0⟩).map (fun n => (n.direction, n.residue_pairs)) =
        some (false, 1) := by
  have hz : zone_of ladder_sses tri_calls = .ok tri_strict := ok_of_returned _ _ (by decide)
  have hc : collect_colored tri_strict = .ok tri_colored := ok_of_returned _ _ (by decide)
  obtain ⟨w1, w2, w3, w4⟩ := zone_of_init ladder_sses tri_calls tri_strict hz
  have hlen : (gen_index_vec tri_strict.sses).length ≤ 256 := by rw [w1]; decide
  obtain ⟨c1, _⟩ := collect_colored_sides tri_strict tri_colored (by rw [w2, w1])
    (by rw [w3]; decide) hc
  have hb : bfs tri_strict {} tri_colored tri_adj = .ok tri_bfs := ok_of_returned _ _ (by decide)
  have hd : tri_bfs.2.1.sheets_directed.getLast? = some false := by decide
  exact ⟨hb, hd, by decide,
    (bfs_fallback_reverse tri_strict {} tri_colored tri_adj tri_bfs hb hd).1,
    (bfs_fallback_reverse tri_strict {} tri_colored tri_adj tri_bfs hb hd).2.2 hlen c1
      (by rw [w1]; exact w4) tri_adj_symmetric (fun key node hk => by cases hk),
    by decide, by decide, by decide⟩

set_option maxRecDepth 100000 in
/-- C38, counterexample: in the zone `tri_strict` the bridge of the residues 1
and 11 is counted for the key `(1,0,0,0)` before the fallback mode starts, and
the bridge of the residues 2 and 12 is counted for both keys after it: when
`bfs` returns in the fallback mode, with all residues processed, the edge
`(1,0,0,0)` has the count 2 and its reverse `(0,0,1,0)` the count 1. -/
theorem bfs_fallback_counts_counterexample :
    (returned (bfs tri_strict {} tri_colored tri_adj)).map
        (fun r => (r.2.1.sheets_directed, r.2.2.length,
          (map_at r.2.1.data ⟨1, 0, 0, 0⟩).map (fun n => (n.direction, n.residue_pairs)),
          (map_at r.2.1.data ⟨0, 0, 1, 0⟩).map (fun n => (n.direction, n.residue_pairs)))) =
      some ([false], 0, some (true, 2), some (true, 1)) := by
  decide

end sheet
